import Mathlib

/-!
# SimpleLang compiler: lexer, parser, IR generator and driver

A shallow embedding of `Token.h`, `Lexer.cpp`, `AST.h`, `Parser.cpp`,
`CodeGen.cpp` and the command line of `main.cpp`.

* Source bytes are `Char`s; a `std::string` is a `List Char` when it is
  indexed (`Lexer::input`) and a `String` when it is only built and compared
  (`Token::value`, diagnostics).
* `int line`, `int column` and `size_t current` are `Nat` (no overflow is modelled).
* The character classes `std::isdigit`, `std::isalpha`, `std::isalnum` and
  `std::isspace` are those of the "C" locale.
* Every `while` loop of the lexer is a recursion on a fuel argument that is
  instantiated with the number of bytes left, the quantity the loop decreases
  (`Lexer.skipWhitespaceLoop_stable` and its siblings: more fuel changes nothing).
  `tokenize` returns `none` if its fuel is used up; `tokenize_total` shows it is not.
* A parser method returns `Except (Failure × Nat) (α × Nat)`: the value and the
  cursor, or the failure and the cursor at which it was raised. A read outside
  the token vector is the failure `outOfBounds`.
* The mutually recursive rules of the parser recurse on a fuel argument that
  every call decreases; `parse` runs them on `parseFuel`, and
  `Parser.parse_ne_outOfFuel` shows that this fuel is never used up.
* A visit of the generator returns the generator after it, or the failure
  together with the generator at the point where it was raised. The visits
  recurse on the syntax tree. Of LLVM, the objects of a module and the place
  where the builder puts an instruction are modelled; the folder and the
  verifier are parameters (`LLVM.Backend`).
* The execution engine behind `executeJIT` is a machine that runs one
  instruction of the module per step, on a fuel argument;
  `CodeGenerator.executeJIT_more` shows that more fuel does not change a result.
* `main` is embedded up to its `try` block: the loop over the arguments and
  what it writes to `std::cout` and `std::cerr`.
-/

set_option autoImplicit false

/-! ## Token.h -/

/-- Token kinds, `enum class TokenType`. -/
inductive TokenType where
  | NUMBER | IDENTIFIER
  | VAR | FUNCTION | IF | ELSE | WHILE | RETURN | TRUE | FALSE
  | PLUS | MINUS | MULTIPLY | DIVIDE | ASSIGN
  | EQUAL | NOT_EQUAL | LESS_THAN | LESS_EQUAL | GREATER_THAN | GREATER_EQUAL
  | LOGICAL_AND | LOGICAL_OR | LOGICAL_NOT
  | LEFT_PAREN | RIGHT_PAREN | LEFT_BRACE | RIGHT_BRACE | COMMA | SEMICOLON
  | END_OF_FILE | UNKNOWN
  deriving DecidableEq, Repr

/-- A token, `struct Token`. -/
structure Token where
  type : TokenType
  value : String
  line : Nat
  column : Nat
  deriving DecidableEq, Repr

/-! ## Lexer.cpp -/

/-- The `std::isdigit` class in the "C" locale. -/
def isdigit (c : Char) : Bool := decide (48 ≤ c.toNat) && decide (c.toNat ≤ 57)

/-- The `std::isalpha` class in the "C" locale. -/
def isalpha (c : Char) : Bool :=
  (decide (65 ≤ c.toNat) && decide (c.toNat ≤ 90)) ||
  (decide (97 ≤ c.toNat) && decide (c.toNat ≤ 122))

/-- The `std::isalnum` class in the "C" locale. -/
def isalnum (c : Char) : Bool := isalpha c || isdigit c

/-- The lexer object: `input`, `current`, `line`, `column`. -/
structure Lexer where
  input : List Char
  current : Nat
  line : Nat
  column : Nat
  deriving DecidableEq, Repr

namespace Lexer

/-- The table built by `Lexer::initKeywords`, as the lookup `keywords.find`. -/
def keywords (value : String) : Option TokenType :=
  if value = "var" then some TokenType.VAR
  else if value = "function" then some TokenType.FUNCTION
  else if value = "if" then some TokenType.IF
  else if value = "else" then some TokenType.ELSE
  else if value = "while" then some TokenType.WHILE
  else if value = "return" then some TokenType.RETURN
  else if value = "true" then some TokenType.TRUE
  else if value = "false" then some TokenType.FALSE
  else none

/-- The constructor `Lexer::Lexer(input)`. -/
def init (input : List Char) : Lexer :=
  { input := input, current := 0, line := 1, column := 1 }

/-- The test `Lexer::isAtEnd`. -/
def isAtEnd (lx : Lexer) : Bool := decide (lx.current ≥ lx.input.length)

/-- The lookahead `Lexer::peek(offset)`: NUL past the end. -/
def peek (lx : Lexer) (offset : Nat) : Char :=
  let pos := lx.current + offset
  if pos ≥ lx.input.length then Char.ofNat 0 else lx.input.getD pos (Char.ofNat 0)

/-- The step `Lexer::advance`: returns the byte read and the lexer after it. -/
def advance (lx : Lexer) : Char × Lexer :=
  if lx.isAtEnd then (Char.ofNat 0, lx)
  else
    let c := lx.input.getD lx.current (Char.ofNat 0)
    if c = '\n' then
      (c, { lx with current := lx.current + 1, line := lx.line + 1, column := 1 })
    else
      (c, { lx with current := lx.current + 1, column := lx.column + 1 })

/-- The loop of `Lexer::skipWhitespace`. -/
def skipWhitespaceLoop : Nat → Lexer → Lexer
  | 0, lx => lx
  | fuel + 1, lx =>
    if !lx.isAtEnd then
      let c := lx.peek 0
      if c = ' ' ∨ c = '\t' ∨ c = '\r' ∨ c = '\n' then
        skipWhitespaceLoop fuel lx.advance.2
      else lx
    else lx

/-- The procedure `Lexer::skipWhitespace`. -/
def skipWhitespace (lx : Lexer) : Lexer :=
  skipWhitespaceLoop (lx.input.length - lx.current) lx

/-- The loop of `Lexer::skipComment`. -/
def skipCommentLoop : Nat → Lexer → Lexer
  | 0, lx => lx
  | fuel + 1, lx =>
    if lx.peek 0 ≠ '\n' ∧ !lx.isAtEnd then skipCommentLoop fuel lx.advance.2
    else lx

/-- The procedure `Lexer::skipComment`. -/
def skipComment (lx : Lexer) : Lexer :=
  if lx.peek 0 = '/' ∧ lx.peek 1 = '/' then
    skipCommentLoop (lx.input.length - lx.current) lx
  else lx

/-- The loop of `Lexer::makeNumber`, accumulating `value`. -/
def makeNumberLoop : Nat → Lexer → String → String × Lexer
  | 0, lx, value => (value, lx)
  | fuel + 1, lx, value =>
    if isdigit (lx.peek 0) then
      makeNumberLoop fuel lx.advance.2 (value.push lx.advance.1)
    else (value, lx)

/-- The builder `Lexer::makeNumber`. -/
def makeNumber (lx : Lexer) : Token × Lexer :=
  let startLine := lx.line
  let startColumn := lx.column
  let r := makeNumberLoop (lx.input.length - lx.current) lx ""
  ({ type := TokenType.NUMBER, value := r.1, line := startLine, column := startColumn }, r.2)

/-- The loop of `Lexer::makeIdentifier`, accumulating `value`. -/
def makeIdentifierLoop : Nat → Lexer → String → String × Lexer
  | 0, lx, value => (value, lx)
  | fuel + 1, lx, value =>
    if isalnum (lx.peek 0) ∨ lx.peek 0 = '_' then
      makeIdentifierLoop fuel lx.advance.2 (value.push lx.advance.1)
    else (value, lx)

/-- The builder `Lexer::makeIdentifier`. -/
def makeIdentifier (lx : Lexer) : Token × Lexer :=
  let startLine := lx.line
  let startColumn := lx.column
  let r := makeIdentifierLoop (lx.input.length - lx.current) lx ""
  let type := match keywords r.1 with
    | some k => k
    | none => TokenType.IDENTIFIER
  ({ type := type, value := r.1, line := startLine, column := startColumn }, r.2)

/-- The two lines `current--; column--;` of `Lexer::nextToken`. -/
def backUp (lx : Lexer) : Lexer :=
  { lx with current := lx.current - 1, column := lx.column - 1 }

/-- The scanner `Lexer::nextToken`. -/
def nextToken (lx0 : Lexer) : Token × Lexer :=
  let lx := skipWhitespace (skipComment (skipWhitespace lx0))
  if lx.isAtEnd then
    ({ type := TokenType.END_OF_FILE, value := "", line := lx.line, column := lx.column }, lx)
  else
    let startLine := lx.line
    let startColumn := lx.column
    let c := lx.advance.1
    let lx1 := lx.advance.2
    let tok := fun (t : TokenType) (v : String) =>
      ({ type := t, value := v, line := startLine, column := startColumn } : Token)
    let unknown := (tok TokenType.UNKNOWN (String.singleton c), lx1)
    if c = '+' then (tok TokenType.PLUS "+", lx1)
    else if c = '-' then (tok TokenType.MINUS "-", lx1)
    else if c = '*' then (tok TokenType.MULTIPLY "*", lx1)
    else if c = '/' then (tok TokenType.DIVIDE "/", lx1)
    else if c = '(' then (tok TokenType.LEFT_PAREN "(", lx1)
    else if c = ')' then (tok TokenType.RIGHT_PAREN ")", lx1)
    else if c = '{' then (tok TokenType.LEFT_BRACE "\x7b", lx1)
    else if c = '}' then (tok TokenType.RIGHT_BRACE "\x7d", lx1)
    else if c = ',' then (tok TokenType.COMMA ",", lx1)
    else if c = ';' then (tok TokenType.SEMICOLON ";", lx1)
    else if c = '!' then
      if lx1.peek 0 = '=' then (tok TokenType.NOT_EQUAL "!=", lx1.advance.2)
      else (tok TokenType.LOGICAL_NOT "!", lx1)
    else if c = '=' then
      if lx1.peek 0 = '=' then (tok TokenType.EQUAL "==", lx1.advance.2)
      else (tok TokenType.ASSIGN "=", lx1)
    else if c = '<' then
      if lx1.peek 0 = '=' then (tok TokenType.LESS_EQUAL "<=", lx1.advance.2)
      else (tok TokenType.LESS_THAN "<", lx1)
    else if c = '>' then
      if lx1.peek 0 = '=' then (tok TokenType.GREATER_EQUAL ">=", lx1.advance.2)
      else (tok TokenType.GREATER_THAN ">", lx1)
    else if c = '&' then
      if lx1.peek 0 = '&' then (tok TokenType.LOGICAL_AND "&&", lx1.advance.2)
      else unknown
    else if c = '|' then
      if lx1.peek 0 = '|' then (tok TokenType.LOGICAL_OR "||", lx1.advance.2)
      else unknown
    else if isdigit c then makeNumber (backUp lx1)
    else if isalpha c ∨ c = '_' then makeIdentifier (backUp lx1)
    else unknown

/-- The loop of `Lexer::tokenize`; `none` when the fuel is used up before
`END_OF_FILE` is read. -/
def tokenizeLoop : Nat → Lexer → List Token → Option (List Token)
  | 0, _, _ => none
  | fuel + 1, lx, tokens =>
    let r := nextToken lx
    if r.1.type ≠ TokenType.END_OF_FILE then tokenizeLoop fuel r.2 (tokens ++ [r.1])
    else some (tokens ++ [r.1])

/-- The method `Lexer::tokenize` on a lexer object. -/
def tokenizeFrom (lx : Lexer) : Option (List Token) :=
  tokenizeLoop (lx.input.length - lx.current + 1) lx []

end Lexer

/-- `Lexer(source).tokenize()`. -/
def tokenize (source : String) : Option (List Token) :=
  Lexer.tokenizeFrom (Lexer.init source.toList)

/-! ## AST.h -/

/-- Expression nodes (`class Expression` and its subclasses). -/
inductive Expression where
  | NumberLiteral (value : Int)
  | BooleanLiteral (value : Bool)
  | Variable (name : String)
  | BinaryOperation (left : Expression) (operator_ : String) (right : Expression)
  | UnaryOperation (operator_ : String) (operand : Expression)
  | FunctionCall (name : String) (arguments : List Expression)
  deriving Repr

/-- Statement nodes (`class Statement` and its subclasses). A `unique_ptr` that
may be `nullptr` is an `Option`; the `unique_ptr<Block>` body of a function
declaration is the statement list of that block. -/
inductive Statement where
  | VariableDeclaration (name : String) (initializer : Option Expression)
  | Assignment (name : String) (value : Expression)
  | IfStatement (condition : Expression) (thenBranch : Statement) (elseBranch : Option Statement)
  | WhileStatement (condition : Expression) (body : Statement)
  | Block (statements : List Statement)
  | FunctionDeclaration (name : String) (parameters : List String) (body : List Statement)
  | ReturnStatement (value : Option Expression)
  | ExpressionStatement (expression : Expression)
  deriving Repr

/-- The root node `class Program`. -/
structure Program where
  statements : List Statement
  deriving Repr

/-! ### Decidable equality of syntax trees -/

mutual
/-- Structural equality test on expressions. -/
def Expression.beq : Expression → Expression → Bool
  | Expression.NumberLiteral a, Expression.NumberLiteral b => decide (a = b)
  | Expression.BooleanLiteral a, Expression.BooleanLiteral b => decide (a = b)
  | Expression.Variable a, Expression.Variable b => decide (a = b)
  | Expression.BinaryOperation l o r, Expression.BinaryOperation l' o' r' =>
    Expression.beq l l' && decide (o = o') && Expression.beq r r'
  | Expression.UnaryOperation o e, Expression.UnaryOperation o' e' =>
    decide (o = o') && Expression.beq e e'
  | Expression.FunctionCall n as, Expression.FunctionCall n' as' =>
    decide (n = n') && Expression.beqList as as'
  | _, _ => false
/-- Structural equality test on expression lists. -/
def Expression.beqList : List Expression → List Expression → Bool
  | [], [] => true
  | a :: as, b :: bs => Expression.beq a b && Expression.beqList as bs
  | _, _ => false
end

mutual
theorem expr_eq_of_beq : ∀ (a b : Expression), Expression.beq a b = true → a = b
  | Expression.NumberLiteral a, Expression.NumberLiteral b, h => by
    simp [Expression.beq] at h; rw [h]
  | Expression.BooleanLiteral a, Expression.BooleanLiteral b, h => by
    simp [Expression.beq] at h; rw [h]
  | Expression.Variable a, Expression.Variable b, h => by
    simp [Expression.beq] at h; rw [h]
  | Expression.BinaryOperation l o r, Expression.BinaryOperation l' o' r', h => by
    simp [Expression.beq] at h
    rw [expr_eq_of_beq l l' h.1.1, h.1.2, expr_eq_of_beq r r' h.2]
  | Expression.UnaryOperation o e, Expression.UnaryOperation o' e', h => by
    simp [Expression.beq] at h
    rw [h.1, expr_eq_of_beq e e' h.2]
  | Expression.FunctionCall n as, Expression.FunctionCall n' as', h => by
    simp [Expression.beq] at h
    rw [h.1, exprList_eq_of_beq as as' h.2]
theorem exprList_eq_of_beq :
    ∀ (a b : List Expression), Expression.beqList a b = true → a = b
  | [], [], _ => rfl
  | a :: as, b :: bs, h => by
    simp [Expression.beqList] at h
    rw [expr_eq_of_beq a b h.1, exprList_eq_of_beq as bs h.2]
end

mutual
theorem expr_beq_self : ∀ (a : Expression), Expression.beq a a = true
  | Expression.NumberLiteral _ => by simp [Expression.beq]
  | Expression.BooleanLiteral _ => by simp [Expression.beq]
  | Expression.Variable _ => by simp [Expression.beq]
  | Expression.BinaryOperation l _ r => by
    simp [Expression.beq, expr_beq_self l, expr_beq_self r]
  | Expression.UnaryOperation _ e => by simp [Expression.beq, expr_beq_self e]
  | Expression.FunctionCall _ as => by simp [Expression.beq, exprList_beq_self as]
theorem exprList_beq_self : ∀ (a : List Expression), Expression.beqList a a = true
  | [] => rfl
  | a :: as => by simp [Expression.beqList, expr_beq_self a, exprList_beq_self as]
end

instance : DecidableEq Expression := fun a b =>
  if h : Expression.beq a b = true then isTrue (expr_eq_of_beq a b h)
  else isFalse (fun heq => h (heq ▸ expr_beq_self a))

mutual
/-- Structural equality test on statements. -/
def Statement.beq : Statement → Statement → Bool
  | Statement.VariableDeclaration n i, Statement.VariableDeclaration n' i' =>
    decide (n = n') && decide (i = i')
  | Statement.Assignment n v, Statement.Assignment n' v' => decide (n = n') && decide (v = v')
  | Statement.IfStatement c t e, Statement.IfStatement c' t' e' =>
    decide (c = c') && Statement.beq t t' && Statement.beqOption e e'
  | Statement.WhileStatement c b, Statement.WhileStatement c' b' =>
    decide (c = c') && Statement.beq b b'
  | Statement.Block s, Statement.Block s' => Statement.beqList s s'
  | Statement.FunctionDeclaration n p b, Statement.FunctionDeclaration n' p' b' =>
    decide (n = n') && decide (p = p') && Statement.beqList b b'
  | Statement.ReturnStatement v, Statement.ReturnStatement v' => decide (v = v')
  | Statement.ExpressionStatement e, Statement.ExpressionStatement e' => decide (e = e')
  | _, _ => false
/-- Structural equality test on optional statements. -/
def Statement.beqOption : Option Statement → Option Statement → Bool
  | none, none => true
  | some a, some b => Statement.beq a b
  | _, _ => false
/-- Structural equality test on statement lists. -/
def Statement.beqList : List Statement → List Statement → Bool
  | [], [] => true
  | a :: as, b :: bs => Statement.beq a b && Statement.beqList as bs
  | _, _ => false
end

mutual
theorem stmt_eq_of_beq : ∀ (a b : Statement), Statement.beq a b = true → a = b
  | Statement.VariableDeclaration n i, Statement.VariableDeclaration n' i', h => by
    simp [Statement.beq] at h; rw [h.1, h.2]
  | Statement.Assignment n v, Statement.Assignment n' v', h => by
    simp [Statement.beq] at h; rw [h.1, h.2]
  | Statement.IfStatement c t e, Statement.IfStatement c' t' e', h => by
    simp [Statement.beq] at h
    rw [h.1.1, stmt_eq_of_beq t t' h.1.2, stmtOption_eq_of_beq e e' h.2]
  | Statement.WhileStatement c b, Statement.WhileStatement c' b', h => by
    simp [Statement.beq] at h
    rw [h.1, stmt_eq_of_beq b b' h.2]
  | Statement.Block s, Statement.Block s', h => by
    simp [Statement.beq] at h
    rw [stmtList_eq_of_beq s s' h]
  | Statement.FunctionDeclaration n p b, Statement.FunctionDeclaration n' p' b', h => by
    simp [Statement.beq] at h
    rw [h.1.1, h.1.2, stmtList_eq_of_beq b b' h.2]
  | Statement.ReturnStatement v, Statement.ReturnStatement v', h => by
    simp [Statement.beq] at h; rw [h]
  | Statement.ExpressionStatement e, Statement.ExpressionStatement e', h => by
    simp [Statement.beq] at h; rw [h]
theorem stmtOption_eq_of_beq :
    ∀ (a b : Option Statement), Statement.beqOption a b = true → a = b
  | none, none, _ => rfl
  | some a, some b, h => by
    simp [Statement.beqOption] at h
    rw [stmt_eq_of_beq a b h]
theorem stmtList_eq_of_beq :
    ∀ (a b : List Statement), Statement.beqList a b = true → a = b
  | [], [], _ => rfl
  | a :: as, b :: bs, h => by
    simp [Statement.beqList] at h
    rw [stmt_eq_of_beq a b h.1, stmtList_eq_of_beq as bs h.2]
end

mutual
theorem stmt_beq_self : ∀ (a : Statement), Statement.beq a a = true
  | Statement.VariableDeclaration _ _ => by simp [Statement.beq]
  | Statement.Assignment _ _ => by simp [Statement.beq]
  | Statement.IfStatement _ t e => by
    simp [Statement.beq, stmt_beq_self t, stmtOption_beq_self e]
  | Statement.WhileStatement _ b => by simp [Statement.beq, stmt_beq_self b]
  | Statement.Block s => by simp [Statement.beq, stmtList_beq_self s]
  | Statement.FunctionDeclaration _ _ b => by simp [Statement.beq, stmtList_beq_self b]
  | Statement.ReturnStatement _ => by simp [Statement.beq]
  | Statement.ExpressionStatement _ => by simp [Statement.beq]
theorem stmtOption_beq_self : ∀ (a : Option Statement), Statement.beqOption a a = true
  | none => rfl
  | some a => by simp [Statement.beqOption, stmt_beq_self a]
theorem stmtList_beq_self : ∀ (a : List Statement), Statement.beqList a a = true
  | [] => rfl
  | a :: as => by simp [Statement.beqList, stmt_beq_self a, stmtList_beq_self as]
end

instance : DecidableEq Statement := fun a b =>
  if h : Statement.beq a b = true then isTrue (stmt_eq_of_beq a b h)
  else isFalse (fun heq => h (heq ▸ stmt_beq_self a))

instance : DecidableEq Program := fun a b =>
  if h : a.statements = b.statements then isTrue (by cases a; cases b; simp_all)
  else isFalse (fun heq => h (heq ▸ rfl))

deriving instance DecidableEq for Except


/-! ## Parser.cpp -/

/-- The ways a call into the parser can end without a value. -/
inductive Failure where
  /-- A thrown `ParseError` with its `what()` text. -/
  | ParseError (message : String)
  /-- `std::out_of_range` thrown by `std::stoi`. -/
  | out_of_range
  /-- `std::invalid_argument` thrown by `std::stoi`. -/
  | invalid_argument
  /-- A read of `tokens[i]` with `i` outside the vector (undefined behaviour). -/
  | outOfBounds
  /-- The recursion budget of the embedding is used up (not a behaviour of the code). -/
  | outOfFuel
  deriving DecidableEq, Repr

/-- The `std::isspace` class in the "C" locale. -/
def isspace (c : Char) : Bool :=
  decide (c.toNat = 32) || (decide (9 ≤ c.toNat) && decide (c.toNat ≤ 13))

/-- The value of a run of decimal digits, most significant first. -/
def digitsValue (ds : List Char) : Nat :=
  ds.foldl (fun acc d => 10 * acc + (d.toNat - 48)) 0

/-- `std::stoi(str)` (base 10): leading white space is skipped, one sign is
accepted, the longest run of digits is converted, and the result must fit `int`. -/
def stoi (str : String) : Except Failure Int :=
  let s := str.toList.dropWhile isspace
  let negative := decide (s.head? = some '-')
  let s := if s.head? = some '-' ∨ s.head? = some '+' then s.tail else s
  let ds := s.takeWhile isdigit
  if ds = [] then Except.error Failure.invalid_argument
  else
    let n : Int := if negative then - (digitsValue ds : Int) else (digitsValue ds : Int)
    if n < -2147483648 ∨ 2147483647 < n then Except.error Failure.out_of_range
    else Except.ok n

/-- `std::to_string` of a non-negative `int`. -/
def to_string (n : Nat) : String := toString n

namespace Parser

/-- What a parser method leaves behind: a value and the cursor `current`, or
the failure together with the cursor at the point where it was raised. -/
abbrev Result (α : Type) : Type := Except (Failure × Nat) (α × Nat)

/-- The read `Parser::peek`: `tokens[current]`. -/
def peek (tokens : List Token) (current : Nat) : Except (Failure × Nat) Token :=
  match tokens[current]? with
  | some t => Except.ok t
  | none => Except.error (Failure.outOfBounds, current)

/-- The read `Parser::previous`: `tokens[current - 1]`. -/
def previous (tokens : List Token) (current : Nat) : Except (Failure × Nat) Token :=
  if current = 0 then Except.error (Failure.outOfBounds, current)
  else
    match tokens[current - 1]? with
    | some t => Except.ok t
    | none => Except.error (Failure.outOfBounds, current)

/-- The test `Parser::isAtEnd`. -/
def isAtEnd (tokens : List Token) (current : Nat) : Except (Failure × Nat) Bool :=
  match peek tokens current with
  | Except.ok t => Except.ok (decide (t.type = TokenType.END_OF_FILE))
  | Except.error e => Except.error e

/-- The step `Parser::advance`: the token returned and the new cursor. -/
def advance (tokens : List Token) (current : Nat) : Result Token :=
  match isAtEnd tokens current with
  | Except.error e => Except.error e
  | Except.ok atEnd =>
    let current := if !atEnd then current + 1 else current
    match previous tokens current with
    | Except.ok t => Except.ok (t, current)
    | Except.error e => Except.error e

/-- The test `Parser::check`. -/
def check (tokens : List Token) (current : Nat) (type : TokenType) :
    Except (Failure × Nat) Bool :=
  match isAtEnd tokens current with
  | Except.error e => Except.error e
  | Except.ok true => Except.ok false
  | Except.ok false =>
    match peek tokens current with
    | Except.ok t => Except.ok (decide (t.type = type))
    | Except.error e => Except.error e

/-- The helper `Parser::match`: whether one of `types` was consumed, and the cursor. -/
def match_ (tokens : List Token) (current : Nat) : List TokenType → Result Bool
  | [] => Except.ok (false, current)
  | type :: types =>
    match check tokens current type with
    | Except.error e => Except.error e
    | Except.ok true =>
      match advance tokens current with
      | Except.ok r => Except.ok (true, r.2)
      | Except.error e => Except.error e
    | Except.ok false => match_ tokens current types

/-- The text of the `ParseError` thrown by `Parser::consume`. -/
def consumeMessage (current_token : Token) (message : String) : String :=
  "Line " ++ to_string current_token.line ++ ", Column " ++ to_string current_token.column ++
    ": " ++ message ++ ". Got '" ++ current_token.value ++ "'"

/-- The helper `Parser::consume`. -/
def consume (tokens : List Token) (current : Nat) (type : TokenType) (message : String) :
    Result Token :=
  match check tokens current type with
  | Except.error e => Except.error e
  | Except.ok true => advance tokens current
  | Except.ok false =>
    match peek tokens current with
    | Except.ok current_token =>
      Except.error (Failure.ParseError (consumeMessage current_token message), current)
    | Except.error e => Except.error e

/-- The text of the `ParseError` thrown at the end of `Parser::primary`. -/
def primaryMessage (current_token : Token) : String :=
  "Line " ++ to_string current_token.line ++ ", Column " ++ to_string current_token.column ++
    ": Unexpected token '" ++ current_token.value ++ "'"

mutual

/-- The rule `Parser::expression`. -/
def expression : Nat → List Token → Nat → Result Expression
  | 0, _, current => Except.error (Failure.outOfFuel, current)
  | fuel + 1, tokens, current => logicalOr fuel tokens current

/-- The rule `Parser::logicalOr`. -/
def logicalOr : Nat → List Token → Nat → Result Expression
  | 0, _, current => Except.error (Failure.outOfFuel, current)
  | fuel + 1, tokens, current =>
    match logicalAnd fuel tokens current with
    | Except.error e => Except.error e
    | Except.ok r => logicalOrLoop fuel tokens r.1 r.2

/-- The `while (match(...))` loop of `Parser::logicalOr`, from `expr` at `current`. -/
def logicalOrLoop : Nat → List Token → Expression → Nat → Result Expression
  | 0, _, _, current => Except.error (Failure.outOfFuel, current)
  | fuel + 1, tokens, expr, current =>
    match match_ tokens current [TokenType.LOGICAL_OR] with
    | Except.error e => Except.error e
    | Except.ok (false, current) => Except.ok (expr, current)
    | Except.ok (true, current) =>
      match previous tokens current with
      | Except.error e => Except.error e
      | Except.ok operator_ =>
        match logicalAnd fuel tokens current with
        | Except.error e => Except.error e
        | Except.ok right =>
          logicalOrLoop fuel tokens
            (Expression.BinaryOperation expr operator_.value right.1) right.2

/-- The rule `Parser::logicalAnd`. -/
def logicalAnd : Nat → List Token → Nat → Result Expression
  | 0, _, current => Except.error (Failure.outOfFuel, current)
  | fuel + 1, tokens, current =>
    match equality fuel tokens current with
    | Except.error e => Except.error e
    | Except.ok r => logicalAndLoop fuel tokens r.1 r.2

/-- The `while (match(...))` loop of `Parser::logicalAnd`, from `expr` at `current`. -/
def logicalAndLoop : Nat → List Token → Expression → Nat → Result Expression
  | 0, _, _, current => Except.error (Failure.outOfFuel, current)
  | fuel + 1, tokens, expr, current =>
    match match_ tokens current [TokenType.LOGICAL_AND] with
    | Except.error e => Except.error e
    | Except.ok (false, current) => Except.ok (expr, current)
    | Except.ok (true, current) =>
      match previous tokens current with
      | Except.error e => Except.error e
      | Except.ok operator_ =>
        match equality fuel tokens current with
        | Except.error e => Except.error e
        | Except.ok right =>
          logicalAndLoop fuel tokens
            (Expression.BinaryOperation expr operator_.value right.1) right.2

/-- The rule `Parser::equality`. -/
def equality : Nat → List Token → Nat → Result Expression
  | 0, _, current => Except.error (Failure.outOfFuel, current)
  | fuel + 1, tokens, current =>
    match comparison fuel tokens current with
    | Except.error e => Except.error e
    | Except.ok r => equalityLoop fuel tokens r.1 r.2

/-- The `while (match(...))` loop of `Parser::equality`, from `expr` at `current`. -/
def equalityLoop : Nat → List Token → Expression → Nat → Result Expression
  | 0, _, _, current => Except.error (Failure.outOfFuel, current)
  | fuel + 1, tokens, expr, current =>
    match match_ tokens current [TokenType.NOT_EQUAL, TokenType.EQUAL] with
    | Except.error e => Except.error e
    | Except.ok (false, current) => Except.ok (expr, current)
    | Except.ok (true, current) =>
      match previous tokens current with
      | Except.error e => Except.error e
      | Except.ok operator_ =>
        match comparison fuel tokens current with
        | Except.error e => Except.error e
        | Except.ok right =>
          equalityLoop fuel tokens
            (Expression.BinaryOperation expr operator_.value right.1) right.2

/-- The rule `Parser::comparison`. -/
def comparison : Nat → List Token → Nat → Result Expression
  | 0, _, current => Except.error (Failure.outOfFuel, current)
  | fuel + 1, tokens, current =>
    match term fuel tokens current with
    | Except.error e => Except.error e
    | Except.ok r => comparisonLoop fuel tokens r.1 r.2

/-- The `while (match(...))` loop of `Parser::comparison`, from `expr` at `current`. -/
def comparisonLoop : Nat → List Token → Expression → Nat → Result Expression
  | 0, _, _, current => Except.error (Failure.outOfFuel, current)
  | fuel + 1, tokens, expr, current =>
    match match_ tokens current [TokenType.GREATER_THAN, TokenType.GREATER_EQUAL,
        TokenType.LESS_THAN, TokenType.LESS_EQUAL] with
    | Except.error e => Except.error e
    | Except.ok (false, current) => Except.ok (expr, current)
    | Except.ok (true, current) =>
      match previous tokens current with
      | Except.error e => Except.error e
      | Except.ok operator_ =>
        match term fuel tokens current with
        | Except.error e => Except.error e
        | Except.ok right =>
          comparisonLoop fuel tokens
            (Expression.BinaryOperation expr operator_.value right.1) right.2

/-- The rule `Parser::term`. -/
def term : Nat → List Token → Nat → Result Expression
  | 0, _, current => Except.error (Failure.outOfFuel, current)
  | fuel + 1, tokens, current =>
    match factor fuel tokens current with
    | Except.error e => Except.error e
    | Except.ok r => termLoop fuel tokens r.1 r.2

/-- The `while (match(...))` loop of `Parser::term`, from `expr` at `current`. -/
def termLoop : Nat → List Token → Expression → Nat → Result Expression
  | 0, _, _, current => Except.error (Failure.outOfFuel, current)
  | fuel + 1, tokens, expr, current =>
    match match_ tokens current [TokenType.MINUS, TokenType.PLUS] with
    | Except.error e => Except.error e
    | Except.ok (false, current) => Except.ok (expr, current)
    | Except.ok (true, current) =>
      match previous tokens current with
      | Except.error e => Except.error e
      | Except.ok operator_ =>
        match factor fuel tokens current with
        | Except.error e => Except.error e
        | Except.ok right =>
          termLoop fuel tokens
            (Expression.BinaryOperation expr operator_.value right.1) right.2

/-- The rule `Parser::factor`. -/
def factor : Nat → List Token → Nat → Result Expression
  | 0, _, current => Except.error (Failure.outOfFuel, current)
  | fuel + 1, tokens, current =>
    match unary fuel tokens current with
    | Except.error e => Except.error e
    | Except.ok r => factorLoop fuel tokens r.1 r.2

/-- The `while (match(...))` loop of `Parser::factor`, from `expr` at `current`. -/
def factorLoop : Nat → List Token → Expression → Nat → Result Expression
  | 0, _, _, current => Except.error (Failure.outOfFuel, current)
  | fuel + 1, tokens, expr, current =>
    match match_ tokens current [TokenType.DIVIDE, TokenType.MULTIPLY] with
    | Except.error e => Except.error e
    | Except.ok (false, current) => Except.ok (expr, current)
    | Except.ok (true, current) =>
      match previous tokens current with
      | Except.error e => Except.error e
      | Except.ok operator_ =>
        match unary fuel tokens current with
        | Except.error e => Except.error e
        | Except.ok right =>
          factorLoop fuel tokens
            (Expression.BinaryOperation expr operator_.value right.1) right.2

/-- The rule `Parser::unary`. -/
def unary : Nat → List Token → Nat → Result Expression
  | 0, _, current => Except.error (Failure.outOfFuel, current)
  | fuel + 1, tokens, current =>
    match match_ tokens current [TokenType.LOGICAL_NOT, TokenType.MINUS] with
    | Except.error e => Except.error e
    | Except.ok (true, current) =>
      match previous tokens current with
      | Except.error e => Except.error e
      | Except.ok operator_ =>
        match unary fuel tokens current with
        | Except.error e => Except.error e
        | Except.ok right => Except.ok (Expression.UnaryOperation operator_.value right.1, right.2)
    | Except.ok (false, current) => call fuel tokens current

/-- The rule `Parser::call`. -/
def call : Nat → List Token → Nat → Result Expression
  | 0, _, current => Except.error (Failure.outOfFuel, current)
  | fuel + 1, tokens, current =>
    match primary fuel tokens current with
    | Except.error e => Except.error e
    | Except.ok r => callLoop fuel tokens r.1 r.2

/-- The `while (true)` loop of `Parser::call`, from `expr` at `current`. -/
def callLoop : Nat → List Token → Expression → Nat → Result Expression
  | 0, _, _, current => Except.error (Failure.outOfFuel, current)
  | fuel + 1, tokens, expr, current =>
    match match_ tokens current [TokenType.LEFT_PAREN] with
    | Except.error e => Except.error e
    | Except.ok (false, current) => Except.ok (expr, current)
    | Except.ok (true, current) =>
      match expr with
      | Expression.Variable function_name =>
        match check tokens current TokenType.RIGHT_PAREN with
        | Except.error e => Except.error e
        | Except.ok closing =>
          match (if !closing then callArguments fuel tokens [] current
                 else Except.ok ([], current)) with
          | Except.error e => Except.error e
          | Except.ok arguments =>
            match consume tokens arguments.2 TokenType.RIGHT_PAREN
                "Expected ')' after arguments" with
            | Except.error e => Except.error e
            | Except.ok r =>
              callLoop fuel tokens (Expression.FunctionCall function_name arguments.1) r.2
      | _ =>
        Except.error
          (Failure.ParseError "Only identifiers can be called as functions", current)

/-- The `do ... while (match({COMMA}))` loop of `Parser::call`, from the
arguments gathered so far. -/
def callArguments : Nat → List Token → List Expression → Nat → Result (List Expression)
  | 0, _, _, current => Except.error (Failure.outOfFuel, current)
  | fuel + 1, tokens, arguments, current =>
    match expression fuel tokens current with
    | Except.error e => Except.error e
    | Except.ok r =>
      match match_ tokens r.2 [TokenType.COMMA] with
      | Except.error e => Except.error e
      | Except.ok (true, current) => callArguments fuel tokens (arguments ++ [r.1]) current
      | Except.ok (false, current) => Except.ok (arguments ++ [r.1], current)

/-- The rule `Parser::primary`. -/
def primary : Nat → List Token → Nat → Result Expression
  | 0, _, current => Except.error (Failure.outOfFuel, current)
  | fuel + 1, tokens, current =>
    match match_ tokens current [TokenType.TRUE] with
    | Except.error e => Except.error e
    | Except.ok (true, current) => Except.ok (Expression.BooleanLiteral true, current)
    | Except.ok (false, current) =>
    match match_ tokens current [TokenType.FALSE] with
    | Except.error e => Except.error e
    | Except.ok (true, current) => Except.ok (Expression.BooleanLiteral false, current)
    | Except.ok (false, current) =>
    match match_ tokens current [TokenType.NUMBER] with
    | Except.error e => Except.error e
    | Except.ok (true, current) =>
      match previous tokens current with
      | Except.error e => Except.error e
      | Except.ok t =>
        match stoi t.value with
        | Except.error e => Except.error (e, current)
        | Except.ok value => Except.ok (Expression.NumberLiteral value, current)
    | Except.ok (false, current) =>
    match match_ tokens current [TokenType.IDENTIFIER] with
    | Except.error e => Except.error e
    | Except.ok (true, current) =>
      match previous tokens current with
      | Except.error e => Except.error e
      | Except.ok t => Except.ok (Expression.Variable t.value, current)
    | Except.ok (false, current) =>
    match match_ tokens current [TokenType.LEFT_PAREN] with
    | Except.error e => Except.error e
    | Except.ok (true, current) =>
      match expression fuel tokens current with
      | Except.error e => Except.error e
      | Except.ok expr =>
        match consume tokens expr.2 TokenType.RIGHT_PAREN "Expected ')' after expression" with
        | Except.error e => Except.error e
        | Except.ok r => Except.ok (expr.1, r.2)
    | Except.ok (false, current) =>
    match peek tokens current with
    | Except.error e => Except.error e
    | Except.ok current_token =>
      Except.error (Failure.ParseError (primaryMessage current_token), current)

end

/-- The rule `Parser::varDeclaration` (the `VAR` token is already consumed). -/
def varDeclaration (fuel : Nat) (tokens : List Token) (current : Nat) : Result Statement :=
  match consume tokens current TokenType.IDENTIFIER "Expected variable name" with
  | Except.error e => Except.error e
  | Except.ok name =>
    match match_ tokens name.2 [TokenType.ASSIGN] with
    | Except.error e => Except.error e
    | Except.ok m =>
      match (if m.1 then
               match expression fuel tokens m.2 with
               | Except.error e => Except.error e
               | Except.ok r => Except.ok (some r.1, r.2)
             else Except.ok (none, m.2) : Result (Option Expression)) with
      | Except.error e => Except.error e
      | Except.ok initializer =>
        match consume tokens initializer.2 TokenType.SEMICOLON
            "Expected ';' after variable declaration" with
        | Except.error e => Except.error e
        | Except.ok r =>
          Except.ok (Statement.VariableDeclaration name.1.value initializer.1, r.2)

/-- The rule `Parser::assignment`. -/
def assignment (fuel : Nat) (tokens : List Token) (current : Nat) : Result Statement :=
  match consume tokens current TokenType.IDENTIFIER "Expected variable name" with
  | Except.error e => Except.error e
  | Except.ok name =>
    match consume tokens name.2 TokenType.ASSIGN "Expected '='" with
    | Except.error e => Except.error e
    | Except.ok eq =>
      match expression fuel tokens eq.2 with
      | Except.error e => Except.error e
      | Except.ok value =>
        match consume tokens value.2 TokenType.SEMICOLON "Expected ';' after assignment" with
        | Except.error e => Except.error e
        | Except.ok r => Except.ok (Statement.Assignment name.1.value value.1, r.2)

/-- The rule `Parser::returnStatement` (the `RETURN` token is already consumed). -/
def returnStatement (fuel : Nat) (tokens : List Token) (current : Nat) : Result Statement :=
  match check tokens current TokenType.SEMICOLON with
  | Except.error e => Except.error e
  | Except.ok semi =>
    match (if !semi then
             match expression fuel tokens current with
             | Except.error e => Except.error e
             | Except.ok r => Except.ok (some r.1, r.2)
           else Except.ok (none, current) : Result (Option Expression)) with
    | Except.error e => Except.error e
    | Except.ok value =>
      match consume tokens value.2 TokenType.SEMICOLON "Expected ';' after return value" with
      | Except.error e => Except.error e
      | Except.ok r => Except.ok (Statement.ReturnStatement value.1, r.2)

/-- The rule `Parser::expressionStatement`. -/
def expressionStatement (fuel : Nat) (tokens : List Token) (current : Nat) : Result Statement :=
  match expression fuel tokens current with
  | Except.error e => Except.error e
  | Except.ok expr =>
    match consume tokens expr.2 TokenType.SEMICOLON "Expected ';' after expression" with
    | Except.error e => Except.error e
    | Except.ok r => Except.ok (Statement.ExpressionStatement expr.1, r.2)

/-- The `do ... while (match({COMMA}))` loop of `Parser::functionDeclaration`,
from the parameters gathered so far. -/
def parameterLoop : Nat → List Token → List String → Nat → Result (List String)
  | 0, _, _, current => Except.error (Failure.outOfFuel, current)
  | fuel + 1, tokens, parameters, current =>
    match consume tokens current TokenType.IDENTIFIER "Expected parameter name" with
    | Except.error e => Except.error e
    | Except.ok param =>
      match match_ tokens param.2 [TokenType.COMMA] with
      | Except.error e => Except.error e
      | Except.ok (true, current) => parameterLoop fuel tokens (parameters ++ [param.1.value]) current
      | Except.ok (false, current) => Except.ok (parameters ++ [param.1.value], current)

mutual

/-- The rule `Parser::statement`. -/
def statement : Nat → List Token → Nat → Result Statement
  | 0, _, current => Except.error (Failure.outOfFuel, current)
  | fuel + 1, tokens, current =>
    match match_ tokens current [TokenType.VAR] with
    | Except.error e => Except.error e
    | Except.ok (true, current) => varDeclaration fuel tokens current
    | Except.ok (false, current) =>
    match match_ tokens current [TokenType.IF] with
    | Except.error e => Except.error e
    | Except.ok (true, current) => ifStatement fuel tokens current
    | Except.ok (false, current) =>
    match match_ tokens current [TokenType.WHILE] with
    | Except.error e => Except.error e
    | Except.ok (true, current) => whileStatement fuel tokens current
    | Except.ok (false, current) =>
    match match_ tokens current [TokenType.FUNCTION] with
    | Except.error e => Except.error e
    | Except.ok (true, current) => functionDeclaration fuel tokens current
    | Except.ok (false, current) =>
    match match_ tokens current [TokenType.RETURN] with
    | Except.error e => Except.error e
    | Except.ok (true, current) => returnStatement fuel tokens current
    | Except.ok (false, current) =>
    match match_ tokens current [TokenType.LEFT_BRACE] with
    | Except.error e => Except.error e
    | Except.ok (true, current) =>
      match block fuel tokens current with
      | Except.error e => Except.error e
      | Except.ok r => Except.ok (Statement.Block r.1, r.2)
    | Except.ok (false, current) =>
    match check tokens current TokenType.IDENTIFIER with
    | Except.error e => Except.error e
    | Except.ok false => expressionStatement fuel tokens current
    | Except.ok true =>
      let saved_current := current
      match advance tokens current with
      | Except.error e => Except.error e
      | Except.ok a =>
        match check tokens a.2 TokenType.ASSIGN with
        | Except.error e => Except.error e
        | Except.ok true => assignment fuel tokens saved_current
        | Except.ok false => expressionStatement fuel tokens saved_current

/-- The rule `Parser::ifStatement` (the `IF` token is already consumed). -/
def ifStatement : Nat → List Token → Nat → Result Statement
  | 0, _, current => Except.error (Failure.outOfFuel, current)
  | fuel + 1, tokens, current =>
    match consume tokens current TokenType.LEFT_PAREN "Expected '(' after 'if'" with
    | Except.error e => Except.error e
    | Except.ok l =>
      match expression fuel tokens l.2 with
      | Except.error e => Except.error e
      | Except.ok condition =>
        match consume tokens condition.2 TokenType.RIGHT_PAREN
            "Expected ')' after if condition" with
        | Except.error e => Except.error e
        | Except.ok r =>
          match statement fuel tokens r.2 with
          | Except.error e => Except.error e
          | Except.ok thenBranch =>
            match match_ tokens thenBranch.2 [TokenType.ELSE] with
            | Except.error e => Except.error e
            | Except.ok (true, current) =>
              match statement fuel tokens current with
              | Except.error e => Except.error e
              | Except.ok elseBranch =>
                Except.ok (Statement.IfStatement condition.1 thenBranch.1 (some elseBranch.1),
                  elseBranch.2)
            | Except.ok (false, current) =>
              Except.ok (Statement.IfStatement condition.1 thenBranch.1 none, current)

/-- The rule `Parser::whileStatement` (the `WHILE` token is already consumed). -/
def whileStatement : Nat → List Token → Nat → Result Statement
  | 0, _, current => Except.error (Failure.outOfFuel, current)
  | fuel + 1, tokens, current =>
    match consume tokens current TokenType.LEFT_PAREN "Expected '(' after 'while'" with
    | Except.error e => Except.error e
    | Except.ok l =>
      match expression fuel tokens l.2 with
      | Except.error e => Except.error e
      | Except.ok condition =>
        match consume tokens condition.2 TokenType.RIGHT_PAREN
            "Expected ')' after while condition" with
        | Except.error e => Except.error e
        | Except.ok r =>
          match statement fuel tokens r.2 with
          | Except.error e => Except.error e
          | Except.ok body => Except.ok (Statement.WhileStatement condition.1 body.1, body.2)

/-- The rule `Parser::functionDeclaration` (the `FUNCTION` token is already consumed). -/
def functionDeclaration : Nat → List Token → Nat → Result Statement
  | 0, _, current => Except.error (Failure.outOfFuel, current)
  | fuel + 1, tokens, current =>
    match consume tokens current TokenType.IDENTIFIER "Expected function name" with
    | Except.error e => Except.error e
    | Except.ok name =>
      match consume tokens name.2 TokenType.LEFT_PAREN "Expected '(' after function name" with
      | Except.error e => Except.error e
      | Except.ok l =>
        match check tokens l.2 TokenType.RIGHT_PAREN with
        | Except.error e => Except.error e
        | Except.ok closing =>
          match (if !closing then parameterLoop fuel tokens [] l.2
                 else Except.ok ([], l.2)) with
          | Except.error e => Except.error e
          | Except.ok parameters =>
            match consume tokens parameters.2 TokenType.RIGHT_PAREN
                "Expected ')' after parameters" with
            | Except.error e => Except.error e
            | Except.ok r =>
              match consume tokens r.2 TokenType.LEFT_BRACE
                  "Expected '\x7b' before function body" with
              | Except.error e => Except.error e
              | Except.ok b =>
                match block fuel tokens b.2 with
                | Except.error e => Except.error e
                | Except.ok body =>
                  Except.ok (Statement.FunctionDeclaration name.1.value parameters.1 body.1,
                    body.2)

/-- The rule `Parser::block` (the opening brace is already consumed): the
statements of the `Block` it returns. -/
def block : Nat → List Token → Nat → Result (List Statement)
  | 0, _, current => Except.error (Failure.outOfFuel, current)
  | fuel + 1, tokens, current =>
    match blockLoop fuel tokens [] current with
    | Except.error e => Except.error e
    | Except.ok statements =>
      match consume tokens statements.2 TokenType.RIGHT_BRACE "Expected '\x7d' after block" with
      | Except.error e => Except.error e
      | Except.ok r => Except.ok (statements.1, r.2)

/-- The `while (!check(RIGHT_BRACE) && !isAtEnd())` loop of `Parser::block`. -/
def blockLoop : Nat → List Token → List Statement → Nat → Result (List Statement)
  | 0, _, _, current => Except.error (Failure.outOfFuel, current)
  | fuel + 1, tokens, statements, current =>
    match check tokens current TokenType.RIGHT_BRACE with
    | Except.error e => Except.error e
    | Except.ok true => Except.ok (statements, current)
    | Except.ok false =>
      match isAtEnd tokens current with
      | Except.error e => Except.error e
      | Except.ok true => Except.ok (statements, current)
      | Except.ok false =>
        match statement fuel tokens current with
        | Except.error e => Except.error e
        | Except.ok r => blockLoop fuel tokens (statements ++ [r.1]) r.2

end

/-- The `while (!isAtEnd() && peek().type != SEMICOLON) advance();` loop of the
`catch` block of `Parser::parse`. -/
def recoverLoop : Nat → List Token → Nat → Except (Failure × Nat) Nat
  | 0, _, current => Except.error (Failure.outOfFuel, current)
  | fuel + 1, tokens, current =>
    match isAtEnd tokens current with
    | Except.error e => Except.error e
    | Except.ok true => Except.ok current
    | Except.ok false =>
      match peek tokens current with
      | Except.error e => Except.error e
      | Except.ok t =>
        if t.type ≠ TokenType.SEMICOLON then
          match advance tokens current with
          | Except.error e => Except.error e
          | Except.ok a => recoverLoop fuel tokens a.2
        else Except.ok current

/-- The `catch (const ParseError&)` block of `Parser::parse`, entered with the
cursor where the error was raised; it ends in `throw;`. -/
def recover (tokens : List Token) (error : Failure) (current : Nat) : Failure × Nat :=
  match recoverLoop (tokens.length - current + 1) tokens current with
  | Except.error e => e
  | Except.ok current =>
    match isAtEnd tokens current with
    | Except.error e => e
    | Except.ok true => (error, current)
    | Except.ok false =>
      match advance tokens current with
      | Except.error e => e
      | Except.ok a => (error, a.2)

/-- The `while (!isAtEnd())` loop of `Parser::parse`. -/
def parseLoop : Nat → List Token → List Statement → Nat → Result Program
  | 0, _, _, current => Except.error (Failure.outOfFuel, current)
  | fuel + 1, tokens, statements, current =>
    match isAtEnd tokens current with
    | Except.error e => Except.error e
    | Except.ok true => Except.ok ({ statements := statements }, current)
    | Except.ok false =>
      match statement fuel tokens current with
      | Except.ok r => parseLoop fuel tokens (statements ++ [r.1]) r.2
      | Except.error (Failure.ParseError message, current) =>
        Except.error (recover tokens (Failure.ParseError message) current)
      | Except.error e => Except.error e

/-- The recursion budget given to `Parser::parse` on `tokens`. -/
def parseFuel (tokens : List Token) : Nat := 32 * (tokens.length + 1)

/-- `Parser(tokens).parse()`: the program, or the failure that escapes. -/
def parse (tokens : List Token) : Except Failure Program :=
  match parseLoop (parseFuel tokens) tokens [] 0 with
  | Except.ok r => Except.ok r.1
  | Except.error e => Except.error e.1

end Parser

/-- The pipeline `Parser(Lexer(source).tokenize()).parse()`. -/
def parseSource (source : String) : Option (Except Failure Program) :=
  match tokenize source with
  | some tokens => some (Parser.parse tokens)
  | none => none

/-! ## Specification-side notions for the lexer -/

/-- The line of byte offset `i` of `s`: one more than the number of newlines before it. -/
def lineAt (s : List Char) (i : Nat) : Nat := 1 + (s.take i).count '\n'

/-- The column of byte offset `i` of `s`: one more than the number of bytes
between the last newline before `i` (or the start of `s`) and `i`. -/
def columnAt (s : List Char) (i : Nat) : Nat :=
  1 + ((s.take i).reverse.takeWhile (fun c => decide (c ≠ '\n'))).length

namespace Lexer

/-- One lexer state follows another: same input, cursor not moved back, and
still inside the input if it was. -/
def Follows (lx lx' : Lexer) : Prop :=
  lx'.input = lx.input ∧ lx.current ≤ lx'.current ∧
    (lx.current ≤ lx.input.length → lx'.current ≤ lx.input.length)

/-- The lexer state in which `nextToken` starts its lexeme. -/
def tokenStart (lx : Lexer) : Lexer := skipWhitespace (skipComment (skipWhitespace lx))

/-- The counters `line` and `column` are those of the cursor. -/
def Located (lx : Lexer) : Prop :=
  lx.line = lineAt lx.input lx.current ∧ lx.column = columnAt lx.input lx.current

/-- The lexer of `source` after `k` calls of `nextToken`. -/
def stateAfter (source : String) (k : Nat) : Lexer :=
  (fun lx => (nextToken lx).2)^[k] (init source.toList)

/-- What a token and the lexer after it must satisfy, given the state `lx` in
which the lexeme starts: the token carries the counters of `lx`, its lexeme is
the bytes from the cursor of `lx` to the new cursor, and the counters stay right. -/
def TokenAt (lx : Lexer) (r : Token × Lexer) : Prop :=
  r.1.line = lx.line ∧ r.1.column = lx.column ∧ r.2.input = lx.input ∧
  r.2.current = lx.current + r.1.value.length ∧
  r.1.value.data = (lx.input.drop lx.current).take r.1.value.length ∧
  r.2.current ≤ lx.input.length ∧ Located r.2

end Lexer

/-! ## Specification-side notions for the parser -/

namespace Parser

/-- The precedence level of a binary operator token kind, lowest first:
`||`; `&&`; `==` `!=`; `<` `<=` `>` `>=`; `+` `-`; `*` `/`. -/
def binaryLevel : TokenType → Option Nat
  | TokenType.LOGICAL_OR => some 1
  | TokenType.LOGICAL_AND => some 2
  | TokenType.EQUAL => some 3
  | TokenType.NOT_EQUAL => some 3
  | TokenType.LESS_THAN => some 4
  | TokenType.LESS_EQUAL => some 4
  | TokenType.GREATER_THAN => some 4
  | TokenType.GREATER_EQUAL => some 4
  | TokenType.PLUS => some 5
  | TokenType.MINUS => some 5
  | TokenType.MULTIPLY => some 6
  | TokenType.DIVIDE => some 6
  | _ => none

/-- The expression an identifier or number token stands for as an operand: a
variable, or the literal whose value is the `int` that `std::stoi` reads. -/
def operandExpr (t : Token) : Option Expression :=
  if t.type = TokenType.IDENTIFIER then some (Expression.Variable t.value)
  else if t.type = TokenType.NUMBER then
    match stoi t.value with
    | Except.ok value => some (Expression.NumberLiteral value)
    | Except.error _ => none
  else none

/-- The common shape of the six binary-operator loops, over the rule `sub` of
the next level and the operator kinds `ops` of this one. -/
def binaryLoop (sub : Nat → List Token → Nat → Result Expression) (ops : List TokenType) :
    Nat → List Token → Expression → Nat → Result Expression
  | 0, _, _, current => Except.error (Failure.outOfFuel, current)
  | fuel + 1, tokens, expr, current =>
    match match_ tokens current ops with
    | Except.error e => Except.error e
    | Except.ok (false, current) => Except.ok (expr, current)
    | Except.ok (true, current) =>
      match previous tokens current with
      | Except.error e => Except.error e
      | Except.ok operator_ =>
        match sub fuel tokens current with
        | Except.error e => Except.error e
        | Except.ok right =>
          binaryLoop sub ops fuel tokens
            (Expression.BinaryOperation expr operator_.value right.1) right.2

/-- What a rule of level `L` (7 for `unary`) returns on the tokens of
`a o1 b o2 c ;` when started at `a`, `l1` and `l2` being the levels of `o1` and
`o2`: the expression and the cursor after it. -/
def chainResult0 (ea eb ec : Expression) (o1 o2 : String) (l1 l2 L : Nat) : Expression × Nat :=
  if L ≤ l1 then
    if l1 < l2 then
      (Expression.BinaryOperation ea o1 (Expression.BinaryOperation eb o2 ec), 5)
    else if L ≤ l2 then
      (Expression.BinaryOperation (Expression.BinaryOperation ea o1 eb) o2 ec, 5)
    else (Expression.BinaryOperation ea o1 eb, 3)
  else (ea, 1)

/-- What a rule of level `L` returns on the same tokens when started at `b`. -/
def chainResult2 (eb ec : Expression) (o2 : String) (l2 L : Nat) : Expression × Nat :=
  if L ≤ l2 then (Expression.BinaryOperation eb o2 ec, 5) else (eb, 3)

end Parser

namespace Parser

/-- A rule `f` returns `r0`, `r2` and `r4` from the tokens 0, 2 and 4 of
`tokens` on any fuel from `F` on. -/
def LevelOK (f : Nat → List Token → Nat → Result Expression) (tokens : List Token)
    (r0 r2 r4 : Expression × Nat) (F : Nat) : Prop :=
  ∀ fuel, F ≤ fuel → f fuel tokens 0 = Except.ok r0 ∧ f fuel tokens 2 = Except.ok r2 ∧
    f fuel tokens 4 = Except.ok r4

end Parser

namespace Parser

/-- A relation between cursor positions that every successful parser method
respects: it is reflexive and transitive, and it holds across every token,
other than `END_OF_FILE` and `UNKNOWN`, that a method can consume. -/
structure Stepwise (tokens : List Token) (Q : Nat → Nat → Prop) : Prop where
  refl : ∀ c, Q c c
  trans : ∀ a b c, Q a b → Q b c → Q a c
  step : ∀ c t, tokens[c]? = some t → t.type ≠ TokenType.END_OF_FILE →
    t.type ≠ TokenType.UNKNOWN → Q c (c + 1)

/-- Every successful call of a rule of the expression grammar, on fuel `fuel`,
relates the cursor before to the cursor after. -/
structure ExprAdvances (tokens : List Token) (Q : Nat → Nat → Prop) (fuel : Nat) : Prop where
  expression : ∀ c r, expression fuel tokens c = Except.ok r → Q c r.2
  logicalOr : ∀ c r, logicalOr fuel tokens c = Except.ok r → Q c r.2
  logicalOrLoop : ∀ e c r, logicalOrLoop fuel tokens e c = Except.ok r → Q c r.2
  logicalAnd : ∀ c r, logicalAnd fuel tokens c = Except.ok r → Q c r.2
  logicalAndLoop : ∀ e c r, logicalAndLoop fuel tokens e c = Except.ok r → Q c r.2
  equality : ∀ c r, equality fuel tokens c = Except.ok r → Q c r.2
  equalityLoop : ∀ e c r, equalityLoop fuel tokens e c = Except.ok r → Q c r.2
  comparison : ∀ c r, comparison fuel tokens c = Except.ok r → Q c r.2
  comparisonLoop : ∀ e c r, comparisonLoop fuel tokens e c = Except.ok r → Q c r.2
  term : ∀ c r, term fuel tokens c = Except.ok r → Q c r.2
  termLoop : ∀ e c r, termLoop fuel tokens e c = Except.ok r → Q c r.2
  factor : ∀ c r, factor fuel tokens c = Except.ok r → Q c r.2
  factorLoop : ∀ e c r, factorLoop fuel tokens e c = Except.ok r → Q c r.2
  unary : ∀ c r, unary fuel tokens c = Except.ok r → Q c r.2
  call : ∀ c r, call fuel tokens c = Except.ok r → Q c r.2
  callLoop : ∀ e c r, callLoop fuel tokens e c = Except.ok r → Q c r.2
  callArguments : ∀ a c r, callArguments fuel tokens a c = Except.ok r → Q c r.2
  primary : ∀ c r, primary fuel tokens c = Except.ok r → Q c r.2

/-- Every successful call of a rule of the statement grammar, on fuel `fuel`,
relates the cursor before to the cursor after. -/
structure StmtAdvances (tokens : List Token) (Q : Nat → Nat → Prop) (fuel : Nat) : Prop where
  statement : ∀ c r, statement fuel tokens c = Except.ok r → Q c r.2
  ifStatement : ∀ c r, ifStatement fuel tokens c = Except.ok r → Q c r.2
  whileStatement : ∀ c r, whileStatement fuel tokens c = Except.ok r → Q c r.2
  functionDeclaration : ∀ c r, functionDeclaration fuel tokens c = Except.ok r → Q c r.2
  block : ∀ c r, block fuel tokens c = Except.ok r → Q c r.2
  blockLoop : ∀ s c r, blockLoop fuel tokens s c = Except.ok r → Q c r.2

end Parser

namespace Parser

end Parser

namespace Parser

/-- A result that is not the failure "out of fuel". -/
def FuelFree {α : Type} (r : Except (Failure × Nat) α) : Prop :=
  ∀ c, r ≠ Except.error (Failure.outOfFuel, c)

/-- The rules of the expression grammar do not run out of fuel `fuel` when it
is at least 16 times the number of tokens left plus the depth of the rule. -/
structure ExprFuelFree (tokens : List Token) (fuel : Nat) : Prop where
  expression : ∀ c, 16 * (tokens.length - c) + 10 ≤ fuel → FuelFree (expression fuel tokens c)
  logicalOr : ∀ c, 16 * (tokens.length - c) + 9 ≤ fuel → FuelFree (logicalOr fuel tokens c)
  logicalOrLoop : ∀ e c, 16 * (tokens.length - c) + 1 ≤ fuel →
    FuelFree (logicalOrLoop fuel tokens e c)
  logicalAnd : ∀ c, 16 * (tokens.length - c) + 8 ≤ fuel → FuelFree (logicalAnd fuel tokens c)
  logicalAndLoop : ∀ e c, 16 * (tokens.length - c) + 1 ≤ fuel →
    FuelFree (logicalAndLoop fuel tokens e c)
  equality : ∀ c, 16 * (tokens.length - c) + 7 ≤ fuel → FuelFree (equality fuel tokens c)
  equalityLoop : ∀ e c, 16 * (tokens.length - c) + 1 ≤ fuel →
    FuelFree (equalityLoop fuel tokens e c)
  comparison : ∀ c, 16 * (tokens.length - c) + 6 ≤ fuel → FuelFree (comparison fuel tokens c)
  comparisonLoop : ∀ e c, 16 * (tokens.length - c) + 1 ≤ fuel →
    FuelFree (comparisonLoop fuel tokens e c)
  term : ∀ c, 16 * (tokens.length - c) + 5 ≤ fuel → FuelFree (term fuel tokens c)
  termLoop : ∀ e c, 16 * (tokens.length - c) + 1 ≤ fuel → FuelFree (termLoop fuel tokens e c)
  factor : ∀ c, 16 * (tokens.length - c) + 4 ≤ fuel → FuelFree (factor fuel tokens c)
  factorLoop : ∀ e c, 16 * (tokens.length - c) + 1 ≤ fuel →
    FuelFree (factorLoop fuel tokens e c)
  unary : ∀ c, 16 * (tokens.length - c) + 3 ≤ fuel → FuelFree (unary fuel tokens c)
  call : ∀ c, 16 * (tokens.length - c) + 2 ≤ fuel → FuelFree (call fuel tokens c)
  callLoop : ∀ e c, 16 * (tokens.length - c) + 1 ≤ fuel → FuelFree (callLoop fuel tokens e c)
  callArguments : ∀ a c, 16 * (tokens.length - c) + 11 ≤ fuel →
    FuelFree (callArguments fuel tokens a c)
  primary : ∀ c, 16 * (tokens.length - c) + 1 ≤ fuel → FuelFree (primary fuel tokens c)

/-- The rules of the statement grammar do not run out of fuel `fuel` when it
is at least 16 times the number of tokens left plus the depth of the rule. -/
structure StmtFuelFree (tokens : List Token) (fuel : Nat) : Prop where
  statement : ∀ c, 16 * (tokens.length - c) + 11 ≤ fuel → FuelFree (statement fuel tokens c)
  ifStatement : ∀ c, 16 * (tokens.length - c) + 1 ≤ fuel → FuelFree (ifStatement fuel tokens c)
  whileStatement : ∀ c, 16 * (tokens.length - c) + 1 ≤ fuel →
    FuelFree (whileStatement fuel tokens c)
  functionDeclaration : ∀ c, 16 * (tokens.length - c) + 1 ≤ fuel →
    FuelFree (functionDeclaration fuel tokens c)
  block : ∀ c, 16 * (tokens.length - c) + 13 ≤ fuel → FuelFree (block fuel tokens c)
  blockLoop : ∀ s c, 16 * (tokens.length - c) + 12 ≤ fuel →
    FuelFree (blockLoop fuel tokens s c)

end Parser

/-! ## Specification-side notions for parser failures -/

namespace Parser

/-- The cursor part of what a parser method leaves behind. -/
def outcome {α : Type} (r : Result α) : Except (Failure × Nat) Nat :=
  match r with
  | Except.ok v => Except.ok v.2
  | Except.error e => Except.error e

/-- The cursor at the end of a call, whether it returned or failed. -/
def cursorOf (o : Except (Failure × Nat) Nat) : Nat :=
  match o with
  | Except.ok c => c
  | Except.error e => e.2

/-- A relation between the cursor at which a parser method is entered and the
way it ends that every method respects: it holds of each elementary step (a
method that consumes nothing, one that consumes a token, a read outside the
token vector, each of the three `throw` sites, a failing `std::stoi`, the
recursion budget of the embedding) and is closed under running one method
after another. -/
structure Traced (tokens : List Token) (P : Nat → Except (Failure × Nat) Nat → Prop) : Prop where
  stay : ∀ c, P c (Except.ok c)
  seq : ∀ a b o, P a (Except.ok b) → P b o → P a o
  step : ∀ c t, tokens[c]? = some t → t.type ≠ TokenType.END_OF_FILE →
    t.type ≠ TokenType.UNKNOWN → P c (Except.ok (c + 1))
  missing : ∀ c, tokens[c]? = none → P c (Except.error (Failure.outOfBounds, c))
  expected : ∀ c t message, tokens[c]? = some t →
    P c (Except.error (Failure.ParseError (consumeMessage t message), c))
  unexpected : ∀ c t, tokens[c]? = some t →
    P c (Except.error (Failure.ParseError (primaryMessage t), c))
  callee : ∀ c t, tokens[c]? = some t → t.type = TokenType.LEFT_PAREN →
    P (c + 1)
      (Except.error (Failure.ParseError "Only identifiers can be called as functions", c + 1))
  number : ∀ c t e, tokens[c]? = some t → t.type = TokenType.NUMBER →
    stoi t.value = Except.error e → P (c + 1) (Except.error (e, c + 1))
  fuel : ∀ c, P c (Except.error (Failure.outOfFuel, c))

/-- Every call of a rule of the expression grammar, on fuel `fuel`, relates
the cursor before to the way the call ends. -/
structure ExprTraced (tokens : List Token) (P : Nat → Except (Failure × Nat) Nat → Prop)
    (fuel : Nat) : Prop where
  expression : ∀ c, P c (outcome (expression fuel tokens c))
  logicalOr : ∀ c, P c (outcome (logicalOr fuel tokens c))
  logicalOrLoop : ∀ e c, P c (outcome (logicalOrLoop fuel tokens e c))
  logicalAnd : ∀ c, P c (outcome (logicalAnd fuel tokens c))
  logicalAndLoop : ∀ e c, P c (outcome (logicalAndLoop fuel tokens e c))
  equality : ∀ c, P c (outcome (equality fuel tokens c))
  equalityLoop : ∀ e c, P c (outcome (equalityLoop fuel tokens e c))
  comparison : ∀ c, P c (outcome (comparison fuel tokens c))
  comparisonLoop : ∀ e c, P c (outcome (comparisonLoop fuel tokens e c))
  term : ∀ c, P c (outcome (term fuel tokens c))
  termLoop : ∀ e c, P c (outcome (termLoop fuel tokens e c))
  factor : ∀ c, P c (outcome (factor fuel tokens c))
  factorLoop : ∀ e c, P c (outcome (factorLoop fuel tokens e c))
  unary : ∀ c, P c (outcome (unary fuel tokens c))
  call : ∀ c, P c (outcome (call fuel tokens c))
  callLoop : ∀ e c, P c (outcome (callLoop fuel tokens e c))
  callArguments : ∀ a c, P c (outcome (callArguments fuel tokens a c))
  primary : ∀ c, P c (outcome (primary fuel tokens c))

/-- Every call of a rule of the statement grammar, on fuel `fuel`, relates
the cursor before to the way the call ends. -/
structure StmtTraced (tokens : List Token) (P : Nat → Except (Failure × Nat) Nat → Prop)
    (fuel : Nat) : Prop where
  statement : ∀ c, P c (outcome (statement fuel tokens c))
  ifStatement : ∀ c, P c (outcome (ifStatement fuel tokens c))
  whileStatement : ∀ c, P c (outcome (whileStatement fuel tokens c))
  functionDeclaration : ∀ c, P c (outcome (functionDeclaration fuel tokens c))
  block : ∀ c, P c (outcome (block fuel tokens c))
  blockLoop : ∀ s c, P c (outcome (blockLoop fuel tokens s c))

end Parser

namespace Parser

/-- The failures that the parser methods raise on `tokens`, each with the
cursor at which it is raised: a read outside the token vector, the error of
`consume` and the error of `primary` at the token under the cursor, the error
of `call` just after a `(`, a failure of `std::stoi` just after a `NUMBER`
token, and the recursion budget of the embedding. -/
inductive Raised (tokens : List Token) : Failure × Nat → Prop where
  | missing (c : Nat) : tokens[c]? = none → Raised tokens (Failure.outOfBounds, c)
  | expected (c : Nat) (t : Token) (message : String) : tokens[c]? = some t →
      Raised tokens (Failure.ParseError (consumeMessage t message), c)
  | unexpected (c : Nat) (t : Token) : tokens[c]? = some t →
      Raised tokens (Failure.ParseError (primaryMessage t), c)
  | callee (c : Nat) (t : Token) : tokens[c]? = some t → t.type = TokenType.LEFT_PAREN →
      Raised tokens
        (Failure.ParseError "Only identifiers can be called as functions", c + 1)
  | number (c : Nat) (t : Token) (e : Failure) : tokens[c]? = some t →
      t.type = TokenType.NUMBER → stoi t.value = Except.error e → Raised tokens (e, c + 1)
  | fuel (c : Nat) : Raised tokens (Failure.outOfFuel, c)

/-- A token vector as `Lexer::tokenize` builds it: its last token is `END_OF_FILE`. -/
def Terminated (tokens : List Token) : Prop :=
  ∃ last, tokens.getLast? = some last ∧ last.type = TokenType.END_OF_FILE

end Parser

namespace Parser

/-- Two token vectors hold the same tokens at every index up to `n`. -/
def Agree (t1 t2 : List Token) (n : Nat) : Prop := ∀ i, i ≤ n → t1[i]? = t2[i]?

/-- A call that ends as `x1` from the cursor `c` on one token vector ends the
same way, `x2 = x1`, on another one with more fuel, provided it did not run
out of fuel and the two vectors agree up to `N`, an index not before the
cursor at which the call ended; and that cursor is not before `c`. -/
def Local (N c : Nat) {α : Type} (x1 x2 : Result α) : Prop :=
  FuelFree x1 → c ≤ cursorOf (outcome x1) ∧ (cursorOf (outcome x1) ≤ N → x2 = x1)

/-- Started at an identifier token, `f` ends after it unless it runs out of fuel. -/
def PastFirst (tokens : List Token) (c : Nat) {α : Type}
    (f : Nat → List Token → Nat → Result α) : Prop :=
  ∀ k, FuelFree (f k tokens c) → c + 1 ≤ cursorOf (outcome (f k tokens c))

/-- The rules of the expression grammar are local: see `Local`. -/
structure ExprLocal (t1 t2 : List Token) (N fuel : Nat) : Prop where
  expression : ∀ c m, fuel ≤ m → Local N c (expression fuel t1 c) (expression m t2 c)
  logicalOr : ∀ c m, fuel ≤ m → Local N c (logicalOr fuel t1 c) (logicalOr m t2 c)
  logicalOrLoop : ∀ e c m, fuel ≤ m →
    Local N c (logicalOrLoop fuel t1 e c) (logicalOrLoop m t2 e c)
  logicalAnd : ∀ c m, fuel ≤ m → Local N c (logicalAnd fuel t1 c) (logicalAnd m t2 c)
  logicalAndLoop : ∀ e c m, fuel ≤ m →
    Local N c (logicalAndLoop fuel t1 e c) (logicalAndLoop m t2 e c)
  equality : ∀ c m, fuel ≤ m → Local N c (equality fuel t1 c) (equality m t2 c)
  equalityLoop : ∀ e c m, fuel ≤ m →
    Local N c (equalityLoop fuel t1 e c) (equalityLoop m t2 e c)
  comparison : ∀ c m, fuel ≤ m → Local N c (comparison fuel t1 c) (comparison m t2 c)
  comparisonLoop : ∀ e c m, fuel ≤ m →
    Local N c (comparisonLoop fuel t1 e c) (comparisonLoop m t2 e c)
  term : ∀ c m, fuel ≤ m → Local N c (term fuel t1 c) (term m t2 c)
  termLoop : ∀ e c m, fuel ≤ m → Local N c (termLoop fuel t1 e c) (termLoop m t2 e c)
  factor : ∀ c m, fuel ≤ m → Local N c (factor fuel t1 c) (factor m t2 c)
  factorLoop : ∀ e c m, fuel ≤ m → Local N c (factorLoop fuel t1 e c) (factorLoop m t2 e c)
  unary : ∀ c m, fuel ≤ m → Local N c (unary fuel t1 c) (unary m t2 c)
  call : ∀ c m, fuel ≤ m → Local N c (call fuel t1 c) (call m t2 c)
  callLoop : ∀ e c m, fuel ≤ m → Local N c (callLoop fuel t1 e c) (callLoop m t2 e c)
  callArguments : ∀ a c m, fuel ≤ m →
    Local N c (callArguments fuel t1 a c) (callArguments m t2 a c)
  primary : ∀ c m, fuel ≤ m → Local N c (primary fuel t1 c) (primary m t2 c)

/-- The rules of the statement grammar are local: see `Local`. -/
structure StmtLocal (t1 t2 : List Token) (N fuel : Nat) : Prop where
  statement : ∀ c m, fuel ≤ m → Local N c (statement fuel t1 c) (statement m t2 c)
  ifStatement : ∀ c m, fuel ≤ m → Local N c (ifStatement fuel t1 c) (ifStatement m t2 c)
  whileStatement : ∀ c m, fuel ≤ m →
    Local N c (whileStatement fuel t1 c) (whileStatement m t2 c)
  functionDeclaration : ∀ c m, fuel ≤ m →
    Local N c (functionDeclaration fuel t1 c) (functionDeclaration m t2 c)
  block : ∀ c m, fuel ≤ m → Local N c (block fuel t1 c) (block m t2 c)
  blockLoop : ∀ s c m, fuel ≤ m → Local N c (blockLoop fuel t1 s c) (blockLoop m t2 s c)

end Parser

namespace Parser

/-- The `while (!isAtEnd())` loop of `Parser::parse` with its `catch` block left
out: the statements are parsed one after the other and the first failure is
returned as the statement rule raised it. -/
def statementsLoop : Nat → List Token → List Statement → Nat → Result Program
  | 0, _, _, current => Except.error (Failure.outOfFuel, current)
  | fuel + 1, tokens, statements, current =>
    match isAtEnd tokens current with
    | Except.error e => Except.error e
    | Except.ok true => Except.ok ({ statements := statements }, current)
    | Except.ok false =>
      match statement fuel tokens current with
      | Except.ok r => statementsLoop fuel tokens (statements ++ [r.1]) r.2
      | Except.error e => Except.error e

/-- What `Parser::parse` makes of the way its loop ends: the cursor is dropped. -/
def finish (r : Result Program) : Except Failure Program :=
  match r with
  | Except.ok r => Except.ok r.1
  | Except.error e => Except.error e.1

/-- The rule `f`, started at the cursor `c`, ends as `r` on every fuel that is
large enough. -/
def Ends {α : Type} (f : Nat → List Token → Nat → Result α) (tokens : List Token) (c : Nat)
    (r : Result α) : Prop :=
  ∃ F, ∀ fuel, F ≤ fuel → f fuel tokens c = r

end Parser

namespace Parser

/-- The expressions `es`, each parsed by `expression` and separated from the
next by one `COMMA` token, stand in `tokens` from the cursor `p`, and the last
one ends at the cursor `q`. -/
def ArgumentsAt (tokens : List Token) : List Expression → Nat → Nat → Prop
  | [], _, _ => False
  | [e], p, q => Ends expression tokens p (Except.ok (e, q))
  | e :: e' :: es, p, q =>
    ∃ q1 comma, Ends expression tokens p (Except.ok (e, q1)) ∧ tokens[q1]? = some comma ∧
      comma.type = TokenType.COMMA ∧ ArgumentsAt tokens (e' :: es) (q1 + 1) q

/-- What a rule of precedence level `L` (7 for `unary`) returns on `a op b`
followed by a token that is no binary operator, `l` being the level of `op`:
the operation and the cursor `c2` after `b` if the rule takes `op`, and `a` with
the cursor `c1` at `op` otherwise. -/
def levelResult (ea eb : Expression) (op : String) (c1 c2 l L : Nat) : Expression × Nat :=
  if L ≤ l then (Expression.BinaryOperation ea op eb, c2) else (ea, c1)

end Parser

namespace Parser

/-- The first failure of a statement rule on `tokens`, read from the cursor
`c`: as long as the token under the cursor is not `END_OF_FILE` the rule
`statement` is run from it; the rules that succeed move the cursor, and the
first one that fails does so with the failure and the cursor `x`. -/
inductive FirstFailure (tokens : List Token) : Nat → Failure × Nat → Prop where
  | here (c : Nat) (x : Failure × Nat) (t : Token) : tokens[c]? = some t →
      t.type ≠ TokenType.END_OF_FILE → Ends statement tokens c (Except.error x) →
      FirstFailure tokens c x
  | next (c c' : Nat) (s : Statement) (x : Failure × Nat) (t : Token) : tokens[c]? = some t →
      t.type ≠ TokenType.END_OF_FILE → Ends statement tokens c (Except.ok (s, c')) →
      FirstFailure tokens c' x → FirstFailure tokens c x

end Parser

/-! ## CodeGen.h, CodeGen.cpp

The LLVM library is not part of the repository. The generator uses it as an
IR builder; the definitions of the namespace `LLVM` below hold the part of its
behaviour that the generator relies on: the objects of a module and where the
builder puts a new instruction. What LLVM computes inside (constant folding,
the verifier) is a parameter, `Backend`. -/

namespace LLVM

/-- The IR types the generator meets: `iN` and the pointer type of an `alloca`. -/
inductive IRType where
  | IntegerTy (bits : Nat)
  | PointerTy
  deriving DecidableEq, Repr

/-- What an `llvm::Value*` of the generator points to: a `ConstantInt` (its
`APInt` as the unsigned number below `2^bits`), another constant (what a folder
may return, such as `poison`), an argument of a function, or the result of an
instruction. The numbers `id` and `function` are the identity of the object. -/
inductive Value where
  | ConstantInt (bits : Nat) (value : Nat)
  | Constant (type : IRType) (tag : Nat)
  | Argument (function : Nat) (index : Nat)
  | Instruction (id : Nat) (type : IRType)
  deriving DecidableEq, Repr

/-- The type of a value, `Value::getType`; every argument is an `i32`. -/
def Value.getType : Value → IRType
  | Value.ConstantInt bits _ => IRType.IntegerTy bits
  | Value.Constant type _ => type
  | Value.Argument _ _ => IRType.IntegerTy 32
  | Value.Instruction _ type => type

/-- The test `isa<Constant>`. -/
def Value.isConstant : Value → Bool
  | Value.ConstantInt _ _ => true
  | Value.Constant _ _ => true
  | _ => false

/-- The binary opcodes the generator asks for. -/
inductive BinaryOps where
  | Add | Sub | Mul | SDiv | And | Or | Xor
  deriving DecidableEq, Repr

/-- The comparison predicates the generator asks for. -/
inductive Predicate where
  | ICMP_EQ | ICMP_NE | ICMP_SGT | ICMP_SGE | ICMP_SLT | ICMP_SLE
  deriving DecidableEq, Repr

/-- The instructions the generator builds, with their operands; a block or a
function is named by its identity. -/
inductive Operation where
  | Alloca (type : IRType)
  | Load (type : IRType) (pointer : Value)
  | Store (value : Value) (pointer : Value)
  | BinaryOperator (opcode : BinaryOps) (lhs : Value) (rhs : Value)
  | ICmp (predicate : Predicate) (lhs : Value) (rhs : Value)
  | Call (callee : Nat) (args : List Value)
  | Br (dest : Nat)
  | CondBr (cond : Value) (ifTrue : Nat) (ifFalse : Nat)
  | Ret (value : Value)
  deriving DecidableEq, Repr

/-- The test `Instruction::isTerminator`. -/
def Operation.isTerminator : Operation → Bool
  | Operation.Br _ => true
  | Operation.CondBr _ _ _ => true
  | Operation.Ret _ => true
  | _ => false

/-- An instruction: its identity, the name asked for, and what it does. -/
structure Instruction where
  id : Nat
  name : String
  operation : Operation
  deriving DecidableEq, Repr

/-- A basic block: its identity, the name asked for, and its instruction list. -/
structure BasicBlock where
  id : Nat
  name : String
  instructions : List Instruction
  deriving DecidableEq, Repr

/-- The terminator of a block, `BasicBlock::getTerminator`: the last instruction
if it is a terminator, otherwise null. -/
def BasicBlock.getTerminator (b : BasicBlock) : Option Instruction :=
  match b.instructions.getLast? with
  | some i => if i.operation.isTerminator then some i else none
  | none => none

/-- A function of type `i32 (i32, ..., i32)`: its identity, its name, the names
of its arguments, and its block list. -/
structure Function where
  id : Nat
  name : String
  args : List String
  blocks : List BasicBlock
  deriving DecidableEq, Repr

/-- The function of a module with the identity `function`. -/
def findFunction (module : List Function) (function : Nat) : Option Function :=
  module.find? (fun f => decide (f.id = function))

/-- The block of a module with the identity `block`. -/
def findBlock (module : List Function) (block : Nat) : Option BasicBlock :=
  (module.flatMap (fun f => f.blocks)).find? (fun b => decide (b.id = block))

/-- The function that holds a block, `BasicBlock::getParent`. -/
def getParent (module : List Function) (block : Nat) : Option Function :=
  module.find? (fun f => f.blocks.any (fun b => decide (b.id = block)))

/-- The module after an instruction is put at the end of a block. -/
def appendInstruction (module : List Function) (block : Nat) (i : Instruction) :
    List Function :=
  module.map (fun f => { f with blocks := f.blocks.map (fun b =>
    if b.id = block then { b with instructions := b.instructions ++ [i] } else b) })

/-- The module after an instruction is put at the beginning of the entry block
(the first block) of a function. -/
def insertAtEntry (module : List Function) (function : Nat) (i : Instruction) :
    List Function :=
  module.map (fun f =>
    if f.id = function then
      { f with blocks :=
          match f.blocks with
          | [] => []
          | b :: bs => { b with instructions := i :: b.instructions } :: bs }
    else f)

/-- The module after `BasicBlock::Create(context, name, function)` has put a
new block at the end of a function. -/
def appendBlock (module : List Function) (function : Nat) (b : BasicBlock) : List Function :=
  module.map (fun f => if f.id = function then { f with blocks := f.blocks ++ [b] } else f)

/-- The module after `Function::eraseFromParent`. -/
def eraseFunction (module : List Function) (function : Nat) : List Function :=
  module.filter (fun f => decide (f.id ≠ function))

/-- The renaming of `ValueSymbolTable::makeUniqueName` for a value that is not
global: the counter of the symbol table is increased and appended to the name
until the result is not taken. `fuel` bounds the attempts; one more than the
number of names taken is enough. -/
def makeUniqueName : Nat → List String → Nat → String → String × Nat
  | 0, _, lastUnique, name => (name, lastUnique)
  | fuel + 1, taken, lastUnique, name =>
    if name ++ toString (lastUnique + 1) ∈ taken then
      makeUniqueName fuel taken (lastUnique + 1) name
    else (name ++ toString (lastUnique + 1), lastUnique + 1)

/-- The cap that the symbol table of a function puts on the length of a name:
the default of the LLVM option `non-global-value-max-name-size`, which the
driver does not set. -/
def maxNameSize : Nat := 1024

/-- The name that `Value::setName` enters in the symbol table of a function
for a value that is not global: a name longer than `maxNameSize` bytes is cut
to its first `max 1 maxNameSize` bytes. -/
def capName (name : String) : String :=
  if name.length > maxNameSize then String.mk (name.toList.take (max 1 maxNameSize)) else name

/-- The names that the arguments of a new function carry after the loop
`arg.setName(node.parameters[idx++])`, as `Value::setName` sets them in the
symbol table of the function (`taken`, with its counter `lastUnique`): the
empty name leaves the argument without a name, a name that is too long is cut
(`capName`), a free name is kept, and a name that is taken is made unique. -/
def setArgumentNames : List String → List String → Nat → List String
  | [], _, _ => []
  | p :: ps, taken, lastUnique =>
    if p = "" then "" :: setArgumentNames ps taken lastUnique
    else if capName p ∈ taken then
      (makeUniqueName (taken.length + 1) taken lastUnique (capName p)).1 ::
        setArgumentNames ps
          ((makeUniqueName (taken.length + 1) taken lastUnique (capName p)).1 :: taken)
          (makeUniqueName (taken.length + 1) taken lastUnique (capName p)).2
    else capName p :: setArgumentNames ps (capName p :: taken) lastUnique

/-- The names `arg.getName()` of the arguments of a function created for the
parameter list `parameters`. -/
def argumentNames (parameters : List String) : List String :=
  setArgumentNames parameters [] 0

/-- What the generator takes from inside LLVM: the folder of the `IRBuilder`
(the value that a builder call returns without an instruction; `none` when the
instruction is built) and the result of `llvm::verifyFunction` (`true` when
the function is broken). -/
structure Backend where
  FoldBinOp : BinaryOps → Value → Value → Option Value
  FoldICmp : Predicate → Value → Value → Option Value
  verifyFunction : List Function → Function → Bool

end LLVM

/-- The ways a call into the generator can end without returning. -/
inductive CodeGenFailure where
  /-- A thrown `CodeGenError` with its `what()` text. -/
  | CodeGenError (message : String)
  /-- A member call through a null or dangling pointer (undefined behaviour). -/
  | undefinedBehaviour
  deriving DecidableEq, Repr

/-- The members of `class CodeGenerator`. The module (in the context) is its
function list; of the builder only the insertion block matters, since the
generator always inserts at the end of a block. A `std::unordered_map` is the
list of its bindings, a key bound to null counting as absent; an
`llvm::AllocaInst*` or `llvm::Function*` is the identity of the object.
`nextId` is the identity that the next object created will get. -/
structure CodeGenerator where
  module : List LLVM.Function
  insertBlock : Option Nat
  namedValues : List (String × Nat)
  functions : List (String × Nat)
  currentFunction : Option Nat
  lastValue : Option LLVM.Value
  nextId : Nat
  deriving DecidableEq, Repr

namespace CodeGenerator

/-- How a visit ends: the generator after it, or the failure together with the
generator at the point where it was raised. -/
abbrev Result (α : Type) : Type := Except (CodeGenFailure × CodeGenerator) α

/-- The constructor `CodeGenerator::CodeGenerator`. -/
def new : CodeGenerator :=
  { module := [], insertBlock := none, namedValues := [], functions := [],
    currentFunction := none, lastValue := none, nextId := 0 }

/-- The read `map[key]` of a symbol table: null when the key is not bound. -/
def lookup (map : List (String × Nat)) (key : String) : Option Nat :=
  (map.find? (fun e => decide (e.1 = key))).map (fun e => e.2)

/-- The write `map[key] = value` of a symbol table. -/
def assign (map : List (String × Nat)) (key : String) (value : Nat) : List (String × Nat) :=
  (key, value) :: map.filter (fun e => decide (e.1 ≠ key))

/-- The step `IRBuilder::Insert`: the new instruction goes to the end of the
insertion block, if there is one; it is created in any case. -/
def Insert (g : CodeGenerator) (operation : LLVM.Operation) (name : String) :
    Nat × CodeGenerator :=
  (g.nextId,
    { g with
      module :=
        match g.insertBlock with
        | some b => LLVM.appendInstruction g.module b ⟨g.nextId, name, operation⟩
        | none => g.module
      nextId := g.nextId + 1 })

/-- The builder call `CreateLoad(type, pointer, name)`. -/
def CreateLoad (g : CodeGenerator) (type : LLVM.IRType) (pointer : LLVM.Value) (name : String) :
    LLVM.Value × CodeGenerator :=
  (LLVM.Value.Instruction (g.Insert (LLVM.Operation.Load type pointer) name).1 type,
    (g.Insert (LLVM.Operation.Load type pointer) name).2)

/-- The builder call `CreateStore(value, pointer)`. -/
def CreateStore (g : CodeGenerator) (value pointer : LLVM.Value) : CodeGenerator :=
  (g.Insert (LLVM.Operation.Store value pointer) "").2

/-- The builder calls `CreateAdd`, `CreateSub`, `CreateMul`, `CreateSDiv`,
`CreateAnd`, `CreateOr` and `CreateXor`: what the folder of the builder returns
for the operands is the value (two constants fold; some versions of the
builder also return an operand for `x & -1` and `x | 0`); otherwise the
instruction is inserted, and its type is the one of the left operand. -/
def CreateBinOp (llvm : LLVM.Backend) (g : CodeGenerator) (opcode : LLVM.BinaryOps)
    (lhs rhs : LLVM.Value) (name : String) : LLVM.Value × CodeGenerator :=
  match llvm.FoldBinOp opcode lhs rhs with
  | some v => (v, g)
  | none =>
    (LLVM.Value.Instruction (g.Insert (LLVM.Operation.BinaryOperator opcode lhs rhs) name).1
        lhs.getType,
      (g.Insert (LLVM.Operation.BinaryOperator opcode lhs rhs) name).2)

/-- The builder calls `CreateICmpEQ`, .., `CreateICmpSLE`: as `CreateBinOp`,
with an `i1` result. -/
def CreateICmp (llvm : LLVM.Backend) (g : CodeGenerator) (predicate : LLVM.Predicate)
    (lhs rhs : LLVM.Value) (name : String) : LLVM.Value × CodeGenerator :=
  match llvm.FoldICmp predicate lhs rhs with
  | some v => (v, g)
  | none =>
    (LLVM.Value.Instruction (g.Insert (LLVM.Operation.ICmp predicate lhs rhs) name).1
        (LLVM.IRType.IntegerTy 1),
      (g.Insert (LLVM.Operation.ICmp predicate lhs rhs) name).2)

/-- The constant `Constant::getNullValue(type)`. -/
def getNullValue : LLVM.IRType → LLVM.Value
  | LLVM.IRType.IntegerTy bits => LLVM.Value.ConstantInt bits 0
  | LLVM.IRType.PointerTy => LLVM.Value.Constant LLVM.IRType.PointerTy 0

/-- The constant `Constant::getAllOnesValue(type)`. -/
def getAllOnesValue : LLVM.IRType → LLVM.Value
  | LLVM.IRType.IntegerTy bits => LLVM.Value.ConstantInt bits (2 ^ bits - 1)
  | LLVM.IRType.PointerTy => LLVM.Value.Constant LLVM.IRType.PointerTy 1

/-- The builder call `CreateNeg(v, name)`: the subtraction `0 - v`. -/
def CreateNeg (llvm : LLVM.Backend) (g : CodeGenerator) (v : LLVM.Value) (name : String) :
    LLVM.Value × CodeGenerator :=
  CreateBinOp llvm g LLVM.BinaryOps.Sub (getNullValue v.getType) v name

/-- The builder call `CreateNot(v, name)`: the exclusive or of `v` and all ones. -/
def CreateNot (llvm : LLVM.Backend) (g : CodeGenerator) (v : LLVM.Value) (name : String) :
    LLVM.Value × CodeGenerator :=
  CreateBinOp llvm g LLVM.BinaryOps.Xor v (getAllOnesValue v.getType) name

/-- The builder call `CreateCall(callee, args, name)`; the functions of the
generator return `i32`. -/
def CreateCall (g : CodeGenerator) (callee : Nat) (args : List LLVM.Value) (name : String) :
    LLVM.Value × CodeGenerator :=
  (LLVM.Value.Instruction (g.Insert (LLVM.Operation.Call callee args) name).1
      (LLVM.IRType.IntegerTy 32),
    (g.Insert (LLVM.Operation.Call callee args) name).2)

/-- The builder call `CreateBr(dest)`. -/
def CreateBr (g : CodeGenerator) (dest : Nat) : CodeGenerator :=
  (g.Insert (LLVM.Operation.Br dest) "").2

/-- The builder call `CreateCondBr(cond, ifTrue, ifFalse)`. -/
def CreateCondBr (g : CodeGenerator) (cond : LLVM.Value) (ifTrue ifFalse : Nat) :
    CodeGenerator :=
  (g.Insert (LLVM.Operation.CondBr cond ifTrue ifFalse) "").2

/-- The builder call `CreateRet(value)`. -/
def CreateRet (g : CodeGenerator) (value : LLVM.Value) : CodeGenerator :=
  (g.Insert (LLVM.Operation.Ret value) "").2

/-- The call `llvm::BasicBlock::Create(*context, name, function)`. -/
def createBlock (g : CodeGenerator) (name : String) (function : Nat) : Nat × CodeGenerator :=
  (g.nextId,
    { g with
      module := LLVM.appendBlock g.module function ⟨g.nextId, name, []⟩
      nextId := g.nextId + 1 })

/-- The expression `builder->GetInsertBlock()->getParent()`. -/
def insertFunction (g : CodeGenerator) : Result Nat :=
  match g.insertBlock with
  | none => Except.error (CodeGenFailure.undefinedBehaviour, g)
  | some b =>
    match LLVM.getParent g.module b with
    | none => Except.error (CodeGenFailure.undefinedBehaviour, g)
    | some f => Except.ok f.id

/-- The expression `builder->GetInsertBlock()->getTerminator()`, as the test
whether it is not null. -/
def hasTerminator (g : CodeGenerator) : Result Bool :=
  match g.insertBlock with
  | none => Except.error (CodeGenFailure.undefinedBehaviour, g)
  | some b =>
    match LLVM.findBlock g.module b with
    | none => Except.error (CodeGenFailure.undefinedBehaviour, g)
    | some block => Except.ok block.getTerminator.isSome

/-- The helper `CodeGenerator::createEntryBlockAlloca`: an `alloca i32` at the
beginning of the entry block of `function`. -/
def createEntryBlockAlloca (g : CodeGenerator) (function : Nat) (varName : String) :
    Result (Nat × CodeGenerator) :=
  match LLVM.findFunction g.module function with
  | none => Except.error (CodeGenFailure.undefinedBehaviour, g)
  | some f =>
    match f.blocks with
    | [] => Except.error (CodeGenFailure.undefinedBehaviour, g)
    | _ :: _ =>
      Except.ok (g.nextId,
        { g with
          module := LLVM.insertAtEntry g.module function
            ⟨g.nextId, varName, LLVM.Operation.Alloca (LLVM.IRType.IntegerTy 32)⟩
          nextId := g.nextId + 1 })

/-- The constant `ConstantInt::get(*context, APInt(32, 0, true))`. -/
def zero32 : LLVM.Value := LLVM.Value.ConstantInt 32 0

/-- The conversion of a condition in `visit(IfStatement&)` and
`visit(WhileStatement&)`: a value that is not an `i1` is compared with `i32 0`. -/
def toCondition (llvm : LLVM.Backend) (g : CodeGenerator) (conditionValue : LLVM.Value)
    (name : String) : LLVM.Value × CodeGenerator :=
  if conditionValue.getType ≠ LLVM.IRType.IntegerTy 1 then
    CreateICmp llvm g LLVM.Predicate.ICMP_NE conditionValue zero32 name
  else (conditionValue, g)

/-- The loop of `visit(FunctionDeclaration&)` over the arguments: an alloca, a
store of the argument and a binding under the name of the argument. -/
def parameterAllocas (function : Nat) : List String → Nat → CodeGenerator → Result CodeGenerator
  | [], _, g => Except.ok g
  | name :: rest, index, g =>
    match g.createEntryBlockAlloca function name with
    | Except.error e => Except.error e
    | Except.ok (alloca, g1) =>
      parameterAllocas function rest (index + 1)
        { g1.CreateStore (LLVM.Value.Argument function index)
            (LLVM.Value.Instruction alloca LLVM.IRType.PointerTy) with
          namedValues := assign g1.namedValues name alloca }

end CodeGenerator

namespace CodeGenerator

/-- The instruction that `visit(BinaryOperation&)` asks the builder for, by the
spelling of the operator; `none` for a spelling it does not know. -/
def binaryInstruction (llvm : LLVM.Backend) (g : CodeGenerator) (operator_ : String)
    (left right : LLVM.Value) : Option (LLVM.Value × CodeGenerator) :=
  if operator_ = "+" then some (CreateBinOp llvm g LLVM.BinaryOps.Add left right "addtmp")
  else if operator_ = "-" then some (CreateBinOp llvm g LLVM.BinaryOps.Sub left right "subtmp")
  else if operator_ = "*" then some (CreateBinOp llvm g LLVM.BinaryOps.Mul left right "multmp")
  else if operator_ = "/" then some (CreateBinOp llvm g LLVM.BinaryOps.SDiv left right "divtmp")
  else if operator_ = "<" then
    some (CreateICmp llvm g LLVM.Predicate.ICMP_SLT left right "cmptmp")
  else if operator_ = "<=" then
    some (CreateICmp llvm g LLVM.Predicate.ICMP_SLE left right "cmptmp")
  else if operator_ = ">" then
    some (CreateICmp llvm g LLVM.Predicate.ICMP_SGT left right "cmptmp")
  else if operator_ = ">=" then
    some (CreateICmp llvm g LLVM.Predicate.ICMP_SGE left right "cmptmp")
  else if operator_ = "==" then
    some (CreateICmp llvm g LLVM.Predicate.ICMP_EQ left right "cmptmp")
  else if operator_ = "!=" then
    some (CreateICmp llvm g LLVM.Predicate.ICMP_NE left right "cmptmp")
  else if operator_ = "&&" then some (CreateBinOp llvm g LLVM.BinaryOps.And left right "andtmp")
  else if operator_ = "||" then some (CreateBinOp llvm g LLVM.BinaryOps.Or left right "ortmp")
  else none

/-- The instruction that `visit(UnaryOperation&)` asks the builder for. -/
def unaryInstruction (llvm : LLVM.Backend) (g : CodeGenerator) (operator_ : String)
    (operand : LLVM.Value) : Option (LLVM.Value × CodeGenerator) :=
  if operator_ = "-" then some (CreateNeg llvm g operand "negtmp")
  else if operator_ = "!" then some (CreateNot llvm g operand "nottmp")
  else none

mutual

/-- The visits of the expression nodes: `visit(NumberLiteral&)`,
`visit(BooleanLiteral&)`, `visit(Variable&)`, `visit(BinaryOperation&)`,
`visit(UnaryOperation&)` and `visit(FunctionCall&)`. -/
def visitExpression (llvm : LLVM.Backend) : Expression → CodeGenerator → Result CodeGenerator
  | Expression.NumberLiteral value, g =>
    Except.ok { g with lastValue := some (LLVM.Value.ConstantInt 32 (value % 4294967296).toNat) }
  | Expression.BooleanLiteral value, g =>
    Except.ok { g with lastValue := some (LLVM.Value.ConstantInt 1 (if value then 1 else 0)) }
  | Expression.Variable name, g =>
    match lookup g.namedValues name with
    | none => Except.error (CodeGenFailure.CodeGenError ("Unknown variable name: " ++ name), g)
    | some alloca =>
      Except.ok
        { (g.CreateLoad (LLVM.IRType.IntegerTy 32)
            (LLVM.Value.Instruction alloca LLVM.IRType.PointerTy) name).2 with
          lastValue := some (g.CreateLoad (LLVM.IRType.IntegerTy 32)
            (LLVM.Value.Instruction alloca LLVM.IRType.PointerTy) name).1 }
  | Expression.BinaryOperation left operator_ right, g =>
    match visitExpression llvm left g with
    | Except.error e => Except.error e
    | Except.ok g1 =>
      match visitExpression llvm right g1 with
      | Except.error e => Except.error e
      | Except.ok g2 =>
        match g1.lastValue, g2.lastValue with
        | some l, some r =>
          match binaryInstruction llvm g2 operator_ l r with
          | some (v, g3) => Except.ok { g3 with lastValue := some v }
          | none =>
            Except.error
              (CodeGenFailure.CodeGenError ("Unknown binary operator: " ++ operator_), g2)
        | _, _ =>
          Except.error (CodeGenFailure.CodeGenError "Invalid operands for binary operation", g2)
  | Expression.UnaryOperation operator_ operand, g =>
    match visitExpression llvm operand g with
    | Except.error e => Except.error e
    | Except.ok g1 =>
      match g1.lastValue with
      | none =>
        Except.error (CodeGenFailure.CodeGenError "Invalid operand for unary operation", g1)
      | some v =>
        match unaryInstruction llvm g1 operator_ v with
        | some (r, g2) => Except.ok { g2 with lastValue := some r }
        | none =>
          Except.error (CodeGenFailure.CodeGenError ("Unknown unary operator: " ++ operator_), g1)
  | Expression.FunctionCall name arguments, g =>
    match lookup g.functions name with
    | none =>
      Except.error (CodeGenFailure.CodeGenError ("Unknown function referenced: " ++ name), g)
    | some calleeFunction =>
      match LLVM.findFunction g.module calleeFunction with
      | none => Except.error (CodeGenFailure.undefinedBehaviour, g)
      | some f =>
        if f.args.length ≠ arguments.length then
          Except.error
            (CodeGenFailure.CodeGenError
              ("Incorrect number of arguments passed to function: " ++ name), g)
        else
          match visitArguments llvm arguments [] g with
          | Except.error e => Except.error e
          | Except.ok (args, g1) =>
            Except.ok
              { (g1.CreateCall calleeFunction args "calltmp").2 with
                lastValue := some (g1.CreateCall calleeFunction args "calltmp").1 }

/-- The loop of `visit(FunctionCall&)` over the arguments, with the vector
`args` built so far. -/
def visitArguments (llvm : LLVM.Backend) :
    List Expression → List LLVM.Value → CodeGenerator → Result (List LLVM.Value × CodeGenerator)
  | [], args, g => Except.ok (args, g)
  | arg :: rest, args, g =>
    match visitExpression llvm arg g with
    | Except.error e => Except.error e
    | Except.ok g1 =>
      match g1.lastValue with
      | none =>
        Except.error (CodeGenFailure.CodeGenError "Invalid argument in function call", g1)
      | some v => visitArguments llvm rest (args ++ [v]) g1

end

/-- The end of a branch of `visit(IfStatement&)` and of the body of
`visit(WhileStatement&)`: a branch to `dest` unless the insertion block has a
terminator. -/
def branchUnlessTerminated (g : CodeGenerator) (dest : Nat) : Result CodeGenerator :=
  match g.hasTerminator with
  | Except.error e => Except.error e
  | Except.ok true => Except.ok g
  | Except.ok false => Except.ok (g.CreateBr dest)

/-- The blocks and the conditional branch of `visit(IfStatement&)`: the
identities of `then`, `else` (null without an else branch) and `ifcont`. -/
def ifBlocks (g : CodeGenerator) (conditionValue : LLVM.Value) (function : Nat)
    (hasElse : Bool) : Nat × Option Nat × Nat × CodeGenerator :=
  if hasElse then
    ((g.createBlock "then" function).1,
      some (((g.createBlock "then" function).2.createBlock "else" function).1),
      ((((g.createBlock "then" function).2.createBlock "else" function).2.createBlock "ifcont"
        function).1),
      ((((g.createBlock "then" function).2.createBlock "else" function).2.createBlock "ifcont"
        function).2).CreateCondBr conditionValue (g.createBlock "then" function).1
        (((g.createBlock "then" function).2.createBlock "else" function).1))
  else
    ((g.createBlock "then" function).1, none,
      (((g.createBlock "then" function).2.createBlock "ifcont" function).1),
      (((g.createBlock "then" function).2.createBlock "ifcont" function).2).CreateCondBr
        conditionValue (g.createBlock "then" function).1
        (((g.createBlock "then" function).2.createBlock "ifcont" function).1))

/-- The blocks of `visit(WhileStatement&)` and the branch into the loop: the
identities of `whilecond`, `whilebody` and `afterwhile`; the insertion point is
set to `whilecond`. -/
def whileBlocks (g : CodeGenerator) (function : Nat) : Nat × Nat × Nat × CodeGenerator :=
  ((g.createBlock "whilecond" function).1,
    ((g.createBlock "whilecond" function).2.createBlock "whilebody" function).1,
    (((g.createBlock "whilecond" function).2.createBlock "whilebody" function).2.createBlock
      "afterwhile" function).1,
    { ((((g.createBlock "whilecond" function).2.createBlock "whilebody" function).2.createBlock
        "afterwhile" function).2).CreateBr (g.createBlock "whilecond" function).1 with
      insertBlock := some (g.createBlock "whilecond" function).1 })

/-- The start of `visit(FunctionDeclaration&)`: `Function::Create` with the
argument names set, the entry in `functions`, the entry block with the
insertion point in it, `currentFunction`, and the cleared `namedValues`. -/
def declareFunction (g : CodeGenerator) (name : String) (parameters : List String) :
    Nat × CodeGenerator :=
  (g.nextId,
    { module := LLVM.appendBlock
        (g.module ++ [⟨g.nextId, name, LLVM.argumentNames parameters, []⟩]) g.nextId
        ⟨g.nextId + 1, "entry", []⟩
      insertBlock := some (g.nextId + 1)
      namedValues := []
      functions := assign g.functions name g.nextId
      currentFunction := some g.nextId
      lastValue := g.lastValue
      nextId := g.nextId + 2 })

/-- The part of `visit(FunctionDeclaration&)` before the body: the function is
declared and every argument gets its alloca, store and binding; the result is
the identity of the function and the generator with which the body is visited. -/
def enterFunction (g : CodeGenerator) (name : String) (parameters : List String) :
    Result (Nat × CodeGenerator) :=
  match parameterAllocas (declareFunction g name parameters).1
      (LLVM.argumentNames parameters) 0 (declareFunction g name parameters).2 with
  | Except.error e => Except.error e
  | Except.ok g1 => Except.ok ((declareFunction g name parameters).1, g1)

/-- The implicit return of `visit(FunctionDeclaration&)`: `ret i32 0` unless
the insertion block has a terminator. -/
def implicitReturn (g : CodeGenerator) : Result CodeGenerator :=
  match g.hasTerminator with
  | Except.error e => Except.error e
  | Except.ok true => Except.ok g
  | Except.ok false => Except.ok (g.CreateRet zero32)

/-- The verification step of `visit(FunctionDeclaration&)`: a function that
`llvm::verifyFunction` finds broken is erased and the error is thrown. -/
def verify (llvm : LLVM.Backend) (g : CodeGenerator) (function : Nat) (name : String) :
    Result CodeGenerator :=
  match LLVM.findFunction g.module function with
  | none => Except.error (CodeGenFailure.undefinedBehaviour, g)
  | some f =>
    if llvm.verifyFunction g.module f then
      Except.error
        (CodeGenFailure.CodeGenError ("Function verification failed for: " ++ name),
          { g with module := LLVM.eraseFunction g.module function })
    else Except.ok g

mutual

/-- The visits of the statement nodes: `visit(VariableDeclaration&)`,
`visit(Assignment&)`, `visit(IfStatement&)`, `visit(WhileStatement&)`,
`visit(Block&)`, `visit(FunctionDeclaration&)`, `visit(ReturnStatement&)` and
`visit(ExpressionStatement&)`. -/
def visitStatement (llvm : LLVM.Backend) : Statement → CodeGenerator → Result CodeGenerator
  | Statement.VariableDeclaration name initializer, g =>
    match g.insertFunction with
    | Except.error e => Except.error e
    | Except.ok function =>
      match g.createEntryBlockAlloca function name with
      | Except.error e => Except.error e
      | Except.ok (alloca, g1) =>
        match (match initializer with
          | some e => visitExpression llvm e g1
          | none => Except.ok { g1 with lastValue := some zero32 }) with
        | Except.error e => Except.error e
        | Except.ok g2 =>
          match g2.lastValue with
          | none => Except.error (CodeGenFailure.undefinedBehaviour, g2)
          | some initValue =>
            Except.ok
              { g2.CreateStore initValue (LLVM.Value.Instruction alloca LLVM.IRType.PointerTy) with
                namedValues := assign g2.namedValues name alloca
                lastValue := none }
  | Statement.Assignment name value, g =>
    match lookup g.namedValues name with
    | none => Except.error (CodeGenFailure.CodeGenError ("Unknown variable name: " ++ name), g)
    | some variable_ =>
      match visitExpression llvm value g with
      | Except.error e => Except.error e
      | Except.ok g1 =>
        match g1.lastValue with
        | none => Except.error (CodeGenFailure.CodeGenError "Invalid assignment value", g1)
        | some v =>
          Except.ok (g1.CreateStore v (LLVM.Value.Instruction variable_ LLVM.IRType.PointerTy))
  | Statement.IfStatement condition thenBranch elseBranch, g =>
    match visitExpression llvm condition g with
    | Except.error e => Except.error e
    | Except.ok g1 =>
      match g1.lastValue with
      | none => Except.error (CodeGenFailure.CodeGenError "Invalid if condition", g1)
      | some v =>
        match toCondition llvm g1 v "ifcond" with
        | (conditionValue, g2) =>
          match g2.insertFunction with
          | Except.error e => Except.error e
          | Except.ok function =>
            match ifBlocks g2 conditionValue function elseBranch.isSome with
            | (thenBlock, elseBlock, mergeBlock, g3) =>
              match visitStatement llvm thenBranch { g3 with insertBlock := some thenBlock } with
              | Except.error e => Except.error e
              | Except.ok g4 =>
                match branchUnlessTerminated g4 mergeBlock with
                | Except.error e => Except.error e
                | Except.ok g5 =>
                  match visitElse llvm elseBranch elseBlock mergeBlock g5 with
                  | Except.error e => Except.error e
                  | Except.ok g6 =>
                    Except.ok { g6 with insertBlock := some mergeBlock, lastValue := none }
  | Statement.WhileStatement condition body, g =>
    match g.insertFunction with
    | Except.error e => Except.error e
    | Except.ok function =>
      match whileBlocks g function with
      | (condBlock, bodyBlock, afterBlock, g1) =>
        match visitExpression llvm condition g1 with
        | Except.error e => Except.error e
        | Except.ok g2 =>
          match g2.lastValue with
          | none => Except.error (CodeGenFailure.CodeGenError "Invalid while condition", g2)
          | some v =>
            match toCondition llvm g2 v "whilecond" with
            | (conditionValue, g3) =>
              match visitStatement llvm body
                { g3.CreateCondBr conditionValue bodyBlock afterBlock with
                  insertBlock := some bodyBlock } with
              | Except.error e => Except.error e
              | Except.ok g4 =>
                match branchUnlessTerminated g4 condBlock with
                | Except.error e => Except.error e
                | Except.ok g5 =>
                  Except.ok { g5 with insertBlock := some afterBlock, lastValue := none }
  | Statement.Block statements, g => visitStatements llvm statements g
  | Statement.FunctionDeclaration name parameters body, g =>
    match enterFunction g name parameters with
    | Except.error e => Except.error e
    | Except.ok (function, g1) =>
      match visitStatements llvm body g1 with
      | Except.error e => Except.error e
      | Except.ok g2 =>
        match implicitReturn g2 with
        | Except.error e => Except.error e
        | Except.ok g3 =>
          match verify llvm g3 function name with
          | Except.error e => Except.error e
          | Except.ok g4 =>
            Except.ok
              { g4 with
                namedValues := g.namedValues
                currentFunction := g.currentFunction
                lastValue := none }
  | Statement.ReturnStatement value, g =>
    match value with
    | some e =>
      match visitExpression llvm e g with
      | Except.error e => Except.error e
      | Except.ok g1 =>
        match g1.lastValue with
        | none => Except.error (CodeGenFailure.undefinedBehaviour, g1)
        | some v => Except.ok (g1.CreateRet v)
    | none => Except.ok (g.CreateRet zero32)
  | Statement.ExpressionStatement expression, g => visitExpression llvm expression g

/-- The else part of `visit(IfStatement&)`: with an else branch, the insertion
point is set to the else block, the branch is visited and ended. -/
def visitElse (llvm : LLVM.Backend) :
    Option Statement → Option Nat → Nat → CodeGenerator → Result CodeGenerator
  | none, _, _, g => Except.ok g
  | some elseBranch, elseBlock, mergeBlock, g =>
    match visitStatement llvm elseBranch { g with insertBlock := elseBlock } with
    | Except.error e => Except.error e
    | Except.ok g1 => branchUnlessTerminated g1 mergeBlock

/-- The loops of `visit(Block&)` and `visit(Program&)`. -/
def visitStatements (llvm : LLVM.Backend) : List Statement → CodeGenerator → Result CodeGenerator
  | [], g => Except.ok g
  | stmt :: rest, g =>
    match visitStatement llvm stmt g with
    | Except.error e => Except.error e
    | Except.ok g1 => visitStatements llvm rest g1

end

/-- The entry `CodeGenerator::generate`. -/
def generate (llvm : LLVM.Backend) (program : Program) (g : CodeGenerator) :
    Result CodeGenerator :=
  visitStatements llvm program.statements g

end CodeGenerator

/-- The pipeline of `main`: lexer, parser, and the generator of a new
`CodeGenerator`; `none` when the parser does not return a program. -/
def compileSource (llvm : LLVM.Backend) (source : String) :
    Option (CodeGenerator.Result CodeGenerator) :=
  match parseSource source with
  | some (Except.ok program) => some (CodeGenerator.generate llvm program CodeGenerator.new)
  | _ => none

namespace LLVM

/-- The signed number that an `APInt` of `bits` bits with the unsigned value
`value` stands for. -/
def signedValue (bits value : Nat) : Int :=
  if 2 * value < 2 ^ bits then (value : Int) else (value : Int) - (2 ^ bits : Nat)

/-- The `APInt` of `bits` bits for the integer `n`, as its unsigned value. -/
def wrap (bits : Nat) (n : Int) : Nat := (n % ((2 ^ bits : Nat) : Int)).toNat

/-- A backend for the examples. Its folder is the one of `ConstantFolder` on
two `ConstantInt`s of one width (a division by zero, or one that overflows,
gives the constant `poison`, tag 0); it folds nothing else. Its verifier asks
that every block ends in a terminator and holds no other one, and that a `ret`
returns an `i32`. -/
def exampleBackend : Backend where
  FoldBinOp := fun opcode lhs rhs =>
    match lhs, rhs with
    | Value.ConstantInt b1 v1, Value.ConstantInt b2 v2 =>
      if b1 = b2 then
        match opcode with
        | BinaryOps.Add => some (Value.ConstantInt b1 ((v1 + v2) % 2 ^ b1))
        | BinaryOps.Sub => some (Value.ConstantInt b1 (wrap b1 ((v1 : Int) - (v2 : Int))))
        | BinaryOps.Mul => some (Value.ConstantInt b1 ((v1 * v2) % 2 ^ b1))
        | BinaryOps.SDiv =>
          if v2 = 0 ∨ (2 * v1 = 2 ^ b1 ∧ v2 + 1 = 2 ^ b1) then
            some (Value.Constant (IRType.IntegerTy b1) 0)
          else
            some (Value.ConstantInt b1
              (wrap b1 (Int.tdiv (signedValue b1 v1) (signedValue b1 v2))))
        | BinaryOps.And => some (Value.ConstantInt b1 (Nat.land v1 v2))
        | BinaryOps.Or => some (Value.ConstantInt b1 (Nat.lor v1 v2))
        | BinaryOps.Xor => some (Value.ConstantInt b1 (Nat.xor v1 v2))
      else none
    | _, _ => none
  FoldICmp := fun predicate lhs rhs =>
    match lhs, rhs with
    | Value.ConstantInt b1 v1, Value.ConstantInt b2 v2 =>
      if b1 = b2 then
        some (Value.ConstantInt 1
          (if (match predicate with
            | Predicate.ICMP_EQ => decide (v1 = v2)
            | Predicate.ICMP_NE => decide (v1 ≠ v2)
            | Predicate.ICMP_SGT => decide (signedValue b1 v1 > signedValue b1 v2)
            | Predicate.ICMP_SGE => decide (signedValue b1 v1 ≥ signedValue b1 v2)
            | Predicate.ICMP_SLT => decide (signedValue b1 v1 < signedValue b1 v2)
            | Predicate.ICMP_SLE => decide (signedValue b1 v1 ≤ signedValue b1 v2)) then 1
          else 0))
      else none
    | _, _ => none
  verifyFunction := fun _ f =>
    f.blocks.any (fun b =>
      b.getTerminator.isNone ||
        b.instructions.dropLast.any (fun i => i.operation.isTerminator) ||
        b.instructions.any (fun i =>
          match i.operation with
          | Operation.Ret v => decide (v.getType ≠ IRType.IntegerTy 32)
          | _ => false))

end LLVM

/-! ## Specification-side notions for the generator -/

namespace CodeGenerator

/-- The generator with which a visit ended: the one returned, or the one at
the point where the failure was raised. -/
def stateOf (r : Result CodeGenerator) : CodeGenerator :=
  match r with
  | Except.ok g => g
  | Except.error e => e.2

/-- The identities of the functions of the module are below `nextId`, the
identity that the next object gets. -/
def Fresh (g : CodeGenerator) : Prop := ∀ f ∈ g.module, f.id < g.nextId

/-- The module `m'` keeps the functions of `m`: a function of `m` is found in
`m'` under the same identity, with the same arguments, and with an entry block
if it had one. -/
def ModuleKept (m m' : List LLVM.Function) : Prop :=
  ∀ id f, LLVM.findFunction m id = some f →
    ∃ f', LLVM.findFunction m' id = some f' ∧ f'.args = f.args ∧ (f.blocks ≠ [] → f'.blocks ≠ [])

/-- Between `g` and `g'` only the builder worked: the symbol tables, the
insertion block and `currentFunction` are the same, the module keeps its
functions, and identities stay fresh. -/
def SameTables (g g' : CodeGenerator) : Prop :=
  g'.namedValues = g.namedValues ∧ g'.functions = g.functions ∧
    g'.insertBlock = g.insertBlock ∧ g'.currentFunction = g.currentFunction ∧
    ModuleKept g.module g'.module ∧ (Fresh g → Fresh g')

/-- What lowering statements does to the tables between `g` and `g'`, when the
statements declare the functions `fnames` and, outside nested functions, the
variables `dnames`: other function names are bound as before, the variable
names bound are those bound before and those declared, the module keeps its
functions, and identities stay fresh. -/
def Lowered (fnames dnames : List String) (g g' : CodeGenerator) : Prop :=
  (∀ n, n ∉ fnames → lookup g'.functions n = lookup g.functions n) ∧
    (∀ n, lookup g'.namedValues n ≠ none ↔ (lookup g.namedValues n ≠ none ∨ n ∈ dnames)) ∧
    ModuleKept g.module g'.module ∧ (Fresh g → Fresh g')

/-- The values of the expressions `arguments`, lowered one after the other from
left to right, starting with the generator `g` and ending with `g'`. -/
inductive LoweredInOrder (llvm : LLVM.Backend) :
    List Expression → CodeGenerator → List LLVM.Value → CodeGenerator → Prop where
  | nil (g : CodeGenerator) : LoweredInOrder llvm [] g [] g
  | cons (arg : Expression) (rest : List Expression) (g g1 g' : CodeGenerator) (v : LLVM.Value)
      (vs : List LLVM.Value) : visitExpression llvm arg g = Except.ok g1 →
      g1.lastValue = some v → LoweredInOrder llvm rest g1 vs g' →
      LoweredInOrder llvm (arg :: rest) g (v :: vs) g'

/-- The table `functions` binds `name` to a function of the module that has
`n` arguments. -/
def Declared (g : CodeGenerator) (name : String) (n : Nat) : Prop :=
  ∃ callee f, lookup g.functions name = some callee ∧
    LLVM.findFunction g.module callee = some f ∧ f.args.length = n

end CodeGenerator

mutual

/-- The names of the function declarations in a statement, nested ones included. -/
def Statement.functionNames : Statement → List String
  | Statement.VariableDeclaration _ _ => []
  | Statement.Assignment _ _ => []
  | Statement.IfStatement _ thenBranch elseBranch =>
    thenBranch.functionNames ++ Statement.functionNamesOption elseBranch
  | Statement.WhileStatement _ body => body.functionNames
  | Statement.Block statements => Statement.functionNamesList statements
  | Statement.FunctionDeclaration name _ body => name :: Statement.functionNamesList body
  | Statement.ReturnStatement _ => []
  | Statement.ExpressionStatement _ => []

/-- The names of the function declarations in an optional statement. -/
def Statement.functionNamesOption : Option Statement → List String
  | none => []
  | some s => s.functionNames

/-- The names of the function declarations in a statement list. -/
def Statement.functionNamesList : List Statement → List String
  | [] => []
  | s :: rest => s.functionNames ++ Statement.functionNamesList rest

end

mutual

/-- The names that the variable declarations of a statement declare in the
function that holds it: those in nested blocks, branches and loop bodies are
included, those inside a nested function declaration are not. -/
def Statement.declaredNames : Statement → List String
  | Statement.VariableDeclaration name _ => [name]
  | Statement.Assignment _ _ => []
  | Statement.IfStatement _ thenBranch elseBranch =>
    thenBranch.declaredNames ++ Statement.declaredNamesOption elseBranch
  | Statement.WhileStatement _ body => body.declaredNames
  | Statement.Block statements => Statement.declaredNamesList statements
  | Statement.FunctionDeclaration _ _ _ => []
  | Statement.ReturnStatement _ => []
  | Statement.ExpressionStatement _ => []

/-- The names declared by an optional statement. -/
def Statement.declaredNamesOption : Option Statement → List String
  | none => []
  | some s => s.declaredNames

/-- The names declared by a statement list. -/
def Statement.declaredNamesList : List Statement → List String
  | [] => []
  | s :: rest => s.declaredNames ++ Statement.declaredNamesList rest

end

namespace CodeGenerator

/-- The generator with which the loop over the arguments of a call ended. -/
def stateOfArguments (r : Result (List LLVM.Value × CodeGenerator)) : CodeGenerator :=
  match r with
  | Except.ok r => r.2
  | Except.error e => e.2

end CodeGenerator

namespace CodeGenerator

/-- The failure with which a visit ended, if it failed. -/
def failureOf {α : Type} (r : Result α) : Option CodeGenFailure :=
  match r with
  | Except.ok _ => none
  | Except.error e => some e.1

end CodeGenerator

/-! ## Running a module: `CodeGenerator::executeJIT`

`executeJIT` hands the module to LLVM's execution engine, which is not part
of the repository. Its effect is taken from the language reference of LLVM,
for the instructions that the generator builds: a machine that runs one
instruction per step, with the integers of `iN` as the numbers below `2^N`. -/

namespace LLVM

/-- A value at run time: an integer of `bits` bits, the address of an alloca of
the running function, or a value that is not defined (the content of memory
never stored to, `poison`). -/
inductive RuntimeValue where
  | int (bits : Nat) (value : Nat)
  | pointer (alloca : Nat)
  | undefined
  deriving DecidableEq, Repr

/-- The ways a run ends without a value: a thrown `CodeGenError`, behaviour
that LLVM leaves undefined, or the fuel of the model used up. -/
inductive RunFailure where
  | CodeGenError (message : String)
  | undefinedBehaviour
  | outOfFuel
  deriving DecidableEq, Repr

/-- The activation of a function: its arguments, the results of the
instructions run so far, the content of its allocas, and the instructions of
the current block that are still to run. -/
structure Frame where
  arguments : List RuntimeValue
  registers : List (Nat × RuntimeValue)
  memory : List (Nat × RuntimeValue)
  rest : List Instruction
  deriving DecidableEq, Repr

/-- The running activation and its callers, each with the identity of the call
instruction that waits for the result. -/
structure Machine where
  frame : Frame
  stack : List (Nat × Frame)
  deriving DecidableEq, Repr

/-- The entry of a table of the machine under a key. -/
def Frame.find (table : List (Nat × RuntimeValue)) (key : Nat) : Option RuntimeValue :=
  (table.find? (fun e => decide (e.1 = key))).map (fun e => e.2)

/-- The run-time value of an operand. -/
def Frame.value (frame : Frame) : Value → Option RuntimeValue
  | Value.ConstantInt bits value => some (RuntimeValue.int bits value)
  | Value.Constant _ _ => some RuntimeValue.undefined
  | Value.Argument _ index => frame.arguments[index]?
  | Value.Instruction id _ => Frame.find frame.registers id

/-- The result of a binary operator on two integers of one width; `none` where
the behaviour is undefined (a division by zero, or one that overflows). -/
def binaryResult (opcode : BinaryOps) (bits v1 v2 : Nat) : Option Nat :=
  match opcode with
  | BinaryOps.Add => some ((v1 + v2) % 2 ^ bits)
  | BinaryOps.Sub => some (wrap bits ((v1 : Int) - (v2 : Int)))
  | BinaryOps.Mul => some ((v1 * v2) % 2 ^ bits)
  | BinaryOps.SDiv =>
    if v2 = 0 ∨ (2 * v1 = 2 ^ bits ∧ v2 + 1 = 2 ^ bits) then none
    else some (wrap bits (Int.tdiv (signedValue bits v1) (signedValue bits v2)))
  | BinaryOps.And => some (Nat.land v1 v2)
  | BinaryOps.Or => some (Nat.lor v1 v2)
  | BinaryOps.Xor => some (Nat.xor v1 v2)

/-- The result of a comparison of two integers of one width. -/
def compareResult (predicate : Predicate) (bits v1 v2 : Nat) : Bool :=
  match predicate with
  | Predicate.ICMP_EQ => decide (v1 = v2)
  | Predicate.ICMP_NE => decide (v1 ≠ v2)
  | Predicate.ICMP_SGT => decide (signedValue bits v1 > signedValue bits v2)
  | Predicate.ICMP_SGE => decide (signedValue bits v1 ≥ signedValue bits v2)
  | Predicate.ICMP_SLT => decide (signedValue bits v1 < signedValue bits v2)
  | Predicate.ICMP_SLE => decide (signedValue bits v1 ≤ signedValue bits v2)

/-- The machine after the result `v` of the instruction `id` is known and the
instructions `rest` of the block remain. -/
def Machine.define (m : Machine) (id : Nat) (v : RuntimeValue) (rest : List Instruction) :
    Machine :=
  { m with frame := { m.frame with registers := (id, v) :: m.frame.registers, rest := rest } }

/-- The machine after a jump to the block `dest`. -/
def Machine.jump (module : List Function) (m : Machine) (dest : Nat) :
    Except RunFailure (Machine ⊕ RuntimeValue) :=
  match findBlock module dest with
  | none => Except.error RunFailure.undefinedBehaviour
  | some block => Except.ok (Sum.inl { m with frame := { m.frame with rest := block.instructions } })

/-- One step of the machine: the next instruction of the running activation is
run. The result is the machine after it, or the value that the outermost
activation returns. A block that ends without a terminator, an operand that
has no value or not the type asked for, a branch on a value that is not
defined and a callee without a block are undefined behaviour. -/
def Machine.step (module : List Function) (m : Machine) :
    Except RunFailure (Machine ⊕ RuntimeValue) :=
  match m.frame.rest with
  | [] => Except.error RunFailure.undefinedBehaviour
  | i :: rest =>
    match i.operation with
    | Operation.Alloca _ =>
      Except.ok (Sum.inl
        { m with frame :=
            { m.frame with
              registers := (i.id, RuntimeValue.pointer i.id) :: m.frame.registers
              memory := (i.id, RuntimeValue.undefined) :: m.frame.memory
              rest := rest } })
    | Operation.Load _ pointer =>
      match m.frame.value pointer with
      | some (RuntimeValue.pointer a) =>
        match Frame.find m.frame.memory a with
        | some v => Except.ok (Sum.inl (m.define i.id v rest))
        | none => Except.error RunFailure.undefinedBehaviour
      | _ => Except.error RunFailure.undefinedBehaviour
    | Operation.Store value pointer =>
      match m.frame.value value, m.frame.value pointer with
      | some v, some (RuntimeValue.pointer a) =>
        Except.ok (Sum.inl
          { m with frame := { m.frame with memory := (a, v) :: m.frame.memory, rest := rest } })
      | _, _ => Except.error RunFailure.undefinedBehaviour
    | Operation.BinaryOperator opcode lhs rhs =>
      match m.frame.value lhs, m.frame.value rhs with
      | some (RuntimeValue.int b1 v1), some (RuntimeValue.int b2 v2) =>
        if b1 = b2 then
          match binaryResult opcode b1 v1 v2 with
          | some v => Except.ok (Sum.inl (m.define i.id (RuntimeValue.int b1 v) rest))
          | none => Except.error RunFailure.undefinedBehaviour
        else Except.error RunFailure.undefinedBehaviour
      | some RuntimeValue.undefined, some (RuntimeValue.int _ _) =>
        Except.ok (Sum.inl (m.define i.id RuntimeValue.undefined rest))
      | some (RuntimeValue.int _ _), some RuntimeValue.undefined =>
        if opcode = BinaryOps.SDiv then Except.error RunFailure.undefinedBehaviour
        else Except.ok (Sum.inl (m.define i.id RuntimeValue.undefined rest))
      | some RuntimeValue.undefined, some RuntimeValue.undefined =>
        if opcode = BinaryOps.SDiv then Except.error RunFailure.undefinedBehaviour
        else Except.ok (Sum.inl (m.define i.id RuntimeValue.undefined rest))
      | _, _ => Except.error RunFailure.undefinedBehaviour
    | Operation.ICmp predicate lhs rhs =>
      match m.frame.value lhs, m.frame.value rhs with
      | some (RuntimeValue.int b1 v1), some (RuntimeValue.int b2 v2) =>
        if b1 = b2 then
          Except.ok (Sum.inl (m.define i.id
            (RuntimeValue.int 1 (if compareResult predicate b1 v1 v2 then 1 else 0)) rest))
        else Except.error RunFailure.undefinedBehaviour
      | some RuntimeValue.undefined, some (RuntimeValue.int _ _) =>
        Except.ok (Sum.inl (m.define i.id RuntimeValue.undefined rest))
      | some (RuntimeValue.int _ _), some RuntimeValue.undefined =>
        Except.ok (Sum.inl (m.define i.id RuntimeValue.undefined rest))
      | some RuntimeValue.undefined, some RuntimeValue.undefined =>
        Except.ok (Sum.inl (m.define i.id RuntimeValue.undefined rest))
      | _, _ => Except.error RunFailure.undefinedBehaviour
    | Operation.Call callee args =>
      match findFunction module callee, args.mapM m.frame.value with
      | some f, some values =>
        match f.blocks with
        | [] => Except.error RunFailure.undefinedBehaviour
        | entry :: _ =>
          Except.ok (Sum.inl
            { frame :=
                { arguments := values, registers := [], memory := [],
                  rest := entry.instructions }
              stack := (i.id, { m.frame with rest := rest }) :: m.stack })
      | _, _ => Except.error RunFailure.undefinedBehaviour
    | Operation.Br dest => m.jump module dest
    | Operation.CondBr cond ifTrue ifFalse =>
      match m.frame.value cond with
      | some (RuntimeValue.int 1 1) => m.jump module ifTrue
      | some (RuntimeValue.int 1 0) => m.jump module ifFalse
      | _ => Except.error RunFailure.undefinedBehaviour
    | Operation.Ret value =>
      match m.frame.value value with
      | none => Except.error RunFailure.undefinedBehaviour
      | some v =>
        match m.stack with
        | [] => Except.ok (Sum.inr v)
        | (id, caller) :: stack =>
          Except.ok (Sum.inl
            { frame := { caller with registers := (id, v) :: caller.registers }
              stack := stack })

/-- The run of the machine: at most `fuel` steps. -/
def Machine.run (module : List Function) : Nat → Machine → Except RunFailure RuntimeValue
  | 0, _ => Except.error RunFailure.outOfFuel
  | fuel + 1, m =>
    match m.step module with
    | Except.error e => Except.error e
    | Except.ok (Sum.inr v) => Except.ok v
    | Except.ok (Sum.inl m1) => Machine.run module fuel m1

/-- The call `executionEngine->runFunction(function, args)`. -/
def runFunction (module : List Function) (fuel : Nat) (function : Function)
    (args : List RuntimeValue) : Except RunFailure RuntimeValue :=
  match function.blocks with
  | [] => Except.error RunFailure.undefinedBehaviour
  | entry :: _ =>
    Machine.run module fuel
      { frame := { arguments := args, registers := [], memory := [], rest := entry.instructions }
        stack := [] }

/-- The result of `llvm::verifyModule` (`true` when the module is broken): the
module of the generator holds only functions, and it is broken when one of
them is. -/
def verifyModule (llvm : Backend) (module : List Function) : Bool :=
  module.any (fun f => llvm.verifyFunction module f)

end LLVM

namespace CodeGenerator

/-- The entry `CodeGenerator::executeJIT`, with an execution engine that can be
created: the module is verified, the function `main` is looked up and run
without arguments, and the integer it returns is read as a signed number. -/
def executeJIT (llvm : LLVM.Backend) (fuel : Nat) (g : CodeGenerator) :
    Except LLVM.RunFailure Int :=
  if LLVM.verifyModule llvm g.module then
    Except.error (LLVM.RunFailure.CodeGenError "Module verification failed")
  else
    match g.module.find? (fun f => decide (f.name = "main")) with
    | none => Except.error (LLVM.RunFailure.CodeGenError "Main function not found")
    | some mainFunction =>
      match LLVM.runFunction g.module fuel mainFunction [] with
      | Except.error e => Except.error e
      | Except.ok (LLVM.RuntimeValue.int bits value) => Except.ok (LLVM.signedValue bits value)
      | Except.ok _ => Except.error LLVM.RunFailure.undefinedBehaviour

end CodeGenerator

/-! ## main.cpp: the command line -/

namespace Driver

/-- The text that `printUsage(programName)` writes to `std::cout`. -/
def printUsage (programName : String) : String :=
  "Usage: " ++ programName ++ " [options] <input_file>\n" ++
    "Options:\n" ++
    "  -h, --help        Show this help message\n" ++
    "  -t, --tokens      Print tokens and exit\n" ++
    "  -a, --ast         Print AST (not implemented yet) and exit\n" ++
    "  -i, --ir          Print LLVM IR and exit\n" ++
    "  -o, --output      Specify output file for IR\n" ++
    "  -r, --run         Compile and run with JIT\n"

/-- The local variables of `main` that the arguments set. -/
structure Options where
  inputFile : String
  outputFile : String
  printTokens : Bool
  printAST : Bool
  printIR : Bool
  runJIT : Bool
  deriving DecidableEq, Repr

/-- How the part of `main` before the `try` block ends: `main` has returned
`status`, having written `cout` to `std::cout` and `cerr` to `std::cerr`; or
it goes on to the `try` block, whose first statement reads the input file; or
it has called `front()` on an empty string. No file is opened before the
`try` block. -/
inductive Outcome where
  | returned (status : Int) (cout : String) (cerr : String)
  | compile (options : Options)
  | undefinedBehaviour
  deriving DecidableEq, Repr

/-- The loop of `main` over `argv[1]`, .., `argv[argc - 1]`. -/
def argumentLoop (programName : String) : List String → Options → Except Outcome Options
  | [], options => Except.ok options
  | arg :: rest, options =>
    if arg = "-h" ∨ arg = "--help" then
      Except.error (Outcome.returned 0 (printUsage programName) "")
    else if arg = "-t" ∨ arg = "--tokens" then
      argumentLoop programName rest { options with printTokens := true }
    else if arg = "-a" ∨ arg = "--ast" then
      argumentLoop programName rest { options with printAST := true }
    else if arg = "-i" ∨ arg = "--ir" then
      argumentLoop programName rest { options with printIR := true }
    else if arg = "-r" ∨ arg = "--run" then
      argumentLoop programName rest { options with runJIT := true }
    else if arg = "-o" ∨ arg = "--output" then
      match rest with
      | path :: rest1 => argumentLoop programName rest1 { options with outputFile := path }
      | [] => Except.error (Outcome.returned 1 "" "Error: -o requires an output filename\n")
    else
      match arg.data with
      | [] => Except.error Outcome.undefinedBehaviour
      | front :: _ =>
        if front ≠ '-' then argumentLoop programName rest { options with inputFile := arg }
        else
          Except.error
            (Outcome.returned 1 (printUsage programName)
              ("Error: Unknown option " ++ arg ++ "\n"))

/-- The function `main` up to the `try` block, for `argv[0] = programName` and
the arguments `arguments` after it. -/
def main (programName : String) (arguments : List String) : Outcome :=
  match argumentLoop programName arguments
      { inputFile := "", outputFile := "", printTokens := false, printAST := false,
        printIR := false, runJIT := false } with
  | Except.error outcome => outcome
  | Except.ok options =>
    if options.inputFile = "" then
      Outcome.returned 1 (printUsage programName) "Error: No input file specified\n"
    else Outcome.compile options

end Driver

/-! ## Specification-side notions for the later claims -/

namespace LLVM

/-- Specification side: the block holds exactly one terminator, and it is its
last instruction. -/
def BasicBlock.wellTerminated (b : BasicBlock) : Bool :=
  decide ((b.instructions.filter (fun i => i.operation.isTerminator)).length = 1) &&
    b.getTerminator.isSome

/-- Specification side: the control flow of a module: the blocks of every
function by identity and name, each with the terminators it holds. -/
def controlFlow (module : List Function) : List (Nat × List (Nat × String × List Instruction)) :=
  module.map (fun f =>
    (f.id, f.blocks.map (fun b =>
      (b.id, b.name, b.instructions.filter (fun i => i.operation.isTerminator)))))

end LLVM

namespace CodeGenerator

/-- Specification side: between `g` and `g1` the instruction `operation` was
inserted at the insertion point if the insertion block of `g` had no
terminator, and nothing was done if it had one. -/
def InsertedUnlessTerminated (g : CodeGenerator) (operation : LLVM.Operation)
    (g1 : CodeGenerator) : Prop :=
  ∃ b block, g.insertBlock = some b ∧ LLVM.findBlock g.module b = some block ∧
    ((block.getTerminator = none ∧ g1 = (g.Insert operation "").2) ∨
      (block.getTerminator ≠ none ∧ g1 = g))

/-- Specification side: the allocas of the arguments `names` of the function
`function`, the first of them with the index `index`. -/
def parameterSlots (function : Nat) : List String → Nat → List LLVM.Instruction
  | [], _ => []
  | name :: rest, index =>
    ⟨function + 2 + 2 * index, name, LLVM.Operation.Alloca (LLVM.IRType.IntegerTy 32)⟩ ::
      parameterSlots function rest (index + 1)

/-- Specification side: the stores of the arguments `names` of the function
`function` to their allocas, the first of them with the index `index`. -/
def parameterStores (function : Nat) : List String → Nat → List LLVM.Instruction
  | [], _ => []
  | _ :: rest, index =>
    ⟨function + 3 + 2 * index, "",
        LLVM.Operation.Store (LLVM.Value.Argument function index)
          (LLVM.Value.Instruction (function + 2 + 2 * index) LLVM.IRType.PointerTy)⟩ ::
      parameterStores function rest (index + 1)

/-- Specification side: the identities of the functions and blocks of the
module are below `nextId`, the identity that the next object gets. -/
def FreshBlocks (g : CodeGenerator) : Prop :=
  ∀ f ∈ g.module, f.id < g.nextId ∧ ∀ b ∈ f.blocks, b.id < g.nextId

/-- Specification side: a property of the generator that the steps of
lowering keep: the insertion of an instruction, a new block, an alloca at the
beginning of an entry block, a new function, and any change that leaves the
module and `nextId` alone. -/
structure Invariant (P : CodeGenerator → Prop) : Prop where
  insert : ∀ (g : CodeGenerator) (operation : LLVM.Operation) (name : String),
    P g → P (g.Insert operation name).2
  block : ∀ (g : CodeGenerator) (name : String) (function : Nat),
    P g → P (g.createBlock name function).2
  alloca : ∀ (g g1 : CodeGenerator) (function alloca : Nat) (name : String),
    g.createEntryBlockAlloca function name = Except.ok (alloca, g1) → P g → P g1
  declare : ∀ (g : CodeGenerator) (name : String) (parameters : List String),
    P g → P (g.declareFunction name parameters).2
  tables : ∀ (g g1 : CodeGenerator), g1.module = g.module → g1.nextId = g.nextId → P g → P g1

end CodeGenerator

namespace Driver

/-- Specification side: the arguments are options that `main` accepts, an
`-o` or `--output` with its path, and (when `files` is set) input files: no
help option, no unknown option, no empty argument and no `-o` at the end. -/
def accepted (files : Bool) : List String → Bool
  | [] => true
  | arg :: rest =>
    if arg ∈ ["-t", "--tokens", "-a", "--ast", "-i", "--ir", "-r", "--run"] then
      accepted files rest
    else if arg = "-o" ∨ arg = "--output" then
      match rest with
      | _ :: rest1 => accepted files rest1
      | [] => false
    else if arg = "-h" ∨ arg = "--help" then false
    else
      match arg.data with
      | [] => false
      | front :: _ => if front ≠ '-' then files && accepted files rest else false

end Driver

/-! ## Specification-side notions for termination and index safety of the parser -/

namespace Parser

/-- The cursor `c` is an index of the token vector and no token before it is
`END_OF_FILE`: the cursor is not past the first `END_OF_FILE` token. -/
def Inside (tokens : List Token) (c : Nat) : Prop :=
  c < tokens.length ∧ ∀ i t, i < c → tokens[i]? = some t → t.type ≠ TokenType.END_OF_FILE

/-- A call entered with the cursor inside the vector ends, by a return or by a
failure, with the cursor inside it, and the failure is not a read outside the
vector. -/
def Safe (tokens : List Token) (c : Nat) (o : Except (Failure × Nat) Nat) : Prop :=
  Inside tokens c →
    Inside tokens (cursorOf o) ∧ ∀ c', o ≠ Except.error (Failure.outOfBounds, c')

/-- An iteration of the operator loop `loop`, whose operator kinds are `ops`
and whose operands are parsed by `sub`: when `match` has taken an operator at
the cursor `c` and `sub` returns the operand `right`, the cursor is beyond `c`
and the loop goes on from there with the operation built. -/
def OperatorLoopAdvances (tokens : List Token)
    (sub : Nat → List Token → Nat → Result Expression) (ops : List TokenType)
    (loop : Nat → List Token → Expression → Nat → Result Expression) : Prop :=
  ∀ n expr c c1 right, match_ tokens c ops = Except.ok (true, c1) →
    sub n tokens c1 = Except.ok right →
    c < right.2 ∧ ∃ operator_, previous tokens c1 = Except.ok operator_ ∧
      loop (n + 1) tokens expr c =
        loop n tokens (Expression.BinaryOperation expr operator_.value right.1) right.2

/-- Every iteration of a loop of the parser whose body does not fail leaves
the cursor beyond the one it was entered with, and the loop goes on (or, for
the last pass of a `do ... while` loop, returns) from there. The loops are the
statement loops of `parse` and `block`, the skip-to-semicolon loop of the
`catch` block of `parse`, the six operator loops, the loop of `call`, and the
argument and parameter loops. -/
structure LoopsAdvance (tokens : List Token) : Prop where
  parse : ∀ n statements c r, isAtEnd tokens c = Except.ok false →
    statement n tokens c = Except.ok r →
    c < r.2 ∧
      parseLoop (n + 1) tokens statements c = parseLoop n tokens (statements ++ [r.1]) r.2
  recovery : ∀ n c t, isAtEnd tokens c = Except.ok false → peek tokens c = Except.ok t →
    t.type ≠ TokenType.SEMICOLON →
    advance tokens c = Except.ok (t, c + 1) ∧
      recoverLoop (n + 1) tokens c = recoverLoop n tokens (c + 1)
  block : ∀ n statements c r, check tokens c TokenType.RIGHT_BRACE = Except.ok false →
    isAtEnd tokens c = Except.ok false → statement n tokens c = Except.ok r →
    c < r.2 ∧
      blockLoop (n + 1) tokens statements c = blockLoop n tokens (statements ++ [r.1]) r.2
  logicalOr : OperatorLoopAdvances tokens logicalAnd [TokenType.LOGICAL_OR] logicalOrLoop
  logicalAnd : OperatorLoopAdvances tokens equality [TokenType.LOGICAL_AND] logicalAndLoop
  equality : OperatorLoopAdvances tokens comparison [TokenType.NOT_EQUAL, TokenType.EQUAL]
    equalityLoop
  comparison : OperatorLoopAdvances tokens term
    [TokenType.GREATER_THAN, TokenType.GREATER_EQUAL, TokenType.LESS_THAN,
      TokenType.LESS_EQUAL] comparisonLoop
  term : OperatorLoopAdvances tokens factor [TokenType.MINUS, TokenType.PLUS] termLoop
  factor : OperatorLoopAdvances tokens unary [TokenType.DIVIDE, TokenType.MULTIPLY] factorLoop
  call : ∀ n function_name c c1 closing arguments r,
    match_ tokens c [TokenType.LEFT_PAREN] = Except.ok (true, c1) →
    check tokens c1 TokenType.RIGHT_PAREN = Except.ok closing →
    (if !closing then callArguments n tokens [] c1 else Except.ok ([], c1)) =
      Except.ok arguments →
    consume tokens arguments.2 TokenType.RIGHT_PAREN "Expected ')' after arguments" =
      Except.ok r →
    c < r.2 ∧
      callLoop (n + 1) tokens (Expression.Variable function_name) c =
        callLoop n tokens (Expression.FunctionCall function_name arguments.1) r.2
  arguments : ∀ n arguments c r again c2, expression n tokens c = Except.ok r →
    match_ tokens r.2 [TokenType.COMMA] = Except.ok (again, c2) →
    c < c2 ∧
      callArguments (n + 1) tokens arguments c =
        if again then callArguments n tokens (arguments ++ [r.1]) c2
        else Except.ok (arguments ++ [r.1], c2)
  parameters : ∀ n parameters c param again c2,
    consume tokens c TokenType.IDENTIFIER "Expected parameter name" = Except.ok param →
    match_ tokens param.2 [TokenType.COMMA] = Except.ok (again, c2) →
    c < c2 ∧
      parameterLoop (n + 1) tokens parameters c =
        if again then parameterLoop n tokens (parameters ++ [param.1.value]) c2
        else Except.ok (parameters ++ [param.1.value], c2)

end Parser

/-! ## Specification-side notions for the lexemes and the operators -/

/-- The bytes that separate tokens: space, tab, carriage return and newline. -/
def isBlank (c : Char) : Bool := decide (c = ' ' ∨ c = '\t' ∨ c = '\r' ∨ c = '\n')

/-- No two adjacent bytes of `s` are both `/`. -/
def NoAdjacentSlashes (s : List Char) : Prop :=
  ∀ i, s[i]? = some '/' → s[i + 1]? ≠ some '/'

namespace Lexer

/-- The lexeme of each token kind that has a fixed one: the operators and the
punctuation. -/
def spelling : TokenType → Option String
  | TokenType.PLUS => some "+"
  | TokenType.MINUS => some "-"
  | TokenType.MULTIPLY => some "*"
  | TokenType.DIVIDE => some "/"
  | TokenType.ASSIGN => some "="
  | TokenType.EQUAL => some "=="
  | TokenType.NOT_EQUAL => some "!="
  | TokenType.LESS_THAN => some "<"
  | TokenType.LESS_EQUAL => some "<="
  | TokenType.GREATER_THAN => some ">"
  | TokenType.GREATER_EQUAL => some ">="
  | TokenType.LOGICAL_AND => some "&&"
  | TokenType.LOGICAL_OR => some "||"
  | TokenType.LOGICAL_NOT => some "!"
  | TokenType.LEFT_PAREN => some "("
  | TokenType.RIGHT_PAREN => some ")"
  | TokenType.LEFT_BRACE => some "\x7b"
  | TokenType.RIGHT_BRACE => some "\x7d"
  | TokenType.COMMA => some ","
  | TokenType.SEMICOLON => some ";"
  | _ => none

/-- A token of a kind that has a fixed lexeme carries that lexeme. -/
def Spelled (t : Token) : Prop := ∀ v, spelling t.type = some v → t.value = v

/-- The byte offset at which the lexeme of the token of index `k` of
`tokenize s` starts (for `END_OF_FILE`, where scanning stopped). -/
def lexemeStart (s : String) (k : Nat) : Nat := (tokenStart (stateAfter s k)).current

end Lexer

/-- The operator spellings that `visit(BinaryOperation&)` lowers. -/
def binaryOperators : List String :=
  ["+", "-", "*", "/", "<", "<=", ">", ">=", "==", "!=", "&&", "||"]

/-- The operator spellings that `visit(UnaryOperation&)` lowers. -/
def unaryOperators : List String := ["-", "!"]

mutual

/-- Every `BinaryOperation` of the tree has its operator in `binaryOperators`
and every `UnaryOperation` has its operator in `unaryOperators`. -/
def Expression.knownOperators : Expression → Bool
  | Expression.NumberLiteral _ => true
  | Expression.BooleanLiteral _ => true
  | Expression.Variable _ => true
  | Expression.BinaryOperation left operator_ right =>
    left.knownOperators && decide (operator_ ∈ binaryOperators) && right.knownOperators
  | Expression.UnaryOperation operator_ operand =>
    decide (operator_ ∈ unaryOperators) && operand.knownOperators
  | Expression.FunctionCall _ arguments => Expression.knownOperatorsList arguments

/-- The operators of every expression of the list are known. -/
def Expression.knownOperatorsList : List Expression → Bool
  | [] => true
  | e :: rest => e.knownOperators && Expression.knownOperatorsList rest

end

/-- The operators of an optional expression are known. -/
def Expression.knownOperatorsOption : Option Expression → Bool
  | none => true
  | some e => e.knownOperators

mutual

/-- The operators of every expression in the statement are known. -/
def Statement.knownOperators : Statement → Bool
  | Statement.VariableDeclaration _ initializer => Expression.knownOperatorsOption initializer
  | Statement.Assignment _ value => value.knownOperators
  | Statement.IfStatement condition thenBranch elseBranch =>
    condition.knownOperators && thenBranch.knownOperators &&
      Statement.knownOperatorsOption elseBranch
  | Statement.WhileStatement condition body => condition.knownOperators && body.knownOperators
  | Statement.Block statements => Statement.knownOperatorsList statements
  | Statement.FunctionDeclaration _ _ body => Statement.knownOperatorsList body
  | Statement.ReturnStatement value => Expression.knownOperatorsOption value
  | Statement.ExpressionStatement expression => expression.knownOperators

/-- The operators of an optional statement are known. -/
def Statement.knownOperatorsOption : Option Statement → Bool
  | none => true
  | some s => s.knownOperators

/-- The operators of every statement of the list are known. -/
def Statement.knownOperatorsList : List Statement → Bool
  | [] => true
  | s :: rest => s.knownOperators && Statement.knownOperatorsList rest

end

/-- The operators of every expression in the program are known. -/
def Program.knownOperators (program : Program) : Bool :=
  Statement.knownOperatorsList program.statements

namespace Parser

/-- Every expression that a rule of the expression grammar returns, on fuel
`fuel`, has known operators only, given that the expression (or the argument
list) that a loop starts from has. -/
structure ExprKnown (tokens : List Token) (fuel : Nat) : Prop where
  expression : ∀ c r, expression fuel tokens c = Except.ok r → r.1.knownOperators = true
  logicalOr : ∀ c r, logicalOr fuel tokens c = Except.ok r → r.1.knownOperators = true
  logicalOrLoop : ∀ e c r, e.knownOperators = true →
    logicalOrLoop fuel tokens e c = Except.ok r → r.1.knownOperators = true
  logicalAnd : ∀ c r, logicalAnd fuel tokens c = Except.ok r → r.1.knownOperators = true
  logicalAndLoop : ∀ e c r, e.knownOperators = true →
    logicalAndLoop fuel tokens e c = Except.ok r → r.1.knownOperators = true
  equality : ∀ c r, equality fuel tokens c = Except.ok r → r.1.knownOperators = true
  equalityLoop : ∀ e c r, e.knownOperators = true →
    equalityLoop fuel tokens e c = Except.ok r → r.1.knownOperators = true
  comparison : ∀ c r, comparison fuel tokens c = Except.ok r → r.1.knownOperators = true
  comparisonLoop : ∀ e c r, e.knownOperators = true →
    comparisonLoop fuel tokens e c = Except.ok r → r.1.knownOperators = true
  term : ∀ c r, term fuel tokens c = Except.ok r → r.1.knownOperators = true
  termLoop : ∀ e c r, e.knownOperators = true →
    termLoop fuel tokens e c = Except.ok r → r.1.knownOperators = true
  factor : ∀ c r, factor fuel tokens c = Except.ok r → r.1.knownOperators = true
  factorLoop : ∀ e c r, e.knownOperators = true →
    factorLoop fuel tokens e c = Except.ok r → r.1.knownOperators = true
  unary : ∀ c r, unary fuel tokens c = Except.ok r → r.1.knownOperators = true
  call : ∀ c r, call fuel tokens c = Except.ok r → r.1.knownOperators = true
  callLoop : ∀ e c r, e.knownOperators = true →
    callLoop fuel tokens e c = Except.ok r → r.1.knownOperators = true
  callArguments : ∀ a c r, Expression.knownOperatorsList a = true →
    callArguments fuel tokens a c = Except.ok r → Expression.knownOperatorsList r.1 = true
  primary : ∀ c r, primary fuel tokens c = Except.ok r → r.1.knownOperators = true

/-- Every statement that a rule of the statement grammar returns, on fuel
`fuel`, has known operators only. -/
structure StmtKnown (tokens : List Token) (fuel : Nat) : Prop where
  statement : ∀ c r, statement fuel tokens c = Except.ok r → r.1.knownOperators = true
  ifStatement : ∀ c r, ifStatement fuel tokens c = Except.ok r → r.1.knownOperators = true
  whileStatement : ∀ c r, whileStatement fuel tokens c = Except.ok r →
    r.1.knownOperators = true
  functionDeclaration : ∀ c r, functionDeclaration fuel tokens c = Except.ok r →
    r.1.knownOperators = true
  block : ∀ c r, block fuel tokens c = Except.ok r → Statement.knownOperatorsList r.1 = true
  blockLoop : ∀ s c r, Statement.knownOperatorsList s = true →
    blockLoop fuel tokens s c = Except.ok r → Statement.knownOperatorsList r.1 = true

end Parser

namespace CodeGenerator

/-- The failures of `visit(BinaryOperation&)` and `visit(UnaryOperation&)` on
an operator that they do not know. -/
def UnknownOperator (failure : CodeGenFailure) : Prop :=
  ∃ operator_, failure = CodeGenFailure.CodeGenError ("Unknown binary operator: " ++ operator_) ∨
    failure = CodeGenFailure.CodeGenError ("Unknown unary operator: " ++ operator_)

end CodeGenerator

namespace Lexer

theorem Follows.refl (lx : Lexer) : Follows lx lx := ⟨rfl, le_refl _, fun h => h⟩

theorem Follows.trans {a b c : Lexer} (h₁ : Follows a b) (h₂ : Follows b c) : Follows a c := by
  obtain ⟨i₁, c₁, b₁⟩ := h₁
  obtain ⟨i₂, c₂, b₂⟩ := h₂
  refine ⟨i₂.trans i₁, c₁.trans c₂, fun h => ?_⟩
  have := b₂ (by rw [i₁]; exact b₁ h)
  rwa [i₁] at this

theorem isAtEnd_eq_false {lx : Lexer} (h : lx.current < lx.input.length) : lx.isAtEnd = false := by
  simp [isAtEnd, h]

theorem isAtEnd_eq_true {lx : Lexer} (h : lx.input.length ≤ lx.current) : lx.isAtEnd = true := by
  simp [isAtEnd, h]

theorem isAtEnd_false_iff {lx : Lexer} : lx.isAtEnd = false ↔ lx.current < lx.input.length := by
  simp [isAtEnd]

theorem advance_input (lx : Lexer) : lx.advance.2.input = lx.input := by
  unfold advance
  split
  · rfl
  · dsimp only
    split <;> rfl

theorem advance_current {lx : Lexer} (h : lx.current < lx.input.length) :
    lx.advance.2.current = lx.current + 1 := by
  unfold advance
  rw [isAtEnd_eq_false h]
  simp only [Bool.false_eq_true, if_false]
  split <;> rfl

theorem peek_zero {lx : Lexer} (h : lx.current < lx.input.length) :
    lx.peek 0 = lx.input.getD lx.current (Char.ofNat 0) := by
  unfold peek
  simp only [Nat.add_zero]
  rw [if_neg (by omega)]

theorem advance_fst {lx : Lexer} (h : lx.current < lx.input.length) :
    lx.advance.1 = lx.peek 0 := by
  rw [peek_zero h]
  unfold advance
  rw [isAtEnd_eq_false h]
  simp only [Bool.false_eq_true, if_false]
  split <;> rfl

theorem advance_follows (lx : Lexer) : Follows lx lx.advance.2 := by
  by_cases h : lx.current < lx.input.length
  · exact ⟨advance_input lx, by rw [advance_current h]; omega, fun _ => by rw [advance_current h]; omega⟩
  · have : lx.advance = (Char.ofNat 0, lx) := by
      unfold advance
      rw [isAtEnd_eq_true (by omega)]
      rfl
    rw [this]
    exact Follows.refl lx

theorem peek_of_atEnd {lx : Lexer} (h : lx.input.length ≤ lx.current) (k : Nat) :
    lx.peek k = Char.ofNat 0 := by
  unfold peek
  simp only
  rw [if_pos (by omega)]

end Lexer

namespace Lexer

theorem skipWhitespaceLoop_follows (fuel : Nat) (lx : Lexer) :
    Follows lx (skipWhitespaceLoop fuel lx) := by
  induction fuel generalizing lx with
  | zero => exact Follows.refl lx
  | succ n ih =>
    unfold skipWhitespaceLoop
    split
    · dsimp only
      split
      · exact (advance_follows lx).trans (ih _)
      · exact Follows.refl lx
    · exact Follows.refl lx

theorem skipWhitespace_follows (lx : Lexer) : Follows lx (skipWhitespace lx) :=
  skipWhitespaceLoop_follows _ lx

theorem skipCommentLoop_follows (fuel : Nat) (lx : Lexer) :
    Follows lx (skipCommentLoop fuel lx) := by
  induction fuel generalizing lx with
  | zero => exact Follows.refl lx
  | succ n ih =>
    unfold skipCommentLoop
    split
    · exact (advance_follows lx).trans (ih _)
    · exact Follows.refl lx

theorem skipComment_follows (lx : Lexer) : Follows lx (skipComment lx) := by
  unfold skipComment
  split
  · exact skipCommentLoop_follows _ lx
  · exact Follows.refl lx

theorem makeNumberLoop_follows (fuel : Nat) (lx : Lexer) (value : String) :
    Follows lx (makeNumberLoop fuel lx value).2 := by
  induction fuel generalizing lx value with
  | zero => exact Follows.refl lx
  | succ n ih =>
    unfold makeNumberLoop
    split
    · exact (advance_follows lx).trans (ih _ _)
    · exact Follows.refl lx

theorem makeIdentifierLoop_follows (fuel : Nat) (lx : Lexer) (value : String) :
    Follows lx (makeIdentifierLoop fuel lx value).2 := by
  induction fuel generalizing lx value with
  | zero => exact Follows.refl lx
  | succ n ih =>
    unfold makeIdentifierLoop
    split
    · exact (advance_follows lx).trans (ih _ _)
    · exact Follows.refl lx

/-- After a byte other than a newline has been read, backing up restores the lexer. -/
theorem backUp_advance {lx : Lexer} (h : lx.current < lx.input.length)
    (hc : lx.peek 0 ≠ '\n') : backUp lx.advance.2 = lx := by
  rw [peek_zero h] at hc
  unfold advance
  rw [isAtEnd_eq_false h]
  simp only [Bool.false_eq_true, if_false, if_neg hc]
  cases lx
  simp [backUp]

theorem tokenStart_follows (lx : Lexer) : Follows lx (tokenStart lx) :=
  ((skipWhitespace_follows lx).trans (skipComment_follows _)).trans (skipWhitespace_follows _)

theorem keywords_ne_eof (v : String) (k : TokenType) (h : keywords v = some k) :
    k ≠ TokenType.END_OF_FILE := by
  unfold keywords at h
  split_ifs at h <;> (injection h with h; subst h; decide)

theorem makeIdentifier_type_ne_eof (lx : Lexer) :
    (makeIdentifier lx).1.type ≠ TokenType.END_OF_FILE := by
  unfold makeIdentifier
  dsimp only
  split
  · next k hk => exact keywords_ne_eof _ k hk
  · simp

theorem makeNumber_advances {lx : Lexer} (h : lx.current < lx.input.length)
    (hd : isdigit (lx.peek 0) = true) :
    Follows lx (makeNumber lx).2 ∧ lx.current < (makeNumber lx).2.current := by
  unfold makeNumber
  dsimp only
  obtain ⟨n, hn⟩ : ∃ n, lx.input.length - lx.current = n + 1 := ⟨lx.input.length - lx.current - 1, by omega⟩
  rw [hn]
  unfold makeNumberLoop
  rw [if_pos hd]
  have hf := makeNumberLoop_follows n lx.advance.2 ("".push lx.advance.1)
  refine ⟨(advance_follows lx).trans hf, ?_⟩
  have := hf.2.1
  rw [advance_current h] at this
  omega

theorem makeIdentifier_advances {lx : Lexer} (h : lx.current < lx.input.length)
    (hd : isalnum (lx.peek 0) = true ∨ lx.peek 0 = '_') :
    Follows lx (makeIdentifier lx).2 ∧ lx.current < (makeIdentifier lx).2.current := by
  unfold makeIdentifier
  dsimp only
  obtain ⟨n, hn⟩ : ∃ n, lx.input.length - lx.current = n + 1 := ⟨lx.input.length - lx.current - 1, by omega⟩
  rw [hn]
  unfold makeIdentifierLoop
  rw [if_pos hd]
  have hf := makeIdentifierLoop_follows n lx.advance.2 ("".push lx.advance.1)
  refine ⟨(advance_follows lx).trans hf, ?_⟩
  have := hf.2.1
  rw [advance_current h] at this
  omega

theorem isalnum_of_isalpha {c : Char} (h : isalpha c = true) : isalnum c = true := by
  simp [isalnum, h]

theorem isdigit_ne_newline {c : Char} (h : isdigit c = true) : c ≠ '\n' := by
  rintro rfl
  revert h
  decide

theorem isalpha_ne_newline {c : Char} (h : isalpha c = true ∨ c = '_') : c ≠ '\n' := by
  rintro rfl
  revert h
  decide

end Lexer

namespace Lexer

theorem nextToken_of_atEnd {lx0 : Lexer} (h : (tokenStart lx0).isAtEnd = true) :
    nextToken lx0 = (Token.mk TokenType.END_OF_FILE "" (tokenStart lx0).line
      (tokenStart lx0).column, tokenStart lx0) := by
  unfold nextToken
  unfold tokenStart at h
  simp only [h, if_true]
  rfl

theorem lt_of_peek_ne_nul {lx : Lexer} {c : Char} (h : lx.peek 0 = c) (hc : c ≠ Char.ofNat 0) :
    lx.current < lx.input.length := by
  by_contra hn
  exact hc (h ▸ peek_of_atEnd (by omega) 0)

/-- Case analysis on what `nextToken` does once the lexeme start `lx` is not
the end of input: a one-byte token, a two-byte token, a number or an identifier. -/
theorem nextToken_elim {lx0 lx : Lexer} (hlx : tokenStart lx0 = lx) (h : lx.isAtEnd = false)
    (P : Token × Lexer → Prop)
    (single : ∀ t v, t ≠ TokenType.END_OF_FILE → v = String.singleton (lx.peek 0) →
      P (Token.mk t v lx.line lx.column, lx.advance.2))
    (double : ∀ t v, t ≠ TokenType.END_OF_FILE → lx.advance.2.current < lx.input.length →
      v = (String.singleton (lx.peek 0)).push (lx.advance.2.peek 0) →
      P (Token.mk t v lx.line lx.column, lx.advance.2.advance.2))
    (number : isdigit (lx.peek 0) = true → P (makeNumber lx))
    (identifier : isalpha (lx.peek 0) = true ∨ lx.peek 0 = '_' → P (makeIdentifier lx)) :
    P (nextToken lx0) := by
  have hlt := isAtEnd_false_iff.mp h
  have hfst := advance_fst hlt
  have hin := advance_input lx
  unfold nextToken
  unfold tokenStart at hlx
  rw [hlx]
  dsimp only
  rw [h]
  simp only [Bool.false_eq_true, if_false]
  rw [hfst]
  by_cases h0 : lx.peek 0 = '+'
  · rw [if_pos h0]; exact single _ _ (by decide) (by rw [h0]; decide)
  rw [if_neg h0]
  by_cases h1 : lx.peek 0 = '-'
  · rw [if_pos h1]; exact single _ _ (by decide) (by rw [h1]; decide)
  rw [if_neg h1]
  by_cases h2 : lx.peek 0 = '*'
  · rw [if_pos h2]; exact single _ _ (by decide) (by rw [h2]; decide)
  rw [if_neg h2]
  by_cases h3 : lx.peek 0 = '/'
  · rw [if_pos h3]; exact single _ _ (by decide) (by rw [h3]; decide)
  rw [if_neg h3]
  by_cases h4 : lx.peek 0 = '('
  · rw [if_pos h4]; exact single _ _ (by decide) (by rw [h4]; decide)
  rw [if_neg h4]
  by_cases h5 : lx.peek 0 = ')'
  · rw [if_pos h5]; exact single _ _ (by decide) (by rw [h5]; decide)
  rw [if_neg h5]
  by_cases h6 : lx.peek 0 = '{'
  · rw [if_pos h6]; exact single _ _ (by decide) (by rw [h6]; decide)
  rw [if_neg h6]
  by_cases h7 : lx.peek 0 = '}'
  · rw [if_pos h7]; exact single _ _ (by decide) (by rw [h7]; decide)
  rw [if_neg h7]
  by_cases h8 : lx.peek 0 = ','
  · rw [if_pos h8]; exact single _ _ (by decide) (by rw [h8]; decide)
  rw [if_neg h8]
  by_cases h9 : lx.peek 0 = ';'
  · rw [if_pos h9]; exact single _ _ (by decide) (by rw [h9]; decide)
  rw [if_neg h9]
  by_cases g0 : lx.peek 0 = '!'
  · rw [if_pos g0]
    by_cases k : lx.advance.2.peek 0 = '='
    · rw [if_pos k]
      exact double _ _ (by decide) (hin ▸ lt_of_peek_ne_nul k (by decide))
        (by rw [g0, k]; decide)
    · rw [if_neg k]; exact single _ _ (by decide) (by rw [g0]; decide)
  rw [if_neg g0]
  by_cases g1 : lx.peek 0 = '='
  · rw [if_pos g1]
    by_cases k : lx.advance.2.peek 0 = '='
    · rw [if_pos k]
      exact double _ _ (by decide) (hin ▸ lt_of_peek_ne_nul k (by decide))
        (by rw [g1, k]; decide)
    · rw [if_neg k]; exact single _ _ (by decide) (by rw [g1]; decide)
  rw [if_neg g1]
  by_cases g2 : lx.peek 0 = '<'
  · rw [if_pos g2]
    by_cases k : lx.advance.2.peek 0 = '='
    · rw [if_pos k]
      exact double _ _ (by decide) (hin ▸ lt_of_peek_ne_nul k (by decide))
        (by rw [g2, k]; decide)
    · rw [if_neg k]; exact single _ _ (by decide) (by rw [g2]; decide)
  rw [if_neg g2]
  by_cases g3 : lx.peek 0 = '>'
  · rw [if_pos g3]
    by_cases k : lx.advance.2.peek 0 = '='
    · rw [if_pos k]
      exact double _ _ (by decide) (hin ▸ lt_of_peek_ne_nul k (by decide))
        (by rw [g3, k]; decide)
    · rw [if_neg k]; exact single _ _ (by decide) (by rw [g3]; decide)
  rw [if_neg g3]
  by_cases g4 : lx.peek 0 = '&'
  · rw [if_pos g4]
    by_cases k : lx.advance.2.peek 0 = '&'
    · rw [if_pos k]
      exact double _ _ (by decide) (hin ▸ lt_of_peek_ne_nul k (by decide))
        (by rw [g4, k]; decide)
    · rw [if_neg k]; exact single _ _ (by decide) rfl
  rw [if_neg g4]
  by_cases g5 : lx.peek 0 = '|'
  · rw [if_pos g5]
    by_cases k : lx.advance.2.peek 0 = '|'
    · rw [if_pos k]
      exact double _ _ (by decide) (hin ▸ lt_of_peek_ne_nul k (by decide))
        (by rw [g5, k]; decide)
    · rw [if_neg k]; exact single _ _ (by decide) rfl
  rw [if_neg g5]
  by_cases hd : isdigit (lx.peek 0) = true
  · rw [if_pos hd, backUp_advance hlt (isdigit_ne_newline hd)]
    exact number hd
  rw [if_neg hd]
  by_cases hi : isalpha (lx.peek 0) = true ∨ lx.peek 0 = '_'
  · rw [if_pos hi, backUp_advance hlt (isalpha_ne_newline hi)]
    exact identifier hi
  rw [if_neg hi]
  exact single _ _ (by decide) rfl

end Lexer

namespace Lexer

theorem nextToken_progress {lx0 : Lexer} (h : (tokenStart lx0).isAtEnd = false) :
    (nextToken lx0).1.type ≠ TokenType.END_OF_FILE ∧
    Follows (tokenStart lx0) (nextToken lx0).2 ∧
    (tokenStart lx0).current < (nextToken lx0).2.current := by
  have hlt := isAtEnd_false_iff.mp h
  refine nextToken_elim rfl h
    (fun r => r.1.type ≠ TokenType.END_OF_FILE ∧ Follows (tokenStart lx0) r.2 ∧
      (tokenStart lx0).current < r.2.current) ?_ ?_ ?_ ?_
  · intro t v ht _
    exact ⟨ht, advance_follows _, by rw [advance_current hlt]; omega⟩
  · intro t v ht _ _
    refine ⟨ht, (advance_follows _).trans (advance_follows _), ?_⟩
    have := (advance_follows (tokenStart lx0).advance.2).2.1
    rw [advance_current hlt] at this
    dsimp only
    omega
  · intro hd
    exact ⟨by simp [makeNumber], makeNumber_advances hlt hd⟩
  · intro hi
    exact ⟨makeIdentifier_type_ne_eof _, makeIdentifier_advances hlt (hi.imp isalnum_of_isalpha id)⟩

/-- A step of the lexer: the state moves on inside the input, and strictly
unless the token is `END_OF_FILE`. -/
theorem nextToken_step (lx0 : Lexer) :
    Follows lx0 (nextToken lx0).2 ∧
    ((nextToken lx0).1.type ≠ TokenType.END_OF_FILE → lx0.current < (nextToken lx0).2.current) := by
  have hs := tokenStart_follows lx0
  cases h : (tokenStart lx0).isAtEnd with
  | true =>
    rw [nextToken_of_atEnd h]
    exact ⟨hs, fun hne => absurd rfl hne⟩
  | false =>
    obtain ⟨_, hf, hlt⟩ := nextToken_progress h
    exact ⟨hs.trans hf, fun _ => lt_of_le_of_lt hs.2.1 hlt⟩

theorem tokenizeLoop_succ (fuel : Nat) (lx : Lexer) (acc : List Token) :
    tokenizeLoop (fuel + 1) lx acc =
      if (nextToken lx).1.type ≠ TokenType.END_OF_FILE then
        tokenizeLoop fuel (nextToken lx).2 (acc ++ [(nextToken lx).1])
      else some (acc ++ [(nextToken lx).1]) := rfl

/-- The loop of `tokenize` stops with enough fuel, and what it appends is a run
of tokens other than `END_OF_FILE` followed by one `END_OF_FILE`. -/
theorem tokenizeLoop_spec (fuel : Nat) (lx : Lexer) (acc : List Token)
    (hin : lx.current ≤ lx.input.length) (hfuel : lx.input.length - lx.current < fuel) :
    ∃ (toks : List Token) (last : Token),
      tokenizeLoop fuel lx acc = some (acc ++ toks ++ [last]) ∧
      (∀ t ∈ toks, t.type ≠ TokenType.END_OF_FILE) ∧ last.type = TokenType.END_OF_FILE := by
  induction fuel generalizing lx acc with
  | zero => omega
  | succ n ih =>
    rw [tokenizeLoop_succ]
    obtain ⟨hf, hlt⟩ := nextToken_step lx
    by_cases he : (nextToken lx).1.type = TokenType.END_OF_FILE
    · rw [if_neg (not_not.mpr he)]
      exact ⟨[], (nextToken lx).1, by simp, by simp, he⟩
    · rw [if_pos he]
      have hlt := hlt he
      have hlen : (nextToken lx).2.input.length = lx.input.length := by rw [hf.1]
      have hin' : (nextToken lx).2.current ≤ (nextToken lx).2.input.length := by
        rw [hlen]; exact hf.2.2 hin
      obtain ⟨toks, last, h1, h2, h3⟩ := ih (nextToken lx).2 (acc ++ [(nextToken lx).1]) hin'
        (by rw [hlen]; omega)
      refine ⟨(nextToken lx).1 :: toks, last, by rw [h1]; simp, ?_, h3⟩
      intro t ht
      rcases List.mem_cons.mp ht with rfl | ht
      · exact he
      · exact h2 t ht

/-- More fuel does not change a result of the loop of `tokenize`. -/
theorem tokenizeLoop_mono (fuel : Nat) (lx : Lexer) (acc r : List Token)
    (h : tokenizeLoop fuel lx acc = some r) (k : Nat) : tokenizeLoop (fuel + k) lx acc = some r := by
  induction fuel generalizing lx acc with
  | zero => simp [tokenizeLoop] at h
  | succ n ih =>
    rw [Nat.add_right_comm]
    rw [tokenizeLoop_succ] at h ⊢
    split
    · next hc => rw [if_pos hc] at h; exact ih _ _ h
    · next hc => rw [if_neg hc] at h; exact h

end Lexer

/-- C1. For every source, `tokenize` terminates (the fuel it runs on is enough,
and any larger fuel gives the same sequence) and returns a non-empty token
sequence whose last token is `END_OF_FILE` and in which no other token is. -/
theorem tokenize_total (s : String) :
    ∃ toks : List Token, tokenize s = some toks ∧
      (∀ k, Lexer.tokenizeLoop (s.toList.length + 1 + k) (Lexer.init s.toList) [] = some toks) ∧
      toks ≠ [] ∧
      (∃ last, toks.getLast? = some last ∧ last.type = TokenType.END_OF_FILE) ∧
      ∀ t ∈ toks.dropLast, t.type ≠ TokenType.END_OF_FILE := by
  obtain ⟨toks, last, h1, h2, h3⟩ :=
    Lexer.tokenizeLoop_spec (s.toList.length + 1) (Lexer.init s.toList) []
      (Nat.zero_le _) (by simp [Lexer.init])
  have ht : tokenize s = some ([] ++ toks ++ [last]) := by
    rw [← h1]; simp [tokenize, Lexer.tokenizeFrom, Lexer.init]
  refine ⟨[] ++ toks ++ [last], ht, fun k => Lexer.tokenizeLoop_mono _ _ _ _ h1 k, by simp,
    ⟨last, by simp, h3⟩, ?_⟩
  intro t ht
  rw [List.dropLast_concat] at ht
  exact h2 t (by simpa using ht)

theorem lineAt_succ (s : List Char) (i : Nat) (h : i < s.length) :
    lineAt s (i + 1) = if s[i] = '\n' then lineAt s i + 1 else lineAt s i := by
  unfold lineAt
  rw [List.take_succ, List.getElem?_eq_getElem h, List.count_append]
  by_cases hc : s[i] = '\n'
  · rw [if_pos hc, hc]; rfl
  · rw [if_neg hc]
    have : List.count '\n' (some s[i]).toList = 0 := by
      simp only [Option.toList, List.count_cons, List.count_nil]
      simp [hc]
    rw [this]; rfl

theorem columnAt_succ (s : List Char) (i : Nat) (h : i < s.length) :
    columnAt s (i + 1) = if s[i] = '\n' then 1 else columnAt s i + 1 := by
  unfold columnAt
  rw [List.take_succ, List.getElem?_eq_getElem h, List.reverse_append]
  simp only [Option.toList, List.reverse_cons, List.reverse_nil, List.nil_append,
    List.singleton_append]
  rw [List.takeWhile_cons]
  by_cases hc : s[i] = '\n'
  · simp [hc]
  · simp [hc]; omega

namespace Lexer

theorem located_init (s : List Char) : Located (init s) := by
  simp [Located, init, lineAt, columnAt]

theorem getD_current {lx : Lexer} (h : lx.current < lx.input.length) :
    lx.input.getD lx.current (Char.ofNat 0) = lx.input[lx.current] := by
  simp [List.getD_eq_getElem?_getD, List.getElem?_eq_getElem h]

theorem advance_eq {lx : Lexer} (h : lx.current < lx.input.length) :
    lx.advance = (lx.input[lx.current],
      if lx.input[lx.current] = '\n' then
        { lx with current := lx.current + 1, line := lx.line + 1, column := 1 }
      else { lx with current := lx.current + 1, column := lx.column + 1 }) := by
  unfold advance
  rw [isAtEnd_eq_false h]
  simp only [Bool.false_eq_true, if_false]
  rw [getD_current h]
  split <;> rfl

theorem advance_located {lx : Lexer} (h : lx.current < lx.input.length) (hl : Located lx) :
    Located lx.advance.2 := by
  obtain ⟨h1, h2⟩ := hl
  rw [advance_eq h]
  by_cases hc : lx.input[lx.current] = '\n'
  · simp only [if_pos hc]
    exact ⟨by show lx.line + 1 = lineAt lx.input (lx.current + 1)
              rw [lineAt_succ _ _ h, if_pos hc, h1],
           by show 1 = columnAt lx.input (lx.current + 1)
              rw [columnAt_succ _ _ h, if_pos hc]⟩
  · simp only [if_neg hc]
    exact ⟨by show lx.line = lineAt lx.input (lx.current + 1)
              rw [lineAt_succ _ _ h, if_neg hc, h1],
           by show lx.column + 1 = columnAt lx.input (lx.current + 1)
              rw [columnAt_succ _ _ h, if_neg hc, h2]⟩

/-- Reading a byte keeps the counters right, at the end of input too. -/
theorem advance_located' {lx : Lexer} (hl : Located lx) : Located lx.advance.2 := by
  by_cases h : lx.current < lx.input.length
  · exact advance_located h hl
  · have : lx.advance = (Char.ofNat 0, lx) := by
      unfold advance
      rw [isAtEnd_eq_true (by omega)]
      rfl
    rw [this]; exact hl

end Lexer

namespace Lexer

theorem skipWhitespaceLoop_located (fuel : Nat) (lx : Lexer) (hl : Located lx) :
    Located (skipWhitespaceLoop fuel lx) := by
  induction fuel generalizing lx with
  | zero => exact hl
  | succ n ih =>
    unfold skipWhitespaceLoop
    split
    · dsimp only
      split
      · exact ih _ (advance_located' hl)
      · exact hl
    · exact hl

theorem skipCommentLoop_located (fuel : Nat) (lx : Lexer) (hl : Located lx) :
    Located (skipCommentLoop fuel lx) := by
  induction fuel generalizing lx with
  | zero => exact hl
  | succ n ih =>
    unfold skipCommentLoop
    split
    · exact ih _ (advance_located' hl)
    · exact hl

theorem tokenStart_located (lx : Lexer) (hl : Located lx) : Located (tokenStart lx) := by
  unfold tokenStart skipWhitespace
  apply skipWhitespaceLoop_located
  unfold skipComment
  split
  · exact skipCommentLoop_located _ _ (skipWhitespaceLoop_located _ _ hl)
  · exact skipWhitespaceLoop_located _ _ hl

theorem drop_current {lx : Lexer} (h : lx.current < lx.input.length) :
    lx.input.drop lx.current = lx.input[lx.current] :: lx.advance.2.input.drop lx.advance.2.current := by
  rw [advance_input, advance_current h]
  exact List.drop_eq_getElem_cons h

theorem peek_eq_getElem {lx : Lexer} (h : lx.current < lx.input.length) :
    lx.peek 0 = lx.input[lx.current] := by
  rw [peek_zero h, getD_current h]

theorem isdigit_nul : isdigit (Char.ofNat 0) = false := by decide

theorem isalnum_nul : ¬ (isalnum (Char.ofNat 0) = true ∨ Char.ofNat 0 = '_') := by decide

/-- The loop of `makeNumber` appends the longest run of digits at the cursor
and stops right after it. -/
theorem makeNumberLoop_run (fuel : Nat) (lx : Lexer) (value : String)
    (hfuel : lx.input.length - lx.current ≤ fuel) :
    (makeNumberLoop fuel lx value).1 =
        String.mk (value.data ++ (lx.input.drop lx.current).takeWhile isdigit) ∧
      (makeNumberLoop fuel lx value).2.current =
        lx.current + ((lx.input.drop lx.current).takeWhile isdigit).length := by
  induction fuel generalizing lx value with
  | zero =>
    have : lx.input.drop lx.current = [] := List.drop_eq_nil_of_le (by omega)
    simp [makeNumberLoop, this]
  | succ n ih =>
    unfold makeNumberLoop
    by_cases hlt : lx.current < lx.input.length
    · rw [drop_current hlt, List.takeWhile_cons, peek_eq_getElem hlt]
      by_cases hd : isdigit lx.input[lx.current] = true
      · rw [if_pos hd, if_pos hd]
        obtain ⟨h1, h2⟩ := ih lx.advance.2 (value.push lx.advance.1)
          (by rw [advance_input, advance_current hlt]; omega)
        rw [h1, h2, advance_fst hlt, peek_eq_getElem hlt, advance_current hlt]
        simp [String.push]
        omega
      · rw [if_neg hd, if_neg hd]
        simp
    · have hnil : lx.input.drop lx.current = [] := List.drop_eq_nil_of_le (by omega)
      rw [peek_of_atEnd (by omega), isdigit_nul, hnil]
      simp

/-- The loop of `makeIdentifier` appends the longest run of letters, digits
and underscores at the cursor and stops right after it. -/
theorem makeIdentifierLoop_run (fuel : Nat) (lx : Lexer) (value : String)
    (hfuel : lx.input.length - lx.current ≤ fuel) :
    (makeIdentifierLoop fuel lx value).1 =
        String.mk (value.data ++
          (lx.input.drop lx.current).takeWhile (fun c => isalnum c || decide (c = '_'))) ∧
      (makeIdentifierLoop fuel lx value).2.current =
        lx.current +
          ((lx.input.drop lx.current).takeWhile (fun c => isalnum c || decide (c = '_'))).length := by
  induction fuel generalizing lx value with
  | zero =>
    have : lx.input.drop lx.current = [] := List.drop_eq_nil_of_le (by omega)
    simp [makeIdentifierLoop, this]
  | succ n ih =>
    unfold makeIdentifierLoop
    by_cases hlt : lx.current < lx.input.length
    · rw [drop_current hlt, List.takeWhile_cons, peek_eq_getElem hlt]
      by_cases hd : isalnum lx.input[lx.current] = true ∨ lx.input[lx.current] = '_'
      · have hd' : (isalnum lx.input[lx.current] || decide (lx.input[lx.current] = '_')) = true := by
          simpa using hd
        rw [if_pos hd, if_pos hd']
        obtain ⟨h1, h2⟩ := ih lx.advance.2 (value.push lx.advance.1)
          (by rw [advance_input, advance_current hlt]; omega)
        rw [h1, h2, advance_fst hlt, peek_eq_getElem hlt, advance_current hlt]
        simp [String.push]
        omega
      · have hd' : ¬ (isalnum lx.input[lx.current] || decide (lx.input[lx.current] = '_')) = true := by
          simpa using hd
        rw [if_neg hd, if_neg hd']
        simp
    · have hnil : lx.input.drop lx.current = [] := List.drop_eq_nil_of_le (by omega)
      rw [peek_of_atEnd (by omega), if_neg isalnum_nul, hnil]
      simp

theorem makeNumberLoop_located (fuel : Nat) (lx : Lexer) (value : String) (hl : Located lx) :
    Located (makeNumberLoop fuel lx value).2 := by
  induction fuel generalizing lx value with
  | zero => exact hl
  | succ n ih =>
    unfold makeNumberLoop
    split
    · exact ih _ _ (advance_located' hl)
    · exact hl

theorem makeIdentifierLoop_located (fuel : Nat) (lx : Lexer) (value : String) (hl : Located lx) :
    Located (makeIdentifierLoop fuel lx value).2 := by
  induction fuel generalizing lx value with
  | zero => exact hl
  | succ n ih =>
    unfold makeIdentifierLoop
    split
    · exact ih _ _ (advance_located' hl)
    · exact hl

end Lexer

theorem take_length_takeWhile {α : Type} (p : α → Bool) (l : List α) :
    l.take (l.takeWhile p).length = l.takeWhile p := by
  induction l with
  | nil => rfl
  | cons a l ih =>
    rw [List.takeWhile_cons]
    split
    · simp [ih]
    · rfl

namespace Lexer

theorem makeNumber_tokenAt {lx : Lexer} (hin : lx.current ≤ lx.input.length) (hl : Located lx) :
    TokenAt lx (makeNumber lx) := by
  obtain ⟨h1, h2⟩ := makeNumberLoop_run (lx.input.length - lx.current) lx "" (le_refl _)
  have hf := makeNumberLoop_follows (lx.input.length - lx.current) lx ""
  have hloc := makeNumberLoop_located (lx.input.length - lx.current) lx "" hl
  unfold makeNumber
  dsimp only
  refine ⟨rfl, rfl, hf.1, ?_, ?_, hf.2.2 hin, hloc⟩
  · rw [h2, h1]; simp [String.length]
  · rw [h1]; simp [String.length, take_length_takeWhile]

theorem makeIdentifier_tokenAt {lx : Lexer} (hin : lx.current ≤ lx.input.length)
    (hl : Located lx) : TokenAt lx (makeIdentifier lx) := by
  obtain ⟨h1, h2⟩ := makeIdentifierLoop_run (lx.input.length - lx.current) lx "" (le_refl _)
  have hf := makeIdentifierLoop_follows (lx.input.length - lx.current) lx ""
  have hloc := makeIdentifierLoop_located (lx.input.length - lx.current) lx "" hl
  unfold makeIdentifier
  dsimp only
  refine ⟨rfl, rfl, hf.1, ?_, ?_, hf.2.2 hin, hloc⟩
  · rw [h2, h1]; simp [String.length]
  · rw [h1]; simp [String.length, take_length_takeWhile]

/-- Every token is built at the state where its lexeme starts. -/
theorem nextToken_tokenAt (lx0 : Lexer) (hin : lx0.current ≤ lx0.input.length)
    (hl : Located lx0) : TokenAt (tokenStart lx0) (nextToken lx0) := by
  have hs := tokenStart_follows lx0
  have hin' : (tokenStart lx0).current ≤ (tokenStart lx0).input.length := by
    rw [hs.1]; exact hs.2.2 hin
  have hl' := tokenStart_located lx0 hl
  cases h : (tokenStart lx0).isAtEnd with
  | true =>
    rw [nextToken_of_atEnd h]
    exact ⟨rfl, rfl, rfl, by simp [String.length], by simp [String.length], hin', hl'⟩
  | false =>
    have hlt := isAtEnd_false_iff.mp h
    refine nextToken_elim rfl h (TokenAt (tokenStart lx0)) ?_ ?_
      (fun _ => makeNumber_tokenAt hin' hl') (fun _ => makeIdentifier_tokenAt hin' hl')
    · intro t v _ hv
      refine ⟨rfl, rfl, advance_input _, ?_, ?_, ?_, advance_located hlt hl'⟩
      · rw [advance_current hlt, hv]; rfl
      · rw [hv, drop_current hlt, peek_eq_getElem hlt]; rfl
      · rw [advance_current hlt]; omega
    · intro t v _ hlt2 hv
      have hlt2' : (tokenStart lx0).advance.2.current < (tokenStart lx0).advance.2.input.length := by
        rw [advance_input]; exact hlt2
      have hcur : (tokenStart lx0).advance.2.advance.2.current = (tokenStart lx0).current + 2 := by
        rw [advance_current hlt2', advance_current hlt]
      refine ⟨rfl, rfl, by rw [advance_input, advance_input], ?_, ?_, ?_,
        advance_located hlt2' (advance_located hlt hl')⟩
      · rw [hcur, hv]; rfl
      · rw [hv, drop_current hlt, drop_current hlt2', peek_eq_getElem hlt, peek_eq_getElem hlt2']
        rfl
      · rw [hcur]; rw [advance_current hlt] at hlt2; omega

end Lexer

namespace Lexer

theorem stateAfter_succ (s : String) (k : Nat) :
    stateAfter s (k + 1) = (nextToken (stateAfter s k)).2 := by
  unfold stateAfter
  rw [Function.iterate_succ_apply']

/-- Every state the lexer goes through has its cursor inside the input and its
counters right. -/
theorem stateAfter_invariant (s : String) (k : Nat) :
    (stateAfter s k).input = s.toList ∧ (stateAfter s k).current ≤ s.toList.length ∧
      Located (stateAfter s k) := by
  induction k with
  | zero => exact ⟨rfl, Nat.zero_le _, located_init _⟩
  | succ n ih =>
    obtain ⟨h1, h2, h3⟩ := ih
    rw [stateAfter_succ]
    have ht := nextToken_tokenAt (stateAfter s n) (by rw [h1]; exact h2) h3
    have hs := tokenStart_follows (stateAfter s n)
    obtain ⟨_, _, hi, _, _, hb, hl⟩ := ht
    rw [hs.1, h1] at hi hb
    exact ⟨hi, hb, hl⟩

/-- The tokens gathered by the loop of `tokenize` are the tokens returned by
the successive calls of `nextToken`. -/
theorem tokenizeLoop_tokens (fuel : Nat) (lx : Lexer) (acc r : List Token)
    (h : tokenizeLoop fuel lx acc = some r) :
    ∃ m, r = acc ++ (List.range (m + 1)).map
      (fun j => (nextToken ((fun l => (nextToken l).2)^[j] lx)).1) := by
  induction fuel generalizing lx acc with
  | zero => simp [tokenizeLoop] at h
  | succ n ih =>
    rw [tokenizeLoop_succ] at h
    by_cases he : (nextToken lx).1.type ≠ TokenType.END_OF_FILE
    · rw [if_pos he] at h
      obtain ⟨m, hm⟩ := ih _ _ h
      refine ⟨m + 1, ?_⟩
      rw [hm, List.range_succ_eq_map (m + 1), List.map_cons, List.map_map, List.append_assoc]
      rfl
    · rw [if_neg he] at h
      injection h with h
      exact ⟨0, by rw [← h]; rfl⟩

theorem tokenize_getElem? (s : String) (toks : List Token) (h : tokenize s = some toks)
    (k : Nat) (t : Token) (hk : toks[k]? = some t) : t = (nextToken (stateAfter s k)).1 := by
  obtain ⟨m, hm⟩ := tokenizeLoop_tokens _ _ _ _ h
  rw [hm, List.nil_append, List.getElem?_map] at hk
  cases hr : (List.range (m + 1))[k]? with
  | none => rw [hr] at hk; simp at hk
  | some j =>
    rw [hr] at hk
    have hj : j = k := by
      have hlt : k < (List.range (m + 1)).length := by
        by_contra hn
        rw [List.getElem?_eq_none (by omega)] at hr
        exact Option.noConfusion hr
      rw [List.getElem?_eq_getElem hlt, List.getElem_range] at hr
      exact (Option.some.inj hr).symm
    subst hj
    simp only [Option.map_some'] at hk
    exact (Option.some.inj hk).symm

end Lexer

/-- C7. Token locations are those of the first byte of the lexeme. For the
token at index `k` of `tokenize s`, let `i` be the cursor at which the call of
`nextToken` that built it started its lexeme (for `END_OF_FILE`, where scanning
stopped). Then the lexeme is the bytes of `s` from `i`, the line is one more
than the number of newlines in `s[0..i)`, and the column is one more than the
number of bytes between the last newline before `i` (or the start) and `i`. -/
theorem token_locations (s : String) (toks : List Token) (h : tokenize s = some toks)
    (k : Nat) (t : Token) (hk : toks[k]? = some t) :
    t = (Lexer.nextToken (Lexer.stateAfter s k)).1 ∧
    (Lexer.tokenStart (Lexer.stateAfter s k)).current ≤ s.toList.length ∧
    t.value.data = (s.toList.drop (Lexer.tokenStart (Lexer.stateAfter s k)).current).take
      t.value.length ∧
    (Lexer.stateAfter s (k + 1)).current =
      (Lexer.tokenStart (Lexer.stateAfter s k)).current + t.value.length ∧
    t.line = lineAt s.toList (Lexer.tokenStart (Lexer.stateAfter s k)).current ∧
    t.column = columnAt s.toList (Lexer.tokenStart (Lexer.stateAfter s k)).current := by
  have ht := Lexer.tokenize_getElem? s toks h k t hk
  obtain ⟨h1, h2, h3⟩ := Lexer.stateAfter_invariant s k
  have hs := Lexer.tokenStart_follows (Lexer.stateAfter s k)
  have hl := Lexer.tokenStart_located _ h3
  obtain ⟨a1, a2, a3, a4, a5, a6, a7⟩ := Lexer.nextToken_tokenAt (Lexer.stateAfter s k)
    (by rw [h1]; exact h2) h3
  have hin : (Lexer.tokenStart (Lexer.stateAfter s k)).input = s.toList := by rw [hs.1, h1]
  rw [← ht] at a1 a2 a4 a5
  refine ⟨ht, ?_, ?_, ?_, ?_, ?_⟩
  · have := hs.2.2 (by rw [h1]; exact h2)
    rwa [h1] at this
  · rw [a5, hin]
  · rw [Lexer.stateAfter_succ, a4]
  · rw [a1, hl.1, hin]
  · rw [a2, hl.2, hin]

theorem token_locations_witness :
    tokenize "a\n b" = some [⟨TokenType.IDENTIFIER, "a", 1, 1⟩, ⟨TokenType.IDENTIFIER, "b", 2, 2⟩,
      ⟨TokenType.END_OF_FILE, "", 2, 3⟩] ∧
    (2 : Nat) = lineAt "a\n b".toList (Lexer.tokenStart (Lexer.stateAfter "a\n b" 1)).current ∧
    (2 : Nat) = columnAt "a\n b".toList (Lexer.tokenStart (Lexer.stateAfter "a\n b" 1)).current :=
  ⟨by decide,
    (token_locations "a\n b"
      [⟨TokenType.IDENTIFIER, "a", 1, 1⟩, ⟨TokenType.IDENTIFIER, "b", 2, 2⟩,
        ⟨TokenType.END_OF_FILE, "", 2, 3⟩]
      (by decide) 1 ⟨TokenType.IDENTIFIER, "b", 2, 2⟩ (by decide)).2.2.2.2⟩

namespace Lexer

/-! ### The fuel of the lexer loops is enough -/

theorem skipWhitespaceLoop_stable (fuel k : Nat) (lx : Lexer)
    (h : lx.input.length - lx.current ≤ fuel) :
    skipWhitespaceLoop (fuel + k) lx = skipWhitespaceLoop fuel lx := by
  induction fuel generalizing lx with
  | zero =>
    have he : lx.isAtEnd = true := isAtEnd_eq_true (by omega)
    cases k with
    | zero => rfl
    | succ k => rw [Nat.zero_add, skipWhitespaceLoop, skipWhitespaceLoop, he]; rfl
  | succ n ih =>
    rw [Nat.add_right_comm, skipWhitespaceLoop, skipWhitespaceLoop]
    by_cases hlt : lx.current < lx.input.length
    · rw [ih lx.advance.2 (by rw [advance_input, advance_current hlt]; omega)]
    · rw [isAtEnd_eq_true (by omega)]; rfl

theorem skipCommentLoop_stable (fuel k : Nat) (lx : Lexer)
    (h : lx.input.length - lx.current ≤ fuel) :
    skipCommentLoop (fuel + k) lx = skipCommentLoop fuel lx := by
  induction fuel generalizing lx with
  | zero =>
    have he : lx.isAtEnd = true := isAtEnd_eq_true (by omega)
    cases k with
    | zero => rfl
    | succ k =>
      rw [Nat.zero_add, skipCommentLoop, skipCommentLoop, he]
      simp
  | succ n ih =>
    rw [Nat.add_right_comm, skipCommentLoop, skipCommentLoop]
    by_cases hlt : lx.current < lx.input.length
    · rw [ih lx.advance.2 (by rw [advance_input, advance_current hlt]; omega)]
    · rw [isAtEnd_eq_true (by omega)]; simp

theorem makeNumberLoop_stable (fuel k : Nat) (lx : Lexer) (value : String)
    (h : lx.input.length - lx.current ≤ fuel) :
    makeNumberLoop (fuel + k) lx value = makeNumberLoop fuel lx value := by
  induction fuel generalizing lx value with
  | zero =>
    cases k with
    | zero => rfl
    | succ k =>
      rw [Nat.zero_add, makeNumberLoop, makeNumberLoop, peek_of_atEnd (by omega), isdigit_nul]
      rfl
  | succ n ih =>
    rw [Nat.add_right_comm, makeNumberLoop, makeNumberLoop]
    by_cases hlt : lx.current < lx.input.length
    · rw [ih lx.advance.2 _ (by rw [advance_input, advance_current hlt]; omega)]
    · rw [peek_of_atEnd (by omega), isdigit_nul]; rfl

theorem makeIdentifierLoop_stable (fuel k : Nat) (lx : Lexer) (value : String)
    (h : lx.input.length - lx.current ≤ fuel) :
    makeIdentifierLoop (fuel + k) lx value = makeIdentifierLoop fuel lx value := by
  induction fuel generalizing lx value with
  | zero =>
    cases k with
    | zero => rfl
    | succ k =>
      rw [Nat.zero_add, makeIdentifierLoop, makeIdentifierLoop, peek_of_atEnd (by omega),
        if_neg isalnum_nul]
  | succ n ih =>
    rw [Nat.add_right_comm, makeIdentifierLoop, makeIdentifierLoop]
    by_cases hlt : lx.current < lx.input.length
    · rw [ih lx.advance.2 _ (by rw [advance_input, advance_current hlt]; omega)]
    · rw [peek_of_atEnd (by omega), if_neg isalnum_nul, if_neg isalnum_nul]

end Lexer

namespace Lexer

theorem peek_advance {lx : Lexer} (h : lx.current < lx.input.length) :
    lx.advance.2.peek 0 = lx.peek 1 := by
  unfold peek
  rw [advance_input, advance_current h]

theorem peek_one_lt {lx : Lexer} {c : Char} (h : lx.peek 1 = c) (hc : c ≠ Char.ofNat 0) :
    lx.current + 1 < lx.input.length := by
  by_contra hn
  apply hc
  rw [← h]
  unfold peek
  simp only
  rw [if_pos (by omega)]

/-- The four operators that an `=` may extend, with the kind of the two-byte
token and of the one-byte token. -/
theorem nextToken_pair (lx0 : Lexer) (c : Char) (k2 k1 : TokenType)
    (hmem : (c, k2, k1) ∈ [('!', TokenType.NOT_EQUAL, TokenType.LOGICAL_NOT),
      ('=', TokenType.EQUAL, TokenType.ASSIGN), ('<', TokenType.LESS_EQUAL, TokenType.LESS_THAN),
      ('>', TokenType.GREATER_EQUAL, TokenType.GREATER_THAN)])
    (h : (tokenStart lx0).peek 0 = c) :
    nextToken lx0 =
      if (tokenStart lx0).peek 1 = '=' then
        (Token.mk k2 (String.mk [c, '=']) (tokenStart lx0).line (tokenStart lx0).column,
          (tokenStart lx0).advance.2.advance.2)
      else
        (Token.mk k1 (String.mk [c]) (tokenStart lx0).line (tokenStart lx0).column,
          (tokenStart lx0).advance.2) := by
  have hc0 : c ≠ Char.ofNat 0 := by
    simp only [List.mem_cons, Prod.mk.injEq, List.mem_singleton, List.not_mem_nil, or_false] at hmem
    rcases hmem with ⟨rfl, -, -⟩ | ⟨rfl, -, -⟩ | ⟨rfl, -, -⟩ | ⟨rfl, -, -⟩ <;> decide
  have hlt := lt_of_peek_ne_nul h hc0
  have hfst := advance_fst hlt
  have hp := peek_advance hlt
  unfold nextToken
  unfold tokenStart at *
  generalize lx0.skipWhitespace.skipComment.skipWhitespace = lx at *
  dsimp only
  rw [isAtEnd_eq_false hlt]
  simp only [Bool.false_eq_true, if_false]
  rw [hfst, hp, h]
  simp only [List.mem_cons, Prod.mk.injEq, List.mem_singleton, List.not_mem_nil, or_false] at hmem
  rcases hmem with ⟨rfl, rfl, rfl⟩ | ⟨rfl, rfl, rfl⟩ | ⟨rfl, rfl, rfl⟩ | ⟨rfl, rfl, rfl⟩ <;>
    simp

/-- A doubled `&` or `|`. -/
theorem nextToken_doubled (lx0 : Lexer) (c : Char) (k : TokenType)
    (hmem : (c, k) ∈ [('&', TokenType.LOGICAL_AND), ('|', TokenType.LOGICAL_OR)])
    (h : (tokenStart lx0).peek 0 = c) (h1 : (tokenStart lx0).peek 1 = c) :
    nextToken lx0 =
      (Token.mk k (String.mk [c, c]) (tokenStart lx0).line (tokenStart lx0).column,
        (tokenStart lx0).advance.2.advance.2) := by
  have hc0 : c ≠ Char.ofNat 0 := by
    simp only [List.mem_cons, Prod.mk.injEq, List.mem_singleton, List.not_mem_nil, or_false] at hmem
    rcases hmem with ⟨rfl, -⟩ | ⟨rfl, -⟩ <;> decide
  have hlt := lt_of_peek_ne_nul h hc0
  have hfst := advance_fst hlt
  have hp := peek_advance hlt
  unfold nextToken
  unfold tokenStart at *
  generalize lx0.skipWhitespace.skipComment.skipWhitespace = lx at *
  dsimp only
  rw [isAtEnd_eq_false hlt]
  simp only [Bool.false_eq_true, if_false]
  rw [hfst, hp, h, h1]
  simp only [List.mem_cons, Prod.mk.injEq, List.mem_singleton, List.not_mem_nil, or_false] at hmem
  rcases hmem with ⟨rfl, rfl⟩ | ⟨rfl, rfl⟩ <;> simp

/-- A `&` or `|` that is not doubled. -/
theorem nextToken_lone (lx0 : Lexer) (c : Char) (hmem : c ∈ ['&', '|'])
    (h : (tokenStart lx0).peek 0 = c) (h1 : (tokenStart lx0).peek 1 ≠ c) :
    nextToken lx0 =
      (Token.mk TokenType.UNKNOWN (String.mk [c]) (tokenStart lx0).line (tokenStart lx0).column,
        (tokenStart lx0).advance.2) := by
  have hc0 : c ≠ Char.ofNat 0 := by
    simp only [List.mem_cons, List.mem_singleton, List.not_mem_nil, or_false] at hmem
    rcases hmem with rfl | rfl <;> decide
  have hlt := lt_of_peek_ne_nul h hc0
  have hfst := advance_fst hlt
  have hp := peek_advance hlt
  unfold nextToken
  unfold tokenStart at *
  generalize lx0.skipWhitespace.skipComment.skipWhitespace = lx at *
  dsimp only
  rw [isAtEnd_eq_false hlt]
  simp only [Bool.false_eq_true, if_false]
  rw [hfst, hp, h]
  simp only [List.mem_cons, List.mem_singleton, List.not_mem_nil, or_false] at hmem
  rcases hmem with rfl | rfl <;> simp [h1] <;> rfl

/-- A letter or an underscore starts an identifier. -/
theorem nextToken_identifier (lx0 : Lexer)
    (h : isalpha ((tokenStart lx0).peek 0) = true ∨ (tokenStart lx0).peek 0 = '_') :
    nextToken lx0 = makeIdentifier (tokenStart lx0) := by
  have hc0 : (tokenStart lx0).peek 0 ≠ Char.ofNat 0 := by
    intro h0; rw [h0] at h; revert h; decide
  have hlt := lt_of_peek_ne_nul rfl hc0
  have hfst := advance_fst hlt
  have hb := backUp_advance hlt (isalpha_ne_newline h)
  have hne : ∀ c : Char, c ∈ ['+', '-', '*', '/', '(', ')', '{', '}', ',', ';', '!', '=', '<',
      '>', '&', '|'] → (tokenStart lx0).peek 0 ≠ c := by
    intro c hc hpc
    rw [hpc] at h
    simp only [List.mem_cons, List.mem_singleton, List.not_mem_nil, or_false] at hc
    revert h
    rcases hc with rfl | rfl | rfl | rfl | rfl | rfl | rfl | rfl | rfl | rfl | rfl | rfl | rfl |
      rfl | rfl | rfl <;> decide
  have hnd : ¬ isdigit ((tokenStart lx0).peek 0) = true := by
    intro hd
    rcases h with h | h
    · revert hd h
      generalize (tokenStart lx0).peek 0 = c
      simp only [isdigit, isalpha, Bool.and_eq_true, Bool.or_eq_true, decide_eq_true_eq]
      omega
    · rw [h] at hd; revert hd; decide
  unfold nextToken
  unfold tokenStart at *
  generalize lx0.skipWhitespace.skipComment.skipWhitespace = lx at *
  dsimp only
  rw [isAtEnd_eq_false hlt]
  simp only [Bool.false_eq_true, if_false]
  rw [hfst, hb]
  simp only [if_neg (hne _ (by decide : '+' ∈ _)), if_neg (hne '-' (by decide)),
    if_neg (hne '*' (by decide)), if_neg (hne '/' (by decide)), if_neg (hne '(' (by decide)),
    if_neg (hne ')' (by decide)), if_neg (hne '{' (by decide)), if_neg (hne '}' (by decide)),
    if_neg (hne ',' (by decide)), if_neg (hne ';' (by decide)), if_neg (hne '!' (by decide)),
    if_neg (hne '=' (by decide)), if_neg (hne '<' (by decide)), if_neg (hne '>' (by decide)),
    if_neg (hne '&' (by decide)), if_neg (hne '|' (by decide)), if_neg hnd, if_pos h]

end Lexer

namespace Lexer

theorem advance_twice_current {lx : Lexer} (h : lx.current + 1 < lx.input.length) :
    lx.advance.2.advance.2.current = lx.current + 2 := by
  rw [advance_current (by rw [advance_input, advance_current (by omega)]; exact h),
    advance_current (by omega)]

/-- The kind `makeIdentifier` gives to a lexeme, read off the keyword table. -/
theorem keyword_kind (v : String) :
    let k := match keywords v with
      | some k => k
      | none => TokenType.IDENTIFIER
    (k = TokenType.VAR ↔ v = "var") ∧ (k = TokenType.FUNCTION ↔ v = "function") ∧
    (k = TokenType.IF ↔ v = "if") ∧ (k = TokenType.ELSE ↔ v = "else") ∧
    (k = TokenType.WHILE ↔ v = "while") ∧ (k = TokenType.RETURN ↔ v = "return") ∧
    (k = TokenType.TRUE ↔ v = "true") ∧ (k = TokenType.FALSE ↔ v = "false") ∧
    (k = TokenType.IDENTIFIER ↔
      v ∉ ["var", "function", "if", "else", "while", "return", "true", "false"]) := by
  unfold keywords
  split_ifs with h1 h2 h3 h4 h5 h6 h7 h8
  all_goals first
    | (subst_vars; simp only [List.mem_cons, List.mem_singleton, List.not_mem_nil]; decide)
    | simp [*]

theorem makeIdentifier_type (lx : Lexer) :
    (makeIdentifier lx).1.type =
      match keywords (makeIdentifier lx).1.value with
      | some k => k
      | none => TokenType.IDENTIFIER := by
  unfold makeIdentifier
  rfl

end Lexer

/-- C8. Two-character operators are matched greedily. At a token start, `!`,
`=`, `<` or `>` followed by `=` gives the two-byte token and two bytes are
consumed; followed by anything else it gives the one-byte token and one byte is
consumed; `&&` and `||` give `LOGICAL_AND` and `LOGICAL_OR`. -/
theorem two_char_operators (lx0 : Lexer) :
    (∀ c k2 k1, (c, k2, k1) ∈ [('!', TokenType.NOT_EQUAL, TokenType.LOGICAL_NOT),
        ('=', TokenType.EQUAL, TokenType.ASSIGN), ('<', TokenType.LESS_EQUAL, TokenType.LESS_THAN),
        ('>', TokenType.GREATER_EQUAL, TokenType.GREATER_THAN)] →
      (Lexer.tokenStart lx0).peek 0 = c →
      ((Lexer.tokenStart lx0).peek 1 = '=' →
        (Lexer.nextToken lx0).1 = Token.mk k2 (String.mk [c, '=']) (Lexer.tokenStart lx0).line
          (Lexer.tokenStart lx0).column ∧
        (Lexer.nextToken lx0).2.current = (Lexer.tokenStart lx0).current + 2) ∧
      ((Lexer.tokenStart lx0).peek 1 ≠ '=' →
        (Lexer.nextToken lx0).1 = Token.mk k1 (String.mk [c]) (Lexer.tokenStart lx0).line
          (Lexer.tokenStart lx0).column ∧
        (Lexer.nextToken lx0).2.current = (Lexer.tokenStart lx0).current + 1)) ∧
    (∀ c k, (c, k) ∈ [('&', TokenType.LOGICAL_AND), ('|', TokenType.LOGICAL_OR)] →
      (Lexer.tokenStart lx0).peek 0 = c → (Lexer.tokenStart lx0).peek 1 = c →
      (Lexer.nextToken lx0).1 = Token.mk k (String.mk [c, c]) (Lexer.tokenStart lx0).line
          (Lexer.tokenStart lx0).column ∧
        (Lexer.nextToken lx0).2.current = (Lexer.tokenStart lx0).current + 2) ∧
    tokenize "===" = some [⟨TokenType.EQUAL, "==", 1, 1⟩, ⟨TokenType.ASSIGN, "=", 1, 3⟩,
      ⟨TokenType.END_OF_FILE, "", 1, 4⟩] ∧
    tokenize "<==" = some [⟨TokenType.LESS_EQUAL, "<=", 1, 1⟩, ⟨TokenType.ASSIGN, "=", 1, 3⟩,
      ⟨TokenType.END_OF_FILE, "", 1, 4⟩] := by
  refine ⟨?_, ?_, by decide, by decide⟩
  · intro c k2 k1 hmem h
    have hc0 : c ≠ Char.ofNat 0 := by
      simp only [List.mem_cons, Prod.mk.injEq, List.mem_singleton, List.not_mem_nil,
        or_false] at hmem
      rcases hmem with ⟨rfl, -, -⟩ | ⟨rfl, -, -⟩ | ⟨rfl, -, -⟩ | ⟨rfl, -, -⟩ <;> decide
    have hlt := Lexer.lt_of_peek_ne_nul h hc0
    rw [Lexer.nextToken_pair lx0 c k2 k1 hmem h]
    constructor
    · intro h1
      rw [if_pos h1]
      dsimp only
      exact ⟨rfl, Lexer.advance_twice_current (Lexer.peek_one_lt h1 (by decide))⟩
    · intro h1
      rw [if_neg h1]
      dsimp only
      exact ⟨rfl, Lexer.advance_current hlt⟩
  · intro c k hmem h h1
    have hc0 : c ≠ Char.ofNat 0 := by
      simp only [List.mem_cons, Prod.mk.injEq, List.mem_singleton, List.not_mem_nil,
        or_false] at hmem
      rcases hmem with ⟨rfl, -⟩ | ⟨rfl, -⟩ <;> decide
    rw [Lexer.nextToken_doubled lx0 c k hmem h h1]
    dsimp only
    exact ⟨rfl, Lexer.advance_twice_current (Lexer.peek_one_lt h1 hc0)⟩

/-- C9. Identifiers and keywords. At a token start on a letter or an underscore
the lexeme is the longest run of letters, digits and underscores from there,
the cursor stops right after it, and the kind is a keyword kind exactly when
the lexeme is that keyword and `IDENTIFIER` otherwise. -/
theorem identifiers_and_keywords (lx0 : Lexer)
    (h : isalpha ((Lexer.tokenStart lx0).peek 0) = true ∨ (Lexer.tokenStart lx0).peek 0 = '_') :
    (Lexer.nextToken lx0).1.value =
      String.mk (((Lexer.tokenStart lx0).input.drop (Lexer.tokenStart lx0).current).takeWhile
        (fun c => isalnum c || decide (c = '_'))) ∧
    (Lexer.nextToken lx0).2.current =
      (Lexer.tokenStart lx0).current + (Lexer.nextToken lx0).1.value.length ∧
    ((Lexer.nextToken lx0).1.type = TokenType.VAR ↔ (Lexer.nextToken lx0).1.value = "var") ∧
    ((Lexer.nextToken lx0).1.type = TokenType.FUNCTION ↔
      (Lexer.nextToken lx0).1.value = "function") ∧
    ((Lexer.nextToken lx0).1.type = TokenType.IF ↔ (Lexer.nextToken lx0).1.value = "if") ∧
    ((Lexer.nextToken lx0).1.type = TokenType.ELSE ↔ (Lexer.nextToken lx0).1.value = "else") ∧
    ((Lexer.nextToken lx0).1.type = TokenType.WHILE ↔ (Lexer.nextToken lx0).1.value = "while") ∧
    ((Lexer.nextToken lx0).1.type = TokenType.RETURN ↔
      (Lexer.nextToken lx0).1.value = "return") ∧
    ((Lexer.nextToken lx0).1.type = TokenType.TRUE ↔ (Lexer.nextToken lx0).1.value = "true") ∧
    ((Lexer.nextToken lx0).1.type = TokenType.FALSE ↔ (Lexer.nextToken lx0).1.value = "false") ∧
    ((Lexer.nextToken lx0).1.type = TokenType.IDENTIFIER ↔
      (Lexer.nextToken lx0).1.value ∉
        ["var", "function", "if", "else", "while", "return", "true", "false"]) := by
  rw [Lexer.nextToken_identifier lx0 h]
  obtain ⟨h1, h2⟩ := Lexer.makeIdentifierLoop_run
    ((Lexer.tokenStart lx0).input.length - (Lexer.tokenStart lx0).current) (Lexer.tokenStart lx0) ""
    (le_refl _)
  have hv : (Lexer.makeIdentifier (Lexer.tokenStart lx0)).1.value =
      String.mk (((Lexer.tokenStart lx0).input.drop (Lexer.tokenStart lx0).current).takeWhile
        (fun c => isalnum c || decide (c = '_'))) := by
    unfold Lexer.makeIdentifier
    dsimp only
    rw [h1]; rfl
  refine ⟨hv, ?_, ?_⟩
  · unfold Lexer.makeIdentifier
    dsimp only
    rw [h2, h1]; simp [String.length]
  · rw [Lexer.makeIdentifier_type]
    exact Lexer.keyword_kind (Lexer.makeIdentifier (Lexer.tokenStart lx0)).1.value

theorem identifiers_and_keywords_witness :
    (isalpha ((Lexer.tokenStart (Lexer.init "iffy If".toList)).peek 0) = true ∨
      (Lexer.tokenStart (Lexer.init "iffy If".toList)).peek 0 = '_') ∧
    ((Lexer.nextToken (Lexer.init "iffy If".toList)).1.type = TokenType.IF ↔
      (Lexer.nextToken (Lexer.init "iffy If".toList)).1.value = "if") ∧
    tokenize "iffy If if" = some [⟨TokenType.IDENTIFIER, "iffy", 1, 1⟩,
      ⟨TokenType.IDENTIFIER, "If", 1, 6⟩, ⟨TokenType.IF, "if", 1, 9⟩,
      ⟨TokenType.END_OF_FILE, "", 1, 11⟩] :=
  ⟨by decide, (identifiers_and_keywords (Lexer.init "iffy If".toList) (by decide)).2.2.2.2.1,
    by decide⟩

/-- C10. A lone `&` or `|` is never dropped. At a token start on `&` not
followed by `&` (or `|` not followed by `|`), `nextToken` returns one `UNKNOWN`
token whose lexeme is that byte, located by the counters at that byte (which
are its line and column when the counters were right before), and consumes
exactly that byte. -/
theorem lone_ampersand_or_bar (lx0 : Lexer) (c : Char) (hmem : c ∈ ['&', '|'])
    (h : (Lexer.tokenStart lx0).peek 0 = c) (h1 : (Lexer.tokenStart lx0).peek 1 ≠ c) :
    (Lexer.nextToken lx0).1 = Token.mk TokenType.UNKNOWN (String.mk [c])
      (Lexer.tokenStart lx0).line (Lexer.tokenStart lx0).column ∧
    (Lexer.nextToken lx0).2.current = (Lexer.tokenStart lx0).current + 1 ∧
    (Lexer.nextToken lx0).2.input = lx0.input ∧
    (Lexer.Located lx0 →
      (Lexer.nextToken lx0).1.line = lineAt lx0.input (Lexer.tokenStart lx0).current ∧
      (Lexer.nextToken lx0).1.column = columnAt lx0.input (Lexer.tokenStart lx0).current) := by
  have hc0 : c ≠ Char.ofNat 0 := by
    simp only [List.mem_cons, List.mem_singleton, List.not_mem_nil, or_false] at hmem
    rcases hmem with rfl | rfl <;> decide
  have hlt := Lexer.lt_of_peek_ne_nul h hc0
  have hs := Lexer.tokenStart_follows lx0
  rw [Lexer.nextToken_lone lx0 c hmem h h1]
  dsimp only
  refine ⟨rfl, Lexer.advance_current hlt, by rw [Lexer.advance_input, hs.1], fun hl => ?_⟩
  have := Lexer.tokenStart_located lx0 hl
  rw [← hs.1]
  exact this

theorem lone_ampersand_or_bar_witness :
    (Lexer.nextToken (Lexer.init "& b".toList)).1 = Token.mk TokenType.UNKNOWN "&" 1 1 ∧
    (Lexer.nextToken (Lexer.init "& b".toList)).2.current = 1 ∧
    tokenize "a & | b" = some [⟨TokenType.IDENTIFIER, "a", 1, 1⟩, ⟨TokenType.UNKNOWN, "&", 1, 3⟩,
      ⟨TokenType.UNKNOWN, "|", 1, 5⟩, ⟨TokenType.IDENTIFIER, "b", 1, 7⟩,
      ⟨TokenType.END_OF_FILE, "", 1, 8⟩] :=
  ⟨(lone_ampersand_or_bar (Lexer.init "& b".toList) '&' (by decide) (by decide) (by decide)).1,
    (lone_ampersand_or_bar (Lexer.init "& b".toList) '&' (by decide) (by decide) (by decide)).2.1,
    by decide⟩

/-- C6 (what the code does). Of two consecutive line comments only the first is
skipped: the second is tokenized. -/
theorem tokenize_two_comments :
    tokenize "// a\n// b\nx" = some [⟨TokenType.DIVIDE, "/", 2, 1⟩, ⟨TokenType.DIVIDE, "/", 2, 2⟩,
      ⟨TokenType.IDENTIFIER, "b", 2, 4⟩, ⟨TokenType.IDENTIFIER, "x", 3, 1⟩,
      ⟨TokenType.END_OF_FILE, "", 3, 2⟩] := by decide

namespace Parser

theorem peek_eq {tokens : List Token} {current : Nat} {t : Token}
    (h : tokens[current]? = some t) : peek tokens current = Except.ok t := by
  simp [peek, h]

theorem previous_eq {tokens : List Token} {current : Nat} {t : Token}
    (h : tokens[current]? = some t) : previous tokens (current + 1) = Except.ok t := by
  simp [previous, h]

theorem isAtEnd_eq {tokens : List Token} {current : Nat} {t : Token}
    (h : tokens[current]? = some t) :
    isAtEnd tokens current = Except.ok (decide (t.type = TokenType.END_OF_FILE)) := by
  simp [isAtEnd, peek_eq h]

theorem check_eq {tokens : List Token} {current : Nat} {t : Token}
    (h : tokens[current]? = some t) (type : TokenType) :
    check tokens current type =
      Except.ok (decide (t.type ≠ TokenType.END_OF_FILE ∧ t.type = type)) := by
  unfold check
  rw [isAtEnd_eq h, peek_eq h]
  by_cases he : t.type = TokenType.END_OF_FILE <;> simp [he]

theorem check_eq_of_ne {tokens : List Token} {current : Nat} {t : Token}
    (h : tokens[current]? = some t) {type : TokenType} (hne : type ≠ TokenType.END_OF_FILE) :
    check tokens current type = Except.ok (decide (t.type = type)) := by
  rw [check_eq h]
  by_cases he : t.type = type
  · simp [he, hne]
  · simp [he]

theorem advance_step {tokens : List Token} {current : Nat} {t : Token}
    (h : tokens[current]? = some t) (hne : t.type ≠ TokenType.END_OF_FILE) :
    advance tokens current = Except.ok (t, current + 1) := by
  unfold advance
  rw [isAtEnd_eq h]
  simp [hne, previous_eq h]

/-- On a token other than `END_OF_FILE`, `match` consumes it exactly when its
kind is listed. -/
theorem match__eq {tokens : List Token} {current : Nat} {t : Token}
    (h : tokens[current]? = some t) (hne : t.type ≠ TokenType.END_OF_FILE)
    (types : List TokenType) :
    match_ tokens current types =
      Except.ok (decide (t.type ∈ types), if t.type ∈ types then current + 1 else current) := by
  induction types with
  | nil => simp [match_]
  | cons ty tys ih =>
    unfold match_
    rw [check_eq h]
    by_cases he : t.type = ty
    · simp [he, hne, advance_step h hne]
      subst he
      simp [hne]
    · have : ¬ (t.type ≠ TokenType.END_OF_FILE ∧ t.type = ty) := fun hh => he hh.2
      simp only [this, decide_False]
      rw [ih]
      simp [he]

/-- At `END_OF_FILE`, `match` consumes nothing. -/
theorem match__eof {tokens : List Token} {current : Nat} {t : Token}
    (h : tokens[current]? = some t) (he : t.type = TokenType.END_OF_FILE)
    (types : List TokenType) : match_ tokens current types = Except.ok (false, current) := by
  induction types with
  | nil => simp [match_]
  | cons ty tys ih =>
    unfold match_
    rw [check_eq h]
    simp [he, ih]

theorem consume_eq {tokens : List Token} {current : Nat} {t : Token}
    (h : tokens[current]? = some t) (hne : t.type ≠ TokenType.END_OF_FILE) (message : String) :
    consume tokens current t.type message = Except.ok (t, current + 1) := by
  unfold consume
  rw [check_eq h]
  simp [hne, advance_step h hne]

end Parser

namespace Parser

theorem logicalOrLoop_eq (fuel : Nat) (tokens : List Token) (expr : Expression) (current : Nat) :
    logicalOrLoop fuel tokens expr current =
      binaryLoop logicalAnd [TokenType.LOGICAL_OR] fuel tokens expr current := by
  induction fuel generalizing expr current with
  | zero => rw [logicalOrLoop, binaryLoop]
  | succ n ih => rw [logicalOrLoop, binaryLoop]; simp only [ih]

theorem logicalAndLoop_eq (fuel : Nat) (tokens : List Token) (expr : Expression) (current : Nat) :
    logicalAndLoop fuel tokens expr current =
      binaryLoop equality [TokenType.LOGICAL_AND] fuel tokens expr current := by
  induction fuel generalizing expr current with
  | zero => rw [logicalAndLoop, binaryLoop]
  | succ n ih => rw [logicalAndLoop, binaryLoop]; simp only [ih]

theorem equalityLoop_eq (fuel : Nat) (tokens : List Token) (expr : Expression) (current : Nat) :
    equalityLoop fuel tokens expr current =
      binaryLoop comparison [TokenType.NOT_EQUAL, TokenType.EQUAL] fuel tokens expr current := by
  induction fuel generalizing expr current with
  | zero => rw [equalityLoop, binaryLoop]
  | succ n ih => rw [equalityLoop, binaryLoop]; simp only [ih]

theorem comparisonLoop_eq (fuel : Nat) (tokens : List Token) (expr : Expression) (current : Nat) :
    comparisonLoop fuel tokens expr current =
      binaryLoop term [TokenType.GREATER_THAN, TokenType.GREATER_EQUAL, TokenType.LESS_THAN,
        TokenType.LESS_EQUAL] fuel tokens expr current := by
  induction fuel generalizing expr current with
  | zero => rw [comparisonLoop, binaryLoop]
  | succ n ih => rw [comparisonLoop, binaryLoop]; simp only [ih]

theorem termLoop_eq (fuel : Nat) (tokens : List Token) (expr : Expression) (current : Nat) :
    termLoop fuel tokens expr current =
      binaryLoop factor [TokenType.MINUS, TokenType.PLUS] fuel tokens expr current := by
  induction fuel generalizing expr current with
  | zero => rw [termLoop, binaryLoop]
  | succ n ih => rw [termLoop, binaryLoop]; simp only [ih]

theorem factorLoop_eq (fuel : Nat) (tokens : List Token) (expr : Expression) (current : Nat) :
    factorLoop fuel tokens expr current =
      binaryLoop unary [TokenType.DIVIDE, TokenType.MULTIPLY] fuel tokens expr current := by
  induction fuel generalizing expr current with
  | zero => rw [factorLoop, binaryLoop]
  | succ n ih => rw [factorLoop, binaryLoop]; simp only [ih]

end Parser

namespace Parser

theorem binaryLoop_stop (sub : Nat → List Token → Nat → Result Expression) (ops : List TokenType)
    {tokens : List Token} {current : Nat} {t : Token} (h : tokens[current]? = some t)
    (hnot : t.type ∉ ops) (fuel : Nat) (expr : Expression) :
    binaryLoop sub ops (fuel + 1) tokens expr current = Except.ok (expr, current) := by
  rw [binaryLoop]
  by_cases he : t.type = TokenType.END_OF_FILE
  · rw [match__eof h he]
  · rw [match__eq h he]
    simp [hnot]

theorem binaryLoop_go (sub : Nat → List Token → Nat → Result Expression) (ops : List TokenType)
    {tokens : List Token} {current : Nat} {t : Token} (h : tokens[current]? = some t)
    (hne : t.type ≠ TokenType.END_OF_FILE) (hmem : t.type ∈ ops) (fuel : Nat) (expr : Expression) :
    binaryLoop sub ops (fuel + 1) tokens expr current =
      match sub fuel tokens (current + 1) with
      | Except.error e => Except.error e
      | Except.ok right =>
        binaryLoop sub ops fuel tokens (Expression.BinaryOperation expr t.value right.1)
          right.2 := by
  rw [binaryLoop, match__eq h hne]
  simp only [hmem, decide_True, if_true, previous_eq h]

theorem binaryLevel_ne_eof {ty : TokenType} {l : Nat} (h : binaryLevel ty = some l) :
    ty ≠ TokenType.END_OF_FILE := by
  rintro rfl; simp [binaryLevel] at h

theorem binaryLevel_range {ty : TokenType} {l : Nat} (h : binaryLevel ty = some l) :
    1 ≤ l ∧ l ≤ 6 := by
  cases ty <;> simp [binaryLevel] at h <;> omega

/-- One level of the precedence ladder on the tokens of `a o1 b o2 c ;`: if the
rule of the next level behaves as `chainResult0` and `chainResult2` say, so
does this one. -/
theorem binary_level_step (f sub : Nat → List Token → Nat → Result Expression)
    (loop : Nat → List Token → Expression → Nat → Result Expression) (ops : List TokenType)
    (L F : Nat) (ta t1 tb t2 tc semi eof : Token) (ea eb ec : Expression) (l1 l2 : Nat)
    (hf : ∀ fuel tokens current, f (fuel + 1) tokens current =
      match sub fuel tokens current with
      | Except.error e => Except.error e
      | Except.ok r => loop fuel tokens r.1 r.2)
    (hloop : ∀ fuel tokens expr current,
      loop fuel tokens expr current = binaryLoop sub ops fuel tokens expr current)
    (hops : ∀ ty, ty ∈ ops ↔ binaryLevel ty = some L)
    (h1 : binaryLevel t1.type = some l1) (h2 : binaryLevel t2.type = some l2)
    (hsemi : semi.type = TokenType.SEMICOLON)
    (hsub : LevelOK sub [ta, t1, tb, t2, tc, semi, eof]
      (chainResult0 ea eb ec t1.value t2.value l1 l2 (L + 1))
      (chainResult2 eb ec t2.value l2 (L + 1)) (ec, 5) F) :
    LevelOK f [ta, t1, tb, t2, tc, semi, eof]
      (chainResult0 ea eb ec t1.value t2.value l1 l2 L)
      (chainResult2 eb ec t2.value l2 L) (ec, 5) (F + 4) := by
  intro fuel hfuel
  obtain ⟨n, rfl⟩ : ∃ n, fuel = n + 4 := ⟨fuel - 4, by omega⟩
  have hn : F ≤ n := by omega
  obtain ⟨s0, s2, s4⟩ := hsub (n + 3) (by omega)
  obtain ⟨-, s2', -⟩ := hsub (n + 2) (by omega)
  have m1 : t1.type ∈ ops ↔ l1 = L := by rw [hops, h1]; simp
  have m2 : t2.type ∈ ops ↔ l2 = L := by rw [hops, h2]; simp
  have m5 : semi.type ∉ ops := by rw [hops, hsemi]; simp [binaryLevel]
  have e1 := binaryLevel_ne_eof h1
  have e2 := binaryLevel_ne_eof h2
  have g1 : ([ta, t1, tb, t2, tc, semi, eof] : List Token)[1]? = some t1 := rfl
  have g3 : ([ta, t1, tb, t2, tc, semi, eof] : List Token)[3]? = some t2 := rfl
  have g5 : ([ta, t1, tb, t2, tc, semi, eof] : List Token)[5]? = some semi := rfl
  have stop5 := fun m e => binaryLoop_stop sub ops g5 m5 m e
  -- the loop from the second operator
  have loop3 : ∀ m, F ≤ m → ∀ e, binaryLoop sub ops (m + 2) [ta, t1, tb, t2, tc, semi, eof] e 3 =
      Except.ok (if l2 = L then (Expression.BinaryOperation e t2.value ec, 5) else (e, 3)) := by
    intro m hm e
    by_cases hl : l2 = L
    · rw [binaryLoop_go sub ops g3 e2 (m2.mpr hl), (hsub (m + 1) (by omega)).2.2]
      dsimp only
      rw [stop5, if_pos hl]
    · rw [binaryLoop_stop sub ops g3 (fun h => hl (m2.mp h)), if_neg hl]
  refine ⟨?_, ?_, ?_⟩
  · -- from the first operand
    rw [hf, s0]; dsimp only; rw [hloop]
    unfold chainResult0
    by_cases c1 : L + 1 ≤ l1
    · have c1' : L ≤ l1 := by omega
      by_cases c2 : l1 < l2
      · simp only [if_pos c1, if_pos c1', if_pos c2]; rw [stop5]
      · by_cases c3 : L + 1 ≤ l2
        · have c3' : L ≤ l2 := by omega
          simp only [if_pos c1, if_pos c1', if_neg c2, if_pos c3, if_pos c3']; rw [stop5]
        · simp only [if_pos c1, if_pos c1', if_neg c2, if_neg c3]
          rw [loop3 (n + 1) (by omega)]
          by_cases c4 : l2 = L
          · have : L ≤ l2 := by omega
            simp only [if_pos c4, if_pos this]
          · have : ¬ L ≤ l2 := by omega
            simp only [if_neg c4, if_neg this]
    · simp only [if_neg c1]
      by_cases c2 : l1 = L
      · subst c2
        rw [binaryLoop_go sub ops g1 e1 (m1.mpr rfl), s2']
        unfold chainResult2
        by_cases c3 : l1 + 1 ≤ l2
        · have c3' : l1 < l2 := by omega
          simp only [if_pos c3, if_pos c3', if_pos (le_refl l1)]; rw [stop5]
        · have c3' : ¬ l1 < l2 := by omega
          simp only [if_neg c3, if_neg c3', if_pos (le_refl l1)]
          rw [loop3 n hn]
          by_cases c4 : l2 = l1
          · have : l1 ≤ l2 := by omega
            simp only [if_pos c4, if_pos this]
          · have : ¬ l1 ≤ l2 := by omega
            simp only [if_neg c4, if_neg this]
      · have : ¬ L ≤ l1 := by omega
        rw [binaryLoop_stop sub ops g1 (fun h => c2 (m1.mp h)), if_neg this]
  · -- from the second operand
    rw [hf, s2]; dsimp only; rw [hloop]
    unfold chainResult2
    by_cases c3 : L + 1 ≤ l2
    · have c3' : L ≤ l2 := by omega
      simp only [if_pos c3, if_pos c3']; rw [stop5]
    · simp only [if_neg c3]
      rw [loop3 (n + 1) (by omega)]
      by_cases c4 : l2 = L
      · have : L ≤ l2 := by omega
        simp only [if_pos c4, if_pos this]
      · have : ¬ L ≤ l2 := by omega
        simp only [if_neg c4, if_neg this]
  · -- from the third operand
    rw [hf, s4]; dsimp only; rw [hloop, stop5]

end Parser

namespace Parser

theorem match__not_mem {tokens : List Token} {current : Nat} {t : Token}
    (h : tokens[current]? = some t) (types : List TokenType) (hnot : t.type ∉ types) :
    match_ tokens current types = Except.ok (false, current) := by
  by_cases he : t.type = TokenType.END_OF_FILE
  · exact match__eof h he types
  · rw [match__eq h he]; simp [hnot]

/-- An identifier or number token that is not followed by `(` is parsed by
`unary` as the operand it stands for. -/
theorem unary_operand {tokens : List Token} {current : Nat} {t t' : Token} {e : Expression}
    (h : tokens[current]? = some t) (he : operandExpr t = some e)
    (h' : tokens[current + 1]? = some t') (hp : t'.type ≠ TokenType.LEFT_PAREN) (fuel : Nat) :
    unary (fuel + 3) tokens current = Except.ok (e, current + 1) := by
  have hloop : ∀ e, callLoop (fuel + 1) tokens e (current + 1) = Except.ok (e, current + 1) := by
    intro e
    rw [callLoop, match__not_mem h' _ (by simpa using hp)]
  unfold operandExpr at he
  by_cases hi : t.type = TokenType.IDENTIFIER
  · rw [if_pos hi] at he
    injection he with he
    have hne : t.type ≠ TokenType.END_OF_FILE := by rw [hi]; decide
    rw [unary, match__not_mem h _ (by rw [hi]; decide)]
    dsimp only
    rw [call, primary, match__not_mem h _ (by rw [hi]; decide)]
    dsimp only
    rw [match__not_mem h _ (by rw [hi]; decide)]
    dsimp only
    rw [match__not_mem h _ (by rw [hi]; decide)]
    dsimp only
    rw [match__eq h hne]
    simp only [hi, List.mem_singleton, decide_True, if_true, previous_eq h]
    rw [hloop, he]
  · rw [if_neg hi] at he
    by_cases hn : t.type = TokenType.NUMBER
    · rw [if_pos hn] at he
      have hne : t.type ≠ TokenType.END_OF_FILE := by rw [hn]; decide
      cases hs : stoi t.value with
      | error x => rw [hs] at he; exact Option.noConfusion he
      | ok v =>
        rw [hs] at he
        injection he with he
        rw [unary, match__not_mem h _ (by rw [hn]; decide)]
        dsimp only
        rw [call, primary, match__not_mem h _ (by rw [hn]; decide)]
        dsimp only
        rw [match__not_mem h _ (by rw [hn]; decide)]
        dsimp only
        rw [match__eq h hne]
        simp only [hn, List.mem_singleton, decide_True, if_true, previous_eq h, hs]
        rw [hloop, he]
    · rw [if_neg hn] at he
      exact Option.noConfusion he

/-- The base of the precedence ladder: `unary` on the tokens of `a o1 b o2 c ;`. -/
theorem unary_levelOK (ta t1 tb t2 tc semi eof : Token) (ea eb ec : Expression) (l1 l2 : Nat)
    (ha : operandExpr ta = some ea) (hb : operandExpr tb = some eb)
    (hc : operandExpr tc = some ec)
    (h1 : binaryLevel t1.type = some l1) (h2 : binaryLevel t2.type = some l2)
    (hsemi : semi.type = TokenType.SEMICOLON) :
    LevelOK unary [ta, t1, tb, t2, tc, semi, eof]
      (chainResult0 ea eb ec t1.value t2.value l1 l2 7)
      (chainResult2 eb ec t2.value l2 7) (ec, 5) 3 := by
  intro fuel hfuel
  obtain ⟨n, rfl⟩ : ∃ n, fuel = n + 3 := ⟨fuel - 3, by omega⟩
  have r1 := binaryLevel_range h1
  have r2 := binaryLevel_range h2
  have p1 : t1.type ≠ TokenType.LEFT_PAREN := by
    intro h; rw [h] at h1; simp [binaryLevel] at h1
  have p2 : t2.type ≠ TokenType.LEFT_PAREN := by
    intro h; rw [h] at h2; simp [binaryLevel] at h2
  have p5 : semi.type ≠ TokenType.LEFT_PAREN := by rw [hsemi]; decide
  have c1 : ¬ 7 ≤ l1 := by omega
  have c2 : ¬ 7 ≤ l2 := by omega
  refine ⟨?_, ?_, ?_⟩
  · rw [@unary_operand _ 0 ta t1 ea rfl ha rfl p1 n, chainResult0, if_neg c1]
  · rw [@unary_operand _ 2 tb t2 eb rfl hb rfl p2 n, chainResult2, if_neg c2]
  · rw [@unary_operand _ 4 tc semi ec rfl hc rfl p5 n]

/-- The whole precedence ladder: `expression` on the tokens of `a o1 b o2 c ;`
returns the tree that `chainResult0` builds at level 1. -/
theorem expression_chain (ta t1 tb t2 tc semi eof : Token) (ea eb ec : Expression) (l1 l2 : Nat)
    (ha : operandExpr ta = some ea) (hb : operandExpr tb = some eb)
    (hc : operandExpr tc = some ec)
    (h1 : binaryLevel t1.type = some l1) (h2 : binaryLevel t2.type = some l2)
    (hsemi : semi.type = TokenType.SEMICOLON) (fuel : Nat) :
    expression (fuel + 28) [ta, t1, tb, t2, tc, semi, eof] 0 =
      Except.ok (chainResult0 ea eb ec t1.value t2.value l1 l2 1) := by
  have k7 := unary_levelOK ta t1 tb t2 tc semi eof ea eb ec l1 l2 ha hb hc h1 h2 hsemi
  have k6 := binary_level_step factor unary factorLoop _ 6 3 ta t1 tb t2 tc semi eof ea eb ec l1 l2
    (fun _ _ _ => by rw [factor]) factorLoop_eq
    (by intro ty; cases ty <;> simp [binaryLevel]) h1 h2 hsemi k7
  have k5 := binary_level_step term factor termLoop _ 5 _ ta t1 tb t2 tc semi eof ea eb ec l1 l2
    (fun _ _ _ => by rw [term]) termLoop_eq
    (by intro ty; cases ty <;> simp [binaryLevel]) h1 h2 hsemi k6
  have k4 := binary_level_step comparison term comparisonLoop _ 4 _ ta t1 tb t2 tc semi eof
    ea eb ec l1 l2 (fun _ _ _ => by rw [comparison]) comparisonLoop_eq
    (by intro ty; cases ty <;> simp [binaryLevel]) h1 h2 hsemi k5
  have k3 := binary_level_step equality comparison equalityLoop _ 3 _ ta t1 tb t2 tc semi eof
    ea eb ec l1 l2 (fun _ _ _ => by rw [equality]) equalityLoop_eq
    (by intro ty; cases ty <;> simp [binaryLevel]) h1 h2 hsemi k4
  have k2 := binary_level_step logicalAnd equality logicalAndLoop _ 2 _ ta t1 tb t2 tc semi eof
    ea eb ec l1 l2 (fun _ _ _ => by rw [logicalAnd]) logicalAndLoop_eq
    (by intro ty; cases ty <;> simp [binaryLevel]) h1 h2 hsemi k3
  have k1 := binary_level_step logicalOr logicalAnd logicalOrLoop _ 1 _ ta t1 tb t2 tc semi eof
    ea eb ec l1 l2 (fun _ _ _ => by rw [logicalOr]) logicalOrLoop_eq
    (by intro ty; cases ty <;> simp [binaryLevel]) h1 h2 hsemi k2
  rw [expression]
  exact (k1 (fuel + 27) (by omega)).1

end Parser

namespace Parser

theorem operandExpr_type {t : Token} {e : Expression} (h : operandExpr t = some e) :
    t.type = TokenType.IDENTIFIER ∨ t.type = TokenType.NUMBER := by
  unfold operandExpr at h
  by_cases hi : t.type = TokenType.IDENTIFIER
  · exact Or.inl hi
  · rw [if_neg hi] at h
    by_cases hn : t.type = TokenType.NUMBER
    · exact Or.inr hn
    · rw [if_neg hn] at h
      exact Option.noConfusion h

/-- A statement that starts with an identifier or number followed by a binary
operator is an expression statement. -/
theorem statement_operand {tokens : List Token} {current : Nat} {t t' : Token} {e : Expression}
    {l : Nat} (h : tokens[current]? = some t) (he : operandExpr t = some e)
    (h' : tokens[current + 1]? = some t') (hl : binaryLevel t'.type = some l) (fuel : Nat) :
    statement (fuel + 1) tokens current = expressionStatement fuel tokens current := by
  have hna : t'.type ≠ TokenType.ASSIGN := by
    intro hh; rw [hh] at hl; simp [binaryLevel] at hl
  rw [statement]
  rcases operandExpr_type he with hi | hn
  · have hne : t.type ≠ TokenType.END_OF_FILE := by rw [hi]; decide
    rw [match__not_mem h _ (by rw [hi]; decide)]; dsimp only
    rw [match__not_mem h _ (by rw [hi]; decide)]; dsimp only
    rw [match__not_mem h _ (by rw [hi]; decide)]; dsimp only
    rw [match__not_mem h _ (by rw [hi]; decide)]; dsimp only
    rw [match__not_mem h _ (by rw [hi]; decide)]; dsimp only
    rw [match__not_mem h _ (by rw [hi]; decide)]; dsimp only
    rw [check_eq_of_ne h (by decide), advance_step h hne]
    simp only [hi, decide_True]
    rw [check_eq_of_ne h' (by decide)]
    simp only [hna, decide_False]
  · rw [match__not_mem h _ (by rw [hn]; decide)]; dsimp only
    rw [match__not_mem h _ (by rw [hn]; decide)]; dsimp only
    rw [match__not_mem h _ (by rw [hn]; decide)]; dsimp only
    rw [match__not_mem h _ (by rw [hn]; decide)]; dsimp only
    rw [match__not_mem h _ (by rw [hn]; decide)]; dsimp only
    rw [match__not_mem h _ (by rw [hn]; decide)]; dsimp only
    rw [check_eq_of_ne h (by decide)]
    simp only [hn]
    rfl

/-- The program parsed from the tokens of `a o1 b o2 c ;`. -/
theorem parse_chain (ta t1 tb t2 tc semi eof : Token) (ea eb ec : Expression) (l1 l2 : Nat)
    (ha : operandExpr ta = some ea) (hb : operandExpr tb = some eb)
    (hc : operandExpr tc = some ec)
    (h1 : binaryLevel t1.type = some l1) (h2 : binaryLevel t2.type = some l2)
    (hsemi : semi.type = TokenType.SEMICOLON) (heof : eof.type = TokenType.END_OF_FILE) :
    parse [ta, t1, tb, t2, tc, semi, eof] =
      Except.ok ⟨[Statement.ExpressionStatement
        (chainResult0 ea eb ec t1.value t2.value l1 l2 1).1]⟩ := by
  have r1 := binaryLevel_range h1
  have r2 := binaryLevel_range h2
  have hpos : (chainResult0 ea eb ec t1.value t2.value l1 l2 1).2 = 5 := by
    unfold chainResult0
    rw [if_pos r1.1]
    by_cases c : l1 < l2
    · rw [if_pos c]
    · rw [if_neg c, if_pos r2.1]
  have hta : ta.type ≠ TokenType.END_OF_FILE := by
    rcases operandExpr_type ha with h | h <;> rw [h] <;> decide
  have hsne : semi.type ≠ TokenType.END_OF_FILE := by rw [hsemi]; decide
  have g0 : ([ta, t1, tb, t2, tc, semi, eof] : List Token)[0]? = some ta := rfl
  have g1 : ([ta, t1, tb, t2, tc, semi, eof] : List Token)[0 + 1]? = some t1 := rfl
  have g5 : ([ta, t1, tb, t2, tc, semi, eof] : List Token)[5]? = some semi := rfl
  have g6 : ([ta, t1, tb, t2, tc, semi, eof] : List Token)[5 + 1]? = some eof := rfl
  have hexpr := expression_chain ta t1 tb t2 tc semi eof ea eb ec l1 l2 ha hb hc h1 h2 hsemi 226
  have hcons := consume_eq g5 hsne "Expected ';' after expression"
  rw [hsemi] at hcons
  unfold parse parseFuel
  have hfuel : 32 * (([ta, t1, tb, t2, tc, semi, eof] : List Token).length + 1) = 254 + 1 + 1 := rfl
  rw [hfuel, parseLoop, isAtEnd_eq g0]
  simp only [hta, decide_False]
  rw [statement_operand g0 ha g1 h1, expressionStatement, hexpr]
  dsimp only
  rw [hpos, hcons]
  dsimp only
  rw [parseLoop, isAtEnd_eq g6]
  simp only [heof, decide_True]
  rfl

end Parser

/-- C2. Binary operator precedence. For operand tokens `a`, `b`, `c`
(identifiers, or numbers that `std::stoi` reads) and operator tokens `lo`, `hi`
with `hi` on a strictly higher level than `lo`, the tokens of `a lo b hi c ;`
parse to `ExprStmt(BinOp(lo, a, BinOp(hi, b, c)))` and those of `a hi b lo c ;`
to `ExprStmt(BinOp(lo, BinOp(hi, a, b), c))`. -/
theorem binary_precedence (ta tlo tb thi tc semi eof : Token) (ea eb ec : Expression)
    (llo lhi : Nat)
    (ha : Parser.operandExpr ta = some ea) (hb : Parser.operandExpr tb = some eb)
    (hc : Parser.operandExpr tc = some ec)
    (hlo : Parser.binaryLevel tlo.type = some llo) (hhi : Parser.binaryLevel thi.type = some lhi)
    (hlt : llo < lhi)
    (hsemi : semi.type = TokenType.SEMICOLON) (heof : eof.type = TokenType.END_OF_FILE) :
    Parser.parse [ta, tlo, tb, thi, tc, semi, eof] =
      Except.ok ⟨[Statement.ExpressionStatement
        (Expression.BinaryOperation ea tlo.value (Expression.BinaryOperation eb thi.value ec))]⟩ ∧
    Parser.parse [ta, thi, tb, tlo, tc, semi, eof] =
      Except.ok ⟨[Statement.ExpressionStatement
        (Expression.BinaryOperation (Expression.BinaryOperation ea thi.value eb) tlo.value
          ec)]⟩ := by
  have rlo := Parser.binaryLevel_range hlo
  have rhi := Parser.binaryLevel_range hhi
  constructor
  · rw [Parser.parse_chain ta tlo tb thi tc semi eof ea eb ec llo lhi ha hb hc hlo hhi hsemi heof,
      Parser.chainResult0, if_pos rlo.1, if_pos hlt]
  · rw [Parser.parse_chain ta thi tb tlo tc semi eof ea eb ec lhi llo ha hb hc hhi hlo hsemi heof,
      Parser.chainResult0, if_pos rhi.1, if_neg (by omega), if_pos rlo.1]

theorem binary_precedence_witness :
    tokenize "a + 2 * c;" = some [⟨TokenType.IDENTIFIER, "a", 1, 1⟩, ⟨TokenType.PLUS, "+", 1, 3⟩,
      ⟨TokenType.NUMBER, "2", 1, 5⟩, ⟨TokenType.MULTIPLY, "*", 1, 7⟩,
      ⟨TokenType.IDENTIFIER, "c", 1, 9⟩, ⟨TokenType.SEMICOLON, ";", 1, 10⟩,
      ⟨TokenType.END_OF_FILE, "", 1, 11⟩] ∧
    Parser.parse [⟨TokenType.IDENTIFIER, "a", 1, 1⟩, ⟨TokenType.PLUS, "+", 1, 3⟩,
      ⟨TokenType.NUMBER, "2", 1, 5⟩, ⟨TokenType.MULTIPLY, "*", 1, 7⟩,
      ⟨TokenType.IDENTIFIER, "c", 1, 9⟩, ⟨TokenType.SEMICOLON, ";", 1, 10⟩,
      ⟨TokenType.END_OF_FILE, "", 1, 11⟩] =
      Except.ok ⟨[Statement.ExpressionStatement
        (Expression.BinaryOperation (Expression.Variable "a") "+"
          (Expression.BinaryOperation (Expression.NumberLiteral 2) "*"
            (Expression.Variable "c")))]⟩ :=
  ⟨by decide,
    (binary_precedence ⟨TokenType.IDENTIFIER, "a", 1, 1⟩ ⟨TokenType.PLUS, "+", 1, 3⟩
      ⟨TokenType.NUMBER, "2", 1, 5⟩ ⟨TokenType.MULTIPLY, "*", 1, 7⟩
      ⟨TokenType.IDENTIFIER, "c", 1, 9⟩ ⟨TokenType.SEMICOLON, ";", 1, 10⟩
      ⟨TokenType.END_OF_FILE, "", 1, 11⟩ (Expression.Variable "a") (Expression.NumberLiteral 2)
      (Expression.Variable "c") 5 6 rfl rfl rfl rfl rfl (by decide) rfl rfl).1⟩

/-- C3. Binary operators are left-associative. For operand tokens `a`, `b`, `c`
and two operator tokens `o1`, `o2` of the same level, the tokens of
`a o1 b o2 c ;` parse to `ExprStmt(BinOp(o2, BinOp(o1, a, b), c))`. -/
theorem binary_left_associative (ta t1 tb t2 tc semi eof : Token) (ea eb ec : Expression)
    (l : Nat)
    (ha : Parser.operandExpr ta = some ea) (hb : Parser.operandExpr tb = some eb)
    (hc : Parser.operandExpr tc = some ec)
    (h1 : Parser.binaryLevel t1.type = some l) (h2 : Parser.binaryLevel t2.type = some l)
    (hsemi : semi.type = TokenType.SEMICOLON) (heof : eof.type = TokenType.END_OF_FILE) :
    Parser.parse [ta, t1, tb, t2, tc, semi, eof] =
      Except.ok ⟨[Statement.ExpressionStatement
        (Expression.BinaryOperation (Expression.BinaryOperation ea t1.value eb) t2.value
          ec)]⟩ := by
  have r := Parser.binaryLevel_range h1
  rw [Parser.parse_chain ta t1 tb t2 tc semi eof ea eb ec l l ha hb hc h1 h2 hsemi heof,
    Parser.chainResult0, if_pos r.1, if_neg (lt_irrefl l), if_pos r.1]

theorem binary_left_associative_witness :
    tokenize "a - b - c;" = some [⟨TokenType.IDENTIFIER, "a", 1, 1⟩, ⟨TokenType.MINUS, "-", 1, 3⟩,
      ⟨TokenType.IDENTIFIER, "b", 1, 5⟩, ⟨TokenType.MINUS, "-", 1, 7⟩,
      ⟨TokenType.IDENTIFIER, "c", 1, 9⟩, ⟨TokenType.SEMICOLON, ";", 1, 10⟩,
      ⟨TokenType.END_OF_FILE, "", 1, 11⟩] ∧
    Parser.parse [⟨TokenType.IDENTIFIER, "a", 1, 1⟩, ⟨TokenType.MINUS, "-", 1, 3⟩,
      ⟨TokenType.IDENTIFIER, "b", 1, 5⟩, ⟨TokenType.MINUS, "-", 1, 7⟩,
      ⟨TokenType.IDENTIFIER, "c", 1, 9⟩, ⟨TokenType.SEMICOLON, ";", 1, 10⟩,
      ⟨TokenType.END_OF_FILE, "", 1, 11⟩] =
      Except.ok ⟨[Statement.ExpressionStatement
        (Expression.BinaryOperation
          (Expression.BinaryOperation (Expression.Variable "a") "-" (Expression.Variable "b"))
          "-" (Expression.Variable "c"))]⟩ :=
  ⟨by decide,
    binary_left_associative ⟨TokenType.IDENTIFIER, "a", 1, 1⟩ ⟨TokenType.MINUS, "-", 1, 3⟩
      ⟨TokenType.IDENTIFIER, "b", 1, 5⟩ ⟨TokenType.MINUS, "-", 1, 7⟩
      ⟨TokenType.IDENTIFIER, "c", 1, 9⟩ ⟨TokenType.SEMICOLON, ";", 1, 10⟩
      ⟨TokenType.END_OF_FILE, "", 1, 11⟩ (Expression.Variable "a") (Expression.Variable "b")
      (Expression.Variable "c") 5 rfl rfl rfl rfl rfl rfl rfl⟩

namespace Parser

/-- A statement that starts with an identifier: the dispatch of `statement`. -/
theorem statement_identifier {tokens : List Token} {current : Nat} {t1 t2 : Token}
    (h1 : tokens[current]? = some t1) (hid : t1.type = TokenType.IDENTIFIER)
    (h2 : tokens[current + 1]? = some t2) (fuel : Nat) :
    statement (fuel + 1) tokens current =
      if t2.type = TokenType.ASSIGN then assignment fuel tokens current
      else expressionStatement fuel tokens current := by
  have hne : t1.type ≠ TokenType.END_OF_FILE := by rw [hid]; decide
  rw [statement]
  rw [match__not_mem h1 _ (by rw [hid]; decide)]; dsimp only
  rw [match__not_mem h1 _ (by rw [hid]; decide)]; dsimp only
  rw [match__not_mem h1 _ (by rw [hid]; decide)]; dsimp only
  rw [match__not_mem h1 _ (by rw [hid]; decide)]; dsimp only
  rw [match__not_mem h1 _ (by rw [hid]; decide)]; dsimp only
  rw [match__not_mem h1 _ (by rw [hid]; decide)]; dsimp only
  rw [check_eq_of_ne h1 (by decide), advance_step h1 hne]
  simp only [hid, decide_True]
  rw [check_eq_of_ne h2 (by decide)]
  by_cases ha : t2.type = TokenType.ASSIGN
  · simp only [ha, decide_True, if_true]
  · simp only [ha, decide_False, if_false]

/-- The rule `assignment` returns an `Assignment` to the identifier at the
cursor, or fails. -/
theorem assignment_result {tokens : List Token} {current : Nat} {t1 : Token}
    (h1 : tokens[current]? = some t1) (hid : t1.type = TokenType.IDENTIFIER)
    (fuel : Nat) (r : Statement × Nat) (h : assignment fuel tokens current = Except.ok r) :
    ∃ value, r.1 = Statement.Assignment t1.value value := by
  have hne : t1.type ≠ TokenType.END_OF_FILE := by rw [hid]; decide
  have hc := consume_eq h1 hne "Expected variable name"
  rw [hid] at hc
  rw [assignment, hc] at h
  dsimp only at h
  split at h
  · exact Except.noConfusion h
  · split at h
    · exact Except.noConfusion h
    · split at h
      · exact Except.noConfusion h
      · injection h with h
        exact ⟨_, by rw [← h]⟩

end Parser

/-- C4. Statement dispatch between assignment and expression statement. At an
`IDENTIFIER` followed by `ASSIGN`, `statement` is the assignment rule, which
returns `Assign(name, value)` for that identifier or fails; at an `IDENTIFIER`
followed by any other token, `statement` is the expression-statement rule
started at the identifier. -/
theorem statement_dispatch (tokens : List Token) (current fuel : Nat) (t1 t2 : Token)
    (h1 : tokens[current]? = some t1) (hid : t1.type = TokenType.IDENTIFIER)
    (h2 : tokens[current + 1]? = some t2) :
    (t2.type = TokenType.ASSIGN →
      Parser.statement (fuel + 1) tokens current = Parser.assignment fuel tokens current ∧
      ∀ r, Parser.statement (fuel + 1) tokens current = Except.ok r →
        ∃ value, r.1 = Statement.Assignment t1.value value) ∧
    (t2.type ≠ TokenType.ASSIGN →
      Parser.statement (fuel + 1) tokens current =
        Parser.expressionStatement fuel tokens current) := by
  rw [Parser.statement_identifier h1 hid h2]
  constructor
  · intro ha
    rw [if_pos ha]
    exact ⟨rfl, fun r hr => Parser.assignment_result h1 hid fuel r hr⟩
  · intro ha
    rw [if_neg ha]

theorem statement_dispatch_witness :
    (Parser.statement (9 + 1) [⟨TokenType.IDENTIFIER, "x", 1, 1⟩, ⟨TokenType.EQUAL, "==", 1, 3⟩,
        ⟨TokenType.NUMBER, "5", 1, 6⟩, ⟨TokenType.SEMICOLON, ";", 1, 7⟩,
        ⟨TokenType.END_OF_FILE, "", 1, 8⟩] 0 =
      Parser.expressionStatement 9 [⟨TokenType.IDENTIFIER, "x", 1, 1⟩,
        ⟨TokenType.EQUAL, "==", 1, 3⟩, ⟨TokenType.NUMBER, "5", 1, 6⟩,
        ⟨TokenType.SEMICOLON, ";", 1, 7⟩, ⟨TokenType.END_OF_FILE, "", 1, 8⟩] 0) ∧
    parseSource "x = 5;" = some (Except.ok ⟨[Statement.Assignment "x"
      (Expression.NumberLiteral 5)]⟩) ∧
    parseSource "x == 5;" = some (Except.ok ⟨[Statement.ExpressionStatement
      (Expression.BinaryOperation (Expression.Variable "x") "=="
        (Expression.NumberLiteral 5))]⟩) :=
  ⟨(statement_dispatch [⟨TokenType.IDENTIFIER, "x", 1, 1⟩, ⟨TokenType.EQUAL, "==", 1, 3⟩,
        ⟨TokenType.NUMBER, "5", 1, 6⟩, ⟨TokenType.SEMICOLON, ";", 1, 7⟩,
        ⟨TokenType.END_OF_FILE, "", 1, 8⟩] 0 9 ⟨TokenType.IDENTIFIER, "x", 1, 1⟩
        ⟨TokenType.EQUAL, "==", 1, 3⟩ rfl rfl rfl).2 (by decide),
    by decide!, by decide!⟩

namespace Parser

theorem peek_ok {tokens : List Token} {current : Nat} {t : Token}
    (h : peek tokens current = Except.ok t) : tokens[current]? = some t := by
  unfold peek at h
  split at h
  · next t' ht => injection h with h; rw [ht, h]
  · exact Except.noConfusion h

theorem isAtEnd_ok {tokens : List Token} {current : Nat} {b : Bool}
    (h : isAtEnd tokens current = Except.ok b) :
    ∃ t, tokens[current]? = some t ∧ b = decide (t.type = TokenType.END_OF_FILE) := by
  unfold isAtEnd at h
  split at h
  · next t ht => injection h with h; exact ⟨t, peek_ok ht, h.symm⟩
  · exact Except.noConfusion h

theorem check_ok {tokens : List Token} {current : Nat} {type : TokenType} {b : Bool}
    (h : check tokens current type = Except.ok b) :
    ∃ t, tokens[current]? = some t ∧
      b = decide (t.type ≠ TokenType.END_OF_FILE ∧ t.type = type) := by
  cases hp : tokens[current]? with
  | none => simp [check, isAtEnd, peek, hp] at h
  | some t =>
    rw [check_eq hp] at h
    injection h with h
    exact ⟨t, rfl, h.symm⟩

theorem advance_ok {tokens : List Token} {current : Nat} {r : Token × Nat}
    (h : advance tokens current = Except.ok r) :
    ∃ t, tokens[current]? = some t ∧
      r.2 = if t.type = TokenType.END_OF_FILE then current else current + 1 := by
  cases hp : tokens[current]? with
  | none => simp [advance, isAtEnd, peek, hp] at h
  | some t =>
    refine ⟨t, rfl, ?_⟩
    unfold advance at h
    rw [isAtEnd_eq hp] at h
    dsimp only at h
    split at h
    · injection h with h
      rw [← h]
      by_cases he : t.type = TokenType.END_OF_FILE <;> simp [he]
    · exact Except.noConfusion h

/-- A successful `match` either consumed one token of a listed kind, or nothing. -/
theorem match__ok {tokens : List Token} {current : Nat} {types : List TokenType}
    {r : Bool × Nat} (h : match_ tokens current types = Except.ok r) :
    (r.1 = true ∧ ∃ t, tokens[current]? = some t ∧ t.type ∈ types ∧
        t.type ≠ TokenType.END_OF_FILE ∧ r.2 = current + 1) ∨
      (r.1 = false ∧ r.2 = current) := by
  cases hp : tokens[current]? with
  | none =>
    cases types with
    | nil => simp [match_] at h; right; rw [← h]; exact ⟨rfl, rfl⟩
    | cons ty tys => simp [match_, check, isAtEnd, peek, hp] at h
  | some t =>
    by_cases he : t.type = TokenType.END_OF_FILE
    · rw [match__eof hp he] at h
      injection h with h
      right; rw [← h]; exact ⟨rfl, rfl⟩
    · rw [match__eq hp he] at h
      injection h with h
      subst h
      by_cases hm : t.type ∈ types
      · exact Or.inl ⟨by simp [hm], t, rfl, hm, he, by simp [hm]⟩
      · exact Or.inr ⟨by simp [hm], by simp [hm]⟩

/-- A successful `consume` consumed one token of the expected kind. -/
theorem consume_ok {tokens : List Token} {current : Nat} {type : TokenType} {message : String}
    {r : Token × Nat} (h : consume tokens current type message = Except.ok r) :
    tokens[current]? = some r.1 ∧ r.1.type = type ∧ r.1.type ≠ TokenType.END_OF_FILE ∧
      r.2 = current + 1 := by
  cases hp : tokens[current]? with
  | none => simp [consume, check, isAtEnd, peek, hp] at h
  | some t =>
    unfold consume at h
    rw [check_eq hp] at h
    by_cases hc : t.type ≠ TokenType.END_OF_FILE ∧ t.type = type
    · have hd : decide (t.type ≠ TokenType.END_OF_FILE ∧ t.type = type) = true :=
        decide_eq_true hc
      rw [hd] at h
      dsimp only at h
      rw [advance_step hp hc.1] at h
      injection h with h
      subst h
      exact ⟨rfl, hc.2, hc.1, rfl⟩
    · have hd : decide (t.type ≠ TokenType.END_OF_FILE ∧ t.type = type) = false :=
        decide_eq_false hc
      rw [hd] at h
      dsimp only at h
      rw [peek_eq hp] at h
      exact Except.noConfusion h

section advances

variable {tokens : List Token} {Q : Nat → Nat → Prop} (hQ : Stepwise tokens Q)
include hQ

theorem match__advances {current : Nat} {types : List TokenType} {r : Bool × Nat}
    (hU : TokenType.UNKNOWN ∉ types) (h : match_ tokens current types = Except.ok r) :
    Q current r.2 := by
  rcases match__ok h with ⟨-, t, ht, hm, he, hr⟩ | ⟨-, hr⟩
  · rw [hr]
    exact hQ.step _ t ht he (fun hu => hU (hu ▸ hm))
  · rw [hr]; exact hQ.refl _

theorem consume_advances {current : Nat} {type : TokenType} {message : String} {r : Token × Nat}
    (hU : type ≠ TokenType.UNKNOWN) (h : consume tokens current type message = Except.ok r) :
    Q current r.2 := by
  obtain ⟨ht, hty, he, hr⟩ := consume_ok h
  rw [hr]
  exact hQ.step _ _ ht he (fun hu => hU (hty ▸ hu))

end advances

end Parser

namespace Parser

theorem logicalOr_succ (n : Nat) (tokens : List Token) (c : Nat) :
    logicalOr (n + 1) tokens c =
      match logicalAnd n tokens c with
      | Except.error e => Except.error e
      | Except.ok r => logicalOrLoop n tokens r.1 r.2 := by
  rw [logicalOr]

theorem logicalAnd_succ (n : Nat) (tokens : List Token) (c : Nat) :
    logicalAnd (n + 1) tokens c =
      match equality n tokens c with
      | Except.error e => Except.error e
      | Except.ok r => logicalAndLoop n tokens r.1 r.2 := by
  rw [logicalAnd]

theorem equality_succ (n : Nat) (tokens : List Token) (c : Nat) :
    equality (n + 1) tokens c =
      match comparison n tokens c with
      | Except.error e => Except.error e
      | Except.ok r => equalityLoop n tokens r.1 r.2 := by
  rw [equality]

theorem comparison_succ (n : Nat) (tokens : List Token) (c : Nat) :
    comparison (n + 1) tokens c =
      match term n tokens c with
      | Except.error e => Except.error e
      | Except.ok r => comparisonLoop n tokens r.1 r.2 := by
  rw [comparison]

theorem term_succ (n : Nat) (tokens : List Token) (c : Nat) :
    term (n + 1) tokens c =
      match factor n tokens c with
      | Except.error e => Except.error e
      | Except.ok r => termLoop n tokens r.1 r.2 := by
  rw [term]

theorem factor_succ (n : Nat) (tokens : List Token) (c : Nat) :
    factor (n + 1) tokens c =
      match unary n tokens c with
      | Except.error e => Except.error e
      | Except.ok r => factorLoop n tokens r.1 r.2 := by
  rw [factor]

theorem call_succ (n : Nat) (tokens : List Token) (c : Nat) :
    call (n + 1) tokens c =
      match primary n tokens c with
      | Except.error e => Except.error e
      | Except.ok r => callLoop n tokens r.1 r.2 := by
  rw [call]

section advances

variable {tokens : List Token} {Q : Nat → Nat → Prop} (hQ : Stepwise tokens Q)
include hQ

theorem binaryLoop_advances (sub : Nat → List Token → Nat → Result Expression)
    (ops : List TokenType) (n : Nat) (hU : TokenType.UNKNOWN ∉ ops)
    (hsub : ∀ c r, sub n tokens c = Except.ok r → Q c r.2)
    (hloop : ∀ e c r, binaryLoop sub ops n tokens e c = Except.ok r → Q c r.2) :
    ∀ e c r, binaryLoop sub ops (n + 1) tokens e c = Except.ok r → Q c r.2 := by
  intro e c r h
  rw [binaryLoop] at h
  split at h
  · exact Except.noConfusion h
  · next c1 hm =>
    injection h with h
    subst h
    exact match__advances hQ hU hm
  · next c1 hm =>
    have q1 := match__advances hQ hU hm
    split at h
    · exact Except.noConfusion h
    · split at h
      · exact Except.noConfusion h
      · next right hr =>
        exact hQ.trans _ _ _ q1 (hQ.trans _ _ _ (hsub _ _ hr) (hloop _ _ _ h))

theorem binaryRule_advances (f sub : Nat → List Token → Nat → Result Expression)
    (loop : Nat → List Token → Expression → Nat → Result Expression) (n : Nat)
    (hf : ∀ c, f (n + 1) tokens c =
      match sub n tokens c with
      | Except.error e => Except.error e
      | Except.ok r => loop n tokens r.1 r.2)
    (hsub : ∀ c r, sub n tokens c = Except.ok r → Q c r.2)
    (hloop : ∀ e c r, loop n tokens e c = Except.ok r → Q c r.2) :
    ∀ c r, f (n + 1) tokens c = Except.ok r → Q c r.2 := by
  intro c r h
  rw [hf] at h
  split at h
  · exact Except.noConfusion h
  · next r1 h1 => exact hQ.trans _ _ _ (hsub _ _ h1) (hloop _ _ _ h)

theorem unary_advances (n : Nat) (ih : ExprAdvances tokens Q n) :
    ∀ c r, unary (n + 1) tokens c = Except.ok r → Q c r.2 := by
  intro c r h
  rw [unary] at h
  split at h
  · exact Except.noConfusion h
  · next c1 hm =>
    have q1 := match__advances hQ (by decide) hm
    split at h
    · exact Except.noConfusion h
    · split at h
      · exact Except.noConfusion h
      · next right hr =>
        injection h with h
        subst h
        exact hQ.trans _ _ _ q1 (ih.unary c1 right hr)
  · next c1 hm =>
    exact hQ.trans _ _ _ (match__advances hQ (by decide) hm) (ih.call _ _ h)

theorem callLoop_advances (n : Nat) (ih : ExprAdvances tokens Q n) :
    ∀ e c r, callLoop (n + 1) tokens e c = Except.ok r → Q c r.2 := by
  intro e c r h
  rw [callLoop] at h
  split at h
  · exact Except.noConfusion h
  · next c1 hm =>
    injection h with h
    subst h
    exact match__advances hQ (by decide) hm
  · next c1 hm =>
    have q1 := match__advances hQ (by decide) hm
    split at h
    · split at h
      · exact Except.noConfusion h
      · next closing hc =>
        split at h
        · exact Except.noConfusion h
        · next arguments ha =>
          have q2 : Q c1 arguments.2 := by
            split at ha
            · exact ih.callArguments _ _ _ ha
            · injection ha with ha
              subst ha
              exact hQ.refl _
          split at h
          · exact Except.noConfusion h
          · next r1 hcons =>
            exact hQ.trans _ _ _ q1 (hQ.trans _ _ _ q2
              (hQ.trans _ _ _ (consume_advances hQ (by decide) hcons) (ih.callLoop _ _ _ h)))
    · exact Except.noConfusion h

theorem callArguments_advances (n : Nat) (ih : ExprAdvances tokens Q n) :
    ∀ a c r, callArguments (n + 1) tokens a c = Except.ok r → Q c r.2 := by
  intro a c r h
  rw [callArguments] at h
  split at h
  · exact Except.noConfusion h
  · next r1 h1 =>
    have q1 := ih.expression _ _ h1
    split at h
    · exact Except.noConfusion h
    · next c1 hm =>
      exact hQ.trans _ _ _ q1 (hQ.trans _ _ _ (match__advances hQ (by decide) hm)
        (ih.callArguments _ _ _ h))
    · next c1 hm =>
      injection h with h
      subst h
      exact hQ.trans _ _ _ q1 (match__advances hQ (by decide) hm)

theorem primary_advances (n : Nat) (ih : ExprAdvances tokens Q n) :
    ∀ c r, primary (n + 1) tokens c = Except.ok r → Q c r.2 := by
  intro c r h
  rw [primary] at h
  split at h
  · exact Except.noConfusion h
  · next c1 hm =>
    injection h with h
    subst h
    exact match__advances hQ (by decide) hm
  · next c1 hm1 =>
    have q1 := match__advances hQ (by decide) hm1
    split at h
    · exact Except.noConfusion h
    · next c2 hm =>
      injection h with h
      subst h
      exact hQ.trans _ _ _ q1 (match__advances hQ (by decide) hm)
    · next c2 hm2 =>
      have q2 := hQ.trans _ _ _ q1 (match__advances hQ (by decide) hm2)
      split at h
      · exact Except.noConfusion h
      · next c3 hm =>
        have q3 := hQ.trans _ _ _ q2 (match__advances hQ (by decide) hm)
        split at h
        · exact Except.noConfusion h
        · split at h
          · exact Except.noConfusion h
          · injection h with h
            subst h
            exact q3
      · next c3 hm3 =>
        have q3 := hQ.trans _ _ _ q2 (match__advances hQ (by decide) hm3)
        split at h
        · exact Except.noConfusion h
        · next c4 hm =>
          have q4 := hQ.trans _ _ _ q3 (match__advances hQ (by decide) hm)
          split at h
          · exact Except.noConfusion h
          · injection h with h
            subst h
            exact q4
        · next c4 hm4 =>
          have q4 := hQ.trans _ _ _ q3 (match__advances hQ (by decide) hm4)
          split at h
          · exact Except.noConfusion h
          · next c5 hm =>
            have q5 := hQ.trans _ _ _ q4 (match__advances hQ (by decide) hm)
            split at h
            · exact Except.noConfusion h
            · next expr he =>
              split at h
              · exact Except.noConfusion h
              · next r1 hcons =>
                injection h with h
                subst h
                exact hQ.trans _ _ _ q5 (hQ.trans _ _ _ (ih.expression _ _ he)
                  (consume_advances hQ (by decide) hcons))
          · split at h
            · exact Except.noConfusion h
            · exact Except.noConfusion h

/-- Every rule of the expression grammar respects a stepwise relation. -/
theorem exprAdvances (fuel : Nat) : ExprAdvances tokens Q fuel := by
  induction fuel with
  | zero =>
    constructor <;> intros <;> rename_i h <;>
      first
        | (rw [expression] at h; exact Except.noConfusion h)
        | (rw [logicalOr] at h; exact Except.noConfusion h)
        | (rw [logicalOrLoop] at h; exact Except.noConfusion h)
        | (rw [logicalAnd] at h; exact Except.noConfusion h)
        | (rw [logicalAndLoop] at h; exact Except.noConfusion h)
        | (rw [equality] at h; exact Except.noConfusion h)
        | (rw [equalityLoop] at h; exact Except.noConfusion h)
        | (rw [comparison] at h; exact Except.noConfusion h)
        | (rw [comparisonLoop] at h; exact Except.noConfusion h)
        | (rw [term] at h; exact Except.noConfusion h)
        | (rw [termLoop] at h; exact Except.noConfusion h)
        | (rw [factor] at h; exact Except.noConfusion h)
        | (rw [factorLoop] at h; exact Except.noConfusion h)
        | (rw [unary] at h; exact Except.noConfusion h)
        | (rw [call] at h; exact Except.noConfusion h)
        | (rw [callLoop] at h; exact Except.noConfusion h)
        | (rw [callArguments] at h; exact Except.noConfusion h)
        | (rw [primary] at h; exact Except.noConfusion h)
  | succ n ih =>
    have hexpr : ∀ c r, expression (n + 1) tokens c = Except.ok r → Q c r.2 := by
      intro c r h
      rw [expression] at h
      exact ih.logicalOr _ _ h
    refine ⟨hexpr, ?_, ?_, ?_, ?_, ?_, ?_, ?_, ?_, ?_, ?_, ?_, ?_, unary_advances hQ n ih, ?_,
      callLoop_advances hQ n ih, callArguments_advances hQ n ih, primary_advances hQ n ih⟩
    · exact binaryRule_advances hQ logicalOr logicalAnd logicalOrLoop n
        (fun c => logicalOr_succ n tokens c) ih.logicalAnd ih.logicalOrLoop
    · intro e c r h
      rw [logicalOrLoop_eq] at h
      exact binaryLoop_advances hQ _ _ n (by decide) ih.logicalAnd
        (fun e c r h => ih.logicalOrLoop e c r (by rw [logicalOrLoop_eq]; exact h)) e c r h
    · exact binaryRule_advances hQ logicalAnd equality logicalAndLoop n
        (fun c => logicalAnd_succ n tokens c) ih.equality ih.logicalAndLoop
    · intro e c r h
      rw [logicalAndLoop_eq] at h
      exact binaryLoop_advances hQ _ _ n (by decide) ih.equality
        (fun e c r h => ih.logicalAndLoop e c r (by rw [logicalAndLoop_eq]; exact h)) e c r h
    · exact binaryRule_advances hQ equality comparison equalityLoop n
        (fun c => equality_succ n tokens c) ih.comparison ih.equalityLoop
    · intro e c r h
      rw [equalityLoop_eq] at h
      exact binaryLoop_advances hQ _ _ n (by decide) ih.comparison
        (fun e c r h => ih.equalityLoop e c r (by rw [equalityLoop_eq]; exact h)) e c r h
    · exact binaryRule_advances hQ comparison term comparisonLoop n
        (fun c => comparison_succ n tokens c) ih.term ih.comparisonLoop
    · intro e c r h
      rw [comparisonLoop_eq] at h
      exact binaryLoop_advances hQ _ _ n (by decide) ih.term
        (fun e c r h => ih.comparisonLoop e c r (by rw [comparisonLoop_eq]; exact h)) e c r h
    · exact binaryRule_advances hQ term factor termLoop n
        (fun c => term_succ n tokens c) ih.factor ih.termLoop
    · intro e c r h
      rw [termLoop_eq] at h
      exact binaryLoop_advances hQ _ _ n (by decide) ih.factor
        (fun e c r h => ih.termLoop e c r (by rw [termLoop_eq]; exact h)) e c r h
    · exact binaryRule_advances hQ factor unary factorLoop n
        (fun c => factor_succ n tokens c) ih.unary ih.factorLoop
    · intro e c r h
      rw [factorLoop_eq] at h
      exact binaryLoop_advances hQ _ _ n (by decide) ih.unary
        (fun e c r h => ih.factorLoop e c r (by rw [factorLoop_eq]; exact h)) e c r h
    · exact binaryRule_advances hQ call primary callLoop n
        (fun c => call_succ n tokens c) ih.primary ih.callLoop

end advances

end Parser

namespace Parser

section advances

variable {tokens : List Token} {Q : Nat → Nat → Prop} (hQ : Stepwise tokens Q)
include hQ

theorem varDeclaration_advances (fuel : Nat) :
    ∀ c r, varDeclaration fuel tokens c = Except.ok r → Q c r.2 := by
  intro c r h
  unfold varDeclaration at h
  split at h
  · exact Except.noConfusion h
  · next name hn =>
    have q1 := consume_advances hQ (by decide) hn
    split at h
    · exact Except.noConfusion h
    · next m hm =>
      have q2 := hQ.trans _ _ _ q1 (match__advances hQ (by decide) hm)
      split at h
      · exact Except.noConfusion h
      · next initializer hi =>
        have q3 : Q m.2 initializer.2 := by
          split at hi
          · split at hi
            · exact Except.noConfusion hi
            · next r1 h1 =>
              injection hi with hi
              subst hi
              exact (exprAdvances hQ fuel).expression _ _ h1
          · injection hi with hi
            subst hi
            exact hQ.refl _
        split at h
        · exact Except.noConfusion h
        · next r1 hc =>
          injection h with h
          subst h
          exact hQ.trans _ _ _ q2 (hQ.trans _ _ _ q3 (consume_advances hQ (by decide) hc))

theorem assignment_advances (fuel : Nat) :
    ∀ c r, assignment fuel tokens c = Except.ok r → Q c r.2 := by
  intro c r h
  unfold assignment at h
  split at h
  · exact Except.noConfusion h
  · next name hn =>
    have q1 := consume_advances hQ (by decide) hn
    split at h
    · exact Except.noConfusion h
    · next eq he =>
      have q2 := hQ.trans _ _ _ q1 (consume_advances hQ (by decide) he)
      split at h
      · exact Except.noConfusion h
      · next value hv =>
        have q3 := hQ.trans _ _ _ q2 ((exprAdvances hQ fuel).expression _ _ hv)
        split at h
        · exact Except.noConfusion h
        · next r1 hc =>
          injection h with h
          subst h
          exact hQ.trans _ _ _ q3 (consume_advances hQ (by decide) hc)

theorem returnStatement_advances (fuel : Nat) :
    ∀ c r, returnStatement fuel tokens c = Except.ok r → Q c r.2 := by
  intro c r h
  unfold returnStatement at h
  split at h
  · exact Except.noConfusion h
  · next semi hs =>
    split at h
    · exact Except.noConfusion h
    · next value hv =>
      have q1 : Q c value.2 := by
        split at hv
        · split at hv
          · exact Except.noConfusion hv
          · next r1 h1 =>
            injection hv with hv
            subst hv
            exact (exprAdvances hQ fuel).expression _ _ h1
        · injection hv with hv
          subst hv
          exact hQ.refl _
      split at h
      · exact Except.noConfusion h
      · next r1 hc =>
        injection h with h
        subst h
        exact hQ.trans _ _ _ q1 (consume_advances hQ (by decide) hc)

theorem expressionStatement_advances (fuel : Nat) :
    ∀ c r, expressionStatement fuel tokens c = Except.ok r → Q c r.2 := by
  intro c r h
  unfold expressionStatement at h
  split at h
  · exact Except.noConfusion h
  · next expr he =>
    split at h
    · exact Except.noConfusion h
    · next r1 hc =>
      injection h with h
      subst h
      exact hQ.trans _ _ _ ((exprAdvances hQ fuel).expression _ _ he)
        (consume_advances hQ (by decide) hc)

theorem parameterLoop_advances (fuel : Nat) :
    ∀ p c r, parameterLoop fuel tokens p c = Except.ok r → Q c r.2 := by
  induction fuel with
  | zero =>
    intro p c r h
    rw [parameterLoop] at h
    exact Except.noConfusion h
  | succ n ih =>
    intro p c r h
    rw [parameterLoop] at h
    split at h
    · exact Except.noConfusion h
    · next param hp =>
      have q1 := consume_advances hQ (by decide) hp
      split at h
      · exact Except.noConfusion h
      · next c1 hm =>
        exact hQ.trans _ _ _ q1 (hQ.trans _ _ _ (match__advances hQ (by decide) hm)
          (ih _ _ _ h))
      · next c1 hm =>
        injection h with h
        subst h
        exact hQ.trans _ _ _ q1 (match__advances hQ (by decide) hm)

theorem statement_advances (n : Nat) (ih : StmtAdvances tokens Q n) :
    ∀ c r, statement (n + 1) tokens c = Except.ok r → Q c r.2 := by
  intro c r h
  rw [statement] at h
  split at h
  · exact Except.noConfusion h
  · next c1 hm =>
    exact hQ.trans _ _ _ (match__advances hQ (by decide) hm) (varDeclaration_advances hQ n _ _ h)
  · next c1 hm1 =>
    have q1 := match__advances hQ (by decide) hm1
    split at h
    · exact Except.noConfusion h
    · next c2 hm =>
      exact hQ.trans _ _ _ q1 (hQ.trans _ _ _ (match__advances hQ (by decide) hm)
        (ih.ifStatement _ _ h))
    · next c2 hm2 =>
      have q2 := hQ.trans _ _ _ q1 (match__advances hQ (by decide) hm2)
      split at h
      · exact Except.noConfusion h
      · next c3 hm =>
        exact hQ.trans _ _ _ q2 (hQ.trans _ _ _ (match__advances hQ (by decide) hm)
          (ih.whileStatement _ _ h))
      · next c3 hm3 =>
        have q3 := hQ.trans _ _ _ q2 (match__advances hQ (by decide) hm3)
        split at h
        · exact Except.noConfusion h
        · next c4 hm =>
          exact hQ.trans _ _ _ q3 (hQ.trans _ _ _ (match__advances hQ (by decide) hm)
            (ih.functionDeclaration _ _ h))
        · next c4 hm4 =>
          have q4 := hQ.trans _ _ _ q3 (match__advances hQ (by decide) hm4)
          split at h
          · exact Except.noConfusion h
          · next c5 hm =>
            exact hQ.trans _ _ _ q4 (hQ.trans _ _ _ (match__advances hQ (by decide) hm)
              (returnStatement_advances hQ n _ _ h))
          · next c5 hm5 =>
            have q5 := hQ.trans _ _ _ q4 (match__advances hQ (by decide) hm5)
            split at h
            · exact Except.noConfusion h
            · next c6 hm =>
              have q6 := hQ.trans _ _ _ q5 (match__advances hQ (by decide) hm)
              split at h
              · exact Except.noConfusion h
              · next r1 hb =>
                injection h with h
                subst h
                exact hQ.trans _ _ _ q6 (ih.block _ _ hb)
            · next c6 hm6 =>
              have q6 := hQ.trans _ _ _ q5 (match__advances hQ (by decide) hm6)
              split at h
              · exact Except.noConfusion h
              · exact hQ.trans _ _ _ q6 (expressionStatement_advances hQ n _ _ h)
              · dsimp only at h
                split at h
                · exact Except.noConfusion h
                · split at h
                  · exact Except.noConfusion h
                  · exact hQ.trans _ _ _ q6 (assignment_advances hQ n _ _ h)
                  · exact hQ.trans _ _ _ q6 (expressionStatement_advances hQ n _ _ h)

theorem ifStatement_advances (n : Nat) (ih : StmtAdvances tokens Q n) :
    ∀ c r, ifStatement (n + 1) tokens c = Except.ok r → Q c r.2 := by
  intro c r h
  rw [ifStatement] at h
  split at h
  · exact Except.noConfusion h
  · next l hl =>
    have q1 := consume_advances hQ (by decide) hl
    split at h
    · exact Except.noConfusion h
    · next condition hc =>
      have q2 := hQ.trans _ _ _ q1 ((exprAdvances hQ n).expression _ _ hc)
      split at h
      · exact Except.noConfusion h
      · next r1 hr =>
        have q3 := hQ.trans _ _ _ q2 (consume_advances hQ (by decide) hr)
        split at h
        · exact Except.noConfusion h
        · next thenBranch ht =>
          have q4 := hQ.trans _ _ _ q3 (ih.statement _ _ ht)
          split at h
          · exact Except.noConfusion h
          · next c1 hm =>
            have q5 := hQ.trans _ _ _ q4 (match__advances hQ (by decide) hm)
            split at h
            · exact Except.noConfusion h
            · next elseBranch he =>
              injection h with h
              subst h
              exact hQ.trans _ _ _ q5 (ih.statement c1 elseBranch he)
          · next c1 hm =>
            injection h with h
            subst h
            exact hQ.trans _ _ _ q4 (match__advances hQ (by decide) hm)

theorem whileStatement_advances (n : Nat) (ih : StmtAdvances tokens Q n) :
    ∀ c r, whileStatement (n + 1) tokens c = Except.ok r → Q c r.2 := by
  intro c r h
  rw [whileStatement] at h
  split at h
  · exact Except.noConfusion h
  · next l hl =>
    have q1 := consume_advances hQ (by decide) hl
    split at h
    · exact Except.noConfusion h
    · next condition hc =>
      have q2 := hQ.trans _ _ _ q1 ((exprAdvances hQ n).expression _ _ hc)
      split at h
      · exact Except.noConfusion h
      · next r1 hr =>
        have q3 := hQ.trans _ _ _ q2 (consume_advances hQ (by decide) hr)
        split at h
        · exact Except.noConfusion h
        · next body hb =>
          injection h with h
          subst h
          exact hQ.trans _ _ _ q3 (ih.statement r1.2 body hb)

theorem functionDeclaration_advances (n : Nat) (ih : StmtAdvances tokens Q n) :
    ∀ c r, functionDeclaration (n + 1) tokens c = Except.ok r → Q c r.2 := by
  intro c r h
  rw [functionDeclaration] at h
  split at h
  · exact Except.noConfusion h
  · next name hn =>
    have q1 := consume_advances hQ (by decide) hn
    split at h
    · exact Except.noConfusion h
    · next l hl =>
      have q2 := hQ.trans _ _ _ q1 (consume_advances hQ (by decide) hl)
      split at h
      · exact Except.noConfusion h
      · next closing hc =>
        split at h
        · exact Except.noConfusion h
        · next parameters hp =>
          have q3 : Q l.2 parameters.2 := by
            split at hp
            · exact parameterLoop_advances hQ n _ _ _ hp
            · injection hp with hp
              subst hp
              exact hQ.refl _
          split at h
          · exact Except.noConfusion h
          · next r1 hr =>
            have q4 := hQ.trans _ _ _ q2 (hQ.trans _ _ _ q3 (consume_advances hQ (by decide) hr))
            split at h
            · exact Except.noConfusion h
            · next b hb =>
              have q5 := hQ.trans _ _ _ q4 (consume_advances hQ (by decide) hb)
              split at h
              · exact Except.noConfusion h
              · next body hbody =>
                injection h with h
                subst h
                exact hQ.trans _ _ _ q5 (ih.block _ _ hbody)

theorem block_advances (n : Nat) (ih : StmtAdvances tokens Q n) :
    ∀ c r, block (n + 1) tokens c = Except.ok r → Q c r.2 := by
  intro c r h
  rw [block] at h
  split at h
  · exact Except.noConfusion h
  · next statements hs =>
    split at h
    · exact Except.noConfusion h
    · next r1 hc =>
      injection h with h
      subst h
      exact hQ.trans _ _ _ (ih.blockLoop _ _ _ hs) (consume_advances hQ (by decide) hc)

theorem blockLoop_advances (n : Nat) (ih : StmtAdvances tokens Q n) :
    ∀ s c r, blockLoop (n + 1) tokens s c = Except.ok r → Q c r.2 := by
  intro s c r h
  rw [blockLoop] at h
  split at h
  · exact Except.noConfusion h
  · injection h with h
    subst h
    exact hQ.refl _
  · split at h
    · exact Except.noConfusion h
    · injection h with h
      subst h
      exact hQ.refl _
    · split at h
      · exact Except.noConfusion h
      · next r1 hs =>
        exact hQ.trans _ _ _ (ih.statement _ _ hs) (ih.blockLoop _ _ _ h)

/-- Every rule of the statement grammar respects a stepwise relation. -/
theorem stmtAdvances (fuel : Nat) : StmtAdvances tokens Q fuel := by
  induction fuel with
  | zero =>
    constructor <;> intros <;> rename_i h <;>
      first
        | (rw [statement] at h; exact Except.noConfusion h)
        | (rw [ifStatement] at h; exact Except.noConfusion h)
        | (rw [whileStatement] at h; exact Except.noConfusion h)
        | (rw [functionDeclaration] at h; exact Except.noConfusion h)
        | (rw [block] at h; exact Except.noConfusion h)
        | (rw [blockLoop] at h; exact Except.noConfusion h)
  | succ n ih =>
    exact ⟨statement_advances hQ n ih, ifStatement_advances hQ n ih,
      whileStatement_advances hQ n ih, functionDeclaration_advances hQ n ih,
      block_advances hQ n ih, blockLoop_advances hQ n ih⟩

end advances

end Parser

namespace Parser

end Parser

namespace Parser

end Parser

namespace Parser

theorem lt_length_of_getElem? {tokens : List Token} {c : Nat} {t : Token}
    (h : tokens[c]? = some t) : c < tokens.length := by
  by_contra hn
  rw [List.getElem?_eq_none (by omega)] at h
  exact Option.noConfusion h

/-- The cursor never moves back in a successful rule. -/
theorem stepwise_le (tokens : List Token) : Stepwise tokens (fun c c' => c ≤ c') where
  refl := fun _ => Nat.le_refl _
  trans := fun _ _ _ h1 h2 => Nat.le_trans h1 h2
  step := fun _ _ _ _ _ => Nat.le_succ _

theorem match__true {tokens : List Token} {c c1 : Nat} {types : List TokenType}
    (h : match_ tokens c types = Except.ok (true, c1)) : c1 = c + 1 ∧ c < tokens.length := by
  rcases match__ok h with ⟨-, t, ht, -, -, hr⟩ | ⟨hf, -⟩
  · exact ⟨hr, lt_length_of_getElem? ht⟩
  · exact Bool.noConfusion hf

theorem match__false {tokens : List Token} {c c1 : Nat} {types : List TokenType}
    (h : match_ tokens c types = Except.ok (false, c1)) : c1 = c := by
  rcases match__ok h with ⟨ht, -⟩ | ⟨-, hr⟩
  · exact Bool.noConfusion ht
  · exact hr

theorem consume_step {tokens : List Token} {c : Nat} {type : TokenType} {message : String}
    {r : Token × Nat} (h : consume tokens c type message = Except.ok r) :
    r.2 = c + 1 ∧ c < tokens.length := by
  obtain ⟨ht, -, -, hr⟩ := consume_ok h
  exact ⟨hr, lt_length_of_getElem? ht⟩

theorem peek_fuelFree (tokens : List Token) (c : Nat) : FuelFree (peek tokens c) := by
  intro c' h
  unfold peek at h
  split at h
  · exact Except.noConfusion h
  · injection h with h; injection h with h; exact Failure.noConfusion h

theorem previous_fuelFree (tokens : List Token) (c : Nat) : FuelFree (previous tokens c) := by
  intro c' h
  unfold previous at h
  split at h
  · injection h with h; injection h with h; exact Failure.noConfusion h
  · split at h
    · exact Except.noConfusion h
    · injection h with h; injection h with h; exact Failure.noConfusion h

theorem isAtEnd_fuelFree (tokens : List Token) (c : Nat) : FuelFree (isAtEnd tokens c) := by
  intro c' h
  unfold isAtEnd at h
  split at h
  · exact Except.noConfusion h
  · next e he => injection h with h; subst h; exact peek_fuelFree _ _ _ he

theorem advance_fuelFree (tokens : List Token) (c : Nat) : FuelFree (advance tokens c) := by
  intro c' h
  unfold advance at h
  split at h
  · next e he => injection h with h; subst h; exact isAtEnd_fuelFree _ _ _ he
  · dsimp only at h
    split at h
    · exact Except.noConfusion h
    · next e he => injection h with h; subst h; exact previous_fuelFree _ _ _ he

theorem check_fuelFree (tokens : List Token) (c : Nat) (type : TokenType) :
    FuelFree (check tokens c type) := by
  intro c' h
  unfold check at h
  split at h
  · next e he => injection h with h; subst h; exact isAtEnd_fuelFree _ _ _ he
  · exact Except.noConfusion h
  · split at h
    · exact Except.noConfusion h
    · next e he => injection h with h; subst h; exact peek_fuelFree _ _ _ he

theorem match__fuelFree (tokens : List Token) (c : Nat) (types : List TokenType) :
    FuelFree (match_ tokens c types) := by
  induction types with
  | nil => intro c' h; rw [match_] at h; exact Except.noConfusion h
  | cons ty tys ih =>
    intro c' h
    rw [match_] at h
    split at h
    · next e he => injection h with h; subst h; exact check_fuelFree _ _ _ _ he
    · split at h
      · exact Except.noConfusion h
      · next e he => injection h with h; subst h; exact advance_fuelFree _ _ _ he
    · exact ih _ h

theorem consume_fuelFree (tokens : List Token) (c : Nat) (type : TokenType) (message : String) :
    FuelFree (consume tokens c type message) := by
  intro c' h
  unfold consume at h
  split at h
  · next e he => injection h with h; subst h; exact check_fuelFree _ _ _ _ he
  · exact advance_fuelFree _ _ _ h
  · split at h
    · injection h with h; injection h with h; exact Failure.noConfusion h
    · next e he => injection h with h; subst h; exact peek_fuelFree _ _ _ he

end Parser

namespace Parser

theorem stoi_ne_outOfFuel (str : String) : stoi str ≠ Except.error Failure.outOfFuel := by
  unfold stoi
  dsimp only
  split_ifs <;> intro h <;>
    first | exact Except.noConfusion h | (injection h with h; exact Failure.noConfusion h)

theorem binaryLoop_fuelFree (tokens : List Token)
    (sub : Nat → List Token → Nat → Result Expression) (ops : List TokenType) (n rs : Nat)
    (hrs : rs ≤ 16)
    (hsub : ∀ c, 16 * (tokens.length - c) + rs ≤ n → FuelFree (sub n tokens c))
    (hmono : ∀ c r, sub n tokens c = Except.ok r → c ≤ r.2)
    (hloop : ∀ e c, 16 * (tokens.length - c) + 1 ≤ n →
      FuelFree (binaryLoop sub ops n tokens e c)) :
    ∀ e c, 16 * (tokens.length - c) + 1 ≤ n + 1 →
      FuelFree (binaryLoop sub ops (n + 1) tokens e c) := by
  intro e c hb c' h
  rw [binaryLoop] at h
  split at h
  · next x hx => injection h with h; subst h; exact match__fuelFree _ _ _ _ hx
  · exact Except.noConfusion h
  · next c1 hm =>
    obtain ⟨h1, h2⟩ := match__true hm
    split at h
    · next x hx => injection h with h; subst h; exact previous_fuelFree _ _ _ hx
    · split at h
      · next x hx =>
        injection h with h; subst h
        exact hsub c1 (by omega) _ hx
      · next right hr =>
        have := hmono _ _ hr
        exact hloop _ _ (by omega) _ h

theorem binaryRule_fuelFree (tokens : List Token)
    (f sub : Nat → List Token → Nat → Result Expression)
    (loop : Nat → List Token → Expression → Nat → Result Expression) (n rs : Nat)
    (hrs : 1 ≤ rs)
    (hf : ∀ c, f (n + 1) tokens c =
      match sub n tokens c with
      | Except.error e => Except.error e
      | Except.ok r => loop n tokens r.1 r.2)
    (hsub : ∀ c, 16 * (tokens.length - c) + rs ≤ n → FuelFree (sub n tokens c))
    (hmono : ∀ c r, sub n tokens c = Except.ok r → c ≤ r.2)
    (hloop : ∀ e c, 16 * (tokens.length - c) + 1 ≤ n → FuelFree (loop n tokens e c)) :
    ∀ c, 16 * (tokens.length - c) + (rs + 1) ≤ n + 1 → FuelFree (f (n + 1) tokens c) := by
  intro c hb c' h
  rw [hf] at h
  split at h
  · next x hx => injection h with h; subst h; exact hsub c (by omega) _ hx
  · next r hr =>
    have := hmono _ _ hr
    exact hloop _ _ (by omega) _ h

theorem unary_fuelFree (tokens : List Token) (n : Nat) (ih : ExprFuelFree tokens n) :
    ∀ c, 16 * (tokens.length - c) + 3 ≤ n + 1 → FuelFree (unary (n + 1) tokens c) := by
  intro c hb c' h
  rw [unary] at h
  split at h
  · next x hx => injection h with h; subst h; exact match__fuelFree _ _ _ _ hx
  · next c1 hm =>
    obtain ⟨h1, h2⟩ := match__true hm
    split at h
    · next x hx => injection h with h; subst h; exact previous_fuelFree _ _ _ hx
    · split at h
      · next x hx => injection h with h; subst h; exact ih.unary c1 (by omega) _ hx
      · exact Except.noConfusion h
  · next c1 hm =>
    have h1 := match__false hm
    exact ih.call c1 (by omega) _ h

theorem callLoop_fuelFree (tokens : List Token) (n : Nat) (ih : ExprFuelFree tokens n) :
    ∀ e c, 16 * (tokens.length - c) + 1 ≤ n + 1 → FuelFree (callLoop (n + 1) tokens e c) := by
  intro e c hb c' h
  rw [callLoop] at h
  split at h
  · next x hx => injection h with h; subst h; exact match__fuelFree _ _ _ _ hx
  · exact Except.noConfusion h
  · next c1 hm =>
    obtain ⟨h1, h2⟩ := match__true hm
    split at h
    · split at h
      · next x hx => injection h with h; subst h; exact check_fuelFree _ _ _ _ hx
      · next closing hc =>
        split at h
        · next x hx =>
          injection h with h; subst h
          split at hx
          · exact ih.callArguments _ c1 (by omega) _ hx
          · exact Except.noConfusion hx
        · next arguments ha =>
          have q2 : c1 ≤ arguments.2 := by
            split at ha
            · exact (exprAdvances (stepwise_le tokens) n).callArguments _ _ _ ha
            · injection ha with ha
              subst ha
              exact Nat.le_refl _
          split at h
          · next x hx => injection h with h; subst h; exact consume_fuelFree _ _ _ _ _ hx
          · next r1 hcons =>
            obtain ⟨h3, h4⟩ := consume_step hcons
            exact ih.callLoop _ _ (by omega) _ h
    · injection h with h; injection h with h; exact Failure.noConfusion h

theorem callArguments_fuelFree (tokens : List Token) (n : Nat) (ih : ExprFuelFree tokens n) :
    ∀ a c, 16 * (tokens.length - c) + 11 ≤ n + 1 →
      FuelFree (callArguments (n + 1) tokens a c) := by
  intro a c hb c' h
  rw [callArguments] at h
  split at h
  · next x hx => injection h with h; subst h; exact ih.expression c (by omega) _ hx
  · next r1 h1 =>
    have q1 := (exprAdvances (stepwise_le tokens) n).expression _ _ h1
    split at h
    · next x hx => injection h with h; subst h; exact match__fuelFree _ _ _ _ hx
    · next c1 hm =>
      obtain ⟨h2, h3⟩ := match__true hm
      exact ih.callArguments _ c1 (by omega) _ h
    · exact Except.noConfusion h

theorem primary_fuelFree (tokens : List Token) (n : Nat) (ih : ExprFuelFree tokens n) :
    ∀ c, 16 * (tokens.length - c) + 1 ≤ n + 1 → FuelFree (primary (n + 1) tokens c) := by
  intro c hb c' h
  rw [primary] at h
  split at h
  · next x hx => injection h with h; subst h; exact match__fuelFree _ _ _ _ hx
  · exact Except.noConfusion h
  · next c1 hm1 =>
    have e1 := match__false hm1
    split at h
    · next x hx => injection h with h; subst h; exact match__fuelFree _ _ _ _ hx
    · exact Except.noConfusion h
    · next c2 hm2 =>
      have e2 := match__false hm2
      split at h
      · next x hx => injection h with h; subst h; exact match__fuelFree _ _ _ _ hx
      · split at h
        · next x hx => injection h with h; subst h; exact previous_fuelFree _ _ _ hx
        · split at h
          · next x hx =>
            injection h with h
            injection h with h1 h2
            subst h1
            exact stoi_ne_outOfFuel _ hx
          · exact Except.noConfusion h
      · next c3 hm3 =>
        have e3 := match__false hm3
        split at h
        · next x hx => injection h with h; subst h; exact match__fuelFree _ _ _ _ hx
        · split at h
          · next x hx => injection h with h; subst h; exact previous_fuelFree _ _ _ hx
          · exact Except.noConfusion h
        · next c4 hm4 =>
          have e4 := match__false hm4
          split at h
          · next x hx => injection h with h; subst h; exact match__fuelFree _ _ _ _ hx
          · next c5 hm =>
            obtain ⟨h1, h2⟩ := match__true hm
            split at h
            · next x hx => injection h with h; subst h; exact ih.expression c5 (by omega) _ hx
            · split at h
              · next x hx => injection h with h; subst h; exact consume_fuelFree _ _ _ _ _ hx
              · exact Except.noConfusion h
          · split at h
            · next x hx => injection h with h; subst h; exact peek_fuelFree _ _ _ hx
            · injection h with h; injection h with h; exact Failure.noConfusion h

end Parser

namespace Parser

/-- No rule of the expression grammar runs out of fuel when the fuel is at
least 16 times the number of tokens left plus the depth of the rule. -/
theorem exprFuelFree (tokens : List Token) (fuel : Nat) : ExprFuelFree tokens fuel := by
  induction fuel with
  | zero => constructor <;> intros <;> omega
  | succ n ih =>
    have mono := exprAdvances (stepwise_le tokens) n
    have hexpr : ∀ c, 16 * (tokens.length - c) + 10 ≤ n + 1 →
        FuelFree (expression (n + 1) tokens c) := by
      intro c hb c' h
      rw [expression] at h
      exact ih.logicalOr c (by omega) _ h
    refine ⟨hexpr, ?_, ?_, ?_, ?_, ?_, ?_, ?_, ?_, ?_, ?_, ?_, ?_, unary_fuelFree tokens n ih, ?_,
      callLoop_fuelFree tokens n ih, callArguments_fuelFree tokens n ih,
      primary_fuelFree tokens n ih⟩
    · exact binaryRule_fuelFree tokens logicalOr logicalAnd logicalOrLoop n 8 (by omega)
        (fun c => logicalOr_succ n tokens c) ih.logicalAnd mono.logicalAnd ih.logicalOrLoop
    · intro e c hb
      rw [logicalOrLoop_eq]
      exact binaryLoop_fuelFree tokens _ _ n 8 (by omega) ih.logicalAnd mono.logicalAnd
        (fun e c hb => by rw [← logicalOrLoop_eq]; exact ih.logicalOrLoop e c hb) e c hb
    · exact binaryRule_fuelFree tokens logicalAnd equality logicalAndLoop n 7 (by omega)
        (fun c => logicalAnd_succ n tokens c) ih.equality mono.equality ih.logicalAndLoop
    · intro e c hb
      rw [logicalAndLoop_eq]
      exact binaryLoop_fuelFree tokens _ _ n 7 (by omega) ih.equality mono.equality
        (fun e c hb => by rw [← logicalAndLoop_eq]; exact ih.logicalAndLoop e c hb) e c hb
    · exact binaryRule_fuelFree tokens equality comparison equalityLoop n 6 (by omega)
        (fun c => equality_succ n tokens c) ih.comparison mono.comparison ih.equalityLoop
    · intro e c hb
      rw [equalityLoop_eq]
      exact binaryLoop_fuelFree tokens _ _ n 6 (by omega) ih.comparison mono.comparison
        (fun e c hb => by rw [← equalityLoop_eq]; exact ih.equalityLoop e c hb) e c hb
    · exact binaryRule_fuelFree tokens comparison term comparisonLoop n 5 (by omega)
        (fun c => comparison_succ n tokens c) ih.term mono.term ih.comparisonLoop
    · intro e c hb
      rw [comparisonLoop_eq]
      exact binaryLoop_fuelFree tokens _ _ n 5 (by omega) ih.term mono.term
        (fun e c hb => by rw [← comparisonLoop_eq]; exact ih.comparisonLoop e c hb) e c hb
    · exact binaryRule_fuelFree tokens term factor termLoop n 4 (by omega)
        (fun c => term_succ n tokens c) ih.factor mono.factor ih.termLoop
    · intro e c hb
      rw [termLoop_eq]
      exact binaryLoop_fuelFree tokens _ _ n 4 (by omega) ih.factor mono.factor
        (fun e c hb => by rw [← termLoop_eq]; exact ih.termLoop e c hb) e c hb
    · exact binaryRule_fuelFree tokens factor unary factorLoop n 3 (by omega)
        (fun c => factor_succ n tokens c) ih.unary mono.unary ih.factorLoop
    · intro e c hb
      rw [factorLoop_eq]
      exact binaryLoop_fuelFree tokens _ _ n 3 (by omega) ih.unary mono.unary
        (fun e c hb => by rw [← factorLoop_eq]; exact ih.factorLoop e c hb) e c hb
    · exact binaryRule_fuelFree tokens call primary callLoop n 1 (by omega)
        (fun c => call_succ n tokens c) ih.primary mono.primary ih.callLoop

end Parser

namespace Parser

/-- A successful `primary` consumes at least one token. -/
theorem primary_progress (tokens : List Token) (n c : Nat) (r : Expression × Nat)
    (h : primary n tokens c = Except.ok r) : c < r.2 := by
  have mono := exprAdvances (stepwise_le tokens)
  cases n with
  | zero => rw [primary] at h; exact Except.noConfusion h
  | succ n =>
    rw [primary] at h
    split at h
    · exact Except.noConfusion h
    · next c1 hm =>
      injection h with h; subst h
      have := match__true hm
      dsimp only; omega
    · next c1 hm1 =>
      have e1 := match__false hm1
      split at h
      · exact Except.noConfusion h
      · next c2 hm =>
        injection h with h; subst h
        have := match__true hm
        dsimp only; omega
      · next c2 hm2 =>
        have e2 := match__false hm2
        split at h
        · exact Except.noConfusion h
        · next c3 hm =>
          have := match__true hm
          split at h
          · exact Except.noConfusion h
          · split at h
            · exact Except.noConfusion h
            · injection h with h; subst h
              dsimp only; omega
        · next c3 hm3 =>
          have e3 := match__false hm3
          split at h
          · exact Except.noConfusion h
          · next c4 hm =>
            have := match__true hm
            split at h
            · exact Except.noConfusion h
            · injection h with h; subst h
              dsimp only; omega
          · next c4 hm4 =>
            have e4 := match__false hm4
            split at h
            · exact Except.noConfusion h
            · next c5 hm =>
              have := match__true hm
              split at h
              · exact Except.noConfusion h
              · next expr he =>
                have := (mono n).expression _ _ he
                split at h
                · exact Except.noConfusion h
                · next r1 hcons =>
                  have := consume_step hcons
                  injection h with h; subst h
                  dsimp only; omega
            · split at h
              · exact Except.noConfusion h
              · exact Except.noConfusion h

theorem binaryRule_progress (tokens : List Token)
    (f sub : Nat → List Token → Nat → Result Expression)
    (loop : Nat → List Token → Expression → Nat → Result Expression)
    (hf0 : ∀ c, f 0 tokens c = Except.error (Failure.outOfFuel, c))
    (hf : ∀ n c, f (n + 1) tokens c =
      match sub n tokens c with
      | Except.error e => Except.error e
      | Except.ok r => loop n tokens r.1 r.2)
    (hsub : ∀ n c r, sub n tokens c = Except.ok r → c < r.2)
    (hloop : ∀ n e c r, loop n tokens e c = Except.ok r → c ≤ r.2) :
    ∀ n c r, f n tokens c = Except.ok r → c < r.2 := by
  intro n c r h
  cases n with
  | zero => rw [hf0] at h; exact Except.noConfusion h
  | succ n =>
    rw [hf] at h
    split at h
    · exact Except.noConfusion h
    · next r1 h1 =>
      have := hsub _ _ _ h1
      have := hloop _ _ _ _ h
      omega

theorem call_progress (tokens : List Token) :
    ∀ n c r, call n tokens c = Except.ok r → c < r.2 :=
  binaryRule_progress tokens call primary callLoop (fun c => by rw [call])
    (fun n c => call_succ n tokens c) (primary_progress tokens)
    (fun n => (exprAdvances (stepwise_le tokens) n).callLoop)

theorem unary_progress (tokens : List Token) :
    ∀ n c r, unary n tokens c = Except.ok r → c < r.2 := by
  intro n c r h
  cases n with
  | zero => rw [unary] at h; exact Except.noConfusion h
  | succ n =>
    rw [unary] at h
    split at h
    · exact Except.noConfusion h
    · next c1 hm =>
      have := match__true hm
      split at h
      · exact Except.noConfusion h
      · split at h
        · exact Except.noConfusion h
        · next right hr =>
          have := (exprAdvances (stepwise_le tokens) n).unary _ _ hr
          injection h with h; subst h
          dsimp only; omega
    · next c1 hm =>
      have := match__false hm
      have := call_progress tokens _ _ _ h
      omega

theorem factor_progress (tokens : List Token) :
    ∀ n c r, factor n tokens c = Except.ok r → c < r.2 :=
  binaryRule_progress tokens factor unary factorLoop (fun c => by rw [factor])
    (fun n c => factor_succ n tokens c) (unary_progress tokens)
    (fun n => (exprAdvances (stepwise_le tokens) n).factorLoop)

theorem term_progress (tokens : List Token) :
    ∀ n c r, term n tokens c = Except.ok r → c < r.2 :=
  binaryRule_progress tokens term factor termLoop (fun c => by rw [term])
    (fun n c => term_succ n tokens c) (factor_progress tokens)
    (fun n => (exprAdvances (stepwise_le tokens) n).termLoop)

theorem comparison_progress (tokens : List Token) :
    ∀ n c r, comparison n tokens c = Except.ok r → c < r.2 :=
  binaryRule_progress tokens comparison term comparisonLoop (fun c => by rw [comparison])
    (fun n c => comparison_succ n tokens c) (term_progress tokens)
    (fun n => (exprAdvances (stepwise_le tokens) n).comparisonLoop)

theorem equality_progress (tokens : List Token) :
    ∀ n c r, equality n tokens c = Except.ok r → c < r.2 :=
  binaryRule_progress tokens equality comparison equalityLoop (fun c => by rw [equality])
    (fun n c => equality_succ n tokens c) (comparison_progress tokens)
    (fun n => (exprAdvances (stepwise_le tokens) n).equalityLoop)

theorem logicalAnd_progress (tokens : List Token) :
    ∀ n c r, logicalAnd n tokens c = Except.ok r → c < r.2 :=
  binaryRule_progress tokens logicalAnd equality logicalAndLoop (fun c => by rw [logicalAnd])
    (fun n c => logicalAnd_succ n tokens c) (equality_progress tokens)
    (fun n => (exprAdvances (stepwise_le tokens) n).logicalAndLoop)

theorem logicalOr_progress (tokens : List Token) :
    ∀ n c r, logicalOr n tokens c = Except.ok r → c < r.2 :=
  binaryRule_progress tokens logicalOr logicalAnd logicalOrLoop (fun c => by rw [logicalOr])
    (fun n c => logicalOr_succ n tokens c) (logicalAnd_progress tokens)
    (fun n => (exprAdvances (stepwise_le tokens) n).logicalOrLoop)

/-- A successful `expression` consumes at least one token. -/
theorem expression_progress (tokens : List Token) :
    ∀ n c r, expression n tokens c = Except.ok r → c < r.2 := by
  intro n c r h
  cases n with
  | zero => rw [expression] at h; exact Except.noConfusion h
  | succ n =>
    rw [expression] at h
    exact logicalOr_progress tokens _ _ _ h

/-- A successful `statement` consumes at least one token. -/
theorem statement_progress (tokens : List Token) :
    ∀ n c r, statement n tokens c = Except.ok r → c < r.2 := by
  intro n c r h
  have le := stepwise_le tokens
  cases n with
  | zero => rw [statement] at h; exact Except.noConfusion h
  | succ n =>
    have sm := stmtAdvances le n
    rw [statement] at h
    split at h
    · exact Except.noConfusion h
    · next c1 hm =>
      have := match__true hm
      have := varDeclaration_advances le n _ _ h
      omega
    · next c1 hm1 =>
      have e1 := match__false hm1
      split at h
      · exact Except.noConfusion h
      · next c2 hm =>
        have := match__true hm
        have := sm.ifStatement _ _ h
        omega
      · next c2 hm2 =>
        have e2 := match__false hm2
        split at h
        · exact Except.noConfusion h
        · next c3 hm =>
          have := match__true hm
          have := sm.whileStatement _ _ h
          omega
        · next c3 hm3 =>
          have e3 := match__false hm3
          split at h
          · exact Except.noConfusion h
          · next c4 hm =>
            have := match__true hm
            have := sm.functionDeclaration _ _ h
            omega
          · next c4 hm4 =>
            have e4 := match__false hm4
            split at h
            · exact Except.noConfusion h
            · next c5 hm =>
              have := match__true hm
              have := returnStatement_advances le n _ _ h
              omega
            · next c5 hm5 =>
              have e5 := match__false hm5
              split at h
              · exact Except.noConfusion h
              · next c6 hm =>
                have := match__true hm
                split at h
                · exact Except.noConfusion h
                · next r1 hb =>
                  have := sm.block _ _ hb
                  injection h with h; subst h
                  dsimp only; omega
              · next c6 hm6 =>
                have e6 := match__false hm6
                have hes : ∀ r, expressionStatement n tokens c6 = Except.ok r → c6 < r.2 := by
                  intro r hr
                  unfold expressionStatement at hr
                  split at hr
                  · exact Except.noConfusion hr
                  · next expr he =>
                    have := expression_progress tokens _ _ _ he
                    split at hr
                    · exact Except.noConfusion hr
                    · next r1 hc =>
                      have := consume_step hc
                      injection hr with hr; subst hr
                      dsimp only; omega
                split at h
                · exact Except.noConfusion h
                · have := hes _ h
                  omega
                · dsimp only at h
                  split at h
                  · exact Except.noConfusion h
                  · split at h
                    · exact Except.noConfusion h
                    · have : c6 < r.2 := by
                        unfold assignment at h
                        split at h
                        · exact Except.noConfusion h
                        · next name hn =>
                          have := consume_step hn
                          split at h
                          · exact Except.noConfusion h
                          · next eq he =>
                            have := consume_step he
                            split at h
                            · exact Except.noConfusion h
                            · next value hv =>
                              have := (exprAdvances le n).expression _ _ hv
                              split at h
                              · exact Except.noConfusion h
                              · next r1 hc =>
                                have := consume_step hc
                                injection h with h; subst h
                                dsimp only; omega
                      omega
                    · have := hes _ h
                      omega

end Parser

namespace Parser

theorem varDeclaration_fuelFree (tokens : List Token) (n c : Nat)
    (hb : 16 * (tokens.length - c) + 10 ≤ n) : FuelFree (varDeclaration n tokens c) := by
  intro c' h
  unfold varDeclaration at h
  split at h
  · next x hx => injection h with h; subst h; exact consume_fuelFree _ _ _ _ _ hx
  · next name hn =>
    have := consume_step hn
    split at h
    · next x hx => injection h with h; subst h; exact match__fuelFree _ _ _ _ hx
    · next m hm =>
      have := match__advances (stepwise_le tokens) (by decide) hm
      split at h
      · next x hx =>
        injection h with h; subst h
        split at hx
        · split at hx
          · next y hy =>
            injection hx with hx; subst hx
            exact (exprFuelFree tokens n).expression _ (by omega) _ hy
          · exact Except.noConfusion hx
        · exact Except.noConfusion hx
      · split at h
        · next x hx => injection h with h; subst h; exact consume_fuelFree _ _ _ _ _ hx
        · exact Except.noConfusion h

theorem assignment_fuelFree (tokens : List Token) (n c : Nat)
    (hb : 16 * (tokens.length - c) + 10 ≤ n) : FuelFree (assignment n tokens c) := by
  intro c' h
  unfold assignment at h
  split at h
  · next x hx => injection h with h; subst h; exact consume_fuelFree _ _ _ _ _ hx
  · next name hn =>
    have := consume_step hn
    split at h
    · next x hx => injection h with h; subst h; exact consume_fuelFree _ _ _ _ _ hx
    · next eq he =>
      have := consume_step he
      split at h
      · next x hx =>
        injection h with h; subst h
        exact (exprFuelFree tokens n).expression _ (by omega) _ hx
      · split at h
        · next x hx => injection h with h; subst h; exact consume_fuelFree _ _ _ _ _ hx
        · exact Except.noConfusion h

theorem returnStatement_fuelFree (tokens : List Token) (n c : Nat)
    (hb : 16 * (tokens.length - c) + 10 ≤ n) : FuelFree (returnStatement n tokens c) := by
  intro c' h
  unfold returnStatement at h
  split at h
  · next x hx => injection h with h; subst h; exact check_fuelFree _ _ _ _ hx
  · split at h
    · next x hx =>
      injection h with h; subst h
      split at hx
      · split at hx
        · next y hy =>
          injection hx with hx; subst hx
          exact (exprFuelFree tokens n).expression _ (by omega) _ hy
        · exact Except.noConfusion hx
      · exact Except.noConfusion hx
    · split at h
      · next x hx => injection h with h; subst h; exact consume_fuelFree _ _ _ _ _ hx
      · exact Except.noConfusion h

theorem expressionStatement_fuelFree (tokens : List Token) (n c : Nat)
    (hb : 16 * (tokens.length - c) + 10 ≤ n) : FuelFree (expressionStatement n tokens c) := by
  intro c' h
  unfold expressionStatement at h
  split at h
  · next x hx =>
    injection h with h; subst h
    exact (exprFuelFree tokens n).expression _ (by omega) _ hx
  · split at h
    · next x hx => injection h with h; subst h; exact consume_fuelFree _ _ _ _ _ hx
    · exact Except.noConfusion h

theorem parameterLoop_fuelFree (tokens : List Token) (n : Nat) :
    ∀ p c, 16 * (tokens.length - c) + 1 ≤ n → FuelFree (parameterLoop n tokens p c) := by
  induction n with
  | zero => intro p c hb; omega
  | succ n ih =>
    intro p c hb c' h
    rw [parameterLoop] at h
    split at h
    · next x hx => injection h with h; subst h; exact consume_fuelFree _ _ _ _ _ hx
    · next param hp =>
      have := consume_step hp
      split at h
      · next x hx => injection h with h; subst h; exact match__fuelFree _ _ _ _ hx
      · next c1 hm =>
        have := match__true hm
        exact ih _ c1 (by omega) _ h
      · exact Except.noConfusion h

theorem statement_fuelFree (tokens : List Token) (n : Nat) (ih : StmtFuelFree tokens n) :
    ∀ c, 16 * (tokens.length - c) + 11 ≤ n + 1 → FuelFree (statement (n + 1) tokens c) := by
  intro c hb c' h
  rw [statement] at h
  split at h
  · next x hx => injection h with h; subst h; exact match__fuelFree _ _ _ _ hx
  · next c1 hm =>
    have := match__true hm
    exact varDeclaration_fuelFree tokens n c1 (by omega) _ h
  · next c1 hm1 =>
    have e1 := match__false hm1
    split at h
    · next x hx => injection h with h; subst h; exact match__fuelFree _ _ _ _ hx
    · next c2 hm =>
      have := match__true hm
      exact ih.ifStatement c2 (by omega) _ h
    · next c2 hm2 =>
      have e2 := match__false hm2
      split at h
      · next x hx => injection h with h; subst h; exact match__fuelFree _ _ _ _ hx
      · next c3 hm =>
        have := match__true hm
        exact ih.whileStatement c3 (by omega) _ h
      · next c3 hm3 =>
        have e3 := match__false hm3
        split at h
        · next x hx => injection h with h; subst h; exact match__fuelFree _ _ _ _ hx
        · next c4 hm =>
          have := match__true hm
          exact ih.functionDeclaration c4 (by omega) _ h
        · next c4 hm4 =>
          have e4 := match__false hm4
          split at h
          · next x hx => injection h with h; subst h; exact match__fuelFree _ _ _ _ hx
          · next c5 hm =>
            have := match__true hm
            exact returnStatement_fuelFree tokens n c5 (by omega) _ h
          · next c5 hm5 =>
            have e5 := match__false hm5
            split at h
            · next x hx => injection h with h; subst h; exact match__fuelFree _ _ _ _ hx
            · next c6 hm =>
              have := match__true hm
              split at h
              · next x hx =>
                injection h with h; subst h
                exact ih.block c6 (by omega) _ hx
              · exact Except.noConfusion h
            · next c6 hm6 =>
              have e6 := match__false hm6
              split at h
              · next x hx => injection h with h; subst h; exact check_fuelFree _ _ _ _ hx
              · exact expressionStatement_fuelFree tokens n c6 (by omega) _ h
              · dsimp only at h
                split at h
                · next x hx => injection h with h; subst h; exact advance_fuelFree _ _ _ hx
                · split at h
                  · next x hx => injection h with h; subst h; exact check_fuelFree _ _ _ _ hx
                  · exact assignment_fuelFree tokens n c6 (by omega) _ h
                  · exact expressionStatement_fuelFree tokens n c6 (by omega) _ h

theorem ifStatement_fuelFree (tokens : List Token) (n : Nat) (ih : StmtFuelFree tokens n) :
    ∀ c, 16 * (tokens.length - c) + 1 ≤ n + 1 → FuelFree (ifStatement (n + 1) tokens c) := by
  intro c hb c' h
  have le := stepwise_le tokens
  rw [ifStatement] at h
  split at h
  · next x hx => injection h with h; subst h; exact consume_fuelFree _ _ _ _ _ hx
  · next l hl =>
    have := consume_step hl
    split at h
    · next x hx =>
      injection h with h; subst h
      exact (exprFuelFree tokens n).expression _ (by omega) _ hx
    · next condition hc =>
      have := (exprAdvances le n).expression _ _ hc
      split at h
      · next x hx => injection h with h; subst h; exact consume_fuelFree _ _ _ _ _ hx
      · next r1 hr =>
        have := consume_step hr
        split at h
        · next x hx =>
          injection h with h; subst h
          exact ih.statement _ (by omega) _ hx
        · next thenBranch ht =>
          have := (stmtAdvances le n).statement _ _ ht
          split at h
          · next x hx => injection h with h; subst h; exact match__fuelFree _ _ _ _ hx
          · next c1 hm =>
            have := match__true hm
            split at h
            · next x hx =>
              injection h with h; subst h
              exact ih.statement c1 (by omega) _ hx
            · exact Except.noConfusion h
          · exact Except.noConfusion h

theorem whileStatement_fuelFree (tokens : List Token) (n : Nat) (ih : StmtFuelFree tokens n) :
    ∀ c, 16 * (tokens.length - c) + 1 ≤ n + 1 → FuelFree (whileStatement (n + 1) tokens c) := by
  intro c hb c' h
  have le := stepwise_le tokens
  rw [whileStatement] at h
  split at h
  · next x hx => injection h with h; subst h; exact consume_fuelFree _ _ _ _ _ hx
  · next l hl =>
    have := consume_step hl
    split at h
    · next x hx =>
      injection h with h; subst h
      exact (exprFuelFree tokens n).expression _ (by omega) _ hx
    · next condition hc =>
      have := (exprAdvances le n).expression _ _ hc
      split at h
      · next x hx => injection h with h; subst h; exact consume_fuelFree _ _ _ _ _ hx
      · next r1 hr =>
        have := consume_step hr
        split at h
        · next x hx =>
          injection h with h; subst h
          exact ih.statement _ (by omega) _ hx
        · exact Except.noConfusion h

theorem functionDeclaration_fuelFree (tokens : List Token) (n : Nat)
    (ih : StmtFuelFree tokens n) :
    ∀ c, 16 * (tokens.length - c) + 1 ≤ n + 1 →
      FuelFree (functionDeclaration (n + 1) tokens c) := by
  intro c hb c' h
  have le := stepwise_le tokens
  rw [functionDeclaration] at h
  split at h
  · next x hx => injection h with h; subst h; exact consume_fuelFree _ _ _ _ _ hx
  · next name hn =>
    have := consume_step hn
    split at h
    · next x hx => injection h with h; subst h; exact consume_fuelFree _ _ _ _ _ hx
    · next l hl =>
      have := consume_step hl
      split at h
      · next x hx => injection h with h; subst h; exact check_fuelFree _ _ _ _ hx
      · next closing hc =>
        split at h
        · next x hx =>
          injection h with h; subst h
          split at hx
          · exact parameterLoop_fuelFree tokens n _ _ (by omega) _ hx
          · exact Except.noConfusion hx
        · next parameters hp =>
          have q3 : l.2 ≤ parameters.2 := by
            split at hp
            · exact parameterLoop_advances le n _ _ _ hp
            · injection hp with hp
              subst hp
              exact Nat.le_refl _
          split at h
          · next x hx => injection h with h; subst h; exact consume_fuelFree _ _ _ _ _ hx
          · next r1 hr =>
            have := consume_step hr
            split at h
            · next x hx => injection h with h; subst h; exact consume_fuelFree _ _ _ _ _ hx
            · next b hb' =>
              have := consume_step hb'
              split at h
              · next x hx =>
                injection h with h; subst h
                exact ih.block _ (by omega) _ hx
              · exact Except.noConfusion h

theorem block_fuelFree (tokens : List Token) (n : Nat) (ih : StmtFuelFree tokens n) :
    ∀ c, 16 * (tokens.length - c) + 13 ≤ n + 1 → FuelFree (block (n + 1) tokens c) := by
  intro c hb c' h
  rw [block] at h
  split at h
  · next x hx =>
    injection h with h; subst h
    exact ih.blockLoop _ c (by omega) _ hx
  · split at h
    · next x hx => injection h with h; subst h; exact consume_fuelFree _ _ _ _ _ hx
    · exact Except.noConfusion h

theorem blockLoop_fuelFree (tokens : List Token) (n : Nat) (ih : StmtFuelFree tokens n) :
    ∀ s c, 16 * (tokens.length - c) + 12 ≤ n + 1 → FuelFree (blockLoop (n + 1) tokens s c) := by
  intro s c hb c' h
  rw [blockLoop] at h
  split at h
  · next x hx => injection h with h; subst h; exact check_fuelFree _ _ _ _ hx
  · exact Except.noConfusion h
  · next hck =>
    obtain ⟨t, ht, -⟩ := check_ok hck
    have := lt_length_of_getElem? ht
    split at h
    · next x hx => injection h with h; subst h; exact isAtEnd_fuelFree _ _ _ hx
    · exact Except.noConfusion h
    · split at h
      · next x hx =>
        injection h with h; subst h
        exact ih.statement c (by omega) _ hx
      · next r1 hs =>
        have := statement_progress tokens _ _ _ hs
        exact ih.blockLoop _ _ (by omega) _ h

/-- No rule of the statement grammar runs out of fuel when the fuel is at
least 16 times the number of tokens left plus the depth of the rule. -/
theorem stmtFuelFree (tokens : List Token) (fuel : Nat) : StmtFuelFree tokens fuel := by
  induction fuel with
  | zero => constructor <;> intros <;> omega
  | succ n ih =>
    exact ⟨statement_fuelFree tokens n ih, ifStatement_fuelFree tokens n ih,
      whileStatement_fuelFree tokens n ih, functionDeclaration_fuelFree tokens n ih,
      block_fuelFree tokens n ih, blockLoop_fuelFree tokens n ih⟩

theorem recoverLoop_fuelFree (tokens : List Token) (n : Nat) :
    ∀ c, tokens.length - c + 1 ≤ n → FuelFree (recoverLoop n tokens c) := by
  induction n with
  | zero => intro c hb; omega
  | succ n ih =>
    intro c hb c' h
    rw [recoverLoop] at h
    split at h
    · next x hx => injection h with h; subst h; exact isAtEnd_fuelFree _ _ _ hx
    · exact Except.noConfusion h
    · next hend =>
      obtain ⟨t, ht, hb'⟩ := isAtEnd_ok hend
      have hlt := lt_length_of_getElem? ht
      have hne : t.type ≠ TokenType.END_OF_FILE := by
        intro he; rw [he] at hb'; exact Bool.noConfusion hb'
      split at h
      · next x hx => injection h with h; subst h; exact peek_fuelFree _ _ _ hx
      · split at h
        · split at h
          · next x hx => injection h with h; subst h; exact advance_fuelFree _ _ _ hx
          · next a ha =>
            rw [advance_step ht hne] at ha
            injection ha with ha
            subst ha
            exact ih _ (by dsimp only; omega) _ h
        · exact Except.noConfusion h

/-- The failure that the `catch` block of `parse` lets escape is not "out of fuel". -/
theorem recover_ne_outOfFuel (tokens : List Token) (message : String) (c : Nat) :
    (recover tokens (Failure.ParseError message) c).1 ≠ Failure.outOfFuel := by
  unfold recover
  split
  · next x hx =>
    intro hf
    exact recoverLoop_fuelFree tokens _ c (Nat.le_refl _) x.2 (by rw [hx, ← hf])
  · split
    · next x hx =>
      intro hf
      exact isAtEnd_fuelFree tokens _ x.2 (by rw [hx, ← hf])
    · exact fun hf => Failure.noConfusion hf
    · split
      · next x hx =>
        intro hf
        exact advance_fuelFree tokens _ x.2 (by rw [hx, ← hf])
      · exact fun hf => Failure.noConfusion hf

/-- The loop of `parse` does not run out of fuel when the fuel is at least 16
times the number of tokens left plus 12. -/
theorem parseLoop_fuelFree (tokens : List Token) (n : Nat) :
    ∀ s c, 16 * (tokens.length - c) + 12 ≤ n → FuelFree (parseLoop n tokens s c) := by
  induction n with
  | zero => intro s c hb; omega
  | succ n ih =>
    intro s c hb c' h
    rw [parseLoop] at h
    split at h
    · next x hx => injection h with h; subst h; exact isAtEnd_fuelFree _ _ _ hx
    · exact Except.noConfusion h
    · next hend =>
      obtain ⟨t, ht, -⟩ := isAtEnd_ok hend
      have := lt_length_of_getElem? ht
      split at h
      · next r1 hs =>
        have := statement_progress tokens _ _ _ hs
        exact ih _ _ (by omega) _ h
      · next message c1 hs =>
        injection h with h
        exact recover_ne_outOfFuel tokens message c1 (by rw [h])
      · next x hne hx =>
        injection h with h; subst h
        exact (stmtFuelFree tokens n).statement c (by omega) _ hx

/-- The fuel `parse` runs on is enough: `parse` never fails for lack of fuel. -/
theorem parse_ne_outOfFuel (tokens : List Token) :
    parse tokens ≠ Except.error Failure.outOfFuel := by
  intro h
  unfold parse at h
  split at h
  · exact Except.noConfusion h
  · next e he =>
    injection h with h
    refine parseLoop_fuelFree tokens (parseFuel tokens) [] 0 ?_ e.2 ?_
    · unfold parseFuel; omega
    · rw [he, ← h]

end Parser

namespace Parser

theorem peek_error {tokens : List Token} {c : Nat} {e : Failure × Nat}
    (h : peek tokens c = Except.error e) : tokens[c]? = none ∧ e = (Failure.outOfBounds, c) := by
  unfold peek at h
  split at h
  · exact Except.noConfusion h
  · next hn => injection h with h; exact ⟨hn, h.symm⟩

theorem isAtEnd_error {tokens : List Token} {c : Nat} {e : Failure × Nat}
    (h : isAtEnd tokens c = Except.error e) :
    tokens[c]? = none ∧ e = (Failure.outOfBounds, c) := by
  unfold isAtEnd at h
  split at h
  · exact Except.noConfusion h
  · next e' he => injection h with h; subst h; exact peek_error he

theorem check_error {tokens : List Token} {c : Nat} {type : TokenType} {e : Failure × Nat}
    (h : check tokens c type = Except.error e) :
    tokens[c]? = none ∧ e = (Failure.outOfBounds, c) := by
  cases hp : tokens[c]? with
  | none =>
    refine ⟨rfl, ?_⟩
    simp [check, isAtEnd, peek, hp] at h
    exact h.symm
  | some t => rw [check_eq hp] at h; exact Except.noConfusion h

theorem match__error {tokens : List Token} {c : Nat} {types : List TokenType} {e : Failure × Nat}
    (h : match_ tokens c types = Except.error e) :
    tokens[c]? = none ∧ e = (Failure.outOfBounds, c) := by
  cases hp : tokens[c]? with
  | none =>
    refine ⟨rfl, ?_⟩
    cases types with
    | nil => simp [match_] at h
    | cons ty tys =>
      simp [match_, check, isAtEnd, peek, hp] at h
      exact h.symm
  | some t =>
    by_cases he : t.type = TokenType.END_OF_FILE
    · rw [match__eof hp he] at h; exact Except.noConfusion h
    · rw [match__eq hp he] at h; exact Except.noConfusion h

theorem consume_error {tokens : List Token} {c : Nat} {type : TokenType} {message : String}
    {e : Failure × Nat} (h : consume tokens c type message = Except.error e) :
    (tokens[c]? = none ∧ e = (Failure.outOfBounds, c)) ∨
      ∃ t, tokens[c]? = some t ∧ e = (Failure.ParseError (consumeMessage t message), c) := by
  cases hp : tokens[c]? with
  | none =>
    left
    refine ⟨rfl, ?_⟩
    simp [consume, check, isAtEnd, peek, hp] at h
    exact h.symm
  | some t =>
    right
    refine ⟨t, rfl, ?_⟩
    unfold consume at h
    rw [check_eq hp] at h
    by_cases hc : t.type ≠ TokenType.END_OF_FILE ∧ t.type = type
    · rw [decide_eq_true hc] at h
      dsimp only at h
      rw [advance_step hp hc.1] at h
      exact Except.noConfusion h
    · rw [decide_eq_false hc] at h
      dsimp only at h
      rw [peek_eq hp] at h
      injection h with h
      exact h.symm

section traced

variable {tokens : List Token} {P : Nat → Except (Failure × Nat) Nat → Prop}
  (hP : Traced tokens P)
include hP

theorem peek_traced {c : Nat} {e : Failure × Nat} (h : peek tokens c = Except.error e) :
    P c (Except.error e) := by
  obtain ⟨hn, rfl⟩ := peek_error h
  exact hP.missing c hn

theorem isAtEnd_traced {c : Nat} {e : Failure × Nat} (h : isAtEnd tokens c = Except.error e) :
    P c (Except.error e) := by
  obtain ⟨hn, rfl⟩ := isAtEnd_error h
  exact hP.missing c hn

theorem check_traced {c : Nat} {type : TokenType} {e : Failure × Nat}
    (h : check tokens c type = Except.error e) : P c (Except.error e) := by
  obtain ⟨hn, rfl⟩ := check_error h
  exact hP.missing c hn

theorem match__traced (c : Nat) (types : List TokenType) (hU : TokenType.UNKNOWN ∉ types) :
    P c (outcome (match_ tokens c types)) := by
  cases h : match_ tokens c types with
  | error e =>
    obtain ⟨hn, rfl⟩ := match__error h
    exact hP.missing c hn
  | ok r =>
    rcases match__ok h with ⟨-, t, ht, hm, he, hr⟩ | ⟨-, hr⟩
    · show P c (Except.ok r.2)
      rw [hr]
      exact hP.step c t ht he (fun hu => hU (hu ▸ hm))
    · show P c (Except.ok r.2)
      rw [hr]
      exact hP.stay c

theorem match__traced_ok {c : Nat} {types : List TokenType} {r : Bool × Nat}
    (hU : TokenType.UNKNOWN ∉ types) (h : match_ tokens c types = Except.ok r) :
    P c (Except.ok r.2) := by
  have := match__traced hP c types hU
  rw [h] at this
  exact this

theorem match__traced_error {c : Nat} {types : List TokenType} {e : Failure × Nat}
    (h : match_ tokens c types = Except.error e) : P c (Except.error e) := by
  obtain ⟨hn, rfl⟩ := match__error h
  exact hP.missing c hn

theorem consume_traced (c : Nat) (type : TokenType) (message : String)
    (hU : type ≠ TokenType.UNKNOWN) : P c (outcome (consume tokens c type message)) := by
  cases h : consume tokens c type message with
  | error e =>
    rcases consume_error h with ⟨hn, rfl⟩ | ⟨t, ht, rfl⟩
    · exact hP.missing c hn
    · exact hP.expected c t message ht
  | ok r =>
    obtain ⟨ht, hty, he, hr⟩ := consume_ok h
    show P c (Except.ok r.2)
    rw [hr]
    exact hP.step c _ ht he (fun hu => hU (hty ▸ hu))

theorem consume_traced_ok {c : Nat} {type : TokenType} {message : String} {r : Token × Nat}
    (hU : type ≠ TokenType.UNKNOWN) (h : consume tokens c type message = Except.ok r) :
    P c (Except.ok r.2) := by
  have := consume_traced hP c type message hU
  rw [h] at this
  exact this

theorem consume_traced_error {c : Nat} {type : TokenType} {message : String} {e : Failure × Nat}
    (hU : type ≠ TokenType.UNKNOWN) (h : consume tokens c type message = Except.error e) :
    P c (Except.error e) := by
  have := consume_traced hP c type message hU
  rw [h] at this
  exact this

end traced

/-- After a successful `match` that consumed a token, `previous` returns it. -/
theorem previous_after_match {tokens : List Token} {c c1 : Nat} {types : List TokenType}
    (h : match_ tokens c types = Except.ok (true, c1)) :
    ∃ t, tokens[c]? = some t ∧ t.type ∈ types ∧ c1 = c + 1 ∧
      previous tokens c1 = Except.ok t := by
  rcases match__ok h with ⟨-, t, ht, hm, -, hr⟩ | ⟨hf, -⟩
  · have hr' : c1 = c + 1 := hr
    exact ⟨t, ht, hm, hr', by rw [hr']; exact previous_eq ht⟩
  · exact Bool.noConfusion hf

end Parser

namespace Parser

section traced

variable {tokens : List Token} {P : Nat → Except (Failure × Nat) Nat → Prop}
  (hP : Traced tokens P)
include hP

theorem binaryLoop_traced (sub : Nat → List Token → Nat → Result Expression)
    (ops : List TokenType) (hU : TokenType.UNKNOWN ∉ ops) (n : Nat)
    (hsub : ∀ c, P c (outcome (sub n tokens c)))
    (hloop : ∀ e c, P c (outcome (binaryLoop sub ops n tokens e c))) :
    ∀ e c, P c (outcome (binaryLoop sub ops (n + 1) tokens e c)) := by
  intro e c
  generalize hr : binaryLoop sub ops (n + 1) tokens e c = r
  rw [binaryLoop] at hr
  split at hr
  · next x hx => subst hr; exact match__traced_error hP hx
  · next c1 hm => subst hr; exact match__traced_ok hP hU hm
  · next c1 hm =>
    have q1 := match__traced_ok hP hU hm
    obtain ⟨t, -, -, -, hprev⟩ := previous_after_match hm
    rw [hprev] at hr
    dsimp only at hr
    split at hr
    · next x hx =>
      subst hr
      have := hsub c1
      rw [hx] at this
      exact hP.seq _ _ _ q1 this
    · next right hright =>
      subst hr
      have q2 := hsub c1
      rw [hright] at q2
      exact hP.seq _ _ _ q1 (hP.seq _ _ _ q2 (hloop _ _))

theorem binaryRule_traced (f sub : Nat → List Token → Nat → Result Expression)
    (loop : Nat → List Token → Expression → Nat → Result Expression) (n : Nat)
    (hf : ∀ c, f (n + 1) tokens c =
      match sub n tokens c with
      | Except.error e => Except.error e
      | Except.ok r => loop n tokens r.1 r.2)
    (hsub : ∀ c, P c (outcome (sub n tokens c)))
    (hloop : ∀ e c, P c (outcome (loop n tokens e c))) :
    ∀ c, P c (outcome (f (n + 1) tokens c)) := by
  intro c
  rw [hf]
  have q := hsub c
  split
  · next x hx => rw [hx] at q; exact q
  · next r hr => rw [hr] at q; exact hP.seq _ _ _ q (hloop _ _)

theorem unary_traced (n : Nat) (ih : ExprTraced tokens P n) :
    ∀ c, P c (outcome (unary (n + 1) tokens c)) := by
  intro c
  generalize hr : unary (n + 1) tokens c = r
  rw [unary] at hr
  split at hr
  · next x hx => subst hr; exact match__traced_error hP hx
  · next c1 hm =>
    have q1 := match__traced_ok hP (by decide) hm
    obtain ⟨t, -, -, -, hprev⟩ := previous_after_match hm
    rw [hprev] at hr
    dsimp only at hr
    have q2 := ih.unary c1
    split at hr
    · next x hx => subst hr; rw [hx] at q2; exact hP.seq _ _ _ q1 q2
    · next right hright => subst hr; rw [hright] at q2; exact hP.seq _ _ _ q1 q2
  · next c1 hm =>
    have q1 := match__traced_ok hP (by decide) hm
    subst hr
    exact hP.seq _ _ _ q1 (ih.call c1)

theorem callLoop_traced (n : Nat) (ih : ExprTraced tokens P n) :
    ∀ e c, P c (outcome (callLoop (n + 1) tokens e c)) := by
  intro e c
  generalize hr : callLoop (n + 1) tokens e c = r
  rw [callLoop] at hr
  split at hr
  · next x hx => subst hr; exact match__traced_error hP hx
  · next c1 hm => subst hr; exact match__traced_ok hP (by decide) hm
  · next c1 hm =>
    have q1 := match__traced_ok hP (by decide) hm
    obtain ⟨t, ht, hty, hc1, -⟩ := previous_after_match hm
    split at hr
    · split at hr
      · next x hx => subst hr; exact hP.seq _ _ _ q1 (check_traced hP hx)
      · next closing hc =>
        split at hr
        · next x hx =>
          subst hr
          split at hx
          · have q2 := ih.callArguments [] c1
            rw [hx] at q2
            exact hP.seq _ _ _ q1 q2
          · exact Except.noConfusion hx
        · next arguments ha =>
          have q2 : P c1 (Except.ok arguments.2) := by
            split at ha
            · have q := ih.callArguments [] c1
              rw [ha] at q
              exact q
            · injection ha with ha
              subst ha
              exact hP.stay _
          split at hr
          · next x hx =>
            subst hr
            exact hP.seq _ _ _ q1 (hP.seq _ _ _ q2 (consume_traced_error hP (by decide) hx))
          · next r1 hcons =>
            subst hr
            exact hP.seq _ _ _ q1 (hP.seq _ _ _ q2
              (hP.seq _ _ _ (consume_traced_ok hP (by decide) hcons) (ih.callLoop _ _)))
    · subst hr
      have hlp : t.type = TokenType.LEFT_PAREN := by simpa using hty
      have := hP.callee c t ht hlp
      rw [← hc1] at this
      exact hP.seq _ _ _ q1 this

theorem callArguments_traced (n : Nat) (ih : ExprTraced tokens P n) :
    ∀ a c, P c (outcome (callArguments (n + 1) tokens a c)) := by
  intro a c
  generalize hr : callArguments (n + 1) tokens a c = r
  rw [callArguments] at hr
  have q1 := ih.expression c
  split at hr
  · next x hx => subst hr; rw [hx] at q1; exact q1
  · next r1 h1 =>
    rw [h1] at q1
    split at hr
    · next x hx => subst hr; exact hP.seq _ _ _ q1 (match__traced_error hP hx)
    · next c1 hm =>
      subst hr
      exact hP.seq _ _ _ q1 (hP.seq _ _ _ (match__traced_ok hP (by decide) hm)
        (ih.callArguments _ _))
    · next c1 hm =>
      subst hr
      exact hP.seq _ _ _ q1 (match__traced_ok hP (by decide) hm)

theorem primary_traced (n : Nat) (ih : ExprTraced tokens P n) :
    ∀ c, P c (outcome (primary (n + 1) tokens c)) := by
  intro c
  generalize hr : primary (n + 1) tokens c = r
  rw [primary] at hr
  split at hr
  · next x hx => subst hr; exact match__traced_error hP hx
  · next c1 hm => subst hr; exact match__traced_ok hP (by decide) hm
  · next c1 hm1 =>
    have e1 := match__false hm1
    subst e1
    split at hr
    · next x hx => subst hr; exact match__traced_error hP hx
    · next c2 hm => subst hr; exact match__traced_ok hP (by decide) hm
    · next c2 hm2 =>
      have e2 := match__false hm2
      subst e2
      split at hr
      · next x hx => subst hr; exact match__traced_error hP hx
      · next c3 hm =>
        have q1 := match__traced_ok hP (by decide) hm
        obtain ⟨t, ht, hty, hc3, hprev⟩ := previous_after_match hm
        rw [hprev] at hr
        dsimp only at hr
        split at hr
        · next x hx =>
          subst hr
          have hnum : t.type = TokenType.NUMBER := by simpa using hty
          have := hP.number _ t x ht hnum hx
          rw [← hc3] at this
          exact hP.seq _ _ _ q1 this
        · subst hr; exact q1
      · next c3 hm3 =>
        have e3 := match__false hm3
        subst e3
        split at hr
        · next x hx => subst hr; exact match__traced_error hP hx
        · next c4 hm =>
          have q1 := match__traced_ok hP (by decide) hm
          obtain ⟨t, ht, hty, hc4, hprev⟩ := previous_after_match hm
          rw [hprev] at hr
          dsimp only at hr
          subst hr
          exact q1
        · next c4 hm4 =>
          have e4 := match__false hm4
          subst e4
          split at hr
          · next x hx => subst hr; exact match__traced_error hP hx
          · next c5 hm =>
            have q1 := match__traced_ok hP (by decide) hm
            have q2 := ih.expression c5
            split at hr
            · next x hx => subst hr; rw [hx] at q2; exact hP.seq _ _ _ q1 q2
            · next expr hexpr =>
              rw [hexpr] at q2
              split at hr
              · next x hx =>
                subst hr
                exact hP.seq _ _ _ q1 (hP.seq _ _ _ q2 (consume_traced_error hP (by decide) hx))
              · next r1 hcons =>
                subst hr
                exact hP.seq _ _ _ q1 (hP.seq _ _ _ q2 (consume_traced_ok hP (by decide) hcons))
          · next c5 hm5 =>
            have e5 := match__false hm5
            subst e5
            split at hr
            · next x hx => subst hr; exact peek_traced hP hx
            · next t ht => subst hr; exact hP.unexpected _ t (peek_ok ht)

/-- Every rule of the expression grammar ends in a way that a traced relation allows. -/
theorem exprTraced (fuel : Nat) : ExprTraced tokens P fuel := by
  induction fuel with
  | zero =>
    constructor <;> intros <;>
      first
        | (rw [expression]; exact hP.fuel _)
        | (rw [logicalOr]; exact hP.fuel _)
        | (rw [logicalOrLoop]; exact hP.fuel _)
        | (rw [logicalAnd]; exact hP.fuel _)
        | (rw [logicalAndLoop]; exact hP.fuel _)
        | (rw [equality]; exact hP.fuel _)
        | (rw [equalityLoop]; exact hP.fuel _)
        | (rw [comparison]; exact hP.fuel _)
        | (rw [comparisonLoop]; exact hP.fuel _)
        | (rw [term]; exact hP.fuel _)
        | (rw [termLoop]; exact hP.fuel _)
        | (rw [factor]; exact hP.fuel _)
        | (rw [factorLoop]; exact hP.fuel _)
        | (rw [unary]; exact hP.fuel _)
        | (rw [call]; exact hP.fuel _)
        | (rw [callLoop]; exact hP.fuel _)
        | (rw [callArguments]; exact hP.fuel _)
        | (rw [primary]; exact hP.fuel _)
  | succ n ih =>
    refine ⟨?_, ?_, ?_, ?_, ?_, ?_, ?_, ?_, ?_, ?_, ?_, ?_, ?_, unary_traced hP n ih, ?_,
      callLoop_traced hP n ih, callArguments_traced hP n ih, primary_traced hP n ih⟩
    · intro c
      rw [expression]
      exact ih.logicalOr c
    · exact binaryRule_traced hP logicalOr logicalAnd logicalOrLoop n
        (fun c => logicalOr_succ n tokens c) ih.logicalAnd ih.logicalOrLoop
    · intro e c
      rw [logicalOrLoop_eq]
      exact binaryLoop_traced hP _ _ (by decide) n ih.logicalAnd
        (fun e c => by rw [← logicalOrLoop_eq]; exact ih.logicalOrLoop e c) e c
    · exact binaryRule_traced hP logicalAnd equality logicalAndLoop n
        (fun c => logicalAnd_succ n tokens c) ih.equality ih.logicalAndLoop
    · intro e c
      rw [logicalAndLoop_eq]
      exact binaryLoop_traced hP _ _ (by decide) n ih.equality
        (fun e c => by rw [← logicalAndLoop_eq]; exact ih.logicalAndLoop e c) e c
    · exact binaryRule_traced hP equality comparison equalityLoop n
        (fun c => equality_succ n tokens c) ih.comparison ih.equalityLoop
    · intro e c
      rw [equalityLoop_eq]
      exact binaryLoop_traced hP _ _ (by decide) n ih.comparison
        (fun e c => by rw [← equalityLoop_eq]; exact ih.equalityLoop e c) e c
    · exact binaryRule_traced hP comparison term comparisonLoop n
        (fun c => comparison_succ n tokens c) ih.term ih.comparisonLoop
    · intro e c
      rw [comparisonLoop_eq]
      exact binaryLoop_traced hP _ _ (by decide) n ih.term
        (fun e c => by rw [← comparisonLoop_eq]; exact ih.comparisonLoop e c) e c
    · exact binaryRule_traced hP term factor termLoop n
        (fun c => term_succ n tokens c) ih.factor ih.termLoop
    · intro e c
      rw [termLoop_eq]
      exact binaryLoop_traced hP _ _ (by decide) n ih.factor
        (fun e c => by rw [← termLoop_eq]; exact ih.termLoop e c) e c
    · exact binaryRule_traced hP factor unary factorLoop n
        (fun c => factor_succ n tokens c) ih.unary ih.factorLoop
    · intro e c
      rw [factorLoop_eq]
      exact binaryLoop_traced hP _ _ (by decide) n ih.unary
        (fun e c => by rw [← factorLoop_eq]; exact ih.factorLoop e c) e c
    · exact binaryRule_traced hP call primary callLoop n
        (fun c => call_succ n tokens c) ih.primary ih.callLoop

end traced

end Parser

namespace Parser

section traced

variable {tokens : List Token} {P : Nat → Except (Failure × Nat) Nat → Prop}
  (hP : Traced tokens P)
include hP

theorem varDeclaration_traced (fuel : Nat) :
    ∀ c, P c (outcome (varDeclaration fuel tokens c)) := by
  intro c
  generalize hr : varDeclaration fuel tokens c = r
  unfold varDeclaration at hr
  split at hr
  · next x hx => subst hr; exact consume_traced_error hP (by decide) hx
  · next name hname =>
    have q1 := consume_traced_ok hP (by decide) hname
    split at hr
    · next x hx => subst hr; exact hP.seq _ _ _ q1 (match__traced_error hP hx)
    · next m hm =>
      have q2 := match__traced_ok hP (by decide) hm
      split at hr
      · next x hx =>
        subst hr
        split at hx
        · have q3 := (exprTraced hP fuel).expression m.2
          split at hx
          · next y hy =>
            injection hx with hx
            subst hx
            rw [hy] at q3
            exact hP.seq _ _ _ q1 (hP.seq _ _ _ q2 q3)
          · exact Except.noConfusion hx
        · exact Except.noConfusion hx
      · next initializer hi =>
        have q3 : P m.2 (Except.ok initializer.2) := by
          split at hi
          · have q := (exprTraced hP fuel).expression m.2
            split at hi
            · exact Except.noConfusion hi
            · next r1 h1 =>
              injection hi with hi
              subst hi
              rw [h1] at q
              exact q
          · injection hi with hi
            subst hi
            exact hP.stay _
        split at hr
        · next x hx =>
          subst hr
          exact hP.seq _ _ _ q1 (hP.seq _ _ _ q2 (hP.seq _ _ _ q3
            (consume_traced_error hP (by decide) hx)))
        · next r1 hcons =>
          subst hr
          exact hP.seq _ _ _ q1 (hP.seq _ _ _ q2 (hP.seq _ _ _ q3
            (consume_traced_ok hP (by decide) hcons)))

theorem assignment_traced (fuel : Nat) :
    ∀ c, P c (outcome (assignment fuel tokens c)) := by
  intro c
  generalize hr : assignment fuel tokens c = r
  unfold assignment at hr
  split at hr
  · next x hx => subst hr; exact consume_traced_error hP (by decide) hx
  · next name hname =>
    have q1 := consume_traced_ok hP (by decide) hname
    split at hr
    · next x hx => subst hr; exact hP.seq _ _ _ q1 (consume_traced_error hP (by decide) hx)
    · next eq heq =>
      have q2 := consume_traced_ok hP (by decide) heq
      have q3 := (exprTraced hP fuel).expression eq.2
      split at hr
      · next x hx => subst hr; rw [hx] at q3; exact hP.seq _ _ _ q1 (hP.seq _ _ _ q2 q3)
      · next value hv =>
        rw [hv] at q3
        split at hr
        · next x hx =>
          subst hr
          exact hP.seq _ _ _ q1 (hP.seq _ _ _ q2 (hP.seq _ _ _ q3
            (consume_traced_error hP (by decide) hx)))
        · next r1 hcons =>
          subst hr
          exact hP.seq _ _ _ q1 (hP.seq _ _ _ q2 (hP.seq _ _ _ q3
            (consume_traced_ok hP (by decide) hcons)))

theorem returnStatement_traced (fuel : Nat) :
    ∀ c, P c (outcome (returnStatement fuel tokens c)) := by
  intro c
  generalize hr : returnStatement fuel tokens c = r
  unfold returnStatement at hr
  split at hr
  · next x hx => subst hr; exact check_traced hP hx
  · next semi hsemi =>
    split at hr
    · next x hx =>
      subst hr
      split at hx
      · have q3 := (exprTraced hP fuel).expression c
        split at hx
        · next y hy =>
          injection hx with hx
          subst hx
          rw [hy] at q3
          exact q3
        · exact Except.noConfusion hx
      · exact Except.noConfusion hx
    · next value hv =>
      have q3 : P c (Except.ok value.2) := by
        split at hv
        · have q := (exprTraced hP fuel).expression c
          split at hv
          · exact Except.noConfusion hv
          · next r1 h1 =>
            injection hv with hv
            subst hv
            rw [h1] at q
            exact q
        · injection hv with hv
          subst hv
          exact hP.stay _
      split at hr
      · next x hx =>
        subst hr
        exact hP.seq _ _ _ q3 (consume_traced_error hP (by decide) hx)
      · next r1 hcons =>
        subst hr
        exact hP.seq _ _ _ q3 (consume_traced_ok hP (by decide) hcons)

theorem expressionStatement_traced (fuel : Nat) :
    ∀ c, P c (outcome (expressionStatement fuel tokens c)) := by
  intro c
  generalize hr : expressionStatement fuel tokens c = r
  unfold expressionStatement at hr
  have q1 := (exprTraced hP fuel).expression c
  split at hr
  · next x hx => subst hr; rw [hx] at q1; exact q1
  · next expr hexpr =>
    rw [hexpr] at q1
    split at hr
    · next x hx =>
      subst hr
      exact hP.seq _ _ _ q1 (consume_traced_error hP (by decide) hx)
    · next r1 hcons =>
      subst hr
      exact hP.seq _ _ _ q1 (consume_traced_ok hP (by decide) hcons)

theorem parameterLoop_traced (fuel : Nat) :
    ∀ p c, P c (outcome (parameterLoop fuel tokens p c)) := by
  induction fuel with
  | zero =>
    intro p c
    rw [parameterLoop]
    exact hP.fuel _
  | succ n ih =>
    intro p c
    generalize hr : parameterLoop (n + 1) tokens p c = r
    rw [parameterLoop] at hr
    split at hr
    · next x hx => subst hr; exact consume_traced_error hP (by decide) hx
    · next param hparam =>
      have q1 := consume_traced_ok hP (by decide) hparam
      split at hr
      · next x hx => subst hr; exact hP.seq _ _ _ q1 (match__traced_error hP hx)
      · next c1 hm =>
        subst hr
        exact hP.seq _ _ _ q1 (hP.seq _ _ _ (match__traced_ok hP (by decide) hm) (ih _ _))
      · next c1 hm =>
        subst hr
        exact hP.seq _ _ _ q1 (match__traced_ok hP (by decide) hm)

theorem statement_traced (n : Nat) (ih : StmtTraced tokens P n) :
    ∀ c, P c (outcome (statement (n + 1) tokens c)) := by
  intro c
  generalize hr : statement (n + 1) tokens c = r
  rw [statement] at hr
  split at hr
  · next x hx => subst hr; exact match__traced_error hP hx
  · next c1 hm =>
    subst hr
    exact hP.seq _ _ _ (match__traced_ok hP (by decide) hm) (varDeclaration_traced hP n c1)
  · next c1 hm1 =>
    have e1 := match__false hm1
    subst e1
    split at hr
    · next x hx => subst hr; exact match__traced_error hP hx
    · next c2 hm =>
      subst hr
      exact hP.seq _ _ _ (match__traced_ok hP (by decide) hm) (ih.ifStatement c2)
    · next c2 hm2 =>
      have e2 := match__false hm2
      subst e2
      split at hr
      · next x hx => subst hr; exact match__traced_error hP hx
      · next c3 hm =>
        subst hr
        exact hP.seq _ _ _ (match__traced_ok hP (by decide) hm) (ih.whileStatement c3)
      · next c3 hm3 =>
        have e3 := match__false hm3
        subst e3
        split at hr
        · next x hx => subst hr; exact match__traced_error hP hx
        · next c4 hm =>
          subst hr
          exact hP.seq _ _ _ (match__traced_ok hP (by decide) hm) (ih.functionDeclaration c4)
        · next c4 hm4 =>
          have e4 := match__false hm4
          subst e4
          split at hr
          · next x hx => subst hr; exact match__traced_error hP hx
          · next c5 hm =>
            subst hr
            exact hP.seq _ _ _ (match__traced_ok hP (by decide) hm)
              (returnStatement_traced hP n c5)
          · next c5 hm5 =>
            have e5 := match__false hm5
            subst e5
            split at hr
            · next x hx => subst hr; exact match__traced_error hP hx
            · next c6 hm =>
              have q1 := match__traced_ok hP (by decide) hm
              have q2 := ih.block c6
              split at hr
              · next x hx => subst hr; rw [hx] at q2; exact hP.seq _ _ _ q1 q2
              · next r1 hb => subst hr; rw [hb] at q2; exact hP.seq _ _ _ q1 q2
            · next c6 hm6 =>
              have e6 := match__false hm6
              subst e6
              split at hr
              · next x hx => subst hr; exact check_traced hP hx
              · subst hr; exact expressionStatement_traced hP n _
              · next hchk =>
                obtain ⟨t, ht, hb⟩ := check_ok hchk
                have hb' := of_decide_eq_true hb.symm
                rw [advance_step ht hb'.1] at hr
                dsimp only at hr
                split at hr
                · next x hx =>
                  subst hr
                  exact hP.seq _ _ _
                    (hP.step _ t ht hb'.1 (by rw [hb'.2]; decide)) (check_traced hP hx)
                · subst hr; exact assignment_traced hP n _
                · subst hr; exact expressionStatement_traced hP n _

theorem ifStatement_traced (n : Nat) (ih : StmtTraced tokens P n) :
    ∀ c, P c (outcome (ifStatement (n + 1) tokens c)) := by
  intro c
  generalize hr : ifStatement (n + 1) tokens c = r
  rw [ifStatement] at hr
  split at hr
  · next x hx => subst hr; exact consume_traced_error hP (by decide) hx
  · next l hl =>
    have q1 := consume_traced_ok hP (by decide) hl
    have q2 := (exprTraced hP n).expression l.2
    split at hr
    · next x hx => subst hr; rw [hx] at q2; exact hP.seq _ _ _ q1 q2
    · next condition hcond =>
      rw [hcond] at q2
      have q12 := hP.seq _ _ _ q1 q2
      split at hr
      · next x hx =>
        subst hr
        exact hP.seq _ _ _ q12 (consume_traced_error hP (by decide) hx)
      · next r1 hcons =>
        have q3 := hP.seq _ _ _ q12 (consume_traced_ok hP (by decide) hcons)
        have q4 := ih.statement r1.2
        split at hr
        · next x hx => subst hr; rw [hx] at q4; exact hP.seq _ _ _ q3 q4
        · next thenBranch hthen =>
          rw [hthen] at q4
          have q5 := hP.seq _ _ _ q3 q4
          split at hr
          · next x hx => subst hr; exact hP.seq _ _ _ q5 (match__traced_error hP hx)
          · next c1 hm =>
            have q6 := hP.seq _ _ _ q5 (match__traced_ok hP (by decide) hm)
            have q7 := ih.statement c1
            split at hr
            · next x hx => subst hr; rw [hx] at q7; exact hP.seq _ _ _ q6 q7
            · next elseBranch helse => subst hr; rw [helse] at q7; exact hP.seq _ _ _ q6 q7
          · next c1 hm =>
            subst hr
            exact hP.seq _ _ _ q5 (match__traced_ok hP (by decide) hm)

theorem whileStatement_traced (n : Nat) (ih : StmtTraced tokens P n) :
    ∀ c, P c (outcome (whileStatement (n + 1) tokens c)) := by
  intro c
  generalize hr : whileStatement (n + 1) tokens c = r
  rw [whileStatement] at hr
  split at hr
  · next x hx => subst hr; exact consume_traced_error hP (by decide) hx
  · next l hl =>
    have q1 := consume_traced_ok hP (by decide) hl
    have q2 := (exprTraced hP n).expression l.2
    split at hr
    · next x hx => subst hr; rw [hx] at q2; exact hP.seq _ _ _ q1 q2
    · next condition hcond =>
      rw [hcond] at q2
      have q12 := hP.seq _ _ _ q1 q2
      split at hr
      · next x hx =>
        subst hr
        exact hP.seq _ _ _ q12 (consume_traced_error hP (by decide) hx)
      · next r1 hcons =>
        have q3 := hP.seq _ _ _ q12 (consume_traced_ok hP (by decide) hcons)
        have q4 := ih.statement r1.2
        split at hr
        · next x hx => subst hr; rw [hx] at q4; exact hP.seq _ _ _ q3 q4
        · next body hbody => subst hr; rw [hbody] at q4; exact hP.seq _ _ _ q3 q4

theorem functionDeclaration_traced (n : Nat) (ih : StmtTraced tokens P n) :
    ∀ c, P c (outcome (functionDeclaration (n + 1) tokens c)) := by
  intro c
  generalize hr : functionDeclaration (n + 1) tokens c = r
  rw [functionDeclaration] at hr
  split at hr
  · next x hx => subst hr; exact consume_traced_error hP (by decide) hx
  · next name hname =>
    have q1 := consume_traced_ok hP (by decide) hname
    split at hr
    · next x hx => subst hr; exact hP.seq _ _ _ q1 (consume_traced_error hP (by decide) hx)
    · next l hl =>
      have q2 := hP.seq _ _ _ q1 (consume_traced_ok hP (by decide) hl)
      split at hr
      · next x hx => subst hr; exact hP.seq _ _ _ q2 (check_traced hP hx)
      · next closing hc =>
        split at hr
        · next x hx =>
          subst hr
          split at hx
          · have q := parameterLoop_traced hP n [] l.2
            rw [hx] at q
            exact hP.seq _ _ _ q2 q
          · exact Except.noConfusion hx
        · next parameters hp =>
          have q3 : P c (Except.ok parameters.2) := by
            split at hp
            · have q := parameterLoop_traced hP n [] l.2
              rw [hp] at q
              exact hP.seq _ _ _ q2 q
            · injection hp with hp
              subst hp
              exact q2
          split at hr
          · next x hx =>
            subst hr
            exact hP.seq _ _ _ q3 (consume_traced_error hP (by decide) hx)
          · next r1 hrp =>
            have q4 := hP.seq _ _ _ q3 (consume_traced_ok hP (by decide) hrp)
            split at hr
            · next x hx =>
              subst hr
              exact hP.seq _ _ _ q4 (consume_traced_error hP (by decide) hx)
            · next b hb =>
              have q5 := hP.seq _ _ _ q4 (consume_traced_ok hP (by decide) hb)
              have q6 := ih.block b.2
              split at hr
              · next x hx => subst hr; rw [hx] at q6; exact hP.seq _ _ _ q5 q6
              · next body hbody => subst hr; rw [hbody] at q6; exact hP.seq _ _ _ q5 q6

theorem block_traced (n : Nat) (ih : StmtTraced tokens P n) :
    ∀ c, P c (outcome (block (n + 1) tokens c)) := by
  intro c
  generalize hr : block (n + 1) tokens c = r
  rw [block] at hr
  have q1 := ih.blockLoop [] c
  split at hr
  · next x hx => subst hr; rw [hx] at q1; exact q1
  · next statements hs =>
    rw [hs] at q1
    split at hr
    · next x hx =>
      subst hr
      exact hP.seq _ _ _ q1 (consume_traced_error hP (by decide) hx)
    · next r1 hcons =>
      subst hr
      exact hP.seq _ _ _ q1 (consume_traced_ok hP (by decide) hcons)

theorem blockLoop_traced (n : Nat) (ih : StmtTraced tokens P n) :
    ∀ s c, P c (outcome (blockLoop (n + 1) tokens s c)) := by
  intro s c
  generalize hr : blockLoop (n + 1) tokens s c = r
  rw [blockLoop] at hr
  split at hr
  · next x hx => subst hr; exact check_traced hP hx
  · subst hr; exact hP.stay _
  · split at hr
    · next x hx => subst hr; exact isAtEnd_traced hP hx
    · subst hr; exact hP.stay _
    · have q1 := ih.statement c
      split at hr
      · next x hx => subst hr; rw [hx] at q1; exact q1
      · next r1 h1 =>
        rw [h1] at q1
        subst hr
        exact hP.seq _ _ _ q1 (ih.blockLoop _ _)

/-- Every rule of the statement grammar ends in a way that a traced relation allows. -/
theorem stmtTraced (fuel : Nat) : StmtTraced tokens P fuel := by
  induction fuel with
  | zero =>
    constructor <;> intros <;>
      first
        | (rw [statement]; exact hP.fuel _)
        | (rw [ifStatement]; exact hP.fuel _)
        | (rw [whileStatement]; exact hP.fuel _)
        | (rw [functionDeclaration]; exact hP.fuel _)
        | (rw [block]; exact hP.fuel _)
        | (rw [blockLoop]; exact hP.fuel _)
  | succ n ih =>
    exact ⟨statement_traced hP n ih, ifStatement_traced hP n ih,
      whileStatement_traced hP n ih, functionDeclaration_traced hP n ih,
      block_traced hP n ih, blockLoop_traced hP n ih⟩

end traced

end Parser

namespace Parser

/-- The cursor never moves back, whether a method returns or fails. -/
theorem traced_le (tokens : List Token) : Traced tokens (fun c o => c ≤ cursorOf o) where
  stay := fun _ => Nat.le_refl _
  seq := fun _ _ _ h1 h2 => Nat.le_trans h1 h2
  step := fun _ _ _ _ _ => Nat.le_succ _
  missing := fun _ _ => Nat.le_refl _
  expected := fun _ _ _ _ => Nat.le_refl _
  unexpected := fun _ _ _ => Nat.le_refl _
  callee := fun _ _ _ _ => Nat.le_refl _
  number := fun _ _ _ _ _ _ => Nat.le_refl _
  fuel := fun _ => Nat.le_refl _

/-- Every failure of a method is one of the failures listed in `Raised`. -/
theorem traced_raised (tokens : List Token) :
    Traced tokens (fun _ o => ∀ e, o = Except.error e → Raised tokens e) where
  stay := fun _ _ h => Except.noConfusion h
  seq := fun _ _ _ _ h2 => h2
  step := fun _ _ _ _ _ _ h => Except.noConfusion h
  missing := fun c hn e h => by injection h with h; subst h; exact Raised.missing c hn
  expected := fun c t m ht e h => by injection h with h; subst h; exact Raised.expected c t m ht
  unexpected := fun c t ht e h => by injection h with h; subst h; exact Raised.unexpected c t ht
  callee := fun c t ht hty e h => by injection h with h; subst h; exact Raised.callee c t ht hty
  number := fun c t x ht hty hs e h => by
    injection h with h; subst h; exact Raised.number c t x ht hty hs
  fuel := fun c e h => by injection h with h; subst h; exact Raised.fuel c

theorem stoi_error {str : String} {e : Failure} (h : stoi str = Except.error e) :
    e = Failure.invalid_argument ∨ e = Failure.out_of_range := by
  unfold stoi at h
  dsimp only at h
  split_ifs at h <;>
    first
      | exact Except.noConfusion h
      | (injection h with h; exact Or.inl h.symm)
      | (injection h with h; exact Or.inr h.symm)

theorem Terminated.succ_lt {tokens : List Token} (hT : Terminated tokens) {c : Nat} {t : Token}
    (ht : tokens[c]? = some t) (hne : t.type ≠ TokenType.END_OF_FILE) :
    c + 1 < tokens.length := by
  obtain ⟨last, hl, he⟩ := hT
  have hc := lt_length_of_getElem? ht
  by_contra hn
  have hc' : c = tokens.length - 1 := by omega
  rw [List.getLast?_eq_getElem?, ← hc', ht] at hl
  injection hl with hl
  exact hne (hl ▸ he)

/-- On a token vector that ends in `END_OF_FILE`, a method entered inside the
vector ends inside it and does not read outside it. -/
theorem traced_bounds {tokens : List Token} (hT : Terminated tokens) :
    Traced tokens (fun c o => c < tokens.length →
      cursorOf o < tokens.length ∧ ∀ c', o ≠ Except.error (Failure.outOfBounds, c')) where
  stay := fun _ h => ⟨h, fun _ hh => Except.noConfusion hh⟩
  seq := fun _ _ _ h1 h2 h => h2 (h1 h).1
  step := fun c t ht hne _ _ => ⟨hT.succ_lt ht hne, fun _ hh => Except.noConfusion hh⟩
  missing := fun c hn h => by
    rw [List.getElem?_eq_none_iff] at hn
    omega
  expected := fun c t m ht h => ⟨h, fun c' hh => by
    injection hh with hh; injection hh with hh; exact Failure.noConfusion hh⟩
  unexpected := fun c t ht h => ⟨h, fun c' hh => by
    injection hh with hh; injection hh with hh; exact Failure.noConfusion hh⟩
  callee := fun c t ht hty h => ⟨h, fun c' hh => by
    injection hh with hh; injection hh with hh; exact Failure.noConfusion hh⟩
  number := fun c t e ht hty hs h => ⟨h, fun c' hh => by
    injection hh with hh
    injection hh with hh
    subst hh
    rcases stoi_error hs with h1 | h1 <;> exact Failure.noConfusion h1⟩
  fuel := fun c h => ⟨h, fun c' hh => by
    injection hh with hh; injection hh with hh; exact Failure.noConfusion hh⟩

end Parser

/-! ## Locality: a method reads no token beyond the cursor at which it ends -/

namespace Parser

theorem fuelFree_ok {α : Type} (v : α) :
    FuelFree (Except.ok v : Except (Failure × Nat) α) :=
  fun _ h => Except.noConfusion h

theorem fuelFree_outOfFuel {α : Type} {c : Nat}
    (h : FuelFree (Except.error (Failure.outOfFuel, c) : Except (Failure × Nat) α)) : False :=
  h c rfl

theorem peek_congr {t1 t2 : List Token} {c : Nat} (h : t1[c]? = t2[c]?) :
    peek t2 c = peek t1 c := by
  unfold peek
  rw [h]

theorem isAtEnd_congr {t1 t2 : List Token} {c : Nat} (h : t1[c]? = t2[c]?) :
    isAtEnd t2 c = isAtEnd t1 c := by
  unfold isAtEnd
  rw [peek_congr h]

theorem check_congr {t1 t2 : List Token} {c : Nat} (h : t1[c]? = t2[c]?) (type : TokenType) :
    check t2 c type = check t1 c type := by
  unfold check
  rw [isAtEnd_congr h, peek_congr h]

theorem match__congr {t1 t2 : List Token} {c : Nat} (h : t1[c]? = t2[c]?)
    (types : List TokenType) : match_ t2 c types = match_ t1 c types := by
  cases hp : t1[c]? with
  | none =>
    have hp2 : t2[c]? = none := by rw [← h, hp]
    cases types with
    | nil => simp [match_]
    | cons ty tys => simp [match_, check, isAtEnd, peek, hp, hp2]
  | some t =>
    have hp2 : t2[c]? = some t := by rw [← h, hp]
    by_cases he : t.type = TokenType.END_OF_FILE
    · rw [match__eof hp he, match__eof hp2 he]
    · rw [match__eq hp he, match__eq hp2 he]

theorem consume_congr {t1 t2 : List Token} {c : Nat} (h : t1[c]? = t2[c]?)
    (type : TokenType) (message : String) :
    consume t2 c type message = consume t1 c type message := by
  cases hp : t1[c]? with
  | none =>
    have hp2 : t2[c]? = none := by rw [← h, hp]
    simp [consume, check, isAtEnd, peek, hp, hp2]
  | some t =>
    have hp2 : t2[c]? = some t := by rw [← h, hp]
    unfold consume
    rw [check_congr h, peek_congr h]
    by_cases he : t.type = TokenType.END_OF_FILE
    · rw [check_eq hp]
      simp [he]
    · rw [advance_step hp he, advance_step hp2 he]

section locality

variable {t1 t2 : List Token} {N : Nat} (hA : Agree t1 t2 N)
include hA

theorem match__local (c : Nat) (types : List TokenType) (hU : TokenType.UNKNOWN ∉ types) :
    c ≤ cursorOf (outcome (match_ t1 c types)) ∧
      (cursorOf (outcome (match_ t1 c types)) ≤ N → match_ t2 c types = match_ t1 c types) := by
  have q := match__traced (traced_le t1) c types hU
  exact ⟨q, fun h => match__congr (hA c (Nat.le_trans q h)) types⟩

theorem consume_local (c : Nat) (type : TokenType) (message : String)
    (hU : type ≠ TokenType.UNKNOWN) :
    c ≤ cursorOf (outcome (consume t1 c type message)) ∧
      (cursorOf (outcome (consume t1 c type message)) ≤ N →
        consume t2 c type message = consume t1 c type message) := by
  have q := consume_traced (traced_le t1) c type message hU
  exact ⟨q, fun h => consume_congr (hA c (Nat.le_trans q h)) type message⟩

theorem check_local (c : Nat) (type : TokenType) :
    c ≤ N → check t2 c type = check t1 c type :=
  fun h => check_congr (hA c h) type

theorem isAtEnd_local (c : Nat) : c ≤ N → isAtEnd t2 c = isAtEnd t1 c :=
  fun h => isAtEnd_congr (hA c h)

theorem peek_local (c : Nat) : c ≤ N → peek t2 c = peek t1 c :=
  fun h => peek_congr (hA c h)

/-- After a successful `match` that consumed a token, `previous` returns that
token on both vectors. -/
theorem previous_local {c c1 : Nat} {types : List TokenType}
    (h : match_ t1 c types = Except.ok (true, c1)) :
    ∃ t, t1[c]? = some t ∧ t.type ∈ types ∧ c1 = c + 1 ∧ previous t1 c1 = Except.ok t ∧
      (c1 ≤ N → previous t2 c1 = Except.ok t) := by
  obtain ⟨t, ht, hty, hc1, hprev⟩ := previous_after_match h
  refine ⟨t, ht, hty, hc1, hprev, fun hle => ?_⟩
  have h2 : t2[c]? = some t := by rw [← hA c (by omega)]; exact ht
  rw [hc1]
  exact previous_eq h2

omit hA in
theorem FuelFree.cast {α β : Type} {e : Failure × Nat}
    (h : FuelFree (Except.error e : Except (Failure × Nat) α)) :
    FuelFree (Except.error e : Except (Failure × Nat) β) := by
  intro c hc
  injection hc with hc
  exact h c (by rw [hc])

omit hA in
/-- Running a sub-call and then the rest: if the sub-call is local and the
rest, run on its result, ends the same way on both vectors, so does the whole. -/
theorem Local.seq {α β : Type} {c cr : Nat} {r : Result β} {M : Result α → Result β}
    {x1 x2 : Result α}
    (hx : c ≤ cursorOf (outcome x1) ∧ (cursorOf (outcome x1) ≤ N → x2 = x1))
    (tail : cursorOf (outcome x1) ≤ cr ∧ (cr ≤ N → M x1 = r)) :
    c ≤ cr ∧ (cr ≤ N → M x2 = r) :=
  ⟨Nat.le_trans hx.1 tail.1, fun h => by rw [hx.2 (Nat.le_trans tail.1 h)]; exact tail.2 h⟩

omit hA in
/-- The same for a read at the cursor `c` that does not move it. -/
theorem Local.read {γ β : Type} {c cr : Nat} {r : Result β} {M : γ → Result β}
    {x1 x2 : γ} (hx : c ≤ N → x2 = x1) (tail : c ≤ cr ∧ (cr ≤ N → M x1 = r)) :
    c ≤ cr ∧ (cr ≤ N → M x2 = r) :=
  ⟨tail.1, fun h => by rw [hx (Nat.le_trans tail.1 h)]; exact tail.2 h⟩

omit hA in
/-- The sub-call fails and its failure is the result. -/
theorem Local.fail {α β : Type} {c : Nat} {M : Result α → Result β} {e : Failure × Nat}
    {x2 : Result α}
    (hx : c ≤ cursorOf (outcome (Except.error e : Result α)) ∧
      (cursorOf (outcome (Except.error e : Result α)) ≤ N → x2 = Except.error e))
    (hM : M (Except.error e) = Except.error e) :
    c ≤ cursorOf (outcome (Except.error e : Result β)) ∧
      (cursorOf (outcome (Except.error e : Result β)) ≤ N → M x2 = Except.error e) :=
  ⟨hx.1, fun h => by rw [hx.2 h]; exact hM⟩

omit hA in
/-- A read at the cursor fails with `e`, raised at that cursor. -/
theorem Local.readFail {γ : Type} {β : Type} {c : Nat} {M : Except (Failure × Nat) γ → Result β}
    {e : Failure × Nat} {x2 : Except (Failure × Nat) γ}
    (hx : c ≤ N → x2 = Except.error e) (he : e.2 = c)
    (hM : M (Except.error e) = Except.error e) :
    c ≤ cursorOf (outcome (Except.error e : Result β)) ∧
      (cursorOf (outcome (Except.error e : Result β)) ≤ N → M x2 = Except.error e) := by
  refine ⟨Nat.le_of_eq he.symm, fun h => ?_⟩
  have h' : e.2 ≤ N := h
  rw [hx (by omega)]
  exact hM

theorem unary_local (n : Nat) (ih : ExprLocal t1 t2 N n) :
    ∀ c m, n + 1 ≤ m → Local N c (unary (n + 1) t1 c) (unary m t2 c) := by
  intro c m hm hf
  obtain ⟨m, rfl⟩ : ∃ k, m = k + 1 := ⟨m - 1, by omega⟩
  generalize hr : unary (n + 1) t1 c = r at hf ⊢
  rw [unary] at hr ⊢
  have L := match__local hA c [TokenType.LOGICAL_NOT, TokenType.MINUS] (by decide)
  generalize match_ t2 c [TokenType.LOGICAL_NOT, TokenType.MINUS] = x2 at L ⊢
  split at hr
  · next x hx =>
    subst hr
    rw [hx] at L
    apply Local.fail L
    rfl
  · next c1 hmatch =>
    rw [hmatch] at L
    apply Local.seq L
    dsimp only [outcome, cursorOf]
    obtain ⟨t, -, -, -, hprev, P2⟩ := previous_local hA hmatch
    rw [hprev] at hr
    dsimp only at hr
    generalize previous t2 c1 = p2 at P2 ⊢
    apply Local.read P2
    dsimp only
    have L := ih.unary c1 m (by omega)
    generalize unary m t2 c1 = y2 at L ⊢
    split at hr
    · next x hx =>
      subst hr
      rw [hx] at L
      apply Local.fail (L hf.cast)
      rfl
    · next right hright =>
      subst hr
      rw [hright] at L
      apply Local.seq (L (fuelFree_ok _))
      dsimp only [outcome, cursorOf]
      exact ⟨Nat.le_refl _, fun _ => rfl⟩
  · next c1 hmatch =>
    rw [hmatch] at L
    apply Local.seq L
    dsimp only [outcome, cursorOf]
    subst hr
    exact ih.call c1 m (by omega) hf

theorem binaryLoop_local (sub : Nat → List Token → Nat → Result Expression)
    (ops : List TokenType) (hU : TokenType.UNKNOWN ∉ ops) (n : Nat)
    (hsub : ∀ c m, n ≤ m → Local N c (sub n t1 c) (sub m t2 c))
    (hloop : ∀ e c m, n ≤ m →
      Local N c (binaryLoop sub ops n t1 e c) (binaryLoop sub ops m t2 e c)) :
    ∀ e c m, n + 1 ≤ m →
      Local N c (binaryLoop sub ops (n + 1) t1 e c) (binaryLoop sub ops m t2 e c) := by
  intro e c m hm hf
  obtain ⟨m, rfl⟩ : ∃ k, m = k + 1 := ⟨m - 1, by omega⟩
  generalize hr : binaryLoop sub ops (n + 1) t1 e c = r at hf ⊢
  rw [binaryLoop] at hr ⊢
  have L := match__local hA c ops hU
  generalize match_ t2 c ops = x2 at L ⊢
  split at hr
  · next x hx =>
    subst hr
    rw [hx] at L
    apply Local.fail L
    rfl
  · next c1 hmatch =>
    rw [hmatch] at L
    apply Local.seq L
    dsimp only [outcome, cursorOf]
    subst hr
    exact ⟨Nat.le_refl _, fun _ => rfl⟩
  · next c1 hmatch =>
    rw [hmatch] at L
    apply Local.seq L
    dsimp only [outcome, cursorOf]
    obtain ⟨t, -, -, -, hprev, P2⟩ := previous_local hA hmatch
    rw [hprev] at hr
    dsimp only at hr
    generalize previous t2 c1 = p2 at P2 ⊢
    apply Local.read P2
    dsimp only
    have L := hsub c1 m (by omega)
    generalize sub m t2 c1 = y2 at L ⊢
    split at hr
    · next x hx =>
      subst hr
      rw [hx] at L
      apply Local.fail (L hf.cast)
      rfl
    · next right hright =>
      rw [hright] at L
      apply Local.seq (L (fuelFree_ok _))
      dsimp only [outcome, cursorOf]
      subst hr
      exact hloop _ _ m (by omega) hf

omit hA in
theorem binaryRule_local (f sub : Nat → List Token → Nat → Result Expression)
    (loop : Nat → List Token → Expression → Nat → Result Expression) (n : Nat)
    (hf1 : ∀ k t c, f (k + 1) t c =
      match sub k t c with
      | Except.error e => Except.error e
      | Except.ok r => loop k t r.1 r.2)
    (hsub : ∀ c m, n ≤ m → Local N c (sub n t1 c) (sub m t2 c))
    (hloop : ∀ e c m, n ≤ m → Local N c (loop n t1 e c) (loop m t2 e c)) :
    ∀ c m, n + 1 ≤ m → Local N c (f (n + 1) t1 c) (f m t2 c) := by
  intro c m hm hf
  obtain ⟨m, rfl⟩ : ∃ k, m = k + 1 := ⟨m - 1, by omega⟩
  generalize hr : f (n + 1) t1 c = r at hf ⊢
  rw [hf1] at hr ⊢
  have L := hsub c m (by omega)
  generalize sub m t2 c = y2 at L ⊢
  split at hr
  · next x hx =>
    subst hr
    rw [hx] at L
    apply Local.fail (L hf.cast)
    rfl
  · next r1 h1 =>
    rw [h1] at L
    apply Local.seq (L (fuelFree_ok _))
    dsimp only [outcome, cursorOf]
    subst hr
    exact hloop _ _ m (by omega) hf

theorem callArguments_local (n : Nat) (ih : ExprLocal t1 t2 N n) :
    ∀ a c m, n + 1 ≤ m →
      Local N c (callArguments (n + 1) t1 a c) (callArguments m t2 a c) := by
  intro a c m hm hf
  obtain ⟨m, rfl⟩ : ∃ k, m = k + 1 := ⟨m - 1, by omega⟩
  generalize hr : callArguments (n + 1) t1 a c = r at hf ⊢
  rw [callArguments] at hr ⊢
  have L := ih.expression c m (by omega)
  generalize expression m t2 c = y2 at L ⊢
  split at hr
  · next x hx =>
    subst hr
    rw [hx] at L
    apply Local.fail (L hf.cast)
    rfl
  · next r1 h1 =>
    rw [h1] at L
    apply Local.seq (L (fuelFree_ok _))
    dsimp only [outcome, cursorOf]
    have L := match__local hA r1.2 [TokenType.COMMA] (by decide)
    generalize match_ t2 r1.2 [TokenType.COMMA] = x2 at L ⊢
    split at hr
    · next x hx =>
      subst hr
      rw [hx] at L
      apply Local.fail L
      rfl
    · next c1 hmatch =>
      rw [hmatch] at L
      apply Local.seq L
      dsimp only [outcome, cursorOf]
      subst hr
      exact ih.callArguments _ _ m (by omega) hf
    · next c1 hmatch =>
      rw [hmatch] at L
      apply Local.seq L
      dsimp only [outcome, cursorOf]
      subst hr
      exact ⟨Nat.le_refl _, fun _ => rfl⟩

theorem callLoop_local (n : Nat) (ih : ExprLocal t1 t2 N n) :
    ∀ e c m, n + 1 ≤ m → Local N c (callLoop (n + 1) t1 e c) (callLoop m t2 e c) := by
  intro e c m hm hf
  obtain ⟨m, rfl⟩ : ∃ k, m = k + 1 := ⟨m - 1, by omega⟩
  generalize hr : callLoop (n + 1) t1 e c = r at hf ⊢
  rw [callLoop] at hr ⊢
  have L := match__local hA c [TokenType.LEFT_PAREN] (by decide)
  generalize match_ t2 c [TokenType.LEFT_PAREN] = x2 at L ⊢
  split at hr
  · next x hx =>
    subst hr
    rw [hx] at L
    apply Local.fail L
    rfl
  · next c1 hmatch =>
    rw [hmatch] at L
    apply Local.seq L
    dsimp only [outcome, cursorOf]
    subst hr
    exact ⟨Nat.le_refl _, fun _ => rfl⟩
  · next c1 hmatch =>
    rw [hmatch] at L
    apply Local.seq L
    dsimp only [outcome, cursorOf]
    split at hr
    · next function_name =>
      have C := check_local hA c1 TokenType.RIGHT_PAREN
      generalize check t2 c1 TokenType.RIGHT_PAREN = k2 at C ⊢
      split at hr
      · next x hx =>
        obtain ⟨-, rfl⟩ := check_error hx
        subst hr
        rw [hx] at C
        apply Local.readFail C rfl
        rfl
      · next closing hc =>
        rw [hc] at C
        apply Local.read C
        dsimp only
        have L : Local N c1
            (if !closing then callArguments n t1 [] c1 else Except.ok ([], c1))
            (if !closing then callArguments m t2 [] c1 else Except.ok ([], c1)) := by
          cases closing
          · exact ih.callArguments [] c1 m (by omega)
          · exact fun _ => ⟨Nat.le_refl _, fun _ => rfl⟩
        generalize (if !closing then callArguments m t2 [] c1
          else Except.ok ([], c1) : Result (List Expression)) = y2 at L ⊢
        split at hr
        · next x hx =>
          subst hr
          rw [hx] at L
          apply Local.fail (L hf.cast)
          rfl
        · next arguments ha =>
          rw [ha] at L
          apply Local.seq (L (fuelFree_ok _))
          dsimp only [outcome, cursorOf]
          have L := consume_local hA arguments.2 TokenType.RIGHT_PAREN
            "Expected ')' after arguments" (by decide)
          generalize consume t2 arguments.2 TokenType.RIGHT_PAREN
            "Expected ')' after arguments" = z2 at L ⊢
          split at hr
          · next x hx =>
            subst hr
            rw [hx] at L
            apply Local.fail L
            rfl
          · next r1 hcons =>
            rw [hcons] at L
            apply Local.seq L
            dsimp only [outcome, cursorOf]
            subst hr
            exact ih.callLoop _ _ m (by omega) hf
    · next hnv =>
      subst hr
      exact ⟨Nat.le_refl _, fun _ => rfl⟩

theorem primary_local (n : Nat) (ih : ExprLocal t1 t2 N n) :
    ∀ c m, n + 1 ≤ m → Local N c (primary (n + 1) t1 c) (primary m t2 c) := by
  intro c m hm hf
  obtain ⟨m, rfl⟩ : ∃ k, m = k + 1 := ⟨m - 1, by omega⟩
  generalize hr : primary (n + 1) t1 c = r at hf ⊢
  rw [primary] at hr ⊢
  have L := match__local hA c [TokenType.TRUE] (by decide)
  generalize match_ t2 c [TokenType.TRUE] = x2 at L ⊢
  split at hr
  · next x hx =>
    subst hr
    rw [hx] at L
    apply Local.fail L
    rfl
  · next c1 hmatch =>
    rw [hmatch] at L
    apply Local.seq L
    dsimp only [outcome, cursorOf]
    subst hr
    exact ⟨Nat.le_refl _, fun _ => rfl⟩
  · next c1 hmatch =>
    rw [hmatch] at L
    apply Local.seq L
    dsimp only [outcome, cursorOf]
    have L := match__local hA c1 [TokenType.FALSE] (by decide)
    generalize match_ t2 c1 [TokenType.FALSE] = x2 at L ⊢
    split at hr
    · next x hx =>
      subst hr
      rw [hx] at L
      apply Local.fail L
      rfl
    · next c2 hmatch =>
      rw [hmatch] at L
      apply Local.seq L
      dsimp only [outcome, cursorOf]
      subst hr
      exact ⟨Nat.le_refl _, fun _ => rfl⟩
    · next c2 hmatch =>
      rw [hmatch] at L
      apply Local.seq L
      dsimp only [outcome, cursorOf]
      have L := match__local hA c2 [TokenType.NUMBER] (by decide)
      generalize match_ t2 c2 [TokenType.NUMBER] = x2 at L ⊢
      split at hr
      · next x hx =>
        subst hr
        rw [hx] at L
        apply Local.fail L
        rfl
      · next c3 hmatch =>
        rw [hmatch] at L
        apply Local.seq L
        dsimp only [outcome, cursorOf]
        obtain ⟨t, -, -, -, hprev, P2⟩ := previous_local hA hmatch
        rw [hprev] at hr
        dsimp only at hr
        generalize previous t2 c3 = p2 at P2 ⊢
        apply Local.read P2
        dsimp only
        split at hr
        · next x hx =>
          subst hr
          exact ⟨Nat.le_refl _, fun _ => rfl⟩
        · next v hv =>
          subst hr
          exact ⟨Nat.le_refl _, fun _ => rfl⟩
      · next c3 hmatch =>
        rw [hmatch] at L
        apply Local.seq L
        dsimp only [outcome, cursorOf]
        have L := match__local hA c3 [TokenType.IDENTIFIER] (by decide)
        generalize match_ t2 c3 [TokenType.IDENTIFIER] = x2 at L ⊢
        split at hr
        · next x hx =>
          subst hr
          rw [hx] at L
          apply Local.fail L
          rfl
        · next c4 hmatch =>
          rw [hmatch] at L
          apply Local.seq L
          dsimp only [outcome, cursorOf]
          obtain ⟨t, -, -, -, hprev, P2⟩ := previous_local hA hmatch
          rw [hprev] at hr
          dsimp only at hr
          generalize previous t2 c4 = p2 at P2 ⊢
          apply Local.read P2
          dsimp only
          subst hr
          exact ⟨Nat.le_refl _, fun _ => rfl⟩
        · next c4 hmatch =>
          rw [hmatch] at L
          apply Local.seq L
          dsimp only [outcome, cursorOf]
          have L := match__local hA c4 [TokenType.LEFT_PAREN] (by decide)
          generalize match_ t2 c4 [TokenType.LEFT_PAREN] = x2 at L ⊢
          split at hr
          · next x hx =>
            subst hr
            rw [hx] at L
            apply Local.fail L
            rfl
          · next c5 hmatch =>
            rw [hmatch] at L
            apply Local.seq L
            dsimp only [outcome, cursorOf]
            have L := ih.expression c5 m (by omega)
            generalize expression m t2 c5 = y2 at L ⊢
            split at hr
            · next x hx =>
              subst hr
              rw [hx] at L
              apply Local.fail (L hf.cast)
              rfl
            · next expr hexpr =>
              rw [hexpr] at L
              apply Local.seq (L (fuelFree_ok _))
              dsimp only [outcome, cursorOf]
              have L := consume_local hA expr.2 TokenType.RIGHT_PAREN
                "Expected ')' after expression" (by decide)
              generalize consume t2 expr.2 TokenType.RIGHT_PAREN
                "Expected ')' after expression" = z2 at L ⊢
              split at hr
              · next x hx =>
                subst hr
                rw [hx] at L
                apply Local.fail L
                rfl
              · next r1 hcons =>
                rw [hcons] at L
                apply Local.seq L
                dsimp only [outcome, cursorOf]
                subst hr
                exact ⟨Nat.le_refl _, fun _ => rfl⟩
          · next c5 hmatch =>
            rw [hmatch] at L
            apply Local.seq L
            dsimp only [outcome, cursorOf]
            have C := peek_local hA c5
            generalize peek t2 c5 = k2 at C ⊢
            split at hr
            · next x hx =>
              obtain ⟨-, rfl⟩ := peek_error hx
              subst hr
              rw [hx] at C
              apply Local.readFail C rfl
              rfl
            · next t ht =>
              rw [ht] at C
              apply Local.read C
              dsimp only
              subst hr
              exact ⟨Nat.le_refl _, fun _ => rfl⟩

/-- Every rule of the expression grammar is local. -/
theorem exprLocal (fuel : Nat) : ExprLocal t1 t2 N fuel := by
  induction fuel with
  | zero =>
    constructor <;> intros <;> intro hf <;> exfalso <;>
      first
        | (rw [expression] at hf; exact fuelFree_outOfFuel hf)
        | (rw [logicalOr] at hf; exact fuelFree_outOfFuel hf)
        | (rw [logicalOrLoop] at hf; exact fuelFree_outOfFuel hf)
        | (rw [logicalAnd] at hf; exact fuelFree_outOfFuel hf)
        | (rw [logicalAndLoop] at hf; exact fuelFree_outOfFuel hf)
        | (rw [equality] at hf; exact fuelFree_outOfFuel hf)
        | (rw [equalityLoop] at hf; exact fuelFree_outOfFuel hf)
        | (rw [comparison] at hf; exact fuelFree_outOfFuel hf)
        | (rw [comparisonLoop] at hf; exact fuelFree_outOfFuel hf)
        | (rw [term] at hf; exact fuelFree_outOfFuel hf)
        | (rw [termLoop] at hf; exact fuelFree_outOfFuel hf)
        | (rw [factor] at hf; exact fuelFree_outOfFuel hf)
        | (rw [factorLoop] at hf; exact fuelFree_outOfFuel hf)
        | (rw [unary] at hf; exact fuelFree_outOfFuel hf)
        | (rw [call] at hf; exact fuelFree_outOfFuel hf)
        | (rw [callLoop] at hf; exact fuelFree_outOfFuel hf)
        | (rw [callArguments] at hf; exact fuelFree_outOfFuel hf)
        | (rw [primary] at hf; exact fuelFree_outOfFuel hf)
  | succ n ih =>
    refine ⟨?_, ?_, ?_, ?_, ?_, ?_, ?_, ?_, ?_, ?_, ?_, ?_, ?_, unary_local hA n ih, ?_,
      callLoop_local hA n ih, callArguments_local hA n ih, primary_local hA n ih⟩
    · intro c m hm
      obtain ⟨m, rfl⟩ : ∃ k, m = k + 1 := ⟨m - 1, by omega⟩
      rw [expression, expression]
      exact ih.logicalOr c m (by omega)
    · exact binaryRule_local logicalOr logicalAnd logicalOrLoop n
        (fun k t c => logicalOr_succ k t c) ih.logicalAnd ih.logicalOrLoop
    · intro e c m hm
      rw [logicalOrLoop_eq, logicalOrLoop_eq]
      exact binaryLoop_local hA _ _ (by decide) n ih.logicalAnd
        (fun e c m hm => by
          rw [← logicalOrLoop_eq, ← logicalOrLoop_eq]; exact ih.logicalOrLoop e c m hm) e c m hm
    · exact binaryRule_local logicalAnd equality logicalAndLoop n
        (fun k t c => logicalAnd_succ k t c) ih.equality ih.logicalAndLoop
    · intro e c m hm
      rw [logicalAndLoop_eq, logicalAndLoop_eq]
      exact binaryLoop_local hA _ _ (by decide) n ih.equality
        (fun e c m hm => by
          rw [← logicalAndLoop_eq, ← logicalAndLoop_eq]; exact ih.logicalAndLoop e c m hm) e c m hm
    · exact binaryRule_local equality comparison equalityLoop n
        (fun k t c => equality_succ k t c) ih.comparison ih.equalityLoop
    · intro e c m hm
      rw [equalityLoop_eq, equalityLoop_eq]
      exact binaryLoop_local hA _ _ (by decide) n ih.comparison
        (fun e c m hm => by
          rw [← equalityLoop_eq, ← equalityLoop_eq]; exact ih.equalityLoop e c m hm) e c m hm
    · exact binaryRule_local comparison term comparisonLoop n
        (fun k t c => comparison_succ k t c) ih.term ih.comparisonLoop
    · intro e c m hm
      rw [comparisonLoop_eq, comparisonLoop_eq]
      exact binaryLoop_local hA _ _ (by decide) n ih.term
        (fun e c m hm => by
          rw [← comparisonLoop_eq, ← comparisonLoop_eq]; exact ih.comparisonLoop e c m hm) e c m hm
    · exact binaryRule_local term factor termLoop n
        (fun k t c => term_succ k t c) ih.factor ih.termLoop
    · intro e c m hm
      rw [termLoop_eq, termLoop_eq]
      exact binaryLoop_local hA _ _ (by decide) n ih.factor
        (fun e c m hm => by
          rw [← termLoop_eq, ← termLoop_eq]; exact ih.termLoop e c m hm) e c m hm
    · exact binaryRule_local factor unary factorLoop n
        (fun k t c => factor_succ k t c) ih.unary ih.factorLoop
    · intro e c m hm
      rw [factorLoop_eq, factorLoop_eq]
      exact binaryLoop_local hA _ _ (by decide) n ih.unary
        (fun e c m hm => by
          rw [← factorLoop_eq, ← factorLoop_eq]; exact ih.factorLoop e c m hm) e c m hm
    · exact binaryRule_local call primary callLoop n
        (fun k t c => call_succ k t c) ih.primary ih.callLoop

end locality

end Parser

namespace Parser

/-- An identifier token is parsed by `primary` as a variable. -/
theorem primary_identifier {tokens : List Token} {c : Nat} {t : Token}
    (h : tokens[c]? = some t) (hi : t.type = TokenType.IDENTIFIER) (fuel : Nat) :
    primary (fuel + 1) tokens c = Except.ok (Expression.Variable t.value, c + 1) := by
  have hne : t.type ≠ TokenType.END_OF_FILE := by rw [hi]; decide
  rw [primary, match__not_mem h _ (by rw [hi]; decide)]
  dsimp only
  rw [match__not_mem h _ (by rw [hi]; decide)]
  dsimp only
  rw [match__not_mem h _ (by rw [hi]; decide)]
  dsimp only
  rw [match__eq h hne]
  simp only [hi, List.mem_singleton, decide_True, if_true, previous_eq h]

theorem binaryRule_pastFirst {tokens : List Token} {c : Nat}
    (f sub : Nat → List Token → Nat → Result Expression)
    (loop : Nat → List Token → Expression → Nat → Result Expression)
    (hf0 : f 0 tokens c = Except.error (Failure.outOfFuel, c))
    (hf1 : ∀ k, f (k + 1) tokens c =
      match sub k tokens c with
      | Except.error e => Except.error e
      | Except.ok r => loop k tokens r.1 r.2)
    (hloop : ∀ k e c, c ≤ cursorOf (outcome (loop k tokens e c)))
    (hsub : PastFirst tokens c sub) : PastFirst tokens c f := by
  intro k hf
  cases k with
  | zero => rw [hf0] at hf; exact absurd hf (fun h => fuelFree_outOfFuel h)
  | succ k =>
    rw [hf1] at hf ⊢
    have q := hsub k
    split
    · next x hx =>
      rw [hx] at hf q
      exact q hf.cast
    · next r hr =>
      rw [hr] at hf q
      have q1 := q (fuelFree_ok _)
      exact Nat.le_trans q1 (hloop k r.1 r.2)

theorem expression_pastFirst {tokens : List Token} {c : Nat} {t : Token}
    (h : tokens[c]? = some t) (hi : t.type = TokenType.IDENTIFIER) :
    PastFirst tokens c expression := by
  have mono := fun k => exprTraced (traced_le tokens) k
  have hprim : PastFirst tokens c primary := by
    intro k hf
    cases k with
    | zero => rw [primary] at hf; exact absurd hf (fun h => fuelFree_outOfFuel h)
    | succ k => rw [primary_identifier h hi]; exact Nat.le_refl _
  have hcall : PastFirst tokens c call :=
    binaryRule_pastFirst call primary callLoop (by rw [call])
      (fun k => call_succ k tokens c) (fun k => (mono k).callLoop) hprim
  have hunary : PastFirst tokens c unary := by
    intro k hf
    cases k with
    | zero => rw [unary] at hf; exact absurd hf (fun h => fuelFree_outOfFuel h)
    | succ k =>
      rw [unary, match__not_mem h _ (by rw [hi]; decide)] at hf ⊢
      exact hcall k hf
  have hfactor : PastFirst tokens c factor :=
    binaryRule_pastFirst factor unary factorLoop (by rw [factor])
      (fun k => factor_succ k tokens c) (fun k => (mono k).factorLoop) hunary
  have hterm : PastFirst tokens c term :=
    binaryRule_pastFirst term factor termLoop (by rw [term])
      (fun k => term_succ k tokens c) (fun k => (mono k).termLoop) hfactor
  have hcomparison : PastFirst tokens c comparison :=
    binaryRule_pastFirst comparison term comparisonLoop (by rw [comparison])
      (fun k => comparison_succ k tokens c) (fun k => (mono k).comparisonLoop) hterm
  have hequality : PastFirst tokens c equality :=
    binaryRule_pastFirst equality comparison equalityLoop (by rw [equality])
      (fun k => equality_succ k tokens c) (fun k => (mono k).equalityLoop) hcomparison
  have hand : PastFirst tokens c logicalAnd :=
    binaryRule_pastFirst logicalAnd equality logicalAndLoop (by rw [logicalAnd])
      (fun k => logicalAnd_succ k tokens c) (fun k => (mono k).logicalAndLoop) hequality
  have hor : PastFirst tokens c logicalOr :=
    binaryRule_pastFirst logicalOr logicalAnd logicalOrLoop (by rw [logicalOr])
      (fun k => logicalOr_succ k tokens c) (fun k => (mono k).logicalOrLoop) hand
  intro k hf
  cases k with
  | zero => rw [expression] at hf; exact absurd hf (fun h => fuelFree_outOfFuel h)
  | succ k =>
    rw [expression] at hf ⊢
    exact hor k hf

theorem expressionStatement_pastFirst {tokens : List Token} {c : Nat} {t : Token}
    (h : tokens[c]? = some t) (hi : t.type = TokenType.IDENTIFIER) :
    PastFirst tokens c expressionStatement := by
  intro k hf
  unfold expressionStatement at hf ⊢
  have q := expression_pastFirst h hi k
  split
  · next x hx =>
    rw [hx] at hf q
    exact q hf.cast
  · next r hr =>
    rw [hr] at hf q
    have q1 := q (fuelFree_ok _)
    have q2 := consume_traced (traced_le tokens) r.2 TokenType.SEMICOLON
      "Expected ';' after expression" (by decide)
    split
    · next x hx => rw [hx] at q2; exact Nat.le_trans q1 q2
    · next r1 hr1 => rw [hr1] at q2; exact Nat.le_trans q1 q2

theorem assignment_pastFirst {tokens : List Token} {c : Nat} {t : Token}
    (h : tokens[c]? = some t) (hi : t.type = TokenType.IDENTIFIER) :
    PastFirst tokens c assignment := by
  intro k _
  have hne : t.type ≠ TokenType.END_OF_FILE := by rw [hi]; decide
  have hc := consume_eq h hne "Expected variable name"
  rw [hi] at hc
  have q := assignment_traced (traced_le tokens) k c
  generalize hr : assignment k tokens c = r at q ⊢
  unfold assignment at hr
  rw [hc] at hr
  dsimp only at hr
  have q2 := consume_traced (traced_le tokens) (c + 1) TokenType.ASSIGN "Expected '='"
    (by decide)
  split at hr
  · next x hx => subst hr; rw [hx] at q2; exact q2
  · next eq heq =>
    rw [heq] at q2
    have q3 := (exprTraced (traced_le tokens) k).expression eq.2
    split at hr
    · next x hx => subst hr; rw [hx] at q3; exact Nat.le_trans q2 q3
    · next value hv =>
      rw [hv] at q3
      have q4 := consume_traced (traced_le tokens) value.2 TokenType.SEMICOLON
        "Expected ';' after assignment" (by decide)
      split at hr
      · next x hx => subst hr; rw [hx] at q4; exact Nat.le_trans q2 (Nat.le_trans q3 q4)
      · next r1 hr1 => subst hr; rw [hr1] at q4; exact Nat.le_trans q2 (Nat.le_trans q3 q4)

end Parser

namespace Parser

section locality

variable {t1 t2 : List Token} {N : Nat} (hA : Agree t1 t2 N)
include hA

omit hA in
/-- A read at a cursor `c'` not before `c`, followed by a rest that ends at or after `c'`. -/
theorem Local.readAt {γ β : Type} {c c' cr : Nat} {r : Result β} {M : γ → Result β}
    {x1 x2 : γ} (hcc : c ≤ c') (hx : c' ≤ N → x2 = x1)
    (tail : c' ≤ cr ∧ (cr ≤ N → M x1 = r)) :
    c ≤ cr ∧ (cr ≤ N → M x2 = r) :=
  ⟨Nat.le_trans hcc tail.1, fun h => by rw [hx (Nat.le_trans tail.1 h)]; exact tail.2 h⟩

theorem expressionStatement_local (n : Nat) :
    ∀ c m, n ≤ m → Local N c (expressionStatement n t1 c) (expressionStatement m t2 c) := by
  intro c m hm hf
  generalize hr : expressionStatement n t1 c = r at hf ⊢
  unfold expressionStatement at hr ⊢
  have L := (exprLocal hA n).expression c m hm
  generalize expression m t2 c = y2 at L ⊢
  split at hr
  · next x hx =>
    subst hr
    rw [hx] at L
    apply Local.fail (L hf.cast)
    rfl
  · next expr hexpr =>
    rw [hexpr] at L
    apply Local.seq (L (fuelFree_ok _))
    dsimp only [outcome, cursorOf]
    have L := consume_local hA expr.2 TokenType.SEMICOLON
      "Expected ';' after expression" (by decide)
    generalize consume t2 expr.2 TokenType.SEMICOLON "Expected ';' after expression" = z2 at L ⊢
    split at hr
    · next x hx =>
      subst hr
      rw [hx] at L
      apply Local.fail L
      rfl
    · next r1 hcons =>
      rw [hcons] at L
      apply Local.seq L
      dsimp only [outcome, cursorOf]
      subst hr
      exact ⟨Nat.le_refl _, fun _ => rfl⟩

theorem assignment_local (n : Nat) :
    ∀ c m, n ≤ m → Local N c (assignment n t1 c) (assignment m t2 c) := by
  intro c m hm hf
  generalize hr : assignment n t1 c = r at hf ⊢
  unfold assignment at hr ⊢
  have L := consume_local hA c TokenType.IDENTIFIER "Expected variable name" (by decide)
  generalize consume t2 c TokenType.IDENTIFIER "Expected variable name" = z2 at L ⊢
  split at hr
  · next x hx =>
    subst hr
    rw [hx] at L
    apply Local.fail L
    rfl
  · next name hname =>
    rw [hname] at L
    apply Local.seq L
    dsimp only [outcome, cursorOf]
    have L := consume_local hA name.2 TokenType.ASSIGN "Expected '='" (by decide)
    generalize consume t2 name.2 TokenType.ASSIGN "Expected '='" = z2 at L ⊢
    split at hr
    · next x hx =>
      subst hr
      rw [hx] at L
      apply Local.fail L
      rfl
    · next eq heq =>
      rw [heq] at L
      apply Local.seq L
      dsimp only [outcome, cursorOf]
      have L := (exprLocal hA n).expression eq.2 m hm
      generalize expression m t2 eq.2 = y2 at L ⊢
      split at hr
      · next x hx =>
        subst hr
        rw [hx] at L
        apply Local.fail (L hf.cast)
        rfl
      · next value hv =>
        rw [hv] at L
        apply Local.seq (L (fuelFree_ok _))
        dsimp only [outcome, cursorOf]
        have L := consume_local hA value.2 TokenType.SEMICOLON
          "Expected ';' after assignment" (by decide)
        generalize consume t2 value.2 TokenType.SEMICOLON
          "Expected ';' after assignment" = z2 at L ⊢
        split at hr
        · next x hx =>
          subst hr
          rw [hx] at L
          apply Local.fail L
          rfl
        · next r1 hcons =>
          rw [hcons] at L
          apply Local.seq L
          dsimp only [outcome, cursorOf]
          subst hr
          exact ⟨Nat.le_refl _, fun _ => rfl⟩

theorem varDeclaration_local (n : Nat) :
    ∀ c m, n ≤ m → Local N c (varDeclaration n t1 c) (varDeclaration m t2 c) := by
  intro c m hm hf
  generalize hr : varDeclaration n t1 c = r at hf ⊢
  unfold varDeclaration at hr ⊢
  have L := consume_local hA c TokenType.IDENTIFIER "Expected variable name" (by decide)
  generalize consume t2 c TokenType.IDENTIFIER "Expected variable name" = z2 at L ⊢
  split at hr
  · next x hx =>
    subst hr
    rw [hx] at L
    apply Local.fail L
    rfl
  · next name hname =>
    rw [hname] at L
    apply Local.seq L
    dsimp only [outcome, cursorOf]
    have L := match__local hA name.2 [TokenType.ASSIGN] (by decide)
    generalize match_ t2 name.2 [TokenType.ASSIGN] = x2 at L ⊢
    split at hr
    · next x hx =>
      subst hr
      rw [hx] at L
      apply Local.fail L
      rfl
    · next mm hmatch =>
      rw [hmatch] at L
      apply Local.seq L
      dsimp only [outcome, cursorOf]
      obtain ⟨b, c1⟩ := mm
      cases b
      · rw [if_neg Bool.false_ne_true] at hr ⊢
        dsimp only at hr ⊢
        have L := consume_local hA c1 TokenType.SEMICOLON
          "Expected ';' after variable declaration" (by decide)
        generalize consume t2 c1 TokenType.SEMICOLON
          "Expected ';' after variable declaration" = z2 at L ⊢
        split at hr
        · next x hx =>
          subst hr
          rw [hx] at L
          apply Local.fail L
          rfl
        · next r1 hcons =>
          rw [hcons] at L
          apply Local.seq L
          dsimp only [outcome, cursorOf]
          subst hr
          exact ⟨Nat.le_refl _, fun _ => rfl⟩
      · rw [if_pos rfl] at hr ⊢
        have L := (exprLocal hA n).expression c1 m hm
        generalize expression m t2 c1 = y2 at L ⊢
        cases he : expression n t1 c1 with
        | error x =>
          rw [he] at hr L
          dsimp only at hr
          subst hr
          apply Local.fail (L hf.cast)
          rfl
        | ok v =>
          rw [he] at hr L
          dsimp only at hr
          apply Local.seq (L (fuelFree_ok _))
          dsimp only [outcome, cursorOf]
          have L := consume_local hA v.2 TokenType.SEMICOLON
            "Expected ';' after variable declaration" (by decide)
          generalize consume t2 v.2 TokenType.SEMICOLON
            "Expected ';' after variable declaration" = z2 at L ⊢
          split at hr
          · next x hx =>
            subst hr
            rw [hx] at L
            apply Local.fail L
            rfl
          · next r1 hcons =>
            rw [hcons] at L
            apply Local.seq L
            dsimp only [outcome, cursorOf]
            subst hr
            exact ⟨Nat.le_refl _, fun _ => rfl⟩

theorem returnStatement_local (n : Nat) :
    ∀ c m, n ≤ m → Local N c (returnStatement n t1 c) (returnStatement m t2 c) := by
  intro c m hm hf
  generalize hr : returnStatement n t1 c = r at hf ⊢
  unfold returnStatement at hr ⊢
  have C := check_local hA c TokenType.SEMICOLON
  generalize check t2 c TokenType.SEMICOLON = k2 at C ⊢
  split at hr
  · next x hx =>
    obtain ⟨-, rfl⟩ := check_error hx
    subst hr
    rw [hx] at C
    apply Local.readFail C rfl
    rfl
  · next semi hsemi =>
    rw [hsemi] at C
    apply Local.read C
    dsimp only
    cases semi
    · rw [if_pos (show (!false) = true from rfl)] at hr ⊢
      have L := (exprLocal hA n).expression c m hm
      generalize expression m t2 c = y2 at L ⊢
      cases he : expression n t1 c with
      | error x =>
        rw [he] at hr L
        dsimp only at hr
        subst hr
        apply Local.fail (L hf.cast)
        rfl
      | ok v =>
        rw [he] at hr L
        dsimp only at hr
        apply Local.seq (L (fuelFree_ok _))
        dsimp only [outcome, cursorOf]
        have L := consume_local hA v.2 TokenType.SEMICOLON
          "Expected ';' after return value" (by decide)
        generalize consume t2 v.2 TokenType.SEMICOLON
          "Expected ';' after return value" = z2 at L ⊢
        split at hr
        · next x hx =>
          subst hr
          rw [hx] at L
          apply Local.fail L
          rfl
        · next r1 hcons =>
          rw [hcons] at L
          apply Local.seq L
          dsimp only [outcome, cursorOf]
          subst hr
          exact ⟨Nat.le_refl _, fun _ => rfl⟩
    · rw [if_neg (show ¬ (!true) = true by decide)] at hr ⊢
      dsimp only at hr ⊢
      have L := consume_local hA c TokenType.SEMICOLON
        "Expected ';' after return value" (by decide)
      generalize consume t2 c TokenType.SEMICOLON
        "Expected ';' after return value" = z2 at L ⊢
      split at hr
      · next x hx =>
        subst hr
        rw [hx] at L
        apply Local.fail L
        rfl
      · next r1 hcons =>
        rw [hcons] at L
        apply Local.seq L
        dsimp only [outcome, cursorOf]
        subst hr
        exact ⟨Nat.le_refl _, fun _ => rfl⟩

theorem parameterLoop_local (n : Nat) :
    ∀ p c m, n ≤ m → Local N c (parameterLoop n t1 p c) (parameterLoop m t2 p c) := by
  induction n with
  | zero =>
    intro p c m _ hf
    rw [parameterLoop] at hf
    exact absurd hf (fun h => fuelFree_outOfFuel h)
  | succ n ih =>
    intro p c m hm hf
    obtain ⟨m, rfl⟩ : ∃ k, m = k + 1 := ⟨m - 1, by omega⟩
    generalize hr : parameterLoop (n + 1) t1 p c = r at hf ⊢
    rw [parameterLoop] at hr ⊢
    have L := consume_local hA c TokenType.IDENTIFIER "Expected parameter name" (by decide)
    generalize consume t2 c TokenType.IDENTIFIER "Expected parameter name" = z2 at L ⊢
    split at hr
    · next x hx =>
      subst hr
      rw [hx] at L
      apply Local.fail L
      rfl
    · next param hparam =>
      rw [hparam] at L
      apply Local.seq L
      dsimp only [outcome, cursorOf]
      have L := match__local hA param.2 [TokenType.COMMA] (by decide)
      generalize match_ t2 param.2 [TokenType.COMMA] = x2 at L ⊢
      split at hr
      · next x hx =>
        subst hr
        rw [hx] at L
        apply Local.fail L
        rfl
      · next c1 hmatch =>
        rw [hmatch] at L
        apply Local.seq L
        dsimp only [outcome, cursorOf]
        subst hr
        exact ih _ _ m (by omega) hf
      · next c1 hmatch =>
        rw [hmatch] at L
        apply Local.seq L
        dsimp only [outcome, cursorOf]
        subst hr
        exact ⟨Nat.le_refl _, fun _ => rfl⟩

end locality

end Parser

namespace Parser

section locality

variable {t1 t2 : List Token} {N : Nat} (hA : Agree t1 t2 N)
include hA

theorem statement_local (n : Nat) (ih : StmtLocal t1 t2 N n) :
    ∀ c m, n + 1 ≤ m → Local N c (statement (n + 1) t1 c) (statement m t2 c) := by
  intro c m hm hf
  obtain ⟨m, rfl⟩ : ∃ k, m = k + 1 := ⟨m - 1, by omega⟩
  have hnm : n ≤ m := by omega
  generalize hr : statement (n + 1) t1 c = r at hf ⊢
  rw [statement] at hr ⊢
  have L := match__local hA c [TokenType.VAR] (by decide)
  generalize match_ t2 c [TokenType.VAR] = x2 at L ⊢
  split at hr
  · next x hx =>
    subst hr
    rw [hx] at L
    apply Local.fail L
    rfl
  · next c1 hmatch =>
    rw [hmatch] at L
    apply Local.seq L
    dsimp only [outcome, cursorOf]
    subst hr
    exact varDeclaration_local hA n _ m hnm hf
  · next c1 hmatch =>
    rw [hmatch] at L
    apply Local.seq L
    dsimp only [outcome, cursorOf]
    have L := match__local hA c1 [TokenType.IF] (by decide)
    generalize match_ t2 c1 [TokenType.IF] = x2 at L ⊢
    split at hr
    · next x hx =>
      subst hr
      rw [hx] at L
      apply Local.fail L
      rfl
    · next c2 hmatch =>
      rw [hmatch] at L
      apply Local.seq L
      dsimp only [outcome, cursorOf]
      subst hr
      exact ih.ifStatement _ m hnm hf
    · next c2 hmatch =>
      rw [hmatch] at L
      apply Local.seq L
      dsimp only [outcome, cursorOf]
      have L := match__local hA c2 [TokenType.WHILE] (by decide)
      generalize match_ t2 c2 [TokenType.WHILE] = x2 at L ⊢
      split at hr
      · next x hx =>
        subst hr
        rw [hx] at L
        apply Local.fail L
        rfl
      · next c3 hmatch =>
        rw [hmatch] at L
        apply Local.seq L
        dsimp only [outcome, cursorOf]
        subst hr
        exact ih.whileStatement _ m hnm hf
      · next c3 hmatch =>
        rw [hmatch] at L
        apply Local.seq L
        dsimp only [outcome, cursorOf]
        have L := match__local hA c3 [TokenType.FUNCTION] (by decide)
        generalize match_ t2 c3 [TokenType.FUNCTION] = x2 at L ⊢
        split at hr
        · next x hx =>
          subst hr
          rw [hx] at L
          apply Local.fail L
          rfl
        · next c4 hmatch =>
          rw [hmatch] at L
          apply Local.seq L
          dsimp only [outcome, cursorOf]
          subst hr
          exact ih.functionDeclaration _ m hnm hf
        · next c4 hmatch =>
          rw [hmatch] at L
          apply Local.seq L
          dsimp only [outcome, cursorOf]
          have L := match__local hA c4 [TokenType.RETURN] (by decide)
          generalize match_ t2 c4 [TokenType.RETURN] = x2 at L ⊢
          split at hr
          · next x hx =>
            subst hr
            rw [hx] at L
            apply Local.fail L
            rfl
          · next c5 hmatch =>
            rw [hmatch] at L
            apply Local.seq L
            dsimp only [outcome, cursorOf]
            subst hr
            exact returnStatement_local hA n _ m hnm hf
          · next c5 hmatch =>
            rw [hmatch] at L
            apply Local.seq L
            dsimp only [outcome, cursorOf]
            have L := match__local hA c5 [TokenType.LEFT_BRACE] (by decide)
            generalize match_ t2 c5 [TokenType.LEFT_BRACE] = x2 at L ⊢
            split at hr
            · next x hx =>
              subst hr
              rw [hx] at L
              apply Local.fail L
              rfl
            · next c6 hmatch =>
              rw [hmatch] at L
              apply Local.seq L
              dsimp only [outcome, cursorOf]
              have L := ih.block c6 m hnm
              generalize block m t2 c6 = y2 at L ⊢
              split at hr
              · next x hx =>
                subst hr
                rw [hx] at L
                apply Local.fail (L hf.cast)
                rfl
              · next r1 hb =>
                rw [hb] at L
                apply Local.seq (L (fuelFree_ok _))
                dsimp only [outcome, cursorOf]
                subst hr
                exact ⟨Nat.le_refl _, fun _ => rfl⟩
            · next c6 hmatch =>
              rw [hmatch] at L
              apply Local.seq L
              dsimp only [outcome, cursorOf]
              have C := check_local hA c6 TokenType.IDENTIFIER
              generalize check t2 c6 TokenType.IDENTIFIER = k2 at C ⊢
              split at hr
              · next x hx =>
                obtain ⟨-, rfl⟩ := check_error hx
                subst hr
                rw [hx] at C
                apply Local.readFail C rfl
                rfl
              · next hchk =>
                rw [hchk] at C
                apply Local.read C
                dsimp only
                subst hr
                exact expressionStatement_local hA n _ m hnm hf
              · next hchk =>
                rw [hchk] at C
                apply Local.read C
                dsimp only
                obtain ⟨t, ht, hb⟩ := check_ok hchk
                have hb' := of_decide_eq_true hb.symm
                rw [advance_step ht hb'.1] at hr
                dsimp only at hr
                have A : c6 ≤ N → advance t2 c6 = Except.ok (t, c6 + 1) := fun hle =>
                  advance_step ((hA c6 hle).symm.trans ht) hb'.1
                generalize advance t2 c6 = a2 at A ⊢
                apply Local.read A
                dsimp only
                have C := check_local hA (c6 + 1) TokenType.ASSIGN
                generalize check t2 (c6 + 1) TokenType.ASSIGN = k2 at C ⊢
                split at hr
                · next x hx =>
                  obtain ⟨-, rfl⟩ := check_error hx
                  subst hr
                  rw [hx] at C
                  refine ⟨Nat.le_succ _, fun hle => ?_⟩
                  rw [C hle]
                · next hchk2 =>
                  rw [hchk2] at C
                  apply Local.readAt (Nat.le_succ _) C
                  dsimp only
                  subst hr
                  exact ⟨assignment_pastFirst ht hb'.2 n hf, (assignment_local hA n _ m hnm hf).2⟩
                · next hchk2 =>
                  rw [hchk2] at C
                  apply Local.readAt (Nat.le_succ _) C
                  dsimp only
                  subst hr
                  exact ⟨expressionStatement_pastFirst ht hb'.2 n hf,
                    (expressionStatement_local hA n _ m hnm hf).2⟩

theorem ifStatement_local (n : Nat) (ih : StmtLocal t1 t2 N n) :
    ∀ c m, n + 1 ≤ m → Local N c (ifStatement (n + 1) t1 c) (ifStatement m t2 c) := by
  intro c m hm hf
  obtain ⟨m, rfl⟩ : ∃ k, m = k + 1 := ⟨m - 1, by omega⟩
  have hnm : n ≤ m := by omega
  generalize hr : ifStatement (n + 1) t1 c = r at hf ⊢
  rw [ifStatement] at hr ⊢
  have L := consume_local hA c TokenType.LEFT_PAREN
    "Expected '(' after 'if'" (by decide)
  generalize consume t2 c TokenType.LEFT_PAREN
    "Expected '(' after 'if'" = y2 at L ⊢
  split at hr
  · next x hx =>
    subst hr
    rw [hx] at L
    apply Local.fail L
    rfl
  · next l hl =>
    rw [hl] at L
    apply Local.seq L
    dsimp only [outcome, cursorOf]
    have L := (exprLocal hA n).expression l.2 m hnm
    generalize expression m t2 l.2 = y2 at L ⊢
    split at hr
    · next x hx =>
      subst hr
      rw [hx] at L
      apply Local.fail (L hf.cast)
      rfl
    · next condition hcond =>
      rw [hcond] at L
      apply Local.seq (L (fuelFree_ok _))
      dsimp only [outcome, cursorOf]
      have L := consume_local hA condition.2 TokenType.RIGHT_PAREN
        "Expected ')' after if condition" (by decide)
      generalize consume t2 condition.2 TokenType.RIGHT_PAREN
        "Expected ')' after if condition" = y2 at L ⊢
      split at hr
      · next x hx =>
        subst hr
        rw [hx] at L
        apply Local.fail L
        rfl
      · next r1 hr1 =>
        rw [hr1] at L
        apply Local.seq L
        dsimp only [outcome, cursorOf]
        have L := ih.statement r1.2 m hnm
        generalize statement m t2 r1.2 = y2 at L ⊢
        split at hr
        · next x hx =>
          subst hr
          rw [hx] at L
          apply Local.fail (L hf.cast)
          rfl
        · next thenBranch hthen =>
          rw [hthen] at L
          apply Local.seq (L (fuelFree_ok _))
          dsimp only [outcome, cursorOf]
          have L := match__local hA thenBranch.2 [TokenType.ELSE] (by decide)
          generalize match_ t2 thenBranch.2 [TokenType.ELSE] = x2 at L ⊢
          split at hr
          · next x hx =>
            subst hr
            rw [hx] at L
            apply Local.fail L
            rfl
          · next c1 hmatch =>
            rw [hmatch] at L
            apply Local.seq L
            dsimp only [outcome, cursorOf]
            have L := ih.statement c1 m hnm
            generalize statement m t2 c1 = y2 at L ⊢
            split at hr
            · next x hx =>
              subst hr
              rw [hx] at L
              apply Local.fail (L hf.cast)
              rfl
            · next elseBranch helse =>
              rw [helse] at L
              apply Local.seq (L (fuelFree_ok _))
              dsimp only [outcome, cursorOf]
              subst hr
              exact ⟨Nat.le_refl _, fun _ => rfl⟩
          · next c1 hmatch =>
            rw [hmatch] at L
            apply Local.seq L
            dsimp only [outcome, cursorOf]
            subst hr
            exact ⟨Nat.le_refl _, fun _ => rfl⟩

theorem whileStatement_local (n : Nat) (ih : StmtLocal t1 t2 N n) :
    ∀ c m, n + 1 ≤ m → Local N c (whileStatement (n + 1) t1 c) (whileStatement m t2 c) := by
  intro c m hm hf
  obtain ⟨m, rfl⟩ : ∃ k, m = k + 1 := ⟨m - 1, by omega⟩
  have hnm : n ≤ m := by omega
  generalize hr : whileStatement (n + 1) t1 c = r at hf ⊢
  rw [whileStatement] at hr ⊢
  have L := consume_local hA c TokenType.LEFT_PAREN
    "Expected '(' after 'while'" (by decide)
  generalize consume t2 c TokenType.LEFT_PAREN
    "Expected '(' after 'while'" = y2 at L ⊢
  split at hr
  · next x hx =>
    subst hr
    rw [hx] at L
    apply Local.fail L
    rfl
  · next l hl =>
    rw [hl] at L
    apply Local.seq L
    dsimp only [outcome, cursorOf]
    have L := (exprLocal hA n).expression l.2 m hnm
    generalize expression m t2 l.2 = y2 at L ⊢
    split at hr
    · next x hx =>
      subst hr
      rw [hx] at L
      apply Local.fail (L hf.cast)
      rfl
    · next condition hcond =>
      rw [hcond] at L
      apply Local.seq (L (fuelFree_ok _))
      dsimp only [outcome, cursorOf]
      have L := consume_local hA condition.2 TokenType.RIGHT_PAREN
        "Expected ')' after while condition" (by decide)
      generalize consume t2 condition.2 TokenType.RIGHT_PAREN
        "Expected ')' after while condition" = y2 at L ⊢
      split at hr
      · next x hx =>
        subst hr
        rw [hx] at L
        apply Local.fail L
        rfl
      · next r1 hr1 =>
        rw [hr1] at L
        apply Local.seq L
        dsimp only [outcome, cursorOf]
        have L := ih.statement r1.2 m hnm
        generalize statement m t2 r1.2 = y2 at L ⊢
        split at hr
        · next x hx =>
          subst hr
          rw [hx] at L
          apply Local.fail (L hf.cast)
          rfl
        · next body hbody =>
          rw [hbody] at L
          apply Local.seq (L (fuelFree_ok _))
          dsimp only [outcome, cursorOf]
          subst hr
          exact ⟨Nat.le_refl _, fun _ => rfl⟩

theorem functionDeclaration_local (n : Nat) (ih : StmtLocal t1 t2 N n) :
    ∀ c m, n + 1 ≤ m → Local N c (functionDeclaration (n + 1) t1 c) (functionDeclaration m t2 c) := by
  intro c m hm hf
  obtain ⟨m, rfl⟩ : ∃ k, m = k + 1 := ⟨m - 1, by omega⟩
  have hnm : n ≤ m := by omega
  generalize hr : functionDeclaration (n + 1) t1 c = r at hf ⊢
  rw [functionDeclaration] at hr ⊢
  have L := consume_local hA c TokenType.IDENTIFIER
    "Expected function name" (by decide)
  generalize consume t2 c TokenType.IDENTIFIER
    "Expected function name" = y2 at L ⊢
  split at hr
  · next x hx =>
    subst hr
    rw [hx] at L
    apply Local.fail L
    rfl
  · next name hname =>
    rw [hname] at L
    apply Local.seq L
    dsimp only [outcome, cursorOf]
    have L := consume_local hA name.2 TokenType.LEFT_PAREN
      "Expected '(' after function name" (by decide)
    generalize consume t2 name.2 TokenType.LEFT_PAREN
      "Expected '(' after function name" = y2 at L ⊢
    split at hr
    · next x hx =>
      subst hr
      rw [hx] at L
      apply Local.fail L
      rfl
    · next l hl =>
      rw [hl] at L
      apply Local.seq L
      dsimp only [outcome, cursorOf]
      have C := check_local hA l.2 TokenType.RIGHT_PAREN
      generalize check t2 l.2 TokenType.RIGHT_PAREN = k2 at C ⊢
      split at hr
      · next x hx =>
        obtain ⟨-, rfl⟩ := check_error hx
        subst hr
        rw [hx] at C
        apply Local.readFail C rfl
        rfl
      · next closing hc =>
        rw [hc] at C
        apply Local.read C
        dsimp only
        have L : Local N l.2
            (if !closing then parameterLoop n t1 [] l.2 else Except.ok ([], l.2))
            (if !closing then parameterLoop m t2 [] l.2 else Except.ok ([], l.2)) := by
          cases closing
          · exact parameterLoop_local hA n [] l.2 m hnm
          · exact fun _ => ⟨Nat.le_refl _, fun _ => rfl⟩
        generalize (if !closing then parameterLoop m t2 [] l.2
          else Except.ok ([], l.2) : Result (List String)) = y2 at L ⊢
        split at hr
        · next x hx =>
          subst hr
          rw [hx] at L
          apply Local.fail (L hf.cast)
          rfl
        · next parameters hp =>
          rw [hp] at L
          apply Local.seq (L (fuelFree_ok _))
          dsimp only [outcome, cursorOf]
          have L := consume_local hA parameters.2 TokenType.RIGHT_PAREN
            "Expected ')' after parameters" (by decide)
          generalize consume t2 parameters.2 TokenType.RIGHT_PAREN
            "Expected ')' after parameters" = y2 at L ⊢
          split at hr
          · next x hx =>
            subst hr
            rw [hx] at L
            apply Local.fail L
            rfl
          · next r1 hr1 =>
            rw [hr1] at L
            apply Local.seq L
            dsimp only [outcome, cursorOf]
            have L := consume_local hA r1.2 TokenType.LEFT_BRACE
              "Expected '\x7b' before function body" (by decide)
            generalize consume t2 r1.2 TokenType.LEFT_BRACE
              "Expected '\x7b' before function body" = y2 at L ⊢
            split at hr
            · next x hx =>
              subst hr
              rw [hx] at L
              apply Local.fail L
              rfl
            · next b hb =>
              rw [hb] at L
              apply Local.seq L
              dsimp only [outcome, cursorOf]
              have L := ih.block b.2 m hnm
              generalize block m t2 b.2 = y2 at L ⊢
              split at hr
              · next x hx =>
                subst hr
                rw [hx] at L
                apply Local.fail (L hf.cast)
                rfl
              · next body hbody =>
                rw [hbody] at L
                apply Local.seq (L (fuelFree_ok _))
                dsimp only [outcome, cursorOf]
                subst hr
                exact ⟨Nat.le_refl _, fun _ => rfl⟩

theorem block_local (n : Nat) (ih : StmtLocal t1 t2 N n) :
    ∀ c m, n + 1 ≤ m → Local N c (block (n + 1) t1 c) (block m t2 c) := by
  intro c m hm hf
  obtain ⟨m, rfl⟩ : ∃ k, m = k + 1 := ⟨m - 1, by omega⟩
  have hnm : n ≤ m := by omega
  generalize hr : block (n + 1) t1 c = r at hf ⊢
  rw [block] at hr ⊢
  have L := ih.blockLoop [] c m hnm
  generalize blockLoop m t2 [] c = y2 at L ⊢
  split at hr
  · next x hx =>
    subst hr
    rw [hx] at L
    apply Local.fail (L hf.cast)
    rfl
  · next statements hs =>
    rw [hs] at L
    apply Local.seq (L (fuelFree_ok _))
    dsimp only [outcome, cursorOf]
    have L := consume_local hA statements.2 TokenType.RIGHT_BRACE
      "Expected '\x7d' after block" (by decide)
    generalize consume t2 statements.2 TokenType.RIGHT_BRACE
      "Expected '\x7d' after block" = y2 at L ⊢
    split at hr
    · next x hx =>
      subst hr
      rw [hx] at L
      apply Local.fail L
      rfl
    · next r1 hr1 =>
      rw [hr1] at L
      apply Local.seq L
      dsimp only [outcome, cursorOf]
      subst hr
      exact ⟨Nat.le_refl _, fun _ => rfl⟩

theorem blockLoop_local (n : Nat) (ih : StmtLocal t1 t2 N n) :
    ∀ s c m, n + 1 ≤ m → Local N c (blockLoop (n + 1) t1 s c) (blockLoop m t2 s c) := by
  intro s c m hm hf
  obtain ⟨m, rfl⟩ : ∃ k, m = k + 1 := ⟨m - 1, by omega⟩
  have hnm : n ≤ m := by omega
  generalize hr : blockLoop (n + 1) t1 s c = r at hf ⊢
  rw [blockLoop] at hr ⊢
  have C := check_local hA c TokenType.RIGHT_BRACE
  generalize check t2 c TokenType.RIGHT_BRACE = k2 at C ⊢
  split at hr
  · next x hx =>
    obtain ⟨-, rfl⟩ := check_error hx
    subst hr
    rw [hx] at C
    apply Local.readFail C rfl
    rfl
  · next hchk =>
    rw [hchk] at C
    apply Local.read C
    dsimp only
    subst hr
    exact ⟨Nat.le_refl _, fun _ => rfl⟩
  · next hchk =>
    rw [hchk] at C
    apply Local.read C
    dsimp only
    have C := isAtEnd_local hA c
    generalize isAtEnd t2 c = k2 at C ⊢
    split at hr
    · next x hx =>
      obtain ⟨-, rfl⟩ := isAtEnd_error hx
      subst hr
      rw [hx] at C
      apply Local.readFail C rfl
      rfl
    · next hend =>
      rw [hend] at C
      apply Local.read C
      dsimp only
      subst hr
      exact ⟨Nat.le_refl _, fun _ => rfl⟩
    · next hend =>
      rw [hend] at C
      apply Local.read C
      dsimp only
      have L := ih.statement c m hnm
      generalize statement m t2 c = y2 at L ⊢
      split at hr
      · next x hx =>
        subst hr
        rw [hx] at L
        apply Local.fail (L hf.cast)
        rfl
      · next r1 h1 =>
        rw [h1] at L
        apply Local.seq (L (fuelFree_ok _))
        dsimp only [outcome, cursorOf]
        subst hr
        exact ih.blockLoop _ _ m hnm hf

/-- Every rule of the statement grammar is local. -/
theorem stmtLocal (fuel : Nat) : StmtLocal t1 t2 N fuel := by
  induction fuel with
  | zero =>
    constructor <;> intros <;> intro hf <;> exfalso <;>
      first
        | (rw [statement] at hf; exact fuelFree_outOfFuel hf)
        | (rw [ifStatement] at hf; exact fuelFree_outOfFuel hf)
        | (rw [whileStatement] at hf; exact fuelFree_outOfFuel hf)
        | (rw [functionDeclaration] at hf; exact fuelFree_outOfFuel hf)
        | (rw [block] at hf; exact fuelFree_outOfFuel hf)
        | (rw [blockLoop] at hf; exact fuelFree_outOfFuel hf)
  | succ n ih =>
    exact ⟨statement_local hA n ih, ifStatement_local hA n ih,
      whileStatement_local hA n ih, functionDeclaration_local hA n ih,
      block_local hA n ih, blockLoop_local hA n ih⟩

end locality

end Parser

/-! ## The loop of `parse`: the first failure is the one reported -/

namespace Parser

theorem agree_refl (tokens : List Token) (N : Nat) : Agree tokens tokens N := fun _ _ => rfl

theorem Agree.symm {t1 t2 : List Token} {N : Nat} (h : Agree t1 t2 N) : Agree t2 t1 N :=
  fun i hi => (h i hi).symm

theorem Agree.mono {t1 t2 : List Token} {N M : Nat} (h : Agree t1 t2 N) (hM : M ≤ N) :
    Agree t1 t2 M :=
  fun i hi => h i (Nat.le_trans hi hM)

theorem Terminated.pos {tokens : List Token} (hT : Terminated tokens) : 0 < tokens.length := by
  obtain ⟨last, hl, -⟩ := hT
  cases tokens with
  | nil => simp at hl
  | cons t ts => simp

/-- Inside a token vector that ends in `END_OF_FILE`, the skip-to-semicolon
loop of the `catch` block stops inside the vector. -/
theorem recoverLoop_eq {tokens : List Token} (hT : Terminated tokens) (n : Nat) :
    ∀ c, c < tokens.length → tokens.length - c < n →
      ∃ c', recoverLoop n tokens c = Except.ok c' ∧ c' < tokens.length := by
  induction n with
  | zero => intro c _ hb; omega
  | succ n ih =>
    intro c hc hb
    obtain ⟨t, ht⟩ : ∃ t, tokens[c]? = some t := ⟨tokens[c], List.getElem?_eq_getElem hc⟩
    rw [recoverLoop, isAtEnd_eq ht]
    by_cases he : t.type = TokenType.END_OF_FILE
    · rw [decide_eq_true he]
      exact ⟨c, rfl, hc⟩
    · rw [decide_eq_false he]
      dsimp only
      rw [peek_eq ht]
      dsimp only
      by_cases hs : t.type = TokenType.SEMICOLON
      · rw [if_neg (by simpa using hs)]
        exact ⟨c, rfl, hc⟩
      · rw [if_pos hs, advance_step ht he]
        dsimp only
        exact ih (c + 1) (hT.succ_lt ht he) (by omega)

/-- Inside a token vector that ends in `END_OF_FILE`, the `catch` block of
`parse` rethrows the error it caught. -/
theorem recover_eq {tokens : List Token} (hT : Terminated tokens) (error : Failure) {c : Nat}
    (hc : c < tokens.length) : (recover tokens error c).1 = error := by
  obtain ⟨c', h1, hc'⟩ := recoverLoop_eq hT (tokens.length - c + 1) c hc (by omega)
  obtain ⟨t, ht⟩ : ∃ t, tokens[c']? = some t := ⟨tokens[c'], List.getElem?_eq_getElem hc'⟩
  unfold recover
  rw [h1]
  dsimp only
  rw [isAtEnd_eq ht]
  by_cases he : t.type = TokenType.END_OF_FILE
  · rw [decide_eq_true he]
  · rw [decide_eq_false he]
    dsimp only
    rw [advance_step ht he]

section traced

variable {tokens : List Token} {P : Nat → Except (Failure × Nat) Nat → Prop}
  (hP : Traced tokens P)
include hP

theorem statementsLoop_traced (fuel : Nat) :
    ∀ s c, P c (outcome (statementsLoop fuel tokens s c)) := by
  induction fuel with
  | zero =>
    intro s c
    rw [statementsLoop]
    exact hP.fuel _
  | succ n ih =>
    intro s c
    generalize hr : statementsLoop (n + 1) tokens s c = r
    rw [statementsLoop] at hr
    split at hr
    · next x hx => subst hr; exact isAtEnd_traced hP hx
    · subst hr; exact hP.stay _
    · have q1 := (stmtTraced hP n).statement c
      split at hr
      · next r1 h1 =>
        rw [h1] at q1
        subst hr
        exact hP.seq _ _ _ q1 (ih _ _)
      · next x hx => subst hr; rw [hx] at q1; exact q1

end traced

/-- On a token vector that ends in `END_OF_FILE`, the loop of `parse` and the
loop without the `catch` block end with the same program or the same failure. -/
theorem parseLoop_finish {tokens : List Token} (hT : Terminated tokens) (fuel : Nat) :
    ∀ s c, c < tokens.length →
      finish (parseLoop fuel tokens s c) = finish (statementsLoop fuel tokens s c) := by
  induction fuel with
  | zero =>
    intro s c _
    rw [parseLoop, statementsLoop]
  | succ n ih =>
    intro s c hc
    rw [parseLoop, statementsLoop]
    have hb := (stmtTraced (traced_bounds hT) n).statement c hc
    cases he : isAtEnd tokens c with
    | error e => rfl
    | ok b =>
      cases b with
      | true => rfl
      | false =>
        dsimp only
        cases hs : statement n tokens c with
        | ok r1 =>
          rw [hs] at hb
          dsimp only
          exact ih _ _ hb.1
        | error x =>
          rw [hs] at hb
          obtain ⟨e, c1⟩ := x
          cases e with
          | ParseError message =>
            dsimp only
            show Except.error (recover tokens (Failure.ParseError message) c1).1 = _
            have hc1 : c1 < tokens.length := hb.1
            rw [recover_eq hT _ hc1]
            rfl
          | out_of_range => rfl
          | invalid_argument => rfl
          | outOfBounds => rfl
          | outOfFuel => rfl

/-- On a token vector that ends in `END_OF_FILE`, `parse` returns the program,
or the failure of the first statement rule that failed, as the loop without the
`catch` block does. -/
theorem parse_eq_statementsLoop {tokens : List Token} (hT : Terminated tokens) :
    parse tokens = finish (statementsLoop (parseFuel tokens) tokens [] 0) := by
  rw [← parseLoop_finish hT _ _ _ hT.pos]
  rfl

theorem statementsLoop_fuelFree (tokens : List Token) (n : Nat) :
    ∀ s c, 16 * (tokens.length - c) + 12 ≤ n → FuelFree (statementsLoop n tokens s c) := by
  induction n with
  | zero => intro s c hb; omega
  | succ n ih =>
    intro s c hb c' h
    rw [statementsLoop] at h
    split at h
    · next x hx => injection h with h; subst h; exact isAtEnd_fuelFree _ _ _ hx
    · exact Except.noConfusion h
    · next hend =>
      obtain ⟨t, ht, -⟩ := isAtEnd_ok hend
      have := lt_length_of_getElem? ht
      split at h
      · next r1 hs =>
        have := statement_progress tokens _ _ _ hs
        exact ih _ _ (by omega) _ h
      · next x hx =>
        injection h with h; subst h
        exact (stmtFuelFree tokens n).statement c (by omega) _ hx

theorem statementsLoop_parseFuel (tokens : List Token) :
    FuelFree (statementsLoop (parseFuel tokens) tokens [] 0) :=
  statementsLoop_fuelFree tokens _ [] 0 (by unfold parseFuel; omega)

section locality

variable {t1 t2 : List Token} {N : Nat} (hA : Agree t1 t2 N)
include hA

theorem statementsLoop_local (n : Nat) :
    ∀ s c m, n ≤ m → Local N c (statementsLoop n t1 s c) (statementsLoop m t2 s c) := by
  induction n with
  | zero =>
    intro s c m _ hf
    rw [statementsLoop] at hf
    exact absurd hf (fun h => fuelFree_outOfFuel h)
  | succ n ih =>
    intro s c m hm hf
    obtain ⟨m, rfl⟩ : ∃ k, m = k + 1 := ⟨m - 1, by omega⟩
    have hnm : n ≤ m := by omega
    generalize hr : statementsLoop (n + 1) t1 s c = r at hf ⊢
    rw [statementsLoop] at hr ⊢
    have C := isAtEnd_local hA c
    generalize isAtEnd t2 c = k2 at C ⊢
    split at hr
    · next x hx =>
      obtain ⟨-, rfl⟩ := isAtEnd_error hx
      subst hr
      rw [hx] at C
      apply Local.readFail C rfl
      rfl
    · next hend =>
      rw [hend] at C
      apply Local.read C
      dsimp only
      subst hr
      exact ⟨Nat.le_refl _, fun _ => rfl⟩
    · next hend =>
      rw [hend] at C
      apply Local.read C
      dsimp only
      have L := (stmtLocal hA n).statement c m hnm
      generalize statement m t2 c = y2 at L ⊢
      split at hr
      · next r1 h1 =>
        rw [h1] at L
        apply Local.seq (L (fuelFree_ok _))
        dsimp only [outcome, cursorOf]
        subst hr
        exact ih _ _ m hnm hf
      · next x hx =>
        subst hr
        rw [hx] at L
        apply Local.fail (L hf.cast)
        rfl

end locality

end Parser

/-! ## Results that do not depend on the fuel -/

namespace Parser

/-- More fuel does not change the way a call ends, once it has not run out of fuel. -/
theorem ends_of_local {α : Type} {f : Nat → List Token → Nat → Result α} {tokens : List Token}
    {c n : Nat} {r : Result α}
    (hL : ∀ N, Agree tokens tokens N → ∀ m, n ≤ m → Local N c (f n tokens c) (f m tokens c))
    (hr : f n tokens c = r) (hf : FuelFree r) : Ends f tokens c r := by
  refine ⟨n, fun m hm => ?_⟩
  have h := hL (cursorOf (outcome r)) (agree_refl tokens _) m hm
  rw [hr] at h
  exact (h hf).2 (Nat.le_refl _)

theorem Ends.unique {α : Type} {f : Nat → List Token → Nat → Result α} {tokens : List Token}
    {c : Nat} {r r' : Result α} (h : Ends f tokens c r) (h' : Ends f tokens c r') : r = r' := by
  obtain ⟨F, hF⟩ := h
  obtain ⟨F', hF'⟩ := h'
  rw [← hF (max F F') (Nat.le_max_left _ _), ← hF' (max F F') (Nat.le_max_right _ _)]

theorem expression_ends {tokens : List Token} {c n : Nat} {r : Result Expression}
    (hr : expression n tokens c = r) (hf : FuelFree r) : Ends expression tokens c r :=
  ends_of_local (fun _ hA m hm => (exprLocal hA n).expression c m hm) hr hf

theorem unary_ends {tokens : List Token} {c n : Nat} {r : Result Expression}
    (hr : unary n tokens c = r) (hf : FuelFree r) : Ends unary tokens c r :=
  ends_of_local (fun _ hA m hm => (exprLocal hA n).unary c m hm) hr hf

theorem call_ends {tokens : List Token} {c n : Nat} {r : Result Expression}
    (hr : call n tokens c = r) (hf : FuelFree r) : Ends call tokens c r :=
  ends_of_local (fun _ hA m hm => (exprLocal hA n).call c m hm) hr hf

theorem primary_ends {tokens : List Token} {c n : Nat} {r : Result Expression}
    (hr : primary n tokens c = r) (hf : FuelFree r) : Ends primary tokens c r :=
  ends_of_local (fun _ hA m hm => (exprLocal hA n).primary c m hm) hr hf

theorem statement_ends {tokens : List Token} {c n : Nat} {r : Result Statement}
    (hr : statement n tokens c = r) (hf : FuelFree r) : Ends statement tokens c r :=
  ends_of_local (fun _ hA m hm => (stmtLocal hA n).statement c m hm) hr hf

/-- The fuel of `parse` is enough for the first statement: it ends the way it
ends on every large fuel. -/
theorem statement_parseFuel {tokens : List Token} {c : Nat} {r : Result Statement} {n : Nat}
    (h : Ends statement tokens c r) (hn : 16 * (tokens.length - c) + 11 ≤ n) :
    statement n tokens c = r :=
  (statement_ends rfl ((stmtFuelFree tokens n).statement c hn)).unique h

/-- If the first statement ends the whole token vector, `parse` returns it. -/
theorem parse_single {tokens : List Token} {s : Statement} {c : Nat} {t0 eof : Token}
    (h0 : tokens[0]? = some t0) (hne : t0.type ≠ TokenType.END_OF_FILE)
    (h : Ends statement tokens 0 (Except.ok (s, c)))
    (hc : tokens[c]? = some eof) (he : eof.type = TokenType.END_OF_FILE) :
    parse tokens = Except.ok ⟨[s]⟩ := by
  have hlen := lt_length_of_getElem? h0
  obtain ⟨F, hF⟩ : ∃ F, parseFuel tokens = F + 2 := ⟨parseFuel tokens - 2, by
    unfold parseFuel; omega⟩
  have hs : statement (F + 1) tokens 0 = Except.ok (s, c) :=
    statement_parseFuel h (by unfold parseFuel at hF; omega)
  unfold parse
  rw [hF, parseLoop, isAtEnd_eq h0, decide_eq_false hne]
  dsimp only
  rw [hs]
  dsimp only
  rw [parseLoop, isAtEnd_eq hc, decide_eq_true he]
  rfl

/-- If the first statement fails with a `ParseError`, `parse` fails with it. -/
theorem parse_first_error {tokens : List Token} (hT : Terminated tokens) {e : Failure} {c : Nat}
    {t0 : Token} (h0 : tokens[0]? = some t0) (hne : t0.type ≠ TokenType.END_OF_FILE)
    (h : Ends statement tokens 0 (Except.error (e, c))) :
    parse tokens = Except.error e := by
  have hlen := lt_length_of_getElem? h0
  obtain ⟨F, hF⟩ : ∃ F, parseFuel tokens = F + 1 := ⟨parseFuel tokens - 1, by
    unfold parseFuel; omega⟩
  have hs : statement F tokens 0 = Except.error (e, c) :=
    statement_parseFuel h (by unfold parseFuel at hF; omega)
  rw [parse_eq_statementsLoop hT, hF, statementsLoop, isAtEnd_eq h0, decide_eq_false hne]
  dsimp only
  rw [hs]
  rfl

end Parser

/-! ## Climbing the precedence ladder -/

namespace Parser

theorem Ends.binary_fail (f sub : Nat → List Token → Nat → Result Expression)
    (loop : Nat → List Token → Expression → Nat → Result Expression)
    (hf1 : ∀ k t c, f (k + 1) t c =
      match sub k t c with
      | Except.error e => Except.error e
      | Except.ok r => loop k t r.1 r.2)
    {tokens : List Token} {c : Nat} {x : Failure × Nat}
    (h : Ends sub tokens c (Except.error x)) : Ends f tokens c (Except.error x) := by
  obtain ⟨F, hF⟩ := h
  refine ⟨F + 1, fun fuel hfuel => ?_⟩
  obtain ⟨k, rfl⟩ : ∃ k, fuel = k + 1 := ⟨fuel - 1, by omega⟩
  rw [hf1, hF k (by omega)]

theorem Ends.binary_pass (f sub : Nat → List Token → Nat → Result Expression)
    (loop : Nat → List Token → Expression → Nat → Result Expression) (ops : List TokenType)
    (hf1 : ∀ k t c, f (k + 1) t c =
      match sub k t c with
      | Except.error e => Except.error e
      | Except.ok r => loop k t r.1 r.2)
    (hloop : ∀ k t e c, loop k t e c = binaryLoop sub ops k t e c)
    {tokens : List Token} {c c' : Nat} {e : Expression} {tk : Token}
    (h : Ends sub tokens c (Except.ok (e, c'))) (hk : tokens[c']? = some tk)
    (hnot : tk.type ∉ ops) : Ends f tokens c (Except.ok (e, c')) := by
  obtain ⟨F, hF⟩ := h
  refine ⟨F + 2, fun fuel hfuel => ?_⟩
  obtain ⟨k, rfl⟩ : ∃ k, fuel = k + 2 := ⟨fuel - 2, by omega⟩
  rw [hf1, hF (k + 1) (by omega)]
  dsimp only
  rw [hloop, binaryLoop_stop sub ops hk hnot]

theorem Ends.binary_one (f sub : Nat → List Token → Nat → Result Expression)
    (loop : Nat → List Token → Expression → Nat → Result Expression) (ops : List TokenType)
    (hf1 : ∀ k t c, f (k + 1) t c =
      match sub k t c with
      | Except.error e => Except.error e
      | Except.ok r => loop k t r.1 r.2)
    (hloop : ∀ k t e c, loop k t e c = binaryLoop sub ops k t e c)
    {tokens : List Token} {c c1 c2 : Nat} {e1 e2 : Expression} {op tk : Token}
    (h1 : Ends sub tokens c (Except.ok (e1, c1))) (hop : tokens[c1]? = some op)
    (hmem : op.type ∈ ops) (hne : op.type ≠ TokenType.END_OF_FILE)
    (h2 : Ends sub tokens (c1 + 1) (Except.ok (e2, c2))) (hk : tokens[c2]? = some tk)
    (hnot : tk.type ∉ ops) :
    Ends f tokens c (Except.ok (Expression.BinaryOperation e1 op.value e2, c2)) := by
  obtain ⟨F1, hF1⟩ := h1
  obtain ⟨F2, hF2⟩ := h2
  refine ⟨max F1 F2 + 3, fun fuel hfuel => ?_⟩
  obtain ⟨k, rfl⟩ : ∃ k, fuel = k + 3 := ⟨fuel - 3, by omega⟩
  rw [hf1, hF1 (k + 2) (by omega)]
  dsimp only
  rw [hloop, binaryLoop_go sub ops hop hne hmem, hF2 (k + 1) (by omega)]
  dsimp only
  rw [binaryLoop_stop sub ops hk hnot]

/-- One level of the ladder on `a op b`: if the rule of the next level behaves
as `levelResult` says, so does this one. -/
theorem Ends.level_step (f sub : Nat → List Token → Nat → Result Expression)
    (loop : Nat → List Token → Expression → Nat → Result Expression) (ops : List TokenType)
    (L : Nat)
    (hf1 : ∀ k t c, f (k + 1) t c =
      match sub k t c with
      | Except.error e => Except.error e
      | Except.ok r => loop k t r.1 r.2)
    (hloop : ∀ k t e c, loop k t e c = binaryLoop sub ops k t e c)
    (hops : ∀ ty, ty ∈ ops ↔ binaryLevel ty = some L)
    {tokens : List Token} {c c1 c2 l : Nat} {e1 e2 : Expression} {op tk : Token}
    (hop : tokens[c1]? = some op) (hl : binaryLevel op.type = some l)
    (hk : tokens[c2]? = some tk) (hnone : binaryLevel tk.type = none)
    (h : Ends sub tokens c (Except.ok (levelResult e1 e2 op.value c1 c2 l (L + 1))) ∧
      Ends sub tokens (c1 + 1) (Except.ok (e2, c2))) :
    Ends f tokens c (Except.ok (levelResult e1 e2 op.value c1 c2 l L)) ∧
      Ends f tokens (c1 + 1) (Except.ok (e2, c2)) := by
  have hnot : tk.type ∉ ops := fun hm => by
    rw [hops, hnone] at hm
    exact Option.noConfusion hm
  refine ⟨?_, Ends.binary_pass f sub loop ops hf1 hloop h.2 hk hnot⟩
  unfold levelResult at h ⊢
  by_cases c1' : L + 1 ≤ l
  · rw [if_pos c1'] at h
    rw [if_pos (by omega)]
    exact Ends.binary_pass f sub loop ops hf1 hloop h.1 hk hnot
  · rw [if_neg c1'] at h
    by_cases c2' : L ≤ l
    · rw [if_pos c2']
      have hL : l = L := by omega
      exact Ends.binary_one f sub loop ops hf1 hloop h.1 hop
        ((hops _).2 (by rw [hl, hL])) (binaryLevel_ne_eof hl) h.2 hk hnot
    · rw [if_neg c2']
      refine Ends.binary_pass f sub loop ops hf1 hloop h.1 hop (fun hm => ?_)
      rw [hops, hl] at hm
      injection hm with hm
      omega

theorem Ends.expression_of_logicalOr {tokens : List Token} {c : Nat} {r : Result Expression}
    (h : Ends logicalOr tokens c r) : Ends expression tokens c r := by
  obtain ⟨F, hF⟩ := h
  refine ⟨F + 1, fun fuel hfuel => ?_⟩
  obtain ⟨k, rfl⟩ : ∃ k, fuel = k + 1 := ⟨fuel - 1, by omega⟩
  rw [expression, hF k (by omega)]

/-- The whole ladder on `a op b`, for operands that `unary` parses: the
operation. -/
theorem Ends.climb_one {tokens : List Token} {c c1 c2 l : Nat} {e1 e2 : Expression}
    {op tk : Token} (h1 : Ends unary tokens c (Except.ok (e1, c1)))
    (hop : tokens[c1]? = some op) (hl : binaryLevel op.type = some l)
    (h2 : Ends unary tokens (c1 + 1) (Except.ok (e2, c2)))
    (hk : tokens[c2]? = some tk) (hnone : binaryLevel tk.type = none) :
    Ends expression tokens c
      (Except.ok (Expression.BinaryOperation e1 op.value e2, c2)) := by
  have r := binaryLevel_range hl
  have k7 : Ends unary tokens c (Except.ok (levelResult e1 e2 op.value c1 c2 l (6 + 1))) ∧
      Ends unary tokens (c1 + 1) (Except.ok (e2, c2)) := by
    refine ⟨?_, h2⟩
    unfold levelResult
    rw [if_neg (by omega)]
    exact h1
  have k6 := Ends.level_step factor unary factorLoop _ 6 factor_succ factorLoop_eq
    (by intro ty; cases ty <;> simp [binaryLevel]) hop hl hk hnone k7
  have k5 := Ends.level_step term factor termLoop _ 5 term_succ termLoop_eq
    (by intro ty; cases ty <;> simp [binaryLevel]) hop hl hk hnone k6
  have k4 := Ends.level_step comparison term comparisonLoop _ 4 comparison_succ comparisonLoop_eq
    (by intro ty; cases ty <;> simp [binaryLevel]) hop hl hk hnone k5
  have k3 := Ends.level_step equality comparison equalityLoop _ 3 equality_succ equalityLoop_eq
    (by intro ty; cases ty <;> simp [binaryLevel]) hop hl hk hnone k4
  have k2 := Ends.level_step logicalAnd equality logicalAndLoop _ 2 logicalAnd_succ
    logicalAndLoop_eq (by intro ty; cases ty <;> simp [binaryLevel]) hop hl hk hnone k3
  have k1 := Ends.level_step logicalOr logicalAnd logicalOrLoop _ 1 logicalOr_succ
    logicalOrLoop_eq (by intro ty; cases ty <;> simp [binaryLevel]) hop hl hk hnone k2
  have := k1.1
  unfold levelResult at this
  rw [if_pos r.1] at this
  exact Ends.expression_of_logicalOr this

/-- The whole ladder on an operand that `unary` parses and that no binary
operator follows: the operand. -/
theorem Ends.climb {tokens : List Token} {c c' : Nat} {e : Expression} {tk : Token}
    (h : Ends unary tokens c (Except.ok (e, c'))) (hk : tokens[c']? = some tk)
    (hnone : binaryLevel tk.type = none) : Ends expression tokens c (Except.ok (e, c')) := by
  have hn : ∀ (ops : List TokenType) (L : Nat), (∀ ty, ty ∈ ops ↔ binaryLevel ty = some L) →
      tk.type ∉ ops := fun ops L hops hm => by
    rw [hops, hnone] at hm
    exact Option.noConfusion hm
  have k6 := Ends.binary_pass factor unary factorLoop _ factor_succ factorLoop_eq h hk
    (hn _ 6 (by intro ty; cases ty <;> simp [binaryLevel]))
  have k5 := Ends.binary_pass term factor termLoop _ term_succ termLoop_eq k6 hk
    (hn _ 5 (by intro ty; cases ty <;> simp [binaryLevel]))
  have k4 := Ends.binary_pass comparison term comparisonLoop _ comparison_succ
    comparisonLoop_eq k5 hk (hn _ 4 (by intro ty; cases ty <;> simp [binaryLevel]))
  have k3 := Ends.binary_pass equality comparison equalityLoop _ equality_succ
    equalityLoop_eq k4 hk (hn _ 3 (by intro ty; cases ty <;> simp [binaryLevel]))
  have k2 := Ends.binary_pass logicalAnd equality logicalAndLoop _ logicalAnd_succ
    logicalAndLoop_eq k3 hk (hn _ 2 (by intro ty; cases ty <;> simp [binaryLevel]))
  have k1 := Ends.binary_pass logicalOr logicalAnd logicalOrLoop _ logicalOr_succ
    logicalOrLoop_eq k2 hk (hn _ 1 (by intro ty; cases ty <;> simp [binaryLevel]))
  exact Ends.expression_of_logicalOr k1

/-- A failure of `unary` is the failure of `expression`. -/
theorem Ends.climb_fail {tokens : List Token} {c : Nat} {x : Failure × Nat}
    (h : Ends unary tokens c (Except.error x)) : Ends expression tokens c (Except.error x) :=
  Ends.expression_of_logicalOr
    (Ends.binary_fail logicalOr logicalAnd logicalOrLoop logicalOr_succ
      (Ends.binary_fail logicalAnd equality logicalAndLoop logicalAnd_succ
        (Ends.binary_fail equality comparison equalityLoop equality_succ
          (Ends.binary_fail comparison term comparisonLoop comparison_succ
            (Ends.binary_fail term factor termLoop term_succ
              (Ends.binary_fail factor unary factorLoop factor_succ h))))))

/-- A prefix operator in front of an operand that `unary` parses. -/
theorem Ends.prefixed {tokens : List Token} {c c' : Nat} {e : Expression} {u : Token}
    (hu : tokens[c]? = some u)
    (hty : u.type = TokenType.LOGICAL_NOT ∨ u.type = TokenType.MINUS)
    (h : Ends unary tokens (c + 1) (Except.ok (e, c'))) :
    Ends unary tokens c (Except.ok (Expression.UnaryOperation u.value e, c')) := by
  obtain ⟨F, hF⟩ := h
  refine ⟨F + 1, fun fuel hfuel => ?_⟩
  obtain ⟨k, rfl⟩ : ∃ k, fuel = k + 1 := ⟨fuel - 1, by omega⟩
  have hne : u.type ≠ TokenType.END_OF_FILE := by
    rcases hty with h | h <;> rw [h] <;> decide
  have hmem : u.type ∈ [TokenType.LOGICAL_NOT, TokenType.MINUS] := by
    rcases hty with h | h <;> rw [h] <;> decide
  rw [unary, match__eq hu hne]
  simp only [hmem, decide_True, if_true, previous_eq hu]
  rw [hF k (by omega)]

/-- Where no prefix operator stands, `unary` is `call`. -/
theorem Ends.unary_of_call {tokens : List Token} {c : Nat} {r : Result Expression} {t : Token}
    (ht : tokens[c]? = some t)
    (hty : t.type ≠ TokenType.LOGICAL_NOT ∧ t.type ≠ TokenType.MINUS)
    (h : Ends call tokens c r) : Ends unary tokens c r := by
  obtain ⟨F, hF⟩ := h
  refine ⟨F + 1, fun fuel hfuel => ?_⟩
  obtain ⟨k, rfl⟩ : ∃ k, fuel = k + 1 := ⟨fuel - 1, by omega⟩
  rw [unary, match__not_mem ht _ (by simp [hty.1, hty.2])]
  exact hF k (by omega)

/-- An identifier or number token that is not followed by `(`. -/
theorem Ends.operand {tokens : List Token} {c : Nat} {t t' : Token} {e : Expression}
    (h : tokens[c]? = some t) (he : operandExpr t = some e)
    (h' : tokens[c + 1]? = some t') (hp : t'.type ≠ TokenType.LEFT_PAREN) :
    Ends unary tokens c (Except.ok (e, c + 1)) := by
  refine ⟨3, fun fuel hfuel => ?_⟩
  obtain ⟨k, rfl⟩ : ∃ k, fuel = k + 3 := ⟨fuel - 3, by omega⟩
  exact unary_operand h he h' hp k

/-- An expression followed by `;` is an expression statement. -/
theorem Ends.expressionStatement {tokens : List Token} {c c' : Nat} {e : Expression}
    {semi : Token} (h : Ends expression tokens c (Except.ok (e, c')))
    (hs : tokens[c']? = some semi) (hty : semi.type = TokenType.SEMICOLON) :
    Ends Parser.expressionStatement tokens c
      (Except.ok (Statement.ExpressionStatement e, c' + 1)) := by
  obtain ⟨F, hF⟩ := h
  refine ⟨F, fun fuel hfuel => ?_⟩
  have hne : semi.type ≠ TokenType.END_OF_FILE := by rw [hty]; decide
  have hc := consume_eq hs hne "Expected ';' after expression"
  rw [hty] at hc
  unfold Parser.expressionStatement
  rw [hF fuel hfuel]
  dsimp only
  rw [hc]

/-- A failure of `expression` is the failure of the expression statement. -/
theorem Ends.expressionStatement_fail {tokens : List Token} {c : Nat} {x : Failure × Nat}
    (h : Ends expression tokens c (Except.error x)) :
    Ends Parser.expressionStatement tokens c (Except.error x) := by
  obtain ⟨F, hF⟩ := h
  refine ⟨F, fun fuel hfuel => ?_⟩
  unfold Parser.expressionStatement
  rw [hF fuel hfuel]

/-- A statement that starts with a token that no statement rule takes, and
that is not an identifier, is an expression statement. -/
theorem Ends.statement_of_expressionStatement {tokens : List Token} {c : Nat}
    {r : Result Statement} {t : Token} (ht : tokens[c]? = some t)
    (hty : t.type ∉ [TokenType.VAR, TokenType.IF, TokenType.WHILE, TokenType.FUNCTION,
      TokenType.RETURN, TokenType.LEFT_BRACE, TokenType.IDENTIFIER])
    (h : Ends Parser.expressionStatement tokens c r) : Ends statement tokens c r := by
  obtain ⟨F, hF⟩ := h
  refine ⟨F + 1, fun fuel hfuel => ?_⟩
  obtain ⟨k, rfl⟩ : ∃ k, fuel = k + 1 := ⟨fuel - 1, by omega⟩
  simp only [List.mem_cons, List.mem_singleton, List.not_mem_nil, or_false, not_or] at hty
  obtain ⟨h1, h2, h3, h4, h5, h6, h7⟩ := hty
  rw [statement]
  rw [match__not_mem ht _ (by simpa using h1)]; dsimp only
  rw [match__not_mem ht _ (by simpa using h2)]; dsimp only
  rw [match__not_mem ht _ (by simpa using h3)]; dsimp only
  rw [match__not_mem ht _ (by simpa using h4)]; dsimp only
  rw [match__not_mem ht _ (by simpa using h5)]; dsimp only
  rw [match__not_mem ht _ (by simpa using h6)]; dsimp only
  rw [check_eq ht]
  have : decide (t.type ≠ TokenType.END_OF_FILE ∧ t.type = TokenType.IDENTIFIER) = false :=
    decide_eq_false (fun hh => h7 hh.2)
  rw [this]
  exact hF k (by omega)

/-- A statement that starts with an identifier not followed by `=` is an
expression statement. -/
theorem Ends.statement_of_identifier {tokens : List Token} {c : Nat}
    {r : Result Statement} {t t' : Token} (ht : tokens[c]? = some t)
    (hty : t.type = TokenType.IDENTIFIER) (ht' : tokens[c + 1]? = some t')
    (hna : t'.type ≠ TokenType.ASSIGN)
    (h : Ends Parser.expressionStatement tokens c r) : Ends statement tokens c r := by
  obtain ⟨F, hF⟩ := h
  refine ⟨F + 1, fun fuel hfuel => ?_⟩
  obtain ⟨k, rfl⟩ : ∃ k, fuel = k + 1 := ⟨fuel - 1, by omega⟩
  rw [statement_identifier ht hty ht' k, if_neg hna]
  exact hF k (by omega)

end Parser

/-! ## Calls -/

namespace Parser

/-- After `(`, an expression that is not a variable cannot be called. -/
theorem callLoop_callee {tokens : List Token} {c : Nat} {lp : Token} {e : Expression}
    (hlp : tokens[c]? = some lp) (hty : lp.type = TokenType.LEFT_PAREN)
    (hnv : ∀ name, e ≠ Expression.Variable name) (fuel : Nat) :
    callLoop (fuel + 1) tokens e c =
      Except.error
        (Failure.ParseError "Only identifiers can be called as functions", c + 1) := by
  have hne : lp.type ≠ TokenType.END_OF_FILE := by rw [hty]; decide
  rw [callLoop, match__eq hlp hne]
  simp only [hty, List.mem_singleton, decide_True, if_true]

/-- Where no `(` follows, the loop of `call` returns the expression. -/
theorem callLoop_stop {tokens : List Token} {c : Nat} {tk : Token} (e : Expression)
    (hk : tokens[c]? = some tk) (hty : tk.type ≠ TokenType.LEFT_PAREN) (fuel : Nat) :
    callLoop (fuel + 1) tokens e c = Except.ok (e, c) := by
  rw [callLoop, match__not_mem hk _ (by simpa using hty)]

/-- A token that starts no expression makes `unary` fail with "Unexpected token". -/
theorem Ends.unary_unexpected {tokens : List Token} {c : Nat} {t : Token}
    (ht : tokens[c]? = some t)
    (hty : t.type ∉ [TokenType.TRUE, TokenType.FALSE, TokenType.NUMBER, TokenType.IDENTIFIER,
      TokenType.LEFT_PAREN, TokenType.LOGICAL_NOT, TokenType.MINUS]) :
    Ends unary tokens c (Except.error (Failure.ParseError (primaryMessage t), c)) := by
  refine ⟨3, fun fuel hfuel => ?_⟩
  obtain ⟨k, rfl⟩ : ∃ k, fuel = k + 3 := ⟨fuel - 3, by omega⟩
  simp only [List.mem_cons, List.mem_singleton, List.not_mem_nil, or_false, not_or] at hty
  obtain ⟨h1, h2, h3, h4, h5, h6, h7⟩ := hty
  rw [unary, match__not_mem ht _ (by simp [h6, h7])]
  dsimp only
  rw [call, primary]
  rw [match__not_mem ht _ (by simpa using h1)]; dsimp only
  rw [match__not_mem ht _ (by simpa using h2)]; dsimp only
  rw [match__not_mem ht _ (by simpa using h3)]; dsimp only
  rw [match__not_mem ht _ (by simpa using h4)]; dsimp only
  rw [match__not_mem ht _ (by simpa using h5)]; dsimp only
  rw [peek_eq ht]

/-- Outside the token vector `unary` fails with a read out of bounds. -/
theorem Ends.unary_missing {tokens : List Token} {c : Nat} (ht : tokens[c]? = none) :
    Ends unary tokens c (Except.error (Failure.outOfBounds, c)) := by
  refine ⟨1, fun fuel hfuel => ?_⟩
  obtain ⟨k, rfl⟩ : ∃ k, fuel = k + 1 := ⟨fuel - 1, by omega⟩
  rw [unary]
  simp [match_, check, isAtEnd, peek, ht]

/-- An expression starts at a token, and not at `)`. -/
theorem Ends.expression_first {tokens : List Token} {p : Nat} {r : Expression × Nat}
    (h : Ends expression tokens p (Except.ok r)) :
    ∃ t, tokens[p]? = some t ∧ t.type ≠ TokenType.RIGHT_PAREN := by
  cases ht : tokens[p]? with
  | none =>
    have := h.unique (Ends.climb_fail (Ends.unary_missing ht))
    exact Except.noConfusion this
  | some t =>
    refine ⟨t, rfl, fun hty => ?_⟩
    have := h.unique (Ends.climb_fail (Ends.unary_unexpected ht (by rw [hty]; decide)))
    exact Except.noConfusion this

theorem ArgumentsAt.first {tokens : List Token} {es : List Expression} {p q : Nat}
    (h : ArgumentsAt tokens es p q) :
    ∃ t, tokens[p]? = some t ∧ t.type ≠ TokenType.RIGHT_PAREN := by
  cases es with
  | nil => exact False.elim h
  | cons e rest =>
    cases rest with
    | nil => exact Ends.expression_first h
    | cons e' es =>
      obtain ⟨q1, comma, h1, -⟩ := h
      exact Ends.expression_first h1

/-- The argument loop of `call` on arguments that stand in the tokens and are
not followed by a comma: the arguments, in source order. -/
theorem Ends.arguments {tokens : List Token} {es : List Expression} {q : Nat} {tk : Token}
    (hk : tokens[q]? = some tk) (hnc : tk.type ≠ TokenType.COMMA) :
    ∀ (p : Nat) (acc : List Expression), ArgumentsAt tokens es p q →
      Ends (fun fuel t c => callArguments fuel t acc c) tokens p (Except.ok (acc ++ es, q)) := by
  induction es with
  | nil => intro p acc h; exact False.elim h
  | cons e rest ih =>
    intro p acc h
    cases rest with
    | nil =>
      obtain ⟨F, hF⟩ := h
      refine ⟨F + 1, fun fuel hfuel => ?_⟩
      obtain ⟨k, rfl⟩ : ∃ k, fuel = k + 1 := ⟨fuel - 1, by omega⟩
      show callArguments (k + 1) tokens acc p = _
      rw [callArguments, hF k (by omega)]
      dsimp only
      rw [match__not_mem hk _ (by simpa using hnc)]
    | cons e' es =>
      obtain ⟨q1, comma, ⟨F1, hF1⟩, hc, hct, hrest⟩ := h
      obtain ⟨F2, hF2⟩ := ih (q1 + 1) (acc ++ [e]) hrest
      refine ⟨max F1 F2 + 1, fun fuel hfuel => ?_⟩
      obtain ⟨k, rfl⟩ : ∃ k, fuel = k + 1 := ⟨fuel - 1, by omega⟩
      have hne : comma.type ≠ TokenType.END_OF_FILE := by rw [hct]; decide
      show callArguments (k + 1) tokens acc p = _
      rw [callArguments, hF1 k (by omega)]
      dsimp only
      rw [match__eq hc hne]
      simp only [hct, List.mem_singleton, decide_True, if_true]
      have := hF2 k (by omega)
      dsimp only at this
      rw [this, List.append_assoc]
      rfl

/-- The argument loop of `call` on arguments followed by a comma and `)`: the
expression expected after the comma is missing. -/
theorem Ends.arguments_trailing {tokens : List Token} {es : List Expression} {q : Nat}
    {comma rp : Token} (hc : tokens[q]? = some comma) (hct : comma.type = TokenType.COMMA)
    (hrp : tokens[q + 1]? = some rp) (hrpt : rp.type = TokenType.RIGHT_PAREN) :
    ∀ (p : Nat) (acc : List Expression), ArgumentsAt tokens es p q →
      Ends (fun fuel t c => callArguments fuel t acc c) tokens p
        (Except.error (Failure.ParseError (primaryMessage rp), q + 1)) := by
  have hne : comma.type ≠ TokenType.END_OF_FILE := by rw [hct]; decide
  have hfail : Ends expression tokens (q + 1)
      (Except.error (Failure.ParseError (primaryMessage rp), q + 1)) :=
    Ends.climb_fail (Ends.unary_unexpected hrp (by rw [hrpt]; decide))
  induction es with
  | nil => intro p acc h; exact False.elim h
  | cons e rest ih =>
    intro p acc h
    cases rest with
    | nil =>
      obtain ⟨F, hF⟩ := h
      obtain ⟨F2, hF2⟩ := hfail
      refine ⟨max F F2 + 2, fun fuel hfuel => ?_⟩
      obtain ⟨k, rfl⟩ : ∃ k, fuel = k + 2 := ⟨fuel - 2, by omega⟩
      show callArguments (k + 2) tokens acc p = _
      rw [callArguments, hF (k + 1) (by omega)]
      dsimp only
      rw [match__eq hc hne]
      simp only [hct, List.mem_singleton, decide_True, if_true]
      rw [callArguments, hF2 k (by omega)]
    | cons e' es =>
      obtain ⟨q1, comma1, ⟨F1, hF1⟩, hc1, hct1, hrest⟩ := h
      obtain ⟨F2, hF2⟩ := ih (q1 + 1) (acc ++ [e]) hrest
      refine ⟨max F1 F2 + 1, fun fuel hfuel => ?_⟩
      obtain ⟨k, rfl⟩ : ∃ k, fuel = k + 1 := ⟨fuel - 1, by omega⟩
      have hne1 : comma1.type ≠ TokenType.END_OF_FILE := by rw [hct1]; decide
      show callArguments (k + 1) tokens acc p = _
      rw [callArguments, hF1 k (by omega)]
      dsimp only
      rw [match__eq hc1 hne1]
      simp only [hct1, List.mem_singleton, decide_True, if_true]
      exact hF2 k (by omega)

/-- From `name (`, the loop of `call` reads the arguments and `)`, and goes on
with the call it has built. -/
theorem Ends.callLoop_call {tokens : List Token} {c q : Nat} {name : String}
    {es : List Expression} {lp rp : Token} {r : Result Expression}
    (hlp : tokens[c]? = some lp) (hlpt : lp.type = TokenType.LEFT_PAREN)
    (ha : Ends (fun fuel t c => callArguments fuel t [] c) tokens (c + 1) (Except.ok (es, q)))
    (hfirst : ∃ t, tokens[c + 1]? = some t ∧ t.type ≠ TokenType.RIGHT_PAREN)
    (hrp : tokens[q]? = some rp) (hrpt : rp.type = TokenType.RIGHT_PAREN)
    (h : Ends (fun fuel t c => callLoop fuel t (Expression.FunctionCall name es) c) tokens
      (q + 1) r) :
    Ends (fun fuel t c => callLoop fuel t (Expression.Variable name) c) tokens c r := by
  obtain ⟨F1, hF1⟩ := ha
  obtain ⟨F2, hF2⟩ := h
  obtain ⟨t, ht, htn⟩ := hfirst
  refine ⟨max F1 F2 + 1, fun fuel hfuel => ?_⟩
  obtain ⟨k, rfl⟩ : ∃ k, fuel = k + 1 := ⟨fuel - 1, by omega⟩
  have hne : lp.type ≠ TokenType.END_OF_FILE := by rw [hlpt]; decide
  have hner : rp.type ≠ TokenType.END_OF_FILE := by rw [hrpt]; decide
  have hcons := consume_eq hrp hner "Expected ')' after arguments"
  rw [hrpt] at hcons
  show callLoop (k + 1) tokens (Expression.Variable name) c = r
  rw [callLoop, match__eq hlp hne]
  simp only [hlpt, List.mem_singleton, decide_True, if_true]
  rw [check_eq ht]
  have hd : decide (t.type ≠ TokenType.END_OF_FILE ∧ t.type = TokenType.RIGHT_PAREN) = false :=
    decide_eq_false (fun hh => htn hh.2)
  rw [hd]
  simp only [Bool.not_false, if_true]
  have h1 := hF1 k (by omega)
  dsimp only at h1
  rw [h1]
  dsimp only
  rw [hcons]
  exact hF2 k (by omega)

/-- From `name ( )`, the loop of `call` goes on with the call without arguments. -/
theorem Ends.callLoop_call_empty {tokens : List Token} {c : Nat} {name : String}
    {lp rp : Token} {r : Result Expression}
    (hlp : tokens[c]? = some lp) (hlpt : lp.type = TokenType.LEFT_PAREN)
    (hrp : tokens[c + 1]? = some rp) (hrpt : rp.type = TokenType.RIGHT_PAREN)
    (h : Ends (fun fuel t c => callLoop fuel t (Expression.FunctionCall name []) c) tokens
      (c + 2) r) :
    Ends (fun fuel t c => callLoop fuel t (Expression.Variable name) c) tokens c r := by
  obtain ⟨F2, hF2⟩ := h
  refine ⟨F2 + 1, fun fuel hfuel => ?_⟩
  obtain ⟨k, rfl⟩ : ∃ k, fuel = k + 1 := ⟨fuel - 1, by omega⟩
  have hne : lp.type ≠ TokenType.END_OF_FILE := by rw [hlpt]; decide
  have hner : rp.type ≠ TokenType.END_OF_FILE := by rw [hrpt]; decide
  have hcons := consume_eq hrp hner "Expected ')' after arguments"
  rw [hrpt] at hcons
  show callLoop (k + 1) tokens (Expression.Variable name) c = r
  rw [callLoop, match__eq hlp hne]
  simp only [hlpt, List.mem_singleton, decide_True, if_true]
  rw [check_eq hrp]
  have hd : decide (rp.type ≠ TokenType.END_OF_FILE ∧ rp.type = TokenType.RIGHT_PAREN) = true :=
    decide_eq_true ⟨hner, hrpt⟩
  rw [hd]
  simp only [Bool.not_true, Bool.false_eq_true, if_false]
  rw [hcons]
  exact hF2 k (by omega)

/-- From `name (`, a failure of the argument loop is the failure of the loop of `call`. -/
theorem Ends.callLoop_arguments_fail {tokens : List Token} {c : Nat} {name : String}
    {lp : Token} {x : Failure × Nat}
    (hlp : tokens[c]? = some lp) (hlpt : lp.type = TokenType.LEFT_PAREN)
    (ha : Ends (fun fuel t c => callArguments fuel t [] c) tokens (c + 1) (Except.error x))
    (hfirst : ∃ t, tokens[c + 1]? = some t ∧ t.type ≠ TokenType.RIGHT_PAREN) :
    Ends (fun fuel t c => callLoop fuel t (Expression.Variable name) c) tokens c
      (Except.error x) := by
  obtain ⟨F1, hF1⟩ := ha
  obtain ⟨t, ht, htn⟩ := hfirst
  refine ⟨F1 + 1, fun fuel hfuel => ?_⟩
  obtain ⟨k, rfl⟩ : ∃ k, fuel = k + 1 := ⟨fuel - 1, by omega⟩
  have hne : lp.type ≠ TokenType.END_OF_FILE := by rw [hlpt]; decide
  show callLoop (k + 1) tokens (Expression.Variable name) c = _
  rw [callLoop, match__eq hlp hne]
  simp only [hlpt, List.mem_singleton, decide_True, if_true]
  rw [check_eq ht]
  have hd : decide (t.type ≠ TokenType.END_OF_FILE ∧ t.type = TokenType.RIGHT_PAREN) = false :=
    decide_eq_false (fun hh => htn hh.2)
  rw [hd]
  simp only [Bool.not_false, if_true]
  have h1 := hF1 k (by omega)
  dsimp only at h1
  rw [h1]

theorem Ends.callLoop_done {tokens : List Token} {c : Nat} {tk : Token} (e : Expression)
    (hk : tokens[c]? = some tk) (hty : tk.type ≠ TokenType.LEFT_PAREN) :
    Ends (fun fuel t c => callLoop fuel t e c) tokens c (Except.ok (e, c)) := by
  refine ⟨1, fun fuel hfuel => ?_⟩
  obtain ⟨k, rfl⟩ : ∃ k, fuel = k + 1 := ⟨fuel - 1, by omega⟩
  exact Parser.callLoop_stop e hk hty k

theorem Ends.callee_rejected {tokens : List Token} {c : Nat} {lp : Token} {e : Expression}
    (hlp : tokens[c]? = some lp) (hty : lp.type = TokenType.LEFT_PAREN)
    (hnv : ∀ name, e ≠ Expression.Variable name) :
    Ends (fun fuel t c => callLoop fuel t e c) tokens c
      (Except.error
        (Failure.ParseError "Only identifiers can be called as functions", c + 1)) := by
  refine ⟨1, fun fuel hfuel => ?_⟩
  obtain ⟨k, rfl⟩ : ∃ k, fuel = k + 1 := ⟨fuel - 1, by omega⟩
  exact Parser.callLoop_callee hlp hty hnv k

/-- The rule `call`: `primary`, then the loop of `call` on what it returned. -/
theorem Ends.call_of_primary {tokens : List Token} {c c' : Nat} {e : Expression}
    {r : Result Expression} (hp : Ends primary tokens c (Except.ok (e, c')))
    (h : Ends (fun fuel t c => callLoop fuel t e c) tokens c' r) : Ends call tokens c r := by
  obtain ⟨F1, hF1⟩ := hp
  obtain ⟨F2, hF2⟩ := h
  refine ⟨max F1 F2 + 1, fun fuel hfuel => ?_⟩
  obtain ⟨k, rfl⟩ : ∃ k, fuel = k + 1 := ⟨fuel - 1, by omega⟩
  rw [call, hF1 k (by omega)]
  exact hF2 k (by omega)

theorem Ends.primary_variable {tokens : List Token} {c : Nat} {t : Token}
    (h : tokens[c]? = some t) (hi : t.type = TokenType.IDENTIFIER) :
    Ends primary tokens c (Except.ok (Expression.Variable t.value, c + 1)) := by
  refine ⟨1, fun fuel hfuel => ?_⟩
  obtain ⟨k, rfl⟩ : ∃ k, fuel = k + 1 := ⟨fuel - 1, by omega⟩
  exact Parser.primary_identifier h hi k

end Parser

namespace Parser

theorem operandExpr_identifier {t : Token} (h : t.type = TokenType.IDENTIFIER) :
    operandExpr t = some (Expression.Variable t.value) := by
  unfold operandExpr
  rw [if_pos h]

/-- An identifier that is not followed by `(`, as `unary` parses it. -/
theorem Ends.identifier {tokens : List Token} {c : Nat} {t t' : Token}
    (h : tokens[c]? = some t) (hi : t.type = TokenType.IDENTIFIER)
    (h' : tokens[c + 1]? = some t') (hp : t'.type ≠ TokenType.LEFT_PAREN) :
    Ends unary tokens c (Except.ok (Expression.Variable t.value, c + 1)) :=
  Ends.operand h (operandExpr_identifier hi) h' hp

/-- The program parsed from one expression statement that starts with a token
no statement rule takes. -/
theorem parse_expressionStatement {tokens : List Token} {c : Nat} {e : Expression}
    {t0 semi eof : Token} (h0 : tokens[0]? = some t0)
    (hty : t0.type ∉ [TokenType.VAR, TokenType.IF, TokenType.WHILE, TokenType.FUNCTION,
      TokenType.RETURN, TokenType.LEFT_BRACE, TokenType.IDENTIFIER, TokenType.END_OF_FILE])
    (h : Ends expression tokens 0 (Except.ok (e, c)))
    (hs : tokens[c]? = some semi) (hst : semi.type = TokenType.SEMICOLON)
    (he : tokens[c + 1]? = some eof) (het : eof.type = TokenType.END_OF_FILE) :
    parse tokens = Except.ok ⟨[Statement.ExpressionStatement e]⟩ := by
  have hne : t0.type ≠ TokenType.END_OF_FILE := fun hh => hty (by rw [hh]; decide)
  refine parse_single h0 hne ?_ he het
  refine Ends.statement_of_expressionStatement h0 (fun hm => hty ?_)
    (Ends.expressionStatement h hs hst)
  simp only [List.mem_cons, List.mem_singleton, List.not_mem_nil, or_false] at hm ⊢
  tauto

/-- The program parsed from one expression statement that starts with an
identifier not followed by `=`. -/
theorem parse_identifierStatement {tokens : List Token} {c : Nat} {e : Expression}
    {t0 t1 semi eof : Token} (h0 : tokens[0]? = some t0)
    (hty : t0.type = TokenType.IDENTIFIER) (h1 : tokens[0 + 1]? = some t1)
    (hna : t1.type ≠ TokenType.ASSIGN)
    (h : Ends expression tokens 0 (Except.ok (e, c)))
    (hs : tokens[c]? = some semi) (hst : semi.type = TokenType.SEMICOLON)
    (he : tokens[c + 1]? = some eof) (het : eof.type = TokenType.END_OF_FILE) :
    parse tokens = Except.ok ⟨[Statement.ExpressionStatement e]⟩ := by
  have hne : t0.type ≠ TokenType.END_OF_FILE := by rw [hty]; decide
  exact parse_single h0 hne
    (Ends.statement_of_identifier h0 hty h1 hna (Ends.expressionStatement h hs hst)) he het

end Parser

/-- C11. Prefix operators. For prefix operator tokens `u1`, `u2` (`!` or `-`),
identifier tokens `x`, `a`, `b`, `f` and any binary operator token `op`: the
tokens of `u1 u2 x ;` parse to `ExprStmt(UnaryOp(u1, UnaryOp(u2, x)))` (right
associative), those of `u1 a op b ;` to `ExprStmt(BinOp(op, UnaryOp(u1, a), b))`
(tighter than every binary operator), and those of `u1 f ( a ) ;` to
`ExprStmt(UnaryOp(u1, Call(f, [a])))` (looser than a call). -/
theorem prefix_operators (u1 u2 x a b f op lp rp semi eof : Token) (l : Nat)
    (hu1 : u1.type = TokenType.LOGICAL_NOT ∨ u1.type = TokenType.MINUS)
    (hu2 : u2.type = TokenType.LOGICAL_NOT ∨ u2.type = TokenType.MINUS)
    (hx : x.type = TokenType.IDENTIFIER) (ha : a.type = TokenType.IDENTIFIER)
    (hb : b.type = TokenType.IDENTIFIER) (hf : f.type = TokenType.IDENTIFIER)
    (hop : Parser.binaryLevel op.type = some l)
    (hlp : lp.type = TokenType.LEFT_PAREN) (hrp : rp.type = TokenType.RIGHT_PAREN)
    (hsemi : semi.type = TokenType.SEMICOLON) (heof : eof.type = TokenType.END_OF_FILE) :
    Parser.parse [u1, u2, x, semi, eof] =
        Except.ok ⟨[Statement.ExpressionStatement
          (Expression.UnaryOperation u1.value
            (Expression.UnaryOperation u2.value (Expression.Variable x.value)))]⟩ ∧
      Parser.parse [u1, a, op, b, semi, eof] =
        Except.ok ⟨[Statement.ExpressionStatement
          (Expression.BinaryOperation
            (Expression.UnaryOperation u1.value (Expression.Variable a.value)) op.value
            (Expression.Variable b.value))]⟩ ∧
      Parser.parse [u1, f, lp, a, rp, semi, eof] =
        Except.ok ⟨[Statement.ExpressionStatement
          (Expression.UnaryOperation u1.value
            (Expression.FunctionCall f.value [Expression.Variable a.value]))]⟩ := by
  have hu1s : u1.type ∉ [TokenType.VAR, TokenType.IF, TokenType.WHILE, TokenType.FUNCTION,
      TokenType.RETURN, TokenType.LEFT_BRACE, TokenType.IDENTIFIER,
      TokenType.END_OF_FILE] := by
    rcases hu1 with h | h <;> rw [h] <;> decide
  have hsl : semi.type ≠ TokenType.LEFT_PAREN := by rw [hsemi]; decide
  have hsn : Parser.binaryLevel semi.type = none := by rw [hsemi]; rfl
  have hrn : Parser.binaryLevel rp.type = none := by rw [hrp]; rfl
  have hol : op.type ≠ TokenType.LEFT_PAREN := by
    intro h; rw [h] at hop; exact Option.noConfusion hop
  refine ⟨?_, ?_, ?_⟩
  · have e2 : Parser.Ends Parser.unary [u1, u2, x, semi, eof] 2 _ :=
      Parser.Ends.identifier rfl hx rfl hsl
    have e1 := Parser.Ends.prefixed rfl hu2 e2
    have e0 := Parser.Ends.prefixed rfl hu1 e1
    exact Parser.parse_expressionStatement rfl hu1s
      (Parser.Ends.climb e0 rfl hsn) rfl hsemi rfl heof
  · have e1 : Parser.Ends Parser.unary [u1, a, op, b, semi, eof] 1 _ :=
      Parser.Ends.identifier rfl ha rfl hol
    have e0 := Parser.Ends.prefixed rfl hu1 e1
    have e3 : Parser.Ends Parser.unary [u1, a, op, b, semi, eof] (2 + 1) _ :=
      Parser.Ends.identifier rfl hb rfl hsl
    exact Parser.parse_expressionStatement rfl hu1s
      (Parser.Ends.climb_one e0 rfl hop e3 rfl hsn) rfl hsemi rfl heof
  · have hrl : rp.type ≠ TokenType.LEFT_PAREN := by rw [hrp]; decide
    have e3 : Parser.Ends Parser.unary [u1, f, lp, a, rp, semi, eof] 3 _ :=
      Parser.Ends.identifier rfl ha rfl hrl
    have a3 : Parser.ArgumentsAt [u1, f, lp, a, rp, semi, eof]
        [Expression.Variable a.value] (2 + 1) 4 :=
      Parser.Ends.climb e3 rfl hrn
    have args := Parser.Ends.arguments rfl (show rp.type ≠ TokenType.COMMA by rw [hrp]; decide)
      _ [] a3
    have loop := @Parser.Ends.callLoop_call _ 2 4 f.value _ lp rp _ rfl hlp args
      ⟨a, rfl, by rw [ha]; decide⟩ rfl hrp
      (Parser.Ends.callLoop_done _ rfl hsl)
    have c1 := Parser.Ends.call_of_primary (Parser.Ends.primary_variable rfl hf) loop
    have e1 := Parser.Ends.unary_of_call rfl
      (show f.type ≠ TokenType.LOGICAL_NOT ∧ f.type ≠ TokenType.MINUS by
        rw [hf]; exact ⟨by decide, by decide⟩) c1
    have e0 := Parser.Ends.prefixed rfl hu1 e1
    exact Parser.parse_expressionStatement rfl hu1s
      (Parser.Ends.climb e0 rfl hsn) rfl hsemi rfl heof

theorem prefix_operators_witness :
    tokenize "-f(a);" = some [⟨TokenType.MINUS, "-", 1, 1⟩, ⟨TokenType.IDENTIFIER, "f", 1, 2⟩,
      ⟨TokenType.LEFT_PAREN, "(", 1, 3⟩, ⟨TokenType.IDENTIFIER, "a", 1, 4⟩,
      ⟨TokenType.RIGHT_PAREN, ")", 1, 5⟩, ⟨TokenType.SEMICOLON, ";", 1, 6⟩,
      ⟨TokenType.END_OF_FILE, "", 1, 7⟩] ∧
    Parser.parse [⟨TokenType.MINUS, "-", 1, 1⟩, ⟨TokenType.IDENTIFIER, "f", 1, 2⟩,
      ⟨TokenType.LEFT_PAREN, "(", 1, 3⟩, ⟨TokenType.IDENTIFIER, "a", 1, 4⟩,
      ⟨TokenType.RIGHT_PAREN, ")", 1, 5⟩, ⟨TokenType.SEMICOLON, ";", 1, 6⟩,
      ⟨TokenType.END_OF_FILE, "", 1, 7⟩] =
      Except.ok ⟨[Statement.ExpressionStatement
        (Expression.UnaryOperation "-"
          (Expression.FunctionCall "f" [Expression.Variable "a"]))]⟩ ∧
    parseSource "!-x;" = some (Except.ok ⟨[Statement.ExpressionStatement
      (Expression.UnaryOperation "!"
        (Expression.UnaryOperation "-" (Expression.Variable "x")))]⟩) ∧
    parseSource "-a * b;" = some (Except.ok ⟨[Statement.ExpressionStatement
      (Expression.BinaryOperation (Expression.UnaryOperation "-" (Expression.Variable "a"))
        "*" (Expression.Variable "b"))]⟩) :=
  ⟨by decide,
    (prefix_operators ⟨TokenType.MINUS, "-", 1, 1⟩ ⟨TokenType.LOGICAL_NOT, "!", 1, 1⟩
      ⟨TokenType.IDENTIFIER, "x", 1, 3⟩ ⟨TokenType.IDENTIFIER, "a", 1, 4⟩
      ⟨TokenType.IDENTIFIER, "b", 1, 6⟩ ⟨TokenType.IDENTIFIER, "f", 1, 2⟩
      ⟨TokenType.MULTIPLY, "*", 1, 4⟩ ⟨TokenType.LEFT_PAREN, "(", 1, 3⟩
      ⟨TokenType.RIGHT_PAREN, ")", 1, 5⟩ ⟨TokenType.SEMICOLON, ";", 1, 6⟩
      ⟨TokenType.END_OF_FILE, "", 1, 7⟩ 6 (Or.inr rfl) (Or.inl rfl) rfl rfl rfl rfl rfl rfl rfl
      rfl rfl).2.2,
    by decide!, by decide!⟩

/-- C12, as stated, fails: `(f)(1);`, which the claim lists among the inputs
that are rejected, parses to the call of `f`, because `primary` returns the
expression inside the parentheses and `call` only asks whether that expression
is a variable. -/
theorem parenthesized_callee_accepted :
    parseSource "(f)(1);" = some (Except.ok ⟨[Statement.ExpressionStatement
      (Expression.FunctionCall "f" [Expression.NumberLiteral 1])]⟩) := by
  decide!

namespace Parser

/-- A token that starts no primary expression makes `primary` fail. -/
theorem Ends.primary_unexpected {tokens : List Token} {c : Nat} {t : Token}
    (ht : tokens[c]? = some t)
    (hty : t.type ∉ [TokenType.TRUE, TokenType.FALSE, TokenType.NUMBER, TokenType.IDENTIFIER,
      TokenType.LEFT_PAREN]) :
    Ends primary tokens c (Except.error (Failure.ParseError (primaryMessage t), c)) := by
  refine ⟨1, fun fuel hfuel => ?_⟩
  obtain ⟨k, rfl⟩ : ∃ k, fuel = k + 1 := ⟨fuel - 1, by omega⟩
  simp only [List.mem_cons, List.mem_singleton, List.not_mem_nil, or_false, not_or] at hty
  obtain ⟨h1, h2, h3, h4, h5⟩ := hty
  rw [primary]
  rw [match__not_mem ht _ (by simpa using h1)]; dsimp only
  rw [match__not_mem ht _ (by simpa using h2)]; dsimp only
  rw [match__not_mem ht _ (by simpa using h3)]; dsimp only
  rw [match__not_mem ht _ (by simpa using h4)]; dsimp only
  rw [match__not_mem ht _ (by simpa using h5)]; dsimp only
  rw [peek_eq ht]

/-- A primary expression that is not a variable starts with `true`, `false`,
a number or `(`. -/
theorem Ends.primary_first {tokens : List Token} {c c' : Nat} {e : Expression}
    (h : Ends primary tokens c (Except.ok (e, c'))) (hnv : ∀ name, e ≠ Expression.Variable name) :
    ∃ t, tokens[c]? = some t ∧ t.type ∈ [TokenType.TRUE, TokenType.FALSE, TokenType.NUMBER,
      TokenType.LEFT_PAREN] := by
  cases ht : tokens[c]? with
  | none =>
    obtain ⟨F, hF⟩ := h
    have := hF (F + 1) (by omega)
    rw [primary] at this
    simp [match_, check, isAtEnd, peek, ht] at this
  | some t =>
    refine ⟨t, rfl, ?_⟩
    by_contra hmem
    by_cases hid : t.type = TokenType.IDENTIFIER
    · have := h.unique (Ends.primary_variable ht hid)
      injection this with this
      injection this with this
      exact hnv _ this
    · have := h.unique (Ends.primary_unexpected ht (by
        simp only [List.mem_cons, List.mem_singleton, List.not_mem_nil, or_false, not_or]
          at hmem ⊢
        tauto))
      exact Except.noConfusion this

/-- A statement that starts with a primary expression that is not a variable
and is followed by `(` makes `parse` fail with the callee error. -/
theorem parse_callee {tokens : List Token} (hT : Terminated tokens) {c : Nat} {e : Expression}
    {lp : Token} (hp : Ends primary tokens 0 (Except.ok (e, c)))
    (hnv : ∀ name, e ≠ Expression.Variable name)
    (hlp : tokens[c]? = some lp) (hty : lp.type = TokenType.LEFT_PAREN) :
    parse tokens =
      Except.error (Failure.ParseError "Only identifiers can be called as functions") := by
  obtain ⟨t0, h0, hmem⟩ := Ends.primary_first hp hnv
  have hcall := Ends.call_of_primary hp (Ends.callee_rejected hlp hty hnv)
  have hun := Ends.unary_of_call h0 (by
    simp only [List.mem_cons, List.mem_singleton, List.not_mem_nil, or_false] at hmem
    rcases hmem with h | h | h | h <;> rw [h] <;> exact ⟨by decide, by decide⟩) hcall
  have hst := Ends.statement_of_expressionStatement h0 (by
    simp only [List.mem_cons, List.mem_singleton, List.not_mem_nil, or_false] at hmem
    rcases hmem with h | h | h | h <;> rw [h] <;> decide)
    (Ends.expressionStatement_fail (Ends.climb_fail hun))
  refine parse_first_error hT h0 ?_ hst
  simp only [List.mem_cons, List.mem_singleton, List.not_mem_nil, or_false] at hmem
  rcases hmem with h | h | h | h <;> rw [h] <;> decide

/-- The call `f ( e1 , .. , en )` at the cursor `c`, as the loop of `call`
parses it from the `(`, followed by what the loop does after the `)`. -/
theorem Ends.callLoop_arguments {tokens : List Token} {c q : Nat} {name : String}
    {es : List Expression} {lp rp : Token} {r : Result Expression}
    (hlp : tokens[c]? = some lp) (hlpt : lp.type = TokenType.LEFT_PAREN)
    (ha : ArgumentsAt tokens es (c + 1) q)
    (hrp : tokens[q]? = some rp) (hrpt : rp.type = TokenType.RIGHT_PAREN)
    (h : Ends (fun fuel t c => callLoop fuel t (Expression.FunctionCall name es) c) tokens
      (q + 1) r) :
    Ends (fun fuel t c => callLoop fuel t (Expression.Variable name) c) tokens c r := by
  have args := Ends.arguments hrp (by rw [hrpt]; decide) (c + 1) [] ha
  rw [List.nil_append] at args
  exact Ends.callLoop_call hlp hlpt args ha.first hrp hrpt h

end Parser

/-- C12, amended. Only an expression whose tree is a variable can be called.
Wherever the loop of `call` finds a `(` after an expression that is not a
`Variable` node, it fails with "Only identifiers can be called as functions";
so `parse` fails with that message on every token sequence, ending in
`END_OF_FILE`, that starts with a primary expression other than a variable (a
number or boolean literal, or a parenthesized expression whose content is not
a variable) directly followed by `(`, and on every one that starts with a call
`f ( e1 , .. , en )` directly followed by `(`. -/
theorem only_variables_called (tokens : List Token) (lp : Token)
    (hty : lp.type = TokenType.LEFT_PAREN) :
    (∀ (fuel c : Nat) (e : Expression), tokens[c]? = some lp →
        (∀ name, e ≠ Expression.Variable name) →
        Parser.callLoop (fuel + 1) tokens e c =
          Except.error
            (Failure.ParseError "Only identifiers can be called as functions", c + 1)) ∧
      (∀ (c : Nat) (e : Expression), Parser.Terminated tokens →
        Parser.Ends Parser.primary tokens 0 (Except.ok (e, c)) →
        (∀ name, e ≠ Expression.Variable name) → tokens[c]? = some lp →
        Parser.parse tokens =
          Except.error (Failure.ParseError "Only identifiers can be called as functions")) ∧
      (∀ (f lp1 rp : Token) (es : List Expression) (q : Nat), Parser.Terminated tokens →
        tokens[0]? = some f → f.type = TokenType.IDENTIFIER →
        tokens[1]? = some lp1 → lp1.type = TokenType.LEFT_PAREN →
        ((es = [] ∧ q = 2) ∨ Parser.ArgumentsAt tokens es 2 q) →
        tokens[q]? = some rp → rp.type = TokenType.RIGHT_PAREN →
        tokens[q + 1]? = some lp →
        Parser.parse tokens =
          Except.error (Failure.ParseError "Only identifiers can be called as functions")) := by
  refine ⟨fun fuel c e hlp hnv => Parser.callLoop_callee hlp hty hnv fuel,
    fun c e hT hp hnv hlp => Parser.parse_callee hT hp hnv hlp hty, ?_⟩
  intro f lp1 rp es q hT hf hfi hlp1 hlp1t hargs hrp hrpt hlp
  have hfne : f.type ≠ TokenType.END_OF_FILE := by rw [hfi]; decide
  have hcallee : Parser.Ends
      (fun fuel t c => Parser.callLoop fuel t (Expression.FunctionCall f.value es) c) tokens
      (q + 1) _ :=
    Parser.Ends.callee_rejected hlp hty (fun name h => Expression.noConfusion h)
  have hloop : Parser.Ends
      (fun fuel t c => Parser.callLoop fuel t (Expression.Variable f.value) c) tokens 1
      (Except.error
        (Failure.ParseError "Only identifiers can be called as functions", q + 1 + 1)) := by
    rcases hargs with ⟨rfl, rfl⟩ | hargs
    · exact Parser.Ends.callLoop_call_empty hlp1 hlp1t hrp hrpt hcallee
    · exact Parser.Ends.callLoop_arguments hlp1 hlp1t hargs hrp hrpt hcallee
  have hcall := Parser.Ends.call_of_primary (Parser.Ends.primary_variable hf hfi) hloop
  have hun := Parser.Ends.unary_of_call hf (by rw [hfi]; exact ⟨by decide, by decide⟩) hcall
  have hst := Parser.Ends.statement_of_identifier hf hfi hlp1 (by rw [hlp1t]; decide)
    (Parser.Ends.expressionStatement_fail (Parser.Ends.climb_fail hun))
  exact Parser.parse_first_error hT hf hfne hst

theorem only_variables_called_witness :
    Parser.parse [⟨TokenType.IDENTIFIER, "f", 1, 1⟩, ⟨TokenType.LEFT_PAREN, "(", 1, 2⟩,
      ⟨TokenType.RIGHT_PAREN, ")", 1, 3⟩, ⟨TokenType.LEFT_PAREN, "(", 1, 4⟩,
      ⟨TokenType.NUMBER, "2", 1, 5⟩, ⟨TokenType.RIGHT_PAREN, ")", 1, 6⟩,
      ⟨TokenType.SEMICOLON, ";", 1, 7⟩, ⟨TokenType.END_OF_FILE, "", 1, 8⟩] =
      Except.error (Failure.ParseError "Only identifiers can be called as functions") ∧
    parseSource "1(2);" =
      some (Except.error (Failure.ParseError "Only identifiers can be called as functions")) ∧
    parseSource "f(1)(2);" =
      some (Except.error (Failure.ParseError "Only identifiers can be called as functions")) ∧
    parseSource "(1 + 2)(3);" =
      some (Except.error (Failure.ParseError "Only identifiers can be called as functions")) :=
  ⟨(only_variables_called [⟨TokenType.IDENTIFIER, "f", 1, 1⟩, ⟨TokenType.LEFT_PAREN, "(", 1, 2⟩,
      ⟨TokenType.RIGHT_PAREN, ")", 1, 3⟩, ⟨TokenType.LEFT_PAREN, "(", 1, 4⟩,
      ⟨TokenType.NUMBER, "2", 1, 5⟩, ⟨TokenType.RIGHT_PAREN, ")", 1, 6⟩,
      ⟨TokenType.SEMICOLON, ";", 1, 7⟩, ⟨TokenType.END_OF_FILE, "", 1, 8⟩]
      ⟨TokenType.LEFT_PAREN, "(", 1, 4⟩ rfl).2.2 ⟨TokenType.IDENTIFIER, "f", 1, 1⟩
      ⟨TokenType.LEFT_PAREN, "(", 1, 2⟩ ⟨TokenType.RIGHT_PAREN, ")", 1, 3⟩ [] 2
      ⟨_, rfl, rfl⟩ rfl rfl rfl rfl (Or.inl ⟨rfl, rfl⟩) rfl rfl rfl,
    by decide!, by decide!, by decide!⟩

namespace Parser

/-- The error of a statement made of one expression statement whose
expression fails, at the start of the tokens. -/
theorem parse_call_error {tokens : List Token} (hT : Terminated tokens) {f lp : Token}
    {x : Failure × Nat} (hf : tokens[0]? = some f) (hfi : f.type = TokenType.IDENTIFIER)
    (hlp : tokens[0 + 1]? = some lp) (hlpt : lp.type = TokenType.LEFT_PAREN)
    (h : Ends call tokens 0 (Except.error x)) : parse tokens = Except.error x.1 := by
  have hun := Ends.unary_of_call hf (by rw [hfi]; exact ⟨by decide, by decide⟩) h
  have hst := Ends.statement_of_identifier hf hfi hlp (by rw [hlpt]; decide)
    (Ends.expressionStatement_fail (Ends.climb_fail hun))
  exact parse_first_error hT hf (by rw [hfi]; decide) hst

end Parser

/-- C13. Call arguments. Let the tokens hold, from the cursor `c`, an
identifier `f`, a `(` and then either nothing (`es = []`) or the expressions
`e1 , .. , en` separated by `COMMA`, up to the cursor `q`. If `)` stands at `q`
and no `(` follows it, `call` returns `Call(f, [e1, .., en])`, arguments in
source order, and when `c = 0` and `;` and the end of the file follow, `parse`
returns the program made of that call. If instead, for `n ≥ 1`, a `COMMA`
stands at `q` and `)` directly after it, `call` fails at the `)` with the
ParseError of `primary` for that token, and so does `parse` when `c = 0`. -/
theorem call_arguments (tokens : List Token) (c q : Nat) (f lp : Token) (es : List Expression)
    (hf : tokens[c]? = some f) (hfi : f.type = TokenType.IDENTIFIER)
    (hlp : tokens[c + 1]? = some lp) (hlpt : lp.type = TokenType.LEFT_PAREN)
    (hargs : (es = [] ∧ q = c + 2) ∨ Parser.ArgumentsAt tokens es (c + 2) q) :
    (∀ rp next : Token, tokens[q]? = some rp → rp.type = TokenType.RIGHT_PAREN →
        tokens[q + 1]? = some next → next.type ≠ TokenType.LEFT_PAREN →
        Parser.Ends Parser.call tokens c
          (Except.ok (Expression.FunctionCall f.value es, q + 1))) ∧
      (∀ rp semi eof : Token, c = 0 → tokens[q]? = some rp → rp.type = TokenType.RIGHT_PAREN →
        tokens[q + 1]? = some semi → semi.type = TokenType.SEMICOLON →
        tokens[q + 2]? = some eof → eof.type = TokenType.END_OF_FILE →
        Parser.parse tokens = Except.ok
          ⟨[Statement.ExpressionStatement (Expression.FunctionCall f.value es)]⟩) ∧
      (∀ comma rp : Token, es ≠ [] → tokens[q]? = some comma →
        comma.type = TokenType.COMMA →
        tokens[q + 1]? = some rp → rp.type = TokenType.RIGHT_PAREN →
        Parser.Ends Parser.call tokens c
            (Except.error (Failure.ParseError (Parser.primaryMessage rp), q + 1)) ∧
          (c = 0 → Parser.Terminated tokens →
            Parser.parse tokens =
              Except.error (Failure.ParseError (Parser.primaryMessage rp)))) := by
  have hcall : ∀ rp next : Token, tokens[q]? = some rp → rp.type = TokenType.RIGHT_PAREN →
      tokens[q + 1]? = some next → next.type ≠ TokenType.LEFT_PAREN →
      Parser.Ends Parser.call tokens c
        (Except.ok (Expression.FunctionCall f.value es, q + 1)) := by
    intro rp next hrp hrpt hnext hnt
    have hstop := Parser.Ends.callLoop_done (Expression.FunctionCall f.value es) hnext hnt
    refine Parser.Ends.call_of_primary (Parser.Ends.primary_variable hf hfi) ?_
    rcases hargs with ⟨rfl, rfl⟩ | hargs
    · exact Parser.Ends.callLoop_call_empty hlp hlpt hrp hrpt hstop
    · exact Parser.Ends.callLoop_arguments hlp hlpt hargs hrp hrpt hstop
  refine ⟨hcall, ?_, ?_⟩
  · intro rp semi eof hc hrp hrpt hsemi hsemit heof heoft
    subst hc
    have h1 := hcall rp semi hrp hrpt hsemi (by rw [hsemit]; decide)
    have hun := Parser.Ends.unary_of_call hf (by rw [hfi]; exact ⟨by decide, by decide⟩) h1
    have hex := Parser.Ends.climb hun hsemi (by rw [hsemit]; rfl)
    exact Parser.parse_identifierStatement hf hfi hlp (by rw [hlpt]; decide) hex hsemi hsemit
      heof heoft
  · intro comma rp hne hcomma hcommat hrp hrpt
    have ha : Parser.ArgumentsAt tokens es (c + 2) q := by
      rcases hargs with ⟨rfl, -⟩ | hargs
      · exact absurd rfl hne
      · exact hargs
    have hfail := Parser.Ends.arguments_trailing hcomma hcommat hrp hrpt (c + 2) [] ha
    have hloop := @Parser.Ends.callLoop_arguments_fail _ (c + 1) f.value _ _ hlp hlpt hfail ha.first
    have h1 := Parser.Ends.call_of_primary (Parser.Ends.primary_variable hf hfi) hloop
    refine ⟨h1, fun hc hT => ?_⟩
    subst hc
    exact Parser.parse_call_error hT hf hfi hlp hlpt h1

theorem call_arguments_witness :
    tokenize "f(1, x);" = some [⟨TokenType.IDENTIFIER, "f", 1, 1⟩,
      ⟨TokenType.LEFT_PAREN, "(", 1, 2⟩, ⟨TokenType.NUMBER, "1", 1, 3⟩,
      ⟨TokenType.COMMA, ",", 1, 4⟩, ⟨TokenType.IDENTIFIER, "x", 1, 6⟩,
      ⟨TokenType.RIGHT_PAREN, ")", 1, 7⟩, ⟨TokenType.SEMICOLON, ";", 1, 8⟩,
      ⟨TokenType.END_OF_FILE, "", 1, 9⟩] ∧
    Parser.parse [⟨TokenType.IDENTIFIER, "f", 1, 1⟩,
      ⟨TokenType.LEFT_PAREN, "(", 1, 2⟩, ⟨TokenType.NUMBER, "1", 1, 3⟩,
      ⟨TokenType.COMMA, ",", 1, 4⟩, ⟨TokenType.IDENTIFIER, "x", 1, 6⟩,
      ⟨TokenType.RIGHT_PAREN, ")", 1, 7⟩, ⟨TokenType.SEMICOLON, ";", 1, 8⟩,
      ⟨TokenType.END_OF_FILE, "", 1, 9⟩] =
      Except.ok ⟨[Statement.ExpressionStatement (Expression.FunctionCall "f"
        [Expression.NumberLiteral 1, Expression.Variable "x"])]⟩ ∧
    parseSource "f();" = some (Except.ok ⟨[Statement.ExpressionStatement
      (Expression.FunctionCall "f" [])]⟩) ∧
    parseSource "f(1, x,);" =
      some (Except.error (Failure.ParseError "Line 1, Column 8: Unexpected token ')'")) :=
  ⟨by decide,
    (call_arguments [⟨TokenType.IDENTIFIER, "f", 1, 1⟩,
      ⟨TokenType.LEFT_PAREN, "(", 1, 2⟩, ⟨TokenType.NUMBER, "1", 1, 3⟩,
      ⟨TokenType.COMMA, ",", 1, 4⟩, ⟨TokenType.IDENTIFIER, "x", 1, 6⟩,
      ⟨TokenType.RIGHT_PAREN, ")", 1, 7⟩, ⟨TokenType.SEMICOLON, ";", 1, 8⟩,
      ⟨TokenType.END_OF_FILE, "", 1, 9⟩] 0 5 ⟨TokenType.IDENTIFIER, "f", 1, 1⟩
      ⟨TokenType.LEFT_PAREN, "(", 1, 2⟩
      [Expression.NumberLiteral 1, Expression.Variable "x"] rfl rfl rfl rfl
      (Or.inr ⟨3, ⟨TokenType.COMMA, ",", 1, 4⟩,
        Parser.Ends.climb (Parser.Ends.operand rfl (by decide) rfl (by decide)) rfl rfl,
        rfl, rfl,
        Parser.Ends.climb (Parser.Ends.operand rfl (by decide) rfl (by decide)) rfl
          rfl⟩)).2.1
      ⟨TokenType.RIGHT_PAREN, ")", 1, 7⟩ ⟨TokenType.SEMICOLON, ";", 1, 8⟩
      ⟨TokenType.END_OF_FILE, "", 1, 9⟩ rfl rfl rfl rfl rfl rfl rfl,
    by decide!, by decide!⟩

namespace Parser

/-- A failure of the loop without `catch` that is not a lack of fuel is the
first failure of a statement rule. -/
theorem statementsLoop_firstFailure {tokens : List Token} (hT : Terminated tokens) (n : Nat) :
    ∀ s c x, c < tokens.length → statementsLoop n tokens s c = Except.error x →
      x.1 ≠ Failure.outOfFuel → FirstFailure tokens c x := by
  induction n with
  | zero =>
    intro s c x _ h hx
    rw [statementsLoop] at h
    injection h with h
    subst h
    exact absurd rfl hx
  | succ n ih =>
    intro s c x hc h hx
    obtain ⟨t, ht⟩ : ∃ t, tokens[c]? = some t := ⟨tokens[c], List.getElem?_eq_getElem hc⟩
    have hb := (stmtTraced (traced_bounds hT) n).statement c hc
    rw [statementsLoop, isAtEnd_eq ht] at h
    by_cases he : t.type = TokenType.END_OF_FILE
    · rw [decide_eq_true he] at h
      exact Except.noConfusion h
    · rw [decide_eq_false he] at h
      dsimp only at h
      cases hs : statement n tokens c with
      | ok r1 =>
        rw [hs] at h hb
        dsimp only at h
        obtain ⟨s1, c1⟩ := r1
        exact FirstFailure.next c c1 s1 x t ht he (statement_ends hs (fuelFree_ok _))
          (ih _ _ _ hb.1 h hx)
      | error y =>
        rw [hs] at h
        dsimp only at h
        injection h with h
        subst h
        refine FirstFailure.here c y t ht he (statement_ends hs ?_)
        intro c' hc'
        injection hc' with hc'
        subst hc'
        exact hx rfl

/-- The loop without `catch` with the fuel of `parse` ends the same way on
every token vector that agrees with `tokens` up to the cursor at which it ends. -/
theorem statementsLoop_agree {t1 t2 : List Token} {x : Failure × Nat}
    (h : statementsLoop (parseFuel t1) t1 [] 0 = Except.error x) (hA : Agree t1 t2 x.2) :
    statementsLoop (parseFuel t2) t2 [] 0 = Except.error x := by
  have hf1 := statementsLoop_parseFuel t1
  by_cases hle : parseFuel t1 ≤ parseFuel t2
  · have L := statementsLoop_local hA (parseFuel t1) [] 0 (parseFuel t2) hle hf1
    rw [h] at L
    exact L.2 (Nat.le_refl _)
  · have L := statementsLoop_local hA (parseFuel t1) [] 0 (parseFuel t1) (Nat.le_refl _) hf1
    rw [h] at L
    have h2 : statementsLoop (parseFuel t1) t2 [] 0 = Except.error x := L.2 (Nat.le_refl _)
    have hf2 := statementsLoop_parseFuel t2
    have L2 := statementsLoop_local (agree_refl t2 (cursorOf (outcome
      (statementsLoop (parseFuel t2) t2 [] 0)))) (parseFuel t2) [] 0 (parseFuel t1)
      (by omega) hf2
    rw [← L2.2 (Nat.le_refl _)]
    exact h2

theorem finish_error {r : Result Program} {e : Failure} (h : finish r = Except.error e) :
    ∃ c, r = Except.error (e, c) := by
  cases r with
  | ok r => exact Except.noConfusion h
  | error x =>
    obtain ⟨e', c⟩ := x
    injection h with h
    exact ⟨c, by rw [← h]⟩

end Parser

/-- C15. The first error is the one reported. On a token vector that ends in
`END_OF_FILE`, as the lexer builds them, a failure `e` of `parse` is the
failure with which the first failing statement rule ended, at some cursor `c`
(the statement rules before it succeeded, and the skip-to-semicolon recovery
changed nothing); and every token vector that ends in `END_OF_FILE` and agrees
with `tokens` up to and including the index `c` makes `parse` fail with the
same `e`. -/
theorem first_error_reported (tokens : List Token) (e : Failure)
    (hT : Parser.Terminated tokens) (h : Parser.parse tokens = Except.error e) :
    ∃ c, Parser.FirstFailure tokens 0 (e, c) ∧
      ∀ tokens2, Parser.Terminated tokens2 → Parser.Agree tokens tokens2 c →
        Parser.parse tokens2 = Except.error e := by
  have hne : e ≠ Failure.outOfFuel := fun he => by
    rw [he] at h
    exact Parser.parse_ne_outOfFuel tokens h
  rw [Parser.parse_eq_statementsLoop hT] at h
  obtain ⟨c, hc⟩ := Parser.finish_error h
  refine ⟨c, Parser.statementsLoop_firstFailure hT _ _ _ _ hT.pos hc hne, ?_⟩
  intro tokens2 hT2 hA
  rw [Parser.parse_eq_statementsLoop hT2, Parser.statementsLoop_agree hc hA]
  rfl

theorem first_error_reported_witness :
    ∃ c, Parser.FirstFailure
        [⟨TokenType.IDENTIFIER, "a", 1, 1⟩, ⟨TokenType.SEMICOLON, ";", 1, 2⟩,
          ⟨TokenType.RIGHT_PAREN, ")", 1, 4⟩, ⟨TokenType.SEMICOLON, ";", 1, 5⟩,
          ⟨TokenType.VAR, "var", 1, 7⟩, ⟨TokenType.SEMICOLON, ";", 1, 10⟩,
          ⟨TokenType.END_OF_FILE, "", 1, 11⟩] 0
        (Failure.ParseError "Line 1, Column 4: Unexpected token ')'", c) ∧
      ∀ tokens2, Parser.Terminated tokens2 →
        Parser.Agree
          [⟨TokenType.IDENTIFIER, "a", 1, 1⟩, ⟨TokenType.SEMICOLON, ";", 1, 2⟩,
            ⟨TokenType.RIGHT_PAREN, ")", 1, 4⟩, ⟨TokenType.SEMICOLON, ";", 1, 5⟩,
            ⟨TokenType.VAR, "var", 1, 7⟩, ⟨TokenType.SEMICOLON, ";", 1, 10⟩,
            ⟨TokenType.END_OF_FILE, "", 1, 11⟩] tokens2 c →
        Parser.parse tokens2 =
          Except.error (Failure.ParseError "Line 1, Column 4: Unexpected token ')'") :=
  first_error_reported
    [⟨TokenType.IDENTIFIER, "a", 1, 1⟩, ⟨TokenType.SEMICOLON, ";", 1, 2⟩,
      ⟨TokenType.RIGHT_PAREN, ")", 1, 4⟩, ⟨TokenType.SEMICOLON, ";", 1, 5⟩,
      ⟨TokenType.VAR, "var", 1, 7⟩, ⟨TokenType.SEMICOLON, ";", 1, 10⟩,
      ⟨TokenType.END_OF_FILE, "", 1, 11⟩]
    (Failure.ParseError "Line 1, Column 4: Unexpected token ')'") ⟨_, rfl, rfl⟩ (by decide!)

/-- C14, as stated, fails: the failure of `primary` on `)` carries
"Line 1, Column 1: Unexpected token ')'", which has no ". Got '" part, whatever
the line, the column, the message and the lexeme are taken to be; and the
failure of `call` on `1(2);` carries no location at all. -/
theorem diagnostic_without_got :
    parseSource ")" =
        some (Except.error (Failure.ParseError "Line 1, Column 1: Unexpected token ')'")) ∧
      parseSource "1(2);" =
        some (Except.error
          (Failure.ParseError "Only identifiers can be called as functions")) ∧
      ∀ L C message lexeme : String,
        "Line 1, Column 1: Unexpected token ')'" ≠
            "Line " ++ L ++ ", Column " ++ C ++ ": " ++ message ++ ". Got '" ++ lexeme ++ "'" ∧
          "Only identifiers can be called as functions" ≠
            "Line " ++ L ++ ", Column " ++ C ++ ": " ++ message ++ ". Got '" ++ lexeme ++ "'" := by
  refine ⟨by decide!, by decide!, fun L C message lexeme => ⟨fun h => ?_, fun h => ?_⟩⟩
  · have hm : '.' ∈ ("Line " ++ L ++ ", Column " ++ C ++ ": " ++ message ++ ". Got '" ++
        lexeme ++ "'").data := by
      simp [String.data_append]
    rw [← h] at hm
    revert hm
    decide
  · have hm : '.' ∈ ("Line " ++ L ++ ", Column " ++ C ++ ": " ++ message ++ ". Got '" ++
        lexeme ++ "'").data := by
      simp [String.data_append]
    rw [← h] at hm
    revert hm
    decide

/-- C14, amended. On a token vector that ends in `END_OF_FILE`, a `ParseError`
of `parse` is the failure of the first failing statement rule, raised at some
cursor `c`, and its message has one of three forms: the one of `consume`,
"Line L, Column C: <message>. Got '<lexeme>'", or the one of `primary`,
"Line L, Column C: Unexpected token '<lexeme>'", both with the line, the column
and the lexeme of the token at `c`; or the text "Only identifiers can be called
as functions" without a location, raised just after a `(`. -/
theorem diagnostic_forms (tokens : List Token) (msg : String)
    (hT : Parser.Terminated tokens)
    (h : Parser.parse tokens = Except.error (Failure.ParseError msg)) :
    ∃ c, Parser.FirstFailure tokens 0 (Failure.ParseError msg, c) ∧
      ((∃ t message, tokens[c]? = some t ∧ msg = Parser.consumeMessage t message ∧
          msg = "Line " ++ to_string t.line ++ ", Column " ++ to_string t.column ++ ": " ++
            message ++ ". Got '" ++ t.value ++ "'") ∨
        (∃ t, tokens[c]? = some t ∧ msg = Parser.primaryMessage t ∧
          msg = "Line " ++ to_string t.line ++ ", Column " ++ to_string t.column ++
            ": Unexpected token '" ++ t.value ++ "'") ∨
        (∃ t, 0 < c ∧ tokens[c - 1]? = some t ∧ t.type = TokenType.LEFT_PAREN ∧
          msg = "Only identifiers can be called as functions")) := by
  have h0 := h
  rw [Parser.parse_eq_statementsLoop hT] at h
  obtain ⟨c, hc⟩ := Parser.finish_error h
  refine ⟨c, Parser.statementsLoop_firstFailure hT _ _ _ _ hT.pos hc
    (fun hh => Failure.noConfusion hh), ?_⟩
  have hr := Parser.statementsLoop_traced (Parser.traced_raised tokens)
    (Parser.parseFuel tokens) [] 0 (Failure.ParseError msg, c) (by rw [hc]; rfl)
  generalize hx : (Failure.ParseError msg, c) = x at hr
  cases hr with
  | missing c' hn => injection hx with h1 h2; exact Failure.noConfusion h1
  | expected c' t message ht =>
    injection hx with h1 h2
    injection h1 with h1
    subst h2
    exact Or.inl ⟨t, message, ht, h1, h1⟩
  | unexpected c' t ht =>
    injection hx with h1 h2
    injection h1 with h1
    subst h2
    exact Or.inr (Or.inl ⟨t, ht, h1, h1⟩)
  | callee c' t ht hty =>
    injection hx with h1 h2
    injection h1 with h1
    subst h2
    exact Or.inr (Or.inr ⟨t, Nat.succ_pos _, ht, hty, h1⟩)
  | number c' t e ht hty hs =>
    injection hx with h1 h2
    subst h1
    rcases Parser.stoi_error hs with h | h <;> exact Failure.noConfusion h
  | fuel c' => injection hx with h1 h2; exact Failure.noConfusion h1

theorem diagnostic_forms_witness :
    ∃ c, Parser.FirstFailure
        [⟨TokenType.VAR, "var", 1, 1⟩, ⟨TokenType.NUMBER, "1", 1, 5⟩,
          ⟨TokenType.SEMICOLON, ";", 1, 6⟩, ⟨TokenType.END_OF_FILE, "", 1, 7⟩] 0
        (Failure.ParseError "Line 1, Column 5: Expected variable name. Got '1'", c) ∧
      ((∃ t message, ([⟨TokenType.VAR, "var", 1, 1⟩, ⟨TokenType.NUMBER, "1", 1, 5⟩,
          ⟨TokenType.SEMICOLON, ";", 1, 6⟩, ⟨TokenType.END_OF_FILE, "", 1, 7⟩] : List Token)[c]? = some t ∧
          "Line 1, Column 5: Expected variable name. Got '1'" =
            Parser.consumeMessage t message ∧
          "Line 1, Column 5: Expected variable name. Got '1'" =
            "Line " ++ to_string t.line ++ ", Column " ++ to_string t.column ++ ": " ++
              message ++ ". Got '" ++ t.value ++ "'") ∨
        (∃ t, ([⟨TokenType.VAR, "var", 1, 1⟩, ⟨TokenType.NUMBER, "1", 1, 5⟩,
          ⟨TokenType.SEMICOLON, ";", 1, 6⟩, ⟨TokenType.END_OF_FILE, "", 1, 7⟩] : List Token)[c]? = some t ∧
          "Line 1, Column 5: Expected variable name. Got '1'" = Parser.primaryMessage t ∧
          "Line 1, Column 5: Expected variable name. Got '1'" =
            "Line " ++ to_string t.line ++ ", Column " ++ to_string t.column ++
              ": Unexpected token '" ++ t.value ++ "'") ∨
        (∃ t, 0 < c ∧ ([⟨TokenType.VAR, "var", 1, 1⟩, ⟨TokenType.NUMBER, "1", 1, 5⟩,
          ⟨TokenType.SEMICOLON, ";", 1, 6⟩, ⟨TokenType.END_OF_FILE, "", 1, 7⟩] : List Token)[c - 1]? =
            some t ∧ t.type = TokenType.LEFT_PAREN ∧
          "Line 1, Column 5: Expected variable name. Got '1'" =
            "Only identifiers can be called as functions")) :=
  diagnostic_forms
    [⟨TokenType.VAR, "var", 1, 1⟩, ⟨TokenType.NUMBER, "1", 1, 5⟩,
      ⟨TokenType.SEMICOLON, ";", 1, 6⟩, ⟨TokenType.END_OF_FILE, "", 1, 7⟩]
    "Line 1, Column 5: Expected variable name. Got '1'" ⟨_, rfl, rfl⟩ (by decide!)

/-- C16. The boundary case `a == == b`: the lexer gives
`IDENTIFIER a, EQUAL, EQUAL, IDENTIFIER b, END_OF_FILE`; the statement rule
moves across `a ==` and is the first one to fail, with the cursor on the second
`==` (index 2), and
`parse` returns the `ParseError` of `primary` for that token: line 1, column 6,
lexeme `==`. -/
theorem double_equal_boundary :
    tokenize "a == == b" = some [⟨TokenType.IDENTIFIER, "a", 1, 1⟩,
        ⟨TokenType.EQUAL, "==", 1, 3⟩, ⟨TokenType.EQUAL, "==", 1, 6⟩,
        ⟨TokenType.IDENTIFIER, "b", 1, 9⟩, ⟨TokenType.END_OF_FILE, "", 1, 10⟩] ∧
      Parser.FirstFailure [⟨TokenType.IDENTIFIER, "a", 1, 1⟩,
        ⟨TokenType.EQUAL, "==", 1, 3⟩, ⟨TokenType.EQUAL, "==", 1, 6⟩,
        ⟨TokenType.IDENTIFIER, "b", 1, 9⟩, ⟨TokenType.END_OF_FILE, "", 1, 10⟩] 0
        (Failure.ParseError (Parser.primaryMessage ⟨TokenType.EQUAL, "==", 1, 6⟩), 2) ∧
      Parser.primaryMessage ⟨TokenType.EQUAL, "==", 1, 6⟩ =
        "Line 1, Column 6: Unexpected token '=='" ∧
      parseSource "a == == b" =
        some (Except.error (Failure.ParseError "Line 1, Column 6: Unexpected token '=='")) := by
  refine ⟨by decide, ?_, by decide, by decide!⟩
  refine Parser.FirstFailure.here 0 _ ⟨TokenType.IDENTIFIER, "a", 1, 1⟩ rfl (by decide)
    (@Parser.statement_ends _ 0 31 _ (by decide!) (fun c h => ?_))
  injection h with h
  injection h with h1
  exact Failure.noConfusion h1

namespace Lexer

theorem keywords_ne_number (v : String) (k : TokenType) (h : keywords v = some k) :
    k ≠ TokenType.NUMBER := by
  unfold keywords at h
  split_ifs at h <;> (injection h with h; subst h; decide)

theorem makeIdentifier_type_ne_number (lx : Lexer) :
    (makeIdentifier lx).1.type ≠ TokenType.NUMBER := by
  unfold makeIdentifier
  dsimp only
  split
  · next k hk => exact keywords_ne_number _ k hk
  · simp

/-- A `NUMBER` token is built by `makeNumber`, called on a digit. -/
theorem nextToken_number {lx0 lx : Lexer} (hlx : tokenStart lx0 = lx)
    (hty : (nextToken lx0).1.type = TokenType.NUMBER) :
    lx.current < lx.input.length ∧ isdigit (lx.peek 0) = true ∧
      nextToken lx0 = makeNumber lx := by
  cases h : lx.isAtEnd with
  | true =>
    rw [nextToken_of_atEnd (by rw [hlx]; exact h)] at hty
    exact TokenType.noConfusion hty
  | false =>
  have hlt := isAtEnd_false_iff.mp h
  refine ⟨hlt, ?_⟩
  revert hty
  have single : ∀ (t : TokenType) (v : String) (l : Lexer), t ≠ TokenType.NUMBER →
      (Token.mk t v lx.line lx.column, l).1.type = TokenType.NUMBER →
      isdigit (lx.peek 0) = true ∧ (Token.mk t v lx.line lx.column, l) = makeNumber lx :=
    fun t v l hne hh => absurd hh hne
  have hlt := isAtEnd_false_iff.mp h
  have hfst := advance_fst hlt
  have hin := advance_input lx
  unfold nextToken
  unfold tokenStart at hlx
  rw [hlx]
  dsimp only
  rw [h]
  simp only [Bool.false_eq_true, if_false]
  rw [hfst]
  by_cases h0 : lx.peek 0 = '+'
  · rw [if_pos h0]; exact single _ _ _ (by decide)
  rw [if_neg h0]
  by_cases h1 : lx.peek 0 = '-'
  · rw [if_pos h1]; exact single _ _ _ (by decide)
  rw [if_neg h1]
  by_cases h2 : lx.peek 0 = '*'
  · rw [if_pos h2]; exact single _ _ _ (by decide)
  rw [if_neg h2]
  by_cases h3 : lx.peek 0 = '/'
  · rw [if_pos h3]; exact single _ _ _ (by decide)
  rw [if_neg h3]
  by_cases h4 : lx.peek 0 = '('
  · rw [if_pos h4]; exact single _ _ _ (by decide)
  rw [if_neg h4]
  by_cases h5 : lx.peek 0 = ')'
  · rw [if_pos h5]; exact single _ _ _ (by decide)
  rw [if_neg h5]
  by_cases h6 : lx.peek 0 = '{'
  · rw [if_pos h6]; exact single _ _ _ (by decide)
  rw [if_neg h6]
  by_cases h7 : lx.peek 0 = '}'
  · rw [if_pos h7]; exact single _ _ _ (by decide)
  rw [if_neg h7]
  by_cases h8 : lx.peek 0 = ','
  · rw [if_pos h8]; exact single _ _ _ (by decide)
  rw [if_neg h8]
  by_cases h9 : lx.peek 0 = ';'
  · rw [if_pos h9]; exact single _ _ _ (by decide)
  rw [if_neg h9]
  by_cases g0 : lx.peek 0 = '!'
  · rw [if_pos g0]
    by_cases k : lx.advance.2.peek 0 = '='
    · rw [if_pos k]
      exact single _ _ _ (by decide)
    · rw [if_neg k]; exact single _ _ _ (by decide)
  rw [if_neg g0]
  by_cases g1 : lx.peek 0 = '='
  · rw [if_pos g1]
    by_cases k : lx.advance.2.peek 0 = '='
    · rw [if_pos k]
      exact single _ _ _ (by decide)
    · rw [if_neg k]; exact single _ _ _ (by decide)
  rw [if_neg g1]
  by_cases g2 : lx.peek 0 = '<'
  · rw [if_pos g2]
    by_cases k : lx.advance.2.peek 0 = '='
    · rw [if_pos k]
      exact single _ _ _ (by decide)
    · rw [if_neg k]; exact single _ _ _ (by decide)
  rw [if_neg g2]
  by_cases g3 : lx.peek 0 = '>'
  · rw [if_pos g3]
    by_cases k : lx.advance.2.peek 0 = '='
    · rw [if_pos k]
      exact single _ _ _ (by decide)
    · rw [if_neg k]; exact single _ _ _ (by decide)
  rw [if_neg g3]
  by_cases g4 : lx.peek 0 = '&'
  · rw [if_pos g4]
    by_cases k : lx.advance.2.peek 0 = '&'
    · rw [if_pos k]
      exact single _ _ _ (by decide)
    · rw [if_neg k]; exact single _ _ _ (by decide)
  rw [if_neg g4]
  by_cases g5 : lx.peek 0 = '|'
  · rw [if_pos g5]
    by_cases k : lx.advance.2.peek 0 = '|'
    · rw [if_pos k]
      exact single _ _ _ (by decide)
    · rw [if_neg k]; exact single _ _ _ (by decide)
  rw [if_neg g5]
  by_cases hd : isdigit (lx.peek 0) = true
  · rw [if_pos hd, backUp_advance hlt (isdigit_ne_newline hd)]
    exact fun _ => ⟨hd, rfl⟩
  rw [if_neg hd]
  by_cases hi : isalpha (lx.peek 0) = true ∨ lx.peek 0 = '_'
  · rw [if_pos hi, backUp_advance hlt (isalpha_ne_newline hi)]
    exact fun hh => absurd hh (makeIdentifier_type_ne_number lx)
  rw [if_neg hi]
  exact single _ _ _ (by decide)


/-- The lexeme of a `NUMBER` token is a non-empty run of decimal digits. -/
theorem nextToken_number_digits {lx0 : Lexer}
    (hty : (nextToken lx0).1.type = TokenType.NUMBER) :
    (nextToken lx0).1.value.data ≠ [] ∧
      ∀ ch ∈ (nextToken lx0).1.value.data, isdigit ch = true := by
  obtain ⟨hlt, hd, he⟩ := nextToken_number rfl hty
  obtain ⟨h1, -⟩ := makeNumberLoop_run ((tokenStart lx0).input.length - (tokenStart lx0).current)
    (tokenStart lx0) "" (le_refl _)
  have hv : (nextToken lx0).1.value.data =
      ((tokenStart lx0).input.drop (tokenStart lx0).current).takeWhile isdigit := by
    rw [he]
    unfold makeNumber
    dsimp only
    rw [h1]
    rfl
  rw [hv]
  refine ⟨?_, fun ch hch => List.mem_takeWhile_imp hch⟩
  rw [drop_current hlt, List.takeWhile_cons, ← peek_eq_getElem hlt, hd]
  simp

end Lexer

/-- The tokens of kind `NUMBER` that the lexer builds hold a non-empty run of
decimal digits. -/
theorem tokenize_number_digits {s : String} {toks : List Token} (h : tokenize s = some toks)
    {t : Token} (ht : t ∈ toks) (hty : t.type = TokenType.NUMBER) :
    t.value.data ≠ [] ∧ ∀ ch ∈ t.value.data, isdigit ch = true := by
  obtain ⟨k, hk⟩ := List.mem_iff_getElem?.mp ht
  have := Lexer.tokenize_getElem? s toks h k t hk
  rw [this] at hty ⊢
  exact Lexer.nextToken_number_digits hty

theorem isdigit_not_isspace {ch : Char} (h : isdigit ch = true) : isspace ch = false := by
  revert h
  unfold isdigit isspace
  simp only [Bool.and_eq_true, decide_eq_true_eq, Bool.or_eq_false_iff, Bool.and_eq_false_iff,
    decide_eq_false_iff_not]
  omega

theorem isdigit_not_sign {ch : Char} (h : isdigit ch = true) : ch ≠ '-' ∧ ch ≠ '+' := by
  constructor <;> (intro hc; rw [hc] at h; revert h; decide)

/-- What `std::stoi` makes of a non-empty run of decimal digits: its decimal
value if that fits `int`, the exception `std::out_of_range` otherwise. -/
theorem stoi_digits {str : String} (hne : str.data ≠ [])
    (hd : ∀ ch ∈ str.data, isdigit ch = true) :
    stoi str = if digitsValue str.data ≤ 2147483647 then Except.ok (digitsValue str.data : Int)
      else Except.error Failure.out_of_range := by
  obtain ⟨ds⟩ := str
  cases ds with
  | nil => exact absurd rfl hne
  | cons d rest =>
    have hd0 : isdigit d = true := hd d (List.mem_cons_self _ _)
    have hsp := isdigit_not_isspace hd0
    obtain ⟨hm, hp⟩ := isdigit_not_sign hd0
    have htw : List.takeWhile isdigit (d :: rest) = d :: rest :=
      List.takeWhile_eq_self_iff.mpr hd
    unfold stoi
    simp only [String.toList, List.dropWhile_cons, hsp, Bool.false_eq_true, if_false,
      List.head?_cons, Option.some.injEq, hm, hp, or_self, decide_False, htw]
    have h0 : (0 : Int) ≤ (digitsValue (d :: rest) : Int) := Int.natCast_nonneg _
    by_cases hfit : digitsValue (d :: rest) ≤ 2147483647
    · rw [if_pos hfit, if_neg (by simp), if_neg (by omega)]
    · rw [if_neg hfit, if_neg (by simp), if_pos (by omega)]

namespace Parser

theorem primary_number {tokens : List Token} {c : Nat} {t : Token} {n : Int}
    (h : tokens[c]? = some t) (hi : t.type = TokenType.NUMBER)
    (hn : stoi t.value = Except.ok n) (fuel : Nat) :
    primary (fuel + 1) tokens c = Except.ok (Expression.NumberLiteral n, c + 1) := by
  have hne : t.type ≠ TokenType.END_OF_FILE := by rw [hi]; decide
  rw [primary, match__not_mem h _ (by rw [hi]; decide)]
  dsimp only
  rw [match__not_mem h _ (by rw [hi]; decide)]
  dsimp only
  rw [match__eq h hne]
  simp only [hi, List.mem_singleton, decide_True, if_true, previous_eq h, hn]

theorem mem_of_getElem? {tokens : List Token} {c : Nat} {t : Token}
    (h : tokens[c]? = some t) : t ∈ tokens :=
  List.mem_iff_getElem?.mpr ⟨c, h⟩

/-- On a token vector that ends in `END_OF_FILE`, a failure of `parse` is one
that a parser method raised inside the vector. -/
theorem parse_error_raised {tokens : List Token} (hT : Terminated tokens) {e : Failure}
    (h : parse tokens = Except.error e) :
    ∃ c, Raised tokens (e, c) ∧ e ≠ Failure.outOfBounds ∧ e ≠ Failure.outOfFuel := by
  have hne : e ≠ Failure.outOfFuel := fun he => by
    rw [he] at h
    exact parse_ne_outOfFuel tokens h
  rw [parse_eq_statementsLoop hT] at h
  obtain ⟨c, hc⟩ := finish_error h
  have hr := statementsLoop_traced (traced_raised tokens) (parseFuel tokens) [] 0 (e, c)
    (by rw [hc]; rfl)
  have hb := (statementsLoop_traced (traced_bounds hT) (parseFuel tokens) [] 0 hT.pos).2 c
  refine ⟨c, hr, fun he => hb ?_, hne⟩
  rw [hc, he]
  rfl

theorem consumeMessage_located (t : Token) (message : String) :
    consumeMessage t message = "Line " ++ to_string t.line ++ ", Column " ++
      to_string t.column ++ ": " ++ (message ++ ". Got '" ++ t.value ++ "'") := by
  unfold consumeMessage
  simp only [String.append_assoc]

theorem primaryMessage_located (t : Token) :
    primaryMessage t = "Line " ++ to_string t.line ++ ", Column " ++
      to_string t.column ++ ": " ++ ("Unexpected token '" ++ t.value ++ "'") := by
  unfold primaryMessage
  have : ": Unexpected token '" = ": " ++ "Unexpected token '" := by decide
  rw [this]
  simp only [String.append_assoc]

end Parser

/-- C17 does not hold of the code: on `99999999999;` the failure that leaves
the parser is the exception `std::out_of_range` of `std::stoi`, which is not a
`ParseError` and carries no source location, while the claim says that no
failure other than a `ParseError` escapes the parser for a `NUMBER` token
whose digit run does not fit a signed 32-bit integer. -/
theorem number_overflow_escapes :
    tokenize "99999999999;" = some [⟨TokenType.NUMBER, "99999999999", 1, 1⟩,
      ⟨TokenType.SEMICOLON, ";", 1, 12⟩, ⟨TokenType.END_OF_FILE, "", 1, 13⟩] ∧
    stoi "99999999999" = Except.error Failure.out_of_range ∧
    parseSource "99999999999;" = some (Except.error Failure.out_of_range) := by
  refine ⟨by decide!, by decide!, by decide!⟩

/-- The `ParseError` that `call` raises on `1(2);` is the bare message, without
a source location. -/
theorem callee_error_unlocated :
    parseSource "1(2);" = some (Except.error
      (Failure.ParseError "Only identifiers can be called as functions")) := by
  decide!

/-- The parse-error family, for sources whose numbers fit. For every source
string `s` with tokens `tokens`: if the digit run of every `NUMBER` token fits
a signed 32-bit integer, `parse` returns a program or fails with a
`ParseError`, whose message is either "Only identifiers can be called as
functions" or starts with the location "Line L, Column C: " of a token of `s`;
and wherever `primary` is started on a `NUMBER` token whose digit run fits, it
returns `NumberLit(n)` with `n` the decimal value of the lexeme. -/
theorem parse_error_family (s : String) (tokens : List Token) (h : tokenize s = some tokens) :
    ((∀ t ∈ tokens, t.type = TokenType.NUMBER → digitsValue t.value.toList ≤ 2147483647) →
        (∃ p, Parser.parse tokens = Except.ok p) ∨
          ∃ msg, Parser.parse tokens = Except.error (Failure.ParseError msg) ∧
            (msg = "Only identifiers can be called as functions" ∨
              ∃ t ∈ tokens, ∃ rest, msg = "Line " ++ to_string t.line ++ ", Column " ++
                to_string t.column ++ ": " ++ rest)) ∧
      ∀ (fuel c : Nat) (t : Token), tokens[c]? = some t → t.type = TokenType.NUMBER →
        digitsValue t.value.toList ≤ 2147483647 →
        Parser.primary (fuel + 1) tokens c =
          Except.ok (Expression.NumberLiteral (digitsValue t.value.toList), c + 1) := by
  have hstoi : ∀ t ∈ tokens, t.type = TokenType.NUMBER →
      digitsValue t.value.toList ≤ 2147483647 →
      stoi t.value = Except.ok (digitsValue t.value.toList : Int) := by
    intro t ht hty hfit
    obtain ⟨h1, h2⟩ := tokenize_number_digits h ht hty
    rw [stoi_digits h1 h2]
    exact if_pos hfit
  have hT : Parser.Terminated tokens := by
    obtain ⟨toks, h1, -, -, h2, -⟩ := tokenize_total s
    rw [h] at h1
    injection h1 with h1
    rw [h1]
    exact h2
  refine ⟨fun hfit => ?_, fun fuel c t ht hty hfit =>
    Parser.primary_number ht hty (hstoi t (Parser.mem_of_getElem? ht) hty hfit) fuel⟩
  cases hp : Parser.parse tokens with
  | ok p => exact Or.inl ⟨p, rfl⟩
  | error e =>
    right
    obtain ⟨c, hr, hb, hf⟩ := Parser.parse_error_raised hT hp
    generalize hx : (e, c) = x at hr
    cases hr with
    | missing c' hn => injection hx with h1 h2; exact absurd h1 hb
    | expected c' t message ht =>
      injection hx with h1 h2
      exact ⟨_, by rw [h1], Or.inr ⟨t, Parser.mem_of_getElem? ht, _,
        Parser.consumeMessage_located t message⟩⟩
    | unexpected c' t ht =>
      injection hx with h1 h2
      exact ⟨_, by rw [h1], Or.inr ⟨t, Parser.mem_of_getElem? ht, _,
        Parser.primaryMessage_located t⟩⟩
    | callee c' t ht hty =>
      injection hx with h1 h2
      exact ⟨_, by rw [h1], Or.inl rfl⟩
    | number c' t e' ht hty hs =>
      have := hstoi t (Parser.mem_of_getElem? ht) hty (hfit t (Parser.mem_of_getElem? ht) hty)
      rw [this] at hs
      exact Except.noConfusion hs
    | fuel c' => injection hx with h1 h2; exact absurd h1 hf

theorem parse_error_family_witness :
    Parser.primary 1 [⟨TokenType.IDENTIFIER, "x", 1, 1⟩, ⟨TokenType.ASSIGN, "=", 1, 3⟩,
        ⟨TokenType.NUMBER, "2147483647", 1, 5⟩, ⟨TokenType.SEMICOLON, ";", 1, 15⟩,
        ⟨TokenType.END_OF_FILE, "", 1, 16⟩] 2 =
      Except.ok (Expression.NumberLiteral (digitsValue "2147483647".toList), 3) :=
  (parse_error_family "x = 2147483647;" [⟨TokenType.IDENTIFIER, "x", 1, 1⟩,
    ⟨TokenType.ASSIGN, "=", 1, 3⟩, ⟨TokenType.NUMBER, "2147483647", 1, 5⟩,
    ⟨TokenType.SEMICOLON, ";", 1, 15⟩, ⟨TokenType.END_OF_FILE, "", 1, 16⟩] (by decide)).2 0 2
    ⟨TokenType.NUMBER, "2147483647", 1, 5⟩ rfl rfl (by decide)

/-! ## The generator: what the builder leaves alone -/

namespace CodeGenerator

theorem moduleKept_refl (m : List LLVM.Function) : ModuleKept m m :=
  fun _ f h => ⟨f, h, rfl, fun h => h⟩

theorem ModuleKept.andThen {a b c : List LLVM.Function} (h1 : ModuleKept a b)
    (h2 : ModuleKept b c) : ModuleKept a c := by
  intro id f hf
  obtain ⟨f1, hf1, a1, b1⟩ := h1 id f hf
  obtain ⟨f2, hf2, a2, b2⟩ := h2 id f1 hf1
  exact ⟨f2, hf2, a2.trans a1, fun h => b2 (b1 h)⟩

/-- A change of the blocks of the functions, one by one, keeps the functions. -/
theorem moduleKept_map (m : List LLVM.Function) (h : LLVM.Function → LLVM.Function)
    (hid : ∀ f, (h f).id = f.id) (hargs : ∀ f, (h f).args = f.args)
    (hblocks : ∀ f, f.blocks ≠ [] → (h f).blocks ≠ []) : ModuleKept m (m.map h) := by
  intro id f hf
  refine ⟨h f, ?_, hargs f, hblocks f⟩
  unfold LLVM.findFunction at hf ⊢
  rw [List.find?_map]
  have : ((fun f => decide (f.id = id)) ∘ h) = (fun f : LLVM.Function => decide (f.id = id)) := by
    funext x
    simp [hid]
  rw [this, hf]
  rfl

theorem moduleKept_append (m : List LLVM.Function) (f : LLVM.Function) :
    ModuleKept m (m ++ [f]) := by
  intro id x hx
  refine ⟨x, ?_, rfl, fun h => h⟩
  unfold LLVM.findFunction at hx ⊢
  rw [List.find?_append, hx]
  rfl

theorem moduleKept_appendInstruction (m : List LLVM.Function) (b : Nat) (i : LLVM.Instruction) :
    ModuleKept m (LLVM.appendInstruction m b i) := by
  unfold LLVM.appendInstruction
  refine moduleKept_map m _ (fun _ => rfl) (fun _ => rfl) (fun f hf => ?_)
  simpa using hf

theorem moduleKept_appendBlock (m : List LLVM.Function) (function : Nat)
    (b : LLVM.BasicBlock) : ModuleKept m (LLVM.appendBlock m function b) := by
  unfold LLVM.appendBlock
  refine moduleKept_map m _ (fun f => ?_) (fun f => ?_) (fun f hf => ?_)
  · split <;> rfl
  · split <;> rfl
  · split
    · simp
    · exact hf

theorem moduleKept_insertAtEntry (m : List LLVM.Function) (function : Nat)
    (i : LLVM.Instruction) : ModuleKept m (LLVM.insertAtEntry m function i) := by
  unfold LLVM.insertAtEntry
  refine moduleKept_map m _ (fun f => ?_) (fun f => ?_) (fun f hf => ?_)
  · split <;> rfl
  · split <;> rfl
  · split
    · cases hb : f.blocks with
      | nil => exact absurd hb hf
      | cons b bs => simp [hb]
    · exact hf

theorem sameTables_refl (g : CodeGenerator) : SameTables g g :=
  ⟨rfl, rfl, rfl, rfl, moduleKept_refl _, fun h => h⟩

theorem SameTables.step {a b c : CodeGenerator} (h1 : SameTables a b) (h2 : SameTables b c) :
    SameTables a c :=
  ⟨h2.1.trans h1.1, h2.2.1.trans h1.2.1, h2.2.2.1.trans h1.2.2.1,
    h2.2.2.2.1.trans h1.2.2.2.1, h1.2.2.2.2.1.andThen h2.2.2.2.2.1,
    fun h => h2.2.2.2.2.2 (h1.2.2.2.2.2 h)⟩

theorem SameTables.lastValue {a b : CodeGenerator} (h : SameTables a b)
    (v : Option LLVM.Value) : SameTables a { b with lastValue := v } := h

theorem fresh_appendInstruction {m : List LLVM.Function} {n : Nat} (hm : ∀ f ∈ m, f.id < n)
    (b : Nat) (i : LLVM.Instruction) : ∀ f ∈ LLVM.appendInstruction m b i, f.id < n := by
  unfold LLVM.appendInstruction
  intro f hf
  obtain ⟨x, hx, rfl⟩ := List.mem_map.mp hf
  exact hm x hx

theorem fresh_appendBlock {m : List LLVM.Function} {n : Nat} (hm : ∀ f ∈ m, f.id < n)
    (function : Nat) (b : LLVM.BasicBlock) : ∀ f ∈ LLVM.appendBlock m function b, f.id < n := by
  unfold LLVM.appendBlock
  intro f hf
  obtain ⟨x, hx, rfl⟩ := List.mem_map.mp hf
  split <;> exact hm x hx

theorem fresh_insertAtEntry {m : List LLVM.Function} {n : Nat} (hm : ∀ f ∈ m, f.id < n)
    (function : Nat) (i : LLVM.Instruction) :
    ∀ f ∈ LLVM.insertAtEntry m function i, f.id < n := by
  unfold LLVM.insertAtEntry
  intro f hf
  obtain ⟨x, hx, rfl⟩ := List.mem_map.mp hf
  split <;> exact hm x hx

theorem Insert_sameTables (g : CodeGenerator) (operation : LLVM.Operation) (name : String) :
    SameTables g (g.Insert operation name).2 := by
  refine ⟨rfl, rfl, rfl, rfl, ?_, fun hf => ?_⟩
  · show ModuleKept g.module (match g.insertBlock with
      | some b => LLVM.appendInstruction g.module b ⟨g.nextId, name, operation⟩
      | none => g.module)
    split
    · exact moduleKept_appendInstruction _ _ _
    · exact moduleKept_refl _
  · have hf' : ∀ f ∈ g.module, f.id < g.nextId + 1 := fun f hm => Nat.lt_succ_of_lt (hf f hm)
    intro f hm
    unfold Insert at hm ⊢
    dsimp only at hm ⊢
    split at hm
    · exact fresh_appendInstruction hf' _ _ f hm
    · exact hf' f hm

theorem CreateLoad_sameTables (g : CodeGenerator) (type : LLVM.IRType) (pointer : LLVM.Value)
    (name : String) : SameTables g (g.CreateLoad type pointer name).2 :=
  Insert_sameTables _ _ _

theorem CreateCall_sameTables (g : CodeGenerator) (callee : Nat) (args : List LLVM.Value)
    (name : String) : SameTables g (g.CreateCall callee args name).2 :=
  Insert_sameTables _ _ _

theorem CreateStore_sameTables (g : CodeGenerator) (value pointer : LLVM.Value) :
    SameTables g (g.CreateStore value pointer) :=
  Insert_sameTables _ _ _

theorem CreateBr_sameTables (g : CodeGenerator) (dest : Nat) : SameTables g (g.CreateBr dest) :=
  Insert_sameTables _ _ _

theorem CreateCondBr_sameTables (g : CodeGenerator) (cond : LLVM.Value) (a b : Nat) :
    SameTables g (g.CreateCondBr cond a b) :=
  Insert_sameTables _ _ _

theorem CreateRet_sameTables (g : CodeGenerator) (value : LLVM.Value) :
    SameTables g (g.CreateRet value) :=
  Insert_sameTables _ _ _

theorem CreateBinOp_sameTables (llvm : LLVM.Backend) (g : CodeGenerator)
    (opcode : LLVM.BinaryOps) (lhs rhs : LLVM.Value) (name : String) :
    SameTables g (CreateBinOp llvm g opcode lhs rhs name).2 := by
  unfold CreateBinOp
  split
  · exact sameTables_refl g
  · exact Insert_sameTables _ _ _

theorem CreateICmp_sameTables (llvm : LLVM.Backend) (g : CodeGenerator)
    (predicate : LLVM.Predicate) (lhs rhs : LLVM.Value) (name : String) :
    SameTables g (CreateICmp llvm g predicate lhs rhs name).2 := by
  unfold CreateICmp
  split
  · exact sameTables_refl g
  · exact Insert_sameTables _ _ _

/-- What `binaryInstruction` returns is the result of one builder call. -/
theorem binaryInstruction_cases {llvm : LLVM.Backend} {g : CodeGenerator}
    {operator_ : String} {left right : LLVM.Value} {r : LLVM.Value × CodeGenerator}
    (h : binaryInstruction llvm g operator_ left right = some r) :
    (∃ opcode name, r = CreateBinOp llvm g opcode left right name) ∨
      ∃ predicate name, r = CreateICmp llvm g predicate left right name := by
  unfold binaryInstruction at h
  by_cases h0 : operator_ = "+"
  · rw [if_pos h0] at h
    injection h with h
    exact Or.inl ⟨_, _, h.symm⟩
  rw [if_neg h0] at h
  by_cases h1 : operator_ = "-"
  · rw [if_pos h1] at h
    injection h with h
    exact Or.inl ⟨_, _, h.symm⟩
  rw [if_neg h1] at h
  by_cases h2 : operator_ = "*"
  · rw [if_pos h2] at h
    injection h with h
    exact Or.inl ⟨_, _, h.symm⟩
  rw [if_neg h2] at h
  by_cases h3 : operator_ = "/"
  · rw [if_pos h3] at h
    injection h with h
    exact Or.inl ⟨_, _, h.symm⟩
  rw [if_neg h3] at h
  by_cases h4 : operator_ = "<"
  · rw [if_pos h4] at h
    injection h with h
    exact Or.inr ⟨_, _, h.symm⟩
  rw [if_neg h4] at h
  by_cases h5 : operator_ = "<="
  · rw [if_pos h5] at h
    injection h with h
    exact Or.inr ⟨_, _, h.symm⟩
  rw [if_neg h5] at h
  by_cases h6 : operator_ = ">"
  · rw [if_pos h6] at h
    injection h with h
    exact Or.inr ⟨_, _, h.symm⟩
  rw [if_neg h6] at h
  by_cases h7 : operator_ = ">="
  · rw [if_pos h7] at h
    injection h with h
    exact Or.inr ⟨_, _, h.symm⟩
  rw [if_neg h7] at h
  by_cases h8 : operator_ = "=="
  · rw [if_pos h8] at h
    injection h with h
    exact Or.inr ⟨_, _, h.symm⟩
  rw [if_neg h8] at h
  by_cases h9 : operator_ = "!="
  · rw [if_pos h9] at h
    injection h with h
    exact Or.inr ⟨_, _, h.symm⟩
  rw [if_neg h9] at h
  by_cases h10 : operator_ = "&&"
  · rw [if_pos h10] at h
    injection h with h
    exact Or.inl ⟨_, _, h.symm⟩
  rw [if_neg h10] at h
  by_cases h11 : operator_ = "||"
  · rw [if_pos h11] at h
    injection h with h
    exact Or.inl ⟨_, _, h.symm⟩
  rw [if_neg h11] at h
  exact Option.noConfusion h

theorem binaryInstruction_sameTables {llvm : LLVM.Backend} {g : CodeGenerator}
    {operator_ : String} {left right : LLVM.Value} {r : LLVM.Value × CodeGenerator}
    (h : binaryInstruction llvm g operator_ left right = some r) : SameTables g r.2 := by
  rcases binaryInstruction_cases h with ⟨opcode, name, rfl⟩ | ⟨predicate, name, rfl⟩
  · exact CreateBinOp_sameTables _ _ _ _ _ _
  · exact CreateICmp_sameTables _ _ _ _ _ _

/-- What `unaryInstruction` returns is the result of one builder call. -/
theorem unaryInstruction_cases {llvm : LLVM.Backend} {g : CodeGenerator}
    {operator_ : String} {operand : LLVM.Value} {r : LLVM.Value × CodeGenerator}
    (h : unaryInstruction llvm g operator_ operand = some r) :
    ∃ opcode lhs rhs name, r = CreateBinOp llvm g opcode lhs rhs name := by
  unfold unaryInstruction at h
  by_cases h0 : operator_ = "-"
  · rw [if_pos h0] at h
    injection h with h
    exact ⟨_, _, _, _, h.symm⟩
  rw [if_neg h0] at h
  by_cases h1 : operator_ = "!"
  · rw [if_pos h1] at h
    injection h with h
    exact ⟨_, _, _, _, h.symm⟩
  rw [if_neg h1] at h
  exact Option.noConfusion h

theorem unaryInstruction_sameTables {llvm : LLVM.Backend} {g : CodeGenerator}
    {operator_ : String} {operand : LLVM.Value} {r : LLVM.Value × CodeGenerator}
    (h : unaryInstruction llvm g operator_ operand = some r) : SameTables g r.2 := by
  obtain ⟨opcode, lhs, rhs, name, rfl⟩ := unaryInstruction_cases h
  exact CreateBinOp_sameTables _ _ _ _ _ _

mutual

/-- A visit of an expression works only with the builder, also when it fails. -/
theorem visitExpression_sameTables (llvm : LLVM.Backend) :
    ∀ (e : Expression) (g : CodeGenerator), SameTables g (stateOf (visitExpression llvm e g))
  | Expression.NumberLiteral value, g => by
    rw [visitExpression]
    exact sameTables_refl g
  | Expression.BooleanLiteral value, g => by
    rw [visitExpression]
    exact sameTables_refl g
  | Expression.Variable name, g => by
    rw [visitExpression]
    split
    · exact sameTables_refl g
    · exact SameTables.lastValue (CreateLoad_sameTables _ _ _ _) _
  | Expression.BinaryOperation left operator_ right, g => by
    have h1 := visitExpression_sameTables llvm left g
    rw [visitExpression]
    cases hl : visitExpression llvm left g with
    | error e => rw [hl] at h1; exact h1
    | ok g1 =>
      rw [hl] at h1
      have h2 := visitExpression_sameTables llvm right g1
      dsimp only
      cases hr : visitExpression llvm right g1 with
      | error e => rw [hr] at h2; exact h1.step h2
      | ok g2 =>
        rw [hr] at h2
        dsimp only
        split
        · split
          · next r hb => exact (h1.step h2).step (binaryInstruction_sameTables hb)
          · exact h1.step h2
        · exact h1.step h2
  | Expression.UnaryOperation operator_ operand, g => by
    have h1 := visitExpression_sameTables llvm operand g
    rw [visitExpression]
    cases hl : visitExpression llvm operand g with
    | error e => rw [hl] at h1; exact h1
    | ok g1 =>
      rw [hl] at h1
      dsimp only
      split
      · exact h1
      · split
        · next r hb => exact h1.step (unaryInstruction_sameTables hb)
        · exact h1
  | Expression.FunctionCall name arguments, g => by
    have h1 := visitArguments_sameTables llvm arguments [] g
    rw [visitExpression]
    split
    · exact sameTables_refl g
    · split
      · exact sameTables_refl g
      · split
        · exact sameTables_refl g
        · cases ha : visitArguments llvm arguments [] g with
          | error e => rw [ha] at h1; exact h1
          | ok r =>
            rw [ha] at h1
            exact h1.step (SameTables.lastValue (CreateCall_sameTables _ _ _ _) _)

/-- The loop over the arguments of a call works only with the builder. -/
theorem visitArguments_sameTables (llvm : LLVM.Backend) :
    ∀ (arguments : List Expression) (args : List LLVM.Value) (g : CodeGenerator),
      SameTables g (stateOfArguments (visitArguments llvm arguments args g))
  | [], args, g => by
    rw [visitArguments]
    exact sameTables_refl g
  | arg :: rest, args, g => by
    have h1 := visitExpression_sameTables llvm arg g
    rw [visitArguments]
    cases hl : visitExpression llvm arg g with
    | error e => rw [hl] at h1; exact h1
    | ok g1 =>
      rw [hl] at h1
      dsimp only
      split
      · exact h1
      · next v hv => exact h1.step (visitArguments_sameTables llvm rest (args ++ [v]) g1)

end

end CodeGenerator

/-! ## The generator: what lowering statements does to the tables -/

namespace CodeGenerator

theorem lookup_assign (map : List (String × Nat)) (key : String) (value : Nat) (n : String) :
    lookup (assign map key value) n = if n = key then some value else lookup map n := by
  unfold lookup assign
  by_cases h : n = key
  · subst h
    simp
  · rw [if_neg h, List.find?_cons]
    have hk : decide (key = n) = false := decide_eq_false (fun hh => h hh.symm)
    simp only [hk]
    rw [List.find?_filter]
    congr 2
    funext e
    by_cases he : e.1 = n
    · have : e.1 ≠ key := fun hh => h (he.symm.trans hh)
      simp [he, this, h]
    · simp [he]

theorem lookup_nil (n : String) : lookup [] n = none := rfl

theorem Lowered.ofSame {g g' : CodeGenerator} (h : SameTables g g') (fnames : List String) :
    Lowered fnames [] g g' := by
  obtain ⟨h1, h2, -, -, h5, h6⟩ := h
  refine ⟨fun n _ => by rw [h2], fun n => ?_, h5, h6⟩
  rw [h1]
  simp

theorem Lowered.append {f1 d1 f2 d2 : List String} {a b c : CodeGenerator}
    (h1 : Lowered f1 d1 a b) (h2 : Lowered f2 d2 b c) : Lowered (f1 ++ f2) (d1 ++ d2) a c := by
  obtain ⟨a1, a2, a3, a4⟩ := h1
  obtain ⟨b1, b2, b3, b4⟩ := h2
  refine ⟨fun n hn => ?_, fun n => ?_, a3.andThen b3, fun h => b4 (a4 h)⟩
  · rw [List.mem_append, not_or] at hn
    rw [b1 n hn.2, a1 n hn.1]
  · rw [b2 n, a2 n, List.mem_append, or_assoc]

theorem Lowered.ofEq {f d f' d' : List String} {a b : CodeGenerator} (h : Lowered f d a b)
    (hf : f = f') (hd : d = d') : Lowered f' d' a b := by
  subst hf
  subst hd
  exact h

theorem createBlock_sameTables (g : CodeGenerator) (name : String) (function : Nat) :
    SameTables g (g.createBlock name function).2 :=
  ⟨rfl, rfl, rfl, rfl, moduleKept_appendBlock _ _ _, fun hf =>
    fresh_appendBlock (fun f hm => Nat.lt_succ_of_lt (hf f hm)) _ _⟩

theorem toCondition_sameTables (llvm : LLVM.Backend) (g : CodeGenerator) (v : LLVM.Value)
    (name : String) : SameTables g (toCondition llvm g v name).2 := by
  unfold toCondition
  split
  · exact CreateICmp_sameTables _ _ _ _ _ _
  · exact sameTables_refl g

theorem ifBlocks_sameTables (g : CodeGenerator) (v : LLVM.Value) (function : Nat)
    (hasElse : Bool) : SameTables g (ifBlocks g v function hasElse).2.2.2 := by
  unfold ifBlocks
  split
  · exact ((createBlock_sameTables _ _ _).step ((createBlock_sameTables _ _ _).step
      (createBlock_sameTables _ _ _))).step (CreateCondBr_sameTables _ _ _ _)
  · exact ((createBlock_sameTables _ _ _).step (createBlock_sameTables _ _ _)).step
      (CreateCondBr_sameTables _ _ _ _)

theorem whileBlocks_lowered (g : CodeGenerator) (function : Nat) :
    Lowered [] [] g (whileBlocks g function).2.2.2 :=
  Lowered.ofSame (((createBlock_sameTables g "whilecond" function).step
    ((createBlock_sameTables _ "whilebody" function).step
      (createBlock_sameTables _ "afterwhile" function))).step (CreateBr_sameTables _ _)) []

theorem createEntryBlockAlloca_ok {g g1 : CodeGenerator} {function alloca : Nat}
    {varName : String} (h : g.createEntryBlockAlloca function varName = Except.ok (alloca, g1)) :
    SameTables g g1 := by
  unfold createEntryBlockAlloca at h
  split at h
  · exact Except.noConfusion h
  · split at h
    · exact Except.noConfusion h
    · injection h with h
      injection h with h1 h2
      subst h2
      exact ⟨rfl, rfl, rfl, rfl, moduleKept_insertAtEntry _ _ _, fun hf =>
        fresh_insertAtEntry (fun f hm => Nat.lt_succ_of_lt (hf f hm)) _ _⟩

theorem branchUnlessTerminated_ok {g g1 : CodeGenerator} {dest : Nat}
    (h : branchUnlessTerminated g dest = Except.ok g1) : SameTables g g1 := by
  unfold branchUnlessTerminated at h
  split at h
  · exact Except.noConfusion h
  · injection h with h; subst h; exact sameTables_refl g
  · injection h with h; subst h; exact CreateBr_sameTables _ _

theorem implicitReturn_ok {g g1 : CodeGenerator} (h : implicitReturn g = Except.ok g1) :
    SameTables g g1 := by
  unfold implicitReturn at h
  split at h
  · exact Except.noConfusion h
  · injection h with h; subst h; exact sameTables_refl g
  · injection h with h; subst h; exact CreateRet_sameTables _ _

theorem verify_ok {llvm : LLVM.Backend} {g g1 : CodeGenerator} {function : Nat} {name : String}
    (h : verify llvm g function name = Except.ok g1) : g1 = g := by
  unfold verify at h
  split at h
  · exact Except.noConfusion h
  · split at h
    · exact Except.noConfusion h
    · injection h with h; exact h.symm

/-- The loop over the arguments of a new function binds their names and
leaves the table of the functions alone. -/
theorem parameterAllocas_ok (function : Nat) :
    ∀ (names : List String) (index : Nat) (g g' : CodeGenerator),
      parameterAllocas function names index g = Except.ok g' →
      g'.functions = g.functions ∧
        (∀ n, lookup g'.namedValues n ≠ none ↔ (lookup g.namedValues n ≠ none ∨ n ∈ names)) ∧
        ModuleKept g.module g'.module ∧ (Fresh g → Fresh g')
  | [], index, g, g', h => by
    rw [parameterAllocas] at h
    injection h with h
    subst h
    exact ⟨rfl, fun n => by simp, moduleKept_refl _, fun h => h⟩
  | name :: rest, index, g, g', h => by
    rw [parameterAllocas] at h
    cases ha : g.createEntryBlockAlloca function name with
    | error e => rw [ha] at h; exact Except.noConfusion h
    | ok r =>
      obtain ⟨alloca, g1⟩ := r
      rw [ha] at h
      dsimp only at h
      have s1 := createEntryBlockAlloca_ok ha
      have s2 := CreateStore_sameTables g1 (LLVM.Value.Argument function index)
        (LLVM.Value.Instruction alloca LLVM.IRType.PointerTy)
      obtain ⟨r1, r2, r3, r4⟩ := parameterAllocas_ok function rest (index + 1) _ g' h
      have s := s1.step s2
      refine ⟨r1.trans s.2.1, fun n => ?_, s.2.2.2.2.1.andThen r3, fun hf => r4 (s.2.2.2.2.2 hf)⟩
      rw [r2 n]
      show (lookup (assign g1.namedValues name alloca) n ≠ none ∨ n ∈ rest) ↔ _
      rw [lookup_assign, s1.1, List.mem_cons]
      by_cases hn : n = name
      · simp [hn]
      · simp [hn]

theorem enterFunction_ok {g g1 : CodeGenerator} {name : String} {parameters : List String}
    {function : Nat} (h : enterFunction g name parameters = Except.ok (function, g1)) :
    function = g.nextId ∧ g1.functions = assign g.functions name g.nextId ∧
      (∀ n, lookup g1.namedValues n ≠ none ↔ n ∈ LLVM.argumentNames parameters) ∧
      ModuleKept g.module g1.module ∧ (Fresh g → Fresh g1) := by
  unfold enterFunction at h
  cases hp : parameterAllocas (declareFunction g name parameters).1
      (LLVM.argumentNames parameters) 0 (declareFunction g name parameters).2 with
  | error e => rw [hp] at h; exact Except.noConfusion h
  | ok g2 =>
    rw [hp] at h
    injection h with h
    injection h with h1 h2
    subst h2
    obtain ⟨r1, r2, r3, r4⟩ := parameterAllocas_ok _ _ _ _ _ hp
    refine ⟨h1.symm, r1, fun n => ?_, ?_, fun hf => r4 ?_⟩
    · rw [r2 n]
      show (lookup [] n ≠ none ∨ _) ↔ _
      simp [lookup_nil]
    · exact ((moduleKept_append g.module _).andThen (moduleKept_appendBlock _ _ _)).andThen r3
    · show ∀ f ∈ LLVM.appendBlock (g.module ++ [_]) _ _, f.id < g.nextId + 2
      refine fresh_appendBlock (fun f hm => ?_) _ _
      rcases List.mem_append.mp hm with hm | hm
      · exact Nat.lt_of_lt_of_le (hf f hm) (Nat.le_add_right _ _)
      · rw [List.mem_singleton] at hm
        subst hm
        exact Nat.lt_add_of_pos_right (by decide)

end CodeGenerator

namespace CodeGenerator

theorem visitExpression_ok {llvm : LLVM.Backend} {e : Expression} {g g' : CodeGenerator}
    (h : visitExpression llvm e g = Except.ok g') : SameTables g g' := by
  have := visitExpression_sameTables llvm e g
  rw [h] at this
  exact this

mutual

/-- What a successful visit of a statement does to the tables. -/
theorem visitStatement_lowered (llvm : LLVM.Backend) :
    ∀ (s : Statement) (g g' : CodeGenerator), visitStatement llvm s g = Except.ok g' →
      Lowered s.functionNames s.declaredNames g g'
  | Statement.VariableDeclaration name initializer, g, g', h => by
    rw [visitStatement] at h
    rw [Statement.functionNames, Statement.declaredNames]
    cases hf : g.insertFunction with
    | error e => rw [hf] at h; exact Except.noConfusion h
    | ok function =>
      rw [hf] at h
      dsimp only at h
      cases ha : g.createEntryBlockAlloca function name with
      | error e => rw [ha] at h; exact Except.noConfusion h
      | ok r =>
        obtain ⟨alloca, g1⟩ := r
        rw [ha] at h
        dsimp only at h
        have s1 := createEntryBlockAlloca_ok ha
        have key : ∀ g2, SameTables g1 g2 → ∀ initValue,
            Lowered [] [name] g
              { g2.CreateStore initValue (LLVM.Value.Instruction alloca LLVM.IRType.PointerTy) with
                namedValues := assign g2.namedValues name alloca
                lastValue := none } := by
          intro g2 s2 initValue
          have s := (s1.step s2).step (CreateStore_sameTables g2 initValue
            (LLVM.Value.Instruction alloca LLVM.IRType.PointerTy))
          refine ⟨fun n _ => ?_, fun n => ?_, s.2.2.2.2.1, s.2.2.2.2.2⟩
          · show lookup (g2.CreateStore initValue
              (LLVM.Value.Instruction alloca LLVM.IRType.PointerTy)).functions n =
                lookup g.functions n
            rw [s.2.1]
          · show lookup (assign g2.namedValues name alloca) n ≠ none ↔ _
            rw [lookup_assign, (s1.step s2).1, List.mem_singleton]
            by_cases hn : n = name
            · simp [hn]
            · simp [hn]
        cases initializer with
        | none =>
          dsimp only at h
          injection h with h
          subst h
          exact key _ (sameTables_refl g1) _
        | some e =>
          dsimp only at h
          cases he : visitExpression llvm e g1 with
          | error x => rw [he] at h; exact Except.noConfusion h
          | ok g2 =>
            rw [he] at h
            dsimp only at h
            split at h
            · exact Except.noConfusion h
            · injection h with h
              subst h
              exact key _ (visitExpression_ok he) _
  | Statement.Assignment name value, g, g', h => by
    rw [visitStatement] at h
    rw [Statement.functionNames, Statement.declaredNames]
    split at h
    · exact Except.noConfusion h
    · cases he : visitExpression llvm value g with
      | error x => rw [he] at h; exact Except.noConfusion h
      | ok g1 =>
        rw [he] at h
        dsimp only at h
        split at h
        · exact Except.noConfusion h
        · injection h with h
          subst h
          exact Lowered.ofSame ((visitExpression_ok he).step (CreateStore_sameTables _ _ _)) []
  | Statement.IfStatement condition thenBranch elseBranch, g, g', h => by
    rw [visitStatement] at h
    rw [Statement.functionNames, Statement.declaredNames]
    cases he : visitExpression llvm condition g with
    | error x => rw [he] at h; exact Except.noConfusion h
    | ok g1 =>
      rw [he] at h
      dsimp only at h
      split at h
      · exact Except.noConfusion h
      · next v hv =>
        have s2 := toCondition_sameTables llvm g1 v "ifcond"
        generalize toCondition llvm g1 v "ifcond" = tc at h s2
        obtain ⟨conditionValue, g2⟩ := tc
        dsimp only at h s2
        split at h
        · exact Except.noConfusion h
        · next function hfn =>
          have s3 := ifBlocks_sameTables g2 conditionValue function elseBranch.isSome
          generalize ifBlocks g2 conditionValue function elseBranch.isSome = ib at h s3
          obtain ⟨thenBlock, elseBlock, mergeBlock, g3⟩ := ib
          dsimp only at h s3
          cases ht : visitStatement llvm thenBranch { g3 with insertBlock := some thenBlock } with
          | error x => rw [ht] at h; exact Except.noConfusion h
          | ok g4 =>
            rw [ht] at h
            dsimp only at h
            have l4 := visitStatement_lowered llvm thenBranch _ g4 ht
            cases hb : branchUnlessTerminated g4 mergeBlock with
            | error x => rw [hb] at h; exact Except.noConfusion h
            | ok g5 =>
              rw [hb] at h
              dsimp only at h
              cases hel : visitElse llvm elseBranch elseBlock mergeBlock g5 with
              | error x => rw [hel] at h; exact Except.noConfusion h
              | ok g6 =>
                rw [hel] at h
                dsimp only at h
                injection h with h
                subst h
                have l6 := visitElse_lowered llvm elseBranch elseBlock mergeBlock g5 g6 hel
                have l0 : Lowered [] [] g g3 :=
                  Lowered.ofSame (((visitExpression_ok he).step s2).step s3) []
                have l3 : Lowered [] [] g { g3 with insertBlock := some thenBlock } := l0
                have l5 : Lowered [] [] g4 g5 := Lowered.ofSame (branchUnlessTerminated_ok hb) []
                have l := (l3.append l4).append (l5.append l6)
                exact Lowered.ofEq l (by simp) (by simp)
  | Statement.WhileStatement condition body, g, g', h => by
    rw [visitStatement] at h
    rw [Statement.functionNames, Statement.declaredNames]
    split at h
    · exact Except.noConfusion h
    · next function hfn =>
      have l1 := whileBlocks_lowered g function
      generalize whileBlocks g function = wb at h l1
      obtain ⟨condBlock, bodyBlock, afterBlock, g1⟩ := wb
      dsimp only at h l1
      cases he : visitExpression llvm condition g1 with
      | error x => rw [he] at h; exact Except.noConfusion h
      | ok g2 =>
        rw [he] at h
        dsimp only at h
        split at h
        · exact Except.noConfusion h
        · next v hv =>
          have s3 := toCondition_sameTables llvm g2 v "whilecond"
          generalize toCondition llvm g2 v "whilecond" = tc at h s3
          obtain ⟨conditionValue, g3⟩ := tc
          dsimp only at h s3
          cases hbd : visitStatement llvm body
              { g3.CreateCondBr conditionValue bodyBlock afterBlock with
                insertBlock := some bodyBlock } with
          | error x => rw [hbd] at h; exact Except.noConfusion h
          | ok g4 =>
            rw [hbd] at h
            dsimp only at h
            have l4 := visitStatement_lowered llvm body _ g4 hbd
            cases hb : branchUnlessTerminated g4 condBlock with
            | error x => rw [hb] at h; exact Except.noConfusion h
            | ok g5 =>
              rw [hb] at h
              dsimp only at h
              injection h with h
              subst h
              have l2 : Lowered [] [] g1 (g3.CreateCondBr conditionValue bodyBlock afterBlock) :=
                Lowered.ofSame (((visitExpression_ok he).step s3).step
                  (CreateCondBr_sameTables _ _ _ _)) []
              have l3 : Lowered [] [] g1
                  { g3.CreateCondBr conditionValue bodyBlock afterBlock with
                    insertBlock := some bodyBlock } := l2
              have l5 : Lowered [] [] g4 g5 := Lowered.ofSame (branchUnlessTerminated_ok hb) []
              have l := (l1.append l3).append (l4.append l5)
              exact Lowered.ofEq l (by simp) (by simp)
  | Statement.Block statements, g, g', h => by
    rw [visitStatement] at h
    rw [Statement.functionNames, Statement.declaredNames]
    exact visitStatements_lowered llvm statements g g' h
  | Statement.FunctionDeclaration name parameters body, g, g', h => by
    rw [visitStatement] at h
    rw [Statement.functionNames, Statement.declaredNames]
    cases hen : enterFunction g name parameters with
    | error x => rw [hen] at h; exact Except.noConfusion h
    | ok r =>
      obtain ⟨function, g1⟩ := r
      rw [hen] at h
      dsimp only at h
      obtain ⟨e1, e2, e3, e4, e5⟩ := enterFunction_ok hen
      cases hbd : visitStatements llvm body g1 with
      | error x => rw [hbd] at h; exact Except.noConfusion h
      | ok g2 =>
        rw [hbd] at h
        dsimp only at h
        obtain ⟨b1, b2, b3, b4⟩ := visitStatements_lowered llvm body g1 g2 hbd
        cases hr : implicitReturn g2 with
        | error x => rw [hr] at h; exact Except.noConfusion h
        | ok g3 =>
          rw [hr] at h
          dsimp only at h
          have s3 := implicitReturn_ok hr
          cases hv : verify llvm g3 function name with
          | error x => rw [hv] at h; exact Except.noConfusion h
          | ok g4 =>
            rw [hv] at h
            dsimp only at h
            rw [verify_ok hv] at h
            injection h with h
            subst h
            refine ⟨fun n hn => ?_, fun n => by simp, (e4.andThen b3).andThen s3.2.2.2.2.1,
              fun hf => s3.2.2.2.2.2 (b4 (e5 hf))⟩
            rw [List.mem_cons, not_or] at hn
            show lookup g3.functions n = _
            rw [s3.2.1, b1 n hn.2, e2, lookup_assign, if_neg hn.1]
  | Statement.ReturnStatement value, g, g', h => by
    rw [Statement.functionNames, Statement.declaredNames]
    cases value with
    | none =>
      rw [visitStatement] at h
      injection h with h
      subst h
      exact Lowered.ofSame (CreateRet_sameTables _ _) []
    | some e =>
      rw [visitStatement] at h
      cases he : visitExpression llvm e g with
      | error x => rw [he] at h; exact Except.noConfusion h
      | ok g1 =>
        rw [he] at h
        dsimp only at h
        split at h
        · exact Except.noConfusion h
        · injection h with h
          subst h
          exact Lowered.ofSame ((visitExpression_ok he).step (CreateRet_sameTables _ _)) []
  | Statement.ExpressionStatement expression, g, g', h => by
    rw [visitStatement] at h
    rw [Statement.functionNames, Statement.declaredNames]
    exact Lowered.ofSame (visitExpression_ok h) []

/-- What a successful visit of the else part does to the tables. -/
theorem visitElse_lowered (llvm : LLVM.Backend) :
    ∀ (e : Option Statement) (elseBlock : Option Nat) (mergeBlock : Nat) (g g' : CodeGenerator),
      visitElse llvm e elseBlock mergeBlock g = Except.ok g' →
      Lowered (Statement.functionNamesOption e) (Statement.declaredNamesOption e) g g'
  | none, elseBlock, mergeBlock, g, g', h => by
    rw [visitElse] at h
    rw [Statement.functionNamesOption, Statement.declaredNamesOption]
    injection h with h
    subst h
    exact Lowered.ofSame (sameTables_refl g) []
  | some s, elseBlock, mergeBlock, g, g', h => by
    rw [visitElse] at h
    rw [Statement.functionNamesOption, Statement.declaredNamesOption]
    cases hs : visitStatement llvm s { g with insertBlock := elseBlock } with
    | error x => rw [hs] at h; exact Except.noConfusion h
    | ok g1 =>
      rw [hs] at h
      dsimp only at h
      have l0 := visitStatement_lowered llvm s _ g1 hs
      have l1 : Lowered s.functionNames s.declaredNames g g1 := l0
      have l2 : Lowered [] [] g1 g' := Lowered.ofSame (branchUnlessTerminated_ok h) []
      exact Lowered.ofEq (l1.append l2) (by simp) (by simp)

/-- What a successful visit of a statement list does to the tables. -/
theorem visitStatements_lowered (llvm : LLVM.Backend) :
    ∀ (ss : List Statement) (g g' : CodeGenerator), visitStatements llvm ss g = Except.ok g' →
      Lowered (Statement.functionNamesList ss) (Statement.declaredNamesList ss) g g'
  | [], g, g', h => by
    rw [visitStatements] at h
    rw [Statement.functionNamesList, Statement.declaredNamesList]
    injection h with h
    subst h
    exact Lowered.ofSame (sameTables_refl g) []
  | s :: rest, g, g', h => by
    rw [visitStatements] at h
    rw [Statement.functionNamesList, Statement.declaredNamesList]
    cases hs : visitStatement llvm s g with
    | error x => rw [hs] at h; exact Except.noConfusion h
    | ok g1 =>
      rw [hs] at h
      dsimp only at h
      exact (visitStatement_lowered llvm s g g1 hs).append
        (visitStatements_lowered llvm rest g1 g' h)

end

end CodeGenerator

namespace CodeGenerator

theorem visitStatements_append (llvm : LLVM.Backend) :
    ∀ (a b : List Statement) (g : CodeGenerator),
      visitStatements llvm (a ++ b) g =
        match visitStatements llvm a g with
        | Except.error e => Except.error e
        | Except.ok g1 => visitStatements llvm b g1
  | [], b, g => by
    rw [List.nil_append, visitStatements]
  | s :: a, b, g => by
    rw [List.cons_append, visitStatements, visitStatements]
    cases visitStatement llvm s g with
    | error e => rfl
    | ok g1 => exact visitStatements_append llvm a b g1

/-- A statement list whose statements before `s` are lowered and whose
statement `s` fails: the failure of the list is the failure of `s`. -/
theorem visitStatements_fail {llvm : LLVM.Backend} {pre rest : List Statement} {s : Statement}
    {g g1 : CodeGenerator} {x : CodeGenFailure × CodeGenerator}
    (hpre : visitStatements llvm pre g = Except.ok g1)
    (hs : visitStatement llvm s g1 = Except.error x) :
    visitStatements llvm (pre ++ [s] ++ rest) g = Except.error x := by
  rw [List.append_assoc, visitStatements_append, hpre]
  dsimp only
  rw [List.singleton_append, visitStatements, hs]

/-- A function declaration whose arguments are set up and whose body fails:
the failure of the declaration is the failure of the body. -/
theorem visitStatement_function_fail {llvm : LLVM.Backend} {name : String}
    {parameters : List String} {body : List Statement} {g g1 : CodeGenerator} {function : Nat}
    {x : CodeGenFailure × CodeGenerator}
    (hen : enterFunction g name parameters = Except.ok (function, g1))
    (hb : visitStatements llvm body g1 = Except.error x) :
    visitStatement llvm (Statement.FunctionDeclaration name parameters body) g =
      Except.error x := by
  rw [visitStatement, hen]
  dsimp only
  rw [hb]

/-- The steps of a function declaration that is lowered. -/
theorem visitStatement_function_ok {llvm : LLVM.Backend} {name : String}
    {parameters : List String} {body : List Statement} {g g' : CodeGenerator}
    (h : visitStatement llvm (Statement.FunctionDeclaration name parameters body) g =
      Except.ok g') :
    ∃ function g1 g2 g3, enterFunction g name parameters = Except.ok (function, g1) ∧
      visitStatements llvm body g1 = Except.ok g2 ∧ implicitReturn g2 = Except.ok g3 ∧
      verify llvm g3 function name = Except.ok g3 ∧
      g' = { g3 with
        namedValues := g.namedValues
        currentFunction := g.currentFunction
        lastValue := none } := by
  rw [visitStatement] at h
  cases hen : enterFunction g name parameters with
  | error x => rw [hen] at h; exact Except.noConfusion h
  | ok r =>
    obtain ⟨function, g1⟩ := r
    rw [hen] at h
    dsimp only at h
    cases hbd : visitStatements llvm body g1 with
    | error x => rw [hbd] at h; exact Except.noConfusion h
    | ok g2 =>
      rw [hbd] at h
      dsimp only at h
      cases hr : implicitReturn g2 with
      | error x => rw [hr] at h; exact Except.noConfusion h
      | ok g3 =>
        rw [hr] at h
        dsimp only at h
        cases hv : verify llvm g3 function name with
        | error x => rw [hv] at h; exact Except.noConfusion h
        | ok g4 =>
          rw [hv] at h
          dsimp only at h
          have e4 := verify_ok hv
          rw [e4] at h hv
          injection h with h
          exact ⟨function, g1, g2, g3, rfl, hbd, hr, hv, h.symm⟩

/-- The loop over the arguments of a call lowers them from left to right. -/
theorem visitArguments_iff (llvm : LLVM.Backend) :
    ∀ (arguments : List Expression) (args : List LLVM.Value) (g : CodeGenerator)
      (r : List LLVM.Value) (g' : CodeGenerator),
      visitArguments llvm arguments args g = Except.ok (r, g') ↔
        ∃ vs, LoweredInOrder llvm arguments g vs g' ∧ r = args ++ vs
  | [], args, g, r, g' => by
    rw [visitArguments]
    constructor
    · intro h
      injection h with h
      injection h with h1 h2
      subst h2
      exact ⟨[], LoweredInOrder.nil g, by rw [List.append_nil, h1]⟩
    · rintro ⟨vs, hl, rfl⟩
      cases hl
      rw [List.append_nil]
  | arg :: rest, args, g, r, g' => by
    rw [visitArguments]
    constructor
    · intro h
      cases he : visitExpression llvm arg g with
      | error x => rw [he] at h; exact Except.noConfusion h
      | ok g1 =>
        rw [he] at h
        dsimp only at h
        cases hv : g1.lastValue with
        | none => rw [hv] at h; exact Except.noConfusion h
        | some v =>
          rw [hv] at h
          dsimp only at h
          obtain ⟨vs, hl, rfl⟩ := (visitArguments_iff llvm rest (args ++ [v]) g1 r g').mp h
          exact ⟨v :: vs, LoweredInOrder.cons arg rest g g1 g' v vs he hv hl, by simp⟩
    · rintro ⟨vs, hl, rfl⟩
      cases hl with
      | cons _ _ _ g1 _ v vs' he hv hl' =>
        rw [he]
        dsimp only
        rw [hv]
        dsimp only
        exact (visitArguments_iff llvm rest (args ++ [v]) g1 _ g').mpr ⟨vs', hl', by simp⟩

theorem LoweredInOrder.length {llvm : LLVM.Backend} {arguments : List Expression}
    {g g' : CodeGenerator} {vs : List LLVM.Value} (h : LoweredInOrder llvm arguments g vs g') :
    vs.length = arguments.length := by
  induction h with
  | nil g => rfl
  | cons arg rest g g1 g' v vs _ _ _ ih => simp [ih]

theorem LoweredInOrder.sameTables {llvm : LLVM.Backend} {arguments : List Expression}
    {g g' : CodeGenerator} {vs : List LLVM.Value} (h : LoweredInOrder llvm arguments g vs g') :
    SameTables g g' := by
  induction h with
  | nil g => exact sameTables_refl g
  | cons arg rest g g1 g' v vs he _ _ ih => exact (visitExpression_ok he).step ih

end CodeGenerator

namespace LLVM

theorem setArgumentNames_length :
    ∀ (ps taken : List String) (lastUnique : Nat),
      (setArgumentNames ps taken lastUnique).length = ps.length
  | [], taken, lastUnique => by rw [setArgumentNames]
  | p :: ps, taken, lastUnique => by
    rw [setArgumentNames]
    split
    · rw [List.length_cons, List.length_cons, setArgumentNames_length ps]
    · split
      · rw [List.length_cons, List.length_cons, setArgumentNames_length ps]
      · rw [List.length_cons, List.length_cons, setArgumentNames_length ps]

theorem argumentNames_length (ps : List String) : (argumentNames ps).length = ps.length :=
  setArgumentNames_length ps [] 0

theorem capName_short {name : String} (h : name.length ≤ maxNameSize) : capName name = name := by
  unfold capName
  rw [if_neg (by omega)]

/-- Parameter names that are pairwise distinct and not longer than the cap on
names are the names of the arguments. -/
theorem setArgumentNames_nodup :
    ∀ (ps taken : List String) (lastUnique : Nat), (∀ p ∈ ps, p ∉ taken) → ps.Nodup →
      (∀ p ∈ ps, p.length ≤ maxNameSize) → setArgumentNames ps taken lastUnique = ps
  | [], taken, lastUnique, _, _, _ => by rw [setArgumentNames]
  | p :: ps, taken, lastUnique, ht, hn, hs => by
    rw [setArgumentNames, capName_short (hs p (List.mem_cons_self _ _))]
    have hn' := List.nodup_cons.mp hn
    have hs' : ∀ q ∈ ps, q.length ≤ maxNameSize := fun q hq => hs q (List.mem_cons_of_mem _ hq)
    split
    · next hp =>
      rw [setArgumentNames_nodup ps taken lastUnique
        (fun q hq => ht q (List.mem_cons_of_mem _ hq)) hn'.2 hs', hp]
    · rw [if_neg (ht p (List.mem_cons_self _ _))]
      rw [setArgumentNames_nodup ps (p :: taken) lastUnique (fun q hq hm => ?_) hn'.2 hs']
      rcases List.mem_cons.mp hm with hm | hm
      · exact hn'.1 (hm ▸ hq)
      · exact ht q (List.mem_cons_of_mem _ hq) hm

theorem argumentNames_nodup {ps : List String} (h : ps.Nodup)
    (hs : ∀ p ∈ ps, p.length ≤ maxNameSize) : argumentNames ps = ps :=
  setArgumentNames_nodup ps [] 0 (fun _ _ hm => by cases hm) h hs

end LLVM

namespace CodeGenerator

theorem Declared.ofLowered {fnames dnames : List String} {g g' : CodeGenerator}
    (h : Lowered fnames dnames g g') {name : String} (hn : name ∉ fnames) {n : Nat}
    (hd : Declared g name n) : Declared g' name n := by
  obtain ⟨callee, f, h1, h2, h3⟩ := hd
  obtain ⟨f', h4, h5, -⟩ := h.2.2.1 callee f h2
  exact ⟨callee, f', by rw [h.1 name hn, h1], h4, by rw [h5, h3]⟩

theorem Declared.ofSameTables {g g' : CodeGenerator} (h : SameTables g g') {name : String} {n : Nat}
    (hd : Declared g name n) : Declared g' name n :=
  Declared.ofLowered (Lowered.ofSame h []) (List.not_mem_nil _) hd

theorem findFunction_fresh {g : CodeGenerator} (h : Fresh g) :
    LLVM.findFunction g.module g.nextId = none := by
  unfold LLVM.findFunction
  rw [List.find?_eq_none]
  intro f hf
  have := h f hf
  simp only [decide_eq_true_eq]
  omega

/-- After the arguments of a new function are set up, its name is bound to it. -/
theorem enterFunction_declared {g g1 : CodeGenerator} {name : String}
    {parameters : List String} {function : Nat} (hf : Fresh g)
    (h : enterFunction g name parameters = Except.ok (function, g1)) :
    Declared g1 name parameters.length := by
  obtain ⟨-, e2, -, -, -⟩ := enterFunction_ok h
  unfold enterFunction at h
  cases hp : parameterAllocas (declareFunction g name parameters).1
      (LLVM.argumentNames parameters) 0 (declareFunction g name parameters).2 with
  | error e => rw [hp] at h; exact Except.noConfusion h
  | ok g2 =>
    rw [hp] at h
    injection h with h
    injection h with h1 h2
    subst h2
    obtain ⟨-, -, r3, -⟩ := parameterAllocas_ok _ _ _ _ _ hp
    have h0 : LLVM.findFunction (g.module ++ [⟨g.nextId, name, LLVM.argumentNames parameters, []⟩])
        g.nextId = some ⟨g.nextId, name, LLVM.argumentNames parameters, []⟩ := by
      have := findFunction_fresh hf
      unfold LLVM.findFunction at this ⊢
      rw [List.find?_append, this]
      simp
    obtain ⟨f1, k1, k2, -⟩ := moduleKept_appendBlock _ g.nextId ⟨g.nextId + 1, "entry", []⟩ _ _ h0
    obtain ⟨f2, k3, k4, -⟩ := r3 _ _ k1
    refine ⟨g.nextId, f2, ?_, k3, ?_⟩
    · rw [e2, lookup_assign, if_pos rfl]
    · rw [k4, k2]
      exact LLVM.argumentNames_length parameters

theorem visitExpression_call {llvm : LLVM.Backend} {g : CodeGenerator} {name : String}
    {arguments : List Expression} {callee : Nat} {f : LLVM.Function}
    (h1 : lookup g.functions name = some callee)
    (h2 : LLVM.findFunction g.module callee = some f) :
    visitExpression llvm (Expression.FunctionCall name arguments) g =
      if f.args.length ≠ arguments.length then
        Except.error
          (CodeGenFailure.CodeGenError
            ("Incorrect number of arguments passed to function: " ++ name), g)
      else
        match visitArguments llvm arguments [] g with
        | Except.error e => Except.error e
        | Except.ok (args, g1) =>
          Except.ok
            { (g1.CreateCall callee args "calltmp").2 with
              lastValue := some (g1.CreateCall callee args "calltmp").1 } := by
  rw [visitExpression, h1]
  dsimp only
  rw [h2]

end CodeGenerator

namespace CodeGenerator

/-- The loop over the arguments of a new function returns when the function
is in the module and has its entry block. -/
theorem parameterAllocas_total (function : Nat) :
    ∀ (names : List String) (index : Nat) (g : CodeGenerator),
      (∃ f, LLVM.findFunction g.module function = some f ∧ f.blocks ≠ []) →
      ∃ g', parameterAllocas function names index g = Except.ok g'
  | [], index, g, _ => ⟨g, by rw [parameterAllocas]⟩
  | name :: rest, index, g, ⟨f, hf, hb⟩ => by
    have ha : ∃ g1, g.createEntryBlockAlloca function name = Except.ok (g.nextId, g1) := by
      unfold createEntryBlockAlloca
      rw [hf]
      dsimp only
      cases hbl : f.blocks with
      | nil => exact absurd hbl hb
      | cons b bs => exact ⟨_, rfl⟩
    obtain ⟨g1, ha⟩ := ha
    have s1 := createEntryBlockAlloca_ok ha
    have s2 := CreateStore_sameTables g1 (LLVM.Value.Argument function index)
      (LLVM.Value.Instruction g.nextId LLVM.IRType.PointerTy)
    obtain ⟨f', hf', -, hb'⟩ := (s1.step s2).2.2.2.2.1 function f hf
    rw [parameterAllocas, ha]
    dsimp only
    exact parameterAllocas_total function rest (index + 1) _ ⟨f', hf', hb' hb⟩

/-- The part of a function declaration before the body returns, with the
identity `nextId` for the function, whenever that identity is fresh. -/
theorem enterFunction_total (g : CodeGenerator) (name : String) (parameters : List String)
    (hf : Fresh g) : ∃ g1, enterFunction g name parameters = Except.ok (g.nextId, g1) := by
  have h0 : LLVM.findFunction (g.module ++ [⟨g.nextId, name, LLVM.argumentNames parameters, []⟩])
      g.nextId = some ⟨g.nextId, name, LLVM.argumentNames parameters, []⟩ := by
    have := findFunction_fresh hf
    unfold LLVM.findFunction at this ⊢
    rw [List.find?_append, this]
    simp
  have h1 : ∃ f, LLVM.findFunction (declareFunction g name parameters).2.module g.nextId =
      some f ∧ f.blocks ≠ [] := by
    show ∃ f, LLVM.findFunction (LLVM.appendBlock
      (g.module ++ [⟨g.nextId, name, LLVM.argumentNames parameters, []⟩]) g.nextId
      ⟨g.nextId + 1, "entry", []⟩) g.nextId = some f ∧ f.blocks ≠ []
    unfold LLVM.appendBlock
    unfold LLVM.findFunction at h0 ⊢
    rw [List.find?_map]
    have hc : ((fun f : LLVM.Function => decide (f.id = g.nextId)) ∘ fun f =>
        if f.id = g.nextId then
          { f with blocks := f.blocks ++ [(⟨g.nextId + 1, "entry", []⟩ : LLVM.BasicBlock)] }
        else f) = (fun f : LLVM.Function => decide (f.id = g.nextId)) := by
      funext x
      simp only [Function.comp]
      split <;> rfl
    rw [hc, h0]
    exact ⟨_, rfl, by simp⟩
  obtain ⟨g1, hp⟩ := parameterAllocas_total g.nextId (LLVM.argumentNames parameters) 0
    (declareFunction g name parameters).2 h1
  refine ⟨g1, ?_⟩
  unfold enterFunction
  have hid : (declareFunction g name parameters).1 = g.nextId := rfl
  rw [hid, hp]

theorem fresh_new : Fresh CodeGenerator.new := fun f hf => by cases hf

end CodeGenerator

/-! ## The renaming of arguments finds a free name -/

theorem digitChar_value : ∀ d, d < 10 → (Nat.digitChar d).toNat - 48 = d := by decide

theorem digitsValue_foldl (ds : List Char) :
    ∀ acc : Nat, ds.foldl (fun acc d => 10 * acc + (d.toNat - 48)) acc =
      acc * 10 ^ ds.length + digitsValue ds := by
  unfold digitsValue
  induction ds with
  | nil => intro acc; simp
  | cons d ds ih =>
    intro acc
    rw [List.foldl_cons, List.foldl_cons, ih (10 * acc + (d.toNat - 48)),
      ih (10 * 0 + (d.toNat - 48)), List.length_cons, pow_succ]
    ring

theorem digitsValue_cons (d : Char) (ds : List Char) :
    digitsValue (d :: ds) = (d.toNat - 48) * 10 ^ ds.length + digitsValue ds := by
  have := digitsValue_foldl ds (10 * 0 + (d.toNat - 48))
  unfold digitsValue at this ⊢
  rw [List.foldl_cons, this]
  ring

theorem digitsValue_toDigitsCore :
    ∀ (fuel n : Nat) (ds : List Char), n < fuel →
      digitsValue (Nat.toDigitsCore 10 fuel n ds) = n * 10 ^ ds.length + digitsValue ds := by
  intro fuel
  induction fuel with
  | zero => intro n ds h; omega
  | succ fuel ih =>
    intro n ds h
    rw [Nat.toDigitsCore]
    have hd := digitChar_value (n % 10) (Nat.mod_lt _ (by decide))
    split
    · next h0 =>
      rw [digitsValue_cons, hd]
      have : n = n % 10 := by omega
      rw [← this]
    · next h0 =>
      rw [ih (n / 10) _ (by omega), digitsValue_cons, hd, List.length_cons, pow_succ]
      have := Nat.div_add_mod n 10
      generalize n / 10 = q at this ⊢
      generalize n % 10 = r at this ⊢
      rw [← this]
      ring

theorem digitsValue_toString (n : Nat) : digitsValue (toString n).data = n := by
  show digitsValue (Nat.toDigitsCore 10 (n + 1) n []) = n
  rw [digitsValue_toDigitsCore (n + 1) n [] (Nat.lt_succ_self n)]
  simp [digitsValue]

theorem append_toString_injective (name : String) {a b : Nat}
    (h : name ++ toString a = name ++ toString b) : a = b := by
  have hd : (name ++ toString a).data = (name ++ toString b).data := by rw [h]
  rw [String.data_append, String.data_append] at hd
  have := List.append_cancel_left hd
  rw [← digitsValue_toString a, ← digitsValue_toString b, this]

namespace LLVM

/-- The loop of `makeUniqueName` ends with a free name, or every name it tried
is taken. -/
theorem makeUniqueName_cases :
    ∀ (fuel : Nat) (taken : List String) (lastUnique : Nat) (name : String),
      (makeUniqueName fuel taken lastUnique name).1 ∉ taken ∨
        ∀ k, k < fuel → name ++ toString (lastUnique + 1 + k) ∈ taken := by
  intro fuel
  induction fuel with
  | zero => intro taken lastUnique name; exact Or.inr (fun k hk => absurd hk (Nat.not_lt_zero k))
  | succ fuel ih =>
    intro taken lastUnique name
    rw [makeUniqueName]
    split
    · next hm =>
      rcases ih taken (lastUnique + 1) name with h | h
      · exact Or.inl h
      · refine Or.inr (fun k hk => ?_)
        cases k with
        | zero => exact hm
        | succ k =>
          have := h k (by omega)
          rw [show lastUnique + 1 + 1 + k = lastUnique + 1 + (k + 1) by omega] at this
          exact this
    · next hm => exact Or.inl hm

/-- One attempt more than there are names taken is enough: the name that
`makeUniqueName` returns is free. -/
theorem makeUniqueName_free (taken : List String) (lastUnique : Nat) (name : String) :
    (makeUniqueName (taken.length + 1) taken lastUnique name).1 ∉ taken := by
  rcases makeUniqueName_cases (taken.length + 1) taken lastUnique name with h | h
  · exact h
  · exfalso
    have hsub : (List.range (taken.length + 1)).map
        (fun k => name ++ toString (lastUnique + 1 + k)) ⊆ taken := by
      intro x hx
      obtain ⟨k, hk, rfl⟩ := List.mem_map.mp hx
      exact h k (List.mem_range.mp hk)
    have hnd : ((List.range (taken.length + 1)).map
        (fun k => name ++ toString (lastUnique + 1 + k))).Nodup := by
      refine List.Nodup.map (fun a b hab => ?_) (List.nodup_range _)
      have := append_toString_injective name hab
      omega
    have := (List.subperm_of_subset hnd hsub).length_le
    rw [List.length_map, List.length_range] at this
    omega

end LLVM

namespace CodeGenerator

theorem visitExpression_unknown_function (llvm : LLVM.Backend) (g : CodeGenerator)
    (name : String) (arguments : List Expression) (h : lookup g.functions name = none) :
    visitExpression llvm (Expression.FunctionCall name arguments) g =
      Except.error (CodeGenFailure.CodeGenError ("Unknown function referenced: " ++ name), g) := by
  rw [visitExpression, h]

theorem visitStatement_return_fail {llvm : LLVM.Backend} {e : Expression} {g : CodeGenerator}
    {x : CodeGenFailure × CodeGenerator} (h : visitExpression llvm e g = Except.error x) :
    visitStatement llvm (Statement.ReturnStatement (some e)) g = Except.error x := by
  rw [visitStatement, h]

end CodeGenerator

/-- C18. Unknown and forward-referenced callees. A call of `name` lowered while
the table `functions` has no binding for `name` fails with
"Unknown function referenced: <name>", whatever the arguments are, and the
generator at the failure is the one the visit started with: no argument was
lowered and no instruction emitted. The table gets a binding only for the
names of the function declarations that are lowered. So in a program whose
statements before the function `f` and whose statements of `f` before the call
are lowered and declare no function `name`, with `f` itself another name, the
statement `return name(args);` makes `generate` fail with that error, whatever
follows it in `f` and after `f` (a declaration of `name` included). -/
theorem unknown_callee (llvm : LLVM.Backend) (name : String) (args : List Expression) :
    (∀ g : CodeGenerator, CodeGenerator.lookup g.functions name = none →
        CodeGenerator.visitExpression llvm (Expression.FunctionCall name args) g =
          Except.error
            (CodeGenFailure.CodeGenError ("Unknown function referenced: " ++ name), g)) ∧
      (∀ (ss : List Statement) (g g1 : CodeGenerator),
        CodeGenerator.visitStatements llvm ss g = Except.ok g1 →
        name ∉ Statement.functionNamesList ss → CodeGenerator.lookup g.functions name = none →
        CodeGenerator.lookup g1.functions name = none) ∧
      (∀ (pre bodyPre rest post : List Statement) (f : String) (ps : List String)
          (g0 g1 g2 g3 : CodeGenerator) (function : Nat),
        CodeGenerator.lookup g0.functions name = none →
        name ∉ Statement.functionNamesList pre → name ≠ f →
        name ∉ Statement.functionNamesList bodyPre →
        CodeGenerator.visitStatements llvm pre g0 = Except.ok g1 →
        CodeGenerator.enterFunction g1 f ps = Except.ok (function, g2) →
        CodeGenerator.visitStatements llvm bodyPre g2 = Except.ok g3 →
        CodeGenerator.generate llvm
            ⟨pre ++ [Statement.FunctionDeclaration f ps
              (bodyPre ++ [Statement.ReturnStatement (some (Expression.FunctionCall name args))]
                ++ rest)] ++ post⟩ g0 =
          Except.error
            (CodeGenFailure.CodeGenError ("Unknown function referenced: " ++ name), g3)) := by
  have frame : ∀ (ss : List Statement) (g g1 : CodeGenerator),
      CodeGenerator.visitStatements llvm ss g = Except.ok g1 →
      name ∉ Statement.functionNamesList ss → CodeGenerator.lookup g.functions name = none →
      CodeGenerator.lookup g1.functions name = none := by
    intro ss g g1 h hn h0
    rw [(CodeGenerator.visitStatements_lowered llvm ss g g1 h).1 name hn, h0]
  refine ⟨fun g h => CodeGenerator.visitExpression_unknown_function llvm g name args h, frame, ?_⟩
  intro pre bodyPre rest post f ps g0 g1 g2 g3 function h0 hpre hf hbody hv1 hen hv3
  have h1 := frame pre g0 g1 hv1 hpre h0
  obtain ⟨-, e2, -, -, -⟩ := CodeGenerator.enterFunction_ok hen
  have h2 : CodeGenerator.lookup g2.functions name = none := by
    rw [e2, CodeGenerator.lookup_assign, if_neg hf, h1]
  have h3 := frame bodyPre g2 g3 hv3 hbody h2
  unfold CodeGenerator.generate
  exact CodeGenerator.visitStatements_fail hv1
    (CodeGenerator.visitStatement_function_fail hen
      (CodeGenerator.visitStatements_fail hv3
        (CodeGenerator.visitStatement_return_fail
          (CodeGenerator.visitExpression_unknown_function llvm g3 name args h3))))

theorem unknown_callee_witness :
    CodeGenerator.generate LLVM.exampleBackend
        ⟨[Statement.FunctionDeclaration "main" []
          [Statement.ReturnStatement (some (Expression.FunctionCall "unknown"
            [Expression.NumberLiteral 1]))]]⟩ CodeGenerator.new =
      Except.error
        (CodeGenFailure.CodeGenError ("Unknown function referenced: " ++ "unknown"),
          { module := [⟨0, "main", [], [⟨1, "entry", []⟩]⟩]
            insertBlock := some 1
            namedValues := []
            functions := [("main", 0)]
            currentFunction := some 0
            lastValue := none
            nextId := 2 }) ∧
      compileSource LLVM.exampleBackend "function main() { return unknown(1); }" =
        some (Except.error
          (CodeGenFailure.CodeGenError "Unknown function referenced: unknown",
            { module := [⟨0, "main", [], [⟨1, "entry", []⟩]⟩]
              insertBlock := some 1
              namedValues := []
              functions := [("main", 0)]
              currentFunction := some 0
              lastValue := none
              nextId := 2 })) ∧
      CodeGenerator.failureOf (CodeGenerator.generate LLVM.exampleBackend
          ⟨[Statement.FunctionDeclaration "main" []
              [Statement.ReturnStatement (some (Expression.FunctionCall "g" []))],
            Statement.FunctionDeclaration "g" []
              [Statement.ReturnStatement (some (Expression.NumberLiteral 1))]]⟩
          CodeGenerator.new) =
        some (CodeGenFailure.CodeGenError "Unknown function referenced: g") :=
  ⟨(unknown_callee LLVM.exampleBackend "unknown" [Expression.NumberLiteral 1]).2.2
      [] [] [] [] "main" [] CodeGenerator.new CodeGenerator.new _ _ 0 rfl
      (by simp [Statement.functionNamesList]) (by decide)
      (by simp [Statement.functionNamesList]) rfl rfl rfl,
    by decide!, by decide!⟩

/-- C19. Call arity. A call of `name`, bound in `functions` to a function of
the module with `n` arguments, fails with "Incorrect number of arguments passed
to function: <name>" when the number of its arguments is not `n`, with the
generator unchanged: no argument was lowered. When the number is `n`, the loop
over the arguments returns exactly when they are lowered one after the other
from left to right, and then their values, in that order, are the operands of
one call instruction, named `calltmp`, which is put at the end of the insertion
block and is the value of the expression; nothing else is added to the module.
The binding to a function with as many arguments as the declaration has
parameters is made when the function is entered (which returns whenever the
identities of the module are fresh, as they are from a new generator on), so
that it holds in the body, and it stays while statements that declare no
function `name` are lowered. -/
theorem call_arity (llvm : LLVM.Backend) (name : String) (args : List Expression) :
    (∀ (g : CodeGenerator) (n : Nat), CodeGenerator.Declared g name n → args.length ≠ n →
        CodeGenerator.visitExpression llvm (Expression.FunctionCall name args) g =
          Except.error
            (CodeGenFailure.CodeGenError
              ("Incorrect number of arguments passed to function: " ++ name), g)) ∧
      (∀ (g : CodeGenerator) (callee b : Nat) (f : LLVM.Function),
        CodeGenerator.lookup g.functions name = some callee →
        LLVM.findFunction g.module callee = some f → f.args.length = args.length →
        g.insertBlock = some b →
        (∀ (vs : List LLVM.Value) (g1 : CodeGenerator),
            CodeGenerator.visitArguments llvm args [] g = Except.ok (vs, g1) ↔
              CodeGenerator.LoweredInOrder llvm args g vs g1) ∧
          ∀ (vs : List LLVM.Value) (g1 : CodeGenerator),
            CodeGenerator.LoweredInOrder llvm args g vs g1 →
            vs.length = args.length ∧
              CodeGenerator.visitExpression llvm (Expression.FunctionCall name args) g =
                Except.ok
                  { g1 with
                    module := LLVM.appendInstruction g1.module b
                      ⟨g1.nextId, "calltmp", LLVM.Operation.Call callee vs⟩
                    lastValue :=
                      some (LLVM.Value.Instruction g1.nextId (LLVM.IRType.IntegerTy 32))
                    nextId := g1.nextId + 1 }) ∧
      (∀ (g : CodeGenerator) (ps : List String), CodeGenerator.Fresh g →
        ∃ g1, CodeGenerator.enterFunction g name ps = Except.ok (g.nextId, g1) ∧
          CodeGenerator.Fresh g1 ∧ CodeGenerator.Declared g1 name ps.length) ∧
      (∀ (ss : List Statement) (g g1 : CodeGenerator) (n : Nat),
        CodeGenerator.visitStatements llvm ss g = Except.ok g1 →
        name ∉ Statement.functionNamesList ss → CodeGenerator.Declared g name n →
        CodeGenerator.Declared g1 name n ∧ (CodeGenerator.Fresh g → CodeGenerator.Fresh g1)) ∧
      (∀ (g g1 : CodeGenerator) (ps : List String) (body : List Statement),
        CodeGenerator.Fresh g → name ∉ Statement.functionNamesList body →
        CodeGenerator.visitStatement llvm (Statement.FunctionDeclaration name ps body) g =
          Except.ok g1 →
        CodeGenerator.Fresh g1 ∧ CodeGenerator.Declared g1 name ps.length) := by
  refine ⟨?_, ?_, ?_, ?_, ?_⟩
  · intro g n hd hne
    obtain ⟨callee, f, h1, h2, h3⟩ := hd
    rw [CodeGenerator.visitExpression_call h1 h2, if_pos (by rw [h3]; exact fun h => hne h.symm)]
  · intro g callee b f h1 h2 h3 hb
    have hiff : ∀ (vs : List LLVM.Value) (g1 : CodeGenerator),
        CodeGenerator.visitArguments llvm args [] g = Except.ok (vs, g1) ↔
          CodeGenerator.LoweredInOrder llvm args g vs g1 := by
      intro vs g1
      rw [CodeGenerator.visitArguments_iff]
      constructor
      · rintro ⟨vs', hl, rfl⟩
        exact hl
      · intro hl
        exact ⟨vs, hl, rfl⟩
    refine ⟨hiff, fun vs g1 hl => ⟨hl.length, ?_⟩⟩
    rw [CodeGenerator.visitExpression_call h1 h2, if_neg (by rw [h3]; exact fun h => h rfl),
      (hiff vs g1).mpr hl]
    have hb1 : g1.insertBlock = some b := by rw [hl.sameTables.2.2.1, hb]
    unfold CodeGenerator.CreateCall CodeGenerator.Insert
    simp only [hb1]
  · intro g ps hf
    obtain ⟨g1, hen⟩ := CodeGenerator.enterFunction_total g name ps hf
    exact ⟨g1, hen, (CodeGenerator.enterFunction_ok hen).2.2.2.2 hf,
      CodeGenerator.enterFunction_declared hf hen⟩
  · intro ss g g1 n hv hn hd
    have hl := CodeGenerator.visitStatements_lowered llvm ss g g1 hv
    exact ⟨CodeGenerator.Declared.ofLowered hl hn hd, hl.2.2.2⟩
  · intro g g1 ps body hf hn hv
    obtain ⟨function, g2, g3, g4, hen, hbody, hret, -, rfl⟩ :=
      CodeGenerator.visitStatement_function_ok hv
    have hl := CodeGenerator.visitStatements_lowered llvm body g2 g3 hbody
    have hs := CodeGenerator.implicitReturn_ok hret
    have f2 := (CodeGenerator.enterFunction_ok hen).2.2.2.2 hf
    have d2 := CodeGenerator.enterFunction_declared hf hen
    have d4 := CodeGenerator.Declared.ofSameTables hs (CodeGenerator.Declared.ofLowered hl hn d2)
    exact ⟨hs.2.2.2.2.2 (hl.2.2.2 f2), d4⟩

theorem call_arity_witness :
    (∃ g1, CodeGenerator.enterFunction CodeGenerator.new "f" ["a"] = Except.ok (0, g1) ∧
        CodeGenerator.visitExpression LLVM.exampleBackend (Expression.FunctionCall "f" []) g1 =
          Except.error
            (CodeGenFailure.CodeGenError
              ("Incorrect number of arguments passed to function: " ++ "f"), g1)) ∧
      (compileSource LLVM.exampleBackend "function f(a) { return f(1, 2); }").map
        CodeGenerator.failureOf =
        some (some (CodeGenFailure.CodeGenError
          "Incorrect number of arguments passed to function: f")) ∧
      CodeGenerator.failureOf (CodeGenerator.generate LLVM.exampleBackend
          ⟨[Statement.FunctionDeclaration "f" ["a", "b"]
              [Statement.ReturnStatement (some (Expression.Variable "a"))],
            Statement.FunctionDeclaration "main" []
              [Statement.ReturnStatement (some (Expression.FunctionCall "f"
                [Expression.NumberLiteral 1, Expression.NumberLiteral 2]))]]⟩
          CodeGenerator.new) = none :=
  ⟨⟨_, rfl, (call_arity LLVM.exampleBackend "f" []).1 _ 1
      (@CodeGenerator.enterFunction_declared CodeGenerator.new _ "f" ["a"] 0
        CodeGenerator.fresh_new rfl) (by decide)⟩,
    by decide!, by decide!⟩

namespace CodeGenerator

theorem visitExpression_unknown_variable (llvm : LLVM.Backend) (g : CodeGenerator)
    (name : String) (h : lookup g.namedValues name = none) :
    visitExpression llvm (Expression.Variable name) g =
      Except.error (CodeGenFailure.CodeGenError ("Unknown variable name: " ++ name), g) := by
  rw [visitExpression, h]

theorem visitStatement_unknown_variable (llvm : LLVM.Backend) (g : CodeGenerator)
    (name : String) (value : Expression) (h : lookup g.namedValues name = none) :
    visitStatement llvm (Statement.Assignment name value) g =
      Except.error (CodeGenFailure.CodeGenError ("Unknown variable name: " ++ name), g) := by
  rw [visitStatement, h]

theorem visitExpression_variable (llvm : LLVM.Backend) (g : CodeGenerator) (name : String)
    (alloca : Nat) (h : lookup g.namedValues name = some alloca) :
    visitExpression llvm (Expression.Variable name) g =
      Except.ok
        { (g.CreateLoad (LLVM.IRType.IntegerTy 32)
            (LLVM.Value.Instruction alloca LLVM.IRType.PointerTy) name).2 with
          lastValue := some (g.CreateLoad (LLVM.IRType.IntegerTy 32)
            (LLVM.Value.Instruction alloca LLVM.IRType.PointerTy) name).1 } := by
  rw [visitExpression, h]

theorem visitStatement_expression_fail {llvm : LLVM.Backend} {e : Expression}
    {g : CodeGenerator} {x : CodeGenFailure × CodeGenerator}
    (h : visitExpression llvm e g = Except.error x) :
    visitStatement llvm (Statement.ExpressionStatement e) g = Except.error x := by
  rw [visitStatement, h]

end CodeGenerator

/-- C20 does not hold of the code: in `function f(a, a) { return a1; }` the
name `a1` is neither a parameter of `f` nor declared in its body, so the claim
says that lowering fails with "Unknown variable name: a1"; the generator lowers
the function without a failure. It binds the arguments under the names that
`arg.getName()` returns, not under the parameter names, and LLVM has renamed
the second argument `a1`. -/
theorem renamed_argument_resolves :
    parseSource "function f(a, a) { return a1; }" =
        some (Except.ok ⟨[Statement.FunctionDeclaration "f" ["a", "a"]
          [Statement.ReturnStatement (some (Expression.Variable "a1"))]]⟩) ∧
      (compileSource LLVM.exampleBackend "function f(a, a) { return a1; }").map
        CodeGenerator.failureOf = some none ∧
      LLVM.argumentNames ["a", "a"] = ["a", "a1"] := by
  refine ⟨by decide!, by decide!, by decide⟩

/-- Function-level symbol scoping, over the names under which the generator
binds the arguments. A read or an assignment of a name that `namedValues` does
not bind fails with "Unknown variable name: <name>" before anything is
lowered. In the body of a function, after the statements `pre` are lowered,
the names bound are the names of the arguments, as `arg.getName()` returns
them, and the names declared in `pre` outside nested functions, whatever was
bound when the declaration was reached; a read or an assignment of any other
name, as the next statement, makes the declaration fail with that error. The
names of the arguments are the parameter names when these are pairwise
distinct and not longer than the cap on names, and a function is entered
whenever the identities of the module are fresh. A name declared by a
statement of the body, also inside a nested block, branch or loop body, is
bound after it and after every run of later statements of the body that are
lowered, and a read of it there loads from its alloca. -/
theorem function_scoping (llvm : LLVM.Backend) (name : String) :
    (∀ g : CodeGenerator, CodeGenerator.lookup g.namedValues name = none →
        CodeGenerator.visitExpression llvm (Expression.Variable name) g =
            Except.error (CodeGenFailure.CodeGenError ("Unknown variable name: " ++ name), g) ∧
          ∀ value, CodeGenerator.visitStatement llvm (Statement.Assignment name value) g =
            Except.error (CodeGenFailure.CodeGenError ("Unknown variable name: " ++ name), g)) ∧
      (∀ (g g1 g2 : CodeGenerator) (f : String) (ps : List String) (function : Nat)
          (pre : List Statement),
        CodeGenerator.enterFunction g f ps = Except.ok (function, g1) →
        CodeGenerator.visitStatements llvm pre g1 = Except.ok g2 →
        (CodeGenerator.lookup g2.namedValues name ≠ none ↔
            (name ∈ LLVM.argumentNames ps ∨ name ∈ Statement.declaredNamesList pre)) ∧
          (name ∉ LLVM.argumentNames ps → name ∉ Statement.declaredNamesList pre →
            (∀ rest, CodeGenerator.visitStatement llvm
                (Statement.FunctionDeclaration f ps
                  (pre ++ [Statement.ExpressionStatement (Expression.Variable name)] ++ rest))
                g =
              Except.error
                (CodeGenFailure.CodeGenError ("Unknown variable name: " ++ name), g2)) ∧
            ∀ value rest, CodeGenerator.visitStatement llvm
                (Statement.FunctionDeclaration f ps
                  (pre ++ [Statement.Assignment name value] ++ rest)) g =
              Except.error
                (CodeGenFailure.CodeGenError ("Unknown variable name: " ++ name), g2))) ∧
      (∀ ps : List String, ps.Nodup → (∀ p ∈ ps, p.length ≤ LLVM.maxNameSize) →
        LLVM.argumentNames ps = ps) ∧
      (∀ (g : CodeGenerator) (f : String) (ps : List String), CodeGenerator.Fresh g →
        ∃ g1, CodeGenerator.enterFunction g f ps = Except.ok (g.nextId, g1)) ∧
      (∀ (s : Statement) (rest : List Statement) (g g1 g2 : CodeGenerator),
        CodeGenerator.visitStatement llvm s g = Except.ok g1 →
        CodeGenerator.visitStatements llvm rest g1 = Except.ok g2 →
        name ∈ s.declaredNames →
        ∃ alloca, CodeGenerator.lookup g2.namedValues name = some alloca ∧
          CodeGenerator.visitExpression llvm (Expression.Variable name) g2 =
            Except.ok
              { (g2.CreateLoad (LLVM.IRType.IntegerTy 32)
                  (LLVM.Value.Instruction alloca LLVM.IRType.PointerTy) name).2 with
                lastValue := some (g2.CreateLoad (LLVM.IRType.IntegerTy 32)
                  (LLVM.Value.Instruction alloca LLVM.IRType.PointerTy) name).1 }) := by
  refine ⟨fun g h => ⟨CodeGenerator.visitExpression_unknown_variable llvm g name h,
    fun value => CodeGenerator.visitStatement_unknown_variable llvm g name value h⟩, ?_,
    fun ps h hs => LLVM.argumentNames_nodup h hs,
    fun g f ps hf => CodeGenerator.enterFunction_total g f ps hf, ?_⟩
  · intro g g1 g2 f ps function pre hen hpre
    obtain ⟨-, -, e3, -, -⟩ := CodeGenerator.enterFunction_ok hen
    have hl := CodeGenerator.visitStatements_lowered llvm pre g1 g2 hpre
    have hiff : CodeGenerator.lookup g2.namedValues name ≠ none ↔
        (name ∈ LLVM.argumentNames ps ∨ name ∈ Statement.declaredNamesList pre) := by
      rw [hl.2.1 name, e3 name]
    refine ⟨hiff, fun ha hd => ?_⟩
    have hnone : CodeGenerator.lookup g2.namedValues name = none := by
      by_contra hc
      rcases hiff.mp hc with h | h
      · exact ha h
      · exact hd h
    exact ⟨fun rest => CodeGenerator.visitStatement_function_fail hen
        (CodeGenerator.visitStatements_fail hpre
          (CodeGenerator.visitStatement_expression_fail
            (CodeGenerator.visitExpression_unknown_variable llvm g2 name hnone))),
      fun value rest => CodeGenerator.visitStatement_function_fail hen
        (CodeGenerator.visitStatements_fail hpre
          (CodeGenerator.visitStatement_unknown_variable llvm g2 name value hnone))⟩
  · intro s rest g g1 g2 hs hrest hn
    have l1 := CodeGenerator.visitStatement_lowered llvm s g g1 hs
    have l2 := CodeGenerator.visitStatements_lowered llvm rest g1 g2 hrest
    have hb : CodeGenerator.lookup g2.namedValues name ≠ none :=
      (l2.2.1 name).mpr (Or.inl ((l1.2.1 name).mpr (Or.inr hn)))
    cases hl : CodeGenerator.lookup g2.namedValues name with
    | none => exact absurd hl hb
    | some alloca =>
      exact ⟨alloca, rfl, CodeGenerator.visitExpression_variable llvm g2 name alloca hl⟩

theorem function_scoping_witness :
    (∃ g2, CodeGenerator.visitStatement LLVM.exampleBackend
        (Statement.FunctionDeclaration "g" ["a"]
          ([] ++ [Statement.ExpressionStatement (Expression.Variable "x")] ++ []))
        { CodeGenerator.new with namedValues := [("x", 7)] } =
      Except.error (CodeGenFailure.CodeGenError ("Unknown variable name: " ++ "x"), g2)) ∧
      CodeGenerator.failureOf (CodeGenerator.generate LLVM.exampleBackend
          ⟨[Statement.FunctionDeclaration "f" []
              [Statement.VariableDeclaration "x" (some (Expression.NumberLiteral 1)),
                Statement.ReturnStatement (some (Expression.Variable "x"))],
            Statement.FunctionDeclaration "g" []
              [Statement.ReturnStatement (some (Expression.Variable "x"))]]⟩
          CodeGenerator.new) =
        some (CodeGenFailure.CodeGenError "Unknown variable name: x") ∧
      CodeGenerator.failureOf (CodeGenerator.generate LLVM.exampleBackend
          ⟨[Statement.FunctionDeclaration "f" []
              [Statement.VariableDeclaration "x" (some (Expression.NumberLiteral 1)),
                Statement.FunctionDeclaration "g" []
                  [Statement.ReturnStatement (some (Expression.Variable "x"))]]]⟩
          CodeGenerator.new) =
        some (CodeGenFailure.CodeGenError "Unknown variable name: x") ∧
      CodeGenerator.failureOf (CodeGenerator.generate LLVM.exampleBackend
          ⟨[Statement.FunctionDeclaration "f" ["a"]
              [Statement.IfStatement (Expression.Variable "a")
                  (Statement.Block [Statement.VariableDeclaration "y" none]) none,
                Statement.ReturnStatement (some (Expression.Variable "y"))]]⟩
          CodeGenerator.new) = none :=
  ⟨⟨_, (((function_scoping LLVM.exampleBackend "x").2.1
      { CodeGenerator.new with namedValues := [("x", 7)] } _ _ "g" ["a"] 0 [] rfl rfl).2
      (by decide) (by simp [Statement.declaredNamesList])).1 []⟩,
    by decide!, by decide!, by decide!⟩
/-! ## Locations do not go back -/

/-- From one byte offset to the next, the line grows, or it stays and the
column does not shrink. -/
theorem location_succ (s : List Char) (j : Nat) :
    lineAt s j < lineAt s (j + 1) ∨
      (lineAt s j = lineAt s (j + 1) ∧ columnAt s j ≤ columnAt s (j + 1)) := by
  by_cases hj : j < s.length
  · have ht : s.take (j + 1) = s.take j ++ [s[j]] := by
      rw [List.take_succ, List.getElem?_eq_getElem hj]
      rfl
    unfold lineAt columnAt
    rw [ht]
    by_cases hc : s[j] = '\n'
    · left
      rw [hc, List.count_append]
      simp
    · right
      constructor
      · rw [List.count_append]
        have : List.count '\n' [s[j]] = 0 := by
          rw [List.count_singleton]
          simp [hc]
        omega
      · rw [List.reverse_append, List.reverse_singleton, List.singleton_append,
          List.takeWhile_cons]
        simp [hc]
  · right
    have ht : s.take (j + 1) = s.take j := by
      rw [List.take_of_length_le (by omega), List.take_of_length_le (by omega)]
    unfold lineAt columnAt
    rw [ht]
    exact ⟨rfl, Nat.le_refl _⟩

/-- The pair of line and column of a byte offset does not decrease, in
lexicographic order, when the offset grows. -/
theorem location_le (s : List Char) (i : Nat) :
    ∀ (d : Nat), lineAt s i < lineAt s (i + d) ∨
      (lineAt s i = lineAt s (i + d) ∧ columnAt s i ≤ columnAt s (i + d)) := by
  intro d
  induction d with
  | zero => exact Or.inr ⟨rfl, Nat.le_refl _⟩
  | succ n ih =>
    have hs := location_succ s (i + n)
    rw [← Nat.add_assoc]
    rcases ih with h1 | ⟨h1, h2⟩
    · rcases hs with h3 | ⟨h3, _⟩
      · exact Or.inl (Nat.lt_trans h1 h3)
      · exact Or.inl (h3 ▸ h1)
    · rcases hs with h3 | ⟨h3, h4⟩
      · exact Or.inl (h1 ▸ h3)
      · exact Or.inr ⟨h1.trans h3, Nat.le_trans h2 h4⟩

/-- C25. Location monotonicity: of two consecutive tokens of `tokenize s`, the
second has a greater line than the first, or the same line and a column that
is not smaller: the pairs of line and column do not decrease in lexicographic
order. -/
theorem location_monotone (s : String) (toks : List Token) (h : tokenize s = some toks)
    (k : Nat) (t1 t2 : Token) (h1 : toks[k]? = some t1) (h2 : toks[k + 1]? = some t2) :
    t1.line < t2.line ∨ (t1.line = t2.line ∧ t1.column ≤ t2.column) := by
  have e1 := Lexer.tokenize_getElem? s toks h k t1 h1
  have e2 := Lexer.tokenize_getElem? s toks h (k + 1) t2 h2
  obtain ⟨i1, i2, i3⟩ := Lexer.stateAfter_invariant s k
  obtain ⟨j1, j2, j3⟩ := Lexer.stateAfter_invariant s (k + 1)
  have hs1 := Lexer.tokenStart_follows (Lexer.stateAfter s k)
  have hs2 := Lexer.tokenStart_follows (Lexer.stateAfter s (k + 1))
  have hl1 := Lexer.tokenStart_located _ i3
  have hl2 := Lexer.tokenStart_located _ j3
  obtain ⟨a1, a2, a3, a4, a5, a6, a7⟩ := Lexer.nextToken_tokenAt (Lexer.stateAfter s k)
    (by rw [i1]; exact i2) i3
  obtain ⟨b1, b2, b3, b4, b5, b6, b7⟩ := Lexer.nextToken_tokenAt (Lexer.stateAfter s (k + 1))
    (by rw [j1]; exact j2) j3
  rw [← e1] at a1 a2 a4
  rw [← e2] at b1 b2
  have hle : (Lexer.tokenStart (Lexer.stateAfter s k)).current ≤
      (Lexer.tokenStart (Lexer.stateAfter s (k + 1))).current := by
    have := hs2.2.1
    rw [Lexer.stateAfter_succ, a4] at this
    rw [Lexer.stateAfter_succ]
    omega
  have hin1 : (Lexer.tokenStart (Lexer.stateAfter s k)).input = s.toList := by rw [hs1.1, i1]
  have hin2 : (Lexer.tokenStart (Lexer.stateAfter s (k + 1))).input = s.toList := by
    rw [hs2.1, j1]
  have hmono := location_le s.toList (Lexer.tokenStart (Lexer.stateAfter s k)).current
    ((Lexer.tokenStart (Lexer.stateAfter s (k + 1))).current -
      (Lexer.tokenStart (Lexer.stateAfter s k)).current)
  rw [Nat.add_sub_cancel' hle] at hmono
  rw [a1, a2, b1, b2, hl1.1, hl1.2, hl2.1, hl2.2, hin1, hin2]
  exact hmono

/-- An instance of `location_monotone`: the tokens `a` (line 1, column 1) and
`b` (line 2, column 2) of a source with a newline between them. -/
theorem location_monotone_witness :
    tokenize "a\n b" = some [⟨TokenType.IDENTIFIER, "a", 1, 1⟩, ⟨TokenType.IDENTIFIER, "b", 2, 2⟩,
      ⟨TokenType.END_OF_FILE, "", 2, 3⟩] ∧
    ((1 : Nat) < 2 ∨ ((1 : Nat) = 2 ∧ (1 : Nat) ≤ 2)) :=
  ⟨by decide,
    location_monotone "a\n b"
      [⟨TokenType.IDENTIFIER, "a", 1, 1⟩, ⟨TokenType.IDENTIFIER, "b", 2, 2⟩,
        ⟨TokenType.END_OF_FILE, "", 2, 3⟩]
      (by decide) 0 ⟨TokenType.IDENTIFIER, "a", 1, 1⟩ ⟨TokenType.IDENTIFIER, "b", 2, 2⟩
      (by decide) (by decide)⟩
/-! ## The command line of the driver -/

namespace Driver

theorem argumentLoop_cons (programName : String) (arg : String) (rest : List String)
    (options : Options) :
    argumentLoop programName (arg :: rest) options =
      if arg = "-h" ∨ arg = "--help" then
        Except.error (Outcome.returned 0 (printUsage programName) "")
      else if arg = "-t" ∨ arg = "--tokens" then
        argumentLoop programName rest { options with printTokens := true }
      else if arg = "-a" ∨ arg = "--ast" then
        argumentLoop programName rest { options with printAST := true }
      else if arg = "-i" ∨ arg = "--ir" then
        argumentLoop programName rest { options with printIR := true }
      else if arg = "-r" ∨ arg = "--run" then
        argumentLoop programName rest { options with runJIT := true }
      else if arg = "-o" ∨ arg = "--output" then
        match rest with
        | path :: rest1 => argumentLoop programName rest1 { options with outputFile := path }
        | [] => Except.error (Outcome.returned 1 "" "Error: -o requires an output filename\n")
      else
        match arg.data with
        | [] => Except.error Outcome.undefinedBehaviour
        | front :: _ =>
          if front ≠ '-' then argumentLoop programName rest { options with inputFile := arg }
          else
            Except.error
              (Outcome.returned 1 (printUsage programName)
                ("Error: Unknown option " ++ arg ++ "\n")) := by
  cases rest <;> rfl

theorem accepted_cons (files : Bool) (arg : String) (rest : List String) :
    accepted files (arg :: rest) =
      if arg ∈ ["-t", "--tokens", "-a", "--ast", "-i", "--ir", "-r", "--run"] then
        accepted files rest
      else if arg = "-o" ∨ arg = "--output" then
        match rest with
        | _ :: rest1 => accepted files rest1
        | [] => false
      else if arg = "-h" ∨ arg = "--help" then false
      else
        match arg.data with
        | [] => false
        | front :: _ => if front ≠ '-' then files && accepted files rest else false := by
  cases rest <;> rfl

/-- Over arguments that are accepted the loop of `main` runs to their end; it
sets an input file only if one of them is an input file. -/
theorem argumentLoop_accepted (programName : String) (files : Bool) :
    ∀ (n : Nat) (pre rest : List String) (options : Options), pre.length ≤ n →
      accepted files pre = true →
      ∃ options1, argumentLoop programName (pre ++ rest) options =
          argumentLoop programName rest options1 ∧
        (files = false → options1.inputFile = options.inputFile) := by
  intro n
  induction n with
  | zero =>
    intro pre rest options hn _
    have : pre = [] := List.length_eq_zero.mp (Nat.le_zero.mp hn)
    subst this
    exact ⟨options, rfl, fun _ => rfl⟩
  | succ n ih =>
    intro pre rest options hn h
    cases pre with
    | nil => exact ⟨options, rfl, fun _ => rfl⟩
    | cons arg pre1 =>
      have hlen : pre1.length ≤ n := Nat.le_of_succ_le_succ hn
      rw [accepted_cons] at h
      rw [List.cons_append, argumentLoop_cons]
      by_cases hflag : arg ∈ ["-t", "--tokens", "-a", "--ast", "-i", "--ir", "-r", "--run"]
      · rw [if_pos hflag] at h
        have hh : ¬ (arg = "-h" ∨ arg = "--help") := by
          intro hc
          rcases hc with rfl | rfl <;> revert hflag <;> decide
        rw [if_neg hh]
        simp only [List.mem_cons, List.mem_singleton, List.not_mem_nil, or_false] at hflag
        by_cases h1 : arg = "-t" ∨ arg = "--tokens"
        · rw [if_pos h1]
          obtain ⟨o1, e1, k1⟩ := ih pre1 rest { options with printTokens := true } hlen h
          exact ⟨o1, e1, k1⟩
        rw [if_neg h1]
        by_cases h2 : arg = "-a" ∨ arg = "--ast"
        · rw [if_pos h2]
          obtain ⟨o1, e1, k1⟩ := ih pre1 rest { options with printAST := true } hlen h
          exact ⟨o1, e1, k1⟩
        rw [if_neg h2]
        by_cases h3 : arg = "-i" ∨ arg = "--ir"
        · rw [if_pos h3]
          obtain ⟨o1, e1, k1⟩ := ih pre1 rest { options with printIR := true } hlen h
          exact ⟨o1, e1, k1⟩
        rw [if_neg h3]
        by_cases h4 : arg = "-r" ∨ arg = "--run"
        · rw [if_pos h4]
          obtain ⟨o1, e1, k1⟩ := ih pre1 rest { options with runJIT := true } hlen h
          exact ⟨o1, e1, k1⟩
        exfalso
        rcases hflag with x | x | x | x | x | x | x | x
        · exact h1 (Or.inl x)
        · exact h1 (Or.inr x)
        · exact h2 (Or.inl x)
        · exact h2 (Or.inr x)
        · exact h3 (Or.inl x)
        · exact h3 (Or.inr x)
        · exact h4 (Or.inl x)
        · exact h4 (Or.inr x)
      rw [if_neg hflag] at h
      have hflag1 := hflag
      simp only [List.mem_cons, List.mem_singleton, List.not_mem_nil, or_false, not_or] at hflag
      obtain ⟨n1, n2, n3, n4, n5, n6, n7, n8⟩ := hflag
      by_cases ho : arg = "-o" ∨ arg = "--output"
      · rw [if_pos ho] at h
        have hh : ¬ (arg = "-h" ∨ arg = "--help") := by
          intro hc
          rcases ho with rfl | rfl <;> rcases hc with hc | hc <;> revert hc <;> decide
        rw [if_neg hh, if_neg (not_or.mpr ⟨n1, n2⟩), if_neg (not_or.mpr ⟨n3, n4⟩),
          if_neg (not_or.mpr ⟨n5, n6⟩), if_neg (not_or.mpr ⟨n7, n8⟩), if_pos ho]
        cases pre1 with
        | nil => exact absurd h (by simp)
        | cons path pre2 =>
          dsimp only at h
          rw [List.cons_append]
          dsimp only
          have hlen2 : pre2.length ≤ n :=
            Nat.le_of_succ_le (by simpa using hlen)
          obtain ⟨o1, e1, k1⟩ := ih pre2 rest { options with outputFile := path } hlen2 h
          exact ⟨o1, e1, k1⟩
      rw [if_neg ho] at h
      by_cases hh : arg = "-h" ∨ arg = "--help"
      · rw [if_pos hh] at h
        exact absurd h (by simp)
      rw [if_neg hh] at h
      rw [if_neg hh, if_neg (not_or.mpr ⟨n1, n2⟩), if_neg (not_or.mpr ⟨n3, n4⟩),
        if_neg (not_or.mpr ⟨n5, n6⟩), if_neg (not_or.mpr ⟨n7, n8⟩), if_neg ho]
      cases hd : arg.data with
      | nil =>
        rw [hd] at h
        exact absurd h (by simp)
      | cons front tail =>
        rw [hd] at h
        dsimp only at h ⊢
        by_cases hf : front ≠ '-'
        · rw [if_pos hf] at h ⊢
          have hfiles : files = true ∧ accepted files pre1 = true := by
            simpa using h
          obtain ⟨o1, e1, k1⟩ := ih pre1 rest { options with inputFile := arg } hlen hfiles.2
          refine ⟨o1, e1, fun hc => ?_⟩
          rw [hfiles.1] at hc
          exact absurd hc (by simp)
        · rw [if_neg hf] at h
          exact absurd h (by simp)

/-- C26, as the code has it: when `main` meets an unknown option that begins
with `-` after arguments it accepts, it returns 1 with the usage text on
`std::cout` and the line `Error: Unknown option` on `std::cerr`; when the
arguments it accepts end with an `-o` or `--output` that has no path, it
returns 1 with the line `Error: -o requires an output filename` on
`std::cerr` and writes no usage text; when the arguments are accepted and none
is an input file, it returns 1 with the usage text on `std::cout` and
`Error: No input file specified` on `std::cerr`. In each case `main` returns
before the `try` block, in which the input file is read. -/
theorem argument_errors (programName : String) (pre rest : List String) (arg : String) :
    (accepted true pre = true → arg.data.head? = some '-' →
      arg ∉ ["-h", "--help", "-t", "--tokens", "-a", "--ast", "-i", "--ir", "-r", "--run", "-o",
        "--output"] →
      main programName (pre ++ arg :: rest) =
        Outcome.returned 1 (printUsage programName) ("Error: Unknown option " ++ arg ++ "\n")) ∧
    (accepted true pre = true → (arg = "-o" ∨ arg = "--output") →
      main programName (pre ++ [arg]) =
        Outcome.returned 1 "" "Error: -o requires an output filename\n") ∧
    (accepted false pre = true →
      main programName pre =
        Outcome.returned 1 (printUsage programName) "Error: No input file specified\n") := by
  refine ⟨fun hpre hfront hknown => ?_, fun hpre ho => ?_, fun hpre => ?_⟩
  · obtain ⟨o1, e1, -⟩ := argumentLoop_accepted programName true pre.length pre (arg :: rest)
      { inputFile := "", outputFile := "", printTokens := false, printAST := false,
        printIR := false, runJIT := false } (Nat.le_refl _) hpre
    unfold main
    rw [e1, argumentLoop_cons]
    simp only [List.mem_cons, List.mem_singleton, List.not_mem_nil, or_false, not_or] at hknown
    obtain ⟨k1, k2, k3, k4, k5, k6, k7, k8, k9, k10, k11, k12⟩ := hknown
    rw [if_neg (not_or.mpr ⟨k1, k2⟩), if_neg (not_or.mpr ⟨k3, k4⟩),
      if_neg (not_or.mpr ⟨k5, k6⟩), if_neg (not_or.mpr ⟨k7, k8⟩), if_neg (not_or.mpr ⟨k9, k10⟩),
      if_neg (not_or.mpr ⟨k11, k12⟩)]
    cases hd : arg.data with
    | nil =>
      rw [hd] at hfront
      exact absurd hfront (by simp)
    | cons front tail =>
      rw [hd] at hfront
      have hf : front = '-' := by simpa using hfront
      dsimp only
      rw [if_neg (not_not.mpr hf)]
  · obtain ⟨o1, e1, -⟩ := argumentLoop_accepted programName true pre.length pre [arg]
      { inputFile := "", outputFile := "", printTokens := false, printAST := false,
        printIR := false, runJIT := false } (Nat.le_refl _) hpre
    unfold main
    rw [e1]
    rcases ho with rfl | rfl <;> rfl
  · obtain ⟨o1, e1, k1⟩ := argumentLoop_accepted programName false pre.length pre []
      { inputFile := "", outputFile := "", printTokens := false, printAST := false,
        printIR := false, runJIT := false } (Nat.le_refl _) hpre
    unfold main
    rw [List.append_nil] at e1
    rw [e1]
    show (if o1.inputFile = "" then _ else _) = _
    rw [if_pos (k1 rfl)]

/-- An instance of `argument_errors`: `-t -o out.ll` before `--frob`, before a
trailing `-o`, and alone. -/
theorem argument_errors_witness :
    (main "simplelang" (["-t", "-o", "out.ll", "a.sl"] ++ "--frob" :: ["b.sl"]) =
        Outcome.returned 1 (printUsage "simplelang") ("Error: Unknown option " ++ "--frob" ++ "\n")) ∧
      (main "simplelang" (["-t", "a.sl"] ++ ["-o"]) =
        Outcome.returned 1 "" "Error: -o requires an output filename\n") ∧
      (main "simplelang" ["-t", "-o", "out.ll"] =
        Outcome.returned 1 (printUsage "simplelang") "Error: No input file specified\n") :=
  ⟨(argument_errors "simplelang" ["-t", "-o", "out.ll", "a.sl"] ["b.sl"] "--frob").1
      (by decide) (by decide) (by decide),
    (argument_errors "simplelang" ["-t", "a.sl"] [] "-o").2.1 (by decide) (Or.inl rfl),
    (argument_errors "simplelang" ["-t", "-o", "out.ll"] [] "").2.2 (by decide)⟩

/-- C26 fails as stated: without an input file `main` writes the usage text to
`std::cout` and only the error line to `std::cerr`; a trailing `-o` gives no
usage text at all; and an unknown option after `-h` is not reached, `main`
returns 0. -/
theorem usage_on_stdout :
    main "simplelang" [] =
        Outcome.returned 1 (printUsage "simplelang") "Error: No input file specified\n" ∧
      main "simplelang" ["a.sl", "-o"] =
        Outcome.returned 1 "" "Error: -o requires an output filename\n" ∧
      main "simplelang" ["-h", "--frob"] = Outcome.returned 0 (printUsage "simplelang") "" := by
  decide!

end Driver
/-! ## The generator: expressions build straight-line code -/

namespace CodeGenerator

theorem controlFlow_appendInstruction (m : List LLVM.Function) (b : Nat) (i : LLVM.Instruction)
    (h : i.operation.isTerminator = false) :
    LLVM.controlFlow (LLVM.appendInstruction m b i) = LLVM.controlFlow m := by
  unfold LLVM.controlFlow LLVM.appendInstruction
  rw [List.map_map]
  refine List.map_congr_left (fun f _ => ?_)
  show (f.id, List.map _ (List.map _ f.blocks)) = (f.id, List.map _ f.blocks)
  rw [List.map_map]
  congr 1
  refine List.map_congr_left (fun x _ => ?_)
  show (_, _, _) = (_, _, _)
  by_cases hx : x.id = b
  · simp only [Function.comp, hx, if_true, List.filter_append]
    simp [List.filter_cons, h]
  · simp only [Function.comp, hx, if_false]

theorem Insert_controlFlow (g : CodeGenerator) (operation : LLVM.Operation) (name : String)
    (h : operation.isTerminator = false) :
    LLVM.controlFlow (g.Insert operation name).2.module = LLVM.controlFlow g.module := by
  unfold Insert
  dsimp only
  split
  · exact controlFlow_appendInstruction _ _ _ h
  · rfl

theorem CreateBinOp_controlFlow (llvm : LLVM.Backend) (g : CodeGenerator)
    (opcode : LLVM.BinaryOps) (lhs rhs : LLVM.Value) (name : String) :
    LLVM.controlFlow (CreateBinOp llvm g opcode lhs rhs name).2.module =
      LLVM.controlFlow g.module := by
  unfold CreateBinOp
  split
  · rfl
  · exact Insert_controlFlow _ _ _ rfl

theorem CreateICmp_controlFlow (llvm : LLVM.Backend) (g : CodeGenerator)
    (predicate : LLVM.Predicate) (lhs rhs : LLVM.Value) (name : String) :
    LLVM.controlFlow (CreateICmp llvm g predicate lhs rhs name).2.module =
      LLVM.controlFlow g.module := by
  unfold CreateICmp
  split
  · rfl
  · exact Insert_controlFlow _ _ _ rfl

theorem binaryInstruction_controlFlow {llvm : LLVM.Backend} {g : CodeGenerator}
    {operator_ : String} {left right : LLVM.Value} {r : LLVM.Value × CodeGenerator}
    (h : binaryInstruction llvm g operator_ left right = some r) :
    LLVM.controlFlow r.2.module = LLVM.controlFlow g.module := by
  rcases binaryInstruction_cases h with ⟨opcode, name, rfl⟩ | ⟨predicate, name, rfl⟩
  · exact CreateBinOp_controlFlow _ _ _ _ _ _
  · exact CreateICmp_controlFlow _ _ _ _ _ _

theorem unaryInstruction_controlFlow {llvm : LLVM.Backend} {g : CodeGenerator}
    {operator_ : String} {operand : LLVM.Value} {r : LLVM.Value × CodeGenerator}
    (h : unaryInstruction llvm g operator_ operand = some r) :
    LLVM.controlFlow r.2.module = LLVM.controlFlow g.module := by
  obtain ⟨opcode, lhs, rhs, name, rfl⟩ := unaryInstruction_cases h
  exact CreateBinOp_controlFlow _ _ _ _ _ _

mutual

/-- A visit of an expression creates no block and no terminator, also when it
fails. -/
theorem visitExpression_controlFlow (llvm : LLVM.Backend) :
    ∀ (e : Expression) (g : CodeGenerator),
      LLVM.controlFlow (stateOf (visitExpression llvm e g)).module = LLVM.controlFlow g.module
  | Expression.NumberLiteral value, g => by
    rw [visitExpression]
    rfl
  | Expression.BooleanLiteral value, g => by
    rw [visitExpression]
    rfl
  | Expression.Variable name, g => by
    rw [visitExpression]
    split
    · rfl
    · exact Insert_controlFlow _ _ _ rfl
  | Expression.BinaryOperation left operator_ right, g => by
    have h1 := visitExpression_controlFlow llvm left g
    rw [visitExpression]
    cases hl : visitExpression llvm left g with
    | error e => rw [hl] at h1; exact h1
    | ok g1 =>
      rw [hl] at h1
      have h2 := visitExpression_controlFlow llvm right g1
      dsimp only
      cases hr : visitExpression llvm right g1 with
      | error e => rw [hr] at h2; exact h2.trans h1
      | ok g2 =>
        rw [hr] at h2
        dsimp only
        split
        · split
          · next r hb => exact (binaryInstruction_controlFlow hb).trans (h2.trans h1)
          · exact h2.trans h1
        · exact h2.trans h1
  | Expression.UnaryOperation operator_ operand, g => by
    have h1 := visitExpression_controlFlow llvm operand g
    rw [visitExpression]
    cases hl : visitExpression llvm operand g with
    | error e => rw [hl] at h1; exact h1
    | ok g1 =>
      rw [hl] at h1
      dsimp only
      split
      · exact h1
      · split
        · next r hb => exact (unaryInstruction_controlFlow hb).trans h1
        · exact h1
  | Expression.FunctionCall name arguments, g => by
    have h1 := visitArguments_controlFlow llvm arguments [] g
    rw [visitExpression]
    split
    · rfl
    · split
      · rfl
      · split
        · rfl
        · cases ha : visitArguments llvm arguments [] g with
          | error e => rw [ha] at h1; exact h1
          | ok r =>
            rw [ha] at h1
            exact (Insert_controlFlow r.2 (LLVM.Operation.Call _ r.1) "calltmp" rfl).trans h1

/-- The loop over the arguments of a call creates no block and no terminator. -/
theorem visitArguments_controlFlow (llvm : LLVM.Backend) :
    ∀ (arguments : List Expression) (args : List LLVM.Value) (g : CodeGenerator),
      LLVM.controlFlow (stateOfArguments (visitArguments llvm arguments args g)).module =
        LLVM.controlFlow g.module
  | [], args, g => by
    rw [visitArguments]
    rfl
  | arg :: rest, args, g => by
    have h1 := visitExpression_controlFlow llvm arg g
    rw [visitArguments]
    cases hl : visitExpression llvm arg g with
    | error e => rw [hl] at h1; exact h1
    | ok g1 =>
      rw [hl] at h1
      dsimp only
      split
      · exact h1
      · next v hv => exact (visitArguments_controlFlow llvm rest (args ++ [v]) g1).trans h1

end

/-- An expression that is lowered leaves its value in `lastValue`. -/
theorem visitExpression_lastValue {llvm : LLVM.Backend} {e : Expression} {g g1 : CodeGenerator}
    (h : visitExpression llvm e g = Except.ok g1) : ∃ v, g1.lastValue = some v := by
  cases e with
  | NumberLiteral value =>
    rw [visitExpression] at h
    injection h with h
    subst h
    exact ⟨_, rfl⟩
  | BooleanLiteral value =>
    rw [visitExpression] at h
    injection h with h
    subst h
    exact ⟨_, rfl⟩
  | Variable name =>
    rw [visitExpression] at h
    split at h
    · exact Except.noConfusion h
    · injection h with h
      subst h
      exact ⟨_, rfl⟩
  | BinaryOperation left operator_ right =>
    rw [visitExpression] at h
    split at h
    · exact Except.noConfusion h
    · split at h
      · exact Except.noConfusion h
      · split at h
        · split at h
          · injection h with h
            subst h
            exact ⟨_, rfl⟩
          · exact Except.noConfusion h
        · exact Except.noConfusion h
  | UnaryOperation operator_ operand =>
    rw [visitExpression] at h
    split at h
    · exact Except.noConfusion h
    · split at h
      · exact Except.noConfusion h
      · split at h
        · injection h with h
          subst h
          exact ⟨_, rfl⟩
        · exact Except.noConfusion h
  | FunctionCall name arguments =>
    rw [visitExpression] at h
    split at h
    · exact Except.noConfusion h
    · split at h
      · exact Except.noConfusion h
      · split at h
        · exact Except.noConfusion h
        · split at h
          · exact Except.noConfusion h
          · injection h with h
            subst h
            exact ⟨_, rfl⟩

end CodeGenerator
namespace CodeGenerator

theorem binaryInstruction_and (llvm : LLVM.Backend) (g : CodeGenerator) (l r : LLVM.Value) :
    binaryInstruction llvm g "&&" l r =
      some (CreateBinOp llvm g LLVM.BinaryOps.And l r "andtmp") := by
  unfold binaryInstruction
  simp

theorem binaryInstruction_or (llvm : LLVM.Backend) (g : CodeGenerator) (l r : LLVM.Value) :
    binaryInstruction llvm g "||" l r =
      some (CreateBinOp llvm g LLVM.BinaryOps.Or l r "ortmp") := by
  unfold binaryInstruction
  simp

theorem unaryInstruction_not (llvm : LLVM.Backend) (g : CodeGenerator) (v : LLVM.Value) :
    unaryInstruction llvm g "!" v = some (CreateNot llvm g v "nottmp") := by
  unfold unaryInstruction
  simp

/-- The visit of a binary operation whose operands are lowered. -/
theorem visitExpression_binary {llvm : LLVM.Backend} {left right : Expression}
    {operator_ : String} {g g1 g2 : CodeGenerator} {l r : LLVM.Value}
    {b : LLVM.Value × CodeGenerator}
    (hl : visitExpression llvm left g = Except.ok g1)
    (hr : visitExpression llvm right g1 = Except.ok g2)
    (hlv : g1.lastValue = some l) (hrv : g2.lastValue = some r)
    (hb : binaryInstruction llvm g2 operator_ l r = some b) :
    visitExpression llvm (Expression.BinaryOperation left operator_ right) g =
      Except.ok { b.2 with lastValue := some b.1 } := by
  rw [visitExpression, hl]
  dsimp only
  rw [hr]
  dsimp only
  rw [hlv, hrv]
  dsimp only
  rw [hb]

/-- The visit of a unary operation whose operand is lowered. -/
theorem visitExpression_unary {llvm : LLVM.Backend} {operand : Expression}
    {operator_ : String} {g g1 : CodeGenerator} {v : LLVM.Value}
    {b : LLVM.Value × CodeGenerator}
    (hl : visitExpression llvm operand g = Except.ok g1) (hv : g1.lastValue = some v)
    (hb : unaryInstruction llvm g1 operator_ v = some b) :
    visitExpression llvm (Expression.UnaryOperation operator_ operand) g =
      Except.ok { b.2 with lastValue := some b.1 } := by
  rw [visitExpression, hl]
  dsimp only
  rw [hv]
  dsimp only
  rw [hb]

theorem visitExpression_binary_left {llvm : LLVM.Backend} {left right : Expression}
    {operator_ : String} {g : CodeGenerator} {x : CodeGenFailure × CodeGenerator}
    (hl : visitExpression llvm left g = Except.error x) :
    visitExpression llvm (Expression.BinaryOperation left operator_ right) g =
      Except.error x := by
  rw [visitExpression, hl]

theorem visitExpression_binary_right {llvm : LLVM.Backend} {left right : Expression}
    {operator_ : String} {g g1 : CodeGenerator} {x : CodeGenFailure × CodeGenerator}
    (hl : visitExpression llvm left g = Except.ok g1)
    (hr : visitExpression llvm right g1 = Except.error x) :
    visitExpression llvm (Expression.BinaryOperation left operator_ right) g =
      Except.error x := by
  rw [visitExpression, hl]
  dsimp only
  rw [hr]

theorem visitExpression_unary_fail {llvm : LLVM.Backend} {operand : Expression}
    {operator_ : String} {g : CodeGenerator} {x : CodeGenFailure × CodeGenerator}
    (hl : visitExpression llvm operand g = Except.error x) :
    visitExpression llvm (Expression.UnaryOperation operator_ operand) g = Except.error x := by
  rw [visitExpression, hl]

/-- What `CreateBinOp` does when the folder has no value. -/
theorem CreateBinOp_none {llvm : LLVM.Backend} {opcode : LLVM.BinaryOps} {lhs rhs : LLVM.Value}
    (h : llvm.FoldBinOp opcode lhs rhs = none) (g : CodeGenerator) (name : String) :
    CreateBinOp llvm g opcode lhs rhs name =
      (LLVM.Value.Instruction g.nextId lhs.getType,
        (g.Insert (LLVM.Operation.BinaryOperator opcode lhs rhs) name).2) := by
  unfold CreateBinOp
  rw [h]
  rfl

/-- What `CreateBinOp` does when the folder has a value. -/
theorem CreateBinOp_some {llvm : LLVM.Backend} {opcode : LLVM.BinaryOps} {lhs rhs v : LLVM.Value}
    (h : llvm.FoldBinOp opcode lhs rhs = some v) (g : CodeGenerator) (name : String) :
    CreateBinOp llvm g opcode lhs rhs name = (v, g) := by
  unfold CreateBinOp
  rw [h]

end CodeGenerator
/-! ## The generator: the steps of `if`, `while` and of a function declaration -/

namespace CodeGenerator

/-- The steps of an `if` statement that is lowered. -/
theorem visitStatement_if_ok {llvm : LLVM.Backend} {condition : Expression}
    {thenBranch : Statement} {elseBranch : Option Statement} {g g' : CodeGenerator}
    (h : visitStatement llvm (Statement.IfStatement condition thenBranch elseBranch) g =
      Except.ok g') :
    ∃ g1 v function g4 g5 g6,
      visitExpression llvm condition g = Except.ok g1 ∧ g1.lastValue = some v ∧
      (toCondition llvm g1 v "ifcond").2.insertFunction = Except.ok function ∧
      visitStatement llvm thenBranch
        { (ifBlocks (toCondition llvm g1 v "ifcond").2 (toCondition llvm g1 v "ifcond").1
            function elseBranch.isSome).2.2.2 with
          insertBlock := some (ifBlocks (toCondition llvm g1 v "ifcond").2
            (toCondition llvm g1 v "ifcond").1 function elseBranch.isSome).1 } = Except.ok g4 ∧
      branchUnlessTerminated g4 (ifBlocks (toCondition llvm g1 v "ifcond").2
        (toCondition llvm g1 v "ifcond").1 function elseBranch.isSome).2.2.1 = Except.ok g5 ∧
      visitElse llvm elseBranch
        (ifBlocks (toCondition llvm g1 v "ifcond").2 (toCondition llvm g1 v "ifcond").1
          function elseBranch.isSome).2.1
        (ifBlocks (toCondition llvm g1 v "ifcond").2 (toCondition llvm g1 v "ifcond").1
          function elseBranch.isSome).2.2.1 g5 = Except.ok g6 ∧
      g' = { g6 with
        insertBlock := some (ifBlocks (toCondition llvm g1 v "ifcond").2
          (toCondition llvm g1 v "ifcond").1 function elseBranch.isSome).2.2.1
        lastValue := none } := by
  rw [visitStatement] at h
  cases he : visitExpression llvm condition g with
  | error x => rw [he] at h; exact Except.noConfusion h
  | ok g1 =>
    rw [he] at h
    dsimp only at h
    split at h
    · exact Except.noConfusion h
    · next v hv =>
      generalize htc : toCondition llvm g1 v "ifcond" = tc at h
      obtain ⟨conditionValue, g2⟩ := tc
      dsimp only at h
      split at h
      · exact Except.noConfusion h
      · next function hfn =>
        generalize hib : ifBlocks g2 conditionValue function elseBranch.isSome = ib at h
        obtain ⟨thenBlock, elseBlock, mergeBlock, g3⟩ := ib
        dsimp only at h
        cases ht : visitStatement llvm thenBranch { g3 with insertBlock := some thenBlock } with
        | error x => rw [ht] at h; exact Except.noConfusion h
        | ok g4 =>
          rw [ht] at h
          dsimp only at h
          cases hb : branchUnlessTerminated g4 mergeBlock with
          | error x => rw [hb] at h; exact Except.noConfusion h
          | ok g5 =>
            rw [hb] at h
            dsimp only at h
            cases hel : visitElse llvm elseBranch elseBlock mergeBlock g5 with
            | error x => rw [hel] at h; exact Except.noConfusion h
            | ok g6 =>
              rw [hel] at h
              dsimp only at h
              injection h with h
              refine ⟨g1, v, function, g4, g5, g6, rfl, hv, ?_, ?_, ?_, ?_, ?_⟩
              · rw [htc]; exact hfn
              · rw [htc, hib]; exact ht
              · rw [htc, hib]; exact hb
              · rw [htc, hib]; exact hel
              · rw [htc, hib]; exact h.symm

/-- The steps of a `while` statement that is lowered. -/
theorem visitStatement_while_ok {llvm : LLVM.Backend} {condition : Expression}
    {body : Statement} {g g' : CodeGenerator}
    (h : visitStatement llvm (Statement.WhileStatement condition body) g = Except.ok g') :
    ∃ function g2 v g4 g5,
      g.insertFunction = Except.ok function ∧
      visitExpression llvm condition (whileBlocks g function).2.2.2 = Except.ok g2 ∧
      g2.lastValue = some v ∧
      visitStatement llvm body
        { (toCondition llvm g2 v "whilecond").2.CreateCondBr (toCondition llvm g2 v "whilecond").1
            (whileBlocks g function).2.1 (whileBlocks g function).2.2.1 with
          insertBlock := some (whileBlocks g function).2.1 } = Except.ok g4 ∧
      branchUnlessTerminated g4 (whileBlocks g function).1 = Except.ok g5 ∧
      g' = { g5 with insertBlock := some (whileBlocks g function).2.2.1, lastValue := none } := by
  rw [visitStatement] at h
  split at h
  · exact Except.noConfusion h
  · next function hfn =>
    generalize hwb : whileBlocks g function = wb at h
    obtain ⟨condBlock, bodyBlock, afterBlock, g1⟩ := wb
    dsimp only at h
    cases he : visitExpression llvm condition g1 with
    | error x => rw [he] at h; exact Except.noConfusion h
    | ok g2 =>
      rw [he] at h
      dsimp only at h
      split at h
      · exact Except.noConfusion h
      · next v hv =>
        generalize htc : toCondition llvm g2 v "whilecond" = tc at h
        obtain ⟨conditionValue, g3⟩ := tc
        dsimp only at h
        cases hbd : visitStatement llvm body
            { g3.CreateCondBr conditionValue bodyBlock afterBlock with
              insertBlock := some bodyBlock } with
        | error x => rw [hbd] at h; exact Except.noConfusion h
        | ok g4 =>
          rw [hbd] at h
          dsimp only at h
          cases hb : branchUnlessTerminated g4 condBlock with
          | error x => rw [hb] at h; exact Except.noConfusion h
          | ok g5 =>
            rw [hb] at h
            dsimp only at h
            injection h with h
            refine ⟨function, g2, v, g4, g5, hfn, ?_, hv, ?_, ?_, ?_⟩
            · rw [hwb]; exact he
            · rw [hwb, htc]; exact hbd
            · rw [hwb]; exact hb
            · rw [hwb]; exact h.symm

/-- What `hasTerminator` returns. -/
theorem hasTerminator_ok {g : CodeGenerator} {t : Bool} (h : g.hasTerminator = Except.ok t) :
    ∃ b block, g.insertBlock = some b ∧ LLVM.findBlock g.module b = some block ∧
      t = block.getTerminator.isSome := by
  unfold hasTerminator at h
  split at h
  · exact Except.noConfusion h
  · next b hb =>
    split at h
    · exact Except.noConfusion h
    · next block hblock =>
      injection h with h
      exact ⟨b, block, hb, hblock, h.symm⟩

/-- The end of a branch: a branch to `dest` is appended exactly when the
insertion block has no terminator. -/
theorem branchUnlessTerminated_inserted {g g1 : CodeGenerator} {dest : Nat}
    (h : branchUnlessTerminated g dest = Except.ok g1) :
    InsertedUnlessTerminated g (LLVM.Operation.Br dest) g1 := by
  unfold branchUnlessTerminated at h
  cases ht : g.hasTerminator with
  | error x => rw [ht] at h; exact Except.noConfusion h
  | ok t =>
    rw [ht] at h
    obtain ⟨b, block, hb, hblock, e⟩ := hasTerminator_ok ht
    refine ⟨b, block, hb, hblock, ?_⟩
    cases t with
    | true =>
      dsimp only at h
      injection h with h
      refine Or.inr ⟨?_, h.symm⟩
      intro hn
      rw [hn] at e
      exact Bool.noConfusion e
    | false =>
      dsimp only at h
      injection h with h
      refine Or.inl ⟨?_, h.symm⟩
      cases hg : block.getTerminator with
      | none => rfl
      | some i =>
        rw [hg] at e
        exact Bool.noConfusion e

/-- The implicit return: `ret i32 0` is appended exactly when the insertion
block has no terminator. -/
theorem implicitReturn_inserted {g g1 : CodeGenerator} (h : implicitReturn g = Except.ok g1) :
    InsertedUnlessTerminated g (LLVM.Operation.Ret zero32) g1 := by
  unfold implicitReturn at h
  cases ht : g.hasTerminator with
  | error x => rw [ht] at h; exact Except.noConfusion h
  | ok t =>
    rw [ht] at h
    obtain ⟨b, block, hb, hblock, e⟩ := hasTerminator_ok ht
    refine ⟨b, block, hb, hblock, ?_⟩
    cases t with
    | true =>
      dsimp only at h
      injection h with h
      refine Or.inr ⟨?_, h.symm⟩
      intro hn
      rw [hn] at e
      exact Bool.noConfusion e
    | false =>
      dsimp only at h
      injection h with h
      refine Or.inl ⟨?_, h.symm⟩
      cases hg : block.getTerminator with
      | none => rfl
      | some i =>
        rw [hg] at e
        exact Bool.noConfusion e

/-- What `CreateICmp` does when the folder has no value. -/
theorem CreateICmp_none {llvm : LLVM.Backend} {predicate : LLVM.Predicate}
    {lhs rhs : LLVM.Value} (h : llvm.FoldICmp predicate lhs rhs = none) (g : CodeGenerator)
    (name : String) :
    CreateICmp llvm g predicate lhs rhs name =
      (LLVM.Value.Instruction g.nextId (LLVM.IRType.IntegerTy 1),
        (g.Insert (LLVM.Operation.ICmp predicate lhs rhs) name).2) := by
  unfold CreateICmp
  rw [h]
  rfl

/-- What `CreateICmp` does when the folder has a value. -/
theorem CreateICmp_some {llvm : LLVM.Backend} {predicate : LLVM.Predicate}
    {lhs rhs v : LLVM.Value} (h : llvm.FoldICmp predicate lhs rhs = some v) (g : CodeGenerator)
    (name : String) : CreateICmp llvm g predicate lhs rhs name = (v, g) := by
  unfold CreateICmp
  rw [h]

end CodeGenerator
/-! ## The generator: the entry block of a new function -/

namespace CodeGenerator

theorem findFunction_append_new {pre : List LLVM.Function} {f : LLVM.Function}
    (hf : ∀ x ∈ pre, x.id ≠ f.id) : LLVM.findFunction (pre ++ [f]) f.id = some f := by
  unfold LLVM.findFunction
  rw [List.find?_append]
  have : pre.find? (fun x => decide (x.id = f.id)) = none := by
    rw [List.find?_eq_none]
    intro x hx
    simpa using hf x hx
  rw [this]
  simp

theorem findBlock_append_new {pre : List LLVM.Function} {fid : Nat} {fname : String}
    {args : List String} {b : LLVM.BasicBlock}
    (hb : ∀ x ∈ pre, ∀ y ∈ x.blocks, y.id ≠ b.id) :
    LLVM.findBlock (pre ++ [⟨fid, fname, args, [b]⟩]) b.id = some b := by
  unfold LLVM.findBlock
  rw [List.flatMap_append, List.find?_append]
  have : (pre.flatMap (fun f => f.blocks)).find? (fun y => decide (y.id = b.id)) = none := by
    rw [List.find?_eq_none]
    intro y hy
    obtain ⟨x, hx, hyx⟩ := List.mem_flatMap.mp hy
    simpa using hb x hx y hyx
  rw [this]
  simp

theorem map_eq_self {α : Type} (l : List α) (h : α → α) (hh : ∀ x ∈ l, h x = x) :
    l.map h = l := by
  induction l with
  | nil => rfl
  | cons a l ih =>
    rw [List.map_cons, hh a (List.mem_cons_self _ _),
      ih (fun x hx => hh x (List.mem_cons_of_mem _ hx))]

theorem appendBlock_append_new {pre : List LLVM.Function} {fid : Nat} {fname : String}
    {args : List String} {blocks : List LLVM.BasicBlock} (b : LLVM.BasicBlock)
    (hf : ∀ x ∈ pre, x.id ≠ fid) :
    LLVM.appendBlock (pre ++ [⟨fid, fname, args, blocks⟩]) fid b =
      pre ++ [⟨fid, fname, args, blocks ++ [b]⟩] := by
  unfold LLVM.appendBlock
  rw [List.map_append, map_eq_self pre _ (fun x hx => if_neg (hf x hx))]
  simp

theorem insertAtEntry_append_new {pre : List LLVM.Function} {fid : Nat} {fname : String}
    {args : List String} {b : LLVM.BasicBlock} {bs : List LLVM.BasicBlock}
    (i : LLVM.Instruction) (hf : ∀ x ∈ pre, x.id ≠ fid) :
    LLVM.insertAtEntry (pre ++ [⟨fid, fname, args, b :: bs⟩]) fid i =
      pre ++ [⟨fid, fname, args, { b with instructions := i :: b.instructions } :: bs⟩] := by
  unfold LLVM.insertAtEntry
  rw [List.map_append, map_eq_self pre _ (fun x hx => if_neg (hf x hx))]
  simp

theorem appendInstruction_append_new {pre : List LLVM.Function} {fid bid : Nat}
    {fname bname : String} {args : List String} {instructions : List LLVM.Instruction}
    (i : LLVM.Instruction) (hb : ∀ x ∈ pre, ∀ y ∈ x.blocks, y.id ≠ bid) :
    LLVM.appendInstruction (pre ++ [⟨fid, fname, args, [⟨bid, bname, instructions⟩]⟩]) bid i =
      pre ++ [⟨fid, fname, args, [⟨bid, bname, instructions ++ [i]⟩]⟩] := by
  unfold LLVM.appendInstruction
  rw [List.map_append]
  have : pre.map (fun f => ({ f with blocks := f.blocks.map (fun b =>
      if b.id = bid then { b with instructions := b.instructions ++ [i] } else b) } :
        LLVM.Function)) = pre := by
    refine map_eq_self pre _ (fun x hx => ?_)
    have : x.blocks.map (fun b =>
        if b.id = bid then ({ b with instructions := b.instructions ++ [i] } : LLVM.BasicBlock)
        else b) = x.blocks :=
      map_eq_self _ _ (fun y hy => if_neg (hb x hx y hy))
    rw [this]
  rw [this]
  simp

/-- The loop over the arguments of a new function, whose only block is the
entry block: every argument gets its alloca at the beginning of the block and
its store at the end. -/
theorem parameterAllocas_entry (pre : List LLVM.Function) (fid : Nat) (fname : String)
    (args : List String) (hf : ∀ x ∈ pre, x.id ≠ fid)
    (hb : ∀ x ∈ pre, ∀ y ∈ x.blocks, y.id ≠ fid + 1) :
    ∀ (names : List String) (index : Nat) (slots stores : List LLVM.Instruction)
      (g : CodeGenerator),
      g.module = pre ++ [⟨fid, fname, args, [⟨fid + 1, "entry", slots ++ stores⟩]⟩] →
      g.insertBlock = some (fid + 1) → g.nextId = fid + 2 + 2 * index →
      ∃ g1, parameterAllocas fid names index g = Except.ok g1 ∧
        g1.module = pre ++ [⟨fid, fname, args, [⟨fid + 1, "entry",
          (parameterSlots fid names index).reverse ++ slots ++
            (stores ++ parameterStores fid names index)⟩]⟩] ∧
        g1.insertBlock = some (fid + 1) ∧ g1.nextId = fid + 2 + 2 * (index + names.length) ∧
        g1.functions = g.functions ∧ g1.currentFunction = g.currentFunction
  | [], index, slots, stores, g, hm, hi, hn => by
    refine ⟨g, ?_, ?_, hi, ?_, rfl, rfl⟩
    · rw [parameterAllocas]
    · rw [hm]
      simp [parameterSlots, parameterStores]
    · rw [hn]
      simp
  | name :: rest, index, slots, stores, g, hm, hi, hn => by
    obtain ⟨module, insertBlock, namedValues, functions, currentFunction, lastValue, nextId⟩ := g
    dsimp only at hm hi hn
    subst hm
    subst hi
    subst hn
    have hfind : LLVM.findFunction
        (pre ++ [⟨fid, fname, args, [⟨fid + 1, "entry", slots ++ stores⟩]⟩]) fid =
        some ⟨fid, fname, args, [⟨fid + 1, "entry", slots ++ stores⟩]⟩ :=
      @findFunction_append_new pre ⟨fid, fname, args, [⟨fid + 1, "entry", slots ++ stores⟩]⟩ hf
    have hins := @insertAtEntry_append_new pre fid fname args
      ⟨fid + 1, "entry", slots ++ stores⟩ []
      ⟨fid + 2 + 2 * index, name, LLVM.Operation.Alloca (LLVM.IRType.IntegerTy 32)⟩ hf
    have happ := @appendInstruction_append_new pre fid (fid + 1) fname "entry" args
      (⟨fid + 2 + 2 * index, name, LLVM.Operation.Alloca (LLVM.IRType.IntegerTy 32)⟩ ::
        (slots ++ stores))
      ⟨fid + 2 + 2 * index + 1, "",
        LLVM.Operation.Store (LLVM.Value.Argument fid index)
          (LLVM.Value.Instruction (fid + 2 + 2 * index) LLVM.IRType.PointerTy)⟩ hb
    obtain ⟨g1, h1, h2, h3, h4, h5, h6⟩ := parameterAllocas_entry pre fid fname args hf hb rest
      (index + 1)
      (⟨fid + 2 + 2 * index, name, LLVM.Operation.Alloca (LLVM.IRType.IntegerTy 32)⟩ :: slots)
      (stores ++ [⟨fid + 2 + 2 * index + 1, "",
        LLVM.Operation.Store (LLVM.Value.Argument fid index)
          (LLVM.Value.Instruction (fid + 2 + 2 * index) LLVM.IRType.PointerTy)⟩])
      { module := pre ++ [⟨fid, fname, args, [⟨fid + 1, "entry",
          (⟨fid + 2 + 2 * index, name, LLVM.Operation.Alloca (LLVM.IRType.IntegerTy 32)⟩ ::
            slots) ++ (stores ++ [⟨fid + 2 + 2 * index + 1, "",
              LLVM.Operation.Store (LLVM.Value.Argument fid index)
                (LLVM.Value.Instruction (fid + 2 + 2 * index) LLVM.IRType.PointerTy)⟩])⟩]⟩]
        insertBlock := some (fid + 1)
        namedValues := assign namedValues name (fid + 2 + 2 * index)
        functions := functions
        currentFunction := currentFunction
        lastValue := lastValue
        nextId := fid + 2 + 2 * index + 1 + 1 } rfl rfl (by dsimp only; omega)
    refine ⟨g1, ?_, ?_, h3, ?_, h5, h6⟩
    · rw [parameterAllocas]
      unfold createEntryBlockAlloca
      dsimp only
      rw [hfind]
      dsimp only
      rw [← h1]
      unfold CreateStore Insert
      dsimp only
      rw [hins]
      dsimp only
      rw [happ]
      simp only [List.cons_append, List.append_assoc]
    · rw [h2]
      have e : fid + 2 + 2 * index + 1 = fid + 3 + 2 * index := by omega
      rw [e]
      simp only [parameterSlots, parameterStores, List.reverse_cons, List.append_assoc,
        List.cons_append, List.nil_append, List.singleton_append]
    · rw [h4, List.length_cons]
      omega

theorem parameterSlots_terminator (fid : Nat) :
    ∀ (names : List String) (index : Nat), ∀ i ∈ parameterSlots fid names index,
      i.operation.isTerminator = false
  | [], _, i, hi => by rw [parameterSlots] at hi; cases hi
  | name :: rest, index, i, hi => by
    rw [parameterSlots, List.mem_cons] at hi
    rcases hi with rfl | hi
    · rfl
    · exact parameterSlots_terminator fid rest (index + 1) i hi

theorem parameterStores_terminator (fid : Nat) :
    ∀ (names : List String) (index : Nat), ∀ i ∈ parameterStores fid names index,
      i.operation.isTerminator = false
  | [], _, i, hi => by rw [parameterStores] at hi; cases hi
  | name :: rest, index, i, hi => by
    rw [parameterStores, List.mem_cons] at hi
    rcases hi with rfl | hi
    · rfl
    · exact parameterStores_terminator fid rest (index + 1) i hi

/-- A block that holds no terminator has none at its end. -/
theorem getTerminator_none (b : LLVM.BasicBlock)
    (h : ∀ i ∈ b.instructions, i.operation.isTerminator = false) : b.getTerminator = none := by
  unfold LLVM.BasicBlock.getTerminator
  cases hl : b.instructions.getLast? with
  | none => rfl
  | some i =>
    dsimp only
    rw [h i (List.mem_of_getLast?_eq_some hl)]
    rfl

end CodeGenerator
/-! ## The generator: what every step of lowering keeps -/

namespace CodeGenerator

theorem Invariant.ofTables {P : CodeGenerator → Prop} (hP : Invariant P) {g g1 : CodeGenerator}
    (h : P g) (hm : g1.module = g.module) (hn : g1.nextId = g.nextId) : P g1 :=
  hP.tables g g1 hm hn h

theorem Invariant.withValue {P : CodeGenerator → Prop} (hP : Invariant P) {g : CodeGenerator}
    (v : Option LLVM.Value) (h : P g) : P { g with lastValue := v } :=
  hP.tables g _ rfl rfl h

theorem Invariant.binOp {P : CodeGenerator → Prop} (hP : Invariant P)
    (llvm : LLVM.Backend) (g : CodeGenerator) (opcode : LLVM.BinaryOps) (lhs rhs : LLVM.Value)
    (name : String) (h : P g) : P (CreateBinOp llvm g opcode lhs rhs name).2 := by
  unfold CreateBinOp
  split
  · exact h
  · exact hP.insert _ _ _ h

theorem Invariant.iCmp {P : CodeGenerator → Prop} (hP : Invariant P)
    (llvm : LLVM.Backend) (g : CodeGenerator) (predicate : LLVM.Predicate)
    (lhs rhs : LLVM.Value) (name : String) (h : P g) :
    P (CreateICmp llvm g predicate lhs rhs name).2 := by
  unfold CreateICmp
  split
  · exact h
  · exact hP.insert _ _ _ h

theorem Invariant.condition {P : CodeGenerator → Prop} (hP : Invariant P)
    (llvm : LLVM.Backend) (g : CodeGenerator) (v : LLVM.Value) (name : String) (h : P g) :
    P (toCondition llvm g v name).2 := by
  unfold CodeGenerator.toCondition
  split
  · exact hP.iCmp llvm g _ _ _ _ h
  · exact h

theorem Invariant.ifStep {P : CodeGenerator → Prop} (hP : Invariant P) (g : CodeGenerator)
    (v : LLVM.Value) (function : Nat) (hasElse : Bool) (h : P g) :
    P (ifBlocks g v function hasElse).2.2.2 := by
  unfold CodeGenerator.ifBlocks
  split
  · exact hP.insert _ _ _ (hP.block _ _ _ (hP.block _ _ _ (hP.block _ _ _ h)))
  · exact hP.insert _ _ _ (hP.block _ _ _ (hP.block _ _ _ h))

theorem Invariant.whileStep {P : CodeGenerator → Prop} (hP : Invariant P) (g : CodeGenerator)
    (function : Nat) (h : P g) : P (whileBlocks g function).2.2.2 :=
  hP.ofTables (hP.insert _ _ _ (hP.block _ _ _ (hP.block _ _ _ (hP.block _ _ _ h)))) rfl rfl

theorem Invariant.branchStep {P : CodeGenerator → Prop} (hP : Invariant P)
    {g g1 : CodeGenerator} {dest : Nat} (hb : branchUnlessTerminated g dest = Except.ok g1)
    (h : P g) : P g1 := by
  unfold CodeGenerator.branchUnlessTerminated at hb
  split at hb
  · exact Except.noConfusion hb
  · injection hb with hb; subst hb; exact h
  · injection hb with hb; subst hb; exact hP.insert _ _ _ h

theorem Invariant.returnStep {P : CodeGenerator → Prop} (hP : Invariant P)
    {g g1 : CodeGenerator} (hb : implicitReturn g = Except.ok g1) (h : P g) : P g1 := by
  unfold CodeGenerator.implicitReturn at hb
  split at hb
  · exact Except.noConfusion hb
  · injection hb with hb; subst hb; exact h
  · injection hb with hb; subst hb; exact hP.insert _ _ _ h

theorem Invariant.parameters {P : CodeGenerator → Prop} (hP : Invariant P)
    (function : Nat) :
    ∀ (names : List String) (index : Nat) (g g1 : CodeGenerator),
      parameterAllocas function names index g = Except.ok g1 → P g → P g1
  | [], index, g, g1, hp, h => by
    rw [CodeGenerator.parameterAllocas] at hp
    injection hp with hp
    subst hp
    exact h
  | name :: rest, index, g, g1, hp, h => by
    rw [CodeGenerator.parameterAllocas] at hp
    cases ha : g.createEntryBlockAlloca function name with
    | error e => rw [ha] at hp; exact Except.noConfusion hp
    | ok r =>
      obtain ⟨alloca, g2⟩ := r
      rw [ha] at hp
      dsimp only at hp
      exact Invariant.parameters hP function rest (index + 1) _ g1 hp
        (hP.ofTables (hP.insert _ _ _ (hP.alloca g g2 function alloca name ha h)) rfl rfl)

theorem Invariant.entered {P : CodeGenerator → Prop} (hP : Invariant P)
    {g g1 : CodeGenerator} {name : String} {parameters : List String} {function : Nat}
    (he : enterFunction g name parameters = Except.ok (function, g1)) (h : P g) : P g1 := by
  unfold CodeGenerator.enterFunction at he
  cases hp : CodeGenerator.parameterAllocas (declareFunction g name parameters).1
      (LLVM.argumentNames parameters) 0 (declareFunction g name parameters).2 with
  | error e => rw [hp] at he; exact Except.noConfusion he
  | ok g2 =>
    rw [hp] at he
    injection he with he
    injection he with he1 he2
    subst he2
    exact Invariant.parameters hP _ _ _ _ _ hp (hP.declare g name parameters h)

mutual

/-- An expression that is lowered keeps every invariant of the steps. -/
theorem Invariant.ofExpression {P : CodeGenerator → Prop} (hP : Invariant P)
    (llvm : LLVM.Backend) :
    ∀ (e : Expression) (g g1 : CodeGenerator), visitExpression llvm e g = Except.ok g1 →
      P g → P g1
  | Expression.NumberLiteral value, g, g1, he, h => by
    rw [CodeGenerator.visitExpression] at he
    injection he with he
    subst he
    exact hP.withValue _ h
  | Expression.BooleanLiteral value, g, g1, he, h => by
    rw [CodeGenerator.visitExpression] at he
    injection he with he
    subst he
    exact hP.withValue _ h
  | Expression.Variable name, g, g1, he, h => by
    rw [CodeGenerator.visitExpression] at he
    split at he
    · exact Except.noConfusion he
    · injection he with he
      subst he
      exact hP.withValue _ (hP.insert _ _ _ h)
  | Expression.BinaryOperation left operator_ right, g, g1, he, h => by
    rw [CodeGenerator.visitExpression] at he
    cases hl : CodeGenerator.visitExpression llvm left g with
    | error x => rw [hl] at he; exact Except.noConfusion he
    | ok g2 =>
      rw [hl] at he
      dsimp only at he
      cases hr : CodeGenerator.visitExpression llvm right g2 with
      | error x => rw [hr] at he; exact Except.noConfusion he
      | ok g3 =>
        rw [hr] at he
        dsimp only at he
        have h3 := Invariant.ofExpression hP llvm right g2 g3 hr
          (Invariant.ofExpression hP llvm left g g2 hl h)
        split at he
        · split at he
          · next r hb =>
            injection he with he
            subst he
            refine hP.withValue _ ?_
            rcases binaryInstruction_cases hb with ⟨opcode, name, e⟩ | ⟨predicate, name, e⟩
            · rw [show r = _ from congrArg Prod.snd e]
              exact hP.binOp llvm g3 opcode _ _ name h3
            · rw [show r = _ from congrArg Prod.snd e]
              exact hP.iCmp llvm g3 predicate _ _ name h3
          · exact Except.noConfusion he
        · exact Except.noConfusion he
  | Expression.UnaryOperation operator_ operand, g, g1, he, h => by
    rw [CodeGenerator.visitExpression] at he
    cases hl : CodeGenerator.visitExpression llvm operand g with
    | error x => rw [hl] at he; exact Except.noConfusion he
    | ok g2 =>
      rw [hl] at he
      dsimp only at he
      have h2 := Invariant.ofExpression hP llvm operand g g2 hl h
      split at he
      · exact Except.noConfusion he
      · split at he
        · next r hb =>
          injection he with he
          subst he
          refine hP.withValue _ ?_
          obtain ⟨opcode, lhs, rhs, name, e⟩ := unaryInstruction_cases hb
          rw [show r = _ from congrArg Prod.snd e]
          exact hP.binOp llvm g2 opcode lhs rhs name h2
        · exact Except.noConfusion he
  | Expression.FunctionCall name arguments, g, g1, he, h => by
    rw [CodeGenerator.visitExpression] at he
    split at he
    · exact Except.noConfusion he
    · split at he
      · exact Except.noConfusion he
      · split at he
        · exact Except.noConfusion he
        · cases ha : CodeGenerator.visitArguments llvm arguments [] g with
          | error x => rw [ha] at he; exact Except.noConfusion he
          | ok r =>
            rw [ha] at he
            injection he with he
            subst he
            exact hP.withValue _ (hP.insert _ _ _
              (Invariant.ofArguments hP llvm arguments [] g r.1 r.2 ha h))

/-- The loop over the arguments of a call keeps every invariant of the steps. -/
theorem Invariant.ofArguments {P : CodeGenerator → Prop} (hP : Invariant P)
    (llvm : LLVM.Backend) :
    ∀ (arguments : List Expression) (args : List LLVM.Value) (g : CodeGenerator)
      (vs : List LLVM.Value) (g1 : CodeGenerator),
      visitArguments llvm arguments args g = Except.ok (vs, g1) → P g → P g1
  | [], args, g, vs, g1, he, h => by
    rw [CodeGenerator.visitArguments] at he
    injection he with he
    injection he with he1 he2
    subst he2
    exact h
  | arg :: rest, args, g, vs, g1, he, h => by
    rw [CodeGenerator.visitArguments] at he
    cases hl : CodeGenerator.visitExpression llvm arg g with
    | error x => rw [hl] at he; exact Except.noConfusion he
    | ok g2 =>
      rw [hl] at he
      dsimp only at he
      split at he
      · exact Except.noConfusion he
      · next v hv =>
        exact Invariant.ofArguments hP llvm rest (args ++ [v]) g2 vs g1 he
          (Invariant.ofExpression hP llvm arg g g2 hl h)

end

mutual

/-- A statement that is lowered keeps every invariant of the steps. -/
theorem Invariant.ofStatement {P : CodeGenerator → Prop} (hP : Invariant P)
    (llvm : LLVM.Backend) :
    ∀ (s : Statement) (g g1 : CodeGenerator), visitStatement llvm s g = Except.ok g1 →
      P g → P g1
  | Statement.VariableDeclaration name initializer, g, g1, hs, h => by
    rw [CodeGenerator.visitStatement] at hs
    cases hf : g.insertFunction with
    | error e => rw [hf] at hs; exact Except.noConfusion hs
    | ok function =>
      rw [hf] at hs
      dsimp only at hs
      cases ha : g.createEntryBlockAlloca function name with
      | error e => rw [ha] at hs; exact Except.noConfusion hs
      | ok r =>
        obtain ⟨alloca, g2⟩ := r
        rw [ha] at hs
        dsimp only at hs
        have h2 := hP.alloca g g2 function alloca name ha h
        cases initializer with
        | none =>
          dsimp only at hs
          injection hs with hs
          subst hs
          exact hP.ofTables (hP.insert _ _ _ (hP.withValue _ h2)) rfl rfl
        | some e =>
          dsimp only at hs
          cases he : CodeGenerator.visitExpression llvm e g2 with
          | error x => rw [he] at hs; exact Except.noConfusion hs
          | ok g3 =>
            rw [he] at hs
            dsimp only at hs
            split at hs
            · exact Except.noConfusion hs
            · injection hs with hs
              subst hs
              exact hP.ofTables (hP.insert _ _ _
                (Invariant.ofExpression hP llvm e g2 g3 he h2)) rfl rfl
  | Statement.Assignment name value, g, g1, hs, h => by
    rw [CodeGenerator.visitStatement] at hs
    split at hs
    · exact Except.noConfusion hs
    · cases he : CodeGenerator.visitExpression llvm value g with
      | error x => rw [he] at hs; exact Except.noConfusion hs
      | ok g2 =>
        rw [he] at hs
        dsimp only at hs
        split at hs
        · exact Except.noConfusion hs
        · injection hs with hs
          subst hs
          exact hP.insert _ _ _ (Invariant.ofExpression hP llvm value g g2 he h)
  | Statement.IfStatement condition thenBranch elseBranch, g, g1, hs, h => by
    obtain ⟨g2, v, function, g4, g5, g6, h1, h2, h3, h4, h5, h6, h7⟩ := visitStatement_if_ok hs
    subst h7
    have p2 := Invariant.ofExpression hP llvm condition g g2 h1 h
    have p3 := hP.ifStep _ (CodeGenerator.toCondition llvm g2 v "ifcond").1 function
      elseBranch.isSome (hP.condition llvm g2 v "ifcond" p2)
    have p4 := Invariant.ofStatement hP llvm thenBranch _ g4 h4 (hP.ofTables p3 rfl rfl)
    have p5 := hP.branchStep h5 p4
    exact hP.ofTables (Invariant.ofElse hP llvm elseBranch _ _ g5 g6 h6 p5) rfl rfl
  | Statement.WhileStatement condition body, g, g1, hs, h => by
    obtain ⟨function, g2, v, g4, g5, h1, h2, h3, h4, h5, h6⟩ := visitStatement_while_ok hs
    subst h6
    have p2 := Invariant.ofExpression hP llvm condition _ g2 h2 (hP.whileStep g function h)
    have p3 := hP.insert _ (LLVM.Operation.CondBr (CodeGenerator.toCondition llvm g2 v "whilecond").1
      (CodeGenerator.whileBlocks g function).2.1 (CodeGenerator.whileBlocks g function).2.2.1) ""
      (hP.condition llvm g2 v "whilecond" p2)
    have p4 := Invariant.ofStatement hP llvm body _ g4 h4 (hP.ofTables p3 rfl rfl)
    exact hP.ofTables (hP.branchStep h5 p4) rfl rfl
  | Statement.Block statements, g, g1, hs, h => by
    rw [CodeGenerator.visitStatement] at hs
    exact Invariant.ofStatements hP llvm statements g g1 hs h
  | Statement.FunctionDeclaration name parameters body, g, g1, hs, h => by
    rw [CodeGenerator.visitStatement] at hs
    cases hen : CodeGenerator.enterFunction g name parameters with
    | error x => rw [hen] at hs; exact Except.noConfusion hs
    | ok r =>
      obtain ⟨function, g2⟩ := r
      rw [hen] at hs
      dsimp only at hs
      cases hbd : CodeGenerator.visitStatements llvm body g2 with
      | error x => rw [hbd] at hs; exact Except.noConfusion hs
      | ok g3 =>
        rw [hbd] at hs
        dsimp only at hs
        cases hr : CodeGenerator.implicitReturn g3 with
        | error x => rw [hr] at hs; exact Except.noConfusion hs
        | ok g4 =>
          rw [hr] at hs
          dsimp only at hs
          cases hv : CodeGenerator.verify llvm g4 function name with
          | error x => rw [hv] at hs; exact Except.noConfusion hs
          | ok g5 =>
            rw [hv] at hs
            dsimp only at hs
            rw [verify_ok hv] at hs
            injection hs with hs
            subst hs
            exact hP.ofTables (hP.returnStep hr
              (Invariant.ofStatements hP llvm body g2 g3 hbd (hP.entered hen h))) rfl rfl
  | Statement.ReturnStatement value, g, g1, hs, h => by
    cases value with
    | none =>
      rw [CodeGenerator.visitStatement] at hs
      injection hs with hs
      subst hs
      exact hP.insert _ _ _ h
    | some e =>
      rw [CodeGenerator.visitStatement] at hs
      cases he : CodeGenerator.visitExpression llvm e g with
      | error x => rw [he] at hs; exact Except.noConfusion hs
      | ok g2 =>
        rw [he] at hs
        dsimp only at hs
        split at hs
        · exact Except.noConfusion hs
        · injection hs with hs
          subst hs
          exact hP.insert _ _ _ (Invariant.ofExpression hP llvm e g g2 he h)
  | Statement.ExpressionStatement expression, g, g1, hs, h => by
    rw [CodeGenerator.visitStatement] at hs
    exact Invariant.ofExpression hP llvm expression g g1 hs h

/-- The else part of an `if` statement keeps every invariant of the steps. -/
theorem Invariant.ofElse {P : CodeGenerator → Prop} (hP : Invariant P)
    (llvm : LLVM.Backend) :
    ∀ (e : Option Statement) (elseBlock : Option Nat) (mergeBlock : Nat) (g g1 : CodeGenerator),
      visitElse llvm e elseBlock mergeBlock g = Except.ok g1 → P g → P g1
  | none, elseBlock, mergeBlock, g, g1, hs, h => by
    rw [CodeGenerator.visitElse] at hs
    injection hs with hs
    subst hs
    exact h
  | some s, elseBlock, mergeBlock, g, g1, hs, h => by
    rw [CodeGenerator.visitElse] at hs
    cases hv : CodeGenerator.visitStatement llvm s { g with insertBlock := elseBlock } with
    | error x => rw [hv] at hs; exact Except.noConfusion hs
    | ok g2 =>
      rw [hv] at hs
      dsimp only at hs
      exact hP.branchStep hs
        (Invariant.ofStatement hP llvm s _ g2 hv (hP.ofTables h rfl rfl))

/-- A statement list that is lowered keeps every invariant of the steps. -/
theorem Invariant.ofStatements {P : CodeGenerator → Prop} (hP : Invariant P)
    (llvm : LLVM.Backend) :
    ∀ (ss : List Statement) (g g1 : CodeGenerator), visitStatements llvm ss g = Except.ok g1 →
      P g → P g1
  | [], g, g1, hs, h => by
    rw [CodeGenerator.visitStatements] at hs
    injection hs with hs
    subst hs
    exact h
  | s :: rest, g, g1, hs, h => by
    rw [CodeGenerator.visitStatements] at hs
    cases hv : CodeGenerator.visitStatement llvm s g with
    | error x => rw [hv] at hs; exact Except.noConfusion hs
    | ok g2 =>
      rw [hv] at hs
      dsimp only at hs
      exact Invariant.ofStatements hP llvm rest g2 g1 hs
        (Invariant.ofStatement hP llvm s g g2 hv h)

end

/-- Fresh identities of functions and blocks are an invariant of the steps. -/
theorem freshBlocks_invariant : Invariant FreshBlocks where
  insert := by
    intro g operation name h f hf
    unfold Insert at hf ⊢
    dsimp only at hf ⊢
    split at hf
    · unfold LLVM.appendInstruction at hf
      obtain ⟨x, hx, rfl⟩ := List.mem_map.mp hf
      refine ⟨Nat.lt_succ_of_lt (h x hx).1, fun b hb => ?_⟩
      obtain ⟨y, hy, rfl⟩ := List.mem_map.mp hb
      split <;> exact Nat.lt_succ_of_lt ((h x hx).2 y hy)
    · exact ⟨Nat.lt_succ_of_lt (h f hf).1, fun b hb => Nat.lt_succ_of_lt ((h f hf).2 b hb)⟩
  block := by
    intro g name function h f hf
    unfold createBlock LLVM.appendBlock at hf
    obtain ⟨x, hx, rfl⟩ := List.mem_map.mp hf
    have hN : (g.createBlock name function).2.nextId = g.nextId + 1 := rfl
    rw [hN]
    split
    · refine ⟨Nat.lt_succ_of_lt (h x hx).1, fun b hb => ?_⟩
      rcases List.mem_append.mp hb with hb | hb
      · exact Nat.lt_succ_of_lt ((h x hx).2 b hb)
      · rw [List.mem_singleton] at hb
        subst hb
        exact Nat.lt_succ_self _
    · exact ⟨Nat.lt_succ_of_lt (h x hx).1, fun b hb => Nat.lt_succ_of_lt ((h x hx).2 b hb)⟩
  alloca := by
    intro g g1 function alloca name ha h f hf
    unfold createEntryBlockAlloca at ha
    split at ha
    · exact Except.noConfusion ha
    · split at ha
      · exact Except.noConfusion ha
      · injection ha with ha
        injection ha with ha1 ha2
        subst ha2
        unfold LLVM.insertAtEntry at hf
        obtain ⟨x, hx, rfl⟩ := List.mem_map.mp hf
        dsimp only
        split
        · refine ⟨Nat.lt_succ_of_lt (h x hx).1, fun b hb => ?_⟩
          cases hxb : x.blocks with
          | nil => rw [hxb] at hb; cases hb
          | cons b0 bs =>
            rw [hxb] at hb
            dsimp only at hb
            rcases List.mem_cons.mp hb with rfl | hb
            · exact Nat.lt_succ_of_lt ((h x hx).2 b0 (by rw [hxb]; exact List.mem_cons_self _ _))
            · exact Nat.lt_succ_of_lt ((h x hx).2 b (by rw [hxb]; exact List.mem_cons_of_mem _ hb))
        · exact ⟨Nat.lt_succ_of_lt (h x hx).1, fun b hb => Nat.lt_succ_of_lt ((h x hx).2 b hb)⟩
  declare := by
    intro g name parameters h f hf
    unfold declareFunction LLVM.appendBlock at hf
    obtain ⟨x, hx, rfl⟩ := List.mem_map.mp hf
    have hN : (g.declareFunction name parameters).2.nextId = g.nextId + 2 := rfl
    rw [hN]
    rcases List.mem_append.mp hx with hx | hx
    · have hlt := (h x hx).1
      rw [if_neg (Nat.ne_of_lt hlt)]
      exact ⟨by omega, fun b hb => by have := (h x hx).2 b hb; omega⟩
    · rw [List.mem_singleton] at hx
      subst hx
      rw [if_pos rfl]
      refine ⟨by dsimp only; omega, fun b hb => ?_⟩
      dsimp only at hb
      rw [List.nil_append, List.mem_singleton] at hb
      subst hb
      dsimp only
      omega
  tables := by
    intro g g1 hm hn h f hf
    rw [hm] at hf
    rw [hn]
    exact h f hf

/-- The identities of a generator that has lowered a program, starting as
a new generator, are fresh. -/
theorem generate_freshBlocks {llvm : LLVM.Backend} {program : Program} {g : CodeGenerator}
    (h : generate llvm program CodeGenerator.new = Except.ok g) : FreshBlocks g :=
  Invariant.ofStatements freshBlocks_invariant llvm program.statements _ g h
    (fun f hf => by cases hf)

end CodeGenerator
namespace CodeGenerator

/-- A function declaration without statements, in a generator whose
identities are fresh: what is lowered when the verifier accepts the function. -/
theorem visitStatement_function_empty (llvm : LLVM.Backend) (name : String)
    (parameters : List String) (g : CodeGenerator) (hg : FreshBlocks g)
    (hv : llvm.verifyFunction
      (g.module ++ [⟨g.nextId, name, LLVM.argumentNames parameters,
        [⟨g.nextId + 1, "entry",
          (parameterSlots g.nextId (LLVM.argumentNames parameters) 0).reverse ++
            parameterStores g.nextId (LLVM.argumentNames parameters) 0 ++
            [⟨g.nextId + 2 + 2 * parameters.length, "", LLVM.Operation.Ret zero32⟩]⟩]⟩])
      ⟨g.nextId, name, LLVM.argumentNames parameters,
        [⟨g.nextId + 1, "entry",
          (parameterSlots g.nextId (LLVM.argumentNames parameters) 0).reverse ++
            parameterStores g.nextId (LLVM.argumentNames parameters) 0 ++
            [⟨g.nextId + 2 + 2 * parameters.length, "", LLVM.Operation.Ret zero32⟩]⟩]⟩ = false) :
    visitStatement llvm (Statement.FunctionDeclaration name parameters []) g =
      Except.ok
        ⟨g.module ++ [⟨g.nextId, name, LLVM.argumentNames parameters,
          [⟨g.nextId + 1, "entry",
            (parameterSlots g.nextId (LLVM.argumentNames parameters) 0).reverse ++
              parameterStores g.nextId (LLVM.argumentNames parameters) 0 ++
              [⟨g.nextId + 2 + 2 * parameters.length, "", LLVM.Operation.Ret zero32⟩]⟩]⟩],
          some (g.nextId + 1), g.namedValues, assign g.functions name g.nextId,
          g.currentFunction, none, g.nextId + 3 + 2 * parameters.length⟩ := by
  have hf : ∀ x ∈ g.module, x.id ≠ g.nextId := fun x hx => Nat.ne_of_lt (hg x hx).1
  have hb : ∀ x ∈ g.module, ∀ y ∈ x.blocks, y.id ≠ g.nextId + 1 := fun x hx y hy =>
    Nat.ne_of_lt (Nat.lt_succ_of_lt ((hg x hx).2 y hy))
  have hm : (declareFunction g name parameters).2.module =
      g.module ++ [⟨g.nextId, name, LLVM.argumentNames parameters,
        [⟨g.nextId + 1, "entry", [] ++ []⟩]⟩] := by
    show LLVM.appendBlock _ _ _ = _
    rw [appendBlock_append_new _ hf]
    rfl
  obtain ⟨g1, h1, h2, h3, h4, h5, h6⟩ := parameterAllocas_entry g.module g.nextId name
    (LLVM.argumentNames parameters) hf hb (LLVM.argumentNames parameters) 0 [] []
    (declareFunction g name parameters).2 hm rfl rfl
  have h1a : parameterAllocas (declareFunction g name parameters).1
      (LLVM.argumentNames parameters) 0 (declareFunction g name parameters).2 =
      Except.ok g1 := h1
  obtain ⟨m1, ib1, nv1, fn1, cf1, lv1, id1⟩ := g1
  dsimp only at h2 h3 h4 h5 h6
  simp only [List.append_nil, List.nil_append] at h2
  rw [Nat.zero_add, LLVM.argumentNames_length] at h4
  subst h2
  subst h3
  subst h4
  have hnt : ∀ i ∈ (parameterSlots g.nextId (LLVM.argumentNames parameters) 0).reverse ++
      parameterStores g.nextId (LLVM.argumentNames parameters) 0,
      i.operation.isTerminator = false := by
    intro i hi
    rcases List.mem_append.mp hi with hi | hi
    · exact parameterSlots_terminator _ _ _ i (List.mem_reverse.mp hi)
    · exact parameterStores_terminator _ _ _ i hi
  have hblock := @findBlock_append_new g.module g.nextId name (LLVM.argumentNames parameters)
    ⟨g.nextId + 1, "entry",
      (parameterSlots g.nextId (LLVM.argumentNames parameters) 0).reverse ++
        parameterStores g.nextId (LLVM.argumentNames parameters) 0⟩ hb
  have hterm := getTerminator_none
    ⟨g.nextId + 1, "entry",
      (parameterSlots g.nextId (LLVM.argumentNames parameters) 0).reverse ++
        parameterStores g.nextId (LLVM.argumentNames parameters) 0⟩ hnt
  have happ := @appendInstruction_append_new g.module g.nextId (g.nextId + 1) name "entry"
    (LLVM.argumentNames parameters)
    ((parameterSlots g.nextId (LLVM.argumentNames parameters) 0).reverse ++
      parameterStores g.nextId (LLVM.argumentNames parameters) 0)
    ⟨g.nextId + 2 + 2 * parameters.length, "", LLVM.Operation.Ret zero32⟩ hb
  have hfind := @findFunction_append_new g.module
    ⟨g.nextId, name, LLVM.argumentNames parameters,
      [⟨g.nextId + 1, "entry",
        (parameterSlots g.nextId (LLVM.argumentNames parameters) 0).reverse ++
          parameterStores g.nextId (LLVM.argumentNames parameters) 0 ++
          [⟨g.nextId + 2 + 2 * parameters.length, "", LLVM.Operation.Ret zero32⟩]⟩]⟩ hf
  dsimp only at hblock hfind
  rw [visitStatement]
  unfold enterFunction
  rw [h1a]
  dsimp only
  rw [visitStatements]
  dsimp only
  unfold implicitReturn hasTerminator
  dsimp only
  rw [hblock]
  dsimp only
  rw [hterm]
  dsimp only [Option.isSome]
  unfold CreateRet Insert
  dsimp only
  rw [happ]
  unfold verify
  dsimp only
  have hd : (declareFunction g name parameters).1 = g.nextId := rfl
  rw [hd, hfind]
  dsimp only
  rw [hv]
  simp only [Bool.false_eq_true, if_false]
  rw [h5]
  have e : g.nextId + 2 + 2 * parameters.length + 1 = g.nextId + 3 + 2 * parameters.length := by
    omega
  rw [e]
  rfl

theorem freshBlocks_new : FreshBlocks CodeGenerator.new := fun f hf => by cases hf

end CodeGenerator
/-! ## The tables after a function declaration -/

/-- C21 fails as stated: the declaration of `f` in
`function f() { return 1; function g() { } }` is lowered, and afterwards the
table `functions` binds not only `f` but also `g`, the function declared in
the body of `f`. -/
theorem nested_function_stays_bound :
    CodeGenerator.failureOf (CodeGenerator.visitStatement LLVM.exampleBackend
        (Statement.FunctionDeclaration "f" []
          [Statement.ReturnStatement (some (Expression.NumberLiteral 1)),
            Statement.FunctionDeclaration "g" [] []]) CodeGenerator.new) = none ∧
      CodeGenerator.lookup CodeGenerator.new.functions "g" = none ∧
      CodeGenerator.lookup (CodeGenerator.stateOf (CodeGenerator.visitStatement LLVM.exampleBackend
        (Statement.FunctionDeclaration "f" []
          [Statement.ReturnStatement (some (Expression.NumberLiteral 1)),
            Statement.FunctionDeclaration "g" [] []]) CodeGenerator.new)).functions "g" =
        some 3 := by
  decide!

/-- C21, as the code has it. After a function declaration has been lowered,
`namedValues` and `currentFunction` are what they were before it. In the
table `functions` the declared name is bound to the new function (unless a
function declared inside the body took the name), and every name that is
neither the declared one nor the name of a function declared inside the body
is bound as before: without function declarations in the body, the table
gains exactly the binding of the declared name. -/
theorem function_tables_restored (llvm : LLVM.Backend) (name : String)
    (parameters : List String) (body : List Statement) (g g1 : CodeGenerator)
    (h : CodeGenerator.visitStatement llvm
      (Statement.FunctionDeclaration name parameters body) g = Except.ok g1) :
    g1.namedValues = g.namedValues ∧ g1.currentFunction = g.currentFunction ∧
      (name ∉ Statement.functionNamesList body →
        CodeGenerator.lookup g1.functions name = some g.nextId) ∧
      (∀ n, n ≠ name → n ∉ Statement.functionNamesList body →
        CodeGenerator.lookup g1.functions n = CodeGenerator.lookup g.functions n) ∧
      (Statement.functionNamesList body = [] → ∀ n,
        CodeGenerator.lookup g1.functions n =
          if n = name then some g.nextId else CodeGenerator.lookup g.functions n) := by
  obtain ⟨function, a, b, c, hen, hbody, hret, -, rfl⟩ :=
    CodeGenerator.visitStatement_function_ok h
  obtain ⟨-, e2, -, -, -⟩ := CodeGenerator.enterFunction_ok hen
  have l1 := CodeGenerator.visitStatements_lowered llvm body a b hbody
  have s2 := CodeGenerator.implicitReturn_ok hret
  have key : ∀ n, n ∉ Statement.functionNamesList body →
      CodeGenerator.lookup c.functions n =
        if n = name then some g.nextId else CodeGenerator.lookup g.functions n := by
    intro n hn
    rw [s2.2.1, l1.1 n hn, e2, CodeGenerator.lookup_assign]
  refine ⟨rfl, rfl, fun hn => ?_, fun n hne hn => ?_, fun hnil n => ?_⟩
  · show CodeGenerator.lookup c.functions name = _
    rw [key name hn, if_pos rfl]
  · show CodeGenerator.lookup c.functions n = _
    rw [key n hn, if_neg hne]
  · show CodeGenerator.lookup c.functions n = _
    exact key n (by rw [hnil]; exact List.not_mem_nil _)

/-- An instance of `function_tables_restored`: `function f(a) { var x = a; }`
declared in a generator that binds `y` and `h`. -/
theorem function_tables_restored_witness :
    (CodeGenerator.stateOf (CodeGenerator.visitStatement LLVM.exampleBackend
        (Statement.FunctionDeclaration "f" ["a"]
          [Statement.VariableDeclaration "x" (some (Expression.Variable "a"))])
        ⟨[], none, [("y", 7)], [("h", 8)], none, none, 9⟩)).namedValues = [("y", 7)] ∧
      ∀ n, CodeGenerator.lookup (CodeGenerator.stateOf
          (CodeGenerator.visitStatement LLVM.exampleBackend
            (Statement.FunctionDeclaration "f" ["a"]
              [Statement.VariableDeclaration "x" (some (Expression.Variable "a"))])
            ⟨[], none, [("y", 7)], [("h", 8)], none, none, 9⟩)).functions n =
        if n = "f" then some 9 else CodeGenerator.lookup [("h", 8)] n :=
  ⟨(function_tables_restored LLVM.exampleBackend "f" ["a"]
      [Statement.VariableDeclaration "x" (some (Expression.Variable "a"))]
      ⟨[], none, [("y", 7)], [("h", 8)], none, none, 9⟩ _ (by decide!)).1,
    (function_tables_restored LLVM.exampleBackend "f" ["a"]
      [Statement.VariableDeclaration "x" (some (Expression.Variable "a"))]
      ⟨[], none, [("y", 7)], [("h", 8)], none, none, 9⟩ _ (by decide!)).2.2.2.2 rfl⟩
/-! ## Statements after a function declaration -/

/-- C22 does not hold of the code: for `function f() { } var x = 1;` the
generator returns normally, and the statement after the function is lowered
into the entry block of `f`, where the insertion point still is: the block
holds the store after its `ret`, so its terminator is not its last
instruction, and the module does not pass the verifier. -/
theorem statement_after_function :
    compileSource LLVM.exampleBackend "function f() { } var x = 1;" =
      some (Except.ok
        ⟨[⟨0, "f", [], [⟨1, "entry",
          [⟨3, "x", LLVM.Operation.Alloca (LLVM.IRType.IntegerTy 32)⟩,
            ⟨2, "", LLVM.Operation.Ret (LLVM.Value.ConstantInt 32 0)⟩,
            ⟨4, "", LLVM.Operation.Store (LLVM.Value.ConstantInt 32 1)
              (LLVM.Value.Instruction 3 LLVM.IRType.PointerTy)⟩]⟩]⟩],
          some 1, [("x", 3)], [("f", 0)], none, none, 5⟩) ∧
    LLVM.BasicBlock.wellTerminated ⟨1, "entry",
        [⟨3, "x", LLVM.Operation.Alloca (LLVM.IRType.IntegerTy 32)⟩,
          ⟨2, "", LLVM.Operation.Ret (LLVM.Value.ConstantInt 32 0)⟩,
          ⟨4, "", LLVM.Operation.Store (LLVM.Value.ConstantInt 32 1)
            (LLVM.Value.Instruction 3 LLVM.IRType.PointerTy)⟩]⟩ = false ∧
    LLVM.verifyModule LLVM.exampleBackend
      [⟨0, "f", [], [⟨1, "entry",
        [⟨3, "x", LLVM.Operation.Alloca (LLVM.IRType.IntegerTy 32)⟩,
          ⟨2, "", LLVM.Operation.Ret (LLVM.Value.ConstantInt 32 0)⟩,
          ⟨4, "", LLVM.Operation.Store (LLVM.Value.ConstantInt 32 1)
            (LLVM.Value.Instruction 3 LLVM.IRType.PointerTy)⟩]⟩]⟩] = true := by
  decide!
/-! ## Statements outside every function -/

namespace CodeGenerator

theorem insertFunction_none {g : CodeGenerator} (h : g.insertBlock = none) :
    g.insertFunction = Except.error (CodeGenFailure.undefinedBehaviour, g) := by
  unfold insertFunction
  rw [h]

/-- A variable declaration without an insertion block dereferences null. -/
theorem visitStatement_declaration_none (llvm : LLVM.Backend) (name : String)
    (initializer : Option Expression) {g : CodeGenerator} (h : g.insertBlock = none) :
    visitStatement llvm (Statement.VariableDeclaration name initializer) g =
      Except.error (CodeGenFailure.undefinedBehaviour, g) := by
  rw [visitStatement, insertFunction_none h]

mutual

/-- A statement without function declarations that is lowered without an
insertion block leaves the generator without an insertion block. -/
theorem visitStatement_topLevel (llvm : LLVM.Backend) :
    ∀ (s : Statement) (g g' : CodeGenerator), s.functionNames = [] → g.insertBlock = none →
      visitStatement llvm s g = Except.ok g' → g'.insertBlock = none
  | Statement.VariableDeclaration name initializer, g, g', _, hg, h => by
    rw [visitStatement_declaration_none llvm name initializer hg] at h
    exact Except.noConfusion h
  | Statement.Assignment name value, g, g', _, hg, h => by
    rw [visitStatement] at h
    split at h
    · exact Except.noConfusion h
    · cases he : visitExpression llvm value g with
      | error x => rw [he] at h; exact Except.noConfusion h
      | ok g1 =>
        rw [he] at h
        dsimp only at h
        split at h
        · exact Except.noConfusion h
        · injection h with h
          subst h
          exact ((visitExpression_ok he).step (CreateStore_sameTables _ _ _)).2.2.1.trans hg
  | Statement.IfStatement condition thenBranch elseBranch, g, g', _, hg, h => by
    obtain ⟨g1, v, function, g4, g5, g6, h1, h2, h3, -⟩ := visitStatement_if_ok h
    have s := (visitExpression_ok h1).step (toCondition_sameTables llvm g1 v "ifcond")
    rw [insertFunction_none (s.2.2.1.trans hg)] at h3
    exact Except.noConfusion h3
  | Statement.WhileStatement condition body, g, g', _, hg, h => by
    obtain ⟨function, g2, v, g4, g5, h1, -⟩ := visitStatement_while_ok h
    rw [insertFunction_none hg] at h1
    exact Except.noConfusion h1
  | Statement.Block statements, g, g', hf, hg, h => by
    rw [visitStatement] at h
    rw [Statement.functionNames] at hf
    exact visitStatements_topLevel llvm statements g g' hf hg h
  | Statement.FunctionDeclaration name parameters body, g, g', hf, _, _ => by
    rw [Statement.functionNames] at hf
    exact List.noConfusion hf
  | Statement.ReturnStatement value, g, g', _, hg, h => by
    cases value with
    | none =>
      rw [visitStatement] at h
      injection h with h
      subst h
      exact (CreateRet_sameTables _ _).2.2.1.trans hg
    | some e =>
      rw [visitStatement] at h
      cases he : visitExpression llvm e g with
      | error x => rw [he] at h; exact Except.noConfusion h
      | ok g1 =>
        rw [he] at h
        dsimp only at h
        split at h
        · exact Except.noConfusion h
        · injection h with h
          subst h
          exact ((visitExpression_ok he).step (CreateRet_sameTables _ _)).2.2.1.trans hg
  | Statement.ExpressionStatement expression, g, g', _, hg, h => by
    rw [visitStatement] at h
    exact (visitExpression_ok h).2.2.1.trans hg

/-- Statements without function declarations that are lowered without an
insertion block leave the generator without an insertion block. -/
theorem visitStatements_topLevel (llvm : LLVM.Backend) :
    ∀ (ss : List Statement) (g g' : CodeGenerator), Statement.functionNamesList ss = [] →
      g.insertBlock = none → visitStatements llvm ss g = Except.ok g' → g'.insertBlock = none
  | [], g, g', _, hg, h => by
    rw [visitStatements] at h
    injection h with h
    subst h
    exact hg
  | s :: rest, g, g', hf, hg, h => by
    rw [visitStatements] at h
    rw [Statement.functionNamesList] at hf
    obtain ⟨hf1, hf2⟩ := List.append_eq_nil.mp hf
    cases hs : visitStatement llvm s g with
    | error x => rw [hs] at h; exact Except.noConfusion h
    | ok g1 =>
      rw [hs] at h
      dsimp only at h
      exact visitStatements_topLevel llvm rest g1 g' hf2
        (visitStatement_topLevel llvm s g g1 hf1 hg hs) h

end

end CodeGenerator

/-- C23 fails as stated: the program `1;`, an expression statement at the top
level, is lowered without an error, and `generate` returns normally: the
number is a constant, and no instruction is inserted. -/
theorem top_level_expression_lowers :
    compileSource LLVM.exampleBackend "1;" =
      some (Except.ok { CodeGenerator.new with lastValue := some (LLVM.Value.ConstantInt 32 1) }) := by
  decide!

/-- C23, as the code has it. Without an insertion block, as in a new
generator, a variable declaration that stands at the top level before every
function declaration makes `generate` fail: a statement before it fails, or
the declaration itself calls through the null insertion block, which is
undefined behaviour and not a thrown error. An expression statement is
lowered as its expression and fails only if the expression does; a program
that is a number as a statement returns normally. -/
theorem top_level_statements (llvm : LLVM.Backend) (g : CodeGenerator)
    (hg : g.insertBlock = none) :
    (∀ pre name initializer rest, Statement.functionNamesList pre = [] →
      (∀ g1, CodeGenerator.visitStatements llvm pre g = Except.ok g1 →
        CodeGenerator.generate llvm
            ⟨pre ++ [Statement.VariableDeclaration name initializer] ++ rest⟩ g =
          Except.error (CodeGenFailure.undefinedBehaviour, g1)) ∧
      (∀ x, CodeGenerator.visitStatements llvm pre g = Except.error x →
        CodeGenerator.generate llvm
            ⟨pre ++ [Statement.VariableDeclaration name initializer] ++ rest⟩ g =
          Except.error x)) ∧
    (∀ expression, CodeGenerator.generate llvm ⟨[Statement.ExpressionStatement expression]⟩ g =
      CodeGenerator.visitExpression llvm expression g) ∧
    (∀ value, CodeGenerator.generate llvm
        ⟨[Statement.ExpressionStatement (Expression.NumberLiteral value)]⟩ g =
      Except.ok
        { g with lastValue := some (LLVM.Value.ConstantInt 32 (value % 4294967296).toNat) }) := by
  refine ⟨fun pre name initializer rest hf => ⟨fun g1 h1 => ?_, fun x hx => ?_⟩,
    fun expression => ?_, fun value => ?_⟩
  · unfold CodeGenerator.generate
    exact CodeGenerator.visitStatements_fail h1
      (CodeGenerator.visitStatement_declaration_none llvm name initializer
        (CodeGenerator.visitStatements_topLevel llvm pre g g1 hf hg h1))
  · unfold CodeGenerator.generate
    dsimp only
    rw [List.append_assoc, CodeGenerator.visitStatements_append, hx]
  · unfold CodeGenerator.generate
    dsimp only
    rw [CodeGenerator.visitStatements, CodeGenerator.visitStatement]
    cases CodeGenerator.visitExpression llvm expression g with
    | error x => rfl
    | ok g1 =>
      dsimp only
      rw [CodeGenerator.visitStatements]
  · unfold CodeGenerator.generate
    dsimp only
    rw [CodeGenerator.visitStatements, CodeGenerator.visitStatement,
      CodeGenerator.visitExpression]
    dsimp only
    rw [CodeGenerator.visitStatements]

/-- An instance of `top_level_statements`: `1; var x = 1; function f() { }`
in a new generator. -/
theorem top_level_statements_witness :
    CodeGenerator.generate LLVM.exampleBackend
        ⟨[Statement.ExpressionStatement (Expression.NumberLiteral 1)] ++
          [Statement.VariableDeclaration "x" (some (Expression.NumberLiteral 1))] ++
          [Statement.FunctionDeclaration "f" [] []]⟩ CodeGenerator.new =
      Except.error (CodeGenFailure.undefinedBehaviour,
        { CodeGenerator.new with lastValue := some (LLVM.Value.ConstantInt 32 1) }) :=
  ((top_level_statements LLVM.exampleBackend CodeGenerator.new rfl).1
    [Statement.ExpressionStatement (Expression.NumberLiteral 1)] "x"
    (some (Expression.NumberLiteral 1)) [Statement.FunctionDeclaration "f" [] []] rfl).1 _
    (by decide!)

/-- C24 fails as stated: for `true && false`, lowered in the entry block of a
function, the builder folds the two constants, so that no `and` instruction
is emitted; the module is unchanged and the value is the constant `false`.
In the same way `!true` emits no instruction. -/
theorem constant_operands_fold :
    CodeGenerator.visitExpression LLVM.exampleBackend
        (Expression.BinaryOperation (Expression.BooleanLiteral true) "&&"
          (Expression.BooleanLiteral false))
        ⟨[⟨0, "f", [], [⟨1, "entry", []⟩]⟩], some 1, [], [("f", 0)], some 0, none, 2⟩ =
      Except.ok ⟨[⟨0, "f", [], [⟨1, "entry", []⟩]⟩], some 1, [], [("f", 0)], some 0,
        some (LLVM.Value.ConstantInt 1 0), 2⟩ ∧
    CodeGenerator.visitExpression LLVM.exampleBackend
        (Expression.UnaryOperation "!" (Expression.BooleanLiteral true))
        ⟨[⟨0, "f", [], [⟨1, "entry", []⟩]⟩], some 1, [], [("f", 0)], some 0, none, 2⟩ =
      Except.ok ⟨[⟨0, "f", [], [⟨1, "entry", []⟩]⟩], some 1, [], [("f", 0)], some 0,
        some (LLVM.Value.ConstantInt 1 0), 2⟩ := by
  decide!

/-- C24, as the code has it. Logical operators do not short-circuit. For a
binary operation whose operator is `&&` or `||`, the left operand is lowered,
then the right operand from the generator that the left one left, then the
builder is asked for one `and` or `or` of the two values: it inserts that
single instruction at the insertion point, unless its folder has a value for
the operands (as for two constants), in which case nothing is inserted and
that value is the result. A failure of an operand is the failure of the
operation. The lowering creates no basic block and no terminator, so both
operands are evaluated whenever the code is run. In the same way `!` lowers
its operand and asks for one `xor` of its value with all ones. -/
theorem logical_operators (llvm : LLVM.Backend) (left right : Expression) (g : CodeGenerator)
    (operator_ : String) (opcode : LLVM.BinaryOps) (name : String)
    (hop : (operator_ = "&&" ∧ opcode = LLVM.BinaryOps.And ∧ name = "andtmp") ∨
      (operator_ = "||" ∧ opcode = LLVM.BinaryOps.Or ∧ name = "ortmp")) :
    (∀ x, CodeGenerator.visitExpression llvm left g = Except.error x →
      CodeGenerator.visitExpression llvm (Expression.BinaryOperation left operator_ right) g =
        Except.error x) ∧
    (∀ g1 x, CodeGenerator.visitExpression llvm left g = Except.ok g1 →
      CodeGenerator.visitExpression llvm right g1 = Except.error x →
      CodeGenerator.visitExpression llvm (Expression.BinaryOperation left operator_ right) g =
        Except.error x) ∧
    (∀ g1 g2, CodeGenerator.visitExpression llvm left g = Except.ok g1 →
      CodeGenerator.visitExpression llvm right g1 = Except.ok g2 →
      ∃ l r, g1.lastValue = some l ∧ g2.lastValue = some r ∧
        (llvm.FoldBinOp opcode l r = none →
          CodeGenerator.visitExpression llvm
              (Expression.BinaryOperation left operator_ right) g =
            Except.ok
              { (g2.Insert (LLVM.Operation.BinaryOperator opcode l r) name).2 with
                lastValue := some (LLVM.Value.Instruction g2.nextId l.getType) }) ∧
        (∀ v, llvm.FoldBinOp opcode l r = some v →
          CodeGenerator.visitExpression llvm
              (Expression.BinaryOperation left operator_ right) g =
            Except.ok { g2 with lastValue := some v })) ∧
    LLVM.controlFlow (CodeGenerator.stateOf (CodeGenerator.visitExpression llvm
        (Expression.BinaryOperation left operator_ right) g)).module =
      LLVM.controlFlow g.module ∧
    (∀ x, CodeGenerator.visitExpression llvm left g = Except.error x →
      CodeGenerator.visitExpression llvm (Expression.UnaryOperation "!" left) g =
        Except.error x) ∧
    (∀ g1, CodeGenerator.visitExpression llvm left g = Except.ok g1 →
      ∃ v, g1.lastValue = some v ∧
        (llvm.FoldBinOp LLVM.BinaryOps.Xor v (CodeGenerator.getAllOnesValue v.getType) = none →
          CodeGenerator.visitExpression llvm (Expression.UnaryOperation "!" left) g =
            Except.ok
              { (g1.Insert (LLVM.Operation.BinaryOperator LLVM.BinaryOps.Xor v
                    (CodeGenerator.getAllOnesValue v.getType)) "nottmp").2 with
                lastValue := some (LLVM.Value.Instruction g1.nextId v.getType) }) ∧
        (∀ r, llvm.FoldBinOp LLVM.BinaryOps.Xor v (CodeGenerator.getAllOnesValue v.getType) =
            some r →
          CodeGenerator.visitExpression llvm (Expression.UnaryOperation "!" left) g =
            Except.ok { g1 with lastValue := some r })) ∧
    LLVM.controlFlow (CodeGenerator.stateOf (CodeGenerator.visitExpression llvm
        (Expression.UnaryOperation "!" left) g)).module = LLVM.controlFlow g.module := by
  refine ⟨fun x hl => CodeGenerator.visitExpression_binary_left hl,
    fun g1 x hl hr => CodeGenerator.visitExpression_binary_right hl hr,
    fun g1 g2 hl hr => ?_, CodeGenerator.visitExpression_controlFlow llvm _ g,
    fun x hl => CodeGenerator.visitExpression_unary_fail hl, fun g1 hl => ?_,
    CodeGenerator.visitExpression_controlFlow llvm _ g⟩
  · obtain ⟨l, hlv⟩ := CodeGenerator.visitExpression_lastValue hl
    obtain ⟨r, hrv⟩ := CodeGenerator.visitExpression_lastValue hr
    have hb : CodeGenerator.binaryInstruction llvm g2 operator_ l r =
        some (CodeGenerator.CreateBinOp llvm g2 opcode l r name) := by
      rcases hop with ⟨rfl, rfl, rfl⟩ | ⟨rfl, rfl, rfl⟩
      · exact CodeGenerator.binaryInstruction_and llvm g2 l r
      · exact CodeGenerator.binaryInstruction_or llvm g2 l r
    have hv := CodeGenerator.visitExpression_binary hl hr hlv hrv hb
    refine ⟨l, r, hlv, hrv, fun hf => ?_, fun v hf => ?_⟩
    · rw [hv, CodeGenerator.CreateBinOp_none hf]
    · rw [hv, CodeGenerator.CreateBinOp_some hf]
  · obtain ⟨v, hlv⟩ := CodeGenerator.visitExpression_lastValue hl
    have hv := CodeGenerator.visitExpression_unary hl hlv
      (CodeGenerator.unaryInstruction_not llvm g1 v)
    refine ⟨v, hlv, fun hf => ?_, fun r hf => ?_⟩
    · rw [hv]
      unfold CodeGenerator.CreateNot
      rw [CodeGenerator.CreateBinOp_none hf]
    · rw [hv]
      unfold CodeGenerator.CreateNot
      rw [CodeGenerator.CreateBinOp_some hf]

/-- An instance of `logical_operators`: `a && a` in a function with the
variable `a`; the example folder has no value for it, and the entry block
gets the two loads of `a` and one `and`. -/
theorem logical_operators_witness :
    CodeGenerator.visitExpression LLVM.exampleBackend
        (Expression.BinaryOperation (Expression.Variable "a") "&&" (Expression.Variable "a"))
        ⟨[⟨0, "f", [], [⟨1, "entry", []⟩]⟩], some 1, [("a", 2)], [("f", 0)], some 0, none, 3⟩ =
      Except.ok ⟨[⟨0, "f", [], [⟨1, "entry",
        [⟨3, "a", LLVM.Operation.Load (LLVM.IRType.IntegerTy 32)
            (LLVM.Value.Instruction 2 LLVM.IRType.PointerTy)⟩,
          ⟨4, "a", LLVM.Operation.Load (LLVM.IRType.IntegerTy 32)
            (LLVM.Value.Instruction 2 LLVM.IRType.PointerTy)⟩,
          ⟨5, "andtmp", LLVM.Operation.BinaryOperator LLVM.BinaryOps.And
            (LLVM.Value.Instruction 3 (LLVM.IRType.IntegerTy 32))
            (LLVM.Value.Instruction 4 (LLVM.IRType.IntegerTy 32))⟩]⟩]⟩],
        some 1, [("a", 2)], [("f", 0)], some 0,
        some (LLVM.Value.Instruction 5 (LLVM.IRType.IntegerTy 32)), 6⟩ ∧
    LLVM.controlFlow (CodeGenerator.stateOf (CodeGenerator.visitExpression LLVM.exampleBackend
        (Expression.BinaryOperation (Expression.Variable "a") "&&" (Expression.Variable "a"))
        ⟨[⟨0, "f", [], [⟨1, "entry", []⟩]⟩], some 1, [("a", 2)], [("f", 0)], some 0, none,
          3⟩)).module = LLVM.controlFlow [⟨0, "f", [], [⟨1, "entry", []⟩]⟩] :=
  ⟨by decide!,
    (logical_operators LLVM.exampleBackend (Expression.Variable "a") (Expression.Variable "a")
      ⟨[⟨0, "f", [], [⟨1, "entry", []⟩]⟩], some 1, [("a", 2)], [("f", 0)], some 0, none, 3⟩
      "&&" LLVM.BinaryOps.And "andtmp" (Or.inl ⟨rfl, rfl, rfl⟩)).2.2.2.1⟩
/-! ## Running a compiled program -/

namespace LLVM

/-- More fuel does not change the value that a run returns. -/
theorem Machine.run_more (module : List Function) (k : Nat) :
    ∀ (fuel : Nat) (m : Machine) (v : RuntimeValue),
      Machine.run module fuel m = Except.ok v → Machine.run module (fuel + k) m = Except.ok v
  | 0, m, v, h => by
    rw [Machine.run] at h
    exact Except.noConfusion h
  | fuel + 1, m, v, h => by
    rw [Machine.run] at h
    rw [Nat.add_right_comm, Machine.run]
    cases hs : m.step module with
    | error e => rw [hs] at h; exact Except.noConfusion h
    | ok r =>
      rw [hs] at h
      cases r with
      | inr w => exact h
      | inl m1 => exact Machine.run_more module k fuel m1 v h

end LLVM

namespace CodeGenerator

/-- More fuel does not change the number that `executeJIT` returns. -/
theorem executeJIT_more (llvm : LLVM.Backend) (g : CodeGenerator) (fuel k : Nat) (n : Int)
    (h : executeJIT llvm fuel g = Except.ok n) : executeJIT llvm (fuel + k) g = Except.ok n := by
  unfold executeJIT at h ⊢
  split at h
  · exact Except.noConfusion h
  · next hv =>
    rw [if_neg hv]
    split at h
    · exact Except.noConfusion h
    · next mainFunction hm =>
      unfold LLVM.runFunction at h ⊢
      cases hb : mainFunction.blocks with
      | nil =>
        rw [hb] at h
        exact Except.noConfusion h
      | cons entry rest =>
        rw [hb] at h
        dsimp only at h ⊢
        cases hr : LLVM.Machine.run g.module fuel
            ⟨⟨[], [], [], entry.instructions⟩, []⟩ with
        | error e => rw [hr] at h; exact Except.noConfusion h
        | ok v =>
          rw [hr] at h
          rw [LLVM.Machine.run_more g.module k fuel _ v hr]
          exact h

end CodeGenerator

/-- C27. End-to-end execution. The source
`function main() { var n = 10; var s = 0; while (n > 0) { s = s + n; n = n - 1; } return s; }`
goes through the lexer, the parser and the generator without a failure, and
`executeJIT` on the module returns 55, whenever the run has fuel for 130
steps. -/
theorem end_to_end_execution (fuel : Nat) (h : 130 ≤ fuel) :
    (compileSource LLVM.exampleBackend
        "function main() { var n = 10; var s = 0; while (n > 0) { s = s + n; n = n - 1; } return s; }").map
        CodeGenerator.failureOf = some none ∧
      (compileSource LLVM.exampleBackend
        "function main() { var n = 10; var s = 0; while (n > 0) { s = s + n; n = n - 1; } return s; }").map
        (fun r => CodeGenerator.executeJIT LLVM.exampleBackend fuel (CodeGenerator.stateOf r)) =
        some (Except.ok 55) := by
  have hc : compileSource LLVM.exampleBackend
      "function main() { var n = 10; var s = 0; while (n > 0) { s = s + n; n = n - 1; } return s; }" =
      some (CodeGenerator.generate LLVM.exampleBackend
        ⟨[Statement.FunctionDeclaration "main" []
          [Statement.VariableDeclaration "n" (some (Expression.NumberLiteral 10)),
            Statement.VariableDeclaration "s" (some (Expression.NumberLiteral 0)),
            Statement.WhileStatement
              (Expression.BinaryOperation (Expression.Variable "n") ">"
                (Expression.NumberLiteral 0))
              (Statement.Block
                [Statement.Assignment "s"
                  (Expression.BinaryOperation (Expression.Variable "s") "+"
                    (Expression.Variable "n")),
                  Statement.Assignment "n"
                    (Expression.BinaryOperation (Expression.Variable "n") "-"
                      (Expression.NumberLiteral 1))]),
            Statement.ReturnStatement (some (Expression.Variable "s"))]]⟩
        CodeGenerator.new) := by
    decide!
  rw [hc]
  refine ⟨by decide!, ?_⟩
  obtain ⟨k, rfl⟩ := Nat.exists_eq_add_of_le h
  rw [Option.map_some']
  congr 1
  exact CodeGenerator.executeJIT_more _ _ 130 k 55 (by decide!)

/-- An instance of `end_to_end_execution`: a run with fuel for 1000 steps. -/
theorem end_to_end_execution_witness :
    (compileSource LLVM.exampleBackend
        "function main() { var n = 10; var s = 0; while (n > 0) { s = s + n; n = n - 1; } return s; }").map
        (fun r => CodeGenerator.executeJIT LLVM.exampleBackend 1000 (CodeGenerator.stateOf r)) =
      some (Except.ok 55) :=
  (end_to_end_execution 1000 (by decide)).2
/-! ## `if` statements -/

/-- C28. If lowering and its terminator guard. When an `if` statement is
lowered, the condition is lowered and converted, and the function that holds
the insertion block gets the new blocks `then`, `else` (only with an else
branch) and `ifcont` at its end; a conditional branch is inserted at the
insertion point, to `then` if the condition holds and otherwise to `else`, or
to `ifcont` when there is no else branch. The then branch is lowered with the
insertion point in `then`; after it an unconditional branch to `ifcont` is
inserted if and only if the block that then holds the insertion point has no
terminator. The else branch, if there is one, is lowered in the same way with
the insertion point in `else`. The insertion point is left in `ifcont`. -/
theorem if_lowering (llvm : LLVM.Backend) (condition : Expression) (thenBranch : Statement)
    (g : CodeGenerator) :
    (∀ g', CodeGenerator.visitStatement llvm
        (Statement.IfStatement condition thenBranch none) g = Except.ok g' →
      ∃ g1 v function conditionValue g2 g4 g5,
        CodeGenerator.visitExpression llvm condition g = Except.ok g1 ∧
        g1.lastValue = some v ∧
        CodeGenerator.toCondition llvm g1 v "ifcond" = (conditionValue, g2) ∧
        g2.insertFunction = Except.ok function ∧
        CodeGenerator.visitStatement llvm thenBranch
          { (CodeGenerator.Insert
              { g2 with
                module := LLVM.appendBlock
                  (LLVM.appendBlock g2.module function ⟨g2.nextId, "then", []⟩) function
                  ⟨g2.nextId + 1, "ifcont", []⟩
                nextId := g2.nextId + 2 }
              (LLVM.Operation.CondBr conditionValue g2.nextId (g2.nextId + 1)) "").2 with
            insertBlock := some g2.nextId } = Except.ok g4 ∧
        CodeGenerator.InsertedUnlessTerminated g4 (LLVM.Operation.Br (g2.nextId + 1)) g5 ∧
        g' = { g5 with insertBlock := some (g2.nextId + 1), lastValue := none }) ∧
    (∀ elseBranch g', CodeGenerator.visitStatement llvm
        (Statement.IfStatement condition thenBranch (some elseBranch)) g = Except.ok g' →
      ∃ g1 v function conditionValue g2 g4 g5 g6 g7,
        CodeGenerator.visitExpression llvm condition g = Except.ok g1 ∧
        g1.lastValue = some v ∧
        CodeGenerator.toCondition llvm g1 v "ifcond" = (conditionValue, g2) ∧
        g2.insertFunction = Except.ok function ∧
        CodeGenerator.visitStatement llvm thenBranch
          { (CodeGenerator.Insert
              { g2 with
                module := LLVM.appendBlock
                  (LLVM.appendBlock
                    (LLVM.appendBlock g2.module function ⟨g2.nextId, "then", []⟩) function
                    ⟨g2.nextId + 1, "else", []⟩) function
                  ⟨g2.nextId + 2, "ifcont", []⟩
                nextId := g2.nextId + 3 }
              (LLVM.Operation.CondBr conditionValue g2.nextId (g2.nextId + 1)) "").2 with
            insertBlock := some g2.nextId } = Except.ok g4 ∧
        CodeGenerator.InsertedUnlessTerminated g4 (LLVM.Operation.Br (g2.nextId + 2)) g5 ∧
        CodeGenerator.visitStatement llvm elseBranch
          { g5 with insertBlock := some (g2.nextId + 1) } = Except.ok g6 ∧
        CodeGenerator.InsertedUnlessTerminated g6 (LLVM.Operation.Br (g2.nextId + 2)) g7 ∧
        g' = { g7 with insertBlock := some (g2.nextId + 2), lastValue := none }) := by
  constructor
  · intro g' h
    obtain ⟨g1, v, function, g4, g5, g6, h1, h2, h3, h4, h5, h6, h7⟩ :=
      CodeGenerator.visitStatement_if_ok h
    rw [CodeGenerator.visitElse] at h6
    injection h6 with h6
    subst h6
    exact ⟨g1, v, function, _, _, g4, g5, h1, h2, rfl, h3, h4,
      CodeGenerator.branchUnlessTerminated_inserted h5, h7⟩
  · intro elseBranch g' h
    obtain ⟨g1, v, function, g4, g5, g6, h1, h2, h3, h4, h5, h6, h7⟩ :=
      CodeGenerator.visitStatement_if_ok h
    rw [CodeGenerator.visitElse] at h6
    cases hs : CodeGenerator.visitStatement llvm elseBranch
        { g5 with insertBlock :=
          (CodeGenerator.ifBlocks (CodeGenerator.toCondition llvm g1 v "ifcond").2
            (CodeGenerator.toCondition llvm g1 v "ifcond").1 function
            (some elseBranch).isSome).2.1 } with
    | error x => rw [hs] at h6; exact Except.noConfusion h6
    | ok g7 =>
      rw [hs] at h6
      exact ⟨g1, v, function, _, _, g4, g5, g7, g6, h1, h2, rfl, h3, h4,
        CodeGenerator.branchUnlessTerminated_inserted h5, hs,
        CodeGenerator.branchUnlessTerminated_inserted h6, h7⟩

/-- An instance of `if_lowering`: `if (a) return 1; else { }` in the entry
block of a function with the argument `a`. The then block ends with the
`ret` and gets no branch; the else block gets the branch to `ifcont`. -/
theorem if_lowering_witness :
    CodeGenerator.visitStatement LLVM.exampleBackend
        (Statement.IfStatement (Expression.Variable "a")
          (Statement.ReturnStatement (some (Expression.NumberLiteral 1)))
          (some (Statement.Block [])))
        ⟨[⟨0, "f", ["a"], [⟨1, "entry",
          [⟨2, "a", LLVM.Operation.Alloca (LLVM.IRType.IntegerTy 32)⟩,
            ⟨3, "", LLVM.Operation.Store (LLVM.Value.Argument 0 0)
              (LLVM.Value.Instruction 2 LLVM.IRType.PointerTy)⟩]⟩]⟩],
          some 1, [("a", 2)], [("f", 0)], some 0, none, 4⟩ =
      Except.ok ⟨[⟨0, "f", ["a"], [⟨1, "entry",
          [⟨2, "a", LLVM.Operation.Alloca (LLVM.IRType.IntegerTy 32)⟩,
            ⟨3, "", LLVM.Operation.Store (LLVM.Value.Argument 0 0)
              (LLVM.Value.Instruction 2 LLVM.IRType.PointerTy)⟩,
            ⟨4, "a", LLVM.Operation.Load (LLVM.IRType.IntegerTy 32)
              (LLVM.Value.Instruction 2 LLVM.IRType.PointerTy)⟩,
            ⟨5, "ifcond", LLVM.Operation.ICmp LLVM.Predicate.ICMP_NE
              (LLVM.Value.Instruction 4 (LLVM.IRType.IntegerTy 32)) (LLVM.Value.ConstantInt 32 0)⟩,
            ⟨9, "", LLVM.Operation.CondBr (LLVM.Value.Instruction 5 (LLVM.IRType.IntegerTy 1))
              6 7⟩]⟩,
          ⟨6, "then", [⟨10, "", LLVM.Operation.Ret (LLVM.Value.ConstantInt 32 1)⟩]⟩,
          ⟨7, "else", [⟨11, "", LLVM.Operation.Br 8⟩]⟩,
          ⟨8, "ifcont", []⟩]⟩],
        some 8, [("a", 2)], [("f", 0)], some 0, none, 12⟩ ∧
    ∃ g2 g7 : CodeGenerator,
      (⟨[⟨0, "f", ["a"], [⟨1, "entry",
          [⟨2, "a", LLVM.Operation.Alloca (LLVM.IRType.IntegerTy 32)⟩,
            ⟨3, "", LLVM.Operation.Store (LLVM.Value.Argument 0 0)
              (LLVM.Value.Instruction 2 LLVM.IRType.PointerTy)⟩,
            ⟨4, "a", LLVM.Operation.Load (LLVM.IRType.IntegerTy 32)
              (LLVM.Value.Instruction 2 LLVM.IRType.PointerTy)⟩,
            ⟨5, "ifcond", LLVM.Operation.ICmp LLVM.Predicate.ICMP_NE
              (LLVM.Value.Instruction 4 (LLVM.IRType.IntegerTy 32)) (LLVM.Value.ConstantInt 32 0)⟩,
            ⟨9, "", LLVM.Operation.CondBr (LLVM.Value.Instruction 5 (LLVM.IRType.IntegerTy 1))
              6 7⟩]⟩,
          ⟨6, "then", [⟨10, "", LLVM.Operation.Ret (LLVM.Value.ConstantInt 32 1)⟩]⟩,
          ⟨7, "else", [⟨11, "", LLVM.Operation.Br 8⟩]⟩,
          ⟨8, "ifcont", []⟩]⟩],
        some 8, [("a", 2)], [("f", 0)], some 0, none, 12⟩ : CodeGenerator) =
        { g7 with insertBlock := some (g2.nextId + 2), lastValue := none } :=
  ⟨by decide!,
    let ⟨_, _, _, _, g2, _, _, _, g7, _, _, _, _, _, _, _, _, h⟩ :=
      (if_lowering LLVM.exampleBackend (Expression.Variable "a")
        (Statement.ReturnStatement (some (Expression.NumberLiteral 1)))
        ⟨[⟨0, "f", ["a"], [⟨1, "entry",
          [⟨2, "a", LLVM.Operation.Alloca (LLVM.IRType.IntegerTy 32)⟩,
            ⟨3, "", LLVM.Operation.Store (LLVM.Value.Argument 0 0)
              (LLVM.Value.Instruction 2 LLVM.IRType.PointerTy)⟩]⟩]⟩],
          some 1, [("a", 2)], [("f", 0)], some 0, none, 4⟩).2 (Statement.Block []) _
        (by decide!)
    ⟨g2, g7, h⟩⟩

/-- C29. Implicit return. When a function declaration is lowered, then after
its body `ret i32 0` is inserted at the insertion point if and only if the
block that holds the insertion point has no terminator; nothing else is
inserted after the body. In particular a function without statements, when
the identities in the generator are fresh and the verifier accepts the
function, lowers to a function with one block `entry`, which holds the
allocas of the arguments, the stores of the arguments and then `ret i32 0`.
A `return` without a value lowers to `ret i32 0`. -/
theorem implicit_return (llvm : LLVM.Backend) (name : String) (parameters : List String)
    (g : CodeGenerator) :
    (∀ body g', CodeGenerator.visitStatement llvm
        (Statement.FunctionDeclaration name parameters body) g = Except.ok g' →
      ∃ function g1 g2 g3,
        CodeGenerator.enterFunction g name parameters = Except.ok (function, g1) ∧
        CodeGenerator.visitStatements llvm body g1 = Except.ok g2 ∧
        CodeGenerator.InsertedUnlessTerminated g2
          (LLVM.Operation.Ret (LLVM.Value.ConstantInt 32 0)) g3 ∧
        g' = { g3 with
          namedValues := g.namedValues
          currentFunction := g.currentFunction
          lastValue := none }) ∧
    (CodeGenerator.FreshBlocks g →
      llvm.verifyFunction
        (g.module ++ [⟨g.nextId, name, LLVM.argumentNames parameters,
          [⟨g.nextId + 1, "entry",
            (CodeGenerator.parameterSlots g.nextId (LLVM.argumentNames parameters) 0).reverse ++
              CodeGenerator.parameterStores g.nextId (LLVM.argumentNames parameters) 0 ++
              [⟨g.nextId + 2 + 2 * parameters.length, "",
                LLVM.Operation.Ret (LLVM.Value.ConstantInt 32 0)⟩]⟩]⟩])
        ⟨g.nextId, name, LLVM.argumentNames parameters,
          [⟨g.nextId + 1, "entry",
            (CodeGenerator.parameterSlots g.nextId (LLVM.argumentNames parameters) 0).reverse ++
              CodeGenerator.parameterStores g.nextId (LLVM.argumentNames parameters) 0 ++
              [⟨g.nextId + 2 + 2 * parameters.length, "",
                LLVM.Operation.Ret (LLVM.Value.ConstantInt 32 0)⟩]⟩]⟩ = false →
      CodeGenerator.visitStatement llvm (Statement.FunctionDeclaration name parameters []) g =
        Except.ok
          ⟨g.module ++ [⟨g.nextId, name, LLVM.argumentNames parameters,
            [⟨g.nextId + 1, "entry",
              (CodeGenerator.parameterSlots g.nextId (LLVM.argumentNames parameters) 0).reverse ++
                CodeGenerator.parameterStores g.nextId (LLVM.argumentNames parameters) 0 ++
                [⟨g.nextId + 2 + 2 * parameters.length, "",
                  LLVM.Operation.Ret (LLVM.Value.ConstantInt 32 0)⟩]⟩]⟩],
            some (g.nextId + 1), g.namedValues,
            CodeGenerator.assign g.functions name g.nextId, g.currentFunction, none,
            g.nextId + 3 + 2 * parameters.length⟩) ∧
    CodeGenerator.visitStatement llvm (Statement.ReturnStatement none) g =
      Except.ok (g.Insert (LLVM.Operation.Ret (LLVM.Value.ConstantInt 32 0)) "").2 := by
  refine ⟨fun body g' h => ?_, fun hg hv => ?_, ?_⟩
  · obtain ⟨function, g1, g2, g3, h1, h2, h3, -, h5⟩ :=
      CodeGenerator.visitStatement_function_ok h
    exact ⟨function, g1, g2, g3, h1, h2, CodeGenerator.implicitReturn_inserted h3, h5⟩
  · exact CodeGenerator.visitStatement_function_empty llvm name parameters g hg hv
  · rw [CodeGenerator.visitStatement]
    rfl

/-- An instance of `implicit_return`: `function f(a, b) { }` in a new
generator. -/
theorem implicit_return_witness :
    CodeGenerator.visitStatement LLVM.exampleBackend
        (Statement.FunctionDeclaration "f" ["a", "b"] []) CodeGenerator.new =
      Except.ok
        ⟨[⟨0, "f", ["a", "b"], [⟨1, "entry",
          [⟨4, "b", LLVM.Operation.Alloca (LLVM.IRType.IntegerTy 32)⟩,
            ⟨2, "a", LLVM.Operation.Alloca (LLVM.IRType.IntegerTy 32)⟩,
            ⟨3, "", LLVM.Operation.Store (LLVM.Value.Argument 0 0)
              (LLVM.Value.Instruction 2 LLVM.IRType.PointerTy)⟩,
            ⟨5, "", LLVM.Operation.Store (LLVM.Value.Argument 0 1)
              (LLVM.Value.Instruction 4 LLVM.IRType.PointerTy)⟩,
            ⟨6, "", LLVM.Operation.Ret (LLVM.Value.ConstantInt 32 0)⟩]⟩]⟩],
          some 1, [], [("f", 0)], none, none, 7⟩ :=
  (implicit_return LLVM.exampleBackend "f" ["a", "b"] CodeGenerator.new).2.1
    CodeGenerator.freshBlocks_new (by decide!)
/-! ## The conversion of a condition -/

/-- C30 fails as stated: for `if (1) { }` in the entry block of a function the
value of the condition is the `i32` constant 1, and no `icmp ne` is emitted:
the builder folds the comparison of two constants, and the constant `true` is
the condition of the branch. -/
theorem constant_condition_folds :
    CodeGenerator.toCondition LLVM.exampleBackend
        ⟨[⟨0, "f", [], [⟨1, "entry", []⟩]⟩], some 1, [], [("f", 0)], some 0,
          some (LLVM.Value.ConstantInt 32 1), 2⟩ (LLVM.Value.ConstantInt 32 1) "ifcond" =
      (LLVM.Value.ConstantInt 1 1,
        ⟨[⟨0, "f", [], [⟨1, "entry", []⟩]⟩], some 1, [], [("f", 0)], some 0,
          some (LLVM.Value.ConstantInt 32 1), 2⟩) ∧
    CodeGenerator.visitStatement LLVM.exampleBackend
        (Statement.IfStatement (Expression.NumberLiteral 1) (Statement.Block []) none)
        ⟨[⟨0, "f", [], [⟨1, "entry", []⟩]⟩], some 1, [], [("f", 0)], some 0, none, 2⟩ =
      Except.ok ⟨[⟨0, "f", [], [
          ⟨1, "entry", [⟨4, "", LLVM.Operation.CondBr (LLVM.Value.ConstantInt 1 1) 2 3⟩]⟩,
          ⟨2, "then", [⟨5, "", LLVM.Operation.Br 3⟩]⟩,
          ⟨3, "ifcont", []⟩]⟩],
        some 3, [], [("f", 0)], some 0, none, 6⟩ := by
  decide!

/-- C30, as the code has it. Condition coercion. A condition value of type
`i1` is used unchanged. For a value of any other type the builder is asked
for `icmp ne <value>, i32 0`: it inserts that single instruction at the
insertion point and its `i1` result is the condition, unless its folder has
a value for the comparison (as for a constant condition), in which case
nothing is inserted and that value is the condition. In an `if` statement and
in a `while` statement the value so obtained from the value of the lowered
condition is the condition of the conditional branch, which is the next
instruction inserted; no other conversion is emitted. -/
theorem condition_coercion (llvm : LLVM.Backend) (g : CodeGenerator) (v : LLVM.Value)
    (name : String) :
    (v.getType = LLVM.IRType.IntegerTy 1 → CodeGenerator.toCondition llvm g v name = (v, g)) ∧
    (v.getType ≠ LLVM.IRType.IntegerTy 1 →
      llvm.FoldICmp LLVM.Predicate.ICMP_NE v CodeGenerator.zero32 = none →
      CodeGenerator.toCondition llvm g v name =
        (LLVM.Value.Instruction g.nextId (LLVM.IRType.IntegerTy 1),
          (g.Insert (LLVM.Operation.ICmp LLVM.Predicate.ICMP_NE v CodeGenerator.zero32)
            name).2)) ∧
    (v.getType ≠ LLVM.IRType.IntegerTy 1 → ∀ c,
      llvm.FoldICmp LLVM.Predicate.ICMP_NE v CodeGenerator.zero32 = some c →
      CodeGenerator.toCondition llvm g v name = (c, g)) ∧
    (∀ condition thenBranch elseBranch g',
      CodeGenerator.visitStatement llvm
        (Statement.IfStatement condition thenBranch elseBranch) g = Except.ok g' →
      ∃ g1 value blocks next g4,
        CodeGenerator.visitExpression llvm condition g = Except.ok g1 ∧
        g1.lastValue = some value ∧
        CodeGenerator.visitStatement llvm thenBranch
          { (CodeGenerator.Insert
              { (CodeGenerator.toCondition llvm g1 value "ifcond").2 with
                module := blocks
                nextId := next }
              (LLVM.Operation.CondBr (CodeGenerator.toCondition llvm g1 value "ifcond").1
                (CodeGenerator.toCondition llvm g1 value "ifcond").2.nextId
                ((CodeGenerator.toCondition llvm g1 value "ifcond").2.nextId + 1)) "").2 with
            insertBlock := some (CodeGenerator.toCondition llvm g1 value "ifcond").2.nextId } =
          Except.ok g4) ∧
    (∀ condition body g',
      CodeGenerator.visitStatement llvm (Statement.WhileStatement condition body) g =
        Except.ok g' →
      ∃ function g2 value g4,
        g.insertFunction = Except.ok function ∧
        CodeGenerator.visitExpression llvm condition (g.whileBlocks function).2.2.2 =
          Except.ok g2 ∧
        g2.lastValue = some value ∧
        CodeGenerator.visitStatement llvm body
          { ((CodeGenerator.toCondition llvm g2 value "whilecond").2.Insert
              (LLVM.Operation.CondBr (CodeGenerator.toCondition llvm g2 value "whilecond").1
                (g.nextId + 1) (g.nextId + 2)) "").2 with
            insertBlock := some (g.nextId + 1) } = Except.ok g4) := by
  refine ⟨fun h => ?_, fun h hf => ?_, fun h c hf => ?_, ?_, ?_⟩
  · unfold CodeGenerator.toCondition
    rw [if_neg (not_not.mpr h)]
  · unfold CodeGenerator.toCondition
    rw [if_pos h, CodeGenerator.CreateICmp_none hf]
  · unfold CodeGenerator.toCondition
    rw [if_pos h, CodeGenerator.CreateICmp_some hf]
  · intro condition thenBranch elseBranch g' h
    obtain ⟨g1, value, function, g4, g5, g6, h1, h2, h3, h4, h5, h6, h7⟩ :=
      CodeGenerator.visitStatement_if_ok h
    cases elseBranch with
    | none => exact ⟨g1, value, _, _, g4, h1, h2, h4⟩
    | some s => exact ⟨g1, value, _, _, g4, h1, h2, h4⟩
  · intro condition body g' h
    obtain ⟨function, g2, value, g4, g5, h1, h2, h3, h4, h5, h6⟩ :=
      CodeGenerator.visitStatement_while_ok h
    exact ⟨function, g2, value, g4, h1, h2, h3, h4⟩

/-- An instance of `condition_coercion`: the value of the variable `a`, an
`i32` that the example folder does not fold, gets one `icmp ne` with 0. -/
theorem condition_coercion_witness :
    CodeGenerator.toCondition LLVM.exampleBackend
        ⟨[⟨0, "f", [], [⟨1, "entry", []⟩]⟩], some 1, [], [("f", 0)], some 0, none, 5⟩
        (LLVM.Value.Instruction 4 (LLVM.IRType.IntegerTy 32)) "ifcond" =
      (LLVM.Value.Instruction 5 (LLVM.IRType.IntegerTy 1),
        (CodeGenerator.Insert
          ⟨[⟨0, "f", [], [⟨1, "entry", []⟩]⟩], some 1, [], [("f", 0)], some 0, none, 5⟩
          (LLVM.Operation.ICmp LLVM.Predicate.ICMP_NE
            (LLVM.Value.Instruction 4 (LLVM.IRType.IntegerTy 32)) CodeGenerator.zero32)
          "ifcond").2) :=
  (condition_coercion LLVM.exampleBackend
    ⟨[⟨0, "f", [], [⟨1, "entry", []⟩]⟩], some 1, [], [("f", 0)], some 0, none, 5⟩
    (LLVM.Value.Instruction 4 (LLVM.IRType.IntegerTy 32)) "ifcond").2.1 (by decide) rfl
/-! ## Termination of the parser -/

namespace Parser

/-- An iteration of an operator loop whose operand rule consumes a token
leaves the cursor beyond the operator. -/
theorem binaryLoop_iteration (tokens : List Token)
    (sub : Nat → List Token → Nat → Result Expression) (ops : List TokenType)
    (hsub : ∀ n c r, sub n tokens c = Except.ok r → c < r.2) :
    OperatorLoopAdvances tokens sub ops (binaryLoop sub ops) := by
  intro n expr c c1 right hm hs
  obtain ⟨t, ht, hmem, hc1, hp⟩ := previous_after_match hm
  have := hsub _ _ _ hs
  refine ⟨by omega, t, hp, ?_⟩
  rw [binaryLoop, hm]
  dsimp only
  rw [hp]
  dsimp only
  rw [hs]

theorem operatorLoopAdvances_congr {tokens : List Token}
    {sub : Nat → List Token → Nat → Result Expression} {ops : List TokenType}
    {loop : Nat → List Token → Expression → Nat → Result Expression}
    (heq : ∀ n e c, loop n tokens e c = binaryLoop sub ops n tokens e c)
    (h : OperatorLoopAdvances tokens sub ops (binaryLoop sub ops)) :
    OperatorLoopAdvances tokens sub ops loop := by
  intro n expr c c1 right hm hs
  obtain ⟨h1, op, h2, h3⟩ := h n expr c c1 right hm hs
  exact ⟨h1, op, h2, by rw [heq, heq, h3]⟩

/-- Every iteration of a loop of the parser advances the cursor unless it fails. -/
theorem loopsAdvance (tokens : List Token) : LoopsAdvance tokens where
  parse := fun n statements c r he hs => by
    refine ⟨statement_progress tokens _ _ _ hs, ?_⟩
    rw [parseLoop, he]
    dsimp only
    rw [hs]
  recovery := fun n c t he hp hs => by
    have ht := peek_ok hp
    obtain ⟨t', ht', hd⟩ := isAtEnd_ok he
    rw [ht] at ht'
    injection ht' with ht'
    subst ht'
    have hne : t.type ≠ TokenType.END_OF_FILE := by simpa using hd.symm
    refine ⟨advance_step ht hne, ?_⟩
    rw [recoverLoop, he]
    dsimp only
    rw [hp]
    dsimp only
    rw [if_pos hs, advance_step ht hne]
  block := fun n statements c r hc he hs => by
    refine ⟨statement_progress tokens _ _ _ hs, ?_⟩
    rw [blockLoop, hc]
    dsimp only
    rw [he]
    dsimp only
    rw [hs]
  logicalOr := operatorLoopAdvances_congr (fun n e c => logicalOrLoop_eq n tokens e c)
    (binaryLoop_iteration tokens _ _ (logicalAnd_progress tokens))
  logicalAnd := operatorLoopAdvances_congr (fun n e c => logicalAndLoop_eq n tokens e c)
    (binaryLoop_iteration tokens _ _ (equality_progress tokens))
  equality := operatorLoopAdvances_congr (fun n e c => equalityLoop_eq n tokens e c)
    (binaryLoop_iteration tokens _ _ (comparison_progress tokens))
  comparison := operatorLoopAdvances_congr (fun n e c => comparisonLoop_eq n tokens e c)
    (binaryLoop_iteration tokens _ _ (term_progress tokens))
  term := operatorLoopAdvances_congr (fun n e c => termLoop_eq n tokens e c)
    (binaryLoop_iteration tokens _ _ (factor_progress tokens))
  factor := operatorLoopAdvances_congr (fun n e c => factorLoop_eq n tokens e c)
    (binaryLoop_iteration tokens _ _ (unary_progress tokens))
  call := fun n function_name c c1 closing arguments r hm hc ha hr => by
    have h1 := (match__true hm).1
    have h2 : c1 ≤ arguments.2 := by
      cases closing with
      | false =>
        simp only [Bool.not_false, if_true] at ha
        exact (exprAdvances (stepwise_le tokens) n).callArguments _ _ _ ha
      | true =>
        simp only [Bool.not_true, Bool.false_eq_true, if_false] at ha
        injection ha with ha
        rw [← ha]
    have h3 := (consume_ok hr).2.2.2
    refine ⟨by omega, ?_⟩
    rw [callLoop, hm]
    dsimp only
    rw [hc]
    dsimp only
    rw [ha]
    dsimp only
    rw [hr]
  arguments := fun n arguments c r again c2 he hm => by
    have h1 := expression_progress tokens _ _ _ he
    have h2 : r.2 ≤ c2 := match__advances (stepwise_le tokens) (by decide) hm
    refine ⟨by omega, ?_⟩
    rw [callArguments, he]
    dsimp only
    rw [hm]
    cases again <;> rfl
  parameters := fun n parameters c param again c2 hp hm => by
    have h1 := (consume_ok hp).2.2.2
    have h2 : param.2 ≤ c2 := match__advances (stepwise_le tokens) (by decide) hm
    refine ⟨by omega, ?_⟩
    rw [parameterLoop, hp]
    dsimp only
    rw [hm]
    cases again <;> rfl

/-- At an identifier, `statement` looks one token ahead and then runs
`assignment` or `expressionStatement` from the cursor it was entered with. -/
theorem statement_backtrack {tokens : List Token} {c : Nat} {t : Token} (n : Nat)
    (ht : tokens[c]? = some t) (hty : t.type = TokenType.IDENTIFIER) :
    (check tokens (c + 1) TokenType.ASSIGN = Except.ok true →
      statement (n + 1) tokens c = assignment n tokens c) ∧
    (check tokens (c + 1) TokenType.ASSIGN = Except.ok false →
      statement (n + 1) tokens c = expressionStatement n tokens c) := by
  have hne : t.type ≠ TokenType.END_OF_FILE := by rw [hty]; decide
  have hs : ∀ b, check tokens (c + 1) TokenType.ASSIGN = Except.ok b →
      statement (n + 1) tokens c =
        if b then assignment n tokens c else expressionStatement n tokens c := by
    intro b hb
    rw [statement]
    cases b <;> simp [match__eq ht hne, hty, check_eq ht, advance_step ht hne, hb]
  exact ⟨fun h => by rw [hs true h]; rfl, fun h => by rw [hs false h]; rfl⟩

/-- Any fuel from `parseFuel` on gives the result of `parse`. -/
theorem parseLoop_more_fuel {tokens : List Token} (hT : Terminated tokens) (k : Nat) :
    finish (parseLoop (parseFuel tokens + k) tokens [] 0) = parse tokens := by
  rw [parseLoop_finish hT _ _ _ hT.pos, parse_eq_statementsLoop hT]
  have hl := statementsLoop_local (agree_refl tokens tokens.length) (parseFuel tokens) [] 0
    (parseFuel tokens + k) (Nat.le_add_right _ _) (statementsLoop_parseFuel tokens)
  have hb := (statementsLoop_traced (traced_bounds hT) (parseFuel tokens) [] 0 hT.pos).1
  rw [hl.2 (Nat.le_of_lt hb)]

end Parser

/-- C31. Parser termination. On a non-empty token vector whose last token is
`END_OF_FILE`, `parse` returns a program or fails with a failure of the code
(the recursion budget it runs on is not used up, any larger budget gives the
same result, and no read leaves the vector); every iteration of the statement
loops of `parse` and `block`, of the skip loop of the `catch` block, of the
operator loops, of the loop of `call` and of the argument and parameter loops
leaves the cursor beyond the one it was entered with unless it fails; and at an
identifier, after the look-ahead of one token, `statement` runs `assignment`
or `expressionStatement` from the very cursor it was entered with, a cursor
that no outcome of `statement` lies before. -/
theorem parse_terminates (tokens : List Token) (hT : Parser.Terminated tokens) :
    ((∃ program, Parser.parse tokens = Except.ok program) ∨
      ∃ e, Parser.parse tokens = Except.error e ∧ e ≠ Failure.outOfFuel ∧
        e ≠ Failure.outOfBounds) ∧
    (∀ k, Parser.finish (Parser.parseLoop (Parser.parseFuel tokens + k) tokens [] 0) =
      Parser.parse tokens) ∧
    Parser.LoopsAdvance tokens ∧
    (∀ n c t, tokens[c]? = some t → t.type = TokenType.IDENTIFIER →
      (Parser.check tokens (c + 1) TokenType.ASSIGN = Except.ok true →
        Parser.statement (n + 1) tokens c = Parser.assignment n tokens c) ∧
      (Parser.check tokens (c + 1) TokenType.ASSIGN = Except.ok false →
        Parser.statement (n + 1) tokens c = Parser.expressionStatement n tokens c)) ∧
    (∀ n c, c ≤ Parser.cursorOf (Parser.outcome (Parser.statement n tokens c))) := by
  refine ⟨?_, Parser.parseLoop_more_fuel hT, Parser.loopsAdvance tokens,
    fun n c t ht hty => Parser.statement_backtrack n ht hty,
    fun n c => (Parser.stmtTraced (Parser.traced_le tokens) n).statement c⟩
  cases h : Parser.parse tokens with
  | ok program => exact Or.inl ⟨program, rfl⟩
  | error e =>
    refine Or.inr ⟨e, rfl, ?_, ?_⟩
    · rintro rfl
      exact Parser.parse_ne_outOfFuel tokens h
    · rintro rfl
      rw [Parser.parse_eq_statementsLoop hT] at h
      have hb := (Parser.statementsLoop_traced (Parser.traced_bounds hT)
        (Parser.parseFuel tokens) [] 0 hT.pos).2
      generalize Parser.statementsLoop (Parser.parseFuel tokens) tokens [] 0 = r at h hb
      cases r with
      | ok v => exact Except.noConfusion h
      | error x =>
        obtain ⟨e, c⟩ := x
        injection h with h
        have h : e = Failure.outOfBounds := h
        subst h
        exact hb c rfl

theorem parse_terminates_witness :
    Parser.Terminated [⟨TokenType.IDENTIFIER, "x", 1, 1⟩, ⟨TokenType.SEMICOLON, ";", 1, 2⟩,
      ⟨TokenType.END_OF_FILE, "", 1, 3⟩] ∧
    ∀ k, Parser.finish (Parser.parseLoop (Parser.parseFuel
        [⟨TokenType.IDENTIFIER, "x", 1, 1⟩, ⟨TokenType.SEMICOLON, ";", 1, 2⟩,
          ⟨TokenType.END_OF_FILE, "", 1, 3⟩] + k)
        [⟨TokenType.IDENTIFIER, "x", 1, 1⟩, ⟨TokenType.SEMICOLON, ";", 1, 2⟩,
          ⟨TokenType.END_OF_FILE, "", 1, 3⟩] [] 0) =
      Parser.parse [⟨TokenType.IDENTIFIER, "x", 1, 1⟩, ⟨TokenType.SEMICOLON, ";", 1, 2⟩,
        ⟨TokenType.END_OF_FILE, "", 1, 3⟩] :=
  ⟨⟨⟨TokenType.END_OF_FILE, "", 1, 3⟩, rfl, rfl⟩,
    (parse_terminates
      [⟨TokenType.IDENTIFIER, "x", 1, 1⟩, ⟨TokenType.SEMICOLON, ";", 1, 2⟩,
        ⟨TokenType.END_OF_FILE, "", 1, 3⟩]
      ⟨⟨TokenType.END_OF_FILE, "", 1, 3⟩, rfl, rfl⟩).2.1⟩
/-! ## Index safety of the parser -/

namespace Parser

theorem Inside.succ {tokens : List Token} (hT : Terminated tokens) {c : Nat} {t : Token}
    (h : Inside tokens c) (ht : tokens[c]? = some t) (hne : t.type ≠ TokenType.END_OF_FILE) :
    Inside tokens (c + 1) := by
  refine ⟨hT.succ_lt ht hne, fun i t' hi hti => ?_⟩
  rcases Nat.lt_succ_iff_lt_or_eq.mp hi with h1 | h1
  · exact h.2 i t' h1 hti
  · subst h1
    rw [ht] at hti
    injection hti with hti
    subst hti
    exact hne

theorem Inside.zero {tokens : List Token} (hT : Terminated tokens) : Inside tokens 0 :=
  ⟨hT.pos, fun _ _ hi => absurd hi (Nat.not_lt_zero _)⟩

/-- On a token vector that ends in `END_OF_FILE`, a method entered with the
cursor inside the vector and not past the first `END_OF_FILE` ends that way,
and does not read outside the vector. -/
theorem traced_safe {tokens : List Token} (hT : Terminated tokens) :
    Traced tokens (Safe tokens) where
  stay := fun _ h => ⟨h, fun _ hh => Except.noConfusion hh⟩
  seq := fun _ _ _ h1 h2 h => h2 (h1 h).1
  step := fun c t ht hne _ h => ⟨h.succ hT ht hne, fun _ hh => Except.noConfusion hh⟩
  missing := fun c hn h => by
    rw [List.getElem?_eq_none_iff] at hn
    have := h.1
    omega
  expected := fun c t m ht h => ⟨h, fun c' hh => by
    injection hh with hh; injection hh with hh; exact Failure.noConfusion hh⟩
  unexpected := fun c t ht h => ⟨h, fun c' hh => by
    injection hh with hh; injection hh with hh; exact Failure.noConfusion hh⟩
  callee := fun c t ht hty h => ⟨h, fun c' hh => by
    injection hh with hh; injection hh with hh; exact Failure.noConfusion hh⟩
  number := fun c t e ht hty hs h => ⟨h, fun c' hh => by
    injection hh with hh
    injection hh with hh
    subst hh
    rcases stoi_error hs with h1 | h1 <;> exact Failure.noConfusion h1⟩
  fuel := fun c h => ⟨h, fun c' hh => by
    injection hh with hh; injection hh with hh; exact Failure.noConfusion hh⟩

/-- The skip-to-semicolon loop of the `catch` block stays inside the vector. -/
theorem recoverLoop_safe {tokens : List Token} (hT : Terminated tokens) (n : Nat) :
    ∀ c, Safe tokens c (recoverLoop n tokens c) := by
  induction n with
  | zero =>
    intro c h
    rw [recoverLoop]
    exact ⟨h, fun c' hh => by
      injection hh with hh; injection hh with hh; exact Failure.noConfusion hh⟩
  | succ n ih =>
    intro c h
    have hc := h.1
    obtain ⟨t, ht⟩ : ∃ t, tokens[c]? = some t := ⟨tokens[c], List.getElem?_eq_getElem hc⟩
    rw [recoverLoop, isAtEnd_eq ht]
    by_cases he : t.type = TokenType.END_OF_FILE
    · rw [decide_eq_true he]
      exact ⟨h, fun _ hh => Except.noConfusion hh⟩
    · rw [decide_eq_false he]
      dsimp only
      rw [peek_eq ht]
      dsimp only
      by_cases hs : t.type = TokenType.SEMICOLON
      · rw [if_neg (by simpa using hs)]
        exact ⟨h, fun _ hh => Except.noConfusion hh⟩
      · rw [if_pos hs, advance_step ht he]
        dsimp only
        exact ih (c + 1) (h.succ hT ht he)

/-- The `catch` block of `parse` rethrows the error it caught with the cursor
inside the vector. -/
theorem recover_safe {tokens : List Token} (hT : Terminated tokens) (error : Failure) {c : Nat}
    (h : Inside tokens c) :
    (recover tokens error c).1 = error ∧ Inside tokens (recover tokens error c).2 := by
  obtain ⟨c', h1, hc'⟩ := recoverLoop_eq hT (tokens.length - c + 1) c h.1 (by omega)
  have hin : Inside tokens c' := by
    have := (recoverLoop_safe hT (tokens.length - c + 1) c h).1
    rw [h1] at this
    exact this
  obtain ⟨t, ht⟩ : ∃ t, tokens[c']? = some t := ⟨tokens[c'], List.getElem?_eq_getElem hc'⟩
  unfold recover
  rw [h1]
  dsimp only
  rw [isAtEnd_eq ht]
  by_cases he : t.type = TokenType.END_OF_FILE
  · rw [decide_eq_true he]
    exact ⟨rfl, hin⟩
  · rw [decide_eq_false he]
    dsimp only
    rw [advance_step ht he]
    exact ⟨rfl, hin.succ hT ht he⟩

/-- The loop of `parse`, `catch` block included, stays inside the vector. -/
theorem parseLoop_safe {tokens : List Token} (hT : Terminated tokens) (n : Nat) :
    ∀ s c, Safe tokens c (outcome (parseLoop n tokens s c)) := by
  induction n with
  | zero =>
    intro s c h
    rw [parseLoop]
    exact ⟨h, fun c' hh => by
      injection hh with hh; injection hh with hh; exact Failure.noConfusion hh⟩
  | succ n ih =>
    intro s c h
    have hc := h.1
    obtain ⟨t, ht⟩ : ∃ t, tokens[c]? = some t := ⟨tokens[c], List.getElem?_eq_getElem hc⟩
    have hb := (stmtTraced (traced_safe hT) n).statement c h
    rw [parseLoop, isAtEnd_eq ht]
    by_cases he : t.type = TokenType.END_OF_FILE
    · rw [decide_eq_true he]
      exact ⟨h, fun _ hh => Except.noConfusion hh⟩
    · rw [decide_eq_false he]
      dsimp only
      cases hs : statement n tokens c with
      | ok r1 =>
        rw [hs] at hb
        dsimp only
        exact ih _ _ hb.1
      | error x =>
        rw [hs] at hb
        obtain ⟨e, c1⟩ := x
        cases e with
        | ParseError message =>
          dsimp only
          have hc1 : Inside tokens c1 := hb.1
          have hr := recover_safe hT (Failure.ParseError message) hc1
          refine ⟨hr.2, fun c' hh => ?_⟩
          have h1 : (recover tokens (Failure.ParseError message) c1).1 = Failure.outOfBounds := by
            injection hh with hh
            rw [hh]
          rw [hr.1] at h1
          exact Failure.noConfusion h1
        | out_of_range => exact hb
        | invalid_argument => exact hb
        | outOfBounds => exact hb
        | outOfFuel => exact hb

end Parser

/-- C32. Parser index safety. On a non-empty token vector whose last token is
`END_OF_FILE`: `parse` starts with the cursor inside the vector and does not
fail on a read outside it; the loop of `parse` (its `catch` block included),
every rule of the statement and expression grammars, the skip-to-semicolon loop
and the whole `catch` block, entered with the cursor at an index of the vector
and not past the first `END_OF_FILE` token, end (by a return or a failure) with
the cursor at such an index, and never by a read outside the vector. A read
outside the vector is what `peek` does from the length of the vector on and
what `previous` does at the cursor 0 and beyond the length, so `previous` is
only evaluated at a cursor that is at least 1. -/
theorem parser_index_safety (tokens : List Token) (hT : Parser.Terminated tokens) :
    Parser.Inside tokens 0 ∧
    Parser.parse tokens ≠ Except.error Failure.outOfBounds ∧
    (∀ n statements c,
      Parser.Safe tokens c (Parser.outcome (Parser.parseLoop n tokens statements c))) ∧
    (∀ n, Parser.StmtTraced tokens (Parser.Safe tokens) n) ∧
    (∀ n, Parser.ExprTraced tokens (Parser.Safe tokens) n) ∧
    (∀ n c, Parser.Safe tokens c (Parser.recoverLoop n tokens c)) ∧
    (∀ error c, Parser.Inside tokens c →
      (Parser.recover tokens error c).1 = error ∧
        Parser.Inside tokens (Parser.recover tokens error c).2) ∧
    (∀ c, tokens.length ≤ c →
      Parser.peek tokens c = Except.error (Failure.outOfBounds, c)) ∧
    (∀ c, c = 0 ∨ tokens.length < c →
      Parser.previous tokens c = Except.error (Failure.outOfBounds, c)) := by
  refine ⟨Parser.Inside.zero hT, ?_, Parser.parseLoop_safe hT,
    fun n => Parser.stmtTraced (Parser.traced_safe hT) n,
    fun n => Parser.exprTraced (Parser.traced_safe hT) n,
    Parser.recoverLoop_safe hT, fun error c h => Parser.recover_safe hT error h, ?_, ?_⟩
  · intro h
    have hs := (Parser.parseLoop_safe hT (Parser.parseFuel tokens) [] 0 (Parser.Inside.zero hT)).2
    unfold Parser.parse at h
    split at h
    · exact Except.noConfusion h
    · next e he =>
      injection h with h
      rw [he] at hs
      exact hs e.2 (by rw [← h]; rfl)
  · intro c hc
    unfold Parser.peek
    rw [List.getElem?_eq_none hc]
  · intro c hc
    unfold Parser.previous
    rcases hc with hc | hc
    · rw [if_pos hc]
    · rw [if_neg (by omega), List.getElem?_eq_none (by omega)]

theorem parser_index_safety_witness :
    Parser.Terminated [⟨TokenType.IDENTIFIER, "x", 1, 1⟩, ⟨TokenType.SEMICOLON, ";", 1, 2⟩,
      ⟨TokenType.END_OF_FILE, "", 1, 3⟩] ∧
    Parser.parse [⟨TokenType.IDENTIFIER, "x", 1, 1⟩, ⟨TokenType.SEMICOLON, ";", 1, 2⟩,
      ⟨TokenType.END_OF_FILE, "", 1, 3⟩] ≠ Except.error Failure.outOfBounds :=
  ⟨⟨⟨TokenType.END_OF_FILE, "", 1, 3⟩, rfl, rfl⟩,
    (parser_index_safety
      [⟨TokenType.IDENTIFIER, "x", 1, 1⟩, ⟨TokenType.SEMICOLON, ";", 1, 2⟩,
        ⟨TokenType.END_OF_FILE, "", 1, 3⟩]
      ⟨⟨TokenType.END_OF_FILE, "", 1, 3⟩, rfl, rfl⟩).2.1⟩
/-! ## The lexemes of the tokens -/

namespace Lexer

/-- Case analysis on what `nextToken` does once the lexeme start `lx` is not
the end of input: a token of one byte with a fixed lexeme, one of two bytes, an
`UNKNOWN` token of one byte, a number or an identifier. -/
theorem nextToken_cases {lx0 lx : Lexer} (hlx : tokenStart lx0 = lx) (h : lx.isAtEnd = false)
    (P : Token × Lexer → Prop)
    (single : ∀ t v, spelling t = some v → v = String.singleton (lx.peek 0) →
      P (Token.mk t v lx.line lx.column, lx.advance.2))
    (double : ∀ t v, spelling t = some v → lx.advance.2.current < lx.input.length →
      v = (String.singleton (lx.peek 0)).push (lx.advance.2.peek 0) →
      isBlank (lx.advance.2.peek 0) = false →
      P (Token.mk t v lx.line lx.column, lx.advance.2.advance.2))
    (unknown : P (Token.mk TokenType.UNKNOWN (String.singleton (lx.peek 0)) lx.line lx.column,
      lx.advance.2))
    (number : isdigit (lx.peek 0) = true → P (makeNumber lx))
    (identifier : isalpha (lx.peek 0) = true ∨ lx.peek 0 = '_' → P (makeIdentifier lx)) :
    P (nextToken lx0) := by
  have hlt := isAtEnd_false_iff.mp h
  have hfst := advance_fst hlt
  have hin := advance_input lx
  unfold nextToken
  unfold tokenStart at hlx
  rw [hlx]
  dsimp only
  rw [h]
  simp only [Bool.false_eq_true, if_false]
  rw [hfst]
  by_cases h0 : lx.peek 0 = '+'
  · rw [if_pos h0]; exact single _ _ rfl (by rw [h0]; decide)
  rw [if_neg h0]
  by_cases h1 : lx.peek 0 = '-'
  · rw [if_pos h1]; exact single _ _ rfl (by rw [h1]; decide)
  rw [if_neg h1]
  by_cases h2 : lx.peek 0 = '*'
  · rw [if_pos h2]; exact single _ _ rfl (by rw [h2]; decide)
  rw [if_neg h2]
  by_cases h3 : lx.peek 0 = '/'
  · rw [if_pos h3]; exact single _ _ rfl (by rw [h3]; decide)
  rw [if_neg h3]
  by_cases h4 : lx.peek 0 = '('
  · rw [if_pos h4]; exact single _ _ rfl (by rw [h4]; decide)
  rw [if_neg h4]
  by_cases h5 : lx.peek 0 = ')'
  · rw [if_pos h5]; exact single _ _ rfl (by rw [h5]; decide)
  rw [if_neg h5]
  by_cases h6 : lx.peek 0 = '{'
  · rw [if_pos h6]; exact single _ _ rfl (by rw [h6]; decide)
  rw [if_neg h6]
  by_cases h7 : lx.peek 0 = '}'
  · rw [if_pos h7]; exact single _ _ rfl (by rw [h7]; decide)
  rw [if_neg h7]
  by_cases h8 : lx.peek 0 = ','
  · rw [if_pos h8]; exact single _ _ rfl (by rw [h8]; decide)
  rw [if_neg h8]
  by_cases h9 : lx.peek 0 = ';'
  · rw [if_pos h9]; exact single _ _ rfl (by rw [h9]; decide)
  rw [if_neg h9]
  by_cases g0 : lx.peek 0 = '!'
  · rw [if_pos g0]
    by_cases k : lx.advance.2.peek 0 = '='
    · rw [if_pos k]
      exact double _ _ rfl (hin ▸ lt_of_peek_ne_nul k (by decide))
        (by rw [g0, k]; decide) (by rw [k]; decide)
    · rw [if_neg k]; exact single _ _ rfl (by rw [g0]; decide)
  rw [if_neg g0]
  by_cases g1 : lx.peek 0 = '='
  · rw [if_pos g1]
    by_cases k : lx.advance.2.peek 0 = '='
    · rw [if_pos k]
      exact double _ _ rfl (hin ▸ lt_of_peek_ne_nul k (by decide))
        (by rw [g1, k]; decide) (by rw [k]; decide)
    · rw [if_neg k]; exact single _ _ rfl (by rw [g1]; decide)
  rw [if_neg g1]
  by_cases g2 : lx.peek 0 = '<'
  · rw [if_pos g2]
    by_cases k : lx.advance.2.peek 0 = '='
    · rw [if_pos k]
      exact double _ _ rfl (hin ▸ lt_of_peek_ne_nul k (by decide))
        (by rw [g2, k]; decide) (by rw [k]; decide)
    · rw [if_neg k]; exact single _ _ rfl (by rw [g2]; decide)
  rw [if_neg g2]
  by_cases g3 : lx.peek 0 = '>'
  · rw [if_pos g3]
    by_cases k : lx.advance.2.peek 0 = '='
    · rw [if_pos k]
      exact double _ _ rfl (hin ▸ lt_of_peek_ne_nul k (by decide))
        (by rw [g3, k]; decide) (by rw [k]; decide)
    · rw [if_neg k]; exact single _ _ rfl (by rw [g3]; decide)
  rw [if_neg g3]
  by_cases g4 : lx.peek 0 = '&'
  · rw [if_pos g4]
    by_cases k : lx.advance.2.peek 0 = '&'
    · rw [if_pos k]
      exact double _ _ rfl (hin ▸ lt_of_peek_ne_nul k (by decide))
        (by rw [g4, k]; decide) (by rw [k]; decide)
    · rw [if_neg k]; exact unknown
  rw [if_neg g4]
  by_cases g5 : lx.peek 0 = '|'
  · rw [if_pos g5]
    by_cases k : lx.advance.2.peek 0 = '|'
    · rw [if_pos k]
      exact double _ _ rfl (hin ▸ lt_of_peek_ne_nul k (by decide))
        (by rw [g5, k]; decide) (by rw [k]; decide)
    · rw [if_neg k]; exact unknown
  rw [if_neg g5]
  by_cases hd : isdigit (lx.peek 0) = true
  · rw [if_pos hd, backUp_advance hlt (isdigit_ne_newline hd)]
    exact number hd
  rw [if_neg hd]
  by_cases hi : isalpha (lx.peek 0) = true ∨ lx.peek 0 = '_'
  · rw [if_pos hi, backUp_advance hlt (isalpha_ne_newline hi)]
    exact identifier hi
  rw [if_neg hi]
  exact unknown

end Lexer
theorem isBlank_iff {c : Char} : isBlank c = true ↔ c = ' ' ∨ c = '\t' ∨ c = '\r' ∨ c = '\n' := by
  simp [isBlank]

theorem isdigit_not_blank {c : Char} (h : isdigit c = true) : isBlank c = false := by
  cases hb : isBlank c with
  | false => rfl
  | true =>
    rcases isBlank_iff.mp hb with rfl | rfl | rfl | rfl <;> exact absurd h (by decide)

theorem isalnum_not_blank {c : Char} (h : (isalnum c || decide (c = '_')) = true) :
    isBlank c = false := by
  cases hb : isBlank c with
  | false => rfl
  | true =>
    rcases isBlank_iff.mp hb with rfl | rfl | rfl | rfl <;> exact absurd h (by decide)

/-- Bytes that a filter drops between two offsets do not show in the filtered prefix. -/
theorem filter_take_gap {α : Type} (f : α → Bool) (l : List α) (p : Nat) :
    ∀ q, p ≤ q → (∀ i c, p ≤ i → i < q → l[i]? = some c → f c = false) →
      (l.take q).filter f = (l.take p).filter f := by
  intro q hpq
  induction q, hpq using Nat.le_induction with
  | base => intro _; rfl
  | succ q hq ih =>
    intro h
    rw [List.take_succ, List.filter_append, ih (fun i c h1 h2 => h i c h1 (by omega))]
    cases hc : l[q]? with
    | none => simp
    | some c => simp [h q c hq (by omega) hc]

namespace Lexer

/-- The bytes that the loop of `skipWhitespace` skips are blank. -/
theorem skipWhitespaceLoop_blank (fuel : Nat) (lx : Lexer) :
    ∀ i c, lx.current ≤ i → i < (skipWhitespaceLoop fuel lx).current →
      lx.input[i]? = some c → isBlank c = true := by
  induction fuel generalizing lx with
  | zero =>
    intro i c h1 h2
    rw [skipWhitespaceLoop] at h2
    omega
  | succ n ih =>
    intro i c h1 h2 hc
    unfold skipWhitespaceLoop at h2
    split at h2
    · next hne =>
      have hlt : lx.current < lx.input.length := by
        apply isAtEnd_false_iff.mp
        simpa using hne
      dsimp only at h2
      split at h2
      · next hb =>
        by_cases hi : i = lx.current
        · subst hi
          rw [peek_eq_getElem hlt] at hb
          rw [List.getElem?_eq_getElem hlt] at hc
          injection hc with hc
          rw [← hc]
          exact isBlank_iff.mpr hb
        · refine ih lx.advance.2 i c ?_ h2 (by rw [advance_input]; exact hc)
          rw [advance_current hlt]
          omega
      · omega
    · omega

/-- The loop of `skipWhitespace` stops at the end of input or at a byte that is not blank. -/
theorem skipWhitespaceLoop_stop (fuel : Nat) (lx : Lexer)
    (hf : lx.input.length - lx.current ≤ fuel)
    (hne : (skipWhitespaceLoop fuel lx).isAtEnd = false) :
    isBlank ((skipWhitespaceLoop fuel lx).peek 0) = false := by
  induction fuel generalizing lx with
  | zero =>
    rw [skipWhitespaceLoop] at hne
    have := isAtEnd_false_iff.mp hne
    omega
  | succ n ih =>
    unfold skipWhitespaceLoop at hne ⊢
    by_cases he : lx.isAtEnd = true
    · simp only [he, Bool.not_true, Bool.false_eq_true, if_false] at hne
      exact Bool.noConfusion hne
    · have he' : lx.isAtEnd = false := by simpa using he
      have hlt := isAtEnd_false_iff.mp he'
      simp only [he', Bool.not_false, if_true] at hne ⊢
      by_cases hb : lx.peek 0 = ' ' ∨ lx.peek 0 = '\t' ∨ lx.peek 0 = '\r' ∨ lx.peek 0 = '\n'
      · rw [if_pos hb] at hne ⊢
        exact ih lx.advance.2 (by rw [advance_input, advance_current hlt]; omega) hne
      · rw [if_neg hb]
        cases hbl : isBlank (lx.peek 0) with
        | false => rfl
        | true => exact absurd (isBlank_iff.mp hbl) hb

/-- Without two adjacent `/` bytes, `skipComment` skips nothing. -/
theorem skipComment_id {lx : Lexer} (hs : NoAdjacentSlashes lx.input) : skipComment lx = lx := by
  unfold skipComment
  split
  · next h =>
    exfalso
    have h0 := lt_of_peek_ne_nul h.1 (by decide)
    have h1 := peek_one_lt h.2 (by decide)
    have e0 : lx.input[lx.current]? = some '/' := by
      rw [List.getElem?_eq_getElem h0, ← peek_eq_getElem h0, h.1]
    have e1 : lx.input[lx.current + 1]? = some '/' := by
      have := h.2
      unfold peek at this
      rw [if_neg (by omega)] at this
      rw [List.getElem?_eq_getElem h1, ← this]
      simp [List.getD_eq_getElem?_getD, List.getElem?_eq_getElem h1]
    exact hs _ e0 e1
  · rfl

/-- Without two adjacent `/` bytes, the bytes skipped before a lexeme are blank. -/
theorem tokenStart_blank {lx : Lexer} (hs : NoAdjacentSlashes lx.input) :
    ∀ i c, lx.current ≤ i → i < (tokenStart lx).current → lx.input[i]? = some c →
      isBlank c = true := by
  intro i c h1 h2 hc
  have hf := skipWhitespace_follows lx
  unfold tokenStart at h2
  rw [skipComment_id (by rw [hf.1]; exact hs)] at h2
  by_cases hi : i < (skipWhitespace lx).current
  · exact skipWhitespaceLoop_blank _ lx i c h1 hi hc
  · exact skipWhitespaceLoop_blank _ (skipWhitespace lx) i c (by omega) h2
      (by rw [hf.1]; exact hc)

/-- A lexeme starts at a byte that is not blank. -/
theorem tokenStart_stop (lx : Lexer) (hne : (tokenStart lx).isAtEnd = false) :
    isBlank ((tokenStart lx).peek 0) = false :=
  skipWhitespaceLoop_stop _ _ (le_refl _) hne

/-- No byte of a lexeme is blank. -/
theorem nextToken_not_blank (lx0 : Lexer) :
    ∀ c ∈ (nextToken lx0).1.value.data, isBlank c = false := by
  cases h : (tokenStart lx0).isAtEnd with
  | true =>
    rw [nextToken_of_atEnd h]
    intro c hc
    simp at hc
  | false =>
    have hb := tokenStart_stop lx0 h
    refine nextToken_cases rfl h (fun r => ∀ c ∈ r.1.value.data, isBlank c = false) ?_ ?_ ?_ ?_ ?_
    · intro t v _ hv c hc
      rw [hv] at hc
      simp [String.singleton] at hc
      rw [hc]; exact hb
    · intro t v _ _ hv h2 c hc
      rw [hv] at hc
      simp [String.singleton, String.push] at hc
      rcases hc with hc | hc <;> rw [hc]
      · exact hb
      · exact h2
    · intro c hc
      simp [String.singleton] at hc
      rw [hc]; exact hb
    · intro _ c hc
      have h1 := (makeNumberLoop_run ((tokenStart lx0).input.length - (tokenStart lx0).current)
        (tokenStart lx0) "" (le_refl _)).1
      unfold makeNumber at hc
      dsimp only at hc
      rw [h1] at hc
      have hc' : c ∈ ((tokenStart lx0).input.drop (tokenStart lx0).current).takeWhile isdigit := by
        simpa using hc
      exact isdigit_not_blank (List.mem_takeWhile_imp hc')
    · intro _ c hc
      have h1 := (makeIdentifierLoop_run
        ((tokenStart lx0).input.length - (tokenStart lx0).current) (tokenStart lx0) ""
        (le_refl _)).1
      unfold makeIdentifier at hc
      dsimp only at hc
      rw [h1] at hc
      have hc' : c ∈ ((tokenStart lx0).input.drop (tokenStart lx0).current).takeWhile
          (fun c => isalnum c || decide (c = '_')) := by
        simpa using hc
      exact isalnum_not_blank
        (@List.mem_takeWhile_imp _ (fun c => isalnum c || decide (c = '_')) _ _ hc')

end Lexer
/-! ## No byte is lost by the lexer -/

namespace Lexer

/-- One call of `nextToken` on a source without two adjacent `/` bytes: blank
bytes up to the start of the lexeme, then the lexeme. -/
theorem stateAfter_step (s : String) (hs : NoAdjacentSlashes s.toList) (k : Nat) :
    (stateAfter s k).current ≤ lexemeStart s k ∧
    (∀ i c, (stateAfter s k).current ≤ i → i < lexemeStart s k → s.toList[i]? = some c →
      isBlank c = true) ∧
    (stateAfter s (k + 1)).current =
      lexemeStart s k + (nextToken (stateAfter s k)).1.value.length ∧
    (nextToken (stateAfter s k)).1.value.data =
      (s.toList.drop (lexemeStart s k)).take (nextToken (stateAfter s k)).1.value.length ∧
    (stateAfter s (k + 1)).current ≤ s.toList.length ∧
    ((nextToken (stateAfter s k)).1.type = TokenType.END_OF_FILE →
      lexemeStart s k = s.toList.length) := by
  obtain ⟨h1, h2, h3⟩ := stateAfter_invariant s k
  have hf := tokenStart_follows (stateAfter s k)
  have hin : (tokenStart (stateAfter s k)).input = s.toList := by rw [hf.1, h1]
  obtain ⟨-, -, -, a4, a5, a6, -⟩ := nextToken_tokenAt (stateAfter s k) (by rw [h1]; exact h2) h3
  rw [hin] at a5 a6
  refine ⟨hf.2.1, ?_, ?_, a5, ?_, ?_⟩
  · intro i c hi1 hi2 hc
    exact tokenStart_blank (by rw [h1]; exact hs) i c hi1 hi2 (by rw [h1]; exact hc)
  · rw [stateAfter_succ, a4]; rfl
  · rw [stateAfter_succ]; exact a6
  · intro he
    cases h : (tokenStart (stateAfter s k)).isAtEnd with
    | false => exact absurd he (nextToken_progress h).1
    | true =>
      have hge : (tokenStart (stateAfter s k)).input.length ≤ (tokenStart (stateAfter s k)).current := by
        simpa [isAtEnd] using h
      have hle := hf.2.2 (by rw [h1]; exact h2)
      rw [hin] at hge
      rw [h1] at hle
      exact Nat.le_antisymm hle hge

theorem stateAfter_mono (s : String) (hs : NoAdjacentSlashes s.toList) {a b : Nat} (h : a ≤ b) :
    (stateAfter s a).current ≤ (stateAfter s b).current := by
  induction b, h using Nat.le_induction with
  | base => exact Nat.le_refl _
  | succ b _ ih =>
    obtain ⟨h1, -, h3, -⟩ := stateAfter_step s hs b
    omega

/-- The lexemes of the first `k` tokens are the bytes, other than the blank
ones, before the cursor after `k` calls of `nextToken`. -/
theorem lexemes_before (s : String) (hs : NoAdjacentSlashes s.toList) (k : Nat) :
    ((List.range k).map (fun j => (nextToken (stateAfter s j)).1.value.data)).flatten =
      (s.toList.take (stateAfter s k).current).filter (fun c => !isBlank c) := by
  induction k with
  | zero => simp [stateAfter, init]
  | succ k ih =>
    obtain ⟨h1, h2, h3, h4, -, -⟩ := stateAfter_step s hs k
    rw [List.range_succ, List.map_append, List.flatten_append, ih, h3, List.take_add,
      List.filter_append, ← h4]
    rw [filter_take_gap (fun c => !isBlank c) s.toList (stateAfter s k).current
      (lexemeStart s k) h1 (fun i c hi1 hi2 hc => by simp [h2 i c hi1 hi2 hc])]
    have hfil : ((nextToken (stateAfter s k)).1.value.data).filter (fun c => !isBlank c) =
        (nextToken (stateAfter s k)).1.value.data :=
      List.filter_eq_self.mpr (fun c hc => by rw [nextToken_not_blank _ c hc]; rfl)
    rw [hfil]
    simp

/-- A byte before the cursor after `n` calls lies before the cursor after one
of the first `n` calls and not before the cursor that call started from. -/
theorem stateAfter_find (s : String) (i : Nat) :
    ∀ n, i < (stateAfter s n).current →
      ∃ k, k < n ∧ (stateAfter s k).current ≤ i ∧ i < (stateAfter s (k + 1)).current := by
  intro n
  induction n with
  | zero =>
    intro h
    simp [stateAfter, init] at h
  | succ n ih =>
    intro h
    by_cases hn : i < (stateAfter s n).current
    · obtain ⟨k, hk, h1, h2⟩ := ih hn
      exact ⟨k, by omega, h1, h2⟩
    · exact ⟨n, by omega, by omega, h⟩

end Lexer

/-- C34. No byte is lost by the lexer. For a source `s` without two adjacent
`/` bytes, `tokenize s` returns a token sequence such that: the concatenation of
its lexemes, in order, is `s` with every space, tab, carriage-return and newline
byte removed; the lexeme of the token of index `k` is the bytes of `s` from the
offset `lexemeStart s k` on; and every byte of `s` that is not one of those four
lies in the lexeme of exactly one token (a token of any kind, `UNKNOWN` included). -/
theorem lexemes_cover (s : String) (hs : NoAdjacentSlashes s.toList) :
    ∃ toks, tokenize s = some toks ∧
      (toks.map (fun t => t.value.data)).flatten = s.toList.filter (fun c => !isBlank c) ∧
      (∀ k t, toks[k]? = some t →
        t.value.data = (s.toList.drop (Lexer.lexemeStart s k)).take t.value.length) ∧
      ∀ i c, s.toList[i]? = some c → isBlank c = false →
        ∃! k, ∃ t, toks[k]? = some t ∧ Lexer.lexemeStart s k ≤ i ∧
          i < Lexer.lexemeStart s k + t.value.length := by
  obtain ⟨toks0, last, h1, -, h3⟩ :=
    Lexer.tokenizeLoop_spec (s.toList.length + 1) (Lexer.init s.toList) []
      (Nat.zero_le _) (by simp [Lexer.init])
  have ht : tokenize s = some (toks0 ++ [last]) := by
    rw [← List.nil_append toks0, ← h1]; simp [tokenize, Lexer.tokenizeFrom, Lexer.init]
  have hget := Lexer.tokenize_getElem? s _ ht
  have hlast : last = (Lexer.nextToken (Lexer.stateAfter s toks0.length)).1 :=
    hget toks0.length last (by simp)
  have hend : (Lexer.stateAfter s (toks0.length + 1)).current = s.toList.length := by
    obtain ⟨-, -, a3, -, a5, a6⟩ := Lexer.stateAfter_step s hs toks0.length
    have := a6 (hlast ▸ h3)
    omega
  have htoks : toks0 ++ [last] =
      (List.range (toks0.length + 1)).map (fun j => (Lexer.nextToken (Lexer.stateAfter s j)).1) := by
    apply List.ext_getElem?
    intro n
    by_cases hn : n < toks0.length + 1
    · have hn' : n < (toks0 ++ [last]).length := by simpa using hn
      rw [List.getElem?_eq_getElem hn', List.getElem?_map,
        List.getElem?_eq_getElem (by simpa using hn), List.getElem_range]
      exact congrArg some (hget n _ (List.getElem?_eq_getElem hn'))
    · rw [List.getElem?_eq_none (by simp; omega), List.getElem?_eq_none (by simp; omega)]
  refine ⟨toks0 ++ [last], ht, ?_, ?_, ?_⟩
  · rw [htoks, List.map_map]
    have := Lexer.lexemes_before s hs (toks0.length + 1)
    rw [hend, List.take_length] at this
    exact this
  · intro k t hk
    rw [hget k t hk]
    exact (Lexer.stateAfter_step s hs k).2.2.2.1
  · intro i c hc hb
    have hi : i < (Lexer.stateAfter s (toks0.length + 1)).current := by
      rw [hend]
      by_contra hn
      rw [List.getElem?_eq_none (by omega)] at hc
      exact Option.noConfusion hc
    obtain ⟨k, hk, hk1, hk2⟩ := Lexer.stateAfter_find s i _ hi
    have hk' : k < (toks0 ++ [last]).length := by simpa using hk
    have hspan : ∀ k' t', (toks0 ++ [last])[k']? = some t' → Lexer.lexemeStart s k' ≤ i →
        i < Lexer.lexemeStart s k' + t'.value.length →
        (Lexer.stateAfter s k').current ≤ i ∧ i < (Lexer.stateAfter s (k' + 1)).current := by
      intro k' t' hk' h1 h2
      obtain ⟨a1, -, a3, -⟩ := Lexer.stateAfter_step s hs k'
      rw [hget k' t' hk'] at h2
      omega
    refine ⟨k, ⟨(toks0 ++ [last])[k], List.getElem?_eq_getElem hk', ?_, ?_⟩, ?_⟩
    · obtain ⟨-, a2, -⟩ := Lexer.stateAfter_step s hs k
      by_contra hn
      have := a2 i c hk1 (by omega) hc
      rw [hb] at this
      exact Bool.noConfusion this
    · obtain ⟨-, -, a3, -⟩ := Lexer.stateAfter_step s hs k
      rw [hget k _ (List.getElem?_eq_getElem hk')]
      omega
    · rintro k' ⟨t', hkt, h1, h2⟩
      obtain ⟨b1, b2⟩ := hspan k' t' hkt h1 h2
      by_contra hne
      rcases Nat.lt_or_gt_of_ne hne with hlt | hgt
      · have := Lexer.stateAfter_mono s hs (show k' + 1 ≤ k by omega)
        omega
      · have := Lexer.stateAfter_mono s hs (show k + 1 ≤ k' by omega)
        omega

theorem lexemes_cover_witness :
    NoAdjacentSlashes "a / b".toList ∧
    ∃ toks, tokenize "a / b" = some toks ∧
      (toks.map (fun t => t.value.data)).flatten =
        "a / b".toList.filter (fun c => !isBlank c) ∧
      (∀ k t, toks[k]? = some t →
        t.value.data = ("a / b".toList.drop (Lexer.lexemeStart "a / b" k)).take t.value.length) ∧
      ∀ i c, "a / b".toList[i]? = some c → isBlank c = false →
        ∃! k, ∃ t, toks[k]? = some t ∧ Lexer.lexemeStart "a / b" k ≤ i ∧
          i < Lexer.lexemeStart "a / b" k + t.value.length :=
  ⟨(fun i h1 h2 => by
      have hi : i < 5 := by
        by_contra hn
        rw [List.getElem?_eq_none (by simp; omega)] at h1
        exact Option.noConfusion h1
      interval_cases i <;> revert h1 h2 <;> decide),
    lexemes_cover "a / b" (fun i h1 h2 => by
      have hi : i < 5 := by
        by_contra hn
        rw [List.getElem?_eq_none (by simp; omega)] at h1
        exact Option.noConfusion h1
      interval_cases i <;> revert h1 h2 <;> decide)⟩
/-! ## The operators that reach the generator -/

namespace Lexer

theorem keywords_spelling (v : String) (k : TokenType) (h : keywords v = some k) :
    spelling k = none := by
  unfold keywords at h
  split_ifs at h <;> (injection h with h; subst h; rfl)

/-- Every token that `nextToken` returns carries the lexeme of its kind. -/
theorem nextToken_spelled (lx0 : Lexer) : Spelled (nextToken lx0).1 := by
  cases h : (tokenStart lx0).isAtEnd with
  | true =>
    rw [nextToken_of_atEnd h]
    intro v hv
    exact Option.noConfusion hv
  | false =>
    refine nextToken_cases rfl h (fun r => Spelled r.1) ?_ ?_ ?_ ?_ ?_
    · intro t v hs _ v' hv'
      have hv' : spelling t = some v' := hv'
      rw [hs] at hv'
      exact Option.some.inj hv'
    · intro t v hs _ _ _ v' hv'
      have hv' : spelling t = some v' := hv'
      rw [hs] at hv'
      exact Option.some.inj hv'
    · intro v hv
      exact Option.noConfusion hv
    · intro _ v hv
      exact Option.noConfusion hv
    · intro _ v hv
      rw [makeIdentifier_type] at hv
      split at hv
      · next k hk => rw [keywords_spelling _ k hk] at hv; exact Option.noConfusion hv
      · exact Option.noConfusion hv

/-- Every token of `tokenize s` carries the lexeme of its kind. -/
theorem tokenize_spelled {s : String} {toks : List Token} (h : tokenize s = some toks)
    (c : Nat) (t : Token) (ht : toks[c]? = some t) : Spelled t := by
  rw [tokenize_getElem? s toks h c t ht]
  exact nextToken_spelled _

end Lexer

theorem knownOperatorsList_append (a : List Expression) (e : Expression) :
    Expression.knownOperatorsList (a ++ [e]) =
      (Expression.knownOperatorsList a && e.knownOperators) := by
  induction a with
  | nil => simp [Expression.knownOperatorsList]
  | cons x xs ih => simp [Expression.knownOperatorsList, ih, Bool.and_assoc]

theorem knownOperatorsList_snoc (a : List Statement) (s : Statement) :
    Statement.knownOperatorsList (a ++ [s]) =
      (Statement.knownOperatorsList a && s.knownOperators) := by
  induction a with
  | nil => simp [Statement.knownOperatorsList]
  | cons x xs ih => simp [Statement.knownOperatorsList, ih, Bool.and_assoc]

namespace Parser

section known

variable {tokens : List Token} (hS : ∀ (c : Nat) (t : Token), tokens[c]? = some t → Lexer.Spelled t)
include hS

/-- The operator that a loop reads after `match` has taken a token of one of
the kinds `ops` is spelled as one of those kinds is. -/
theorem operator_spelled {c c1 : Nat} {ops : List TokenType} (spellings : List String)
    (hops : ∀ ty ∈ ops, ∃ v, Lexer.spelling ty = some v ∧ v ∈ spellings)
    (hm : match_ tokens c ops = Except.ok (true, c1)) :
    ∃ t, previous tokens c1 = Except.ok t ∧ t.value ∈ spellings := by
  obtain ⟨t, ht, hmem, -, hp⟩ := previous_after_match hm
  obtain ⟨v, hv, hin⟩ := hops _ hmem
  exact ⟨t, hp, by rw [hS c t ht v hv]; exact hin⟩

theorem binaryLoop_known (sub : Nat → List Token → Nat → Result Expression)
    (ops : List TokenType)
    (hops : ∀ ty ∈ ops, ∃ v, Lexer.spelling ty = some v ∧ v ∈ binaryOperators) (n : Nat)
    (hsub : ∀ c r, sub n tokens c = Except.ok r → r.1.knownOperators = true)
    (hloop : ∀ e c r, e.knownOperators = true → binaryLoop sub ops n tokens e c = Except.ok r →
      r.1.knownOperators = true) :
    ∀ e c r, e.knownOperators = true → binaryLoop sub ops (n + 1) tokens e c = Except.ok r →
      r.1.knownOperators = true := by
  intro e c r he h
  rw [binaryLoop] at h
  split at h
  · exact Except.noConfusion h
  · next c1 hm =>
    injection h with h
    subst h
    exact he
  · next c1 hm =>
    obtain ⟨t, hp, hv⟩ := operator_spelled hS binaryOperators hops hm
    rw [hp] at h
    dsimp only at h
    split at h
    · exact Except.noConfusion h
    · next right hr =>
      refine hloop _ _ _ ?_ h
      rw [Expression.knownOperators, he, hsub _ _ hr, decide_eq_true hv]
      rfl

omit hS in
theorem binaryRule_known (f sub : Nat → List Token → Nat → Result Expression)
    (loop : Nat → List Token → Expression → Nat → Result Expression) (n : Nat)
    (hf : ∀ c, f (n + 1) tokens c =
      match sub n tokens c with
      | Except.error e => Except.error e
      | Except.ok r => loop n tokens r.1 r.2)
    (hsub : ∀ c r, sub n tokens c = Except.ok r → r.1.knownOperators = true)
    (hloop : ∀ e c r, e.knownOperators = true → loop n tokens e c = Except.ok r →
      r.1.knownOperators = true) :
    ∀ c r, f (n + 1) tokens c = Except.ok r → r.1.knownOperators = true := by
  intro c r h
  rw [hf] at h
  split at h
  · exact Except.noConfusion h
  · next r1 h1 => exact hloop _ _ _ (hsub _ _ h1) h

theorem unary_known (n : Nat) (ih : ExprKnown tokens n) :
    ∀ c r, unary (n + 1) tokens c = Except.ok r → r.1.knownOperators = true := by
  intro c r h
  rw [unary] at h
  split at h
  · exact Except.noConfusion h
  · next c1 hm =>
    obtain ⟨t, hp, hv⟩ := operator_spelled hS unaryOperators
      (by
        intro ty hty
        simp only [List.mem_cons, List.mem_singleton, List.not_mem_nil, or_false] at hty
        rcases hty with rfl | rfl <;> exact ⟨_, rfl, by decide⟩) hm
    rw [hp] at h
    dsimp only at h
    split at h
    · exact Except.noConfusion h
    · next right hr =>
      injection h with h
      subst h
      dsimp only
      rw [Expression.knownOperators, ih.unary _ _ hr, decide_eq_true hv]
      rfl
  · next c1 hm => exact ih.call _ _ h

omit hS in
theorem callLoop_known (n : Nat) (ih : ExprKnown tokens n) :
    ∀ e c r, e.knownOperators = true → callLoop (n + 1) tokens e c = Except.ok r →
      r.1.knownOperators = true := by
  intro e c r he h
  rw [callLoop] at h
  split at h
  · exact Except.noConfusion h
  · next c1 hm =>
    injection h with h
    subst h
    exact he
  · next c1 hm =>
    split at h
    · split at h
      · exact Except.noConfusion h
      · next closing hc =>
        split at h
        · exact Except.noConfusion h
        · next arguments ha =>
          have q2 : Expression.knownOperatorsList arguments.1 = true := by
            split at ha
            · exact ih.callArguments [] _ _ rfl ha
            · injection ha with ha
              subst ha
              rfl
          split at h
          · exact Except.noConfusion h
          · next r1 hcons =>
            refine ih.callLoop _ _ _ ?_ h
            rw [Expression.knownOperators]
            exact q2
    · exact Except.noConfusion h

omit hS in
theorem callArguments_known (n : Nat) (ih : ExprKnown tokens n) :
    ∀ a c r, Expression.knownOperatorsList a = true →
      callArguments (n + 1) tokens a c = Except.ok r →
      Expression.knownOperatorsList r.1 = true := by
  intro a c r ha h
  rw [callArguments] at h
  split at h
  · exact Except.noConfusion h
  · next r1 h1 =>
    have q1 : Expression.knownOperatorsList (a ++ [r1.1]) = true := by
      rw [knownOperatorsList_append, ha, ih.expression _ _ h1]
      rfl
    split at h
    · exact Except.noConfusion h
    · next c1 hm => exact ih.callArguments _ _ _ q1 h
    · next c1 hm =>
      injection h with h
      subst h
      exact q1

omit hS in
theorem primary_known (n : Nat) (ih : ExprKnown tokens n) :
    ∀ c r, primary (n + 1) tokens c = Except.ok r → r.1.knownOperators = true := by
  intro c r h
  rw [primary] at h
  split at h
  · exact Except.noConfusion h
  · injection h with h
    subst h
    rfl
  · split at h
    · exact Except.noConfusion h
    · injection h with h
      subst h
      rfl
    · split at h
      · exact Except.noConfusion h
      · split at h
        · exact Except.noConfusion h
        · split at h
          · exact Except.noConfusion h
          · injection h with h
            subst h
            rfl
      · split at h
        · exact Except.noConfusion h
        · split at h
          · exact Except.noConfusion h
          · injection h with h
            subst h
            rfl
        · split at h
          · exact Except.noConfusion h
          · split at h
            · exact Except.noConfusion h
            · next expr he =>
              split at h
              · exact Except.noConfusion h
              · injection h with h
                subst h
                exact ih.expression _ expr he
          · split at h
            · exact Except.noConfusion h
            · exact Except.noConfusion h

/-- Every expression that the parser returns has known operators only. -/
theorem exprKnown (fuel : Nat) : ExprKnown tokens fuel := by
  induction fuel with
  | zero =>
    constructor <;> intros <;> rename_i h <;>
      first
        | (rw [expression] at h; exact Except.noConfusion h)
        | (rw [logicalOr] at h; exact Except.noConfusion h)
        | (rw [logicalOrLoop] at h; exact Except.noConfusion h)
        | (rw [logicalAnd] at h; exact Except.noConfusion h)
        | (rw [logicalAndLoop] at h; exact Except.noConfusion h)
        | (rw [equality] at h; exact Except.noConfusion h)
        | (rw [equalityLoop] at h; exact Except.noConfusion h)
        | (rw [comparison] at h; exact Except.noConfusion h)
        | (rw [comparisonLoop] at h; exact Except.noConfusion h)
        | (rw [term] at h; exact Except.noConfusion h)
        | (rw [termLoop] at h; exact Except.noConfusion h)
        | (rw [factor] at h; exact Except.noConfusion h)
        | (rw [factorLoop] at h; exact Except.noConfusion h)
        | (rw [unary] at h; exact Except.noConfusion h)
        | (rw [call] at h; exact Except.noConfusion h)
        | (rw [callLoop] at h; exact Except.noConfusion h)
        | (rw [callArguments] at h; exact Except.noConfusion h)
        | (rw [primary] at h; exact Except.noConfusion h)
  | succ n ih =>
    have hexpr : ∀ c r, expression (n + 1) tokens c = Except.ok r →
        r.1.knownOperators = true := by
      intro c r h
      rw [expression] at h
      exact ih.logicalOr _ _ h
    have hops : ∀ ops : List TokenType,
        ops.all (fun ty => match Lexer.spelling ty with
          | some v => decide (v ∈ binaryOperators)
          | none => false) = true →
        ∀ ty ∈ ops, ∃ v, Lexer.spelling ty = some v ∧ v ∈ binaryOperators := by
      intro ops h ty hty
      have := List.all_eq_true.mp h ty hty
      split at this
      · next v hv => exact ⟨v, hv, of_decide_eq_true this⟩
      · exact Bool.noConfusion this
    refine ⟨hexpr, ?_, ?_, ?_, ?_, ?_, ?_, ?_, ?_, ?_, ?_, ?_, ?_, unary_known hS n ih, ?_,
      callLoop_known n ih, callArguments_known n ih, primary_known n ih⟩
    · exact binaryRule_known logicalOr logicalAnd logicalOrLoop n
        (fun c => logicalOr_succ n tokens c) ih.logicalAnd ih.logicalOrLoop
    · intro e c r he h
      rw [logicalOrLoop_eq] at h
      exact binaryLoop_known hS _ _ (hops [TokenType.LOGICAL_OR] (by decide)) n ih.logicalAnd
        (fun e c r he h => ih.logicalOrLoop e c r he (by rw [logicalOrLoop_eq]; exact h))
        e c r he h
    · exact binaryRule_known logicalAnd equality logicalAndLoop n
        (fun c => logicalAnd_succ n tokens c) ih.equality ih.logicalAndLoop
    · intro e c r he h
      rw [logicalAndLoop_eq] at h
      exact binaryLoop_known hS _ _ (hops [TokenType.LOGICAL_AND] (by decide)) n ih.equality
        (fun e c r he h => ih.logicalAndLoop e c r he (by rw [logicalAndLoop_eq]; exact h))
        e c r he h
    · exact binaryRule_known equality comparison equalityLoop n
        (fun c => equality_succ n tokens c) ih.comparison ih.equalityLoop
    · intro e c r he h
      rw [equalityLoop_eq] at h
      exact binaryLoop_known hS _ _ (hops [TokenType.NOT_EQUAL, TokenType.EQUAL] (by decide)) n ih.comparison
        (fun e c r he h => ih.equalityLoop e c r he (by rw [equalityLoop_eq]; exact h))
        e c r he h
    · exact binaryRule_known comparison term comparisonLoop n
        (fun c => comparison_succ n tokens c) ih.term ih.comparisonLoop
    · intro e c r he h
      rw [comparisonLoop_eq] at h
      exact binaryLoop_known hS _ _ (hops [TokenType.GREATER_THAN, TokenType.GREATER_EQUAL, TokenType.LESS_THAN,
          TokenType.LESS_EQUAL] (by decide)) n ih.term
        (fun e c r he h => ih.comparisonLoop e c r he (by rw [comparisonLoop_eq]; exact h))
        e c r he h
    · exact binaryRule_known term factor termLoop n
        (fun c => term_succ n tokens c) ih.factor ih.termLoop
    · intro e c r he h
      rw [termLoop_eq] at h
      exact binaryLoop_known hS _ _ (hops [TokenType.MINUS, TokenType.PLUS] (by decide)) n ih.factor
        (fun e c r he h => ih.termLoop e c r he (by rw [termLoop_eq]; exact h))
        e c r he h
    · exact binaryRule_known factor unary factorLoop n
        (fun c => factor_succ n tokens c) ih.unary ih.factorLoop
    · intro e c r he h
      rw [factorLoop_eq] at h
      exact binaryLoop_known hS _ _ (hops [TokenType.DIVIDE, TokenType.MULTIPLY] (by decide)) n ih.unary
        (fun e c r he h => ih.factorLoop e c r he (by rw [factorLoop_eq]; exact h))
        e c r he h
    · exact binaryRule_known call primary callLoop n
        (fun c => call_succ n tokens c) ih.primary ih.callLoop

end known

end Parser
namespace Parser

section known

variable {tokens : List Token}
  (hS : ∀ (c : Nat) (t : Token), tokens[c]? = some t → Lexer.Spelled t)
include hS

theorem varDeclaration_known (fuel : Nat) :
    ∀ c r, varDeclaration fuel tokens c = Except.ok r → r.1.knownOperators = true := by
  intro c r h
  unfold varDeclaration at h
  split at h
  · exact Except.noConfusion h
  · next name hn =>
    split at h
    · exact Except.noConfusion h
    · next m hm =>
      split at h
      · exact Except.noConfusion h
      · next initializer hi =>
        have q3 : Expression.knownOperatorsOption initializer.1 = true := by
          split at hi
          · split at hi
            · exact Except.noConfusion hi
            · next r1 h1 =>
              injection hi with hi
              subst hi
              exact (exprKnown hS fuel).expression _ _ h1
          · injection hi with hi
            subst hi
            rfl
        split at h
        · exact Except.noConfusion h
        · next r1 hc =>
          injection h with h
          subst h
          exact q3

theorem assignment_known (fuel : Nat) :
    ∀ c r, assignment fuel tokens c = Except.ok r → r.1.knownOperators = true := by
  intro c r h
  unfold assignment at h
  split at h
  · exact Except.noConfusion h
  · split at h
    · exact Except.noConfusion h
    · split at h
      · exact Except.noConfusion h
      · next value hv =>
        split at h
        · exact Except.noConfusion h
        · injection h with h
          subst h
          exact (exprKnown hS fuel).expression _ _ hv

theorem returnStatement_known (fuel : Nat) :
    ∀ c r, returnStatement fuel tokens c = Except.ok r → r.1.knownOperators = true := by
  intro c r h
  unfold returnStatement at h
  split at h
  · exact Except.noConfusion h
  · split at h
    · exact Except.noConfusion h
    · next value hv =>
      have q1 : Expression.knownOperatorsOption value.1 = true := by
        split at hv
        · split at hv
          · exact Except.noConfusion hv
          · next r1 h1 =>
            injection hv with hv
            subst hv
            exact (exprKnown hS fuel).expression _ _ h1
        · injection hv with hv
          subst hv
          rfl
      split at h
      · exact Except.noConfusion h
      · injection h with h
        subst h
        exact q1

theorem expressionStatement_known (fuel : Nat) :
    ∀ c r, expressionStatement fuel tokens c = Except.ok r → r.1.knownOperators = true := by
  intro c r h
  unfold expressionStatement at h
  split at h
  · exact Except.noConfusion h
  · next expr he =>
    split at h
    · exact Except.noConfusion h
    · injection h with h
      subst h
      exact (exprKnown hS fuel).expression _ _ he

theorem statement_known (n : Nat) (ih : StmtKnown tokens n) :
    ∀ c r, statement (n + 1) tokens c = Except.ok r → r.1.knownOperators = true := by
  intro c r h
  rw [statement] at h
  split at h
  · exact Except.noConfusion h
  · exact varDeclaration_known hS n _ _ h
  · split at h
    · exact Except.noConfusion h
    · exact ih.ifStatement _ _ h
    · split at h
      · exact Except.noConfusion h
      · exact ih.whileStatement _ _ h
      · split at h
        · exact Except.noConfusion h
        · exact ih.functionDeclaration _ _ h
        · split at h
          · exact Except.noConfusion h
          · exact returnStatement_known hS n _ _ h
          · split at h
            · exact Except.noConfusion h
            · split at h
              · exact Except.noConfusion h
              · next r1 hb =>
                injection h with h
                subst h
                exact ih.block _ _ hb
            · split at h
              · exact Except.noConfusion h
              · exact expressionStatement_known hS n _ _ h
              · dsimp only at h
                split at h
                · exact Except.noConfusion h
                · split at h
                  · exact Except.noConfusion h
                  · exact assignment_known hS n _ _ h
                  · exact expressionStatement_known hS n _ _ h

theorem ifStatement_known (n : Nat) (ih : StmtKnown tokens n) :
    ∀ c r, ifStatement (n + 1) tokens c = Except.ok r → r.1.knownOperators = true := by
  intro c r h
  rw [ifStatement] at h
  split at h
  · exact Except.noConfusion h
  · split at h
    · exact Except.noConfusion h
    · next condition hc =>
      have q2 := (exprKnown hS n).expression _ _ hc
      split at h
      · exact Except.noConfusion h
      · split at h
        · exact Except.noConfusion h
        · next thenBranch ht =>
          have q4 := ih.statement _ _ ht
          split at h
          · exact Except.noConfusion h
          · next c1 hm =>
            split at h
            · exact Except.noConfusion h
            · next elseBranch he =>
              injection h with h
              subst h
              dsimp only
              rw [Statement.knownOperators, q2, q4, Statement.knownOperatorsOption,
                ih.statement c1 elseBranch he]
              rfl
          · next c1 hm =>
            injection h with h
            subst h
            dsimp only
            rw [Statement.knownOperators, q2, q4, Statement.knownOperatorsOption]
            rfl

theorem whileStatement_known (n : Nat) (ih : StmtKnown tokens n) :
    ∀ c r, whileStatement (n + 1) tokens c = Except.ok r → r.1.knownOperators = true := by
  intro c r h
  rw [whileStatement] at h
  split at h
  · exact Except.noConfusion h
  · split at h
    · exact Except.noConfusion h
    · next condition hc =>
      have q2 := (exprKnown hS n).expression _ _ hc
      split at h
      · exact Except.noConfusion h
      · next r1 hr =>
        split at h
        · exact Except.noConfusion h
        · next body hb =>
          injection h with h
          subst h
          dsimp only
          rw [Statement.knownOperators, q2, ih.statement r1.2 body hb]
          rfl

omit hS in
theorem functionDeclaration_known (n : Nat) (ih : StmtKnown tokens n) :
    ∀ c r, functionDeclaration (n + 1) tokens c = Except.ok r → r.1.knownOperators = true := by
  intro c r h
  rw [functionDeclaration] at h
  split at h
  · exact Except.noConfusion h
  · split at h
    · exact Except.noConfusion h
    · split at h
      · exact Except.noConfusion h
      · split at h
        · exact Except.noConfusion h
        · split at h
          · exact Except.noConfusion h
          · split at h
            · exact Except.noConfusion h
            · split at h
              · exact Except.noConfusion h
              · next body hbody =>
                injection h with h
                subst h
                dsimp only
                rw [Statement.knownOperators]
                exact ih.block _ _ hbody

omit hS in
theorem block_known (n : Nat) (ih : StmtKnown tokens n) :
    ∀ c r, block (n + 1) tokens c = Except.ok r →
      Statement.knownOperatorsList r.1 = true := by
  intro c r h
  rw [block] at h
  split at h
  · exact Except.noConfusion h
  · next statements hs =>
    split at h
    · exact Except.noConfusion h
    · injection h with h
      subst h
      exact ih.blockLoop [] _ statements rfl hs

omit hS in
theorem blockLoop_known (n : Nat) (ih : StmtKnown tokens n) :
    ∀ s c r, Statement.knownOperatorsList s = true →
      blockLoop (n + 1) tokens s c = Except.ok r → Statement.knownOperatorsList r.1 = true := by
  intro s c r hk h
  rw [blockLoop] at h
  split at h
  · exact Except.noConfusion h
  · injection h with h
    subst h
    exact hk
  · split at h
    · exact Except.noConfusion h
    · injection h with h
      subst h
      exact hk
    · split at h
      · exact Except.noConfusion h
      · next r1 hs =>
        refine ih.blockLoop _ _ _ ?_ h
        rw [knownOperatorsList_snoc, hk, ih.statement _ _ hs]
        rfl

/-- Every statement that the parser returns has known operators only. -/
theorem stmtKnown (fuel : Nat) : StmtKnown tokens fuel := by
  induction fuel with
  | zero =>
    constructor <;> intros <;> rename_i h <;>
      first
        | (rw [statement] at h; exact Except.noConfusion h)
        | (rw [ifStatement] at h; exact Except.noConfusion h)
        | (rw [whileStatement] at h; exact Except.noConfusion h)
        | (rw [functionDeclaration] at h; exact Except.noConfusion h)
        | (rw [block] at h; exact Except.noConfusion h)
        | (rw [blockLoop] at h; exact Except.noConfusion h)
  | succ n ih =>
    exact ⟨statement_known hS n ih, ifStatement_known hS n ih,
      whileStatement_known hS n ih, functionDeclaration_known n ih,
      block_known n ih, blockLoop_known n ih⟩

/-- Every program that the loop of `parse` returns has known operators only. -/
theorem parseLoop_known (fuel : Nat) :
    ∀ s c r, Statement.knownOperatorsList s = true → parseLoop fuel tokens s c = Except.ok r →
      r.1.knownOperators = true := by
  induction fuel with
  | zero =>
    intro s c r _ h
    rw [parseLoop] at h
    exact Except.noConfusion h
  | succ n ih =>
    intro s c r hk h
    rw [parseLoop] at h
    split at h
    · exact Except.noConfusion h
    · injection h with h
      subst h
      exact hk
    · split at h
      · next r1 hs =>
        refine ih _ _ _ ?_ h
        rw [knownOperatorsList_snoc, hk, (stmtKnown hS n).statement _ _ hs]
        rfl
      · exact Except.noConfusion h
      · exact Except.noConfusion h

/-- Every program that `parse` returns has known operators only. -/
theorem parse_known {program : Program} (h : parse tokens = Except.ok program) :
    program.knownOperators = true := by
  unfold parse at h
  split at h
  · next r hr =>
    injection h with h
    subst h
    exact parseLoop_known hS _ [] _ _ rfl hr
  · exact Except.noConfusion h

end known

end Parser
namespace CodeGenerator

theorem knownOperators_binary {left right : Expression} {operator_ : String}
    (h : (Expression.BinaryOperation left operator_ right).knownOperators = true) :
    left.knownOperators = true ∧ operator_ ∈ binaryOperators ∧ right.knownOperators = true := by
  rw [Expression.knownOperators] at h
  simp only [Bool.and_eq_true, decide_eq_true_eq] at h
  exact ⟨h.1.1, h.1.2, h.2⟩

theorem knownOperators_unary {operand : Expression} {operator_ : String}
    (h : (Expression.UnaryOperation operator_ operand).knownOperators = true) :
    operator_ ∈ unaryOperators ∧ operand.knownOperators = true := by
  rw [Expression.knownOperators] at h
  simp only [Bool.and_eq_true, decide_eq_true_eq] at h
  exact h

/-- The builder is asked for an instruction for every operator of `binaryOperators`. -/
theorem binaryInstruction_known (llvm : LLVM.Backend) (g : CodeGenerator) {operator_ : String}
    (left right : LLVM.Value) (h : operator_ ∈ binaryOperators) :
    binaryInstruction llvm g operator_ left right ≠ none := by
  unfold binaryOperators at h
  simp only [List.mem_cons, List.mem_singleton, List.not_mem_nil, or_false] at h
  unfold binaryInstruction
  rcases h with rfl | rfl | rfl | rfl | rfl | rfl | rfl | rfl | rfl | rfl | rfl | rfl <;> simp

/-- The builder is asked for an instruction for every operator of `unaryOperators`. -/
theorem unaryInstruction_known (llvm : LLVM.Backend) (g : CodeGenerator) {operator_ : String}
    (operand : LLVM.Value) (h : operator_ ∈ unaryOperators) :
    unaryInstruction llvm g operator_ operand ≠ none := by
  unfold unaryOperators at h
  simp only [List.mem_cons, List.mem_singleton, List.not_mem_nil, or_false] at h
  unfold unaryInstruction
  rcases h with rfl | rfl <;> simp

theorem unknownOperator_head {m : String} (h : UnknownOperator (CodeGenFailure.CodeGenError m)) :
    m.data.take 9 = "Unknown b".data ∨ m.data.take 9 = "Unknown u".data := by
  obtain ⟨op, h | h⟩ := h
  · injection h with h
    subst h
    left
    rw [String.data_append, List.take_append_of_le_length (by decide)]
    rfl
  · injection h with h
    subst h
    right
    rw [String.data_append, List.take_append_of_le_length (by decide)]
    rfl

theorem not_unknownOperator_undefined :
    ¬ UnknownOperator CodeGenFailure.undefinedBehaviour := by
  rintro ⟨op, h | h⟩ <;> exact CodeGenFailure.noConfusion h

/-- A message that starts with bytes other than those of the messages about an
unknown operator is not one of them. -/
theorem not_unknownOperator_append (a b : String) (ha : 9 ≤ a.data.length)
    (h1 : a.data.take 9 ≠ "Unknown b".data) (h2 : a.data.take 9 ≠ "Unknown u".data) :
    ¬ UnknownOperator (CodeGenFailure.CodeGenError (a ++ b)) := by
  intro h
  rcases unknownOperator_head h with h | h <;>
    rw [String.data_append, List.take_append_of_le_length ha] at h
  · exact h1 h
  · exact h2 h

theorem not_unknownOperator_literal (a : String)
    (h1 : a.data.take 9 ≠ "Unknown b".data) (h2 : a.data.take 9 ≠ "Unknown u".data) :
    ¬ UnknownOperator (CodeGenFailure.CodeGenError a) := by
  intro h
  rcases unknownOperator_head h with h | h
  · exact h1 h
  · exact h2 h

mutual

/-- A visit of an expression whose operators are known does not fail on an
unknown operator. -/
theorem visitExpression_known (llvm : LLVM.Backend) :
    ∀ (e : Expression) (g : CodeGenerator) (x : CodeGenFailure × CodeGenerator),
      e.knownOperators = true → visitExpression llvm e g = Except.error x →
      ¬ UnknownOperator x.1
  | Expression.NumberLiteral value, g, x, _, h => by
    rw [visitExpression] at h
    exact Except.noConfusion h
  | Expression.BooleanLiteral value, g, x, _, h => by
    rw [visitExpression] at h
    exact Except.noConfusion h
  | Expression.Variable name, g, x, _, h => by
    rw [visitExpression] at h
    split at h
    · injection h with h
      subst h
      exact not_unknownOperator_append _ _ (by decide) (by decide) (by decide)
    · exact Except.noConfusion h
  | Expression.BinaryOperation left operator_ right, g, x, hk, h => by
    obtain ⟨k1, k2, k3⟩ := knownOperators_binary hk
    rw [visitExpression] at h
    cases hl : visitExpression llvm left g with
    | error y =>
      rw [hl] at h
      injection h with h
      subst h
      exact visitExpression_known llvm left g y k1 hl
    | ok g1 =>
      rw [hl] at h
      dsimp only at h
      cases hr : visitExpression llvm right g1 with
      | error y =>
        rw [hr] at h
        injection h with h
        subst h
        exact visitExpression_known llvm right g1 y k3 hr
      | ok g2 =>
        rw [hr] at h
        dsimp only at h
        split at h
        · next l r _ _ =>
          split at h
          · exact Except.noConfusion h
          · next hn => exact absurd hn (binaryInstruction_known llvm g2 l r k2)
        · injection h with h
          subst h
          exact not_unknownOperator_literal _ (by decide) (by decide)
  | Expression.UnaryOperation operator_ operand, g, x, hk, h => by
    obtain ⟨k1, k2⟩ := knownOperators_unary hk
    rw [visitExpression] at h
    cases hl : visitExpression llvm operand g with
    | error y =>
      rw [hl] at h
      injection h with h
      subst h
      exact visitExpression_known llvm operand g y k2 hl
    | ok g1 =>
      rw [hl] at h
      dsimp only at h
      split at h
      · injection h with h
        subst h
        exact not_unknownOperator_literal _ (by decide) (by decide)
      · next v _ =>
        split at h
        · exact Except.noConfusion h
        · next hn => exact absurd hn (unaryInstruction_known llvm g1 v k1)
  | Expression.FunctionCall name arguments, g, x, hk, h => by
    rw [Expression.knownOperators] at hk
    rw [visitExpression] at h
    split at h
    · injection h with h
      subst h
      exact not_unknownOperator_append _ _ (by decide) (by decide) (by decide)
    · split at h
      · injection h with h
        subst h
        exact not_unknownOperator_undefined
      · split at h
        · injection h with h
          subst h
          exact not_unknownOperator_append _ _ (by decide) (by decide) (by decide)
        · cases ha : visitArguments llvm arguments [] g with
          | error y =>
            rw [ha] at h
            injection h with h
            subst h
            exact visitArguments_known llvm arguments [] g y hk ha
          | ok r =>
            rw [ha] at h
            exact Except.noConfusion h

/-- The loop over the arguments of a call whose operators are known does not
fail on an unknown operator. -/
theorem visitArguments_known (llvm : LLVM.Backend) :
    ∀ (arguments : List Expression) (args : List LLVM.Value) (g : CodeGenerator)
      (x : CodeGenFailure × CodeGenerator),
      Expression.knownOperatorsList arguments = true →
      visitArguments llvm arguments args g = Except.error x → ¬ UnknownOperator x.1
  | [], args, g, x, _, h => by
    rw [visitArguments] at h
    exact Except.noConfusion h
  | arg :: rest, args, g, x, hk, h => by
    rw [Expression.knownOperatorsList] at hk
    simp only [Bool.and_eq_true] at hk
    rw [visitArguments] at h
    cases hl : visitExpression llvm arg g with
    | error y =>
      rw [hl] at h
      injection h with h
      subst h
      exact visitExpression_known llvm arg g y hk.1 hl
    | ok g1 =>
      rw [hl] at h
      dsimp only at h
      split at h
      · injection h with h
        subst h
        exact not_unknownOperator_literal _ (by decide) (by decide)
      · next v _ => exact visitArguments_known llvm rest (args ++ [v]) g1 x hk.2 h

end

end CodeGenerator
namespace CodeGenerator

theorem insertFunction_known {g : CodeGenerator} {x : CodeGenFailure × CodeGenerator}
    (h : g.insertFunction = Except.error x) : ¬ UnknownOperator x.1 := by
  unfold insertFunction at h
  split at h
  · injection h with h; subst h; exact not_unknownOperator_undefined
  · split at h
    · injection h with h; subst h; exact not_unknownOperator_undefined
    · exact Except.noConfusion h

theorem hasTerminator_known {g : CodeGenerator} {x : CodeGenFailure × CodeGenerator}
    (h : g.hasTerminator = Except.error x) : ¬ UnknownOperator x.1 := by
  unfold hasTerminator at h
  split at h
  · injection h with h; subst h; exact not_unknownOperator_undefined
  · split at h
    · injection h with h; subst h; exact not_unknownOperator_undefined
    · exact Except.noConfusion h

theorem createEntryBlockAlloca_known {g : CodeGenerator} {function : Nat} {varName : String}
    {x : CodeGenFailure × CodeGenerator}
    (h : g.createEntryBlockAlloca function varName = Except.error x) :
    ¬ UnknownOperator x.1 := by
  unfold createEntryBlockAlloca at h
  split at h
  · injection h with h; subst h; exact not_unknownOperator_undefined
  · split at h
    · injection h with h; subst h; exact not_unknownOperator_undefined
    · exact Except.noConfusion h

theorem branchUnlessTerminated_known {g : CodeGenerator} {dest : Nat}
    {x : CodeGenFailure × CodeGenerator}
    (h : branchUnlessTerminated g dest = Except.error x) : ¬ UnknownOperator x.1 := by
  unfold branchUnlessTerminated at h
  split at h
  · next e he => injection h with h; subst h; exact hasTerminator_known he
  · exact Except.noConfusion h
  · exact Except.noConfusion h

theorem implicitReturn_known {g : CodeGenerator} {x : CodeGenFailure × CodeGenerator}
    (h : implicitReturn g = Except.error x) : ¬ UnknownOperator x.1 := by
  unfold implicitReturn at h
  split at h
  · next e he => injection h with h; subst h; exact hasTerminator_known he
  · exact Except.noConfusion h
  · exact Except.noConfusion h

theorem parameterAllocas_known (function : Nat) :
    ∀ (names : List String) (index : Nat) (g : CodeGenerator)
      (x : CodeGenFailure × CodeGenerator),
      parameterAllocas function names index g = Except.error x → ¬ UnknownOperator x.1
  | [], index, g, x, h => by
    rw [parameterAllocas] at h
    exact Except.noConfusion h
  | name :: rest, index, g, x, h => by
    rw [parameterAllocas] at h
    split at h
    · next e he => injection h with h; subst h; exact createEntryBlockAlloca_known he
    · exact parameterAllocas_known function rest _ _ x h

theorem enterFunction_known {g : CodeGenerator} {name : String} {parameters : List String}
    {x : CodeGenFailure × CodeGenerator}
    (h : enterFunction g name parameters = Except.error x) : ¬ UnknownOperator x.1 := by
  unfold enterFunction at h
  split at h
  · next e he => injection h with h; subst h; exact parameterAllocas_known _ _ _ _ _ he
  · exact Except.noConfusion h

theorem verify_known {llvm : LLVM.Backend} {g : CodeGenerator} {function : Nat} {name : String}
    {x : CodeGenFailure × CodeGenerator}
    (h : verify llvm g function name = Except.error x) : ¬ UnknownOperator x.1 := by
  unfold verify at h
  split at h
  · injection h with h; subst h; exact not_unknownOperator_undefined
  · split at h
    · injection h with h
      subst h
      exact not_unknownOperator_append _ _ (by decide) (by decide) (by decide)
    · exact Except.noConfusion h

theorem knownOperators_if {condition : Expression} {thenBranch : Statement}
    {elseBranch : Option Statement}
    (h : (Statement.IfStatement condition thenBranch elseBranch).knownOperators = true) :
    condition.knownOperators = true ∧ thenBranch.knownOperators = true ∧
      Statement.knownOperatorsOption elseBranch = true := by
  rw [Statement.knownOperators] at h
  simp only [Bool.and_eq_true] at h
  exact ⟨h.1.1, h.1.2, h.2⟩

theorem knownOperators_while {condition : Expression} {body : Statement}
    (h : (Statement.WhileStatement condition body).knownOperators = true) :
    condition.knownOperators = true ∧ body.knownOperators = true := by
  rw [Statement.knownOperators] at h
  simp only [Bool.and_eq_true] at h
  exact h

mutual

/-- A visit of a statement whose operators are known does not fail on an
unknown operator. -/
theorem visitStatement_known (llvm : LLVM.Backend) :
    ∀ (s : Statement) (g : CodeGenerator) (x : CodeGenFailure × CodeGenerator),
      s.knownOperators = true → visitStatement llvm s g = Except.error x →
      ¬ UnknownOperator x.1
  | Statement.VariableDeclaration name initializer, g, x, hk, h => by
    rw [Statement.knownOperators] at hk
    rw [visitStatement] at h
    split at h
    · next e he => injection h with h; subst h; exact insertFunction_known he
    · split at h
      · next e he => injection h with h; subst h; exact createEntryBlockAlloca_known he
      · split at h
        · next e he =>
          injection h with h
          subst h
          split at he
          · next e1 => exact visitExpression_known llvm e1 _ _ hk he
          · exact Except.noConfusion he
        · split at h
          · injection h with h; subst h; exact not_unknownOperator_undefined
          · exact Except.noConfusion h
  | Statement.Assignment name value, g, x, hk, h => by
    rw [Statement.knownOperators] at hk
    rw [visitStatement] at h
    split at h
    · injection h with h
      subst h
      exact not_unknownOperator_append _ _ (by decide) (by decide) (by decide)
    · split at h
      · next e he => injection h with h; subst h; exact visitExpression_known llvm value _ _ hk he
      · split at h
        · injection h with h
          subst h
          exact not_unknownOperator_literal _ (by decide) (by decide)
        · exact Except.noConfusion h
  | Statement.IfStatement condition thenBranch elseBranch, g, x, hk, h => by
    obtain ⟨k1, k2, k3⟩ := knownOperators_if hk
    rw [visitStatement] at h
    split at h
    · next e he =>
      injection h with h; subst h; exact visitExpression_known llvm condition _ _ k1 he
    · split at h
      · injection h with h
        subst h
        exact not_unknownOperator_literal _ (by decide) (by decide)
      · split at h
        split at h
        · next e he => injection h with h; subst h; exact insertFunction_known he
        · split at h
          split at h
          · next e he =>
            injection h with h; subst h
            exact visitStatement_known llvm thenBranch _ _ k2 he
          · split at h
            · next e he => injection h with h; subst h; exact branchUnlessTerminated_known he
            · split at h
              · next e he =>
                injection h with h; subst h
                exact visitElse_known llvm elseBranch _ _ _ _ k3 he
              · exact Except.noConfusion h
  | Statement.WhileStatement condition body, g, x, hk, h => by
    obtain ⟨k1, k2⟩ := knownOperators_while hk
    rw [visitStatement] at h
    split at h
    · next e he => injection h with h; subst h; exact insertFunction_known he
    · split at h
      split at h
      · next e he =>
        injection h with h; subst h; exact visitExpression_known llvm condition _ _ k1 he
      · split at h
        · injection h with h
          subst h
          exact not_unknownOperator_literal _ (by decide) (by decide)
        · split at h
          split at h
          · next e he =>
            injection h with h; subst h
            exact visitStatement_known llvm body _ _ k2 he
          · split at h
            · next e he => injection h with h; subst h; exact branchUnlessTerminated_known he
            · exact Except.noConfusion h
  | Statement.Block statements, g, x, hk, h => by
    rw [Statement.knownOperators] at hk
    rw [visitStatement] at h
    exact visitStatements_known llvm statements g x hk h
  | Statement.FunctionDeclaration name parameters body, g, x, hk, h => by
    rw [Statement.knownOperators] at hk
    rw [visitStatement] at h
    split at h
    · next e he => injection h with h; subst h; exact enterFunction_known he
    · split at h
      · next e he =>
        injection h with h; subst h
        exact visitStatements_known llvm body _ _ hk he
      · split at h
        · next e he => injection h with h; subst h; exact implicitReturn_known he
        · split at h
          · next e he => injection h with h; subst h; exact verify_known he
          · exact Except.noConfusion h
  | Statement.ReturnStatement value, g, x, hk, h => by
    rw [Statement.knownOperators] at hk
    cases value with
    | none =>
      rw [visitStatement] at h
      exact Except.noConfusion h
    | some e =>
      rw [visitStatement] at h
      split at h
      · next y he => injection h with h; subst h; exact visitExpression_known llvm e _ _ hk he
      · split at h
        · injection h with h; subst h; exact not_unknownOperator_undefined
        · exact Except.noConfusion h
  | Statement.ExpressionStatement expression, g, x, hk, h => by
    rw [Statement.knownOperators] at hk
    rw [visitStatement] at h
    exact visitExpression_known llvm expression g x hk h

/-- The else part of an `if` whose operators are known does not fail on an
unknown operator. -/
theorem visitElse_known (llvm : LLVM.Backend) :
    ∀ (elseBranch : Option Statement) (elseBlock : Option Nat) (mergeBlock : Nat)
      (g : CodeGenerator) (x : CodeGenFailure × CodeGenerator),
      Statement.knownOperatorsOption elseBranch = true →
      visitElse llvm elseBranch elseBlock mergeBlock g = Except.error x →
      ¬ UnknownOperator x.1
  | none, elseBlock, mergeBlock, g, x, _, h => by
    rw [visitElse] at h
    exact Except.noConfusion h
  | some s, elseBlock, mergeBlock, g, x, hk, h => by
    rw [Statement.knownOperatorsOption] at hk
    rw [visitElse] at h
    split at h
    · next e he => injection h with h; subst h; exact visitStatement_known llvm s _ _ hk he
    · exact branchUnlessTerminated_known h

/-- A visit of statements whose operators are known does not fail on an
unknown operator. -/
theorem visitStatements_known (llvm : LLVM.Backend) :
    ∀ (statements : List Statement) (g : CodeGenerator) (x : CodeGenFailure × CodeGenerator),
      Statement.knownOperatorsList statements = true →
      visitStatements llvm statements g = Except.error x → ¬ UnknownOperator x.1
  | [], g, x, _, h => by
    rw [visitStatements] at h
    exact Except.noConfusion h
  | s :: rest, g, x, hk, h => by
    rw [Statement.knownOperatorsList] at hk
    simp only [Bool.and_eq_true] at hk
    rw [visitStatements] at h
    split at h
    · next e he => injection h with h; subst h; exact visitStatement_known llvm s _ _ hk.1 he
    · exact visitStatements_known llvm rest _ x hk.2 h

end

end CodeGenerator
/-- C33. Operators reaching the generator are always known. If the parser
returns a program for the tokens of the source `s`, then every
`BinaryOperation` of the program has its operator among `+`, `-`, `*`, `/`,
`<`, `<=`, `>`, `>=`, `==`, `!=`, `&&`, `||` and every `UnaryOperation` has its
operator among `-`, `!`, and lowering the program, from any state of the
generator, does not fail with "Unknown binary operator" or "Unknown unary
operator". -/
theorem operators_known (llvm : LLVM.Backend) (s : String) (program : Program)
    (h : parseSource s = some (Except.ok program)) :
    program.knownOperators = true ∧
    ∀ g x, CodeGenerator.generate llvm program g = Except.error x →
      ¬ CodeGenerator.UnknownOperator x.1 := by
  have hk : program.knownOperators = true := by
    unfold parseSource at h
    cases ht : tokenize s with
    | none => rw [ht] at h; exact Option.noConfusion h
    | some tokens =>
      rw [ht] at h
      exact Parser.parse_known (fun c t hc => Lexer.tokenize_spelled ht c t hc)
        (Option.some.inj h)
  exact ⟨hk, fun g x hx => CodeGenerator.visitStatements_known llvm _ g x hk hx⟩

theorem operators_known_witness :
    parseSource "-1 + 2;" = some (Except.ok ⟨[Statement.ExpressionStatement
      (Expression.BinaryOperation (Expression.UnaryOperation "-" (Expression.NumberLiteral 1))
        "+" (Expression.NumberLiteral 2))]⟩) ∧
    (Program.mk [Statement.ExpressionStatement
      (Expression.BinaryOperation (Expression.UnaryOperation "-" (Expression.NumberLiteral 1))
        "+" (Expression.NumberLiteral 2))]).knownOperators = true :=
  ⟨by decide!, (operators_known LLVM.exampleBackend "-1 + 2;" _ (by decide!)).1⟩
